import Mathlib

/-!
# ThorVG software engine: outline to run-length spans

A shallow embedding of `src/lib/sw_engine/tvgSwRle.cpp`.

* `SwCoord` and `Area` are C `long`; they are embedded as `Int`.  Signed
  arithmetic is exact (signed overflow is undefined in C++), while every
  narrowing conversion the source performs (`static_cast<int>`, the `int`
  locals of `_sweep`, the `(unsigned)` casts of `_setCell`, the 16-bit and
  8-bit fields of a span, the `unsigned long` product of `SW_UDIV`) is
  written out with an explicit modulus.
* `x >> k` on a signed value is the arithmetic shift, `x / 2 ^ k` rounded
  down; `x << k` is `x * 2 ^ k`; `/` on C integers is `Int.tdiv`.
* The worker `RleWorker` is passed explicitly.  A function that can leave
  through `longjmp` or step outside what the source defines returns
  `Except Abort _`.
* Loops are recursive functions.  A loop whose trip count is not evident
  from its syntax carries a fuel argument; running out of fuel is reported
  as `Abort.undefined` and never as a result.
-/

namespace ThorVG

/-! ## Machine integers -/

/-- Conversion to a 32-bit two's complement `int`. -/
def toI32 (v : Int) : Int := (v + 2147483648) % 4294967296 - 2147483648

/-- Conversion to a 32-bit `unsigned`. -/
def toU32 (v : Int) : Int := v % 4294967296

/-- Conversion to a 64-bit `unsigned long`. -/
def toU64 (v : Int) : Int := v % 18446744073709551616

/-- Conversion to `int16_t`. -/
def toI16 (v : Int) : Int := (v + 32768) % 65536 - 32768

/-- Conversion to `uint16_t`. -/
def toU16 (v : Int) : Int := v % 65536

/-- Conversion to `uint8_t`. -/
def toU8 (v : Int) : Int := v % 256

/-- Arithmetic right shift of a signed value. -/
def shr (v : Int) (k : Nat) : Int := v / 2 ^ k

/-- Left shift of a signed value. -/
def shl (v : Int) (k : Nat) : Int := v * 2 ^ k

/-! ## Constants -/

def MAX_SPANS : Nat := 256
def PIXEL_BITS : Nat := 8
def ONE_PIXEL : Int := 256
def SHRT_MAX : Int := 32767
/-- Bytes of the cell pool `buffer` of `rleRender`. -/
def RENDER_POOL_SIZE : Int := 16384
/-- Entries of the band stack `bands` of `rleRender`. -/
def BAND_SIZE : Nat := 40
/-- The value of `sizeof(Cell)` on an LP64 target: two `long`, one `Area`, one
pointer.  The source's own note `bandSize: 64` is this value. -/
def sizeofCell : Int := 32
/-- The value of `sizeof(Cell*)` on an LP64 target. -/
def sizeofCellPtr : Int := 8
/-- Entries of `RleWorker::bezStack`. -/
def BEZ_STACK : Nat := 32 * 3 + 1

/-! ## Data model -/

/-- Modelled from the spec: `SwCoord` of `tvgSwCommon.h` (not among the sources),
a signed integer sub-pixel coordinate, a C `long`.  The fields and arguments of that
type are written `Int` below. -/
abbrev SwCoord := Int

/-- The type `Area` of the source (`long`); written `Int` below. -/
abbrev Area := Int

/-- Modelled from the spec: `SwPoint` of `tvgSwCommon.h`, a 2D point with
`SwCoord` components and componentwise `+`, `-`, `==`. -/
structure SwPoint where
  x : Int
  y : Int
deriving DecidableEq, Repr

instance : Add SwPoint := ⟨fun a b => ⟨a.x + b.x, a.y + b.y⟩⟩
instance : Sub SwPoint := ⟨fun a b => ⟨a.x - b.x, a.y - b.y⟩⟩

/-- Modelled from the spec: `SwSize` of `tvgSwCommon.h`. -/
structure SwSize where
  w : Int
  h : Int
deriving DecidableEq, Repr

/-- Modelled from the spec: `SwBBox` of `tvgSwCommon.h`. -/
structure SwBBox where
  min : SwPoint
  max : SwPoint
deriving DecidableEq, Repr

/-- Modelled from the spec: the span `{x:i16, y:i16, len:u16, coverage:u8}`.
The fields hold the values of those machine types; every store goes through
`toI16`, `toU16` or `toU8`. -/
structure SwSpan where
  x : Int
  y : Int
  len : Int
  coverage : Int
deriving DecidableEq, Repr

/-- Modelled from the spec: the RLE data, an array of spans with its capacity
`alloc`; `spans` is the live part of the array, so `size` is its length. -/
structure SwRleData where
  spans : List SwSpan
  alloc : Nat
deriving DecidableEq, Repr

def SwRleData.size (rle : SwRleData) : Nat := rle.spans.length

/-- Modelled from the spec: the fill rule of an outline. -/
inductive FillRule where
  | Winding
  | EvenOdd
deriving DecidableEq, Repr

/-- The point tag `SW_CURVE_TYPE_POINT`. -/
def SW_CURVE_TYPE_POINT : Nat := 0
/-- The point tag `SW_CURVE_TYPE_CUBIC`. -/
def SW_CURVE_TYPE_CUBIC : Nat := 1

/-- Modelled from the spec: the outline, `points`, the parallel `types`, the
last point index of every contour, and the fill rule. -/
structure SwOutline where
  cntrs : List Nat
  pts : List SwPoint
  types : List Nat
  fillRule : FillRule
deriving DecidableEq, Repr

structure Band where
  min : Int
  max : Int
deriving DecidableEq, Repr

/-- A cell of a scanline list; `next` is the tail of the list that holds it. -/
structure Cell where
  x : Int
  cover : Int
  area : Int
deriving DecidableEq, Repr

/-- The worker.  `spans` is the live part `spans[0 .. spansCnt)` of the local span
buffer, so `spansCnt` is its length; `yCells` is the array of scanline lists, one
per scanline of the band; of the cell arena only the counters are kept. -/
structure RleWorker where
  rle : SwRleData
  cellPos : SwPoint
  cellMin : SwPoint
  cellMax : SwPoint
  cellXCnt : Int
  cellYCnt : Int
  area : Int
  cover : Int
  maxCells : Int
  cellsCnt : Int
  pos : SwPoint
  outline : SwOutline
  spans : List SwSpan
  ySpan : Int
  bandSize : Int
  bandShoot : Int
  yCells : List (List Cell)
  yCnt : Int
  clip : SwSize
  invalid : Bool
  antiAlias : Bool
deriving Repr

def RleWorker.spansCnt (rw : RleWorker) : Nat := rw.spans.length

/-- How a worker function leaves other than by returning. -/
inductive Abort where
  /-- The jump `longjmp(rw.jmpBuf, 1)` of `_findCell`, with the worker as it is then. -/
  | overflow (rw : RleWorker)
  /-- The source does not define what happens: an access outside an array, or a
  loop that has not ended within its fuel. -/
  | undefined
deriving Repr

/-! ## Coordinate helpers -/

def UPSCALE (pt : SwPoint) : SwPoint := ⟨shl pt.x (PIXEL_BITS - 6), shl pt.y (PIXEL_BITS - 6)⟩

def TRUNC (x : Int) : Int := shr x PIXEL_BITS

def TRUNCpt (pt : SwPoint) : SwPoint := ⟨shr pt.x PIXEL_BITS, shr pt.y PIXEL_BITS⟩

def SUBPIXELS (x : Int) : Int := shl x PIXEL_BITS

def SUBPIXELSpt (pt : SwPoint) : SwPoint := ⟨shl pt.x PIXEL_BITS, shl pt.y PIXEL_BITS⟩

/-- The greatest coordinate, in absolute value, whose triple fits the 64-bit `SwCoord`:
`(2^63 - 1) / 3`.  Within it no operation of `HYPOT` overflows. -/
def HYPOT_RANGE : Int := 3074457345618258602

/-- The function `HYPOT`.  The arithmetic is exact here.  In the source the product
`3 * pt.x` is that of a 64-bit `SwCoord`, which overflows for a coordinate above
`(2^63 - 1) / 3` in absolute value: the value given here is that of the code for the
coordinates within `HYPOT_RANGE`. -/
def HYPOT (pt : SwPoint) : Int :=
  let x := if pt.x < 0 then -pt.x else pt.x
  let y := if pt.y < 0 then -pt.y else pt.y
  if x > y then x + shr (3 * y) 3 else y + shr (3 * x) 3

/-! ## Span generation -/

/-- The function `_genSpan`: append the `count = spans.length` buffered spans to the RLE. -/
def _genSpan (rle : SwRleData) (spans : List SwSpan) : SwRleData :=
  let newSize := rle.size + spans.length
  { spans := rle.spans ++ spans,
    alloc := if rle.alloc < newSize then newSize * 2 else rle.alloc }

/-- The coverage `_horizLine` derives from the raw area `area` (source lines 169 to 180).
The negation of line 171 is exact here.  In the source it is that of an `int`, which
overflows when the shifted area is `INT_MIN`, that is for an area whose shift by 9 is
`-2^31` after the cast: for such an area the value given here is not that of the code,
and a statement about the value of the coverage leaves these areas out. -/
def coverageOf (fillRule : FillRule) (area : Int) : Int :=
  let coverage := toI32 (shr area (PIXEL_BITS * 2 + 1 - 8))
  let coverage := if coverage < 0 then -coverage else coverage
  if fillRule = FillRule.EvenOdd then
    let coverage := Int.land coverage 511
    if coverage > 256 then 512 - coverage
    else if coverage = 256 then 255
    else coverage
  else
    if coverage ≥ 256 then 255 else coverage

/-- The value of `xOver` after the two tests of a `Clip x range` block. -/
def clipXOver (clipW x acount : Int) : Int :=
  let xOver := 0
  let xOver := if x + acount ≥ clipW then xOver - (x + acount - clipW) else xOver
  if x < 0 then xOver + x else xOver

/-- The first block of `_horizLine` under `coverage > 0` (`see whether we can add this
span to the current list`): the worker with its last span lengthened, or `none` when the
test fails. -/
def mergeSpan (rw : RleWorker) (x y coverage acount : Int) : Option RleWorker :=
  match rw.spans.getLast? with
  | none => none
  | some span =>
    if rw.ySpan = y ∧ span.x + span.len = x ∧ span.coverage = coverage then
      let xOver := clipXOver rw.clip.w x acount
      some { rw with
        spans := rw.spans.dropLast ++ [{ span with len := toU16 (span.len + (acount + xOver)) }] }
    else none

/-- The block `if (count >= MAX_SPANS)` of `_horizLine`. -/
def flushIfFull (rw : RleWorker) : RleWorker :=
  if rw.spansCnt ≥ MAX_SPANS then
    { rw with rle := _genSpan rw.rle rw.spans, spans := [], ySpan := 0 }
  else rw

/-- The end of `_horizLine`: clip the run in `x` and add it as a new span. -/
def addSpan (rw : RleWorker) (x y coverage acount : Int) : RleWorker :=
  let xOver := clipXOver rw.clip.w x acount
  let x := if x < 0 then 0 else x
  if acount + xOver ≤ 0 then rw
  else
    { rw with
      spans := rw.spans ++
        [{ x := toI16 x, y := toI16 y, len := toU16 (acount + xOver), coverage := toU8 coverage }],
      ySpan := toI32 y }

/-- The body of `if (coverage > 0)` in `_horizLine`, after `if (!rw.antiAlias)`. -/
def emitSpan (rw : RleWorker) (x y coverage acount : Int) : RleWorker :=
  match mergeSpan rw x y coverage acount with
  | some rw1 => rw1
  | none => addSpan (flushIfFull rw) x y coverage acount

/-- The function `_horizLine`. -/
def _horizLine (rw : RleWorker) (x y area acount : Int) : RleWorker :=
  let x := x + rw.cellMin.x
  let y := y + rw.cellMin.y
  if y < 0 then rw
  else if y ≥ rw.clip.h then rw
  else
    let coverage := coverageOf rw.outline.fillRule area
    let x := if x ≥ SHRT_MAX then SHRT_MAX else x
    let y := if y ≥ SHRT_MAX then SHRT_MAX else y
    if coverage > 0 then
      emitSpan rw x y (if !rw.antiAlias then 255 else coverage) acount
    else rw

/-- The calls of `_horizLine` in one turn of the `while (cell)` loop of `_sweep`, for
the cell `cell` of scanline `y`; `cover` and `x` are the `int` locals before the turn. -/
def sweepCell (y : Int) (rw : RleWorker) (cell : Cell) (cover x : Int) : RleWorker :=
  let rw := if cell.x > x ∧ cover ≠ 0 then
      _horizLine rw x y (cover * (ONE_PIXEL * 2)) (cell.x - x) else rw
  let cover := toI32 (cover + cell.cover)
  let area := cover * (ONE_PIXEL * 2) - cell.area
  if area ≠ 0 ∧ cell.x ≥ 0 then _horizLine rw cell.x y area 1 else rw

/-- The `while (cell)` loop of `_sweep` on scanline `y`; `cover` and `x` are the
`int` locals of the source. -/
def sweepCells (y : Int) : RleWorker → List Cell → Int → Int → RleWorker × Int × Int
  | rw, [], cover, x => (rw, cover, x)
  | rw, cell :: next, cover, x =>
    sweepCells y (sweepCell y rw cell cover x) next (toI32 (cover + cell.cover)) (toI32 (cell.x + 1))

/-- The body of the `for` loop of `_sweep` for scanline `y` with cell list `row`. -/
def sweepRow (rw : RleWorker) (y : Int) (row : List Cell) : RleWorker :=
  let r := sweepCells y rw row 0 0
  if r.2.1 ≠ 0 then _horizLine r.1 r.2.2 y (r.2.1 * (ONE_PIXEL * 2)) (r.1.cellXCnt - r.2.2)
  else r.1

/-- The `for` loop of `_sweep` from scanline `y` on, over the remaining scanline lists. -/
def sweepRows : RleWorker → Int → List (List Cell) → RleWorker
  | rw, _, [] => rw
  | rw, y, row :: rows => sweepRows (sweepRow rw y row) (y + 1) rows

/-- The function `_sweep`. -/
def _sweep (rw : RleWorker) : RleWorker :=
  if rw.cellsCnt = 0 then rw
  else
    let rw := { rw with spans := [], ySpan := 0 }
    let rw := sweepRows rw 0 rw.yCells
    if rw.spansCnt > 0 then { rw with rle := _genSpan rw.rle rw.spans } else rw

/-! ## Cells -/

/-- Replace the entry at index `i` of a list by its image under `f`. -/
def modifyAt {α : Type} (f : α → α) : Nat → List α → List α
  | _, [] => []
  | 0, a :: l => f a :: l
  | n + 1, a :: l => a :: modifyAt f n l

/-- The walk of `_findCell` along one scanline list for the abscissa `x`: the list with
the cell of abscissa `x` in it (a new cell of zero area and cover is linked in where the
walk breaks off), the index of that cell, and whether it is new. -/
def findInRow (x : Int) : List Cell → List Cell × Nat × Bool
  | [] => ([⟨x, 0, 0⟩], 0, true)
  | cell :: next =>
    if cell.x > x then (⟨x, 0, 0⟩ :: cell :: next, 0, true)
    else if cell.x = x then (cell :: next, 0, false)
    else
      let r := findInRow x next
      (cell :: r.1, r.2.1 + 1, r.2.2)

/-- The function `_findCell`; the cell it returns is named by its index in the scanline
list of row `cellPos.y`.  Reading `yCells` outside the band is undefined. -/
def _findCell (rw : RleWorker) : Except Abort (RleWorker × Nat) :=
  let x := if rw.cellPos.x > rw.cellXCnt then rw.cellXCnt else rw.cellPos.x
  if rw.cellPos.y < 0 then .error .undefined
  else
    match rw.yCells[rw.cellPos.y.toNat]? with
    | none => .error .undefined
    | some row =>
      let r := findInRow x row
      if r.2.2 then
        if rw.cellsCnt ≥ rw.maxCells then .error (.overflow rw)
        else .ok ({ rw with cellsCnt := rw.cellsCnt + 1,
                            yCells := rw.yCells.set rw.cellPos.y.toNat r.1 }, r.2.1)
      else .ok (rw, r.2.1)

/-- The function `_recordCell`; `rw.area | rw.cover` is non-zero when one of the two is. -/
def _recordCell (rw : RleWorker) : Except Abort RleWorker :=
  if rw.area ≠ 0 ∨ rw.cover ≠ 0 then
    match _findCell rw with
    | .error e => .error e
    | .ok (rw1, i) =>
      let add : Cell → Cell := fun cell =>
        { cell with area := cell.area + rw1.area, cover := cell.cover + rw1.cover }
      .ok { rw1 with yCells := modifyAt (modifyAt add i) rw1.cellPos.y.toNat rw1.yCells }
  else .ok rw

/-- The cell `_setCell` moves to for the pixel `pos`: relative to `cellMin`, clamped at
`cellMax.x` on the right and sent to `-1` on the left of the band. -/
def cellOf (rw : RleWorker) (pos : SwPoint) : SwPoint :=
  let pos : SwPoint := { pos with y := pos.y - rw.cellMin.y }
  let pos : SwPoint := if pos.x > rw.cellMax.x then { pos with x := rw.cellMax.x } else pos
  let pos : SwPoint := { pos with x := pos.x - rw.cellMin.x }
  if pos.x < 0 then { pos with x := -1 } else pos

/-- The last statements of `_setCell`: make `pos` the current cell, with nothing
accumulated, and mark whether it lies outside the band. -/
def enterCell (rw : RleWorker) (pos : SwPoint) : RleWorker :=
  { rw with area := 0, cover := 0, cellPos := pos,
            invalid := decide (toU32 pos.y ≥ toU32 rw.cellYCnt ∨ pos.x ≥ rw.cellXCnt) }

/-- The function `_setCell`. -/
def _setCell (rw : RleWorker) (pos : SwPoint) : Except Abort RleWorker :=
  let pos := cellOf rw pos
  let recorded : Except Abort RleWorker :=
    if pos ≠ rw.cellPos then
      if !rw.invalid then _recordCell rw else .ok rw
    else .ok rw
  match recorded with
  | .error e => .error e
  | .ok rw => .ok (enterCell rw pos)

/-- The pixel `_startCell` starts at: `pos` with its `x` clamped to `[cellMin.x, cellMax.x]`. -/
def startPos (rw : RleWorker) (pos : SwPoint) : SwPoint :=
  let pos : SwPoint := if pos.x > rw.cellMax.x then { pos with x := rw.cellMax.x } else pos
  if pos.x < rw.cellMin.x then { pos with x := rw.cellMin.x } else pos

/-- The four assignments of `_startCell` for the clamped pixel `pos`. -/
def startAt (rw : RleWorker) (pos : SwPoint) : RleWorker :=
  { rw with area := 0, cover := 0, cellPos := pos - rw.cellMin, invalid := false }

/-- The function `_startCell`. -/
def _startCell (rw : RleWorker) (pos : SwPoint) : Except Abort RleWorker :=
  let pos := startPos rw pos
  _setCell (startAt rw pos) pos

/-- The function `_moveTo`. -/
def _moveTo (rw : RleWorker) (dst : SwPoint) : Except Abort RleWorker :=
  match (if !rw.invalid then _recordCell rw else .ok rw) with
  | .error e => .error e
  | .ok rw =>
    match _startCell rw (TRUNCpt dst) with
    | .error e => .error e
    | .ok rw => .ok { rw with pos := dst }

/-! ## The edge scanner -/

/-- The macro `SW_UDIV` of `_lineTo`: the `unsigned long` product shifted right by
`sizeof(long) * CHAR_BIT - PIXEL_BITS`. -/
def SW_UDIV (a b : Int) : Int := shr (toU64 (toU64 a * toU64 b)) (64 - PIXEL_BITS)

/-- The value `ULONG_MAX >> PIXEL_BITS` as a `long`. -/
def ULONG_MAX_SHIFTED : Int := shr 18446744073709551615 PIXEL_BITS

/-- Add the edge piece from `f1` to `f2` to the current cell (the two `+=` of `_lineTo`). -/
def addEdge (rw : RleWorker) (f1 f2 : SwPoint) : RleWorker :=
  { rw with cover := rw.cover + (f2.y - f1.y), area := rw.area + (f2.y - f1.y) * (f1.x + f2.x) }

/-- The two `+=` of the vertical loops of `_lineTo`, for the piece from `f1` up or down
to the ordinate `f2y`. -/
def addVertical (rw : RleWorker) (f1 : SwPoint) (f2y : Int) : RleWorker :=
  { rw with cover := rw.cover + (f2y - f1.y), area := rw.area + (f2y - f1.y) * f1.x * 2 }

/-- The `vertical line up` loop of `_lineTo`; returns the worker and `f1`. -/
def lineUp (e2y : Int) : Nat → RleWorker → SwPoint → SwPoint → Except Abort (RleWorker × SwPoint)
  | 0, _, _, _ => .error .undefined
  | fuel + 1, rw, e1, f1 =>
    let f2y := ONE_PIXEL
    let rw := addVertical rw f1 f2y
    let f1 : SwPoint := { f1 with y := 0 }
    let e1 : SwPoint := { e1 with y := e1.y + 1 }
    match _setCell rw e1 with
    | .error e => .error e
    | .ok rw => if e1.y ≠ e2y then lineUp e2y fuel rw e1 f1 else .ok (rw, f1)

/-- The `vertical line down` loop of `_lineTo`; returns the worker and `f1`. -/
def lineDown (e2y : Int) : Nat → RleWorker → SwPoint → SwPoint → Except Abort (RleWorker × SwPoint)
  | 0, _, _, _ => .error .undefined
  | fuel + 1, rw, e1, f1 =>
    let f2y := 0
    let rw := addVertical rw f1 f2y
    let f1 : SwPoint := { f1 with y := ONE_PIXEL }
    let e1 : SwPoint := { e1 with y := e1.y - 1 }
    match _setCell rw e1 with
    | .error e => .error e
    | .ok rw => if e1.y ≠ e2y then lineDown e2y fuel rw e1 f1 else .ok (rw, f1)

/-- One turn of the `any other line` loop of `_lineTo` without its effect on the worker:
the exit point `f2` of the cell, then the next cell `e1`, the entry point `f1` into it and
the next value of `prod`.  The four cases are `left`, `up`, `right`, `down`. -/
def walkStep (diff : SwPoint) (dx_r dy_r : Int) (e1 : SwPoint) (prod : Int) :
    SwPoint × SwPoint × SwPoint × Int :=
  let px := diff.x * ONE_PIXEL
  let py := diff.y * ONE_PIXEL
  if prod ≤ 0 ∧ prod - px > 0 then
    let f2 : SwPoint := ⟨0, SW_UDIV (-prod) (-dx_r)⟩
    (f2, ⟨e1.x - 1, e1.y⟩, ⟨ONE_PIXEL, f2.y⟩, prod - py)
  else if prod - px ≤ 0 ∧ prod - px + py > 0 then
    let prod := prod - px
    let f2 : SwPoint := ⟨SW_UDIV (-prod) dy_r, ONE_PIXEL⟩
    (f2, ⟨e1.x, e1.y + 1⟩, ⟨f2.x, 0⟩, prod)
  else if prod - px + py ≤ 0 ∧ prod + py ≥ 0 then
    let prod := prod + py
    let f2 : SwPoint := ⟨ONE_PIXEL, SW_UDIV prod dx_r⟩
    (f2, ⟨e1.x + 1, e1.y⟩, ⟨0, f2.y⟩, prod)
  else
    let f2 : SwPoint := ⟨SW_UDIV prod (-dy_r), 0⟩
    (f2, ⟨e1.x, e1.y - 1⟩, ⟨f2.x, ONE_PIXEL⟩, prod + px)

/-- The `any other line` loop of `_lineTo`; returns the worker and `f1`. -/
def lineWalk (diff e2 : SwPoint) (dx_r dy_r : Int) :
    Nat → RleWorker → SwPoint → SwPoint → Int → Except Abort (RleWorker × SwPoint)
  | 0, _, _, _, _ => .error .undefined
  | fuel + 1, rw, e1, f1, prod =>
    let step := walkStep diff dx_r dy_r e1 prod
    match _setCell (addEdge rw f1 step.1) step.2.1 with
    | .error e => .error e
    | .ok rw =>
      if step.2.1 ≠ e2 then lineWalk diff e2 dx_r dy_r fuel rw step.2.1 step.2.2.1 step.2.2.2
      else .ok (rw, step.2.2.1)

/-- The part of `_lineTo` between the vertical clipping test and the last two `+=`: the
walk from the cell `e1` of `rw.pos` to the cell `e2` of `dst`; returns the worker and `f1`.
The vertical loops run `|e2.y - e1.y|` times and the general loop one step per cell
boundary between `e1` and `e2`; these are their fuels. -/
def lineScan (rw : RleWorker) (dst : SwPoint) : Except Abort (RleWorker × SwPoint) :=
  let e1 := TRUNCpt rw.pos
  let e2 := TRUNCpt dst
  let diff := dst - rw.pos
  let f1 := rw.pos - SUBPIXELSpt e1
  if e1 = e2 then .ok (rw, f1)
  else if diff.y = 0 then
    match _setCell rw ⟨e2.x, e1.y⟩ with
    | .error e => .error e
    | .ok rw => .ok (rw, f1)
  else if diff.x = 0 then
    if diff.y > 0 then lineUp e2.y (e2.y - e1.y).toNat rw e1 f1
    else lineDown e2.y (e1.y - e2.y).toNat rw e1 f1
  else
    let prod := diff.x * f1.y - diff.y * f1.x
    let dx_r := Int.tdiv ULONG_MAX_SHIFTED diff.x
    let dy_r := Int.tdiv ULONG_MAX_SHIFTED diff.y
    lineWalk diff e2 dx_r dy_r ((e2.x - e1.x).natAbs + (e2.y - e1.y).natAbs) rw e1 f1 prod

/-- Whether `_lineTo` skips the line to `dst` by its vertical clipping test. -/
def lineSkipped (rw : RleWorker) (dst : SwPoint) : Prop :=
  ((TRUNCpt rw.pos).y ≥ rw.cellMax.y ∧ (TRUNCpt dst).y ≥ rw.cellMax.y) ∨
  ((TRUNCpt rw.pos).y < rw.cellMin.y ∧ (TRUNCpt dst).y < rw.cellMin.y)

instance (rw : RleWorker) (dst : SwPoint) : Decidable (lineSkipped rw dst) := by
  unfold lineSkipped; infer_instance

/-- The function `_lineTo`. -/
def _lineTo (rw : RleWorker) (dst : SwPoint) : Except Abort RleWorker :=
  if lineSkipped rw dst then .ok { rw with pos := dst }
  else
    match lineScan rw dst with
    | .error e => .error e
    | .ok (rw, f1) =>
      let e2 := TRUNCpt dst
      let f2 : SwPoint := ⟨dst.x - SUBPIXELS e2.x, dst.y - SUBPIXELS e2.y⟩
      .ok { addEdge rw f1 f2 with pos := dst }

/-! ## Curves -/

/-- Modelled from the spec: `mathSplitCubic` of `tvgSwMath.cpp` (not among the sources),
the midpoint subdivision of one coordinate of a cubic in integer arithmetic.  From
`base[0..3]` it gives `base[0..6]`. -/
def splitCoord (b0 b1 b2 b3 : Int) : List Int :=
  let c := b1
  let d := b2
  let a := Int.tdiv (b0 + c) 2
  let n1 := a
  let b := Int.tdiv (b3 + d) 2
  let n5 := b
  let c := Int.tdiv (c + d) 2
  let a := Int.tdiv (a + c) 2
  let n2 := a
  let b := Int.tdiv (b + c) 2
  let n4 := b
  [b0, n1, n2, Int.tdiv (a + b) 2, n4, n5, b3]

/-- Modelled from the spec: `mathSplitCubic` on the four points `base[0..3]`; the result
lists `base[6], base[5], ..., base[0]`. -/
def mathSplitCubic (b0 b1 b2 b3 : SwPoint) : List SwPoint :=
  (List.zipWith SwPoint.mk (splitCoord b0.x b1.x b2.x b3.x) (splitCoord b0.y b1.y b2.y b3.y)).reverse

/-- The split decision of `_cubicTo` for the arc `arc[0..3]`: true is `goto split`. -/
def cubicSplit (a0 a1 a2 a3 : SwPoint) : Bool :=
  let diff := a3 - a0
  let L := HYPOT diff
  if L > SHRT_MAX then true
  else
    let sLimit := L * (Int.tdiv ONE_PIXEL 6)
    let diff1 := a1 - a0
    let s := diff.y * diff1.x - diff.x * diff1.y
    let s := if s < 0 then -s else s
    if s > sLimit then true
    else
      let diff2 := a2 - a0
      let s := diff.y * diff2.x - diff.x * diff2.y
      let s := if s < 0 then -s else s
      if s > sLimit then true
      else
        decide (diff1.x * (diff1.x - diff.x) + diff1.y * (diff1.y - diff.y) > 0 ∨
                diff2.x * (diff2.x - diff.x) + diff2.y * (diff2.y - diff.y) > 0)

/-- The `while (true)` loop of `_cubicTo`.  The live part of `bezStack` is kept with its
top first: `a3 :: a2 :: a1 :: a0 :: below` is `arc[3], arc[2], arc[1], arc[0]` followed
by `arc[-1], ..., bezStack[0]`.  A split that would write past the end of `bezStack` is
undefined. -/
def cubicLoop : Nat → RleWorker → List SwPoint → Except Abort RleWorker
  | 0, _, _ => .error .undefined
  | fuel + 1, rw, a3 :: a2 :: a1 :: a0 :: below =>
    if cubicSplit a0 a1 a2 a3 then
      if below.length + 7 > BEZ_STACK then .error .undefined
      else cubicLoop fuel rw (mathSplitCubic a0 a1 a2 a3 ++ below)
    else
      match _lineTo rw a0 with
      | .error e => .error e
      | .ok rw => if below = [] then .ok rw else cubicLoop fuel rw (a0 :: below)
  | _ + 1, _, _ => .error .undefined

/-- Fuel of `cubicLoop`: the stack holds at most 32 arcs, so the loop, which either
pushes or pops one arc per turn, cannot run longer without leaving `bezStack`. -/
def CUBIC_FUEL : Nat := 2 ^ 34

/-- The least ordinate of the four points of an arc, as the `for` loop of `_cubicTo`
finds it. -/
def arcMinY (a0 a1 a2 a3 : SwPoint) : Int :=
  let min := a0.y
  let min := if a1.y < min then a1.y else min
  let min := if a2.y < min then a2.y else min
  if a3.y < min then a3.y else min

/-- The greatest ordinate of the four points of an arc, as the `for` loop of `_cubicTo`
finds it. -/
def arcMaxY (a0 a1 a2 a3 : SwPoint) : Int :=
  let max := a0.y
  let max := if a1.y > max then a1.y else max
  let max := if a2.y > max then a2.y else max
  if a3.y > max then a3.y else max

/-- Whether `_cubicTo` takes its short cut: the arc lies wholly below or wholly above
the band. -/
def arcOutside (rw : RleWorker) (a0 a1 a2 a3 : SwPoint) : Prop :=
  TRUNC (arcMinY a0 a1 a2 a3) ≥ rw.cellMax.y ∨ TRUNC (arcMaxY a0 a1 a2 a3) < rw.cellMin.y

instance (rw : RleWorker) (a0 a1 a2 a3 : SwPoint) : Decidable (arcOutside rw a0 a1 a2 a3) := by
  unfold arcOutside; infer_instance

/-- The function `_cubicTo`; `arc[0..3]` are `dst`, `ctrl2`, `ctrl1`, `rw.pos`. -/
def _cubicTo (rw : RleWorker) (ctrl1 ctrl2 dst : SwPoint) : Except Abort RleWorker :=
  if arcOutside rw dst ctrl2 ctrl1 rw.pos then _lineTo rw dst
  else cubicLoop CUBIC_FUEL rw [rw.pos, ctrl1, ctrl2, dst]

/-! ## Outline decomposition -/

/-- How the `while (pt < limit)` loop of `_decomposeOutline` is left. -/
inductive ContourExit where
  /-- The loop condition failed: `_lineTo(rw, start)` follows. -/
  | line
  /-- By `goto close`. -/
  | close
  /-- By `goto invalid_outline`. -/
  | invalid
deriving DecidableEq, Repr

/-- The `while (pt < limit)` loop of `_decomposeOutline`; `pt` is the index of `*pt` in
`outline->pts` (and of `types[0]` in `outline->types`), `limit` the index `last`.  Each
turn advances `pt`, so `limit - pt + 1` turns of fuel are never used up. -/
def contourLoop (o : SwOutline) (limit : Nat) (start : SwPoint) :
    Nat → RleWorker → Nat → Except Abort (RleWorker × ContourExit)
  | 0, _, _ => .error .undefined
  | fuel + 1, rw, pt =>
    if pt < limit then
      let pt := pt + 1
      match o.types[pt]?, o.pts[pt]? with
      | some t0, some p0 =>
        if t0 = SW_CURVE_TYPE_POINT then
          match _lineTo rw (UPSCALE p0) with
          | .error e => .error e
          | .ok rw => contourLoop o limit start fuel rw pt
        else if pt + 1 > limit then .ok (rw, .invalid)
        else
          match o.types[pt + 1]?, o.pts[pt + 1]? with
          | some t1, some p1 =>
            if t1 ≠ SW_CURVE_TYPE_CUBIC then .ok (rw, .invalid)
            else if pt + 2 ≤ limit then
              match o.pts[pt + 2]? with
              | some p2 =>
                match _cubicTo rw (UPSCALE p0) (UPSCALE p1) (UPSCALE p2) with
                | .error e => .error e
                | .ok rw => contourLoop o limit start fuel rw (pt + 2)
              | none => .error .undefined
            else
              match _cubicTo rw (UPSCALE p0) (UPSCALE p1) start with
              | .error e => .error e
              | .ok rw => .ok (rw, .close)
          | _, _ => .error .undefined
      | _, _ => .error .undefined
    else .ok (rw, .line)

/-- The `for` loop of `_decomposeOutline` over the contour ends still to do; `first` is
the index of the first point of the next contour.  The result carries the return value. -/
def decomposeContours (o : SwOutline) : List Nat → Nat → RleWorker → Except Abort (RleWorker × Bool)
  | [], _, rw => .ok (rw, true)
  | last :: more, first, rw =>
    match o.pts[first]?, o.types[first]? with
    | some p, some t =>
      let start := UPSCALE p
      if t = SW_CURVE_TYPE_CUBIC then .ok (rw, false)
      else
        match _moveTo rw start with
        | .error e => .error e
        | .ok rw =>
          match contourLoop o last start (last - first + 1) rw first with
          | .error e => .error e
          | .ok (rw, .invalid) => .ok (rw, false)
          | .ok (rw, .close) => decomposeContours o more (last + 1) rw
          | .ok (rw, .line) =>
            match _lineTo rw start with
            | .error e => .error e
            | .ok rw => decomposeContours o more (last + 1) rw
    | _, _ => .error .undefined

/-- The function `_decomposeOutline`. -/
def _decomposeOutline (rw : RleWorker) : Except Abort (RleWorker × Bool) :=
  decomposeContours rw.outline rw.outline.cntrs 0 rw

/-- The function `_genRle`: the worker and the return value `0`, `1` or `-1`; `none`
when the run leaves what the source defines. -/
def _genRle (rw : RleWorker) : Option (RleWorker × Int) :=
  match _decomposeOutline rw with
  | .error (.overflow rw) => some (rw, -1)
  | .error .undefined => none
  | .ok (rw, ret) =>
    match (if !rw.invalid then _recordCell rw else .ok rw) with
    | .error (.overflow rw) => some (rw, -1)
    | .error .undefined => none
    | .ok rw => some (rw, if ret then 0 else 1)

/-! ## rleRender -/

/-- The byte offset `cellStart` of the cell arena in `buffer` for a band of `yCnt`
scanlines: the size of the scanline array rounded up to a multiple of `sizeof(Cell)`,
in the `int` and `size_t` arithmetic of the source. -/
def cellStartOf (yCnt : Int) : Int :=
  let cellStart := toI32 (toU64 (sizeofCellPtr * toU64 (toI32 yCnt)))
  let cellMod := toI32 (toU64 cellStart % sizeofCell)
  if cellMod > 0 then toI32 (toU64 (toU64 cellStart + toU64 (sizeofCell - cellMod)))
  else cellStart

/-- The byte offset `cellEnd` of the end of the cell arena. -/
def cellEndOf : Int := RENDER_POOL_SIZE - toU64 RENDER_POOL_SIZE % sizeofCell

/-- The assignments of one turn of the `while (band >= bands)` loop up to the call of
`_genRle`, once the arena is known to hold `maxCells` cells. -/
def bandWorker (rw : RleWorker) (band : Band) (maxCells : Int) : RleWorker :=
  { rw with
    yCnt := band.max - band.min, maxCells := maxCells,
    yCells := List.replicate (band.max - band.min).toNat [],
    cellsCnt := 0, invalid := true,
    cellMin := { rw.cellMin with y := band.min },
    cellMax := { rw.cellMax with y := band.max },
    cellYCnt := band.max - band.min }

/-- What one turn of the `while (band >= bands)` loop does before `_genRle`: the worker
set up for `band`.  `none` is `goto reduce_bands`.  The scanline array and the cell
arena share `buffer`; a layout in which the array does not fit before the arena is
undefined. -/
def bandSetup (rw : RleWorker) (band : Band) : Except Abort (Option RleWorker) :=
  let yCnt := band.max - band.min
  let cellStart := cellStartOf yCnt
  if cellStart ≥ cellEndOf then .ok none
  else
    let maxCells := (cellEndOf - cellStart) / sizeofCell
    if maxCells < 2 then .ok none
    else if cellStart < 0 ∨ cellStart < sizeofCellPtr * yCnt then .error .undefined
    else .ok (some (bandWorker rw band maxCells))

/-- How one turn of the `while (band >= bands)` loop ends. -/
inductive BandTry where
  /-- The band was rendered and swept (`--band; continue`). -/
  | swept (rw : RleWorker)
  /-- By `goto error`. -/
  | failed
  /-- At `reduce_bands`. -/
  | reduce (rw : RleWorker)

/-- One turn of the `while (band >= bands)` loop up to `reduce_bands`. -/
def bandTry (rw : RleWorker) (band : Band) : Except Abort BandTry :=
  match bandSetup rw band with
  | .error e => .error e
  | .ok none => .ok (.reduce { rw with yCnt := band.max - band.min })
  | .ok (some rw) =>
    match _genRle rw with
    | none => .error .undefined
    | some (rw, ret) =>
      if ret = 0 then .ok (.swept (_sweep rw))
      else if ret = 1 then .ok .failed
      else .ok (.reduce rw)

/-- The count of a pool overflow at `reduce_bands` for the band from `bottom` to `top`. -/
def countShoot (rw : RleWorker) (bottom top : Int) : RleWorker :=
  if bottom - top ≥ rw.bandSize then { rw with bandShoot := rw.bandShoot + 1 } else rw

/-- The `while (band >= bands)` loop of `rleRender`; the band stack is kept with `*band`
first.  The result is `none` for `goto error`.  A band of `h` scanlines is swept or cut
in two, so `2 * h` turns are never used up; a push past the end of `bands` is undefined. -/
def bandLoop : Nat → RleWorker → List Band → Except Abort (Option RleWorker)
  | _, rw, [] => .ok (some rw)
  | 0, _, _ :: _ => .error .undefined
  | fuel + 1, rw, band :: below =>
    match bandTry rw band with
    | .error e => .error e
    | .ok (.swept rw) => bandLoop fuel rw below
    | .ok .failed => .ok none
    | .ok (.reduce rw) =>
      let bottom := band.min
      let top := band.max
      let middle := bottom + shr (top - bottom) 1
      if middle = bottom then .ok none
      else if below.length + 2 > BAND_SIZE then .error .undefined
      else bandLoop fuel (countShoot rw bottom top) (⟨bottom, middle⟩ :: ⟨middle, top⟩ :: below)

/-- The `for (int n = 0; n < bandCnt; ...)` loop of `rleRender`, with `k` turns left. -/
def renderBands (yMax : Int) (bandCnt : Int) :
    Nat → Int → Int → RleWorker → Except Abort (Option RleWorker)
  | 0, _, _, rw => .ok (some rw)
  | k + 1, n, min, rw =>
    let max := min + rw.bandSize
    let max := if n = bandCnt - 1 ∨ max > yMax then yMax else max
    match bandLoop (2 * (max - min).toNat + 1) rw [⟨min, max⟩] with
    | .error e => .error e
    | .ok none => .ok none
    | .ok (some rw) => renderBands yMax bandCnt k (n + 1) max rw

/-- The worker of `rleRender` before the band loops, for a given value of `rw.bandSize`.
Fields the source leaves uninitialised get a zero; none is read before it is set. -/
def initWorker (bandSize : Int) (rle : Option SwRleData) (outline : SwOutline)
    (bbox viewport : SwBBox) (antiAlias : Bool) : RleWorker :=
  { rle := rle.getD ⟨[], 0⟩
    cellPos := ⟨0, 0⟩
    cellMin := bbox.min
    cellMax := bbox.max
    cellXCnt := bbox.max.x - bbox.min.x
    cellYCnt := bbox.max.y - bbox.min.y
    area := 0
    cover := 0
    maxCells := 0
    cellsCnt := 0
    pos := ⟨0, 0⟩
    outline := outline
    spans := []
    ySpan := 0
    bandSize := bandSize
    bandShoot := 0
    yCells := []
    yCnt := 0
    clip := ⟨viewport.max.x - viewport.min.x, viewport.max.y - viewport.min.y⟩
    invalid := true
    antiAlias := antiAlias }

/-- The number `bandCnt` of bands `rleRender` sets up for a bbox `height` scanlines high. -/
def bandCount (height bandSize : Int) : Int :=
  let bandCnt := toI32 (Int.tdiv height bandSize)
  if bandCnt = 0 then 1 else if bandCnt ≥ BAND_SIZE then (BAND_SIZE : Int) - 1 else bandCnt

/-- The last statement of `rleRender` before `return rw.rle`. -/
def tuneBand (rw : RleWorker) : RleWorker :=
  if rw.bandShoot > 8 ∧ rw.bandSize > 16 then { rw with bandSize := shr rw.bandSize 1 } else rw

/-- The body of `rleRender` for a given value of `rw.bandSize`, up to the final worker
(`none` is the `error:` exit). -/
def renderWorker (bandSize : Int) (rle : Option SwRleData) (outline : SwOutline)
    (bbox viewport : SwBBox) (antiAlias : Bool) : Except Abort (Option RleWorker) :=
  let rw := initWorker bandSize rle outline bbox viewport antiAlias
  let bandCnt := bandCount (rw.cellMax.y - rw.cellMin.y) rw.bandSize
  match renderBands rw.cellMax.y bandCnt bandCnt.toNat 0 rw.cellMin.y rw with
  | .error e => .error e
  | .ok none => .ok none
  | .ok (some rw) => .ok (some (tuneBand rw))

/-- The value `rw.bufferSize / (sizeof(Cell) * 8)` that `rleRender` gives `rw.bandSize`. -/
def renderBandSize : Int := Int.tdiv RENDER_POOL_SIZE (sizeofCell * 8)

/-- The function `rleRender` with `rw.bandSize` set to `bandSize`: `some none` is the
null result, `some (some rle)` the returned RLE, `none` a run the source does not define. -/
def rleRenderBand (bandSize : Int) (rle : Option SwRleData) (outline : SwOutline)
    (bbox viewport : SwBBox) (antiAlias : Bool) : Option (Option SwRleData) :=
  match renderWorker bandSize rle outline bbox viewport antiAlias with
  | .error _ => none
  | .ok none => some none
  | .ok (some rw) => some (some rw.rle)

/-- The function `rleRender`. -/
def rleRender (rle : Option SwRleData) (outline : SwOutline) (bbox viewport : SwBBox)
    (antiAlias : Bool) : Option (Option SwRleData) :=
  rleRenderBand renderBandSize rle outline bbox viewport antiAlias

end ThorVG

namespace ThorVG

/-! ## Invariants of the cell grid -/

/-- What the cell functions (`_findCell` up to `_genRle`) leave alone. -/
structure WorkerFrame where
  rle : SwRleData
  cellMin : SwPoint
  cellMax : SwPoint
  cellXCnt : Int
  cellYCnt : Int
  maxCells : Int
  outline : SwOutline
  spans : List SwSpan
  ySpan : Int
  bandSize : Int
  bandShoot : Int
  yCnt : Int
  clip : SwSize
  antiAlias : Bool

/-- The part of a worker that the cell functions only read. -/
def frameOf (rw : RleWorker) : WorkerFrame :=
  { rle := rw.rle, cellMin := rw.cellMin, cellMax := rw.cellMax, cellXCnt := rw.cellXCnt,
    cellYCnt := rw.cellYCnt, maxCells := rw.maxCells, outline := rw.outline, spans := rw.spans,
    ySpan := rw.ySpan, bandSize := rw.bandSize, bandShoot := rw.bandShoot, yCnt := rw.yCnt,
    clip := rw.clip, antiAlias := rw.antiAlias }

/-- A scanline list is well formed for a band `xCnt` cells wide: strictly increasing in
`x`, every `x` in `[-1, xCnt)`. -/
def RowOk (xCnt : Int) (row : List Cell) : Prop :=
  row.Pairwise (fun a b => a.x < b.x) ∧ ∀ c ∈ row, -1 ≤ c.x ∧ c.x < xCnt

/-- The cell grid of a worker is well formed, and so is the current cell when it counts. -/
def CellInv (rw : RleWorker) : Prop :=
  (∀ row ∈ rw.yCells, RowOk rw.cellXCnt row) ∧
  (rw.invalid = false → -1 ≤ rw.cellPos.x ∧ rw.cellPos.x < rw.cellXCnt)

/-- One worker comes from another by cell functions: same frame, and a well formed grid
stays well formed. -/
def Evolves (a b : RleWorker) : Prop :=
  frameOf b = frameOf a ∧ b.yCells.length = a.yCells.length ∧ (CellInv a → CellInv b)

/-- What is known of the worker a cell function started on `rw` leaves behind when it
does not return. -/
def SoundErr (rw : RleWorker) : Abort → Prop
  | .overflow rw1 => frameOf rw1 = frameOf rw
  | .undefined => True

/-- What is known of the result of a cell function started on `rw`. -/
def Sound {α : Type} (proj : α → RleWorker) (rw : RleWorker) : Except Abort α → Prop
  | .ok a => Evolves rw (proj a)
  | .error e => SoundErr rw e

end ThorVG

namespace ThorVG

/-! ## What the band loops keep -/

/-- A worker with its span side (`rle`, `spans`, `ySpan`) blanked: what `_horizLine`
and `_sweep` leave alone. -/
def stripSpans (rw : RleWorker) : RleWorker :=
  { rw with rle := ⟨[], 0⟩, spans := [], ySpan := 0 }

/-- The settings of a run of `rleRender` that no step changes. -/
structure RunConfig where
  outline : SwOutline
  clip : SwSize
  antiAlias : Bool
  minX : Int
  maxX : Int
  cellXCnt : Int
  bandSize : Int
deriving DecidableEq

/-- The settings of the run a worker belongs to. -/
def configOf (rw : RleWorker) : RunConfig :=
  { outline := rw.outline, clip := rw.clip, antiAlias := rw.antiAlias, minX := rw.cellMin.x,
    maxX := rw.cellMax.x, cellXCnt := rw.cellXCnt, bandSize := rw.bandSize }

/-- The band stack of `bandLoop` is a run of adjoining bands from `lo` up to `hi`, each
with the property `G`. -/
def StackOk (G : Band → Prop) : Int → Int → List Band → Prop
  | lo, hi, [] => lo = hi
  | lo, hi, b :: bs => b.min = lo ∧ G b ∧ StackOk G b.max hi bs

/-- A band inside `[yLo, yHi]` with `min ≤ max`. -/
def BandIn (yLo yHi : Int) (b : Band) : Prop := yLo ≤ b.min ∧ b.min ≤ b.max ∧ b.max ≤ yHi

end ThorVG

namespace ThorVG

/-! ## Well-formed spans -/

/-- A span lies in the viewport `clip` and has a coverage in `[1, 255]`; its length is
at least one when the viewport is at most 65535 pixels wide. -/
def SpanOk (clip : SwSize) (s : SwSpan) : Prop :=
  0 ≤ s.x ∧ 0 ≤ s.len ∧ s.x + s.len ≤ clip.w ∧ 0 ≤ s.y ∧ s.y < clip.h ∧
  1 ≤ s.coverage ∧ s.coverage ≤ 255 ∧ (clip.w ≤ 65535 → 1 ≤ s.len)

/-- Every span of the RLE and of the local buffer of a worker is well formed. -/
def OutOk (rw : RleWorker) : Prop := ∀ s ∈ rw.rle.spans ++ rw.spans, SpanOk rw.clip s

end ThorVG

namespace ThorVG

/-! ## Sample inputs -/

/-- The closed rectangle outline with corners `(x0, y0)` and `(x1, y1)`, in 26.6 fixed
point: four corners and the closing point. -/
def rectOutline (x0 y0 x1 y1 : Int) (fillRule : FillRule) : SwOutline :=
  { cntrs := [4]
    pts := [⟨x0, y0⟩, ⟨x1, y0⟩, ⟨x1, y1⟩, ⟨x0, y1⟩, ⟨x0, y0⟩]
    types := [SW_CURVE_TYPE_POINT, SW_CURVE_TYPE_POINT, SW_CURVE_TYPE_POINT, SW_CURVE_TYPE_POINT,
      SW_CURVE_TYPE_POINT]
    fillRule := fillRule }

/-- The box from the origin to `(w, h)`, in pixels. -/
def boxAt0 (w h : Int) : SwBBox := ⟨⟨0, 0⟩, ⟨w, h⟩⟩

/-- An outline with its points (and their tags) in reverse order. -/
def reverseOutline (o : SwOutline) : SwOutline :=
  { o with pts := o.pts.reverse, types := o.types.reverse }

/-- The eight full rows of scenario S1. -/
def s1Spans : List SwSpan :=
  [⟨0, 0, 8, 255⟩, ⟨0, 1, 8, 255⟩, ⟨0, 2, 8, 255⟩, ⟨0, 3, 8, 255⟩,
   ⟨0, 4, 8, 255⟩, ⟨0, 5, 8, 255⟩, ⟨0, 6, 8, 255⟩, ⟨0, 7, 8, 255⟩]

/-- The even-odd coverage shaping as the specification words it, applied to the
shifted absolute value `c`; `c & 511` is written `c % 512`. -/
def evenOddShape (c : Int) : Int :=
  let c1 := c % 512
  if c1 > 256 then 512 - c1 else if c1 = 256 then 255 else c1

end ThorVG

namespace ThorVG

/-! ## Order of the spans -/

/-- Span `a` comes before span `b` in an RLE: on an earlier scanline, or on the same one
and wholly to the left. -/
def Ordered (a b : SwSpan) : Prop := a.y < b.y ∨ (a.y = b.y ∧ a.x + a.len ≤ b.x)

/-- Span `b` does not continue span `a`: not on the same scanline, or not adjacent, or
of another coverage. -/
def Unmerged (a b : SwSpan) : Prop := ¬ (a.y = b.y ∧ a.x + a.len = b.x ∧ a.coverage = b.coverage)

/-- What holds between two successive spans of an RLE. -/
def Linked (a b : SwSpan) : Prop := Ordered a b ∧ Unmerged a b

/-- The spans a worker has produced so far: those of the RLE, then those of the buffer. -/
def outSpans (rw : RleWorker) : List SwSpan := rw.rle.spans ++ rw.spans

/-- While `ySpan` is read it is the scanline of the last buffered span. -/
def YSpanOk (rw : RleWorker) : Prop := ∀ s, rw.spans.getLast? = some s → rw.ySpan = s.y

/-- The state of the spans inside the sweep of scanline `yAbs` (in viewport
coordinates), all runs emitted so far on it ending at or before `lim`. -/
def RowInv (rw : RleWorker) (yAbs lim : Int) : Prop :=
  OutOk rw ∧ (outSpans rw).Chain' Linked ∧ YSpanOk rw ∧
  ∀ s, (outSpans rw).getLast? = some s →
    s.y < yAbs ∨ (s.y = yAbs ∧ s.x + s.len ≤ lim ∧ (rw.spans = [] → s.x + s.len < lim))

/-- The state of the spans between the sweeps of two scanlines: every span lies on a
scanline before `yAbs`. -/
def BandInv (rw : RleWorker) (yAbs : Int) : Prop :=
  OutOk rw ∧ (outSpans rw).Chain' Linked ∧ YSpanOk rw ∧
  ∀ s, (outSpans rw).getLast? = some s → s.y < yAbs

/-- The state of the RLE between the sweeps of two bands. -/
def RleInv (clip : SwSize) (yAbs : Int) (rle : SwRleData) : Prop :=
  (∀ s ∈ rle.spans, SpanOk clip s) ∧ rle.spans.Chain' Linked ∧
  ∀ s, rle.spans.getLast? = some s → s.y < yAbs

/-- The cursor `x` of `_sweep` has not passed any cell still to come. -/
def CursorOk (x : Int) (row : List Cell) : Prop := ∀ c ∈ row, x ≤ c.x ∨ (c.x < 0 ∧ x ≤ 0)

/-! ## More sample inputs -/

/-- The spans of the rectangle from `(0.5, 0)` to `(7.5, 2)` rendered with anti-aliasing
on an 8 by 2 viewport: three spans on each scanline. -/
def halfRectSpans : List SwSpan :=
  [⟨0, 0, 1, 128⟩, ⟨1, 0, 6, 255⟩, ⟨7, 0, 1, 128⟩, ⟨0, 1, 1, 128⟩, ⟨1, 1, 6, 255⟩, ⟨7, 1, 1, 128⟩]

/-- Two unit-high rectangles, `[0, 5) × [32767, 32768)` and `[5, 10) × [32768, 32769)` in
pixels, as two contours of one outline. -/
def twoRowOutline : SwOutline :=
  { cntrs := [4, 9]
    pts := [⟨0, 2097088⟩, ⟨320, 2097088⟩, ⟨320, 2097152⟩, ⟨0, 2097152⟩, ⟨0, 2097088⟩,
      ⟨320, 2097152⟩, ⟨640, 2097152⟩, ⟨640, 2097216⟩, ⟨320, 2097216⟩, ⟨320, 2097152⟩]
    types := List.replicate 10 SW_CURVE_TYPE_POINT
    fillRule := FillRule.Winding }

/-- The triangle with corners `(0, 0)`, `(2, 0)` and `(1, 1)` in pixels. -/
def triOutline (fillRule : FillRule) : SwOutline :=
  { cntrs := [3]
    pts := [⟨0, 0⟩, ⟨128, 0⟩, ⟨64, 64⟩, ⟨0, 0⟩]
    types := List.replicate 4 SW_CURVE_TYPE_POINT
    fillRule := fillRule }

end ThorVG

namespace ThorVG

/-! ## Two runs that differ in the span side only -/

/-- The worker `rw` with the span side (`rle`, `spans`, `ySpan`) and the anti-alias flag
of the worker `o`. -/
def withOut (o rw : RleWorker) : RleWorker :=
  { rw with rle := o.rle, spans := o.spans, ySpan := o.ySpan, antiAlias := o.antiAlias }

/-- A worker with its span side and its anti-alias flag blanked: the part the cell
functions and the band loops work on. -/
def coreOf (rw : RleWorker) : RleWorker :=
  { rw with rle := ⟨[], 0⟩, spans := [], ySpan := 0, antiAlias := false }

/-- The abort `e` with the span side of its worker taken from `o`. -/
def abortOut (o : RleWorker) : Abort → Abort
  | .overflow rw => .overflow (withOut o rw)
  | .undefined => .undefined

/-- The result `r` with `g` applied to its value and the span side of an abort taken
from `o`. -/
def exceptOut {α : Type} (g : α → α) (o : RleWorker) : Except Abort α → Except Abort α
  | .ok a => .ok (g a)
  | .error e => .error (abortOut o e)

/-- The pair `p` with the span side of its worker taken from `o`. -/
def fstOut {β : Type} (o : RleWorker) (p : RleWorker × β) : RleWorker × β := (withOut o p.1, p.2)

/-- Two results of a band loop end the same way, and the workers of two full runs are
related by `J`. -/
def LoopRel (J : RleWorker → RleWorker → Prop) :
    Except Abort (Option RleWorker) → Except Abort (Option RleWorker) → Prop
  | .ok (some a), .ok (some n) => J a n
  | .ok none, .ok none => True
  | .error _, .error _ => True
  | _, _ => False

/-- What the band loops keep between a run `a` and a run `n` on the same input with
another anti-alias flag: the same cell side, the settings `cfg` of run `a`, the flag
`aa` of run `n`, and the relation `R` between the two RLEs. -/
def Twin (R : SwRleData → SwRleData → Prop) (cfg : RunConfig) (aa : Bool) (a n : RleWorker) : Prop :=
  coreOf a = coreOf n ∧ configOf a = cfg ∧ n.antiAlias = aa ∧ R a.rle n.rle

/-! ## The pixels of an RLE -/

/-- Pixel `(x, y)` lies in the span `s`. -/
def covers (s : SwSpan) (x y : Int) : Prop := s.y = y ∧ s.x ≤ x ∧ x < s.x + s.len

instance (s : SwSpan) (x y : Int) : Decidable (covers s x y) := by
  unfold covers; infer_instance

/-- Pixel `(x, y)` lies in a span of the list `l`. -/
def pixOf (l : List SwSpan) (x y : Int) : Prop := ∃ s ∈ l, covers s x y

instance (l : List SwSpan) (x y : Int) : Decidable (pixOf l x y) := by
  unfold pixOf; infer_instance

/-- Pixel `(x, y)` lies in the run of `n` pixels that `_horizLine` emits at `(xc, yc)`
(after its clamp at `SHRT_MAX`) on a viewport `w` pixels wide. -/
def runPix (w xc yc n x y : Int) : Prop :=
  y = yc ∧ (if xc < 0 then 0 else xc) ≤ x ∧ x < (if xc < 0 then 0 else xc) + (n + clipXOver w xc n)

/-- Pixel `(px, py)` lies in the run that the call `_horizLine(rw, x, y, area, k)` emits;
no pixel does when the call returns early. -/
def linePix (rw : RleWorker) (x y area k px py : Int) : Prop :=
  0 ≤ y + rw.cellMin.y ∧ y + rw.cellMin.y < rw.clip.h ∧
  coverageOf rw.outline.fillRule area > 0 ∧
  runPix rw.clip.w (if x + rw.cellMin.x ≥ SHRT_MAX then SHRT_MAX else x + rw.cellMin.x)
    (if y + rw.cellMin.y ≥ SHRT_MAX then SHRT_MAX else y + rw.cellMin.y) k px py

/-- What `_sweep` keeps between a worker `a` and a worker `n` with the same cell side:
both span sides are well formed and cover the same pixels. -/
def SweepRel (a n : RleWorker) : Prop :=
  coreOf a = coreOf n ∧ (OutOk a ∧ YSpanOk a) ∧ (OutOk n ∧ YSpanOk n) ∧
  ∀ x y, pixOf (outSpans a) x y ↔ pixOf (outSpans n) x y

/-- What the band loops keep between the RLEs of two runs on a viewport of size `clip`:
the spans of both are well formed and cover the same pixels. -/
def PixRel (clip : SwSize) (ra rn : SwRleData) : Prop :=
  (∀ s ∈ ra.spans, SpanOk clip s) ∧ (∀ s ∈ rn.spans, SpanOk clip s) ∧
  ∀ x y, pixOf ra.spans x y ↔ pixOf rn.spans x y

/-- Every span a worker has produced has coverage 255. -/
def Full (rw : RleWorker) : Prop := ∀ s ∈ rw.rle.spans ++ rw.spans, s.coverage = 255

end ThorVG

namespace ThorVG

/-! ## A band and a sub-band side by side -/

/-- The abscissa `_findCell` looks up for the current cell. -/
def findX (rw : RleWorker) : Int :=
  if rw.cellPos.x > rw.cellXCnt then rw.cellXCnt else rw.cellPos.x

/-- The scanline list `row` after `_recordCell` has added the area and cover of the
current cell to it. -/
def recordedRow (rw : RleWorker) (row : List Cell) : List Cell :=
  modifyAt (fun cell => { cell with area := cell.area + rw.area, cover := cell.cover + rw.cover })
    (findInRow (findX rw) row).2.1 (findInRow (findX rw) row).1

/-- The worker after `_recordCell` has recorded the current cell in the scanline list
`row` of its scanline. -/
def recorded (rw : RleWorker) (row : List Cell) : RleWorker :=
  { rw with
    cellsCnt := if (findInRow (findX rw) row).2.2 then rw.cellsCnt + 1 else rw.cellsCnt,
    yCells := rw.yCells.set rw.cellPos.y.toNat (recordedRow rw row) }

/-- The number of scanlines between the start of the band of `b` and the start of
the band of `s`. -/
def bandOff (b s : RleWorker) : Int := s.cellMin.y - b.cellMin.y

/-- The band of `s` is a part of the band of `b`, with the same outline and the same
horizontal extent; bands lie within 2^30 scanlines of the origin. -/
def Geo (b s : RleWorker) : Prop :=
  s.outline = b.outline ∧ s.cellMin.x = b.cellMin.x ∧ s.cellMax.x = b.cellMax.x ∧
  s.cellXCnt = b.cellXCnt ∧
  b.cellMin.y ≤ s.cellMin.y ∧ s.cellMin.y ≤ s.cellMax.y ∧ s.cellMax.y ≤ b.cellMax.y ∧
  s.cellYCnt = s.cellMax.y - s.cellMin.y ∧ b.cellYCnt = b.cellMax.y - b.cellMin.y ∧
  -1073741824 ≤ b.cellMin.y ∧ b.cellMax.y ≤ 1073741824 ∧
  s.yCells.length = s.cellYCnt.toNat ∧ b.yCells.length = b.cellYCnt.toNat ∧
  b.maxCells ≤ s.maxCells

/-- The scanline lists of `s` are those of the same scanlines in `b`. -/
def Rows (b s : RleWorker) : Prop :=
  ∀ i : Nat, i < s.yCells.length → s.yCells[i]? = b.yCells[i + (bandOff b s).toNat]?

/-- The cell count is not negative, and no scanline list holds a cell while it is zero. -/
def Counted (rw : RleWorker) : Prop :=
  0 ≤ rw.cellsCnt ∧ (rw.cellsCnt = 0 → ∀ row ∈ rw.yCells, row = [])

/-- The scanline `yb` of the band of `b` (counted from its start) lies in the band of `s`. -/
def RowIn (b s : RleWorker) (yb : Int) : Prop :=
  bandOff b s ≤ yb ∧ yb < bandOff b s + s.cellYCnt

/-- The current cell of `s` does not count, and that of `b` does not or lies outside
the band of `s`. -/
def CurOff (b s : RleWorker) : Prop :=
  s.invalid = true ∧ (b.invalid = true ∨ ¬ RowIn b s b.cellPos.y)

/-- The current cells of `b` and `s` both count, are the same cell, and have gathered
the same area and cover. -/
def CurOn (b s : RleWorker) : Prop :=
  s.invalid = false ∧ b.invalid = false ∧ s.cellPos.x = b.cellPos.x ∧
  s.cellPos.y + bandOff b s = b.cellPos.y ∧ s.area = b.area ∧ s.cover = b.cover ∧
  toU32 s.cellPos.y < toU32 s.cellYCnt

/-- What the cell functions keep between a worker `b` and a worker `s` for a part of
its band, whatever their current cells. -/
def SimR (b s : RleWorker) : Prop :=
  Geo b s ∧ Rows b s ∧ s.cellsCnt ≤ b.cellsCnt ∧ Counted b

/-- What the cell functions keep between `b` and `s`, current cells included. -/
def SimC (b s : RleWorker) : Prop := SimR b s ∧ (CurOff b s ∨ CurOn b s)

/-- A current cell that counts is the cell of the current point. -/
def Track (rw : RleWorker) : Prop :=
  rw.invalid = false → rw.cellPos.y = (TRUNCpt rw.pos).y - rw.cellMin.y

/-- The ordinate of a point in 24.8 fixed point fits 34 bits. -/
def PosOk (p : SwPoint) : Prop := -8589934592 ≤ p.y ∧ p.y < 8589934592

/-- What `_lineTo` and the functions above it keep between `b` and `s`. -/
def Sim (b s : RleWorker) : Prop := SimC b s ∧ s.pos = b.pos ∧ Track s ∧ PosOk b.pos

/-- Every point of the outline has an ordinate that fits 32 bits. -/
def OutlineOk (o : SwOutline) : Prop := ∀ p ∈ o.pts, -2147483648 ≤ p.y ∧ p.y < 2147483648

end ThorVG

namespace ThorVG

/-! ## The coverage an RLE gives to the pixels -/

/-- A span of the list `l` gives pixel `(x, y)` the coverage `c`. -/
def covOf (l : List SwSpan) (x y c : Int) : Prop := ∃ s ∈ l, covers s x y ∧ s.coverage = c

/-- The call of `_horizLine` for the `k` pixels from `x` (counted from the left of the
bbox) on scanline `yAbs` of the viewport, with raw area `area`, gives pixel `(px, py)`
the coverage `c`, in a run with the settings `cfg`. -/
def lineCovAt (cfg : RunConfig) (yAbs x area k px py c : Int) : Prop :=
  0 ≤ yAbs ∧ yAbs < cfg.clip.h ∧ coverageOf cfg.outline.fillRule area > 0 ∧
  runPix cfg.clip.w (if x + cfg.minX ≥ SHRT_MAX then SHRT_MAX else x + cfg.minX)
    (if yAbs ≥ SHRT_MAX then SHRT_MAX else yAbs) k px py ∧
  c = (if !cfg.antiAlias then 255 else coverageOf cfg.outline.fillRule area)

/-- What the two calls of `_horizLine` for one cell of a scanline give the pixels. -/
def cellCovAt (cfg : RunConfig) (yAbs : Int) (cell : Cell) (cover x px py c : Int) : Prop :=
  (cell.x > x ∧ cover ≠ 0 ∧ lineCovAt cfg yAbs x (cover * (ONE_PIXEL * 2)) (cell.x - x) px py c) ∨
  (toI32 (cover + cell.cover) * (ONE_PIXEL * 2) - cell.area ≠ 0 ∧ cell.x ≥ 0 ∧
    lineCovAt cfg yAbs cell.x (toI32 (cover + cell.cover) * (ONE_PIXEL * 2) - cell.area) 1 px py c)

/-- What the cell loop of `_sweep` gives the pixels, from the cover `cover` and the
cursor `x` on. -/
def cellsCovAt (cfg : RunConfig) (yAbs : Int) : List Cell → Int → Int → Int → Int → Int → Prop
  | [], _, _, _, _, _ => False
  | cell :: next, cover, x, px, py, c =>
    cellCovAt cfg yAbs cell cover x px py c ∨
    cellsCovAt cfg yAbs next (toI32 (cover + cell.cover)) (toI32 (cell.x + 1)) px py c

/-- The cover and the cursor `x` after the cell loop of `_sweep`. -/
def cursorOf : List Cell → Int → Int → Int × Int
  | [], cover, x => (cover, x)
  | cell :: next, cover, _ => cursorOf next (toI32 (cover + cell.cover)) (toI32 (cell.x + 1))

/-- What the sweep of the scanline list `row` on scanline `yAbs` gives the pixels. -/
def rowCovAt (cfg : RunConfig) (yAbs : Int) (row : List Cell) (px py c : Int) : Prop :=
  cellsCovAt cfg yAbs row 0 0 px py c ∨
  ((cursorOf row 0 0).1 ≠ 0 ∧
    lineCovAt cfg yAbs (cursorOf row 0 0).2 ((cursorOf row 0 0).1 * (ONE_PIXEL * 2))
      (cfg.cellXCnt - (cursorOf row 0 0).2) px py c)

/-- What the sweep of the scanline lists `rows`, the first on scanline `yAbs`, gives
the pixels. -/
def rowsCovAt (cfg : RunConfig) (yAbs : Int) (rows : List (List Cell)) (px py c : Int) : Prop :=
  ∃ (i : Nat) (row : List Cell), rows[i]? = some row ∧ rowCovAt cfg (yAbs + i) row px py c

end ThorVG

namespace ThorVG

/-! ## The scanlines of an outline, one band each -/

/-- The settings of a run of `rleRender` but for the band size. -/
def refConfig (o : SwOutline) (bbox vp : SwBBox) (aa : Bool) : RunConfig :=
  configOf (initWorker 0 none o bbox vp aa)

/-- The number of cells the pool holds for a band of one scanline. -/
def cellCap : Int := (cellEndOf - cellStartOf 1) / sizeofCell

/-- The worker of `rleRender` set up for the band of the one scanline `y`. -/
def refWorker (o : SwOutline) (bbox : SwBBox) (y : Int) : RleWorker :=
  bandWorker (initWorker 0 none o bbox bbox false) ⟨y, y + 1⟩ cellCap

/-- The band of the one scanline `y` runs to its end in `_genRle`. -/
def RowDone (o : SwOutline) (bbox : SwBBox) (y : Int) : Prop :=
  ∃ s1, _genRle (refWorker o bbox y) = some (s1, 0)

/-- The number of turns of the `while (band >= bands)` loop that the bands of a stack
can take: a band of `h` scanlines is swept, or cut in two until its parts are. -/
def bandTurns : List Band → Int
  | [] => 0
  | b :: bs => 2 * (b.max - b.min) - 1 + bandTurns bs

/-- Each band of the stack is low enough for its depth: one of `h` scanlines with `k`
bands below it has `(h - 1) * 2 ^ k < 2 ^ 27`. -/
def DepthOk : List Band → Prop
  | [] => True
  | b :: bs => (b.max - b.min - 1) * 2 ^ bs.length < 134217728 ∧ DepthOk bs

/-- The scanline list `_genRle` builds for scanline `y` when the band is that scanline
alone. -/
def refRow (o : SwOutline) (bbox : SwBBox) (y : Int) : List Cell :=
  match _genRle (refWorker o bbox y) with
  | some (rw, _) => rw.yCells.headD []
  | none => []

/-- The coverage the scanlines of the bbox before `y`, each swept as its own band, give
the pixels. -/
def refCov (o : SwOutline) (bbox vp : SwBBox) (aa : Bool) (y px py c : Int) : Prop :=
  ∃ yAbs, bbox.min.y ≤ yAbs ∧ yAbs < y ∧
    rowCovAt (refConfig o bbox vp aa) yAbs (refRow o bbox yAbs) px py c

/-- The state of the RLE between the sweeps of two bands with its coverage: that of the
scanlines before `y`, whatever the bands were. -/
def RefInv (o : SwOutline) (bbox vp : SwBBox) (aa : Bool) (y : Int) (rle : SwRleData) : Prop :=
  RleInv ⟨vp.max.x - vp.min.x, vp.max.y - vp.min.y⟩ y rle ∧
  ∀ px py c, covOf rle.spans px py c ↔ refCov o bbox vp aa y px py c

/-! ## One more sample -/

/-- The spans of the rectangle of 8 by 16 pixels rendered without anti-aliasing on a
viewport of its size: one full span on each scanline. -/
def tallRectSpans : List SwSpan :=
  (List.range 16).map (fun y => ⟨0, y, 8, 255⟩)

end ThorVG

namespace ThorVG

/-! ## A band that runs to its end or overflows -/

/-- The band of a worker is not empty, lies within 2^30 scanlines of the origin, and
has one scanline list for each of its scanlines. -/
def Banded (B : RleWorker) : Prop :=
  B.yCells.length = B.cellYCnt.toNat ∧ B.cellYCnt = B.cellMax.y - B.cellMin.y ∧
  -1073741824 ≤ B.cellMin.y ∧ B.cellMin.y < B.cellMax.y ∧ B.cellMax.y ≤ 1073741824

/-- A worker whose current cell, when it counts, lies on a scanline of the band. -/
def Ready (B : RleWorker) : Prop :=
  Banded B ∧ (B.invalid = false → 0 ≤ B.cellPos.y ∧ B.cellPos.y < B.cellYCnt)

/-- A result that is not `undefined`: a value with the property `Q`, or the jump of a
pool overflow. -/
def Defined {α : Type} (Q : α → Prop) : Except Abort α → Prop
  | .ok a => Q a
  | .error (.overflow _) => True
  | .error .undefined => False

/-- A pixel whose scanline is that of a point with `PosOk`. -/
def CellY (e : SwPoint) : Prop := -33554432 ≤ e.y ∧ e.y < 33554432

/-- What `_setCell` and the walks built on it leave of a ready worker. -/
def Kept (B B1 : RleWorker) : Prop := Ready B1 ∧ B1.pos = B.pos ∧ frameOf B1 = frameOf B

/-- What `_lineTo` and `_cubicTo` to `dst` leave of a ready worker. -/
def Moved (B : RleWorker) (dst : SwPoint) (B1 : RleWorker) : Prop :=
  Ready B1 ∧ B1.pos = dst ∧ frameOf B1 = frameOf B

/-- A worker whose band is the one scanline `y`. -/
def Single (A : RleWorker) (y : Int) : Prop := A.cellMin.y = y ∧ A.cellMax.y = y + 1

/-- Scanline `y` of the band of `B` lies between the scanlines of the points `p` and
`q`, ends included. -/
def Touch (B : RleWorker) (p q : SwPoint) (y : Int) : Prop :=
  B.cellMin.y ≤ y ∧ y < B.cellMax.y ∧
  ((TRUNCpt p).y ≤ y ∨ (TRUNCpt q).y ≤ y) ∧ (y ≤ (TRUNCpt p).y ∨ y ≤ (TRUNCpt q).y)

/-- Scanline `y` of the band of `B` is one that the ordinates from `lo` to `hi` reach. -/
def Within (B : RleWorker) (lo hi y : Int) : Prop :=
  B.cellMin.y ≤ y ∧ y < B.cellMax.y ∧ TRUNC lo ≤ y ∧ y ≤ TRUNC hi

end ThorVG

namespace ThorVG

/-! ## The path of an outline as a list of steps -/

/-- One call that `_decomposeOutline` makes on the worker. -/
inductive PathOp where
  /-- The call `_moveTo(rw, dst)`. -/
  | move (dst : SwPoint)
  /-- The call `_lineTo(rw, dst)`. -/
  | line (dst : SwPoint)
  /-- The call `_cubicTo(rw, c1, c2, dst)`. -/
  | cubic (c1 c2 dst : SwPoint)

/-- The point a step ends at. -/
def PathOp.dst : PathOp → SwPoint
  | .move d => d
  | .line d => d
  | .cubic _ _ d => d

/-- The points of a step lie within 2^33 subpixels of the origin in `y`. -/
def OpOk : PathOp → Prop
  | .move d => PosOk d
  | .line d => PosOk d
  | .cubic c1 c2 d => PosOk c1 ∧ PosOk c2 ∧ PosOk d

/-- One step on a worker. -/
def runOp : PathOp → RleWorker → Except Abort RleWorker
  | .move d, rw => _moveTo rw d
  | .line d, rw => _lineTo rw d
  | .cubic c1 c2 d, rw => _cubicTo rw c1 c2 d

/-- The steps of a list on a worker, one after the other. -/
def runOps : List PathOp → RleWorker → Except Abort RleWorker
  | [], rw => .ok rw
  | op :: ops, rw =>
    match runOp op rw with
    | .error e => .error e
    | .ok rw => runOps ops rw

/-- The steps run, then the end `term` they lead to: a value to return, or (`none`) a
point where the source is undefined. -/
def finish {α : Type} (ops : List PathOp) (term : Option α) (rw : RleWorker) :
    Except Abort (RleWorker × α) :=
  match runOps ops rw with
  | .error e => .error e
  | .ok rw1 =>
    match term with
    | none => .error .undefined
    | some k => .ok (rw1, k)

/-- The calls the `while (pt < limit)` loop of `_decomposeOutline` makes from index `pt`
on with `fuel` turns, and how it is left; the worker has no part in either. -/
def contourSkel (o : SwOutline) (limit : Nat) (start : SwPoint) :
    Nat → Nat → List PathOp × Option ContourExit
  | 0, _ => ([], none)
  | fuel + 1, pt =>
    if pt < limit then
      match o.types[pt + 1]?, o.pts[pt + 1]? with
      | some t0, some p0 =>
        if t0 = SW_CURVE_TYPE_POINT then
          (.line (UPSCALE p0) :: (contourSkel o limit start fuel (pt + 1)).1,
            (contourSkel o limit start fuel (pt + 1)).2)
        else if pt + 1 + 1 > limit then ([], some .invalid)
        else
          match o.types[pt + 1 + 1]?, o.pts[pt + 1 + 1]? with
          | some t1, some p1 =>
            if t1 ≠ SW_CURVE_TYPE_CUBIC then ([], some .invalid)
            else if pt + 1 + 2 ≤ limit then
              match o.pts[pt + 1 + 2]? with
              | some p2 =>
                (.cubic (UPSCALE p0) (UPSCALE p1) (UPSCALE p2) ::
                  (contourSkel o limit start fuel (pt + 1 + 2)).1,
                  (contourSkel o limit start fuel (pt + 1 + 2)).2)
              | none => ([], none)
            else ([.cubic (UPSCALE p0) (UPSCALE p1) start], some .close)
          | _, _ => ([], none)
      | _, _ => ([], none)
    else ([], some .line)

/-- The calls the `for` loop of `_decomposeOutline` makes for the contours still to do,
and the value it returns. -/
def outlineSkel (o : SwOutline) : List Nat → Nat → List PathOp × Option Bool
  | [], _ => ([], some true)
  | last :: more, first =>
    match o.pts[first]?, o.types[first]? with
    | some p, some t =>
      if t = SW_CURVE_TYPE_CUBIC then ([], some false)
      else
        match (contourSkel o last (UPSCALE p) (last - first + 1) first).2 with
        | none => (.move (UPSCALE p) :: (contourSkel o last (UPSCALE p) (last - first + 1) first).1,
            none)
        | some .invalid =>
          (.move (UPSCALE p) :: (contourSkel o last (UPSCALE p) (last - first + 1) first).1,
            some false)
        | some .close =>
          (.move (UPSCALE p) :: ((contourSkel o last (UPSCALE p) (last - first + 1) first).1 ++
            (outlineSkel o more (last + 1)).1), (outlineSkel o more (last + 1)).2)
        | some .line =>
          (.move (UPSCALE p) :: ((contourSkel o last (UPSCALE p) (last - first + 1) first).1 ++
            .line (UPSCALE p) :: (outlineSkel o more (last + 1)).1),
            (outlineSkel o more (last + 1)).2)
    | _, _ => ([], none)

end ThorVG

namespace ThorVG

/-! ## Clipping an RLE

The three clippers of `tvgSwRle.cpp`.  Each `_intersect...` function is embedded as the
list of the spans it writes to `outSpans`, in the order of the writes: the `k`-th span
written goes to `outSpans[k - 1]`.  The callers allocate `outSpans` with `malloc`, which
is taken to succeed (on failure they return with the RLE as it was); a run that writes
more spans than were allocated, or reads a span past the end of an array, is not defined
by the source and is embedded as `none`. -/

/-- The function `_replaceClipSpan`: the RLE gets the clipped spans, and `size` and
`alloc` their number. -/
def _replaceClipSpan (_rle : SwRleData) (clippedSpans : List SwSpan) : SwRleData :=
  ⟨clippedSpans, clippedSpans.length⟩

/-- The `while (spanCnt && spans < end)` loop of `_intersectSpansRect`, with `spanCnt`
and the spans from `spans` on.  The stores to `out->x` and `out->len` before the test of
`out->len` go to `outSpans[k]` with `k` less than the `spanCnt` the function was called
with. -/
def rectLoop (minx miny maxx maxy : Int) : Nat → List SwSpan → List SwSpan
  | 0, _ => []
  | _ + 1, [] => []
  | cnt + 1, s :: rest =>
    if s.y > maxy then []
    else if s.y < miny ∨ s.x > maxx ∨ s.x + s.len ≤ minx then
      rectLoop minx miny maxx maxy (cnt + 1) rest
    else
      let outLen : Int :=
        if s.x < minx then
          toU16 (if s.len - (minx - s.x) < maxx - minx + 1 then s.len - (minx - s.x)
            else maxx - minx + 1)
        else toU16 (if s.len < maxx - s.x + 1 then s.len else maxx - s.x + 1)
      let outX : Int := if s.x < minx then minx else s.x
      if outLen ≠ 0 then ⟨outX, s.y, outLen, s.coverage⟩ :: rectLoop minx miny maxx maxy cnt rest
      else rectLoop minx miny maxx maxy cnt rest

/-- The function `_intersectSpansRect`: the spans written to `outSpans`. -/
def _intersectSpansRect (bbox : SwBBox) (targetRle : SwRleData) (spanCnt : Nat) : List SwSpan :=
  let minx := toI16 bbox.min.x
  let miny := toI16 bbox.min.y
  let maxx := minx + toI16 (bbox.max.x - bbox.min.x) - 1
  let maxy := miny + toI16 (bbox.max.y - bbox.min.y) - 1
  rectLoop minx miny maxx maxy spanCnt targetRle.spans

/-- The function `rleClipRect`. -/
def rleClipRect (rle : SwRleData) (clip : SwBBox) : Option SwRleData :=
  if rle.size = 0 then some rle
  else
    let spans := _intersectSpansRect clip rle rle.size
    if rle.size < spans.length then none else some (_replaceClipSpan rle spans)

/-- The span `_intersectSpansRegion` writes for the target span `s` and the clip span
`c` of the same scanline. -/
def regionSpan (s c : SwSpan) : SwSpan :=
  let sx1 := s.x
  let sx2 := sx1 + s.len
  let cx1 := c.x
  let cx2 := cx1 + c.len
  let outX := toI16 (if sx1 > cx1 then sx1 else cx1)
  ⟨outX, s.y, toU16 ((if sx2 < cx2 then sx2 else cx2) - outX),
    toU8 (shr (s.coverage * c.coverage) 8)⟩

/-- The turns of the `while (spanCnt > 0 && spans < end)` loop of `_intersectSpansRegion`
during which `spans` points to `s`: `next` is the loop from the span after `s` on. -/
def regionRow (s : SwSpan) (next : Nat → List SwSpan → List SwSpan) :
    Nat → List SwSpan → List SwSpan
  | 0, _ => []
  | _ + 1, [] => []
  | cnt + 1, c :: cs =>
    if c.y > s.y then next (cnt + 1) (c :: cs)
    else if s.y ≠ c.y then regionRow s next (cnt + 1) cs
    else
      let sx1 := s.x
      let sx2 := sx1 + s.len
      let cx1 := c.x
      let cx2 := cx1 + c.len
      if cx1 < sx1 ∧ cx2 < sx1 then regionRow s next (cnt + 1) cs
      else if sx1 < cx1 ∧ sx2 < cx1 then next (cnt + 1) (c :: cs)
      else
        let x := if sx1 > cx1 then sx1 else cx1
        let len := (if sx2 < cx2 then sx2 else cx2) - x
        if len ≠ 0 then
          regionSpan s c ::
            (if sx2 < cx2 then next cnt (c :: cs) else regionRow s next cnt cs)
        else if sx2 < cx2 then next (cnt + 1) (c :: cs) else regionRow s next (cnt + 1) cs

/-- The `while (spanCnt > 0 && spans < end)` loop of `_intersectSpansRegion`, with the
target spans from `spans` on, `spanCnt`, and the clip spans from `clipSpans` on. -/
def regionLoop : List SwSpan → Nat → List SwSpan → List SwSpan
  | [], _, _ => []
  | s :: rest, cnt, clips => regionRow s (fun n cl => regionLoop rest n cl) cnt clips

/-- The function `_intersectSpansRegion`: the spans written to `outSpans`. -/
def _intersectSpansRegion (clip targetRle : SwRleData) (spanCnt : Nat) : List SwSpan :=
  regionLoop targetRle.spans spanCnt clip.spans

/-- The function `rleClipPath`. -/
def rleClipPath (rle clip : SwRleData) : Option SwRleData :=
  if rle.size = 0 ∨ clip.size = 0 then some rle
  else
    let spanCnt := if rle.size > clip.size then rle.size else clip.size
    let spans := _intersectSpansRegion clip rle spanCnt
    if spanCnt < spans.length then none else some (_replaceClipSpan rle spans)

/-- The first `while (clipSpans1->y)` loop of `_intersectMaskRegion`, from the clip
spans at `clipSpans1` on: `maskClipMin` and `maskClipMax` when the loop ends.  The loop
has no test against `clipEnd`; it ends at a span with `y = 0`. -/
def maskExtent : List SwSpan → Int → Int → Option (Int × Int)
  | [], _, _ => none
  | c :: cs, maskClipMin, maskClipMax =>
    if c.y = 0 then some (maskClipMin, maskClipMax)
    else
      let maskClipMax := if c.y > maskClipMax then c.y else maskClipMax
      let maskClipMin := if c.y < maskClipMax then c.y else maskClipMin
      maskExtent cs maskClipMin maskClipMax

/-- The spans one turn of the inner `while (clipSpans->y)` loop of `_intersectMaskRegion`
writes for the target span `s` and the clip span `c`. -/
def maskStrips (s c : SwSpan) : List SwSpan :=
  let sx1 := s.x
  let sx2 := sx1 + s.len
  let cx1 := c.x
  let cx2 := cx1 + c.len
  let x := if sx1 > cx1 then sx1 else cx1
  let len := (if sx2 < cx2 then sx2 else cx2) - x
  if len > 1 then
    [⟨sx1, c.y, toU16 (cx1 - sx1), s.coverage⟩, ⟨toI16 cx2, c.y, toU16 (sx2 - cx2), s.coverage⟩]
  else []

/-- The inner `while (clipSpans->y)` loop of `_intersectMaskRegion` for the target span
`s`, from the clip spans at `clipSpans` on: the spans written and the clip spans left.
The loop has no test against `clipEnd`. -/
def maskInner (s : SwSpan) : List SwSpan → Option (List SwSpan × List SwSpan)
  | [] => none
  | c :: cs =>
    if c.y = 0 then some ([], c :: cs)
    else
      match maskInner s cs with
      | none => none
      | some (out, left) => some (maskStrips s c ++ out, left)

/-- The `while (spanCnt && spans < end)` loop of `_intersectMaskRegion`.  `clipSpans`
is kept as the clip spans from it on, so that it never lies past `clipEnd` and the
test `clipSpans > clipEnd` is false. -/
def maskLoop (maskClipMin maskClipMax : Int) :
    Nat → List SwSpan → List SwSpan → Option (List SwSpan)
  | 0, _, _ => some []
  | _ + 1, [], _ => some []
  | cnt + 1, s :: rest, clips =>
    if s.y < maskClipMin ∨ s.y > maskClipMax then
      match maskLoop maskClipMin maskClipMax cnt rest clips with
      | none => none
      | some out => some (⟨s.x, s.y, s.len, s.coverage⟩ :: out)
    else
      match maskInner s clips with
      | none => none
      | some (strips, left) =>
        match maskLoop maskClipMin maskClipMax cnt rest left with
        | none => none
        | some out => some (strips ++ out)

/-- The function `_intersectMaskRegion`: the spans written to `outSpans`. -/
def _intersectMaskRegion (clip targetRle : SwRleData) (spanCnt : Nat) : Option (List SwSpan) :=
  match clip.spans with
  | [] => none
  | c0 :: _ =>
    match maskExtent clip.spans c0.y c0.y with
    | none => none
    | some (maskClipMin, maskClipMax) =>
      maskLoop maskClipMin maskClipMax spanCnt targetRle.spans clip.spans

/-- The function `rleAlphaMask`. -/
def rleAlphaMask (rle clip : SwRleData) : Option SwRleData :=
  if rle.size = 0 ∨ clip.size = 0 then some rle
  else
    let spanCnt := (rle.size + clip.size) % 4294967296
    match _intersectMaskRegion clip rle spanCnt with
    | none => none
    | some spans => if spanCnt < spans.length then none else some (_replaceClipSpan rle spans)

end ThorVG

namespace ThorVG

/-! ## What the clippers are to compute -/

/-- The fields of a span hold values of their machine types: `int16_t` for `x` and `y`,
`uint16_t` for `len`, `uint8_t` for `coverage`. -/
def SpanBits (s : SwSpan) : Prop :=
  -32768 ≤ s.x ∧ s.x ≤ 32767 ∧ -32768 ≤ s.y ∧ s.y ≤ 32767 ∧ 0 ≤ s.len ∧ s.len ≤ 65535 ∧
  0 ≤ s.coverage ∧ s.coverage ≤ 255

instance (s : SwSpan) : Decidable (SpanBits s) := by
  unfold SpanBits; infer_instance

/-- A bbox whose corner `min` fits `int16_t` and whose width and height lie in
`[0, 32767]`: the casts of `_intersectSpansRect` keep its values. -/
def BoxFits (B : SwBBox) : Prop :=
  -32768 ≤ B.min.x ∧ B.min.x ≤ 32767 ∧ -32768 ≤ B.min.y ∧ B.min.y ≤ 32767 ∧
  0 ≤ B.max.x - B.min.x ∧ B.max.x - B.min.x ≤ 32767 ∧
  0 ≤ B.max.y - B.min.y ∧ B.max.y - B.min.y ≤ 32767

instance (B : SwBBox) : Decidable (BoxFits B) := by
  unfold BoxFits; infer_instance

/-- The part of the span `s` inside the bbox `B`, the extents of `B` taken as
`[min.x, max.x)` and `[min.y, max.y)`: the intersection of `[x, x + len)` with the
x-extent on the same scanline with the same coverage, when `y` lies in the y-extent and
the intersection is not empty. -/
def clipSpan (B : SwBBox) (s : SwSpan) : Option SwSpan :=
  if B.min.y ≤ s.y ∧ s.y < B.max.y ∧
      (if s.x < B.min.x then B.min.x else s.x) <
        (if s.x + s.len < B.max.x then s.x + s.len else B.max.x) then
    some ⟨if s.x < B.min.x then B.min.x else s.x, s.y,
      (if s.x + s.len < B.max.x then s.x + s.len else B.max.x) -
        (if s.x < B.min.x then B.min.x else s.x), s.coverage⟩
  else none

/-- The rect clip as the specification words it: in order, the parts of the spans
inside the bbox. -/
def clipRectSpec (B : SwBBox) (spans : List SwSpan) : List SwSpan :=
  spans.filterMap (clipSpan B)

/-- The bounding box of a list of spans: the least `x` and `y`, the greatest `x + len`
and `y + 1`. -/
def bboxOf : List SwSpan → SwBBox
  | [] => ⟨⟨0, 0⟩, ⟨0, 0⟩⟩
  | [s] => ⟨⟨s.x, s.y⟩, ⟨s.x + s.len, s.y + 1⟩⟩
  | s :: t :: rest =>
    ⟨⟨if s.x < (bboxOf (t :: rest)).min.x then s.x else (bboxOf (t :: rest)).min.x,
      if s.y < (bboxOf (t :: rest)).min.y then s.y else (bboxOf (t :: rest)).min.y⟩,
     ⟨if s.x + s.len > (bboxOf (t :: rest)).max.x then s.x + s.len
        else (bboxOf (t :: rest)).max.x,
      if s.y + 1 > (bboxOf (t :: rest)).max.y then s.y + 1 else (bboxOf (t :: rest)).max.y⟩⟩

/-- The span `s` lies in the bbox `B` and is not empty. -/
def InBox (B : SwBBox) (s : SwSpan) : Prop :=
  B.min.y ≤ s.y ∧ s.y < B.max.y ∧ B.min.x ≤ s.x ∧ s.x + s.len ≤ B.max.x ∧ 1 ≤ s.len

/-- The coverage the spans of `l` give pixel `(x, y)`: that of the first span that holds
the pixel, and zero when none does. -/
def coverageAt (l : List SwSpan) (x y : Int) : Int :=
  match l.find? (fun s => decide (covers s x y)) with
  | some s => s.coverage
  | none => 0

/-! ## Samples for the scenarios and the clippers -/

/-- The spans of scenario S2: the rectangle from `(0.5, 0.5)` to `(7.5, 7.5)` on an
8 by 8 viewport with anti-aliasing. -/
def s2Spans : List SwSpan :=
  [⟨0, 0, 1, 64⟩, ⟨1, 0, 6, 128⟩, ⟨7, 0, 1, 64⟩, ⟨0, 1, 1, 128⟩, ⟨1, 1, 6, 255⟩, ⟨7, 1, 1, 128⟩,
   ⟨0, 2, 1, 128⟩, ⟨1, 2, 6, 255⟩, ⟨7, 2, 1, 128⟩, ⟨0, 3, 1, 128⟩, ⟨1, 3, 6, 255⟩, ⟨7, 3, 1, 128⟩,
   ⟨0, 4, 1, 128⟩, ⟨1, 4, 6, 255⟩, ⟨7, 4, 1, 128⟩, ⟨0, 5, 1, 128⟩, ⟨1, 5, 6, 255⟩, ⟨7, 5, 1, 128⟩,
   ⟨0, 6, 1, 128⟩, ⟨1, 6, 6, 255⟩, ⟨7, 6, 1, 128⟩, ⟨0, 7, 1, 64⟩, ⟨1, 7, 6, 128⟩, ⟨7, 7, 1, 64⟩]

/-- A target of two spans on scanline 0, `[0, 10)` and `[20, 30)`. -/
def twoRunTarget : SwRleData := ⟨[⟨0, 0, 10, 255⟩, ⟨20, 0, 10, 255⟩], 2⟩

/-- A clip of two spans on scanline 0, `[5, 22)` and `[25, 40)`: it overlaps the spans
of `twoRunTarget` in three places, `[5, 10)`, `[20, 22)` and `[25, 30)`. -/
def twoRunClip : SwRleData := ⟨[⟨5, 0, 17, 255⟩, ⟨25, 0, 15, 255⟩], 2⟩

/-- A clip of three spans on scanline 0, `[0, 10)`, `[20, 24)` and `[25, 30)`. -/
def threeRunClip : SwRleData := ⟨[⟨0, 0, 10, 255⟩, ⟨20, 0, 4, 255⟩, ⟨25, 0, 5, 255⟩], 3⟩

/-- A mask of four spans on scanline `-1` and one on scanline 0. -/
def combMask : SwRleData :=
  ⟨[⟨1, -1, 3, 255⟩, ⟨11, -1, 3, 255⟩, ⟨21, -1, 3, 255⟩, ⟨31, -1, 3, 255⟩, ⟨0, 0, 1, 255⟩], 5⟩

end ThorVG

namespace ThorVG

/-! ## What the path clip and the alpha mask are to compute -/

/-- The span the path clip is to write for the target span `t` and the clip span `c`:
when they lie on one scanline and their x-ranges overlap, the overlap on that scanline
with coverage `(t.coverage * c.coverage) >> 8`. -/
def overlapSpan (t c : SwSpan) : Option SwSpan :=
  if t.y = c.y ∧ (if t.x > c.x then t.x else c.x) <
      (if t.x + t.len < c.x + c.len then t.x + t.len else c.x + c.len) then
    some ⟨if t.x > c.x then t.x else c.x, t.y,
      (if t.x + t.len < c.x + c.len then t.x + t.len else c.x + c.len) -
        (if t.x > c.x then t.x else c.x), shr (t.coverage * c.coverage) 8⟩
  else none

/-- The path clip as the specification words it: one span for every pair of a target
span and a clip span that overlap, the target spans in order and for each the clip spans
in order. -/
def clipPathSpec (target clip : List SwSpan) : List SwSpan :=
  target.flatMap (fun t => clip.filterMap (overlapSpan t))

/-- The two side strips the alpha mask is to write for the target span `t` and a mask
span `m` that overlaps it: `[t.x, m.x)` and `[m.x + m.len, t.x + t.len)` on scanline
`t.y` with the coverage of `t`. -/
def sideStrips (t m : SwSpan) : List SwSpan :=
  [⟨t.x, t.y, m.x - t.x, t.coverage⟩, ⟨m.x + m.len, t.y, t.x + t.len - (m.x + m.len), t.coverage⟩]

/-! ## The tags of an outline -/

/-- What the point before the next tag of a contour was: a point on the curve (the end
of a line or of a curve), the first control point of a curve, or the second. -/
inductive TagAt where
  | onCurve
  | control1
  | control2
deriving DecidableEq, Repr

/-- Whether the tags that follow in a contour hold a CUBIC control point that no second
CUBIC follows inside the contour.  The point after the two control points of a curve is
the end of the curve. -/
def strayControl : TagAt → List Nat → Bool
  | .onCurve, [] => false
  | .onCurve, t :: rest =>
    if t = SW_CURVE_TYPE_CUBIC then strayControl .control1 rest else strayControl .onCurve rest
  | .control1, [] => true
  | .control1, t :: rest =>
    if t = SW_CURVE_TYPE_CUBIC then strayControl .control2 rest else true
  | .control2, [] => false
  | .control2, _ :: rest => strayControl .onCurve rest

/-- The tags of the contour of `o` from point `first` to point `last`. -/
def contourTags (o : SwOutline) (first last : Nat) : List Nat :=
  (o.types.drop first).take (last + 1 - first)

/-- Whether a contour with these tags starts with a CUBIC or holds a CUBIC control point
that no second CUBIC follows. -/
def invalidContour : List Nat → Bool
  | [] => false
  | t :: rest => decide (t = SW_CURVE_TYPE_CUBIC) || strayControl .onCurve rest

/-- Whether one of the contours that end at the indices of the list, the first of them
starting at `first`, is invalid. -/
def invalidFrom (o : SwOutline) : List Nat → Nat → Bool
  | [], _ => false
  | last :: more, first => invalidContour (contourTags o first last) || invalidFrom o more (last + 1)

/-- The outlines C20 speaks of: some contour starts with a CUBIC, or holds a CUBIC
control point that no second CUBIC follows inside the contour. -/
def InvalidOutline (o : SwOutline) : Prop := invalidFrom o o.cntrs 0 = true

instance (o : SwOutline) : Decidable (InvalidOutline o) := by
  unfold InvalidOutline; infer_instance

/-- Whether each contour of the list, the first of them starting at `first`, has its
first point not after its last and its last inside the point array. -/
def framedFrom (o : SwOutline) : List Nat → Nat → Bool
  | [], _ => true
  | last :: more, first =>
    decide (first ≤ last) && decide (last < o.pts.length) && framedFrom o more (last + 1)

/-- A well-formed outline: a tag for each point, each tag POINT or CUBIC, and contour
ends that increase inside the point array. -/
def Framed (o : SwOutline) : Prop :=
  o.types.length = o.pts.length ∧
  (∀ t ∈ o.types, t = SW_CURVE_TYPE_POINT ∨ t = SW_CURVE_TYPE_CUBIC) ∧
  framedFrom o o.cntrs 0 = true

instance (o : SwOutline) : Decidable (Framed o) := by
  unfold Framed; infer_instance

/-- Whether the tags that follow in a contour keep the invariant of the curves: every
CUBIC is one of two that follow one another, after a POINT and before a POINT. -/
def curvesOk : TagAt → List Nat → Bool
  | .onCurve, [] => true
  | .onCurve, t :: rest =>
    if t = SW_CURVE_TYPE_POINT then curvesOk .onCurve rest
    else if t = SW_CURVE_TYPE_CUBIC then curvesOk .control1 rest else false
  | .control1, [] => false
  | .control1, t :: rest => decide (t = SW_CURVE_TYPE_CUBIC) && curvesOk .control2 rest
  | .control2, [] => false
  | .control2, t :: rest => decide (t = SW_CURVE_TYPE_POINT) && curvesOk .onCurve rest

/-- Whether a contour with these tags starts with a POINT and keeps the invariant of
the curves. -/
def validContour : List Nat → Bool
  | [] => false
  | t :: rest => decide (t = SW_CURVE_TYPE_POINT) && curvesOk .onCurve rest

/-- Whether each contour of the list, the first of them starting at `first`, lies inside
the point array, is not empty and has valid tags. -/
def validFrom (o : SwOutline) : List Nat → Nat → Bool
  | [], _ => true
  | last :: more, first =>
    decide (first ≤ last) && decide (last < o.pts.length) &&
      validContour (contourTags o first last) && validFrom o more (last + 1)

/-- The invariants of an outline: a tag POINT or CUBIC for each point, no contour starts
with a CUBIC,
every CUBIC is one of two consecutive control points after a POINT and before a POINT,
and the contour ends increase. -/
def OutlineInvariants (o : SwOutline) : Prop :=
  o.types.length = o.pts.length ∧
  (∀ t ∈ o.types, t = SW_CURVE_TYPE_POINT ∨ t = SW_CURVE_TYPE_CUBIC) ∧
  validFrom o o.cntrs 0 = true

instance (o : SwOutline) : Decidable (OutlineInvariants o) := by
  unfold OutlineInvariants; infer_instance

/-- The first contour of the outline starts with a CUBIC. -/
def CubicFirst (o : SwOutline) : Prop :=
  o.cntrs ≠ [] ∧ o.types[0]? = some SW_CURVE_TYPE_CUBIC ∧ o.pts ≠ []

instance (o : SwOutline) : Decidable (CubicFirst o) := by
  unfold CubicFirst; infer_instance

/-- Whether a run ended by the jump of a pool overflow. -/
def overflowed {α : Type} : Except Abort α → Bool
  | .error (.overflow _) => true
  | _ => false

/-! ## Samples for the invalid outlines -/

/-- A triangle whose first point is tagged CUBIC. -/
def cubicFirstOutline : SwOutline :=
  ⟨[2], [⟨0, 0⟩, ⟨256, 0⟩, ⟨0, 256⟩], [1, 0, 0], FillRule.Winding⟩

/-- A contour whose second point is a CUBIC control point that a POINT follows. -/
def strayCubicOutline : SwOutline :=
  ⟨[3], [⟨0, 0⟩, ⟨256, 0⟩, ⟨256, 256⟩, ⟨0, 256⟩], [0, 1, 0, 0], FillRule.Winding⟩

/-- A triangle with the corners `(0, 2432.5)`, `(300, 2435.5)` and `(0, 2435.5)`, in
pixels: its long edge crosses some 300 pixels. -/
def wedge : SwOutline :=
  ⟨[3], [⟨0, 155680⟩, ⟨19200, 155872⟩, ⟨0, 155872⟩, ⟨0, 155680⟩], [0, 0, 0, 0], FillRule.Winding⟩

end ThorVG

namespace ThorVG

/-! ## The walk of `_lineTo` from cell to cell -/

/-- The state of the `any other line` loop of `_lineTo` at the cell `e`, for a line
with the direction `diff` that ends at the point `g` of the cell `e2`: `prod` is the
cross product of the direction with the way from the corner of `e` to the end of the
line, `e` lies between the first cell and `e2`, and the line passes through `e` (the
cross products at two opposite corners of the cell have opposite signs). -/
def WalkInv (diff e2 g e : SwPoint) (prod : Int) : Prop :=
  prod = diff.x * (256 * (e2.y - e.y) + g.y) - diff.y * (256 * (e2.x - e.x) + g.x) ∧
  (0 < diff.x → 0 < diff.y →
    e.x ≤ e2.x ∧ e.y ≤ e2.y ∧ prod - diff.x * 256 ≤ 0 ∧ 0 ≤ prod + diff.y * 256) ∧
  (diff.x < 0 → 0 < diff.y →
    e2.x ≤ e.x ∧ e.y ≤ e2.y ∧ prod ≤ 0 ∧ 0 < prod - diff.x * 256 + diff.y * 256) ∧
  (diff.x < 0 → diff.y < 0 →
    e2.x ≤ e.x ∧ e2.y ≤ e.y ∧ prod + diff.y * 256 ≤ 0 ∧ 0 < prod - diff.x * 256) ∧
  (0 < diff.x → diff.y < 0 →
    e.x ≤ e2.x ∧ e2.y ≤ e.y ∧ 0 ≤ prod ∧ prod - diff.x * 256 + diff.y * 256 ≤ 0)

/-- A step of the path that is not a curve. -/
def PathOp.straight : PathOp → Prop
  | .move _ => True
  | .line _ => True
  | .cubic _ _ _ => False

instance (op : PathOp) : Decidable op.straight := by
  cases op <;> unfold PathOp.straight <;> infer_instance

end ThorVG

namespace ThorVG

/-! ## The length estimate `HYPOT` against the exact length -/

/-- The estimate `HYPOT pt` lies within 7% of the exact Euclidean length of `pt`:
`|HYPOT pt - sqrt (x*x + y*y)| < 7/100 * sqrt (x*x + y*y)`. -/
def hypotClose (pt : SwPoint) : Prop :=
  |((HYPOT pt : Int) : Real) - Real.sqrt ((pt.x * pt.x + pt.y * pt.y : Int) : Real)| <
    7 / 100 * Real.sqrt ((pt.x * pt.x + pt.y * pt.y : Int) : Real)

/-- The pairs `(max (|x|, |y|), min (|x|, |y|))` at which the right shift of `HYPOT`
drops too much for the estimate to stay within 7% of the exact length. -/
def hypotCoarse : List (Int × Int) :=
  [(0, 0), (1, 1), (2, 1), (2, 2), (3, 2), (4, 2), (4, 4), (5, 2), (5, 5), (6, 5), (7, 5),
    (7, 7), (10, 10), (13, 13)]

end ThorVG

namespace ThorVG

/-! ## The memory pool of tvgSwMemPool.cpp -/

/-- Modelled from the spec: the pool entry, `SwOutline` of `tvgSwCommon.h` (not among
the sources), with the fields tvgSwMemPool.cpp reads and writes: the three buffers
(`none` is `nullptr`), the counts of contours and points in use, and the reserved
counts. -/
structure MemPool.SwOutline where
  cntrs : Option (List Nat)
  cntrsCnt : Nat
  reservedCntrsCnt : Nat
  pts : Option (List SwPoint)
  ptsCnt : Nat
  reservedPtsCnt : Nat
  types : Option (List Nat)
deriving DecidableEq, Repr

/-- The two file-level vectors `outline` and `strokeOutline`. -/
structure MemPool where
  outline : List MemPool.SwOutline
  strokeOutline : List MemPool.SwOutline
deriving DecidableEq, Repr

namespace MemPool

/-- A value-initialised entry, as `vector::resize` appends. -/
def SwOutline.zero : SwOutline :=
  { cntrs := none, cntrsCnt := 0, reservedCntrsCnt := 0, pts := none, ptsCnt := 0,
    reservedPtsCnt := 0, types := none }

/-- The function `std::vector::resize(n)`: the first `n` entries, filled up with
value-initialised ones. -/
def resize (v : List SwOutline) (n : Nat) : List SwOutline :=
  v.take n ++ List.replicate (n - v.length) SwOutline.zero

/-- The two stores of `mpoolRetOutline` and `mpoolRetStrokeOutline` on an entry. -/
def release (o : SwOutline) : SwOutline := { o with cntrsCnt := 0, ptsCnt := 0 }

/-- The body of the loops of `mpoolInit` on an entry. -/
def reset (o : SwOutline) : SwOutline :=
  { o with cntrs := none, pts := none, types := none, cntrsCnt := 0, reservedCntrsCnt := 0,
           ptsCnt := 0, reservedPtsCnt := 0 }

/-- The body of the loops of `mpoolClear` on an entry: the buffers are freed. -/
def clear (o : SwOutline) : SwOutline :=
  { o with cntrs := none, pts := none, types := none, cntrsCnt := 0, reservedCntrsCnt := 0,
           ptsCnt := 0, reservedPtsCnt := 0 }

end MemPool

/-- The function `mpoolReqOutline`: the entry `outline[idx]` (the C++ function returns its
address) and the pool, which the function does not write.  `none`: `idx` is past the end
of the vector, which is undefined. -/
def mpoolReqOutline (p : MemPool) (idx : Nat) : Option (MemPool.SwOutline × MemPool) :=
  match p.outline[idx]? with
  | some o => some (o, p)
  | none => none

/-- The function `mpoolRetOutline`. -/
def mpoolRetOutline (p : MemPool) (idx : Nat) : Option MemPool :=
  match p.outline[idx]? with
  | some o => some { p with outline := p.outline.set idx (MemPool.release o) }
  | none => none

/-- The function `mpoolReqStrokeOutline`. -/
def mpoolReqStrokeOutline (p : MemPool) (idx : Nat) : Option (MemPool.SwOutline × MemPool) :=
  match p.strokeOutline[idx]? with
  | some o => some (o, p)
  | none => none

/-- The function `mpoolRetStrokeOutline`. -/
def mpoolRetStrokeOutline (p : MemPool) (idx : Nat) : Option MemPool :=
  match p.strokeOutline[idx]? with
  | some o => some { p with strokeOutline := p.strokeOutline.set idx (MemPool.release o) }
  | none => none

/-- The function `mpoolInit`. -/
def mpoolInit (p : MemPool) (threads : Nat) : Bool × MemPool :=
  let threads := if threads = 0 then 1 else threads
  (true, { outline := (MemPool.resize p.outline threads).map MemPool.reset,
           strokeOutline := (MemPool.resize p.strokeOutline threads).map MemPool.reset })

/-- The function `mpoolClear`. -/
def mpoolClear (p : MemPool) : Bool × MemPool :=
  (true, { outline := p.outline.map MemPool.clear,
           strokeOutline := p.strokeOutline.map MemPool.clear })

/-- The function `mpoolTerm`. -/
def mpoolTerm (p : MemPool) : Bool × MemPool := mpoolClear p

/-- A store through the pointer that `mpoolReqOutline (idx)` returned: the caller of the
pool fills the outline it acquired. -/
def storeOutline (p : MemPool) (idx : Nat) (o : MemPool.SwOutline) : Option MemPool :=
  if idx < p.outline.length then some { p with outline := p.outline.set idx o } else none

/-- A store through the pointer that `mpoolReqStrokeOutline (idx)` returned. -/
def storeStrokeOutline (p : MemPool) (idx : Nat) (o : MemPool.SwOutline) : Option MemPool :=
  if idx < p.strokeOutline.length then
    some { p with strokeOutline := p.strokeOutline.set idx o }
  else none

/-- The pool before `mpoolInit`: two empty vectors. -/
def MemPool.empty : MemPool := ⟨[], []⟩

/-- An outline of one contour of three points, as a shape stores it in the entry it
acquired. -/
def triangleEntry : MemPool.SwOutline :=
  { cntrs := some [2, 0, 0, 0], cntrsCnt := 1, reservedCntrsCnt := 4,
    pts := some [⟨0, 0⟩, ⟨64, 0⟩, ⟨0, 64⟩, ⟨0, 0⟩], ptsCnt := 3, reservedPtsCnt := 4,
    types := some [0, 0, 0, 0] }

end ThorVG

namespace ThorVG

/-! ## Result codes and the radial gradient of tvgRadialGradient.cpp

A `float` is modelled by the rational number it stands for; NaN and the infinities are
left out. -/

/-- Modelled from the spec: the result codes of `thorvg.h` (not among the sources). -/
inductive Result where
  | Success
  | InvalidArguments
  | InsufficientCondition
  | FailedAllocation
  | MemoryCorruption
  | NonSupport
  | Unknown
deriving DecidableEq, Repr

/-- The constant `FLT_EPSILON` of `<float.h>`, `2^-23`. -/
def FLT_EPSILON : Rat := 1 / 8388608

/-- The struct `RadialGradient::Impl`. -/
structure RadialGradient.Impl where
  cx : Rat := 0
  cy : Rat := 0
  radius : Rat := 0
deriving DecidableEq, Repr

/-- The setter `RadialGradient::radial (float cx, float cy, float radius)`. -/
def RadialGradient.radial (pImpl : RadialGradient.Impl) (cx cy radius : Rat) :
    Result × RadialGradient.Impl :=
  if radius < FLT_EPSILON then (Result.InvalidArguments, pImpl)
  else (Result.Success, { pImpl with cx := cx, cy := cy, radius := radius })

/-- The getter `RadialGradient::radial (float* cx, float* cy, float* radius)`.  An
argument is the float a pointer points to, `none` for a null pointer; the floats after
the call are returned. -/
def RadialGradient.radialGet (pImpl : RadialGradient.Impl) (cx cy radius : Option Rat) :
    Result × Option Rat × Option Rat × Option Rat :=
  let cx := if cx.isSome then some pImpl.cx else cx
  let cy := if cy.isSome then some pImpl.cy else cy
  let radius := if radius.isSome then some pImpl.radius else radius
  (Result.Success, cx, cy, radius)

end ThorVG

namespace ThorVG

/-! ## The picture of tvgPicture.cpp and tvgPictureImpl.h -/

/-- Modelled from the spec: the loader, `Loader` of `tvgLoader.h` (not among the
sources), with the view box and the size `Picture::Impl` reads. -/
structure Loader where
  vx : Rat
  vy : Rat
  vw : Rat
  vh : Rat
  w : Nat
  h : Nat
  preserveAspect : Bool
deriving DecidableEq, Repr

/-- Modelled from the spec: what `Picture::Impl::load` calls and the sources do not
hold, as parameters: `LoaderMgr::loader (path)` and `LoaderMgr::loader (data, size)`
(`none` when no loader matches), and `Loader::read ()` with the loader after the call. -/
structure LoaderMgr where
  loader : String → Option Loader
  loaderData : List Nat → Nat → Option Loader
  read : Loader → Bool × Loader

/-- The struct `Picture::Impl`, the fields `load`, `viewbox` and `size` work on. -/
structure Picture.Impl where
  loader : Option Loader := none
  w : Nat := 0
  h : Nat := 0
  resizing : Bool := false
deriving DecidableEq, Repr

/-- The function `Picture::Impl::load (const string& path)`.  The loader held before is
closed and dropped. -/
def Picture.Impl.load (mgr : LoaderMgr) (p : Picture.Impl) (path : String) :
    Result × Picture.Impl :=
  match mgr.loader path with
  | none => (Result.NonSupport, { p with loader := none })
  | some l =>
    let (ok, l1) := mgr.read l
    if !ok then (Result.Unknown, { p with loader := some l1 })
    else (Result.Success, { p with loader := some l1 })

/-- The function `Picture::Impl::load (const char* data, uint32_t size)`. -/
def Picture.Impl.loadData (mgr : LoaderMgr) (p : Picture.Impl) (data : List Nat) (size : Nat) :
    Result × Picture.Impl :=
  match mgr.loaderData data size with
  | none => (Result.NonSupport, { p with loader := none })
  | some l =>
    let (ok, l1) := mgr.read l
    if !ok then (Result.Unknown, { p with loader := some l1 })
    else (Result.Success, { p with loader := some l1 })

/-- The function `Picture::Impl::viewbox`.  An argument is the float a pointer points
to, `none` for a null pointer; the floats after the call are returned. -/
def Picture.Impl.viewbox (p : Picture.Impl) (x y w h : Option Rat) :
    Bool × Option Rat × Option Rat × Option Rat × Option Rat :=
  match p.loader with
  | none => (false, x, y, w, h)
  | some l =>
    let x := if x.isSome then some l.vx else x
    let y := if y.isSome then some l.vy else y
    let w := if w.isSome then some l.vw else w
    let h := if h.isSome then some l.vh else h
    (true, x, y, w, h)

/-- The function `Picture::load (const std::string& path)`. -/
def Picture.load (mgr : LoaderMgr) (p : Picture.Impl) (path : String) : Result × Picture.Impl :=
  if path.isEmpty then (Result.InvalidArguments, p)
  else Picture.Impl.load mgr p path

/-- The function `Picture::load (const char* data, uint32_t size)`; `data` is `none` for
a null pointer. -/
def Picture.loadData (mgr : LoaderMgr) (p : Picture.Impl) (data : Option (List Nat)) (size : Nat) :
    Result × Picture.Impl :=
  match data with
  | none => (Result.InvalidArguments, p)
  | some d =>
    if size ≤ 0 then (Result.InvalidArguments, p)
    else Picture.Impl.loadData mgr p d size

/-- The function `Picture::viewbox`. -/
def Picture.viewbox (p : Picture.Impl) (x y w h : Option Rat) :
    Result × Option Rat × Option Rat × Option Rat × Option Rat :=
  let r := Picture.Impl.viewbox p x y w h
  if r.1 then (Result.Success, r.2) else (Result.InsufficientCondition, r.2)

/-- A loader manager for one format: it takes the path `logo.svg` and the data
that start with `<`, and reading succeeds on a view box of positive size. -/
def svgOnly : LoaderMgr :=
  { loader := fun path => if path = "logo.svg" then some ⟨0, 0, 100, 50, 0, 0, true⟩ else none
    loaderData := fun data _ =>
      if data.head? = some 60 then some ⟨0, 0, 0, 0, 0, 0, true⟩ else none
    read := fun l => (decide (0 < l.vw), l) }

end ThorVG

namespace ThorVG

/-! ## The shape of tvgShapeImpl.h and the update flags of tvgRender.h -/

/-- Modelled from the spec: `StrokeCap` of `thorvg.h` (not among the sources). -/
inductive StrokeCap where
  | Square
  | Round
  | Butt
deriving DecidableEq, Repr

/-- Modelled from the spec: `StrokeJoin` of `thorvg.h` (not among the sources). -/
inductive StrokeJoin where
  | Bevel
  | Round
  | Miter
deriving DecidableEq, Repr

namespace RenderUpdateFlag

/-! The enumerators of `enum RenderUpdateFlag`. -/

def None : Nat := 0
def Path : Nat := 1
def Color : Nat := 2
def Gradient : Nat := 4
def Stroke : Nat := 8
def Transform : Nat := 16
def Image : Nat := 32
def Opacity : Nat := 64
def All : Nat := 64

end RenderUpdateFlag

/-- The struct `ShapeStroke` with its default member initialisers; `color` is the array
`color[4]`, `dashPattern` the buffer the pointer points to (`none` is `nullptr`). -/
structure ShapeStroke where
  width : Rat := 0
  color : Nat × Nat × Nat × Nat := (0, 0, 0, 0)
  dashPattern : Option (List Rat) := none
  dashCnt : Nat := 0
  cap : StrokeCap := StrokeCap.Square
  join : StrokeJoin := StrokeJoin.Bevel
deriving DecidableEq, Repr

/-- The struct `Shape::Impl`.  The path, the fill and the engine data are objects the
functions below hand on without looking into them: each is modelled by a handle, `none`
for `nullptr`.  The back pointer `shape` is the shape itself. -/
structure Shape.Impl where
  path : Option Nat := some 0
  fill : Option Nat := none
  stroke : Option ShapeStroke := none
  color : Nat × Nat × Nat × Nat := (0, 0, 0, 0)
  edata : Option Nat := none
  flag : Nat := RenderUpdateFlag.None
deriving DecidableEq, Repr

/-- The struct `RenderTransform` of tvgRender.h; the matrix `m` is a handle. -/
structure RenderTransform where
  m : Nat
  x : Rat := 0
  y : Rat := 0
  degree : Rat := 0
  scale : Rat := 1
  overriding : Bool := false
deriving DecidableEq, Repr

/-- The two virtual functions of `RenderMethod` that `Shape::Impl` calls, as they are
called there: `prepare (shape, data, transform, flags)` and `render (shape, data)`.  A
renderer has a state of type `σ`; the shape is handed over as the `Shape::Impl` it has
at the call. -/
structure RenderMethod (σ : Type) where
  prepare : σ → Shape.Impl → Option Nat → Option RenderTransform → Nat → σ × Option Nat
  render : σ → Shape.Impl → Option Nat → σ × Bool

namespace Shape.Impl

/-- The statement `if (!stroke) stroke = new ShapeStroke ();` at the head of each stroke
setter. -/
def newStroke (s : Shape.Impl) : Shape.Impl :=
  if s.stroke.isNone then { s with stroke := some {} } else s

/-- The function `Shape::Impl::render`. -/
def render {σ : Type} (renderer : RenderMethod σ) (st : σ) (s : Shape.Impl) :
    Bool × Shape.Impl × σ :=
  let r := renderer.render st s s.edata
  (r.2, s, r.1)

/-- The function `Shape::Impl::update`. -/
def update {σ : Type} (renderer : RenderMethod σ) (st : σ) (s : Shape.Impl)
    (transform : Option RenderTransform) (pFlag : Nat) : Bool × Shape.Impl × σ :=
  let r := renderer.prepare st s s.edata transform (pFlag ||| s.flag)
  let s := { s with edata := r.2 }
  let s := { s with flag := RenderUpdateFlag.None }
  if s.edata.isSome then (true, s, r.1) else (false, s, r.1)

/-- The function `Shape::Impl::strokeWidth`. -/
def strokeWidth (s : Shape.Impl) (width : Rat) : Bool × Shape.Impl :=
  let s := newStroke s
  match s.stroke with
  | none => (false, s)
  | some stroke =>
    (true, { s with stroke := some { stroke with width := width },
                    flag := s.flag ||| RenderUpdateFlag.Stroke })

/-- The function `Shape::Impl::strokeCap`. -/
def strokeCap (s : Shape.Impl) (cap : StrokeCap) : Bool × Shape.Impl :=
  let s := newStroke s
  match s.stroke with
  | none => (false, s)
  | some stroke =>
    (true, { s with stroke := some { stroke with cap := cap },
                    flag := s.flag ||| RenderUpdateFlag.Stroke })

/-- The function `Shape::Impl::strokeJoin`. -/
def strokeJoin (s : Shape.Impl) (join : StrokeJoin) : Bool × Shape.Impl :=
  let s := newStroke s
  match s.stroke with
  | none => (false, s)
  | some stroke =>
    (true, { s with stroke := some { stroke with join := join },
                    flag := s.flag ||| RenderUpdateFlag.Stroke })

/-- The function `Shape::Impl::strokeColor`. -/
def strokeColor (s : Shape.Impl) (r g b a : Nat) : Bool × Shape.Impl :=
  let s := newStroke s
  match s.stroke with
  | none => (false, s)
  | some stroke =>
    (true, { s with stroke := some { stroke with color := (r, g, b, a) },
                    flag := s.flag ||| RenderUpdateFlag.Stroke })

/-- The function `Shape::Impl::strokeDash`; `pattern` is the array the pointer points
to.  A buffer from `malloc` is taken as zero filled; `none`: the loop reads past the end
of `pattern`, which is undefined. -/
def strokeDash (s : Shape.Impl) (pattern : List Rat) (cnt : Nat) : Option (Bool × Shape.Impl) :=
  let s := newStroke s
  match s.stroke with
  | none => some (false, s)
  | some stroke =>
    let stroke := if stroke.dashCnt ≠ cnt then { stroke with dashPattern := none } else stroke
    let buf := match stroke.dashPattern with
      | none => List.replicate cnt (0 : Rat)
      | some b => b
    if pattern.length < cnt then none
    else
      let buf := pattern.take cnt ++ buf.drop cnt
      some (true, { s with stroke := some { stroke with dashPattern := some buf, dashCnt := cnt },
                           flag := s.flag ||| RenderUpdateFlag.Stroke })

end Shape.Impl

/-- A renderer that keeps the flags of each `prepare` call, newest first, returns the
engine data `7` from `prepare` and `true` from `render`. -/
def flagRecorder : RenderMethod (List Nat) :=
  { prepare := fun log _ _ _ flags => (flags :: log, some 7)
    render := fun log _ _ => (log, true) }

end ThorVG

namespace ThorVG

/-- The stroke a stroke setter works on: that of the shape, or the one
`new ShapeStroke ()` creates when the shape has none. -/
def Shape.Impl.strokeOf (s : Shape.Impl) : ShapeStroke := s.stroke.getD {}

end ThorVG

namespace ThorVG

/-! ## The bands `rleRender` sets up -/

/-- The bands that the `for (int n = 0; n < bandCnt; ...)` loop of `rleRender` puts in
`bands[0]`, one for each turn, with `k` turns left: `max = min + rw.bandSize`, and
`max = yMax` in the last turn or past `yMax`. -/
def bandsSetUp (yMax bandCnt bandSize : Int) : Nat → Int → Int → List Band
  | 0, _, _ => []
  | k + 1, n, min =>
    let max := min + bandSize
    let max := if n = bandCnt - 1 ∨ max > yMax then yMax else max
    ⟨min, max⟩ :: bandsSetUp yMax bandCnt bandSize k (n + 1) max

/-- The `for` loop of `rleRender` over a list of bands to set up: the
`while (band >= bands)` loop on each in turn, up to the first that ends at `error`. -/
def runBands : List Band → RleWorker → Except Abort (Option RleWorker)
  | [], rw => .ok (some rw)
  | b :: bs, rw =>
    match bandLoop (2 * (b.max - b.min).toNat + 1) rw [b] with
    | .error e => .error e
    | .ok none => .ok none
    | .ok (some rw) => runBands bs rw

/-- The bands `rleRender` sets up for the bbox `bbox`. -/
def renderBandList (bbox : SwBBox) : List Band :=
  bandsSetUp bbox.max.y (bandCount (bbox.max.y - bbox.min.y) renderBandSize) renderBandSize
    (bandCount (bbox.max.y - bbox.min.y) renderBandSize).toNat 0 bbox.min.y

/-- The number of scanlines of a band. -/
def Band.rows (b : Band) : Int := b.max - b.min

end ThorVG

namespace ThorVG

/-! ## A sample that overflows a band of `bandSize` scanlines -/

/-- Four upright bars, each one pixel wide and 64 pixels high, at the pixel columns 4,
20, 36 and 52: every scanline of the 64 has eight cells. -/
def bars : SwOutline :=
  { cntrs := [4, 9, 14, 19]
    pts := [⟨256, 0⟩, ⟨320, 0⟩, ⟨320, 4096⟩, ⟨256, 4096⟩, ⟨256, 0⟩,
            ⟨1280, 0⟩, ⟨1344, 0⟩, ⟨1344, 4096⟩, ⟨1280, 4096⟩, ⟨1280, 0⟩,
            ⟨2304, 0⟩, ⟨2368, 0⟩, ⟨2368, 4096⟩, ⟨2304, 4096⟩, ⟨2304, 0⟩,
            ⟨3328, 0⟩, ⟨3392, 0⟩, ⟨3392, 4096⟩, ⟨3328, 4096⟩, ⟨3328, 0⟩]
    types := List.replicate 20 SW_CURVE_TYPE_POINT
    fillRule := FillRule.Winding }

/-- The worker `rleRender` starts with for the four bars on their bbox of 56 by 64
pixels. -/
def barsWorker : RleWorker :=
  initWorker renderBandSize none bars (boxAt0 56 64) (boxAt0 56 64) true

/-- A zigzag on the one scanline 0: three edges, each 256 pixels wide and one pixel
high, closed along the lower border of the scanline; each of its 768 cells gets a cover
of 1 or -1. -/
def zigzag : SwOutline :=
  { cntrs := [5]
    pts := [⟨49152, 64⟩, ⟨32768, 0⟩, ⟨16384, 64⟩, ⟨0, 0⟩, ⟨0, 64⟩, ⟨49152, 64⟩]
    types := List.replicate 6 SW_CURVE_TYPE_POINT
    fillRule := FillRule.Winding }

end ThorVG

namespace ThorVG

/-! ## Two workers that differ in what the cell functions do not read -/

/-- The worker `rw` with the span side (`rle`, `spans`, `ySpan`), the anti-alias flag,
the clip size and the band settings (`bandSize`, `bandShoot`) of the worker `o`. -/
def withSide (o rw : RleWorker) : RleWorker :=
  { rw with rle := o.rle, spans := o.spans, ySpan := o.ySpan, antiAlias := o.antiAlias,
            bandSize := o.bandSize, bandShoot := o.bandShoot, clip := o.clip }

/-- The abort `e` with the side of its worker taken from `o`. -/
def abortSide (o : RleWorker) : Abort → Abort
  | .overflow rw => .overflow (withSide o rw)
  | .undefined => .undefined

/-- The result `r` with `g` applied to its value and the side of an abort taken from `o`. -/
def exceptSide {α : Type} (g : α → α) (o : RleWorker) : Except Abort α → Except Abort α
  | .ok a => .ok (g a)
  | .error e => .error (abortSide o e)

/-- The pair `p` with the side of its worker taken from `o`. -/
def fstSide {β : Type} (o : RleWorker) (p : RleWorker × β) : RleWorker × β := (withSide o p.1, p.2)

/-- The worker `rw` with the current point, the current cell and what is accumulated in
it (`pos`, `cellPos`, `area`, `cover`) taken from the worker `c`. -/
def withCursor (c rw : RleWorker) : RleWorker :=
  { rw with pos := c.pos, cellPos := c.cellPos, area := c.area, cover := c.cover }

/-- The band of the one scanline `y` overflows the cell arena: `_genRle` on it returns
by the jump of `_findCell`. -/
def RowOverflows (o : SwOutline) (bbox : SwBBox) (y : Int) : Prop :=
  ∃ s1, _genRle (refWorker o bbox y) = some (s1, -1)

/-- What `_genRle` returns, the worker left out. -/
def verdict (r : Option (RleWorker × Int)) : Option Int := r.map Prod.snd

instance (o : SwOutline) (bbox : SwBBox) (y : Int) : Decidable (RowOverflows o bbox y) :=
  decidable_of_iff (verdict (_genRle (refWorker o bbox y)) = some (-1)) (by
    unfold RowOverflows verdict
    cases _genRle (refWorker o bbox y) with
    | none => simp
    | some v =>
      obtain ⟨s, r⟩ := v
      simp)

end ThorVG

namespace ThorVG

/-! ## A worker with recorded cells -/

/-- A worker on a band of one scanline whose list has cells at x = 1 and x = 4; the
current cell is at x = 3. -/
def twoCells : RleWorker :=
  { barsWorker with yCells := [[⟨1, 5, 5⟩, ⟨4, 0, 1⟩]], cellPos := ⟨3, 0⟩, maxCells := 10,
                    cellsCnt := 2 }

/-- The worker `twoCells` with the cell at x = 3 linked in. -/
def threeCells : RleWorker :=
  { twoCells with cellsCnt := 3, yCells := [[⟨1, 5, 5⟩, ⟨3, 0, 0⟩, ⟨4, 0, 1⟩]] }

end ThorVG

namespace ThorVG

/-! ## The split rule of `_cubicTo` in the words of its description -/

/-- The cross product of two vectors. -/
def crossOf (a b : SwPoint) : Int := a.x * b.y - a.y * b.x

/-- The dot product of two vectors. -/
def dotOf (a b : SwPoint) : Int := a.x * b.x + a.y * b.y

/-- The split rule as the description of `_cubicTo` words it, for the arc from `p0` to
`p3` with the control points `c1` and `c2` and a flatness limit given as a function of
the chord length `L = HYPOT(d)`, `d = p3 - p0`: the chord is longer than `SHRT_MAX`, or
`|d x (c1 - p0)|` or `|d x (c2 - p0)|` exceeds the limit, or `(c1 - p0).(c1 - p3) > 0`,
or `(c2 - p0).(c2 - p3) > 0`. -/
def splitRule (limit : Int → Int) (p0 c1 c2 p3 : SwPoint) : Prop :=
  HYPOT (p3 - p0) > SHRT_MAX ∨
  |crossOf (p3 - p0) (c1 - p0)| > limit (HYPOT (p3 - p0)) ∨
  |crossOf (p3 - p0) (c2 - p0)| > limit (HYPOT (p3 - p0)) ∨
  dotOf (c1 - p0) (c1 - p3) > 0 ∨
  dotOf (c2 - p0) (c2 - p3) > 0

instance (limit : Int → Int) (p0 c1 c2 p3 : SwPoint) : Decidable (splitRule limit p0 c1 c2 p3) := by
  unfold splitRule; infer_instance

end ThorVG

namespace ThorVG

/-! ## The y-extent of a mask in the words of its description -/

/-- The smallest y over the spans of a list that starts with `c`. -/
def spansMinY (c : SwSpan) (cs : List SwSpan) : Int :=
  cs.foldl (fun m s => if s.y < m then s.y else m) c.y

/-- The largest y over the spans of a list that starts with `c`. -/
def spansMaxY (c : SwSpan) (cs : List SwSpan) : Int :=
  cs.foldl (fun m s => if s.y > m then s.y else m) c.y

/-- A mask of two spans `[2, 6)`, one on scanline 0 and one on scanline 3. -/
def twoRowMask : SwRleData := ⟨[⟨2, 0, 4, 255⟩, ⟨2, 3, 4, 255⟩], 2⟩

end ThorVG

namespace ThorVG

/-! ## What `_lineTo` does to the worker, statement by statement -/

/-- One statement of `_lineTo` on the worker: the two `+=` for the piece of the edge from
`f1` to `f2` in the current cell (`add`, in the general loop and after the loops), the
two `+=` of a vertical loop for the piece from `f1` to the ordinate `f2y` (`addV`), or a
call of `_setCell` (`go`). -/
inductive EdgeAct where
  | add (f1 f2 : SwPoint)
  | addV (f1 : SwPoint) (f2y : Int)
  | go (cell : SwPoint)
deriving Repr, DecidableEq

/-- What the statement adds to `rw.cover`. -/
def EdgeAct.cover : EdgeAct → Int
  | .add f1 f2 => f2.y - f1.y
  | .addV f1 f2y => f2y - f1.y
  | .go _ => 0

/-- The statement on a worker. -/
def EdgeAct.run (rw : RleWorker) : EdgeAct → Except Abort RleWorker
  | .add f1 f2 => .ok (addEdge rw f1 f2)
  | .addV f1 f2y => .ok (addVertical rw f1 f2y)
  | .go cell => _setCell rw cell

/-- The statements of a list on a worker, one after the other, up to the first that does
not return. -/
def runActs : RleWorker → List EdgeAct → Except Abort RleWorker
  | rw, [] => .ok rw
  | rw, a :: rest =>
    match a.run rw with
    | .error e => .error e
    | .ok rw => runActs rw rest

/-- A point of a cell: both fractions in `[0, ONE_PIXEL]`. -/
def InCell (f : SwPoint) : Prop := 0 ≤ f.x ∧ f.x ≤ ONE_PIXEL ∧ 0 ≤ f.y ∧ f.y ≤ ONE_PIXEL

instance (f : SwPoint) : Decidable (InCell f) := by
  unfold InCell; infer_instance

/-- The entry and exit fractions of the statement lie in `[0, ONE_PIXEL]`, and so does
the absolute value of what it adds to `cover`. -/
def EdgeAct.Bounded : EdgeAct → Prop
  | .add f1 f2 => InCell f1 ∧ InCell f2 ∧ |f2.y - f1.y| ≤ ONE_PIXEL
  | .addV f1 f2y => InCell f1 ∧ 0 ≤ f2y ∧ f2y ≤ ONE_PIXEL ∧ |f2y - f1.y| ≤ ONE_PIXEL
  | .go _ => True

/-- The statements of the `vertical line up` loop of `_lineTo` from the cell `e1` with
the entry point `f1`, and the `f1` it ends with. -/
def upActs (e2y : Int) : Nat → SwPoint → SwPoint → Option (List EdgeAct × SwPoint)
  | 0, _, _ => none
  | fuel + 1, e1, f1 =>
    let f2y := ONE_PIXEL
    let act := EdgeAct.addV f1 f2y
    let f1 : SwPoint := { f1 with y := 0 }
    let e1 : SwPoint := { e1 with y := e1.y + 1 }
    if e1.y ≠ e2y then
      match upActs e2y fuel e1 f1 with
      | none => none
      | some (acts, f) => some (act :: .go e1 :: acts, f)
    else some ([act, .go e1], f1)

/-- The statements of the `vertical line down` loop of `_lineTo`. -/
def downActs (e2y : Int) : Nat → SwPoint → SwPoint → Option (List EdgeAct × SwPoint)
  | 0, _, _ => none
  | fuel + 1, e1, f1 =>
    let f2y := 0
    let act := EdgeAct.addV f1 f2y
    let f1 : SwPoint := { f1 with y := ONE_PIXEL }
    let e1 : SwPoint := { e1 with y := e1.y - 1 }
    if e1.y ≠ e2y then
      match downActs e2y fuel e1 f1 with
      | none => none
      | some (acts, f) => some (act :: .go e1 :: acts, f)
    else some ([act, .go e1], f1)

/-- The statements of the `any other line` loop of `_lineTo`. -/
def walkActs (diff e2 : SwPoint) (dx_r dy_r : Int) :
    Nat → SwPoint → SwPoint → Int → Option (List EdgeAct × SwPoint)
  | 0, _, _, _ => none
  | fuel + 1, e1, f1, prod =>
    let step := walkStep diff dx_r dy_r e1 prod
    if step.2.1 ≠ e2 then
      match walkActs diff e2 dx_r dy_r fuel step.2.1 step.2.2.1 step.2.2.2 with
      | none => none
      | some (acts, f) => some (.add f1 step.1 :: .go step.2.1 :: acts, f)
    else some ([.add f1 step.1, .go step.2.1], step.2.2.1)

/-- The statements of `_lineTo` between the vertical clipping test and the last two
`+=`, for the line from `pos` to `dst`, and the `f1` they end with. -/
def scanActs (pos dst : SwPoint) : Option (List EdgeAct × SwPoint) :=
  let e1 := TRUNCpt pos
  let e2 := TRUNCpt dst
  let diff := dst - pos
  let f1 := pos - SUBPIXELSpt e1
  if e1 = e2 then some ([], f1)
  else if diff.y = 0 then some ([.go ⟨e2.x, e1.y⟩], f1)
  else if diff.x = 0 then
    if diff.y > 0 then upActs e2.y (e2.y - e1.y).toNat e1 f1
    else downActs e2.y (e1.y - e2.y).toNat e1 f1
  else
    let prod := diff.x * f1.y - diff.y * f1.x
    let dx_r := Int.tdiv ULONG_MAX_SHIFTED diff.x
    let dy_r := Int.tdiv ULONG_MAX_SHIFTED diff.y
    walkActs diff e2 dx_r dy_r ((e2.x - e1.x).natAbs + (e2.y - e1.y).natAbs) e1 f1 prod

/-- The statements of `_lineTo` on the worker for a line from `pos` to `dst` that the
vertical clipping test does not skip, up to the assignment `rw.pos = to`. -/
def lineActs (pos dst : SwPoint) : Option (List EdgeAct) :=
  match scanActs pos dst with
  | none => none
  | some (acts, f1) =>
    let e2 := TRUNCpt dst
    let f2 : SwPoint := ⟨dst.x - SUBPIXELS e2.x, dst.y - SUBPIXELS e2.y⟩
    some (acts ++ [.add f1 f2])

end ThorVG

namespace ThorVG

/-! ## The bands swept and the use of the band stack -/

/-- What a run of the band loops leaves besides its result: the bands `_sweep` ran on,
in the order of the sweeps, and the greatest number of entries of `bands` in use at a
turn of the loop (the two entries a `reduce_bands` writes are counted, also when the
second lies past the end of `bands`). -/
structure BandLog where
  swept : List Band
  peak : Nat
deriving Repr

/-- The `while (band >= bands)` loop of `rleRender` with its log. -/
def bandLoopLog : Nat → RleWorker → List Band → Except Abort (Option RleWorker) × BandLog
  | _, rw, [] => (.ok (some rw), ⟨[], 0⟩)
  | 0, _, _ :: below => (.error .undefined, ⟨[], below.length + 1⟩)
  | fuel + 1, rw, band :: below =>
    match bandTry rw band with
    | .error e => (.error e, ⟨[], below.length + 1⟩)
    | .ok (.swept rw) =>
      let r := bandLoopLog fuel rw below
      (r.1, ⟨band :: r.2.swept, max (below.length + 1) r.2.peak⟩)
    | .ok .failed => (.ok none, ⟨[], below.length + 1⟩)
    | .ok (.reduce rw) =>
      let bottom := band.min
      let top := band.max
      let middle := bottom + shr (top - bottom) 1
      if middle = bottom then (.ok none, ⟨[], below.length + 1⟩)
      else if below.length + 2 > BAND_SIZE then (.error .undefined, ⟨[], below.length + 2⟩)
      else
        let r := bandLoopLog fuel (countShoot rw bottom top)
          (⟨bottom, middle⟩ :: ⟨middle, top⟩ :: below)
        (r.1, ⟨r.2.swept, max (below.length + 1) r.2.peak⟩)

/-- The `for` loop of `rleRender` over a list of bands to set up, with its log. -/
def runBandsLog : List Band → RleWorker → Except Abort (Option RleWorker) × BandLog
  | [], rw => (.ok (some rw), ⟨[], 0⟩)
  | b :: bs, rw =>
    let r := bandLoopLog (2 * (b.max - b.min).toNat + 1) rw [b]
    match r.1 with
    | .error e => (.error e, r.2)
    | .ok none => (.ok none, r.2)
    | .ok (some rw) =>
      let r2 := runBandsLog bs rw
      (r2.1, ⟨r.2.swept ++ r2.2.swept, max r.2.peak r2.2.peak⟩)

/-- Scanline `y` belongs to the band. -/
def Band.has (b : Band) (y : Int) : Prop := b.min ≤ y ∧ y < b.max

instance (b : Band) (y : Int) : Decidable (b.has y) := by
  unfold Band.has; infer_instance

/-- A band of at least one scanline. -/
def Band.Nonempty (b : Band) : Prop := b.min < b.max

/-- Each band of the stack is low enough for its depth: one of `h` scanlines with `k`
bands below it has `(h - 1) * 2 ^ k < 2 ^ 37`. -/
def DepthIn : List Band → Prop
  | [] => True
  | b :: bs => (b.max - b.min - 1) * 2 ^ bs.length < 137438953472 ∧ DepthIn bs

/-- A bbox `2 ^ 37` scanlines high: its height divided by the band size 64 is `2 ^ 31`,
one more than the greatest `int`. -/
def tallBox : SwBBox := ⟨⟨0, 0⟩, ⟨8, 137438953472⟩⟩

end ThorVG

namespace ThorVG

/-! ## The attribute parsers of the SVG loader (`tvgXmlParser.cpp`)

A buffer is the list of its bytes; an iterator is an index into it.  A C string is the
list of its characters before the terminating NUL.  The callback `func` is modelled by
the list of the `(key, value)` pairs it is called with, in the order of the calls. -/

/-- The function `isspace` of the C locale: space, `\t`, `\n`, `\v`, `\f`, `\r`. -/
def isspace (c : Char) : Bool := c = ' ' || (9 ≤ c.toNat && c.toNat ≤ 13)

/-- The byte at index `i`; past the bytes listed it is the NUL that ends the text. -/
def byteAt (mem : List Char) (i : Nat) : Char := mem.getD i (Char.ofNat 0)

/-- The `for` loop of `_simpleXmlFindWhiteSpace`, with `n` bytes left before `itrEnd`. -/
def findWhiteSpaceFrom (mem : List Char) : Nat → Nat → Nat
  | 0, itr => itr
  | n + 1, itr => if isspace (byteAt mem itr) then itr else findWhiteSpaceFrom mem n (itr + 1)

/-- The function `_simpleXmlFindWhiteSpace`. -/
def _simpleXmlFindWhiteSpace (mem : List Char) (itr itrEnd : Nat) : Nat :=
  findWhiteSpaceFrom mem (itrEnd - itr) itr

/-- The `for` loop of `_simpleXmlSkipWhiteSpace`, with `n` bytes left before `itrEnd`. -/
def skipWhiteSpaceFrom (mem : List Char) : Nat → Nat → Nat
  | 0, itr => itr
  | n + 1, itr => if !isspace (byteAt mem itr) then itr else skipWhiteSpaceFrom mem n (itr + 1)

/-- The function `_simpleXmlSkipWhiteSpace`. -/
def _simpleXmlSkipWhiteSpace (mem : List Char) (itr itrEnd : Nat) : Nat :=
  skipWhiteSpaceFrom mem (itrEnd - itr) itr

/-- The `for` loop of `_simpleXmlUnskipWhiteSpace` after its `itr--`; the argument is
`itr + 1`, the value returned when the loop ends. -/
def unskipWhiteSpaceFrom (mem : List Char) (itrStart : Nat) : Nat → Nat
  | 0 => 0
  | r + 1 =>
    if r > itrStart then
      if !isspace (byteAt mem r) then r + 1 else unskipWhiteSpaceFrom mem itrStart r
    else r + 1

/-- The function `_simpleXmlUnskipWhiteSpace`. -/
def _simpleXmlUnskipWhiteSpace (mem : List Char) (itr itrStart : Nat) : Nat :=
  unskipWhiteSpaceFrom mem itrStart itr

/-- The test `strncmp(itr, entity, length) == 0`. -/
def entityAt (mem : List Char) (itr : Nat) (entity : List Char) : Bool :=
  (mem.drop itr).take entity.length = entity

/-- The `for` loop of `_simpleXmlSkipXmlEntities` over the table of entities: `itr` moved
past the first entity of the table that stands at it. -/
def skipEntity (mem : List Char) (itr : Nat) : List (List Char) → Nat
  | [] => itr
  | e :: rest => if entityAt mem itr e then itr + e.length else skipEntity mem itr rest

/-- The `while` loop of `_simpleXmlSkipXmlEntities`; each turn but the last moves `itr`
on, so `fuel` turns are enough when `fuel > itrEnd - itr`. -/
def skipXmlEntitiesFrom (xmlEntity : List (List Char)) (mem : List Char) (itrEnd : Nat) :
    Nat → Nat → Nat
  | 0, itr => itr
  | fuel + 1, itr =>
    if itr < itrEnd ∧ byteAt mem itr = '&' then
      let next := skipEntity mem itr xmlEntity
      if next = itr then itr else skipXmlEntitiesFrom xmlEntity mem itrEnd fuel next
    else itr

/-- The function `_simpleXmlSkipXmlEntities`.  The table `xmlEntity` (with
`xmlEntityLength` the lengths of its strings) is declared in `tvgXmlParser.h`, which is
not among the sources: it is a parameter. -/
def _simpleXmlSkipXmlEntities (xmlEntity : List (List Char)) (mem : List Char)
    (itr itrEnd : Nat) : Nat :=
  skipXmlEntitiesFrom xmlEntity mem itrEnd (itrEnd - itr + 1) itr

/-- The `for` loop of `_simpleXmlUnskipXmlEntities` over the table of entities. -/
def unskipEntity (mem : List Char) (itr itrStart : Nat) : List (List Char) → Nat
  | [] => itr
  | e :: rest =>
    if itrStart + e.length < itr ∧ entityAt mem (itr - e.length) e then itr - e.length
    else unskipEntity mem itr itrStart rest

/-- The `while` loop of `_simpleXmlUnskipXmlEntities`. -/
def unskipXmlEntitiesFrom (xmlEntity : List (List Char)) (mem : List Char) (itrStart : Nat) :
    Nat → Nat → Nat
  | 0, itr => itr
  | fuel + 1, itr =>
    if itr > itrStart ∧ byteAt mem (itr - 1) = ';' then
      let next := unskipEntity mem itr itrStart xmlEntity
      if next = itr then itr else unskipXmlEntitiesFrom xmlEntity mem itrStart fuel next
    else itr

/-- The function `_simpleXmlUnskipXmlEntities`. -/
def _simpleXmlUnskipXmlEntities (xmlEntity : List (List Char)) (mem : List Char)
    (itr itrStart : Nat) : Nat :=
  unskipXmlEntitiesFrom xmlEntity mem itrStart (itr - itrStart + 1) itr

/-- The `while (true)` loop of `_skipWhiteSpacesAndXmlEntities`: entities, then white
space, until one of the two leaves `itr` where it is. -/
def skipBothFrom (xmlEntity : List (List Char)) (mem : List Char) (itrEnd : Nat) :
    Nat → Nat → Nat
  | 0, itr => itr
  | fuel + 1, itr =>
    let itr1 := _simpleXmlSkipXmlEntities xmlEntity mem itr itrEnd
    if itr1 = itr then itr1
    else
      let itr2 := _simpleXmlSkipWhiteSpace mem itr1 itrEnd
      if itr2 = itr1 then itr2 else skipBothFrom xmlEntity mem itrEnd fuel itr2

/-- The function `_skipWhiteSpacesAndXmlEntities`. -/
def _skipWhiteSpacesAndXmlEntities (xmlEntity : List (List Char)) (mem : List Char)
    (itr itrEnd : Nat) : Nat :=
  let itr := _simpleXmlSkipWhiteSpace mem itr itrEnd
  skipBothFrom xmlEntity mem itrEnd (itrEnd - itr + 1) itr

/-- The `while (true)` loop of `_unskipWhiteSpacesAndXmlEntities`. -/
def unskipBothFrom (xmlEntity : List (List Char)) (mem : List Char) (itrStart : Nat) :
    Nat → Nat → Nat
  | 0, itr => itr
  | fuel + 1, itr =>
    let itr1 := _simpleXmlUnskipXmlEntities xmlEntity mem itr itrStart
    if itr1 = itr then itr1
    else
      let itr2 := _simpleXmlUnskipWhiteSpace mem itr1 itrStart
      if itr2 = itr1 then itr2 else unskipBothFrom xmlEntity mem itrStart fuel itr2

/-- The function `_unskipWhiteSpacesAndXmlEntities`. -/
def _unskipWhiteSpacesAndXmlEntities (xmlEntity : List (List Char)) (mem : List Char)
    (itr itrStart : Nat) : Nat :=
  let itr := _simpleXmlUnskipWhiteSpace mem itr itrStart
  unskipBothFrom xmlEntity mem itrStart (itr - itrStart + 1) itr

/-- The library function `memchr(s, c, n)`: the first index from `s` on, among `n`, that
holds the byte `c`. -/
def memchr (mem : List Char) (c : Char) : Nat → Nat → Option Nat
  | 0, _ => none
  | n + 1, s => if byteAt mem s = c then some s else memchr mem c n (s + 1)

/-- The `for` loop of `simpleXmlParseAttributes` that looks for the end of the key, with
`n` bytes left before `itrEnd`. -/
def keyEndFrom (mem : List Char) : Nat → Nat → Nat
  | 0, keyEnd => keyEnd
  | n + 1, keyEnd =>
    if byteAt mem keyEnd = '=' ∨ isspace (byteAt mem keyEnd) = true then keyEnd
    else keyEndFrom mem n (keyEnd + 1)

/-- The `while (value < valueEnd)` loop of `simpleXmlParseAttributes` that copies the
value to `tval` without its entities. -/
def copyValue (xmlEntity : List (List Char)) (mem : List Char) (valueEnd : Nat) :
    Nat → Nat → List Char
  | 0, _ => []
  | fuel + 1, value =>
    if value < valueEnd then
      let value := _simpleXmlSkipXmlEntities xmlEntity mem value valueEnd
      byteAt mem value :: copyValue xmlEntity mem valueEnd fuel (value + 1)
    else []

/-- How one turn of the `while (itr < itrEnd)` loop of `simpleXmlParseAttributes` ends. -/
inductive AttrTurn where
  /-- By `return`. -/
  | ret (value : Bool)
  /-- By `continue`, with `itr` as it was. -/
  | again
  /-- At the end of the body: `func` was called with the key and the value, and `itr` is
  past the value. -/
  | attribute (key value : List Char) (itr : Nat)
deriving Repr, DecidableEq

/-- One turn of the `while (itr < itrEnd)` loop of `simpleXmlParseAttributes`. -/
def attrTurn (xmlEntity : List (List Char)) (mem : List Char) (itrEnd itr : Nat) : AttrTurn :=
  let p := _skipWhiteSpacesAndXmlEntities xmlEntity mem itr itrEnd
  if p = itrEnd then .ret true
  else
    let key := p
    let keyEnd := keyEndFrom mem (itrEnd - key) key
    if keyEnd = itrEnd then .ret false
    else if keyEnd = key then .again
    else
      let value : Option Nat :=
        if byteAt mem keyEnd = '=' then some (keyEnd + 1)
        else (memchr mem '=' (itrEnd - keyEnd) keyEnd).map (· + 1)
      match value with
      | none => .ret false
      | some value =>
        let keyEnd := _simpleXmlUnskipXmlEntities xmlEntity mem keyEnd key
        let value := _skipWhiteSpacesAndXmlEntities xmlEntity mem value itrEnd
        if value = itrEnd then .ret false
        else
          let quoted := byteAt mem value = '"' ∨ byteAt mem value = '\''
          let valueEnd : Option Nat :=
            if quoted then memchr mem (byteAt mem value) (itrEnd - value) (value + 1)
            else some (_simpleXmlFindWhiteSpace mem value itrEnd)
          match valueEnd with
          | none => .ret false
          | some valueEnd =>
            let value := if quoted then value + 1 else value
            let itr := valueEnd + 1
            let value := _skipWhiteSpacesAndXmlEntities xmlEntity mem value itrEnd
            let valueEnd := _unskipWhiteSpacesAndXmlEntities xmlEntity mem valueEnd value
            .attribute ((mem.drop key).take (keyEnd - key))
              (copyValue xmlEntity mem valueEnd (valueEnd - value) value) itr

/-- The `while (itr < itrEnd)` loop of `simpleXmlParseAttributes` for `fuel` turns:
`none` when the loop has not ended by then. -/
def attrLoop (xmlEntity : List (List Char)) (mem : List Char) (itrEnd : Nat) :
    Nat → Nat → List (List Char × List Char) → Option (Bool × List (List Char × List Char))
  | 0, _, _ => none
  | fuel + 1, itr, calls =>
    if itr < itrEnd then
      match attrTurn xmlEntity mem itrEnd itr with
      | .ret value => some (value, calls)
      | .again => attrLoop xmlEntity mem itrEnd fuel itr calls
      | .attribute key value itr => attrLoop xmlEntity mem itrEnd fuel itr (calls ++ [(key, value)])
    else some (true, calls)

/-- The function `simpleXmlParseAttributes` run for `fuel` turns of its loop: the value
returned and the calls of `func`, or `none` when it has not returned by then.  `buf` is
`none` for a null pointer and `func` is false for a null callback. -/
def simpleXmlParseAttributes (xmlEntity : List (List Char)) (fuel : Nat)
    (buf : Option (List Char)) (bufLength : Nat) (func : Bool) :
    Option (Bool × List (List Char × List Char)) :=
  match buf with
  | none => some (false, [])
  | some mem => if !func then some (false, []) else attrLoop xmlEntity mem bufLength fuel 0 []

/-- The library function `strchr(buf, c)` on a C string: the index of the first `c`. -/
def strchr (c : Char) : List Char → Option Nat
  | [] => none
  | a :: rest => if a = c then some 0 else (strchr c rest).map (· + 1)

/-- The four statements of `simpleXmlParseW3CAttribute` that strip `key` (or `val`) of
its white space: the pointer moves past the leading white space, and a NUL is written
after the last character that is not white space. -/
def stripped (s : List Char) : List Char :=
  let s := s.drop (_simpleXmlSkipWhiteSpace s 0 s.length)
  s.take (_simpleXmlUnskipWhiteSpace s s.length 0)

/-- The `do ... while (next != nullptr)` loop of `simpleXmlParseW3CAttribute` from `buf`
on: the calls of `func`.  Each turn copies `key` and `val` anew, so the pointers `key`
and `val`, which the stripping moves on inside their arrays, are modelled by the strings
they point to. -/
def w3cLoop : Nat → List Char → Option (List (List Char × List Char))
  | 0, _ => none
  | fuel + 1, buf =>
    let sep := strchr ':' buf
    let next := strchr ';' buf
    let keyVal : List Char × List Char :=
      match next, sep with
      | none, some sep => (buf.take sep, buf.drop (sep + 1))
      | some next, some sep =>
        if sep < next then (buf.take sep, (buf.drop (sep + 1)).take (next - sep - 1))
        else (buf.take next, [])
      | some next, none => (buf.take next, [])
      | none, none => ([], [])
    let calls := if keyVal.1 ≠ [] then [(stripped keyVal.1, stripped keyVal.2)] else []
    match next with
    | none => some calls
    | some next =>
      match w3cLoop fuel (buf.drop (next + 1)) with
      | none => none
      | some rest => some (calls ++ rest)

/-- The function `simpleXmlParseW3CAttribute`: the value returned and the calls of
`func`; `buf` is `none` for a null pointer.  Each turn of the loop moves `buf` past a
`;`, so `strlen(buf) + 1` turns are its fuel. -/
def simpleXmlParseW3CAttribute (buf : Option (List Char)) :
    Option (Bool × List (List Char × List Char)) :=
  match buf with
  | none => some (false, [])
  | some buf =>
    if buf = [] then some (true, [])
    else (w3cLoop (buf.length + 1) buf).map (fun calls => (true, calls))

/-- The style string `k1:v1;k2:v2;...;kn:vn` of a list of keys and values. -/
def styleOf : List (List Char × List Char) → List Char
  | [] => []
  | [kv] => kv.1 ++ ':' :: kv.2
  | kv :: rest => kv.1 ++ ':' :: kv.2 ++ ';' :: styleOf rest

/-- A string without its leading and trailing white space. -/
def trimmed (s : List Char) : List Char := (s.dropWhile isspace).rdropWhile isspace

end ThorVG

namespace ThorVG

/-! ## The subdivision loop of `_cubicTo` without the worker -/

/-- The point midway between two points as `mathSplitCubic` takes it, each coordinate
`(a + b) / 2` in the integer division of C++. -/
def midOf (a b : SwPoint) : SwPoint := ⟨Int.tdiv (a.x + b.x) 2, Int.tdiv (a.y + b.y) 2⟩

/-- The point `base[3]` that `mathSplitCubic` writes: where the two halves meet. -/
def splitMid (a0 a1 a2 a3 : SwPoint) : SwPoint :=
  midOf (midOf (midOf a0 a1) (midOf a1 a2)) (midOf (midOf a3 a2) (midOf a1 a2))

/-- The subdivision loop of `_cubicTo` with the drawing left out: the stack `bezStack`
moves as in `cubicLoop`, each `_lineTo(rw, arc[0])` only notes its target.  The result
is the list of targets in the order of the calls, and the greatest number of points the
stack held at the head of a turn.  No bound on the stack is checked here. -/
def cubicRun : Nat → List SwPoint → Option (List SwPoint × Nat)
  | 0, _ => none
  | fuel + 1, a3 :: a2 :: a1 :: a0 :: below =>
    if cubicSplit a0 a1 a2 a3 then
      match cubicRun fuel (mathSplitCubic a0 a1 a2 a3 ++ below) with
      | none => none
      | some r => some (r.1, max (below.length + 4) r.2)
    else if below = [] then some ([a0], 4)
    else
      match cubicRun fuel (a0 :: below) with
      | none => none
      | some r => some (a0 :: r.1, max (below.length + 4) r.2)
  | _ + 1, _ => none

/-- The calls `_lineTo(rw, p)` for the points `p` of a list, one after the other; the
first abort ends the sequence. -/
def drawAll : RleWorker → List SwPoint → Except Abort RleWorker
  | rw, [] => .ok rw
  | rw, p :: ps =>
    match _lineTo rw p with
    | .error e => .error e
    | .ok rw1 => drawAll rw1 ps

/-- The arc `arc[0..3]` is drawn after at most `n` nested splits: either the split
decision of `_cubicTo` is `draw`, or both halves that `mathSplitCubic` leaves are drawn
after at most `n - 1` nested splits.  The half toward `arc[3]` is
`base[3], base[4], base[5], base[6]`, the half toward `arc[0]` is
`base[0], base[1], base[2], base[3]`. -/
def SplitsWithin : Nat → SwPoint → SwPoint → SwPoint → SwPoint → Prop
  | 0, a0, a1, a2, a3 => cubicSplit a0 a1 a2 a3 = false
  | n + 1, a0, a1, a2, a3 =>
    cubicSplit a0 a1 a2 a3 = false ∨
    (SplitsWithin n (splitMid a0 a1 a2 a3) (midOf (midOf a3 a2) (midOf a1 a2)) (midOf a3 a2) a3 ∧
     SplitsWithin n a0 (midOf a0 a1) (midOf (midOf a0 a1) (midOf a1 a2)) (splitMid a0 a1 a2 a3))

/-- The targets of the `_lineTo` calls for the arc `arc[0..3]`, followed through at most
`n` nested splits: the half toward `arc[3]` is on top of the stack and comes first. -/
def cubicTargets : Nat → SwPoint → SwPoint → SwPoint → SwPoint → List SwPoint
  | 0, a0, _, _, _ => [a0]
  | n + 1, a0, a1, a2, a3 =>
    if cubicSplit a0 a1 a2 a3 then
      cubicTargets n (splitMid a0 a1 a2 a3) (midOf (midOf a3 a2) (midOf a1 a2)) (midOf a3 a2) a3 ++
      cubicTargets n a0 (midOf a0 a1) (midOf (midOf a0 a1) (midOf a1 a2)) (splitMid a0 a1 a2 a3)
    else [a0]

/-- The number of turns the loop takes for the arc `arc[0..3]`, followed through at most
`n` nested splits: one for the arc itself and those of its halves. -/
def cubicTurns : Nat → SwPoint → SwPoint → SwPoint → SwPoint → Nat
  | 0, _, _, _, _ => 1
  | n + 1, a0, a1, a2, a3 =>
    if cubicSplit a0 a1 a2 a3 then
      1 + (cubicTurns n (splitMid a0 a1 a2 a3) (midOf (midOf a3 a2) (midOf a1 a2)) (midOf a3 a2) a3 +
      cubicTurns n a0 (midOf a0 a1) (midOf (midOf a0 a1) (midOf a1 a2)) (splitMid a0 a1 a2 a3))
    else 1

/-- The greatest number of points on the stack from the arc `arc[0..3]` upward while the
loop works on it, followed through at most `n` nested splits: the half toward `arc[3]`
lies on the three points kept for the other half. -/
def cubicPeak : Nat → SwPoint → SwPoint → SwPoint → SwPoint → Nat
  | 0, _, _, _, _ => 4
  | n + 1, a0, a1, a2, a3 =>
    if cubicSplit a0 a1 a2 a3 then
      max (3 + cubicPeak n (splitMid a0 a1 a2 a3) (midOf (midOf a3 a2) (midOf a1 a2)) (midOf a3 a2) a3)
        (cubicPeak n a0 (midOf a0 a1) (midOf (midOf a0 a1) (midOf a1 a2)) (splitMid a0 a1 a2 a3))
    else 4

/-- The range of the coordinates that reach `_cubicTo`: a 26.6 fixed-point value of 32
bits, scaled by `UPSCALE`, lies within `2^33` of zero. -/
def COORD_RANGE : Int := 8589934592

/-- Both coordinates of a point lie in the range `COORD_RANGE`. -/
def InRange (p : SwPoint) : Prop :=
  -COORD_RANGE ≤ p.x ∧ p.x ≤ COORD_RANGE ∧ -COORD_RANGE ≤ p.y ∧ p.y ≤ COORD_RANGE

instance (p : SwPoint) : Decidable (InRange p) := by
  unfold InRange; infer_instance

/-- The steps of one coordinate of an arc: the three first differences are at most `A`
and the two second differences at most `B` in absolute value. -/
def CoordIn (A B b0 b1 b2 b3 : Int) : Prop :=
  |b1 - b0| ≤ A ∧ |b2 - b1| ≤ A ∧ |b3 - b2| ≤ A ∧
  |(b2 - b1) - (b1 - b0)| ≤ B ∧ |(b3 - b2) - (b2 - b1)| ≤ B

/-- Both coordinates of the arc `arc[0..3]` have steps within `A` and `B`. -/
def ArcIn (A B : Int) (a0 a1 a2 a3 : SwPoint) : Prop :=
  CoordIn A B a0.x a1.x a2.x a3.x ∧ CoordIn A B a0.y a1.y a2.y a3.y

/-- One coordinate of the control points lies between the end points of the arc, in the
sense of the two dot products of the split decision. -/
def CoordBetween (b0 b1 b2 b3 : Int) : Prop :=
  0 ≤ (b1 - b0) * (b3 - b1) ∧ 0 ≤ (b2 - b0) * (b3 - b2)

/-- The worker of the four bars with the pen at the origin. -/
def arcWorker : RleWorker := { barsWorker with pos := ⟨0, 0⟩ }

end ThorVG

namespace ThorVG

theorem Evolves.refl (a : RleWorker) : Evolves a a := ⟨rfl, rfl, id⟩

theorem Evolves.trans {a b c : RleWorker} (h1 : Evolves a b) (h2 : Evolves b c) : Evolves a c :=
  ⟨h2.1.trans h1.1, h2.2.1.trans h1.2.1, fun h => h2.2.2 (h1.2.2 h)⟩

theorem findInRow_mem (x : Int) (row : List Cell) :
    ∀ c ∈ (findInRow x row).1, c ∈ row ∨ c.x = x := by
  induction row with
  | nil => intro c hc; simp [findInRow] at hc; right; rw [hc]
  | cons cell next ih =>
    intro c hc
    unfold findInRow at hc
    split_ifs at hc with h1 h2
    · simp at hc
      rcases hc with rfl | rfl | h
      · right; rfl
      · left; simp
      · left; simp [h]
    · left; exact hc
    · simp at hc
      rcases hc with rfl | h
      · left; simp
      · rcases ih c h with h | h
        · left; simp [h]
        · right; exact h

theorem findInRow_rowOk (n x : Int) (row : List Cell) (hx : -1 ≤ x ∧ x < n) (h : RowOk n row) :
    RowOk n (findInRow x row).1 := by
  induction row with
  | nil => simp [findInRow, RowOk]; exact hx
  | cons cell next ih =>
    obtain ⟨hp, hb⟩ := h
    rw [List.pairwise_cons] at hp
    have hnext : RowOk n next := ⟨hp.2, fun c hc => hb c (List.mem_cons_of_mem _ hc)⟩
    unfold findInRow
    split_ifs with h1 h2
    · refine ⟨?_, ?_⟩
      · rw [List.pairwise_cons, List.pairwise_cons]
        refine ⟨?_, hp⟩
        intro c hc
        rcases List.mem_cons.1 hc with rfl | hc
        · exact h1
        · have := hp.1 c hc
          show x < c.x
          omega
      · intro c hc
        rcases List.mem_cons.1 hc with rfl | hc
        · exact hx
        · exact hb c hc
    · exact ⟨List.pairwise_cons.2 hp, hb⟩
    · have ih' := ih hnext
      refine ⟨?_, ?_⟩
      · show List.Pairwise _ (cell :: (findInRow x next).1)
        rw [List.pairwise_cons]
        refine ⟨?_, ih'.1⟩
        intro c hc
        rcases findInRow_mem x next c hc with h | h
        · exact hp.1 c h
        · rw [h]; omega
      · intro c hc
        rcases List.mem_cons.1 hc with rfl | hc
        · exact hb _ (List.mem_cons_self _ _)
        · exact ih'.2 c hc

theorem modifyAt_length {α : Type} (f : α → α) (i : Nat) (l : List α) :
    (modifyAt f i l).length = l.length := by
  induction l generalizing i with
  | nil => cases i <;> rfl
  | cons a l ih => cases i <;> simp [modifyAt, ih]

theorem modifyAt_mem {α : Type} (f : α → α) (i : Nat) (l : List α) :
    ∀ b ∈ modifyAt f i l, b ∈ l ∨ ∃ a ∈ l, b = f a := by
  induction l generalizing i with
  | nil => cases i <;> simp [modifyAt]
  | cons a l ih =>
    cases i with
    | zero =>
      intro b hb
      simp [modifyAt] at hb
      rcases hb with rfl | hb
      · right; exact ⟨a, by simp, rfl⟩
      · left; simp [hb]
    | succ i =>
      intro b hb
      simp [modifyAt] at hb
      rcases hb with rfl | hb
      · left; simp
      · rcases ih i b hb with h | ⟨a', ha', rfl⟩
        · left; simp [h]
        · right; exact ⟨a', by simp [ha'], rfl⟩

theorem modifyAt_rowOk (n : Int) (f : Cell → Cell) (hf : ∀ c, (f c).x = c.x) (i : Nat)
    (row : List Cell) (h : RowOk n row) : RowOk n (modifyAt f i row) := by
  induction row generalizing i with
  | nil => cases i <;> exact h
  | cons a l ih =>
    obtain ⟨hp, hb⟩ := h
    rw [List.pairwise_cons] at hp
    have hl : RowOk n l := ⟨hp.2, fun c hc => hb c (List.mem_cons_of_mem _ hc)⟩
    cases i with
    | zero =>
      refine ⟨?_, ?_⟩
      · show List.Pairwise _ (f a :: l)
        rw [List.pairwise_cons]
        exact ⟨fun c hc => by rw [hf]; exact hp.1 c hc, hp.2⟩
      · intro c hc
        rcases List.mem_cons.1 hc with rfl | hc
        · rw [hf]; exact hb _ (List.mem_cons_self _ _)
        · exact hb c (List.mem_cons_of_mem _ hc)
    | succ i =>
      have ih' := ih i hl
      refine ⟨?_, ?_⟩
      · show List.Pairwise _ (a :: modifyAt f i l)
        rw [List.pairwise_cons]
        refine ⟨?_, ih'.1⟩
        intro c hc
        rcases modifyAt_mem f i l c hc with h | ⟨a', ha', rfl⟩
        · exact hp.1 c h
        · rw [hf]; exact hp.1 a' ha'
      · intro c hc
        rcases List.mem_cons.1 hc with rfl | hc
        · exact hb _ (List.mem_cons_self _ _)
        · exact ih'.2 c hc

end ThorVG

namespace ThorVG

theorem Sound.of_evolves {α : Type} {p : α → RleWorker} {a b : RleWorker} {r : Except Abort α}
    (h1 : Evolves a b) (h2 : Sound p b r) : Sound p a r := by
  cases r with
  | ok v => exact h1.trans h2
  | error e =>
    cases e with
    | overflow rw1 => exact Eq.trans h2 h1.1
    | undefined => trivial

theorem findCell_sound (rw : RleWorker) (hv : rw.invalid = false) :
    Sound Prod.fst rw (_findCell rw) := by
  unfold _findCell
  dsimp only []
  generalize hx : (if rw.cellPos.x > rw.cellXCnt then rw.cellXCnt else rw.cellPos.x) = x
  by_cases hy : rw.cellPos.y < 0
  · rw [if_pos hy]; trivial
  rw [if_neg hy]
  cases hrow : rw.yCells[rw.cellPos.y.toNat]? with
  | none => trivial
  | some row =>
    dsimp only []
    by_cases hnew : (findInRow x row).2.2 = true
    · rw [if_pos hnew]
      by_cases hfull : rw.cellsCnt ≥ rw.maxCells
      · rw [if_pos hfull]; exact rfl
      · rw [if_neg hfull]
        refine ⟨rfl, by simp, fun hinv => ⟨?_, hinv.2⟩⟩
        intro r hr
        rcases List.mem_or_eq_of_mem_set hr with h | h
        · exact hinv.1 r h
        · rw [h]
          have hmem : row ∈ rw.yCells := List.getElem?_mem hrow
          have hb := hinv.2 hv
          apply findInRow_rowOk _ _ _ _ (hinv.1 row hmem)
          rw [← hx]
          split_ifs <;> omega
    · rw [if_neg hnew]; exact Evolves.refl rw

theorem recordCell_sound (rw : RleWorker) (hv : rw.invalid = false) :
    Sound id rw (_recordCell rw) := by
  unfold _recordCell
  by_cases h : rw.area ≠ 0 ∨ rw.cover ≠ 0
  · rw [if_pos h]
    have hf := findCell_sound rw hv
    cases he : _findCell rw with
    | error e => rw [he] at hf; exact hf
    | ok v =>
      obtain ⟨rw1, i⟩ := v
      rw [he] at hf
      refine Evolves.trans hf ⟨rfl, by simp [modifyAt_length], fun hinv => ⟨?_, hinv.2⟩⟩
      intro r hr
      rcases modifyAt_mem _ _ _ r hr with h | ⟨r0, hr0, rfl⟩
      · exact hinv.1 r h
      · refine modifyAt_rowOk _ _ ?_ _ _ (hinv.1 r0 hr0)
        intro c; rfl
  · rw [if_neg h]; exact Evolves.refl rw

theorem recordIf_sound (rw : RleWorker) :
    Sound id rw (if (!rw.invalid) = true then _recordCell rw else Except.ok rw) := by
  by_cases h : (!rw.invalid) = true
  · rw [if_pos h]
    exact recordCell_sound rw (by simpa using h)
  · rw [if_neg h]; exact Evolves.refl rw

theorem cellOf_x (rw : RleWorker) (pos : SwPoint) : -1 ≤ (cellOf rw pos).x := by
  unfold cellOf
  dsimp only []
  split_ifs <;> dsimp at * <;> omega

theorem enterCell_evolves (rw : RleWorker) (pos : SwPoint) (h : -1 ≤ pos.x) :
    Evolves rw (enterCell rw pos) := by
  refine ⟨rfl, rfl, fun hinv => ⟨hinv.1, ?_⟩⟩
  intro hv
  simp only [enterCell, decide_eq_false_iff_not, not_or, not_le] at hv
  exact ⟨h, by have := hv.2; simp only [enterCell]; omega⟩

theorem setCell_sound (rw : RleWorker) (pos : SwPoint) : Sound id rw (_setCell rw pos) := by
  unfold _setCell
  dsimp only []
  have hrec : Sound id rw (if cellOf rw pos ≠ rw.cellPos then
      (if (!rw.invalid) = true then _recordCell rw else Except.ok rw) else Except.ok rw) := by
    by_cases h : cellOf rw pos ≠ rw.cellPos
    · rw [if_pos h]; exact recordIf_sound rw
    · rw [if_neg h]; exact Evolves.refl rw
  revert hrec
  generalize (if cellOf rw pos ≠ rw.cellPos then
      (if (!rw.invalid) = true then _recordCell rw else Except.ok rw) else Except.ok rw) = r
  intro hrec
  cases r with
  | error e => exact hrec
  | ok rw1 =>
    refine Evolves.trans hrec ?_
    have := enterCell_evolves rw1 (cellOf rw pos) (cellOf_x _ _)
    exact this

theorem recordCell_zero (rw : RleWorker) (ha : rw.area = 0) (hc : rw.cover = 0) :
    _recordCell rw = Except.ok rw := by
  unfold _recordCell
  rw [if_neg (by simp [ha, hc])]

theorem setCell_zero (rw : RleWorker) (pos : SwPoint) (ha : rw.area = 0) (hc : rw.cover = 0) :
    _setCell rw pos = Except.ok (enterCell rw (cellOf rw pos)) := by
  unfold _setCell
  dsimp only []
  rw [recordCell_zero rw ha hc]
  simp only [ite_self]

theorem startCell_eq (rw : RleWorker) (pos : SwPoint) :
    _startCell rw pos = Except.ok (enterCell (startAt rw (startPos rw pos))
      (cellOf (startAt rw (startPos rw pos)) (startPos rw pos))) := by
  unfold _startCell
  dsimp only []
  rw [setCell_zero _ _ rfl rfl]

theorem startCell_sound (rw : RleWorker) (pos : SwPoint) : Sound id rw (_startCell rw pos) := by
  rw [startCell_eq]
  refine ⟨rfl, rfl, fun hinv => ⟨hinv.1, ?_⟩⟩
  intro hv
  simp only [id, enterCell, decide_eq_false_iff_not, not_or, not_le] at hv
  exact ⟨cellOf_x _ _, by have := hv.2; simp only [id, enterCell]; exact this⟩

theorem moveTo_sound (rw : RleWorker) (dst : SwPoint) : Sound id rw (_moveTo rw dst) := by
  unfold _moveTo
  have h1 := recordIf_sound rw
  revert h1
  generalize (if (!rw.invalid) = true then _recordCell rw else Except.ok rw) = r
  intro h1
  cases r with
  | error e => exact h1
  | ok rw1 =>
    dsimp only []
    have h2 := startCell_sound rw1 (TRUNCpt dst)
    revert h2
    generalize _startCell rw1 (TRUNCpt dst) = r2
    intro h2
    cases r2 with
    | error e => exact Sound.of_evolves (p := id) h1 h2
    | ok rw2 =>
      exact Evolves.trans h1 (Evolves.trans h2 ⟨rfl, rfl, fun hinv => hinv⟩)

theorem addEdge_evolves (rw : RleWorker) (f1 f2 : SwPoint) : Evolves rw (addEdge rw f1 f2) :=
  ⟨rfl, rfl, fun hinv => hinv⟩

theorem addVertical_evolves (rw : RleWorker) (f1 : SwPoint) (f2y : Int) :
    Evolves rw (addVertical rw f1 f2y) :=
  ⟨rfl, rfl, fun hinv => hinv⟩

theorem lineUp_sound (e2y : Int) (fuel : Nat) (rw : RleWorker) (e1 f1 : SwPoint) :
    Sound Prod.fst rw (lineUp e2y fuel rw e1 f1) := by
  induction fuel generalizing rw e1 f1 with
  | zero => trivial
  | succ n ih =>
    unfold lineUp
    dsimp only []
    have h0 := addVertical_evolves rw f1 ONE_PIXEL
    have h1 := setCell_sound (addVertical rw f1 ONE_PIXEL) ⟨e1.x, e1.y + 1⟩
    revert h1
    generalize _setCell (addVertical rw f1 ONE_PIXEL) ⟨e1.x, e1.y + 1⟩ = r
    intro h1
    cases r with
    | error e => exact Sound.of_evolves (p := id) h0 h1
    | ok rw1 =>
      dsimp only []
      split
      · exact Sound.of_evolves (h0.trans h1) (ih _ _ _)
      · exact h0.trans h1

theorem lineDown_sound (e2y : Int) (fuel : Nat) (rw : RleWorker) (e1 f1 : SwPoint) :
    Sound Prod.fst rw (lineDown e2y fuel rw e1 f1) := by
  induction fuel generalizing rw e1 f1 with
  | zero => trivial
  | succ n ih =>
    unfold lineDown
    dsimp only []
    have h0 := addVertical_evolves rw f1 0
    have h1 := setCell_sound (addVertical rw f1 0) ⟨e1.x, e1.y - 1⟩
    revert h1
    generalize _setCell (addVertical rw f1 0) ⟨e1.x, e1.y - 1⟩ = r
    intro h1
    cases r with
    | error e => exact Sound.of_evolves (p := id) h0 h1
    | ok rw1 =>
      dsimp only []
      split
      · exact Sound.of_evolves (h0.trans h1) (ih _ _ _)
      · exact h0.trans h1

theorem lineWalk_succ (diff e2 : SwPoint) (dx_r dy_r : Int) (n : Nat) (rw : RleWorker)
    (e1 f1 : SwPoint) (prod : Int) :
    lineWalk diff e2 dx_r dy_r (n + 1) rw e1 f1 prod =
      match _setCell (addEdge rw f1 (walkStep diff dx_r dy_r e1 prod).1)
          (walkStep diff dx_r dy_r e1 prod).2.1 with
      | .error e => .error e
      | .ok rw =>
        if (walkStep diff dx_r dy_r e1 prod).2.1 ≠ e2 then
          lineWalk diff e2 dx_r dy_r n rw (walkStep diff dx_r dy_r e1 prod).2.1
            (walkStep diff dx_r dy_r e1 prod).2.2.1 (walkStep diff dx_r dy_r e1 prod).2.2.2
        else .ok (rw, (walkStep diff dx_r dy_r e1 prod).2.2.1) := rfl

theorem lineWalk_sound (diff e2 : SwPoint) (dx_r dy_r : Int) (fuel : Nat) (rw : RleWorker)
    (e1 f1 : SwPoint) (prod : Int) :
    Sound Prod.fst rw (lineWalk diff e2 dx_r dy_r fuel rw e1 f1 prod) := by
  induction fuel generalizing rw e1 f1 prod with
  | zero => trivial
  | succ n ih =>
    rw [lineWalk_succ]
    generalize walkStep diff dx_r dy_r e1 prod = step
    have h0 := addEdge_evolves rw f1 step.1
    have h1 := setCell_sound (addEdge rw f1 step.1) step.2.1
    revert h1
    generalize _setCell (addEdge rw f1 step.1) step.2.1 = r
    intro h1
    cases r with
    | error e => exact Sound.of_evolves (p := id) h0 h1
    | ok rw1 =>
      dsimp only []
      split
      · exact Sound.of_evolves (h0.trans h1) (ih _ _ _ _)
      · exact h0.trans h1

theorem lineScan_sound (rw : RleWorker) (dst : SwPoint) : Sound Prod.fst rw (lineScan rw dst) := by
  unfold lineScan
  dsimp only []
  split
  · exact Evolves.refl rw
  · split
    · have h1 := setCell_sound rw ⟨(TRUNCpt dst).x, (TRUNCpt rw.pos).y⟩
      revert h1
      generalize _setCell rw ⟨(TRUNCpt dst).x, (TRUNCpt rw.pos).y⟩ = r
      intro h1
      cases r with
      | error e => exact h1
      | ok rw1 => exact h1
    · split
      · split
        · exact lineUp_sound _ _ _ _ _
        · exact lineDown_sound _ _ _ _ _
      · exact lineWalk_sound _ _ _ _ _ _ _ _ _

theorem lineTo_sound (rw : RleWorker) (dst : SwPoint) : Sound id rw (_lineTo rw dst) := by
  unfold _lineTo
  split
  · exact ⟨rfl, rfl, fun hinv => hinv⟩
  · have hs := lineScan_sound rw dst
    revert hs
    generalize lineScan rw dst = walked
    intro hs
    cases walked with
    | error e => exact hs
    | ok v =>
      obtain ⟨rw1, f1⟩ := v
      exact Evolves.trans hs ⟨rfl, rfl, fun hinv => hinv⟩

theorem cubicLoop_sound (fuel : Nat) (rw : RleWorker) (stk : List SwPoint) :
    Sound id rw (cubicLoop fuel rw stk) := by
  induction fuel generalizing rw stk with
  | zero => unfold cubicLoop; trivial
  | succ n ih =>
    match stk with
    | a3 :: a2 :: a1 :: a0 :: below =>
      unfold cubicLoop
      split
      · split
        · trivial
        · exact ih _ _
      · have h1 := lineTo_sound rw a0
        revert h1
        generalize _lineTo rw a0 = r
        intro h1
        cases r with
        | error e => exact h1
        | ok rw1 =>
          dsimp only []
          split
          · exact h1
          · exact Sound.of_evolves h1 (ih _ _)
    | [] => unfold cubicLoop; trivial
    | [_] => unfold cubicLoop; trivial
    | [_, _] => unfold cubicLoop; trivial
    | [_, _, _] => unfold cubicLoop; trivial

theorem cubicTo_sound (rw : RleWorker) (c1 c2 dst : SwPoint) : Sound id rw (_cubicTo rw c1 c2 dst) := by
  unfold _cubicTo
  split
  · exact lineTo_sound _ _
  · exact cubicLoop_sound _ _ _

theorem contourLoop_sound (o : SwOutline) (limit : Nat) (start : SwPoint) (fuel : Nat)
    (rw : RleWorker) (pt : Nat) : Sound Prod.fst rw (contourLoop o limit start fuel rw pt) := by
  induction fuel generalizing rw pt with
  | zero => unfold contourLoop; trivial
  | succ n ih =>
    unfold contourLoop
    split
    · dsimp only []
      split
      · rename_i t0 p0 _ _
        split
        · have h1 := lineTo_sound rw (UPSCALE p0)
          revert h1
          generalize _lineTo rw (UPSCALE p0) = r
          intro h1
          cases r with
          | error e => exact h1
          | ok rw1 => exact Sound.of_evolves h1 (ih _ _)
        · split
          · exact Evolves.refl rw
          · split
            · rename_i t1 p1 _ _
              split
              · exact Evolves.refl rw
              · split
                · split
                  · rename_i p2 _
                    have h1 := cubicTo_sound rw (UPSCALE p0) (UPSCALE p1) (UPSCALE p2)
                    revert h1
                    generalize _cubicTo rw (UPSCALE p0) (UPSCALE p1) (UPSCALE p2) = r
                    intro h1
                    cases r with
                    | error e => exact h1
                    | ok rw1 => exact Sound.of_evolves h1 (ih _ _)
                  · trivial
                · have h1 := cubicTo_sound rw (UPSCALE p0) (UPSCALE p1) start
                  revert h1
                  generalize _cubicTo rw (UPSCALE p0) (UPSCALE p1) start = r
                  intro h1
                  cases r with
                  | error e => exact h1
                  | ok rw1 => exact h1
            · trivial
      · trivial
    · exact Evolves.refl rw

theorem decomposeContours_sound (o : SwOutline) (cs : List Nat) (first : Nat) (rw : RleWorker) :
    Sound Prod.fst rw (decomposeContours o cs first rw) := by
  induction cs generalizing first rw with
  | nil => unfold decomposeContours; exact Evolves.refl rw
  | cons last more ih =>
    unfold decomposeContours
    split
    · rename_i p t _ _
      dsimp only []
      split
      · exact Evolves.refl rw
      · have h1 := moveTo_sound rw (UPSCALE p)
        revert h1
        generalize _moveTo rw (UPSCALE p) = r
        intro h1
        cases r with
        | error e => exact h1
        | ok rw1 =>
          dsimp only []
          have h2 := contourLoop_sound o last (UPSCALE p) (last - first + 1) rw1 first
          revert h2
          generalize contourLoop o last (UPSCALE p) (last - first + 1) rw1 first = r2
          intro h2
          cases r2 with
          | error e => exact Sound.of_evolves (p := Prod.fst) h1 h2
          | ok v =>
            obtain ⟨rw2, ex⟩ := v
            have h12 : Evolves rw rw2 := h1.trans h2
            cases ex with
            | invalid => exact h12
            | close => exact Sound.of_evolves h12 (ih _ _)
            | line =>
              dsimp only []
              have h3 := lineTo_sound rw2 (UPSCALE p)
              revert h3
              generalize _lineTo rw2 (UPSCALE p) = r3
              intro h3
              cases r3 with
              | error e => exact Sound.of_evolves (p := id) h12 h3
              | ok rw3 => exact Sound.of_evolves (h12.trans h3) (ih _ _)
    · trivial

/-- What `_genRle` leaves behind: the frame is kept, and after a full run (`ret = 0`) a
well formed grid is well formed. -/
theorem genRle_sound (rw rw1 : RleWorker) (ret : Int) (h : _genRle rw = some (rw1, ret)) :
    frameOf rw1 = frameOf rw ∧ (ret = 0 → Evolves rw rw1) := by
  unfold _genRle at h
  have h1 := decomposeContours_sound rw.outline rw.outline.cntrs 0 rw
  unfold _decomposeOutline at h
  revert h
  revert h1
  generalize decomposeContours rw.outline rw.outline.cntrs 0 rw = r
  intro h1 h
  cases r with
  | error e =>
    cases e with
    | overflow rw2 =>
      simp only [Option.some.injEq, Prod.mk.injEq] at h
      obtain ⟨rfl, rfl⟩ := h
      exact ⟨h1, by intro h0; cases h0⟩
    | undefined => cases h
  | ok v =>
    obtain ⟨rw2, b⟩ := v
    dsimp only [] at h
    have h2 := recordIf_sound rw2
    revert h
    revert h2
    generalize (if (!rw2.invalid) = true then _recordCell rw2 else Except.ok rw2) = r2
    intro h2 h
    cases r2 with
    | error e =>
      cases e with
      | overflow rw3 =>
        simp only [Option.some.injEq, Prod.mk.injEq] at h
        obtain ⟨rfl, rfl⟩ := h
        exact ⟨Eq.trans h2 h1.1, by intro h0; cases h0⟩
      | undefined => cases h
    | ok rw3 =>
      simp only [Option.some.injEq, Prod.mk.injEq] at h
      obtain ⟨rfl, rfl⟩ := h
      exact ⟨(Evolves.trans h1 h2).1, fun _ => Evolves.trans h1 h2⟩

end ThorVG

namespace ThorVG

theorem mergeSpan_strip (rw rw1 : RleWorker) (x y c n : Int) (h : mergeSpan rw x y c n = some rw1) :
    stripSpans rw1 = stripSpans rw := by
  unfold mergeSpan at h
  cases hl : rw.spans.getLast? with
  | none => rw [hl] at h; cases h
  | some span =>
    rw [hl] at h
    dsimp only [] at h
    split at h
    · cases h; rfl
    · cases h

theorem flushIfFull_strip (rw : RleWorker) : stripSpans (flushIfFull rw) = stripSpans rw := by
  unfold flushIfFull
  split <;> rfl

theorem addSpan_strip (rw : RleWorker) (x y c n : Int) :
    stripSpans (addSpan rw x y c n) = stripSpans rw := by
  unfold addSpan
  dsimp only []
  split <;> rfl

theorem emitSpan_strip (rw : RleWorker) (x y c n : Int) :
    stripSpans (emitSpan rw x y c n) = stripSpans rw := by
  unfold emitSpan
  cases h : mergeSpan rw x y c n with
  | none => dsimp only []; rw [addSpan_strip, flushIfFull_strip]
  | some rw1 => exact mergeSpan_strip _ _ _ _ _ _ h

theorem horizLine_strip (rw : RleWorker) (x y area acount : Int) :
    stripSpans (_horizLine rw x y area acount) = stripSpans rw := by
  unfold _horizLine
  dsimp only []
  split
  · rfl
  · split
    · rfl
    · split
      · exact emitSpan_strip _ _ _ _ _
      · rfl

theorem sweepCell_strip (y : Int) (rw : RleWorker) (cell : Cell) (cover x : Int) :
    stripSpans (sweepCell y rw cell cover x) = stripSpans rw := by
  unfold sweepCell
  dsimp only []
  split
  · rw [horizLine_strip]
    split
    · rw [horizLine_strip]
    · rfl
  · split
    · rw [horizLine_strip]
    · rfl

theorem sweepCells_strip (y : Int) (rw : RleWorker) (row : List Cell) (cover x : Int) :
    stripSpans (sweepCells y rw row cover x).1 = stripSpans rw := by
  induction row generalizing rw cover x with
  | nil => rfl
  | cons cell next ih =>
    unfold sweepCells
    rw [ih, sweepCell_strip]

theorem sweepRow_strip (rw : RleWorker) (y : Int) (row : List Cell) :
    stripSpans (sweepRow rw y row) = stripSpans rw := by
  unfold sweepRow
  dsimp only []
  split
  · rw [horizLine_strip, sweepCells_strip]
  · rw [sweepCells_strip]

theorem sweepRows_strip (rw : RleWorker) (y : Int) (rows : List (List Cell)) :
    stripSpans (sweepRows rw y rows) = stripSpans rw := by
  induction rows generalizing rw y with
  | nil => rfl
  | cons row rows ih =>
    unfold sweepRows
    rw [ih, sweepRow_strip]

theorem sweep_strip (rw : RleWorker) : stripSpans (_sweep rw) = stripSpans rw := by
  unfold _sweep
  split
  · rfl
  · dsimp only []
    split
    · show stripSpans (sweepRows _ 0 _) = _
      rw [sweepRows_strip]; rfl
    · rw [sweepRows_strip]; rfl

theorem configOf_strip (rw : RleWorker) : configOf (stripSpans rw) = configOf rw := rfl

theorem sweep_config (rw : RleWorker) : configOf (_sweep rw) = configOf rw := by
  rw [← configOf_strip, sweep_strip, configOf_strip]

theorem config_of_frame {a b : RleWorker} (h : frameOf b = frameOf a) : configOf b = configOf a := by
  have h1 := congrArg WorkerFrame.outline h
  have h2 := congrArg WorkerFrame.clip h
  have h3 := congrArg WorkerFrame.antiAlias h
  have h4 := congrArg WorkerFrame.cellMin h
  have h5 := congrArg WorkerFrame.cellMax h
  have h6 := congrArg WorkerFrame.cellXCnt h
  have h7 := congrArg WorkerFrame.bandSize h
  simp only [frameOf] at h1 h2 h3 h4 h5 h6 h7
  simp only [configOf, h1, h2, h3, h4, h5, h6, h7]

end ThorVG

namespace ThorVG

theorem toI32_eq_self (v : Int) (h1 : -2147483648 ≤ v) (h2 : v < 2147483648) : toI32 v = v := by
  unfold toI32; omega

theorem bandSetup_some (rw rw0 : RleWorker) (band : Band) (h : bandSetup rw band = .ok (some rw0)) :
    ∃ mc, rw0 = bandWorker rw band mc ∧ 2 ≤ mc ∧
      mc = (cellEndOf - cellStartOf (band.max - band.min)) / sizeofCell := by
  unfold bandSetup at h
  dsimp only [] at h
  split at h
  · cases h
  · split at h
    · cases h
    · split at h
      · cases h
      · simp only [Except.ok.injEq, Option.some.injEq] at h
        exact ⟨_, h.symm, by omega, rfl⟩

theorem bandTry_reduce (rw rw1 : RleWorker) (band : Band) (h : bandTry rw band = .ok (.reduce rw1)) :
    configOf rw1 = configOf rw ∧ rw1.rle = rw.rle := by
  unfold bandTry at h
  cases hs : bandSetup rw band with
  | error e => rw [hs] at h; cases h
  | ok v =>
    rw [hs] at h
    cases v with
    | none =>
      simp only [Except.ok.injEq, BandTry.reduce.injEq] at h
      subst h
      exact ⟨rfl, rfl⟩
    | some rw0 =>
      obtain ⟨mc, rfl, _, _⟩ := bandSetup_some _ _ _ hs
      dsimp only [] at h
      cases hg : _genRle (bandWorker rw band mc) with
      | none => rw [hg] at h; cases h
      | some v =>
        obtain ⟨rw2, ret⟩ := v
        rw [hg] at h
        dsimp only [] at h
        have hf := (genRle_sound _ _ _ hg).1
        split at h
        · cases h
        · split at h
          · cases h
          · simp only [Except.ok.injEq, BandTry.reduce.injEq] at h
            subst h
            exact ⟨(config_of_frame hf).trans rfl, (congrArg WorkerFrame.rle hf).trans rfl⟩

theorem bandTry_swept (rw rw1 : RleWorker) (band : Band) (h : bandTry rw band = .ok (.swept rw1)) :
    ∃ rw0 rw2, bandSetup rw band = .ok (some rw0) ∧ _genRle rw0 = some (rw2, 0) ∧ rw1 = _sweep rw2 := by
  unfold bandTry at h
  cases hs : bandSetup rw band with
  | error e => rw [hs] at h; cases h
  | ok v =>
    rw [hs] at h
    cases v with
    | none => cases h
    | some rw0 =>
      dsimp only [] at h
      cases hg : _genRle rw0 with
      | none => rw [hg] at h; cases h
      | some v =>
        obtain ⟨rw2, ret⟩ := v
        rw [hg] at h
        dsimp only [] at h
        split at h
        · rename_i h0
          simp only [Except.ok.injEq, BandTry.swept.injEq] at h
          subst h0
          exact ⟨rw0, rw2, rfl, hg, h.symm⟩
        · split at h <;> cases h

theorem countShoot_config (rw : RleWorker) (a b : Int) :
    configOf (countShoot rw a b) = configOf rw ∧ (countShoot rw a b).rle = rw.rle := by
  unfold countShoot
  split <;> exact ⟨rfl, rfl⟩

theorem bandLoop_nil (fuel : Nat) (rw : RleWorker) : bandLoop fuel rw [] = .ok (some rw) := by
  cases fuel <;> rfl

theorem bandLoop_zero (rw : RleWorker) (b : Band) (bs : List Band) :
    bandLoop 0 rw (b :: bs) = .error .undefined := rfl

theorem bandLoop_succ (n : Nat) (rw : RleWorker) (band : Band) (below : List Band) :
    bandLoop (n + 1) rw (band :: below) =
      match bandTry rw band with
      | .error e => .error e
      | .ok (.swept rw) => bandLoop n rw below
      | .ok .failed => .ok none
      | .ok (.reduce rw) =>
        if band.min + shr (band.max - band.min) 1 = band.min then .ok none
        else if below.length + 2 > BAND_SIZE then .error .undefined
        else bandLoop n (countShoot rw band.min band.max)
          (⟨band.min, band.min + shr (band.max - band.min) 1⟩ ::
            ⟨band.min + shr (band.max - band.min) 1, band.max⟩ :: below) := rfl

/-- The invariant principle of the `while (band >= bands)` loop: a property of the RLE
tied to the scanline reached goes through every band swept.  `G` is a property of bands
that the two halves of a band inherit. -/
theorem bandLoop_invariant (G : Band → Prop) (P : Int → SwRleData → Prop) (cfg : RunConfig)
    (hG : ∀ b : Band, G b → b.min + shr (b.max - b.min) 1 ≠ b.min →
      G ⟨b.min, b.min + shr (b.max - b.min) 1⟩ ∧ G ⟨b.min + shr (b.max - b.min) 1, b.max⟩)
    (hstep : ∀ (rwPrev rw0 rw : RleWorker) (band : Band), configOf rwPrev = cfg → G band →
      bandSetup rwPrev band = .ok (some rw0) → _genRle rw0 = some (rw, 0) →
      P band.min rwPrev.rle → P band.max (_sweep rw).rle)
    (fuel : Nat) (rw : RleWorker) (stk : List Band) (lo hi : Int) (rwF : RleWorker)
    (hc : configOf rw = cfg) (hs : StackOk G lo hi stk)
    (hP : P lo rw.rle) (h : bandLoop fuel rw stk = .ok (some rwF)) :
    configOf rwF = cfg ∧ P hi rwF.rle := by
  induction fuel generalizing rw stk lo with
  | zero =>
    cases stk with
    | nil =>
      rw [bandLoop_nil] at h
      simp only [Except.ok.injEq, Option.some.injEq] at h
      subst h
      have : lo = hi := hs
      subst this
      exact ⟨hc, hP⟩
    | cons b bs => rw [bandLoop_zero] at h; cases h
  | succ n ih =>
    cases stk with
    | nil =>
      rw [bandLoop_nil] at h
      simp only [Except.ok.injEq, Option.some.injEq] at h
      subst h
      have : lo = hi := hs
      subst this
      exact ⟨hc, hP⟩
    | cons band below =>
      obtain ⟨hmin, hg, hrest⟩ := hs
      rw [bandLoop_succ] at h
      cases ht : bandTry rw band with
      | error e => rw [ht] at h; cases h
      | ok v =>
        rw [ht] at h
        cases v with
        | failed => cases h
        | swept rw1 =>
          dsimp only [] at h
          obtain ⟨rw0, rw2, hs0, hgen, rfl⟩ := bandTry_swept _ _ _ ht
          have hP1 : P band.max (_sweep rw2).rle :=
            hstep rw rw0 rw2 band hc hg hs0 hgen (by rw [hmin]; exact hP)
          have hc1 : configOf (_sweep rw2) = cfg := by
            rw [sweep_config]
            obtain ⟨mc, rfl, _, _⟩ := bandSetup_some _ _ _ hs0
            rw [config_of_frame (genRle_sound _ _ _ hgen).1]
            exact hc
          exact ih _ _ _ hc1 hrest hP1 h
        | reduce rw1 =>
          dsimp only [] at h
          obtain ⟨hc1, hr1⟩ := bandTry_reduce _ _ _ ht
          split at h
          · cases h
          · rename_i hmid
            split at h
            · cases h
            · obtain ⟨hg1, hg2⟩ := hG band hg hmid
              refine ih (countShoot rw1 band.min band.max) _ lo ?_ ?_ ?_ h
              · rw [(countShoot_config _ _ _).1, hc1]; exact hc
              · exact ⟨hmin, hg1, rfl, hg2, hrest⟩
              · rw [(countShoot_config _ _ _).2, hr1]; exact hP

theorem bandIn_halves (yLo yHi : Int) (b : Band) (h : BandIn yLo yHi b)
    (_hm : b.min + shr (b.max - b.min) 1 ≠ b.min) :
    BandIn yLo yHi ⟨b.min, b.min + shr (b.max - b.min) 1⟩ ∧
    BandIn yLo yHi ⟨b.min + shr (b.max - b.min) 1, b.max⟩ := by
  have hsh : shr (b.max - b.min) 1 = (b.max - b.min) / 2 := by simp [shr]
  rw [hsh]
  obtain ⟨h1, h2, h3⟩ := h
  refine ⟨⟨h1, ?_, ?_⟩, ⟨?_, ?_, h3⟩⟩ <;> dsimp only [] <;> omega

theorem renderBands_zero (yMax bandCnt n min : Int) (rw : RleWorker) :
    renderBands yMax bandCnt 0 n min rw = .ok (some rw) := rfl

theorem renderBands_succ (yMax bandCnt : Int) (k : Nat) (n min : Int) (rw : RleWorker) :
    renderBands yMax bandCnt (k + 1) n min rw =
      match bandLoop (2 * ((if n = bandCnt - 1 ∨ min + rw.bandSize > yMax then yMax
            else min + rw.bandSize) - min).toNat + 1) rw
          [⟨min, if n = bandCnt - 1 ∨ min + rw.bandSize > yMax then yMax else min + rw.bandSize⟩] with
      | .error e => .error e
      | .ok none => .ok none
      | .ok (some rw1) => renderBands yMax bandCnt k (n + 1)
          (if n = bandCnt - 1 ∨ min + rw.bandSize > yMax then yMax else min + rw.bandSize) rw1 := rfl

/-- The invariant principle of the `for` loop over the bands of `rleRender`. -/
theorem renderBands_invariant (P : Int → SwRleData → Prop) (cfg : RunConfig) (yLo yMax : Int)
    (bandCnt : Int) (hbs : 0 < cfg.bandSize)
    (hstep : ∀ (rwPrev rw0 rw : RleWorker) (band : Band), configOf rwPrev = cfg →
      BandIn yLo yMax band →
      bandSetup rwPrev band = .ok (some rw0) → _genRle rw0 = some (rw, 0) →
      P band.min rwPrev.rle → P band.max (_sweep rw).rle)
    (k : Nat) (n min : Int) (rw rwF : RleWorker)
    (hc : configOf rw = cfg) (hlo : yLo ≤ min) (hhi : min ≤ yMax)
    (hP : P min rw.rle) (h : renderBands yMax bandCnt k n min rw = .ok (some rwF)) :
    ∃ yEnd, min ≤ yEnd ∧ yEnd ≤ yMax ∧ P yEnd rwF.rle ∧ configOf rwF = cfg ∧
      (1 ≤ k → n + k = bandCnt → yEnd = yMax) := by
  induction k generalizing n min rw with
  | zero =>
    rw [renderBands_zero] at h
    simp only [Except.ok.injEq, Option.some.injEq] at h
    subst h
    exact ⟨min, le_refl _, hhi, hP, hc, fun h1 => by omega⟩
  | succ k ih =>
    rw [renderBands_succ] at h
    have hbsz : rw.bandSize = cfg.bandSize := by rw [← hc]; rfl
    generalize hmax : (if n = bandCnt - 1 ∨ min + rw.bandSize > yMax then yMax
            else min + rw.bandSize) = max at h
    have hmax1 : min ≤ max ∧ max ≤ yMax := by
      rw [← hmax]; split_ifs with h1
      · exact ⟨hhi, le_refl _⟩
      · simp only [not_or, not_lt] at h1
        omega
    cases hb : bandLoop (2 * (max - min).toNat + 1) rw [⟨min, max⟩] with
    | error e => rw [hb] at h; cases h
    | ok v =>
      rw [hb] at h
      cases v with
      | none => cases h
      | some rw1 =>
        dsimp only [] at h
        obtain ⟨hc1, hP1⟩ := bandLoop_invariant (BandIn yLo yMax) P cfg (bandIn_halves yLo yMax)
          hstep _ rw [⟨min, max⟩] min max rw1 hc ⟨rfl, ⟨hlo, hmax1.1, hmax1.2⟩, rfl⟩ hP hb
        obtain ⟨yEnd, h1, h2, h3, h4, h5⟩ := ih (n + 1) max rw1 hc1 (by omega) hmax1.2 hP1 h
        refine ⟨yEnd, by omega, h2, h3, h4, fun _ hn => ?_⟩
        by_cases hk : 1 ≤ k
        · exact h5 hk (by push_cast at hn ⊢; omega)
        · have hk0 : k = 0 := by omega
          subst hk0
          rw [renderBands_zero] at h
          have hn' : n = bandCnt - 1 := by push_cast at hn; omega
          have hmaxy : max = yMax := by rw [← hmax, if_pos (Or.inl hn')]
          omega

/-- The invariant principle of `rleRender`: a property of the RLE tied to the scanline
reached, true of the RLE handed in and kept by the sweep of every band, is true of the
RLE returned; when the height of the bbox fits an `int` the last scanline is reached. -/
theorem render_invariant (P : Int → SwRleData → Prop) (bandSize : Int) (rle : Option SwRleData)
    (outline : SwOutline) (bbox viewport : SwBBox) (antiAlias : Bool) (rwF : RleWorker)
    (hbs : 0 < bandSize) (hbox : bbox.min.y ≤ bbox.max.y)
    (hstep : ∀ (rwPrev rw0 rw : RleWorker) (band : Band),
      configOf rwPrev = configOf (initWorker bandSize rle outline bbox viewport antiAlias) →
      BandIn bbox.min.y bbox.max.y band →
      bandSetup rwPrev band = .ok (some rw0) → _genRle rw0 = some (rw, 0) →
      P band.min rwPrev.rle → P band.max (_sweep rw).rle)
    (h0 : P bbox.min.y (rle.getD ⟨[], 0⟩))
    (h : renderWorker bandSize rle outline bbox viewport antiAlias = .ok (some rwF)) :
    ∃ yEnd, bbox.min.y ≤ yEnd ∧ yEnd ≤ bbox.max.y ∧ P yEnd rwF.rle ∧
      (bbox.max.y - bbox.min.y < 2147483648 → yEnd = bbox.max.y) := by
  unfold renderWorker at h
  dsimp only [] at h
  generalize hcnt : bandCount ((initWorker bandSize rle outline bbox viewport antiAlias).cellMax.y -
      (initWorker bandSize rle outline bbox viewport antiAlias).cellMin.y)
      (initWorker bandSize rle outline bbox viewport antiAlias).bandSize = bandCnt at h
  cases hr : renderBands (initWorker bandSize rle outline bbox viewport antiAlias).cellMax.y bandCnt
      bandCnt.toNat 0 (initWorker bandSize rle outline bbox viewport antiAlias).cellMin.y
      (initWorker bandSize rle outline bbox viewport antiAlias) with
  | error e => rw [hr] at h; cases h
  | ok v =>
    rw [hr] at h
    cases v with
    | none => cases h
    | some rw1 =>
      dsimp only [] at h
      obtain ⟨yEnd, h1, h2, h3, h4, h5⟩ := renderBands_invariant P
        (configOf (initWorker bandSize rle outline bbox viewport antiAlias)) bbox.min.y bbox.max.y
        bandCnt hbs hstep bandCnt.toNat 0 bbox.min.y _ rw1 rfl (le_refl _) hbox h0 hr
      have hrle : rwF.rle = rw1.rle := by
        simp only [Except.ok.injEq, Option.some.injEq] at h
        rw [← h]
        unfold tuneBand
        split <;> rfl
      refine ⟨yEnd, h1, h2, by rw [hrle]; exact h3, fun hh => ?_⟩
      have hq : 0 ≤ Int.tdiv (bbox.max.y - bbox.min.y) bandSize ∧
          Int.tdiv (bbox.max.y - bbox.min.y) bandSize ≤ bbox.max.y - bbox.min.y := by
        rw [Int.tdiv_eq_ediv (by omega : 0 ≤ bbox.max.y - bbox.min.y) (by omega : 0 ≤ bandSize)]
        constructor
        · exact Int.ediv_nonneg (by omega) (by omega)
        · exact Int.ediv_le_self _ (by omega)
      have hcnt1 : 1 ≤ bandCnt := by
        rw [← hcnt]
        show 1 ≤ bandCount (bbox.max.y - bbox.min.y) bandSize
        unfold bandCount
        dsimp only []
        rw [toI32_eq_self _ (by omega) (by omega)]
        simp only [BAND_SIZE]
        split_ifs <;> omega
      exact h5 (by omega) (by omega)

/-- The invariant principle of `rleRender` for a property of the RLE alone. -/
theorem render_invariant_plain (Q : SwRleData → Prop) (bandSize : Int) (rle : Option SwRleData)
    (outline : SwOutline) (bbox viewport : SwBBox) (antiAlias : Bool) (rwF : RleWorker)
    (hstep : ∀ (rwPrev rw0 rw : RleWorker) (band : Band),
      configOf rwPrev = configOf (initWorker bandSize rle outline bbox viewport antiAlias) →
      bandSetup rwPrev band = .ok (some rw0) → _genRle rw0 = some (rw, 0) →
      Q rwPrev.rle → Q (_sweep rw).rle)
    (h0 : Q (rle.getD ⟨[], 0⟩))
    (h : renderWorker bandSize rle outline bbox viewport antiAlias = .ok (some rwF)) :
    Q rwF.rle := by
  unfold renderWorker at h
  dsimp only [] at h
  generalize bandCount ((initWorker bandSize rle outline bbox viewport antiAlias).cellMax.y -
      (initWorker bandSize rle outline bbox viewport antiAlias).cellMin.y)
      (initWorker bandSize rle outline bbox viewport antiAlias).bandSize = bandCnt at h
  have key : ∀ (k : Nat) (n min : Int) (rw rw1 : RleWorker),
      configOf rw = configOf (initWorker bandSize rle outline bbox viewport antiAlias) → Q rw.rle →
      renderBands (initWorker bandSize rle outline bbox viewport antiAlias).cellMax.y bandCnt k n min rw
        = .ok (some rw1) → Q rw1.rle := by
    intro k
    induction k with
    | zero =>
      intro n min rw rw1 _ hq hr
      rw [renderBands_zero] at hr
      simp only [Except.ok.injEq, Option.some.injEq] at hr
      subst hr
      exact hq
    | succ k ih =>
      intro n min rw rw1 hc hq hr
      rw [renderBands_succ] at hr
      generalize (if n = bandCnt - 1 ∨ min + rw.bandSize >
          (initWorker bandSize rle outline bbox viewport antiAlias).cellMax.y then
          (initWorker bandSize rle outline bbox viewport antiAlias).cellMax.y
          else min + rw.bandSize) = max at hr
      cases hb : bandLoop (2 * (max - min).toNat + 1) rw [⟨min, max⟩] with
      | error e => rw [hb] at hr; cases hr
      | ok v =>
        rw [hb] at hr
        cases v with
        | none => cases hr
        | some rw2 =>
          dsimp only [] at hr
          obtain ⟨hc2, hq2⟩ := bandLoop_invariant (fun _ => True) (fun _ => Q) _
            (fun _ _ _ => ⟨trivial, trivial⟩)
            (fun rwPrev rw0 rw band hcfg _ hs hg hq => hstep rwPrev rw0 rw band hcfg hs hg hq)
            _ rw [⟨min, max⟩] min max rw2 hc ⟨rfl, trivial, rfl⟩ hq hb
          exact ih _ _ _ _ hc2 hq2 hr
  cases hr : renderBands (initWorker bandSize rle outline bbox viewport antiAlias).cellMax.y bandCnt
      bandCnt.toNat 0 (initWorker bandSize rle outline bbox viewport antiAlias).cellMin.y
      (initWorker bandSize rle outline bbox viewport antiAlias) with
  | error e => rw [hr] at h; cases h
  | ok v =>
    rw [hr] at h
    cases v with
    | none => cases h
    | some rw1 =>
      dsimp only [] at h
      have hrle : rwF.rle = rw1.rle := by
        simp only [Except.ok.injEq, Option.some.injEq] at h
        rw [← h]
        unfold tuneBand
        split <;> rfl
      rw [hrle]
      exact key _ _ _ _ _ rfl h0 hr

end ThorVG

namespace ThorVG

theorem land_511 (c : Int) (h : 0 ≤ c) : Int.land c 511 = c % 512 := by
  obtain ⟨n, rfl⟩ := Int.eq_ofNat_of_zero_le h
  show ((n &&& 511 : Nat) : Int) = _
  have := Nat.and_pow_two_sub_one_eq_mod n 9
  norm_num at this
  rw [this]
  norm_cast

theorem coverageOf_range (fr : FillRule) (area : Int) :
    0 ≤ coverageOf fr area ∧ coverageOf fr area ≤ 255 := by
  unfold coverageOf
  dsimp only []
  generalize hv : (if toI32 (shr area (PIXEL_BITS * 2 + 1 - 8)) < 0 then
    -toI32 (shr area (PIXEL_BITS * 2 + 1 - 8)) else toI32 (shr area (PIXEL_BITS * 2 + 1 - 8))) = v
  have hv0 : 0 ≤ v := by rw [← hv]; split_ifs <;> omega
  by_cases hfr : fr = FillRule.EvenOdd
  · rw [if_pos hfr, land_511 v hv0]
    split_ifs <;> omega
  · rw [if_neg hfr]
    split_ifs <;> omega

theorem getLast?_split {α : Type} (l : List α) (a : α) (h : l.getLast? = some a) :
    l = l.dropLast ++ [a] := by
  have := List.dropLast_append_getLast? a (by simpa using h)
  exact this.symm

theorem mergeSpan_ok (rw rw1 : RleWorker) (x y c n : Int) (hn : 0 ≤ n) (h : OutOk rw)
    (hm : mergeSpan rw x y c n = some rw1) : OutOk rw1 := by
  unfold mergeSpan at hm
  cases hl : rw.spans.getLast? with
  | none => rw [hl] at hm; cases hm
  | some span =>
    rw [hl] at hm
    dsimp only [] at hm
    split at hm
    · rename_i hc
      simp only [Option.some.injEq] at hm
      subst hm
      have hsp := getLast?_split _ _ hl
      have hspan : SpanOk rw.clip span := h span (by
        rw [hsp]; simp)
      intro s hs
      show SpanOk rw.clip s
      simp only [List.mem_append, List.mem_singleton] at hs
      rcases hs with hs | hs | hs
      · exact h s (by simp [hs])
      · exact h s (by simp [List.mem_of_mem_dropLast hs])
      · subst hs
        obtain ⟨h1, h2, h3, h4, h5, h6, h7, h8⟩ := hspan
        obtain ⟨_, hx, _⟩ := hc
        refine ⟨h1, ?_, ?_, h4, h5, h6, h7, ?_⟩
        · simp only [toU16]; omega
        · simp only [toU16, clipXOver]; split_ifs <;> omega
        · intro hw
          have := h8 hw
          simp only [toU16, clipXOver]; split_ifs <;> omega
    · cases hm

theorem flushIfFull_ok (rw : RleWorker) (h : OutOk rw) : OutOk (flushIfFull rw) := by
  unfold flushIfFull
  split
  · intro s hs
    exact h s (by simpa [_genSpan] using hs)
  · exact h

theorem addSpan_ok (rw : RleWorker) (x y c n : Int) (h : OutOk rw)
    (hx : x ≤ 32767) (hy : 0 ≤ y ∧ y < rw.clip.h ∧ y ≤ 32767) (hc : 1 ≤ c ∧ c ≤ 255) :
    OutOk (addSpan rw x y c n) := by
  unfold addSpan
  dsimp only []
  split
  · exact h
  · rename_i hpos
    intro s hs
    show SpanOk rw.clip s
    simp only [List.mem_append, List.mem_singleton] at hs
    rcases hs with hs | hs | hs
    · exact h s (by simp [hs])
    · exact h s (by simp [hs])
    · subst hs
      simp only [clipXOver] at hpos
      refine ⟨?_, ?_, ?_, ?_, ?_, ?_, ?_, ?_⟩
      · simp only [toI16]; split_ifs <;> omega
      · simp only [toU16]; omega
      · simp only [toI16, toU16, clipXOver] at hpos ⊢; split_ifs at hpos ⊢ <;> omega
      · simp only [toI16]; omega
      · simp only [toI16]; omega
      · simp only [toU8]; omega
      · simp only [toU8]; omega
      · intro hw
        simp only [toU16, clipXOver] at hpos ⊢; split_ifs at hpos ⊢ <;> omega

theorem emitSpan_ok (rw : RleWorker) (x y c n : Int) (hn : 0 ≤ n) (h : OutOk rw)
    (hx : x ≤ 32767) (hy : 0 ≤ y ∧ y < rw.clip.h ∧ y ≤ 32767) (hc : 1 ≤ c ∧ c ≤ 255) :
    OutOk (emitSpan rw x y c n) := by
  unfold emitSpan
  cases hm : mergeSpan rw x y c n with
  | some rw1 => exact mergeSpan_ok rw rw1 x y c n hn h hm
  | none =>
    dsimp only []
    have hf := flushIfFull_ok rw h
    have hclip : (flushIfFull rw).clip = rw.clip := by
      have := congrArg RleWorker.clip (flushIfFull_strip rw)
      exact this
    exact addSpan_ok _ x y c n hf hx (by rw [hclip]; exact hy) hc

theorem horizLine_ok (rw : RleWorker) (x y area n : Int) (hn : 0 ≤ n) (h : OutOk rw) :
    OutOk (_horizLine rw x y area n) := by
  unfold _horizLine
  dsimp only []
  split
  · exact h
  · split
    · exact h
    · split
      · rename_i h1 h2 h3
        have hr := coverageOf_range rw.outline.fillRule area
        apply emitSpan_ok _ _ _ _ _ hn h
        · simp only [SHRT_MAX]; split_ifs <;> omega
        · simp only [SHRT_MAX]; split_ifs <;> omega
        · split_ifs <;> omega
      · exact h

theorem toI32_le (v : Int) (h : -2147483648 ≤ v) : toI32 v ≤ v := by
  unfold toI32; omega

/-- Facts about the cursor `x` and the running `cover` that `sweepCells` returns. -/
theorem sweepCells_cursor (y : Int) (rw : RleWorker) (n : Int) (row : List Cell) (cover x : Int)
    (hrow : RowOk n row) :
    (row = [] ∧ (sweepCells y rw row cover x).2 = (cover, x)) ∨
    (row ≠ [] ∧ (sweepCells y rw row cover x).2.2 ≤ n) := by
  induction row generalizing rw cover x with
  | nil => left; exact ⟨rfl, rfl⟩
  | cons cell next ih =>
    right
    refine ⟨by simp, ?_⟩
    unfold sweepCells
    obtain ⟨hp, hb⟩ := hrow
    rw [List.pairwise_cons] at hp
    have hnext : RowOk n next := ⟨hp.2, fun c hc => hb c (List.mem_cons_of_mem _ hc)⟩
    have hc := hb cell (List.mem_cons_self _ _)
    rcases ih (sweepCell y rw cell cover x) (toI32 (cover + cell.cover))
      (toI32 (cell.x + 1)) hnext with ⟨_, heq⟩ | ⟨_, hle⟩
    · rw [heq]
      have := toI32_le (cell.x + 1) (by omega)
      show toI32 (cell.x + 1) ≤ n
      omega
    · exact hle

theorem sweepCell_ok (y : Int) (rw : RleWorker) (cell : Cell) (cover x : Int) (h : OutOk rw) :
    OutOk (sweepCell y rw cell cover x) := by
  unfold sweepCell
  dsimp only []
  have h1 : OutOk (if cell.x > x ∧ cover ≠ 0 then
      _horizLine rw x y (cover * (ONE_PIXEL * 2)) (cell.x - x) else rw) := by
    split
    · rename_i hc
      exact horizLine_ok _ _ _ _ _ (by omega) h
    · exact h
  split
  · exact horizLine_ok _ _ _ _ _ (by omega) h1
  · exact h1

theorem sweepCells_ok (y : Int) (rw : RleWorker) (row : List Cell) (cover x : Int) (h : OutOk rw) :
    OutOk (sweepCells y rw row cover x).1 := by
  induction row generalizing rw cover x with
  | nil => exact h
  | cons cell next ih =>
    unfold sweepCells
    exact ih _ _ _ (sweepCell_ok y rw cell cover x h)

theorem sweepRow_ok (rw : RleWorker) (y : Int) (row : List Cell) (hrow : RowOk rw.cellXCnt row)
    (h : OutOk rw) : OutOk (sweepRow rw y row) := by
  unfold sweepRow
  dsimp only []
  have h1 := sweepCells_ok y rw row 0 0 h
  split
  · rename_i hc
    apply horizLine_ok _ _ _ _ _ _ h1
    have hx : (sweepCells y rw row 0 0).1.cellXCnt = rw.cellXCnt := by
      have := congrArg RleWorker.cellXCnt (sweepCells_strip y rw row 0 0)
      exact this
    rw [hx]
    rcases sweepCells_cursor y rw rw.cellXCnt row 0 0 hrow with ⟨_, heq⟩ | ⟨_, hle⟩
    · rw [heq] at hc
      exact absurd rfl hc
    · omega
  · exact h1

theorem sweepRows_ok (rw : RleWorker) (y : Int) (rows : List (List Cell))
    (hrows : ∀ row ∈ rows, RowOk rw.cellXCnt row) (h : OutOk rw) :
    OutOk (sweepRows rw y rows) := by
  induction rows generalizing rw y with
  | nil => exact h
  | cons row rows ih =>
    unfold sweepRows
    have hx : (sweepRow rw y row).cellXCnt = rw.cellXCnt := by
      have := congrArg RleWorker.cellXCnt (sweepRow_strip rw y row)
      exact this
    apply ih
    · rw [hx]
      exact fun r hr => hrows r (List.mem_cons_of_mem _ hr)
    · exact sweepRow_ok rw y row (hrows row (List.mem_cons_self _ _)) h

/-- The sweep of a band whose cell grid is well formed keeps the spans of the RLE well
formed. -/
theorem sweep_ok (rw : RleWorker) (hinv : CellInv rw)
    (h : ∀ s ∈ rw.rle.spans, SpanOk rw.clip s) :
    ∀ s ∈ (_sweep rw).rle.spans, SpanOk rw.clip s := by
  unfold _sweep
  split
  · exact h
  · dsimp only []
    have h0 : OutOk { rw with spans := [], ySpan := 0 } := by
      intro s hs
      exact h s (by simpa using hs)
    have h1 := sweepRows_ok { rw with spans := [], ySpan := 0 } 0 rw.yCells hinv.1 h0
    have hclip : (sweepRows { rw with spans := [], ySpan := 0 } 0 rw.yCells).clip = rw.clip := by
      have := congrArg RleWorker.clip (sweepRows_strip { rw with spans := [], ySpan := 0 } 0 rw.yCells)
      exact this
    split
    · intro s hs
      rw [← hclip]
      exact h1 s (by simpa [_genSpan] using hs)
    · intro s hs
      rw [← hclip]
      exact h1 s (by simp [hs])

end ThorVG

namespace ThorVG

theorem bandWorker_cellInv (rw : RleWorker) (band : Band) (mc : Int) :
    CellInv (bandWorker rw band mc) := by
  refine ⟨?_, ?_⟩
  · intro row hrow
    have : row = [] := by
      simp only [bandWorker] at hrow
      exact (List.mem_replicate.1 hrow).2
    subst this
    exact ⟨List.Pairwise.nil, fun c hc => by cases hc⟩
  · intro h
    simp [bandWorker] at h

/-- The worker `_sweep` gets after a full `_genRle` on a band: its grid is well formed,
and its RLE and settings are those before the band. -/
theorem swept_worker_facts (rwPrev rw0 rw : RleWorker) (band : Band)
    (hs : bandSetup rwPrev band = .ok (some rw0)) (hg : _genRle rw0 = some (rw, 0)) :
    CellInv rw ∧ rw.rle = rwPrev.rle ∧ configOf rw = configOf rwPrev ∧
    rw.cellMin.y = band.min ∧ rw.cellMax.y = band.max ∧
    rw.yCells.length = (band.max - band.min).toNat := by
  obtain ⟨mc, rfl, _, _⟩ := bandSetup_some _ _ _ hs
  obtain ⟨hf, hev⟩ := genRle_sound _ _ _ hg
  have hev := hev rfl
  refine ⟨hev.2.2 (bandWorker_cellInv _ _ _), ?_, ?_, ?_, ?_, ?_⟩
  · exact (congrArg WorkerFrame.rle hf).trans rfl
  · exact (config_of_frame hf).trans rfl
  · have := congrArg WorkerFrame.cellMin hf
    have h2 : rw.cellMin = (bandWorker rwPrev band mc).cellMin := this
    rw [h2]; rfl
  · have := congrArg WorkerFrame.cellMax hf
    have h2 : rw.cellMax = (bandWorker rwPrev band mc).cellMax := this
    rw [h2]; rfl
  · rw [hev.2.1]
    simp [bandWorker]

theorem rleRenderBand_some (bandSize : Int) (rle : Option SwRleData) (o : SwOutline)
    (bbox vp : SwBBox) (aa : Bool) (r : SwRleData)
    (h : rleRenderBand bandSize rle o bbox vp aa = some (some r)) :
    ∃ rwF, renderWorker bandSize rle o bbox vp aa = .ok (some rwF) ∧ rwF.rle = r := by
  unfold rleRenderBand at h
  cases hr : renderWorker bandSize rle o bbox vp aa with
  | error e => rw [hr] at h; cases h
  | ok v =>
    rw [hr] at h
    cases v with
    | none => cases h
    | some rw =>
      simp only [Option.some.injEq] at h
      exact ⟨rw, rfl, h⟩

/-- Every span of an RLE that `rleRender` returns (for any band size) is well formed. -/
theorem rleRenderBand_spanOk (bandSize : Int) (rle : Option SwRleData) (o : SwOutline)
    (bbox vp : SwBBox) (aa : Bool) (r : SwRleData)
    (hrle : ∀ r0, rle = some r0 → r0.spans = [])
    (h : rleRenderBand bandSize rle o bbox vp aa = some (some r)) :
    ∀ s ∈ r.spans, SpanOk ⟨vp.max.x - vp.min.x, vp.max.y - vp.min.y⟩ s := by
  obtain ⟨rwF, hr, rfl⟩ := rleRenderBand_some _ _ _ _ _ _ _ h
  refine render_invariant_plain
    (fun rle => ∀ s ∈ rle.spans, SpanOk ⟨vp.max.x - vp.min.x, vp.max.y - vp.min.y⟩ s)
    bandSize rle o bbox vp aa rwF ?_ ?_ hr
  · intro rwPrev rw0 rw band hc hs hg hq
    obtain ⟨hinv, hrle1, hcfg, _, _, _⟩ := swept_worker_facts _ _ _ _ hs hg
    have hclip : rw.clip = ⟨vp.max.x - vp.min.x, vp.max.y - vp.min.y⟩ := by
      have := congrArg RunConfig.clip (hcfg.trans hc)
      exact this
    have := sweep_ok rw hinv (by rw [hrle1, hclip]; exact hq)
    rw [hclip] at this
    exact this
  · intro s hs
    cases rle with
    | none => cases hs
    | some r0 =>
      rw [Option.getD_some, hrle r0 rfl] at hs
      cases hs

end ThorVG

namespace ThorVG

theorem RowInv.widen {rw : RleWorker} {y lim lim' : Int} (h : RowInv rw y lim) (hl : lim ≤ lim') :
    RowInv rw y lim' := by
  obtain ⟨h1, h2, h3, h4⟩ := h
  refine ⟨h1, h2, h3, fun s hs => ?_⟩
  rcases h4 s hs with h | ⟨ha, hb, hc⟩
  · left; exact h
  · right; exact ⟨ha, by omega, fun he => by have := hc he; omega⟩

theorem RowInv.toBand {rw : RleWorker} {y lim : Int} (h : RowInv rw y lim) : BandInv rw (y + 1) := by
  obtain ⟨h1, h2, h3, h4⟩ := h
  refine ⟨h1, h2, h3, fun s hs => ?_⟩
  rcases h4 s hs with h | ⟨ha, _, _⟩ <;> omega

theorem BandInv.toRow {rw : RleWorker} {y : Int} (h : BandInv rw y) (lim : Int) : RowInv rw y lim := by
  obtain ⟨h1, h2, h3, h4⟩ := h
  exact ⟨h1, h2, h3, fun s hs => Or.inl (h4 s hs)⟩

theorem BandInv.later {rw : RleWorker} {y y' : Int} (h : BandInv rw y) (hl : y ≤ y') : BandInv rw y' := by
  obtain ⟨h1, h2, h3, h4⟩ := h
  exact ⟨h1, h2, h3, fun s hs => by have := h4 s hs; omega⟩

theorem chain'_snoc_iff {α : Type} (R : α → α → Prop) (l : List α) (a : α) :
    (l ++ [a]).Chain' R ↔ l.Chain' R ∧ ∀ b, l.getLast? = some b → R b a := by
  rw [List.chain'_append]
  simp

theorem getLast?_snoc {α : Type} (l : List α) (a : α) : (l ++ [a]).getLast? = some a := by
  simp

theorem flushIfFull_out (rw : RleWorker) : outSpans (flushIfFull rw) = outSpans rw := by
  unfold flushIfFull
  split
  · simp [outSpans, _genSpan]
  · rfl

theorem flushIfFull_spans (rw : RleWorker) :
    ((flushIfFull rw).spans = [] ∧ rw.spans ≠ []) ∨ flushIfFull rw = rw := by
  unfold flushIfFull
  split
  · rename_i h
    left
    refine ⟨rfl, ?_⟩
    intro he
    simp [RleWorker.spansCnt, he, MAX_SPANS] at h
  · right; rfl

theorem mergeSpan_some (rw rw1 : RleWorker) (x y c n : Int) (h : mergeSpan rw x y c n = some rw1) :
    ∃ span, rw.spans.getLast? = some span ∧ rw.ySpan = y ∧ span.x + span.len = x ∧
      span.coverage = c ∧
      rw1 = { rw with spans := rw.spans.dropLast ++
        [{ span with len := toU16 (span.len + (n + clipXOver rw.clip.w x n)) }] } := by
  unfold mergeSpan at h
  cases hl : rw.spans.getLast? with
  | none => rw [hl] at h; cases h
  | some span =>
    rw [hl] at h
    dsimp only [] at h
    split at h
    · rename_i hc
      simp only [Option.some.injEq] at h
      exact ⟨span, rfl, hc.1, hc.2.1, hc.2.2, h.symm⟩
    · cases h

theorem mergeSpan_none (rw : RleWorker) (x y c n : Int) (h : mergeSpan rw x y c n = none) :
    ∀ span, rw.spans.getLast? = some span →
      ¬ (rw.ySpan = y ∧ span.x + span.len = x ∧ span.coverage = c) := by
  intro span hl
  unfold mergeSpan at h
  rw [hl] at h
  dsimp only [] at h
  split at h
  · cases h
  · assumption

theorem outSpans_getLast (rw : RleWorker) (s : SwSpan) (h : rw.spans.getLast? = some s) :
    (outSpans rw).getLast? = some s := by
  unfold outSpans
  rw [List.getLast?_append, h]
  rfl

/-- The merge branch of `_horizLine` keeps the state of the row. -/
theorem mergeSpan_row (rw rw1 : RleWorker) (xr x yAbs c n lim : Int) (hw : rw.clip.w ≤ 32767)
    (hinv : RowInv rw yAbs lim)
    (hx : x = if xr ≥ 32767 then 32767 else xr) (hn : 0 ≤ n)
    (hm : mergeSpan rw x yAbs c n = some rw1) : RowInv rw1 yAbs (xr + n) := by
  have hok1 := mergeSpan_ok rw rw1 x yAbs c n hn hinv.1 hm
  obtain ⟨span, hl, hys, hxs, hcs, rfl⟩ := mergeSpan_some _ _ _ _ _ _ hm
  obtain ⟨hok, hch, hy1, hlast⟩ := hinv
  have hsp := getLast?_split _ _ hl
  have hout : outSpans rw = (rw.rle.spans ++ rw.spans.dropLast) ++ [span] := by
    unfold outSpans
    rw [List.append_assoc, ← hsp]
  have hspan : SpanOk rw.clip span := hok span (by rw [hsp]; simp)
  obtain ⟨s1, s2, s3, s4, s5, s6, s7, s8⟩ := hspan
  have hl2 := hlast span (outSpans_getLast rw span hl)
  have hyspan : span.y = yAbs := by rw [← hy1 span hl]; exact hys
  refine ⟨hok1, ?_, ?_, ?_⟩
  · show List.Chain' Linked (rw.rle.spans ++ (rw.spans.dropLast ++ [_]))
    rw [← List.append_assoc, chain'_snoc_iff]
    rw [hout, chain'_snoc_iff] at hch
    exact ⟨hch.1, fun b hb => hch.2 b hb⟩
  · intro s hs
    have : s = { span with len := toU16 (span.len + (n + clipXOver rw.clip.w x n)) } := by
      have h2 : (rw.spans.dropLast ++ [{ span with len := toU16 (span.len + (n + clipXOver rw.clip.w x n)) }]).getLast?
          = some s := hs
      rw [getLast?_snoc] at h2
      exact (Option.some.inj h2).symm
    rw [this]
    exact hy1 span hl
  · intro s hs
    have : s = { span with len := toU16 (span.len + (n + clipXOver rw.clip.w x n)) } := by
      have h2 : (rw.rle.spans ++ (rw.spans.dropLast ++
          [{ span with len := toU16 (span.len + (n + clipXOver rw.clip.w x n)) }])).getLast? = some s := hs
      rw [← List.append_assoc, getLast?_snoc] at h2
      exact (Option.some.inj h2).symm
    subst this
    right
    refine ⟨hyspan, ?_, ?_⟩
    · rcases hl2 with h | ⟨_, h, _⟩
      · omega
      · simp only [toU16, clipXOver]
        split_ifs at hx ⊢ <;> omega
    · intro he
      exfalso
      have h2 : rw.spans.dropLast ++ [{ span with len := toU16 (span.len + (n + clipXOver rw.clip.w x n)) }] = [] := he
      simp at h2

/-- When nothing of the run is left after clipping, `addSpan` adds nothing. -/
theorem addSpan_nonpos (rw : RleWorker) (x y c n : Int) (h : n + clipXOver rw.clip.w x n ≤ 0) :
    addSpan rw x y c n = rw := by
  unfold addSpan
  dsimp only []
  rw [if_pos h]

/-- Otherwise `addSpan` appends one span to the buffer. -/
theorem addSpan_pos (rw : RleWorker) (x y c n : Int) (h : ¬ n + clipXOver rw.clip.w x n ≤ 0) :
    (addSpan rw x y c n).spans = rw.spans ++
      [⟨toI16 (if x < 0 then 0 else x), toI16 y, toU16 (n + clipXOver rw.clip.w x n), toU8 c⟩] ∧
    (addSpan rw x y c n).rle = rw.rle ∧ (addSpan rw x y c n).ySpan = toI32 y := by
  unfold addSpan
  dsimp only []
  rw [if_neg h]
  exact ⟨rfl, rfl, rfl⟩

/-- The branch of `_horizLine` that adds a span keeps the state of the row. -/
theorem addSpan_row (rw : RleWorker) (xr x yAbs c n lim : Int) (hw : rw.clip.w ≤ 32767)
    (hinv : RowInv rw yAbs lim) (hlim : lim ≤ xr)
    (hx : x = if xr ≥ 32767 then 32767 else xr) (hn : 1 ≤ n)
    (hy : 0 ≤ yAbs ∧ yAbs < rw.clip.h ∧ yAbs ≤ 32767) (hc : 1 ≤ c ∧ c ≤ 255)
    (hm : mergeSpan rw x yAbs c n = none) :
    RowInv (addSpan (flushIfFull rw) x yAbs c n) yAbs (xr + n) := by
  obtain ⟨hok, hch, hy1, hlast⟩ := hinv
  have hclip : (flushIfFull rw).clip = rw.clip := by
    have := congrArg RleWorker.clip (flushIfFull_strip rw)
    exact this
  have hokf : OutOk (flushIfFull rw) := flushIfFull_ok rw hok
  have hok2 : OutOk (addSpan (flushIfFull rw) x yAbs c n) :=
    addSpan_ok _ x yAbs c n hokf (by rw [hx]; split_ifs <;> omega) (by rw [hclip]; exact hy) hc
  have hy1f : YSpanOk (flushIfFull rw) := by
    rcases flushIfFull_spans rw with ⟨he, _⟩ | he
    · intro s hs; rw [he] at hs; cases hs
    · rw [he]; exact hy1
  have hnone := mergeSpan_none _ _ _ _ _ hm
  by_cases hpos : n + clipXOver (flushIfFull rw).clip.w x n ≤ 0
  · rw [addSpan_nonpos _ _ _ _ _ hpos]
    refine ⟨hokf, by rw [flushIfFull_out]; exact hch, hy1f, ?_⟩
    intro s hs
    rw [flushIfFull_out] at hs
    rcases hlast s hs with h | ⟨ha, hb, _⟩
    · left; exact h
    · right; exact ⟨ha, by omega, fun _ => by omega⟩
  · obtain ⟨hsp, hrle, hys⟩ := addSpan_pos (flushIfFull rw) x yAbs c n hpos
    rw [hclip] at hpos hsp
    have hxw : x < rw.clip.w ∧ x = xr := by
      simp only [clipXOver] at hpos
      split_ifs at hpos hx <;> omega
    have hout : outSpans (addSpan (flushIfFull rw) x yAbs c n) = outSpans rw ++
        [⟨toI16 (if x < 0 then 0 else x), toI16 yAbs, toU16 (n + clipXOver rw.clip.w x n), toU8 c⟩] := by
      rw [← flushIfFull_out rw]
      simp only [outSpans]
      rw [hsp, hrle, List.append_assoc]
    have hyv : toI16 yAbs = yAbs := by simp only [toI16]; omega
    have hxv : toI16 (if x < 0 then 0 else x) = (if x < 0 then 0 else x) := by
      simp only [toI16]; split_ifs <;> omega
    have hcv : toU8 c = c := by simp only [toU8]; omega
    have hlv : toU16 (n + clipXOver rw.clip.w x n) = n + clipXOver rw.clip.w x n := by
      simp only [clipXOver] at hpos ⊢
      simp only [toU16]
      split_ifs at hpos ⊢ <;> omega
    refine ⟨hok2, ?_, ?_, ?_⟩
    · rw [hout, chain'_snoc_iff]
      refine ⟨hch, fun b hb => ?_⟩
      have hbok : SpanOk rw.clip b := hok b (List.mem_of_mem_getLast? hb)
      obtain ⟨b1, b2, b3, b4, b5, b6, b7, b8⟩ := hbok
      have hb8 := b8 (by omega)
      rcases hlast b hb with h | ⟨ha, hbl, hstrict⟩
      · exact ⟨Or.inl (by show b.y < toI16 yAbs; rw [hyv]; exact h),
          fun hcon => by have h1 : b.y = toI16 yAbs := hcon.1; rw [hyv] at h1; omega⟩
      · refine ⟨Or.inr ⟨by show b.y = toI16 yAbs; rw [hyv]; exact ha, ?_⟩, ?_⟩
        · show b.x + b.len ≤ toI16 (if x < 0 then 0 else x)
          rw [hxv]; split_ifs <;> omega
        · intro hcon
          obtain ⟨_, hadj, hcov⟩ := hcon
          have hadj : b.x + b.len = toI16 (if x < 0 then 0 else x) := hadj
          have hcov : b.coverage = toU8 c := hcov
          rw [hxv] at hadj
          rw [hcv] at hcov
          by_cases hemp : rw.spans = []
          · have := hstrict hemp
            split_ifs at hadj <;> omega
          · have hlb : rw.spans.getLast? = some b := by
              have : (outSpans rw).getLast? = rw.spans.getLast? := by
                unfold outSpans
                rw [List.getLast?_append]
                cases hq : rw.spans.getLast? with
                | none => rw [List.getLast?_eq_none_iff] at hq; exact absurd hq hemp
                | some v => rfl
              rw [← this]; exact hb
            have hnn := hnone b hlb
            have hys := hy1 b hlb
            apply hnn
            refine ⟨by omega, ?_, hcov⟩
            split_ifs at hadj <;> omega
    · intro s hs
      rw [hsp, getLast?_snoc] at hs
      rw [← Option.some.inj hs, hys]
      show toI32 yAbs = toI16 yAbs
      rw [hyv]
      simp only [toI32]; omega
    · intro s hs
      rw [hout, getLast?_snoc] at hs
      rw [← Option.some.inj hs]
      right
      refine ⟨hyv, ?_, ?_⟩
      · show toI16 (if x < 0 then 0 else x) + toU16 (n + clipXOver rw.clip.w x n) ≤ xr + n
        rw [hxv, hlv]
        simp only [clipXOver]
        split_ifs <;> omega
      · intro he
        exfalso
        rw [hsp] at he
        simp at he

/-- The flush of a full buffer at the end of a scanline. -/
theorem flushIfFull_band (rw : RleWorker) (yAbs lim : Int) (hinv : RowInv rw yAbs lim) :
    BandInv (flushIfFull rw) (yAbs + 1) := by
  obtain ⟨hok, hch, hy1, hlast⟩ := hinv
  refine ⟨flushIfFull_ok rw hok, by rw [flushIfFull_out]; exact hch, ?_, ?_⟩
  · rcases flushIfFull_spans rw with ⟨he, _⟩ | he
    · intro s hs; rw [he] at hs; cases hs
    · rw [he]; exact hy1
  · intro s hs
    rw [flushIfFull_out] at hs
    rcases hlast s hs with h | ⟨ha, _, _⟩ <;> omega

/-- A run of at least one pixel emitted at or after the end of the runs before it keeps
the state of the row. -/
theorem emitSpan_row (rw : RleWorker) (xr x yAbs c n lim : Int) (hw : rw.clip.w ≤ 32767)
    (hinv : RowInv rw yAbs lim) (hlim : lim ≤ xr)
    (hx : x = if xr ≥ 32767 then 32767 else xr) (hn : 1 ≤ n)
    (hy : 0 ≤ yAbs ∧ yAbs < rw.clip.h ∧ yAbs ≤ 32767) (hc : 1 ≤ c ∧ c ≤ 255) :
    RowInv (emitSpan rw x yAbs c n) yAbs (xr + n) := by
  unfold emitSpan
  cases hm : mergeSpan rw x yAbs c n with
  | some rw1 => exact mergeSpan_row rw rw1 xr x yAbs c n lim hw hinv hx (by omega) hm
  | none => exact addSpan_row rw xr x yAbs c n lim hw hinv hlim hx hn hy hc hm

/-- The last run of a scanline, which may be empty. -/
theorem emitSpan_band (rw : RleWorker) (xr x yAbs c n lim : Int) (hw : rw.clip.w ≤ 32767)
    (hinv : RowInv rw yAbs lim) (hlim : lim ≤ xr)
    (hx : x = if xr ≥ 32767 then 32767 else xr) (hn : 0 ≤ n)
    (hy : 0 ≤ yAbs ∧ yAbs < rw.clip.h ∧ yAbs ≤ 32767) (hc : 1 ≤ c ∧ c ≤ 255) :
    BandInv (emitSpan rw x yAbs c n) (yAbs + 1) := by
  by_cases h1 : 1 ≤ n
  · exact (emitSpan_row rw xr x yAbs c n lim hw hinv hlim hx h1 hy hc).toBand
  · have h0 : n = 0 := by omega
    unfold emitSpan
    cases hm : mergeSpan rw x yAbs c n with
    | some rw1 => exact (mergeSpan_row rw rw1 xr x yAbs c n lim hw hinv hx hn hm).toBand
    | none =>
      show BandInv (addSpan (flushIfFull rw) x yAbs c n) (yAbs + 1)
      rw [addSpan_nonpos]
      · exact flushIfFull_band rw yAbs lim hinv
      · rw [h0]; simp only [clipXOver]; split_ifs <;> omega

/-- A call of `_horizLine` inside a scanline. -/
theorem horizLine_row (rw : RleWorker) (x y area n lim : Int) (hw : rw.clip.w ≤ 32767)
    (hh : rw.clip.h ≤ 32768) (hinv : RowInv rw (y + rw.cellMin.y) lim)
    (hlim : lim ≤ x + rw.cellMin.x) (hn : 1 ≤ n) :
    RowInv (_horizLine rw x y area n) (y + rw.cellMin.y) (x + rw.cellMin.x + n) := by
  unfold _horizLine
  dsimp only []
  have hkeep : RowInv rw (y + rw.cellMin.y) (x + rw.cellMin.x + n) := hinv.widen (by omega)
  by_cases h1 : y + rw.cellMin.y < 0
  · rw [if_pos h1]; exact hkeep
  rw [if_neg h1]
  by_cases h2 : y + rw.cellMin.y ≥ rw.clip.h
  · rw [if_pos h2]; exact hkeep
  rw [if_neg h2]
  by_cases h3 : coverageOf rw.outline.fillRule area > 0
  · rw [if_pos h3]
    have hr := coverageOf_range rw.outline.fillRule area
    have hyy : (if y + rw.cellMin.y ≥ SHRT_MAX then SHRT_MAX else y + rw.cellMin.y) =
        y + rw.cellMin.y := by
      simp only [SHRT_MAX]; split_ifs <;> omega
    rw [hyy]
    exact emitSpan_row rw (x + rw.cellMin.x) _ (y + rw.cellMin.y) _ n lim hw hinv hlim rfl hn
      (by omega) (by split_ifs <;> omega)
  · rw [if_neg h3]; exact hkeep

/-- The call of `_horizLine` that ends a scanline. -/
theorem horizLine_band (rw : RleWorker) (x y area n lim : Int) (hw : rw.clip.w ≤ 32767)
    (hh : rw.clip.h ≤ 32768) (hinv : RowInv rw (y + rw.cellMin.y) lim)
    (hlim : lim ≤ x + rw.cellMin.x) (hn : 0 ≤ n) :
    BandInv (_horizLine rw x y area n) (y + rw.cellMin.y + 1) := by
  unfold _horizLine
  dsimp only []
  have hkeep : BandInv rw (y + rw.cellMin.y + 1) := hinv.toBand
  by_cases h1 : y + rw.cellMin.y < 0
  · rw [if_pos h1]; exact hkeep
  rw [if_neg h1]
  by_cases h2 : y + rw.cellMin.y ≥ rw.clip.h
  · rw [if_pos h2]; exact hkeep
  rw [if_neg h2]
  by_cases h3 : coverageOf rw.outline.fillRule area > 0
  · rw [if_pos h3]
    have hr := coverageOf_range rw.outline.fillRule area
    have hyy : (if y + rw.cellMin.y ≥ SHRT_MAX then SHRT_MAX else y + rw.cellMin.y) =
        y + rw.cellMin.y := by
      simp only [SHRT_MAX]; split_ifs <;> omega
    rw [hyy]
    exact emitSpan_band rw (x + rw.cellMin.x) _ (y + rw.cellMin.y) _ n lim hw hinv hlim rfl hn
      (by omega) (by split_ifs <;> omega)
  · rw [if_neg h3]; exact hkeep

theorem strip_fields {a b : RleWorker} (h : stripSpans a = stripSpans b) :
    a.clip = b.clip ∧ a.cellMin = b.cellMin ∧ a.cellXCnt = b.cellXCnt ∧ a.yCells = b.yCells ∧
    a.cellsCnt = b.cellsCnt := by
  have h1 := congrArg RleWorker.clip h
  have h2 := congrArg RleWorker.cellMin h
  have h3 := congrArg RleWorker.cellXCnt h
  have h4 := congrArg RleWorker.yCells h
  have h5 := congrArg RleWorker.cellsCnt h
  exact ⟨h1, h2, h3, h4, h5⟩

/-- A guarded call of `_horizLine` inside a scanline. -/
theorem horizLine_row_if (p : Prop) [Decidable p] (rw : RleWorker) (x y area n lim lim' : Int)
    (hw : rw.clip.w ≤ 32767) (hh : rw.clip.h ≤ 32768)
    (hinv : RowInv rw (y + rw.cellMin.y) lim)
    (hn : p → lim ≤ x + rw.cellMin.x ∧ 1 ≤ n ∧ lim' = x + rw.cellMin.x + n)
    (hnp : ¬ p → lim ≤ lim') :
    RowInv (if p then _horizLine rw x y area n else rw) (y + rw.cellMin.y) lim' := by
  by_cases hp : p
  · rw [if_pos hp, (hn hp).2.2]
    exact horizLine_row rw x y area n lim hw hh hinv (hn hp).1 (hn hp).2.1
  · rw [if_neg hp]
    exact hinv.widen (hnp hp)

theorem if_horizLine_strip (p : Prop) [Decidable p] (rw : RleWorker) (x y area n : Int) :
    stripSpans (if p then _horizLine rw x y area n else rw) = stripSpans rw := by
  split
  · exact horizLine_strip _ _ _ _ _
  · rfl

/-- One turn of the cell loop of `_sweep` keeps the state of the row and moves the end of
the runs to the cursor. -/
theorem sweepCell_row (y : Int) (rw : RleWorker) (cell : Cell) (cover x : Int)
    (hw : rw.clip.w ≤ 32767) (hh : rw.clip.h ≤ 32768)
    (hx0 : 0 ≤ x) (hlo : -1 ≤ cell.x) (hcur : x ≤ cell.x ∨ (cell.x < 0 ∧ x ≤ 0))
    (hinv : RowInv rw (y + rw.cellMin.y) (x + rw.cellMin.x)) :
    RowInv (sweepCell y rw cell cover x) (y + rw.cellMin.y) (cell.x + 1 + rw.cellMin.x) := by
  unfold sweepCell
  dsimp only []
  have h1 := horizLine_row_if (cell.x > x ∧ cover ≠ 0) rw x y (cover * (ONE_PIXEL * 2))
    (cell.x - x) (x + rw.cellMin.x) ((if cell.x < 0 then 0 else cell.x) + rw.cellMin.x)
    hw hh hinv
    (fun hp => ⟨le_refl _, by omega, by rw [if_neg (by omega)]; omega⟩)
    (fun _ => by split_ifs <;> omega)
  have hs := strip_fields (if_horizLine_strip (cell.x > x ∧ cover ≠ 0) rw x y
    (cover * (ONE_PIXEL * 2)) (cell.x - x))
  revert h1 hs
  generalize (if cell.x > x ∧ cover ≠ 0 then
    _horizLine rw x y (cover * (ONE_PIXEL * 2)) (cell.x - x) else rw) = rw1
  intro h1 hs
  obtain ⟨hc1, hm1, _, _, _⟩ := hs
  rw [← hm1] at h1 ⊢
  rw [← hc1] at hw hh
  exact horizLine_row_if _ rw1 cell.x y _ 1 ((if cell.x < 0 then 0 else cell.x) + rw1.cellMin.x)
    (cell.x + 1 + rw1.cellMin.x) hw hh h1
    (fun hp => ⟨by rw [if_neg (by omega)], le_refl _, by omega⟩) (fun _ => by split_ifs <;> omega)

/-- The cell loop of `_sweep` on a well formed scanline list keeps the state of the row;
the end of the runs is at the cursor it returns. -/
theorem sweepCells_row (y : Int) (rw : RleWorker) (n : Int) (row : List Cell) (cover x : Int)
    (hw : rw.clip.w ≤ 32767) (hh : rw.clip.h ≤ 32768) (hn : n ≤ 2147483647)
    (hrow : RowOk n row) (hx0 : 0 ≤ x) (hxn : x ≤ n) (hcur : CursorOk x row)
    (hinv : RowInv rw (y + rw.cellMin.y) (x + rw.cellMin.x)) :
    RowInv (sweepCells y rw row cover x).1 (y + rw.cellMin.y)
      ((sweepCells y rw row cover x).2.2 + rw.cellMin.x) ∧
    0 ≤ (sweepCells y rw row cover x).2.2 ∧ (sweepCells y rw row cover x).2.2 ≤ n := by
  induction row generalizing rw cover x with
  | nil => exact ⟨hinv, hx0, hxn⟩
  | cons cell next ih =>
    unfold sweepCells
    obtain ⟨hpw, hbd⟩ := hrow
    have hcb := hbd cell (List.mem_cons_self _ _)
    have hpw2 := List.pairwise_cons.mp hpw
    have h1 := sweepCell_row y rw cell cover x hw hh hx0 hcb.1
      (hcur cell (List.mem_cons_self _ _)) hinv
    obtain ⟨hc1, hm1, _, _, _⟩ := strip_fields (sweepCell_strip y rw cell cover x)
    have ht : toI32 (cell.x + 1) = cell.x + 1 := by unfold toI32; omega
    rw [ht]
    have := ih (sweepCell y rw cell cover x) (toI32 (cover + cell.cover)) (cell.x + 1)
      (by rw [hc1]; exact hw) (by rw [hc1]; exact hh)
      ⟨hpw2.2, fun c hc => hbd c (List.mem_cons_of_mem _ hc)⟩ (by omega) (by omega)
      (fun c hc => Or.inl (by have := hpw2.1 c hc; omega))
      (by rw [hm1]; exact h1)
    rw [hm1] at this
    exact this

/-- The sweep of one scanline moves all the spans before the next scanline. -/
theorem sweepRow_band (rw : RleWorker) (y : Int) (row : List Cell)
    (hw : rw.clip.w ≤ 32767) (hh : rw.clip.h ≤ 32768) (hn : rw.cellXCnt ≤ 2147483647)
    (hrow : RowOk rw.cellXCnt row) (hinv : BandInv rw (y + rw.cellMin.y)) :
    BandInv (sweepRow rw y row) (y + rw.cellMin.y + 1) := by
  unfold sweepRow
  dsimp only []
  cases row with
  | nil =>
    rw [if_neg (by simp [sweepCells])]
    exact hinv.later (by omega)
  | cons cell next =>
    have hcb := hrow.2 cell (List.mem_cons_self _ _)
    obtain ⟨h1, h2, h3⟩ := sweepCells_row y rw rw.cellXCnt (cell :: next) 0 0 hw hh hn hrow
      (le_refl _) (by omega) (fun c hc => by have := hrow.2 c hc; omega)
      (hinv.toRow _)
    obtain ⟨hc1, hm1, hx1, _, _⟩ := strip_fields (sweepCells_strip y rw (cell :: next) 0 0)
    revert h1 h2 h3 hc1 hm1 hx1
    generalize sweepCells y rw (cell :: next) 0 0 = r
    intro h1 h2 h3 hc1 hm1 hx1
    rw [← hm1] at h1 ⊢
    split
    · exact horizLine_band r.1 r.2.2 y _ _ _ (by rw [hc1]; exact hw) (by rw [hc1]; exact hh)
        h1 (le_refl _) (by rw [hx1]; omega)
    · exact h1.toBand

/-- The sweep of the scanlines of a band from `y` on. -/
theorem sweepRows_band (rw : RleWorker) (y : Int) (rows : List (List Cell))
    (hw : rw.clip.w ≤ 32767) (hh : rw.clip.h ≤ 32768) (hn : rw.cellXCnt ≤ 2147483647)
    (hrows : ∀ row ∈ rows, RowOk rw.cellXCnt row) (hinv : BandInv rw (y + rw.cellMin.y)) :
    BandInv (sweepRows rw y rows) (y + rw.cellMin.y + rows.length) := by
  induction rows generalizing rw y with
  | nil => simpa [sweepRows] using hinv
  | cons row rows ih =>
    unfold sweepRows
    obtain ⟨hc1, hm1, hx1, _, _⟩ := strip_fields (sweepRow_strip rw y row)
    have h1 := sweepRow_band rw y row hw hh hn (hrows row (List.mem_cons_self _ _)) hinv
    have := ih (sweepRow rw y row) (y + 1) (by rw [hc1]; exact hw) (by rw [hc1]; exact hh)
      (by rw [hx1]; exact hn)
      (by rw [hx1]; exact fun r hr => hrows r (List.mem_cons_of_mem _ hr))
      (by rw [hm1]; have e : y + 1 + rw.cellMin.y = y + rw.cellMin.y + 1 := by omega
          rw [e]; exact h1)
    rw [hm1] at this
    have e : y + rw.cellMin.y + ((row :: rows).length : Int) =
        y + 1 + rw.cellMin.y + (rows.length : Int) := by
      simp only [List.length_cons]; push_cast; omega
    rw [e]
    exact this

/-- The sweep of a band keeps the RLE strictly ordered and moves it before the scanline
after the band. -/
theorem sweep_rleInv (rw : RleWorker) (hinv : CellInv rw)
    (hw : rw.clip.w ≤ 32767) (hh : rw.clip.h ≤ 32768) (hn : rw.cellXCnt ≤ 2147483647)
    (h : RleInv rw.clip rw.cellMin.y rw.rle) :
    RleInv rw.clip (rw.cellMin.y + rw.yCells.length) (_sweep rw).rle := by
  obtain ⟨hok, hch, hlast⟩ := h
  unfold _sweep
  split
  · exact ⟨hok, hch, fun s hs => by have := hlast s hs; omega⟩
  · dsimp only []
    have h0 : BandInv { rw with spans := [], ySpan := 0 } (0 + rw.cellMin.y) := by
      refine ⟨fun s hs => hok s (by simpa using hs), by simpa [outSpans] using hch, ?_, ?_⟩
      · intro s hs; cases hs
      · intro s hs
        have := hlast s (by simpa [outSpans] using hs)
        omega
    have h1 := sweepRows_band { rw with spans := [], ySpan := 0 } 0 rw.yCells hw hh hn hinv.1 h0
    obtain ⟨hc1, hm1, _, _, _⟩ :=
      strip_fields (sweepRows_strip { rw with spans := [], ySpan := 0 } 0 rw.yCells)
    revert h1 hc1 hm1
    generalize sweepRows { rw with spans := [], ySpan := 0 } 0 rw.yCells = r
    intro h1 hc1 hm1
    have hc2 : r.clip = rw.clip := hc1
    have e : (0 : Int) + rw.cellMin.y + (rw.yCells.length : Int) =
        rw.cellMin.y + (rw.yCells.length : Int) := by omega
    have h1b : BandInv r (rw.cellMin.y + (rw.yCells.length : Int)) := by
      rw [← e]; exact h1
    obtain ⟨a1, a2, a3, a4⟩ := h1b
    rw [← hc2]
    split
    · refine ⟨fun s hs => a1 s (by simpa [_genSpan] using hs), ?_, ?_⟩
      · simpa [_genSpan, outSpans] using a2
      · intro s hs
        exact a4 s (by simpa [_genSpan, outSpans] using hs)
    · rename_i hcnt
      have he : r.spans = [] := by
        have : r.spans.length = 0 := by
          simp only [RleWorker.spansCnt] at hcnt; omega
        exact List.length_eq_zero.mp this
      have ho : outSpans r = r.rle.spans := by simp [outSpans, he]
      refine ⟨fun s hs => a1 s (by simp [hs]), by rw [← ho]; exact a2, ?_⟩
      intro s hs
      exact a4 s (by rw [ho]; exact hs)

end ThorVG

namespace ThorVG

/-- Every RLE that `rleRender` returns (for any positive band size) on a viewport at most
32767 pixels wide and 32768 high has well formed spans, each linked to the next. -/
theorem rleRenderBand_linked (bandSize : Int) (rle : Option SwRleData) (o : SwOutline)
    (bbox vp : SwBBox) (aa : Bool) (r : SwRleData)
    (hrle : ∀ r0, rle = some r0 → r0.spans = []) (hbs : 0 < bandSize)
    (hw : vp.max.x - vp.min.x ≤ 32767) (hh : vp.max.y - vp.min.y ≤ 32768)
    (hbx : bbox.max.x - bbox.min.x ≤ 2147483647) (hby : bbox.min.y ≤ bbox.max.y)
    (h : rleRenderBand bandSize rle o bbox vp aa = some (some r)) :
    (∀ s ∈ r.spans, SpanOk ⟨vp.max.x - vp.min.x, vp.max.y - vp.min.y⟩ s) ∧
    r.spans.Chain' Linked := by
  obtain ⟨rwF, hr, rfl⟩ := rleRenderBand_some _ _ _ _ _ _ _ h
  have key := render_invariant
    (fun y rle => RleInv ⟨vp.max.x - vp.min.x, vp.max.y - vp.min.y⟩ y rle)
    bandSize rle o bbox vp aa rwF hbs hby ?_ ?_ hr
  · obtain ⟨_, _, _, hq, _⟩ := key
    exact ⟨hq.1, hq.2.1⟩
  · intro rwPrev rw0 rw band hc hb hs hg hq
    obtain ⟨hinv, hrle1, hcfg, hmin, hmax, hlen⟩ := swept_worker_facts _ _ _ _ hs hg
    have hclip : rw.clip = ⟨vp.max.x - vp.min.x, vp.max.y - vp.min.y⟩ := by
      have := congrArg RunConfig.clip (hcfg.trans hc)
      exact this
    have hxc : rw.cellXCnt = bbox.max.x - bbox.min.x := by
      have := congrArg RunConfig.cellXCnt (hcfg.trans hc)
      exact this
    have := sweep_rleInv rw hinv (by rw [hclip]; exact hw) (by rw [hclip]; exact hh)
      (by rw [hxc]; exact hbx) (by rw [hrle1, hclip, hmin]; exact hq)
    rw [hclip, hmin, hlen] at this
    have e : band.min + (((band.max - band.min).toNat : Nat) : Int) = band.max := by
      have := hb.2.1
      omega
    rw [e] at this
    exact this
  · refine ⟨?_, ?_, ?_⟩
    · intro s hs
      cases rle with
      | none => cases hs
      | some r0 =>
        rw [Option.getD_some, hrle r0 rfl] at hs
        cases hs
    · cases rle with
      | none => exact List.chain'_nil
      | some r0 =>
        rw [Option.getD_some, hrle r0 rfl]
        exact List.chain'_nil
    · intro s hs
      cases rle with
      | none => cases hs
      | some r0 =>
        rw [Option.getD_some, hrle r0 rfl] at hs
        cases hs

/-- A list of spans of length at least one, each ordered before the next, is strictly
sorted by `(y, x)` with disjoint ranges on each scanline. -/
theorem ordered_pairwise (l : List SwSpan) (hlen : ∀ s ∈ l, 1 ≤ s.len)
    (hch : l.Chain' Ordered) :
    l.Pairwise (fun a b => a.y < b.y ∨ (a.y = b.y ∧ a.x < b.x ∧ a.x + a.len ≤ b.x)) := by
  induction l with
  | nil => exact List.Pairwise.nil
  | cons a l ih =>
    have ih1 := ih (fun s hs => hlen s (List.mem_cons_of_mem _ hs)) hch.tail
    refine List.pairwise_cons.mpr ⟨?_, ih1⟩
    have ha := hlen a (List.mem_cons_self _ _)
    cases l with
    | nil => intro b hb; cases hb
    | cons c l1 =>
      have hac : Ordered a c := (List.chain'_cons.mp hch).1
      have hc := hlen c (List.mem_cons_of_mem _ (List.mem_cons_self _ _))
      have hcl := (List.pairwise_cons.mp ih1).1
      intro b hb
      rcases List.mem_cons.mp hb with rfl | hb1
      · rcases hac with h | ⟨h1, h2⟩
        · left; exact h
        · right; exact ⟨h1, by omega, h2⟩
      · have hcb := hcl b hb1
        rcases hac with h | ⟨h1, h2⟩
        · rcases hcb with h' | ⟨h1', _, _⟩
          · left; omega
          · left; omega
        · rcases hcb with h' | ⟨h1', h2', h3'⟩
          · left; omega
          · right; exact ⟨by omega, by omega, by omega⟩

end ThorVG

namespace ThorVG

/-! ## The cell functions do not read the span side -/

theorem findCell_out (o rw : RleWorker) :
    _findCell (withOut o rw) = exceptOut (fstOut o) o (_findCell rw) := by
  unfold _findCell
  dsimp only [withOut]
  by_cases h1 : rw.cellPos.y < 0
  · simp only [if_pos h1]; rfl
  · simp only [if_neg h1]
    cases rw.yCells[rw.cellPos.y.toNat]? with
    | none => rfl
    | some row =>
      dsimp only []
      generalize findInRow (if rw.cellPos.x > rw.cellXCnt then rw.cellXCnt else rw.cellPos.x) row = r
      by_cases h2 : r.2.2 = true
      · simp only [if_pos h2]
        by_cases h3 : rw.cellsCnt ≥ rw.maxCells
        · simp only [if_pos h3]; rfl
        · simp only [if_neg h3]; rfl
      · simp only [if_neg h2]; rfl

theorem recordCell_out (o rw : RleWorker) :
    _recordCell (withOut o rw) = exceptOut (withOut o) o (_recordCell rw) := by
  unfold _recordCell
  rw [findCell_out]
  by_cases h1 : rw.area ≠ 0 ∨ rw.cover ≠ 0
  · have h1' : (withOut o rw).area ≠ 0 ∨ (withOut o rw).cover ≠ 0 := h1
    rw [if_pos h1, if_pos h1']
    cases _findCell rw with
    | error e => rfl
    | ok p => rfl
  · have h1' : ¬ ((withOut o rw).area ≠ 0 ∨ (withOut o rw).cover ≠ 0) := h1
    rw [if_neg h1, if_neg h1']
    rfl

theorem recordIf_out (o rw : RleWorker) :
    (if !(withOut o rw).invalid then _recordCell (withOut o rw) else .ok (withOut o rw)) =
      exceptOut (withOut o) o (if !rw.invalid then _recordCell rw else .ok rw) := by
  rw [recordCell_out]
  show (if !rw.invalid then _ else _) = _
  cases rw.invalid <;> rfl

theorem setCell_out (o rw : RleWorker) (pos : SwPoint) :
    _setCell (withOut o rw) pos = exceptOut (withOut o) o (_setCell rw pos) := by
  unfold _setCell
  dsimp only []
  rw [recordCell_out]
  show (match (if cellOf rw pos ≠ rw.cellPos then
      if !rw.invalid then exceptOut (withOut o) o (_recordCell rw) else .ok (withOut o rw)
    else .ok (withOut o rw)) with
    | .error e => Except.error e
    | .ok rw1 => Except.ok (enterCell rw1 (cellOf rw pos))) = _
  by_cases h1 : cellOf rw pos ≠ rw.cellPos
  · rw [if_pos h1, if_pos h1]
    cases rw.invalid
    · cases _recordCell rw with
      | error e => rfl
      | ok p => rfl
    · rfl
  · rw [if_neg h1, if_neg h1]
    rfl

theorem startCell_out (o rw : RleWorker) (pos : SwPoint) :
    _startCell (withOut o rw) pos = exceptOut (withOut o) o (_startCell rw pos) := by
  unfold _startCell
  exact setCell_out o (startAt rw (startPos rw pos)) (startPos rw pos)

theorem moveTo_out (o rw : RleWorker) (dst : SwPoint) :
    _moveTo (withOut o rw) dst = exceptOut (withOut o) o (_moveTo rw dst) := by
  unfold _moveTo
  rw [recordIf_out]
  cases (if !rw.invalid then _recordCell rw else .ok rw) with
  | error e => rfl
  | ok rw1 =>
    show (match _startCell (withOut o rw1) (TRUNCpt dst) with
      | .error e => Except.error e
      | .ok rw2 => Except.ok { rw2 with pos := dst }) =
      exceptOut (withOut o) o (match _startCell rw1 (TRUNCpt dst) with
      | .error e => Except.error e
      | .ok rw2 => Except.ok { rw2 with pos := dst })
    rw [startCell_out]
    cases _startCell rw1 (TRUNCpt dst) with
    | error e => rfl
    | ok rw2 => rfl

theorem lineUp_succ (e2y : Int) (n : Nat) (rw : RleWorker) (e1 f1 : SwPoint) :
    lineUp e2y (n + 1) rw e1 f1 =
      match _setCell (addVertical rw f1 ONE_PIXEL) ⟨e1.x, e1.y + 1⟩ with
      | .error e => .error e
      | .ok rw1 =>
        if e1.y + 1 ≠ e2y then lineUp e2y n rw1 ⟨e1.x, e1.y + 1⟩ ⟨f1.x, 0⟩
        else .ok (rw1, ⟨f1.x, 0⟩) := rfl

theorem lineDown_succ (e2y : Int) (n : Nat) (rw : RleWorker) (e1 f1 : SwPoint) :
    lineDown e2y (n + 1) rw e1 f1 =
      match _setCell (addVertical rw f1 0) ⟨e1.x, e1.y - 1⟩ with
      | .error e => .error e
      | .ok rw1 =>
        if e1.y - 1 ≠ e2y then lineDown e2y n rw1 ⟨e1.x, e1.y - 1⟩ ⟨f1.x, ONE_PIXEL⟩
        else .ok (rw1, ⟨f1.x, ONE_PIXEL⟩) := rfl

theorem lineUp_out (o : RleWorker) (e2y : Int) (fuel : Nat) (rw : RleWorker) (e1 f1 : SwPoint) :
    lineUp e2y fuel (withOut o rw) e1 f1 = exceptOut (fstOut o) o (lineUp e2y fuel rw e1 f1) := by
  induction fuel generalizing rw e1 f1 with
  | zero => rfl
  | succ n ih =>
    rw [lineUp_succ, lineUp_succ]
    have ha : addVertical (withOut o rw) f1 ONE_PIXEL = withOut o (addVertical rw f1 ONE_PIXEL) := rfl
    rw [ha, setCell_out]
    cases _setCell (addVertical rw f1 ONE_PIXEL) ⟨e1.x, e1.y + 1⟩ with
    | error e => rfl
    | ok rw1 =>
      dsimp only [exceptOut]
      by_cases hc : e1.y + 1 ≠ e2y
      · rw [if_pos hc, if_pos hc]; exact ih _ _ _
      · rw [if_neg hc, if_neg hc]; rfl

theorem lineDown_out (o : RleWorker) (e2y : Int) (fuel : Nat) (rw : RleWorker) (e1 f1 : SwPoint) :
    lineDown e2y fuel (withOut o rw) e1 f1 = exceptOut (fstOut o) o (lineDown e2y fuel rw e1 f1) := by
  induction fuel generalizing rw e1 f1 with
  | zero => rfl
  | succ n ih =>
    rw [lineDown_succ, lineDown_succ]
    have ha : addVertical (withOut o rw) f1 0 = withOut o (addVertical rw f1 0) := rfl
    rw [ha, setCell_out]
    cases _setCell (addVertical rw f1 0) ⟨e1.x, e1.y - 1⟩ with
    | error e => rfl
    | ok rw1 =>
      dsimp only [exceptOut]
      by_cases hc : e1.y - 1 ≠ e2y
      · rw [if_pos hc, if_pos hc]; exact ih _ _ _
      · rw [if_neg hc, if_neg hc]; rfl

theorem lineWalk_out (o : RleWorker) (diff e2 : SwPoint) (dx_r dy_r : Int) (fuel : Nat)
    (rw : RleWorker) (e1 f1 : SwPoint) (prod : Int) :
    lineWalk diff e2 dx_r dy_r fuel (withOut o rw) e1 f1 prod =
      exceptOut (fstOut o) o (lineWalk diff e2 dx_r dy_r fuel rw e1 f1 prod) := by
  induction fuel generalizing rw e1 f1 prod with
  | zero => rfl
  | succ n ih =>
    rw [lineWalk_succ, lineWalk_succ]
    generalize walkStep diff dx_r dy_r e1 prod = step
    have ha : addEdge (withOut o rw) f1 step.1 = withOut o (addEdge rw f1 step.1) := rfl
    rw [ha, setCell_out]
    cases _setCell (addEdge rw f1 step.1) step.2.1 with
    | error e => rfl
    | ok rw1 =>
      dsimp only [exceptOut]
      by_cases hc : step.2.1 ≠ e2
      · rw [if_pos hc, if_pos hc]; exact ih _ _ _ _
      · rw [if_neg hc, if_neg hc]; rfl

theorem lineScan_out (o rw : RleWorker) (dst : SwPoint) :
    lineScan (withOut o rw) dst = exceptOut (fstOut o) o (lineScan rw dst) := by
  unfold lineScan
  dsimp only []
  have hp : (withOut o rw).pos = rw.pos := rfl
  rw [hp]
  by_cases h1 : TRUNCpt rw.pos = TRUNCpt dst
  · rw [if_pos h1, if_pos h1]; rfl
  rw [if_neg h1, if_neg h1]
  by_cases h2 : (dst - rw.pos).y = 0
  · rw [if_pos h2, if_pos h2, setCell_out]
    cases _setCell rw ⟨(TRUNCpt dst).x, (TRUNCpt rw.pos).y⟩ with
    | error e => rfl
    | ok rw1 => rfl
  rw [if_neg h2, if_neg h2]
  by_cases h3 : (dst - rw.pos).x = 0
  · rw [if_pos h3, if_pos h3]
    by_cases h4 : (dst - rw.pos).y > 0
    · rw [if_pos h4, if_pos h4]; exact lineUp_out _ _ _ _ _ _
    · rw [if_neg h4, if_neg h4]; exact lineDown_out _ _ _ _ _ _
  rw [if_neg h3, if_neg h3]
  exact lineWalk_out _ _ _ _ _ _ _ _ _ _

theorem lineTo_out (o rw : RleWorker) (dst : SwPoint) :
    _lineTo (withOut o rw) dst = exceptOut (withOut o) o (_lineTo rw dst) := by
  unfold _lineTo
  have hs : lineSkipped (withOut o rw) dst ↔ lineSkipped rw dst := Iff.rfl
  by_cases h1 : lineSkipped rw dst
  · rw [if_pos h1, if_pos (hs.mpr h1)]; rfl
  rw [if_neg h1, if_neg (fun h => h1 (hs.mp h)), lineScan_out]
  cases lineScan rw dst with
  | error e => rfl
  | ok p => rfl

theorem cubicLoop_out (o : RleWorker) (fuel : Nat) (rw : RleWorker) (stk : List SwPoint) :
    cubicLoop fuel (withOut o rw) stk = exceptOut (withOut o) o (cubicLoop fuel rw stk) := by
  induction fuel generalizing rw stk with
  | zero => unfold cubicLoop; rfl
  | succ n ih =>
    match stk with
    | a3 :: a2 :: a1 :: a0 :: below =>
      unfold cubicLoop
      by_cases h1 : cubicSplit a0 a1 a2 a3 = true
      · simp only [if_pos h1]
        by_cases h2 : below.length + 7 > BEZ_STACK
        · simp only [if_pos h2]; rfl
        · simp only [if_neg h2]; exact ih _ _
      · simp only [if_neg h1]
        rw [lineTo_out]
        cases _lineTo rw a0 with
        | error e => rfl
        | ok rw1 =>
          dsimp only [exceptOut]
          by_cases h3 : below = []
          · simp only [if_pos h3]
          · simp only [if_neg h3]; exact ih _ _
    | [] => unfold cubicLoop; rfl
    | [_] => unfold cubicLoop; rfl
    | [_, _] => unfold cubicLoop; rfl
    | [_, _, _] => unfold cubicLoop; rfl

theorem cubicTo_out (o rw : RleWorker) (c1 c2 dst : SwPoint) :
    _cubicTo (withOut o rw) c1 c2 dst = exceptOut (withOut o) o (_cubicTo rw c1 c2 dst) := by
  unfold _cubicTo
  have hs : arcOutside (withOut o rw) dst c2 c1 (withOut o rw).pos ↔ arcOutside rw dst c2 c1 rw.pos :=
    Iff.rfl
  by_cases h1 : arcOutside rw dst c2 c1 rw.pos
  · rw [if_pos h1, if_pos (hs.mpr h1)]; exact lineTo_out _ _ _
  · rw [if_neg h1, if_neg (fun h => h1 (hs.mp h))]; exact cubicLoop_out _ _ _ _

theorem contourLoop_out (w : RleWorker) (o : SwOutline) (limit : Nat) (start : SwPoint) (fuel : Nat)
    (rw : RleWorker) (pt : Nat) :
    contourLoop o limit start fuel (withOut w rw) pt =
      exceptOut (fstOut w) w (contourLoop o limit start fuel rw pt) := by
  induction fuel generalizing rw pt with
  | zero => unfold contourLoop; rfl
  | succ n ih =>
    unfold contourLoop
    by_cases h0 : pt < limit
    · simp only [if_pos h0]
      cases o.types[pt + 1]? with
      | none => rfl
      | some t0 =>
        cases o.pts[pt + 1]? with
        | none => rfl
        | some p0 =>
          dsimp only []
          by_cases ht : t0 = SW_CURVE_TYPE_POINT
          · simp only [if_pos ht]
            rw [lineTo_out]
            cases _lineTo rw (UPSCALE p0) with
            | error e => rfl
            | ok rw1 => exact ih _ _
          · simp only [if_neg ht]
            by_cases h1 : pt + 1 + 1 > limit
            · simp only [if_pos h1]; rfl
            · simp only [if_neg h1]
              cases o.types[pt + 1 + 1]? with
              | none => rfl
              | some t1 =>
                cases o.pts[pt + 1 + 1]? with
                | none => rfl
                | some p1 =>
                  dsimp only []
                  by_cases h2 : t1 ≠ SW_CURVE_TYPE_CUBIC
                  · simp only [if_pos h2]; rfl
                  · simp only [if_neg h2]
                    by_cases h3 : pt + 1 + 2 ≤ limit
                    · simp only [if_pos h3]
                      cases o.pts[pt + 1 + 2]? with
                      | none => rfl
                      | some p2 =>
                        dsimp only []
                        rw [cubicTo_out]
                        cases _cubicTo rw (UPSCALE p0) (UPSCALE p1) (UPSCALE p2) with
                        | error e => rfl
                        | ok rw1 => exact ih _ _
                    · simp only [if_neg h3]
                      rw [cubicTo_out]
                      cases _cubicTo rw (UPSCALE p0) (UPSCALE p1) start with
                      | error e => rfl
                      | ok rw1 => rfl
    · simp only [if_neg h0]; rfl

theorem decomposeContours_out (w : RleWorker) (o : SwOutline) (cs : List Nat) (first : Nat)
    (rw : RleWorker) :
    decomposeContours o cs first (withOut w rw) =
      exceptOut (fstOut w) w (decomposeContours o cs first rw) := by
  induction cs generalizing first rw with
  | nil => unfold decomposeContours; rfl
  | cons last more ih =>
    unfold decomposeContours
    cases o.pts[first]? with
    | none => rfl
    | some p =>
      cases o.types[first]? with
      | none => rfl
      | some t =>
        dsimp only []
        by_cases ht : t = SW_CURVE_TYPE_CUBIC
        · simp only [if_pos ht]; rfl
        · simp only [if_neg ht]
          rw [moveTo_out]
          cases _moveTo rw (UPSCALE p) with
          | error e => rfl
          | ok rw1 =>
            dsimp only [exceptOut]
            rw [contourLoop_out]
            cases contourLoop o last (UPSCALE p) (last - first + 1) rw1 first with
            | error e => rfl
            | ok v =>
              obtain ⟨rw2, ex⟩ := v
              cases ex with
              | invalid => rfl
              | close => exact ih _ _
              | line =>
                dsimp only [exceptOut, fstOut]
                rw [lineTo_out]
                cases _lineTo rw2 (UPSCALE p) with
                | error e => rfl
                | ok rw3 => exact ih _ _

theorem decomposeOutline_out (w rw : RleWorker) :
    _decomposeOutline (withOut w rw) = exceptOut (fstOut w) w (_decomposeOutline rw) := by
  unfold _decomposeOutline
  exact decomposeContours_out w rw.outline rw.outline.cntrs 0 rw

/-- The cell side of the result of `_genRle` does not depend on the span side of the
worker, which `_genRle` hands on as it is. -/
theorem genRle_out (w rw : RleWorker) :
    _genRle (withOut w rw) = (_genRle rw).map (fstOut w) := by
  unfold _genRle
  rw [decomposeOutline_out]
  cases _decomposeOutline rw with
  | error e => cases e <;> rfl
  | ok v =>
    obtain ⟨rw1, ret⟩ := v
    dsimp only [exceptOut, fstOut]
    rw [recordIf_out]
    cases (if !rw1.invalid then _recordCell rw1 else .ok rw1) with
    | error e => cases e <;> rfl
    | ok rw2 => rfl

end ThorVG

namespace ThorVG

/-! ## Two runs side by side through the band loops -/

theorem twin_eq (a n : RleWorker) (h : coreOf a = coreOf n) : n = withOut n a := by
  cases a
  cases n
  simp only [coreOf, RleWorker.mk.injEq] at h
  simp only [withOut, RleWorker.mk.injEq]
  tauto

theorem bandSetup_out (w rw : RleWorker) (band : Band) :
    bandSetup (withOut w rw) band = exceptOut (Option.map (withOut w)) w (bandSetup rw band) := by
  unfold bandSetup
  dsimp only []
  split_ifs <;> rfl

theorem bandTry_ok (a a0 : RleWorker) (band : Band) (hs : bandSetup a band = .ok (some a0)) :
    bandTry a band =
      match _genRle a0 with
      | none => .error .undefined
      | some (a1, ret) =>
        if ret = 0 then .ok (.swept (_sweep a1))
        else if ret = 1 then .ok .failed
        else .ok (.reduce a1) := by
  unfold bandTry
  rw [hs] <;> rfl

theorem bandTry_none (a : RleWorker) (band : Band) (hs : bandSetup a band = .ok none) :
    bandTry a band = .ok (.reduce { a with yCnt := band.max - band.min }) := by
  unfold bandTry
  rw [hs]

theorem bandTry_error (a : RleWorker) (band : Band) (e : Abort) (hs : bandSetup a band = .error e) :
    bandTry a band = .error e := by
  unfold bandTry
  rw [hs]

theorem countShoot_out (w rw : RleWorker) (b t : Int) :
    countShoot (withOut w rw) b t = withOut w (countShoot rw b t) := by
  unfold countShoot
  have : (withOut w rw).bandSize = rw.bandSize := rfl
  rw [this]
  split <;> rfl

/-- The `while (band >= bands)` loop on two workers with the same cell side: the two
runs end the same way and keep what `Twin` says, when the sweep of a band keeps `R`. -/
theorem bandLoop_twin (R : SwRleData → SwRleData → Prop) (cfg : RunConfig) (aa : Bool)
    (hstep : ∀ (aPrev a0 a nPrev : RleWorker) (band : Band), configOf aPrev = cfg →
      nPrev.antiAlias = aa → coreOf aPrev = coreOf nPrev →
      bandSetup aPrev band = .ok (some a0) → _genRle a0 = some (a, 0) →
      R aPrev.rle nPrev.rle → R (_sweep a).rle (_sweep (withOut nPrev a)).rle)
    (fuel : Nat) (a n : RleWorker) (stk : List Band) (h : Twin R cfg aa a n) :
    LoopRel (Twin R cfg aa) (bandLoop fuel a stk) (bandLoop fuel n stk) := by
  induction fuel generalizing a n stk with
  | zero =>
    cases stk with
    | nil => rw [bandLoop_nil, bandLoop_nil]; exact h
    | cons b bs => rw [bandLoop_zero, bandLoop_zero]; trivial
  | succ k ih =>
    cases stk with
    | nil => rw [bandLoop_nil, bandLoop_nil]; exact h
    | cons band below =>
      obtain ⟨hcore, hcfg, haa, hR⟩ := h
      have hn := twin_eq a n hcore
      rw [bandLoop_succ, bandLoop_succ]
      have hsn : bandSetup n band = exceptOut (Option.map (withOut n)) n (bandSetup a band) := by
        rw [← bandSetup_out, ← hn]
      cases hs : bandSetup a band with
      | error e =>
        rw [hs] at hsn
        rw [bandTry_error a band e hs, bandTry_error n band _ hsn]
        trivial
      | ok v =>
        rw [hs] at hsn
        cases v with
        | none =>
          rw [bandTry_none a band hs, bandTry_none n band hsn]
          dsimp only []
          by_cases hm : band.min + shr (band.max - band.min) 1 = band.min
          · rw [if_pos hm, if_pos hm]; trivial
          rw [if_neg hm, if_neg hm]
          by_cases hl : below.length + 2 > BAND_SIZE
          · rw [if_pos hl, if_pos hl]; trivial
          rw [if_neg hl, if_neg hl]
          apply ih
          refine ⟨?_, ?_, ?_, ?_⟩
          · have e1 : coreOf { a with yCnt := band.max - band.min } =
                coreOf { n with yCnt := band.max - band.min } := by
              have := congrArg (fun r : RleWorker => { r with yCnt := band.max - band.min }) hcore
              exact this
            have e2 := twin_eq _ _ e1
            rw [e2, countShoot_out]
            rfl
          · rw [(countShoot_config _ _ _).1]; exact hcfg
          · have := congrArg RunConfig.antiAlias (countShoot_config
              { n with yCnt := band.max - band.min } band.min band.max).1
            exact this.trans haa
          · rw [(countShoot_config _ _ _).2, (countShoot_config _ _ _).2]; exact hR
        | some a0 =>
          have hsn2 : bandSetup n band = .ok (some (withOut n a0)) := hsn
          rw [bandTry_ok a a0 band hs, bandTry_ok n _ band hsn2, genRle_out]
          cases hg : _genRle a0 with
          | none => trivial
          | some p =>
            obtain ⟨a1, ret⟩ := p
            dsimp only [Option.map, fstOut]
            obtain ⟨mc, rfl, _, _⟩ := bandSetup_some _ _ _ hs
            have hf := (genRle_sound _ _ _ hg).1
            have hc1 : configOf a1 = cfg := by
              rw [config_of_frame hf]; exact hcfg
            have hr1 : a1.rle = a.rle := (congrArg WorkerFrame.rle hf).trans rfl
            by_cases h0 : ret = 0
            · rw [if_pos h0, if_pos h0]
              dsimp only []
              subst h0
              apply ih
              refine ⟨?_, ?_, ?_, ?_⟩
              · have s1 := sweep_strip a1
                have s2 := sweep_strip (withOut n a1)
                have c1 : coreOf (_sweep a1) = coreOf a1 :=
                  congrArg (fun r : RleWorker => { r with antiAlias := false }) s1
                have c2 : coreOf (_sweep (withOut n a1)) = coreOf (withOut n a1) :=
                  congrArg (fun r : RleWorker => { r with antiAlias := false }) s2
                rw [c1, c2]
                rfl
              · rw [sweep_config]; exact hc1
              · have := congrArg RunConfig.antiAlias (sweep_config (withOut n a1))
                exact this.trans haa
              · exact hstep a _ a1 n band hcfg haa hcore hs hg hR
            · rw [if_neg h0, if_neg h0]
              by_cases h1 : ret = 1
              · rw [if_pos h1, if_pos h1]; trivial
              rw [if_neg h1, if_neg h1]
              dsimp only []
              by_cases hm : band.min + shr (band.max - band.min) 1 = band.min
              · rw [if_pos hm, if_pos hm]; trivial
              rw [if_neg hm, if_neg hm]
              by_cases hl : below.length + 2 > BAND_SIZE
              · rw [if_pos hl, if_pos hl]; trivial
              rw [if_neg hl, if_neg hl]
              apply ih
              refine ⟨?_, ?_, ?_, ?_⟩
              · rw [countShoot_out]; rfl
              · rw [(countShoot_config _ _ _).1]; exact hc1
              · have := congrArg RunConfig.antiAlias (countShoot_config
                  (withOut n a1) band.min band.max).1
                exact this.trans haa
              · rw [(countShoot_config _ _ _).2, (countShoot_config _ _ _).2, hr1]; exact hR

theorem core_bandSize (a n : RleWorker) (h : coreOf a = coreOf n) : n.bandSize = a.bandSize := by
  have := congrArg RleWorker.bandSize h
  exact this.symm

/-- The `for` loop over the bands on two workers with the same cell side. -/
theorem renderBands_twin (R : SwRleData → SwRleData → Prop) (cfg : RunConfig) (aa : Bool)
    (hstep : ∀ (aPrev a0 a nPrev : RleWorker) (band : Band), configOf aPrev = cfg →
      nPrev.antiAlias = aa → coreOf aPrev = coreOf nPrev →
      bandSetup aPrev band = .ok (some a0) → _genRle a0 = some (a, 0) →
      R aPrev.rle nPrev.rle → R (_sweep a).rle (_sweep (withOut nPrev a)).rle)
    (yMax bandCnt : Int) (k : Nat) (i min : Int) (a n : RleWorker) (h : Twin R cfg aa a n) :
    LoopRel (Twin R cfg aa) (renderBands yMax bandCnt k i min a)
      (renderBands yMax bandCnt k i min n) := by
  induction k generalizing i min a n with
  | zero => rw [renderBands_zero, renderBands_zero]; exact h
  | succ k ih =>
    rw [renderBands_succ, renderBands_succ, core_bandSize a n h.1]
    generalize (if i = bandCnt - 1 ∨ min + a.bandSize > yMax then yMax else min + a.bandSize) = max
    have hb := bandLoop_twin R cfg aa hstep (2 * (max - min).toNat + 1) a n [⟨min, max⟩] h
    revert hb
    generalize bandLoop (2 * (max - min).toNat + 1) a [⟨min, max⟩] = ra
    generalize bandLoop (2 * (max - min).toNat + 1) n [⟨min, max⟩] = rn
    intro hb
    cases ra with
    | error e =>
      cases rn with
      | error e2 => trivial
      | ok v => cases v <;> exact hb.elim
    | ok v =>
      cases v with
      | none =>
        cases rn with
        | error e2 => exact hb.elim
        | ok v2 =>
          cases v2 with
          | none => trivial
          | some n1 => exact hb.elim
      | some a1 =>
        cases rn with
        | error e2 => exact hb.elim
        | ok v2 =>
          cases v2 with
          | none => exact hb.elim
          | some n1 => exact ih _ _ _ _ hb

/-- The lock-step principle of `rleRender`: two runs on the same input that differ in
the anti-alias flag end the same way, and a relation between the two RLEs, true at the
start and kept by the sweep of every band, holds between the RLEs returned. -/
theorem render_twin (R : SwRleData → SwRleData → Prop) (bandSize : Int) (rle : Option SwRleData)
    (outline : SwOutline) (bbox viewport : SwBBox) (aaA aaN : Bool)
    (hstep : ∀ (aPrev a0 a nPrev : RleWorker) (band : Band),
      configOf aPrev = configOf (initWorker bandSize rle outline bbox viewport aaA) →
      nPrev.antiAlias = aaN → coreOf aPrev = coreOf nPrev →
      bandSetup aPrev band = .ok (some a0) → _genRle a0 = some (a, 0) →
      R aPrev.rle nPrev.rle → R (_sweep a).rle (_sweep (withOut nPrev a)).rle)
    (h0 : R (rle.getD ⟨[], 0⟩) (rle.getD ⟨[], 0⟩)) :
    LoopRel (fun a n => R a.rle n.rle) (renderWorker bandSize rle outline bbox viewport aaA)
      (renderWorker bandSize rle outline bbox viewport aaN) := by
  unfold renderWorker
  dsimp only []
  have hb := renderBands_twin R (configOf (initWorker bandSize rle outline bbox viewport aaA)) aaN
    hstep (initWorker bandSize rle outline bbox viewport aaA).cellMax.y
    (bandCount ((initWorker bandSize rle outline bbox viewport aaA).cellMax.y -
      (initWorker bandSize rle outline bbox viewport aaA).cellMin.y)
      (initWorker bandSize rle outline bbox viewport aaA).bandSize)
    (bandCount ((initWorker bandSize rle outline bbox viewport aaA).cellMax.y -
      (initWorker bandSize rle outline bbox viewport aaA).cellMin.y)
      (initWorker bandSize rle outline bbox viewport aaA).bandSize).toNat 0
    (initWorker bandSize rle outline bbox viewport aaA).cellMin.y
    (initWorker bandSize rle outline bbox viewport aaA)
    (initWorker bandSize rle outline bbox viewport aaN) ⟨rfl, rfl, rfl, h0⟩
  revert hb
  generalize renderBands (initWorker bandSize rle outline bbox viewport aaA).cellMax.y _ _ 0 _
    (initWorker bandSize rle outline bbox viewport aaA) = ra
  intro hb
  have hb2 : LoopRel (Twin R (configOf (initWorker bandSize rle outline bbox viewport aaA)) aaN) ra
      (renderBands (initWorker bandSize rle outline bbox viewport aaN).cellMax.y
        (bandCount ((initWorker bandSize rle outline bbox viewport aaN).cellMax.y -
          (initWorker bandSize rle outline bbox viewport aaN).cellMin.y)
          (initWorker bandSize rle outline bbox viewport aaN).bandSize)
        (bandCount ((initWorker bandSize rle outline bbox viewport aaN).cellMax.y -
          (initWorker bandSize rle outline bbox viewport aaN).cellMin.y)
          (initWorker bandSize rle outline bbox viewport aaN).bandSize).toNat 0
        (initWorker bandSize rle outline bbox viewport aaN).cellMin.y
        (initWorker bandSize rle outline bbox viewport aaN)) := hb
  revert hb2
  generalize renderBands (initWorker bandSize rle outline bbox viewport aaN).cellMax.y _ _ 0 _
    (initWorker bandSize rle outline bbox viewport aaN) = rn
  intro hb2
  clear hb
  have ht : ∀ rw : RleWorker, (tuneBand rw).rle = rw.rle := fun rw => by
    unfold tuneBand; split <;> rfl
  cases ra with
  | error e =>
    cases rn with
    | error e2 => trivial
    | ok v => cases v <;> exact hb2.elim
  | ok v =>
    cases v with
    | none =>
      cases rn with
      | error e2 => exact hb2.elim
      | ok v2 =>
        cases v2 with
        | none => trivial
        | some n1 => exact hb2.elim
    | some a1 =>
      cases rn with
      | error e2 => exact hb2.elim
      | ok v2 =>
        cases v2 with
        | none => exact hb2.elim
        | some n1 =>
          show R (tuneBand a1).rle (tuneBand n1).rle
          rw [ht, ht]
          exact hb2.2.2.2

end ThorVG

namespace ThorVG

/-! ## The pixels a run adds -/

theorem pixOf_append (l1 l2 : List SwSpan) (x y : Int) :
    pixOf (l1 ++ l2) x y ↔ pixOf l1 x y ∨ pixOf l2 x y := by
  unfold pixOf
  constructor
  · rintro ⟨s, hs, hc⟩
    rcases List.mem_append.mp hs with h | h
    · exact Or.inl ⟨s, h, hc⟩
    · exact Or.inr ⟨s, h, hc⟩
  · rintro (⟨s, hs, hc⟩ | ⟨s, hs, hc⟩)
    · exact ⟨s, List.mem_append_left _ hs, hc⟩
    · exact ⟨s, List.mem_append_right _ hs, hc⟩

theorem pixOf_singleton (s : SwSpan) (x y : Int) : pixOf [s] x y ↔ covers s x y := by
  unfold pixOf
  simp

/-- The merge branch of `_horizLine` adds the pixels of the run, and keeps `ySpan` the
scanline of the last span. -/
theorem mergeSpan_pix (rw rw1 : RleWorker) (xc yc c n : Int) (hw : rw.clip.w ≤ 65535)
    (hok : OutOk rw) (hys : YSpanOk rw) (hn : 0 ≤ n)
    (hm : mergeSpan rw xc yc c n = some rw1) :
    YSpanOk rw1 ∧
    ∀ x y, pixOf (outSpans rw1) x y ↔ pixOf (outSpans rw) x y ∨ runPix rw.clip.w xc yc n x y := by
  obtain ⟨span, hl, hy, hx, hc, rfl⟩ := mergeSpan_some _ _ _ _ _ _ hm
  have hsp := getLast?_split _ _ hl
  have hspan : SpanOk rw.clip span := hok span (by rw [hsp]; simp)
  obtain ⟨s1, s2, s3, s4, s5, s6, s7, s8⟩ := hspan
  have hyspan : span.y = yc := by rw [← hys span hl]; exact hy
  have hlen : toU16 (span.len + (n + clipXOver rw.clip.w xc n)) =
      span.len + (n + clipXOver rw.clip.w xc n) := by
    simp only [toU16, clipXOver]
    split_ifs <;> omega
  constructor
  · intro s hs
    have h2 : (rw.spans.dropLast ++
        [{ span with len := toU16 (span.len + (n + clipXOver rw.clip.w xc n)) }]).getLast?
        = some s := hs
    rw [getLast?_snoc] at h2
    rw [← Option.some.inj h2]
    exact hys span hl
  · intro x y
    have e1 : outSpans { rw with spans := rw.spans.dropLast ++
        [{ span with len := toU16 (span.len + (n + clipXOver rw.clip.w xc n)) }] } =
        (rw.rle.spans ++ rw.spans.dropLast) ++
        [{ span with len := toU16 (span.len + (n + clipXOver rw.clip.w xc n)) }] := by
      simp [outSpans]
    have e2 : outSpans rw = (rw.rle.spans ++ rw.spans.dropLast) ++ [span] := by
      unfold outSpans
      rw [List.append_assoc, ← hsp]
    have key : covers { span with len := toU16 (span.len + (n + clipXOver rw.clip.w xc n)) } x y ↔
        covers span x y ∨ runPix rw.clip.w xc yc n x y := by
      unfold covers runPix
      dsimp only []
      rw [hlen]
      simp only [clipXOver]
      constructor
      · rintro ⟨h1, h2, h3⟩
        by_cases hin : x < span.x + span.len
        · exact Or.inl ⟨h1, h2, hin⟩
        · right
          refine ⟨by omega, ?_, ?_⟩ <;> split_ifs at h3 ⊢ <;> omega
      · rintro (⟨h1, h2, h3⟩ | ⟨h1, h2, h3⟩)
        · refine ⟨h1, h2, ?_⟩
          split_ifs <;> omega
        · refine ⟨by omega, ?_, ?_⟩ <;> split_ifs at h2 h3 ⊢ <;> omega
    rw [e1, e2]
    simp only [pixOf_append, pixOf_singleton]
    rw [key]
    exact or_assoc.symm

theorem flushIfFull_ySpan (rw : RleWorker) (hys : YSpanOk rw) : YSpanOk (flushIfFull rw) := by
  rcases flushIfFull_spans rw with ⟨he, _⟩ | he
  · intro s hs; rw [he] at hs; cases hs
  · rw [he]; exact hys

/-- The branch of `_horizLine` that adds a span adds the pixels of the run. -/
theorem addSpan_pix (rw : RleWorker) (xc yc c n : Int) (hw : rw.clip.w ≤ 65535)
    (hys : YSpanOk rw) (hx : xc ≤ 32767) (hy : 0 ≤ yc ∧ yc ≤ 32767) :
    YSpanOk (addSpan (flushIfFull rw) xc yc c n) ∧
    ∀ x y, pixOf (outSpans (addSpan (flushIfFull rw) xc yc c n)) x y ↔
      pixOf (outSpans rw) x y ∨ runPix rw.clip.w xc yc n x y := by
  have hclip : (flushIfFull rw).clip = rw.clip := by
    have := congrArg RleWorker.clip (flushIfFull_strip rw)
    exact this
  have hysf := flushIfFull_ySpan rw hys
  by_cases hpos : n + clipXOver (flushIfFull rw).clip.w xc n ≤ 0
  · rw [addSpan_nonpos _ _ _ _ _ hpos]
    refine ⟨hysf, fun x y => ?_⟩
    rw [flushIfFull_out, hclip] at *
    constructor
    · exact fun h => Or.inl h
    · rintro (h | ⟨_, h2, h3⟩)
      · exact h
      · omega
  · obtain ⟨hsp, hrle, hyv⟩ := addSpan_pos (flushIfFull rw) xc yc c n hpos
    rw [hclip] at hpos hsp
    have hout : outSpans (addSpan (flushIfFull rw) xc yc c n) = outSpans rw ++
        [⟨toI16 (if xc < 0 then 0 else xc), toI16 yc, toU16 (n + clipXOver rw.clip.w xc n), toU8 c⟩] := by
      rw [← flushIfFull_out rw]
      simp only [outSpans]
      rw [hsp, hrle, List.append_assoc]
    have e1 : toI16 yc = yc := by simp only [toI16]; omega
    have e2 : toI16 (if xc < 0 then 0 else xc) = (if xc < 0 then 0 else xc) := by
      simp only [toI16]; split_ifs <;> omega
    have e3 : toU16 (n + clipXOver rw.clip.w xc n) = n + clipXOver rw.clip.w xc n := by
      simp only [clipXOver] at hpos ⊢
      simp only [toU16]
      split_ifs at hpos ⊢ <;> omega
    constructor
    · intro s hs
      rw [hsp, getLast?_snoc] at hs
      rw [← Option.some.inj hs, hyv]
      show toI32 yc = toI16 yc
      rw [e1]
      simp only [toI32]; omega
    · intro x y
      rw [hout, pixOf_append, pixOf_singleton]
      apply or_congr Iff.rfl
      unfold covers runPix
      dsimp only []
      rw [e1, e2, e3]
      constructor
      · rintro ⟨h1, h2, h3⟩; exact ⟨h1.symm, h2, h3⟩
      · rintro ⟨h1, h2, h3⟩; exact ⟨h1.symm, h2, h3⟩

/-- The pixels a run emitted by `_horizLine` adds. -/
theorem emitSpan_pix (rw : RleWorker) (xc yc c n : Int) (hw : rw.clip.w ≤ 65535)
    (hok : OutOk rw) (hys : YSpanOk rw) (hn : 0 ≤ n) (hx : xc ≤ 32767)
    (hy : 0 ≤ yc ∧ yc ≤ 32767) :
    YSpanOk (emitSpan rw xc yc c n) ∧
    ∀ x y, pixOf (outSpans (emitSpan rw xc yc c n)) x y ↔
      pixOf (outSpans rw) x y ∨ runPix rw.clip.w xc yc n x y := by
  unfold emitSpan
  cases hm : mergeSpan rw xc yc c n with
  | some rw1 => exact mergeSpan_pix rw rw1 xc yc c n hw hok hys hn hm
  | none => exact addSpan_pix rw xc yc c n hw hys hx hy

/-- The pixels a call of `_horizLine` adds, whatever the anti-alias flag and the spans
emitted before. -/
theorem horizLine_pix (rw : RleWorker) (x y area k : Int) (hw : rw.clip.w ≤ 65535)
    (hok : OutOk rw) (hys : YSpanOk rw) (hk : 0 ≤ k) :
    (OutOk (_horizLine rw x y area k) ∧ YSpanOk (_horizLine rw x y area k)) ∧
    ∀ px py, pixOf (outSpans (_horizLine rw x y area k)) px py ↔
      pixOf (outSpans rw) px py ∨ linePix rw x y area k px py := by
  refine ⟨⟨horizLine_ok rw x y area k hk hok, ?_⟩, ?_⟩
  · unfold _horizLine
    dsimp only []
    by_cases h1 : y + rw.cellMin.y < 0
    · rw [if_pos h1]; exact hys
    rw [if_neg h1]
    by_cases h2 : y + rw.cellMin.y ≥ rw.clip.h
    · rw [if_pos h2]; exact hys
    rw [if_neg h2]
    by_cases h3 : coverageOf rw.outline.fillRule area > 0
    · rw [if_pos h3]
      exact (emitSpan_pix rw _ _ _ k hw hok hys hk (by simp only [SHRT_MAX]; split_ifs <;> omega)
        (by simp only [SHRT_MAX]; split_ifs <;> omega)).1
    · rw [if_neg h3]; exact hys
  · intro px py
    unfold _horizLine linePix
    dsimp only []
    by_cases h1 : y + rw.cellMin.y < 0
    · rw [if_pos h1]
      exact ⟨fun h => Or.inl h, fun h => h.elim id (fun h => by omega)⟩
    rw [if_neg h1]
    by_cases h2 : y + rw.cellMin.y ≥ rw.clip.h
    · rw [if_pos h2]
      exact ⟨fun h => Or.inl h, fun h => h.elim id (fun h => by omega)⟩
    rw [if_neg h2]
    by_cases h3 : coverageOf rw.outline.fillRule area > 0
    · rw [if_pos h3]
      rw [(emitSpan_pix rw _ _ _ k hw hok hys hk (by simp only [SHRT_MAX]; split_ifs <;> omega)
        (by simp only [SHRT_MAX]; split_ifs <;> omega)).2 px py]
      apply or_congr Iff.rfl
      exact ⟨fun h => ⟨by omega, by omega, h3, h⟩, fun h => h.2.2.2⟩
    · rw [if_neg h3]
      exact ⟨fun h => Or.inl h, fun h => h.elim id (fun h => absurd h.2.2.1 h3)⟩

theorem core_of_strip {a b : RleWorker} (h : stripSpans a = stripSpans b) : coreOf a = coreOf b :=
  congrArg (fun r : RleWorker => { r with antiAlias := false }) h

theorem linePix_core (a n : RleWorker) (h : coreOf a = coreOf n) (x y area k px py : Int) :
    linePix n x y area k px py ↔ linePix a x y area k px py := by
  rw [twin_eq a n h]
  exact Iff.rfl

theorem core_clip (a n : RleWorker) (h : coreOf a = coreOf n) : n.clip = a.clip := by
  have := congrArg RleWorker.clip h
  exact this.symm

/-- A call of `_horizLine` on two workers with the same cell side keeps `SweepRel`. -/
theorem horizLine_rel (a n : RleWorker) (x y area k : Int) (hw : a.clip.w ≤ 65535) (hk : 0 ≤ k)
    (h : SweepRel a n) : SweepRel (_horizLine a x y area k) (_horizLine n x y area k) := by
  obtain ⟨hcore, ⟨ha1, ha2⟩, ⟨hn1, hn2⟩, hpix⟩ := h
  obtain ⟨hA, hAp⟩ := horizLine_pix a x y area k hw ha1 ha2 hk
  obtain ⟨hN, hNp⟩ := horizLine_pix n x y area k (by rw [core_clip a n hcore]; exact hw) hn1 hn2 hk
  refine ⟨?_, hA, hN, fun px py => ?_⟩
  · rw [core_of_strip (horizLine_strip a x y area k), core_of_strip (horizLine_strip n x y area k)]
    exact hcore
  · rw [hAp, hNp, hpix, linePix_core a n hcore]

theorem if_horizLine_rel (p : Prop) [Decidable p] (a n : RleWorker) (x y area k : Int)
    (hw : a.clip.w ≤ 65535) (hk : p → 0 ≤ k) (h : SweepRel a n) :
    SweepRel (if p then _horizLine a x y area k else a) (if p then _horizLine n x y area k else n) := by
  by_cases hp : p
  · rw [if_pos hp, if_pos hp]; exact horizLine_rel a n x y area k hw (hk hp) h
  · rw [if_neg hp, if_neg hp]; exact h

theorem sweepCell_rel (y : Int) (a n : RleWorker) (cell : Cell) (cover x : Int)
    (hw : a.clip.w ≤ 65535) (h : SweepRel a n) :
    SweepRel (sweepCell y a cell cover x) (sweepCell y n cell cover x) := by
  unfold sweepCell
  dsimp only []
  have h1 := if_horizLine_rel (cell.x > x ∧ cover ≠ 0) a n x y (cover * (ONE_PIXEL * 2))
    (cell.x - x) hw (fun hp => by omega) h
  have hs := strip_fields (if_horizLine_strip (cell.x > x ∧ cover ≠ 0) a x y
    (cover * (ONE_PIXEL * 2)) (cell.x - x))
  revert h1 hs
  generalize (if cell.x > x ∧ cover ≠ 0 then
    _horizLine a x y (cover * (ONE_PIXEL * 2)) (cell.x - x) else a) = a1
  generalize (if cell.x > x ∧ cover ≠ 0 then
    _horizLine n x y (cover * (ONE_PIXEL * 2)) (cell.x - x) else n) = n1
  intro h1 hs
  exact if_horizLine_rel _ a1 n1 cell.x y _ 1 (by rw [hs.1]; exact hw) (fun _ => by omega) h1

theorem sweepCells_snd (y : Int) (a n : RleWorker) (row : List Cell) (cover x : Int) :
    (sweepCells y a row cover x).2 = (sweepCells y n row cover x).2 := by
  induction row generalizing a n cover x with
  | nil => rfl
  | cons cell next ih =>
    unfold sweepCells
    exact ih _ _ _ _

theorem sweepCells_rel (y : Int) (a n : RleWorker) (row : List Cell) (cover x : Int)
    (hw : a.clip.w ≤ 65535) (h : SweepRel a n) :
    SweepRel (sweepCells y a row cover x).1 (sweepCells y n row cover x).1 := by
  induction row generalizing a n cover x with
  | nil => exact h
  | cons cell next ih =>
    unfold sweepCells
    have hc := (strip_fields (sweepCell_strip y a cell cover x)).1
    exact ih _ _ _ _ (by rw [hc]; exact hw) (sweepCell_rel y a n cell cover x hw h)

theorem core_cellXCnt (a n : RleWorker) (h : coreOf a = coreOf n) : n.cellXCnt = a.cellXCnt := by
  have := congrArg RleWorker.cellXCnt h
  exact this.symm

theorem sweepRow_rel (a n : RleWorker) (y : Int) (row : List Cell) (hw : a.clip.w ≤ 65535)
    (hrow : RowOk a.cellXCnt row) (h : SweepRel a n) :
    SweepRel (sweepRow a y row) (sweepRow n y row) := by
  unfold sweepRow
  dsimp only []
  have h1 := sweepCells_rel y a n row 0 0 hw h
  have h2 := sweepCells_snd y a n row 0 0
  have hcur := sweepCells_cursor y a a.cellXCnt row 0 0 hrow
  obtain ⟨hc1, _, hx1, _, _⟩ := strip_fields (sweepCells_strip y a row 0 0)
  have hxn := core_cellXCnt _ _ h1.1
  revert h1 h2 hcur hc1 hx1 hxn
  generalize sweepCells y a row 0 0 = ra
  generalize sweepCells y n row 0 0 = rn
  intro h1 h2 hcur hc1 hx1 hxn
  rw [← h2, hxn]
  refine if_horizLine_rel _ ra.1 rn.1 _ y _ _ (by rw [hc1]; exact hw) (fun hp => ?_) h1
  rw [hx1]
  rcases hcur with ⟨_, heq⟩ | ⟨_, hle⟩
  · rw [heq] at hp
    exact absurd rfl hp
  · omega

theorem sweepRows_rel (a n : RleWorker) (y : Int) (rows : List (List Cell))
    (hw : a.clip.w ≤ 65535) (hrows : ∀ row ∈ rows, RowOk a.cellXCnt row) (h : SweepRel a n) :
    SweepRel (sweepRows a y rows) (sweepRows n y rows) := by
  induction rows generalizing a n y with
  | nil => exact h
  | cons row rows ih =>
    unfold sweepRows
    obtain ⟨hc1, _, hx1, _, _⟩ := strip_fields (sweepRow_strip a y row)
    exact ih _ _ _ (by rw [hc1]; exact hw)
      (by rw [hx1]; exact fun r hr => hrows r (List.mem_cons_of_mem _ hr))
      (sweepRow_rel a n y row hw (hrows row (List.mem_cons_self _ _)) h)

theorem flushed_spans (r : RleWorker) :
    (if r.spansCnt > 0 then { r with rle := _genSpan r.rle r.spans } else r).rle.spans
      = outSpans r := by
  split
  · rfl
  · rename_i hcnt
    have he : r.spans = [] := by
      have : r.spans.length = 0 := by
        simp only [RleWorker.spansCnt] at hcnt; omega
      exact List.length_eq_zero.mp this
    simp [outSpans, he]

/-- The spans `_sweep` leaves in the RLE are those of the RLE before, then those the
scanline loop emits from an empty buffer. -/
theorem sweep_spans (rw : RleWorker) (h : rw.cellsCnt ≠ 0) :
    (_sweep rw).rle.spans = outSpans (sweepRows { rw with spans := [], ySpan := 0 } 0 rw.yCells) := by
  unfold _sweep
  rw [if_neg h]
  exact flushed_spans _

/-- The sweep of a band on two workers with the same cell side keeps the spans of both
RLEs well formed and their pixels the same. -/
theorem sweep_rel (a n : RleWorker) (hcore : coreOf a = coreOf n) (hinv : CellInv a)
    (hw : a.clip.w ≤ 65535) (h : PixRel a.clip a.rle n.rle) :
    PixRel a.clip (_sweep a).rle (_sweep n).rle := by
  have hcnt : n.cellsCnt = a.cellsCnt := by
    have := congrArg RleWorker.cellsCnt hcore
    exact this.symm
  have hyc : n.yCells = a.yCells := by
    have := congrArg RleWorker.yCells hcore
    exact this.symm
  by_cases h0 : a.cellsCnt = 0
  · have ea : _sweep a = a := by unfold _sweep; rw [if_pos h0]
    have en : _sweep n = n := by unfold _sweep; rw [if_pos (hcnt.trans h0)]
    rw [ea, en]; exact h
  · obtain ⟨hA, hN, hP⟩ := h
    have hrel0 : SweepRel { a with spans := [], ySpan := 0 } { n with spans := [], ySpan := 0 } := by
      refine ⟨?_, ⟨?_, ?_⟩, ⟨?_, ?_⟩, ?_⟩
      · exact congrArg (fun r : RleWorker => { r with spans := [], ySpan := 0 }) hcore
      · intro s hs
        exact hA s (by simpa using hs)
      · intro s hs; cases hs
      · intro s hs
        have := hN s (by simpa using hs)
        rw [core_clip a n hcore]
        exact this
      · intro s hs; cases hs
      · intro x y
        have e1 : outSpans { a with spans := [], ySpan := 0 } = a.rle.spans := by simp [outSpans]
        have e2 : outSpans { n with spans := [], ySpan := 0 } = n.rle.spans := by simp [outSpans]
        rw [e1, e2]
        exact hP x y
    have hrel := sweepRows_rel { a with spans := [], ySpan := 0 } { n with spans := [], ySpan := 0 }
      0 a.yCells hw hinv.1 hrel0
    have hca := (strip_fields (sweepRows_strip { a with spans := [], ySpan := 0 } 0 a.yCells)).1
    have hcn := core_clip _ _ hrel.1
    have hsa := sweep_spans a h0
    have hsn := (sweep_spans n (by rw [hcnt]; exact h0)).trans
      (congrArg (fun l => outSpans (sweepRows { n with spans := [], ySpan := 0 } 0 l)) hyc)
    refine ⟨?_, ?_, ?_⟩
    · intro s hs
      rw [hsa] at hs
      have := hrel.2.1.1 s hs
      rw [hca] at this
      exact this
    · intro s hs
      rw [hsn] at hs
      have := hrel.2.2.1.1 s hs
      rw [hcn, hca] at this
      exact this
    · intro x y
      rw [hsa, hsn]
      exact hrel.2.2.2 x y

end ThorVG

namespace ThorVG

/-! ## Without anti-aliasing every span is full -/

theorem strip_aa {a b : RleWorker} (h : stripSpans a = stripSpans b) :
    a.antiAlias = b.antiAlias := by
  have := congrArg RleWorker.antiAlias h
  exact this

theorem mergeSpan_full (rw rw1 : RleWorker) (x y c n : Int) (h : Full rw)
    (hm : mergeSpan rw x y c n = some rw1) : Full rw1 := by
  obtain ⟨span, hl, _, _, _, rfl⟩ := mergeSpan_some _ _ _ _ _ _ hm
  have hsp := getLast?_split _ _ hl
  have hspan : span.coverage = 255 := h span (by rw [hsp]; simp)
  intro s hs
  simp only [List.mem_append, List.mem_singleton] at hs
  rcases hs with hs | hs | hs
  · exact h s (by simp [hs])
  · exact h s (by simp [List.mem_of_mem_dropLast hs])
  · subst hs
    exact hspan

theorem flushIfFull_full (rw : RleWorker) (h : Full rw) : Full (flushIfFull rw) := by
  unfold flushIfFull
  split
  · intro s hs
    exact h s (by simpa [_genSpan] using hs)
  · exact h

theorem addSpan_full (rw : RleWorker) (x y n : Int) (h : Full rw) : Full (addSpan rw x y 255 n) := by
  by_cases hpos : n + clipXOver rw.clip.w x n ≤ 0
  · rw [addSpan_nonpos _ _ _ _ _ hpos]; exact h
  · obtain ⟨hsp, hrle, _⟩ := addSpan_pos rw x y 255 n hpos
    intro s hs
    rw [hsp, hrle, ← List.append_assoc] at hs
    rcases List.mem_append.mp hs with hs | hs
    · exact h s hs
    · rw [List.mem_singleton] at hs
      rw [hs]
      rfl

theorem emitSpan_full (rw : RleWorker) (x y n : Int) (h : Full rw) : Full (emitSpan rw x y 255 n) := by
  unfold emitSpan
  cases hm : mergeSpan rw x y 255 n with
  | some rw1 => exact mergeSpan_full rw rw1 x y 255 n h hm
  | none => exact addSpan_full _ x y n (flushIfFull_full rw h)

theorem horizLine_full (rw : RleWorker) (x y area n : Int) (haa : rw.antiAlias = false)
    (h : Full rw) : Full (_horizLine rw x y area n) := by
  unfold _horizLine
  dsimp only []
  rw [haa]
  split
  · exact h
  · split
    · exact h
    · split
      · exact emitSpan_full rw _ _ n h
      · exact h

theorem if_horizLine_full (p : Prop) [Decidable p] (rw : RleWorker) (x y area n : Int)
    (haa : rw.antiAlias = false) (h : Full rw) :
    Full (if p then _horizLine rw x y area n else rw) ∧
    (if p then _horizLine rw x y area n else rw).antiAlias = false := by
  refine ⟨?_, (strip_aa (if_horizLine_strip p rw x y area n)).trans haa⟩
  split
  · exact horizLine_full rw x y area n haa h
  · exact h

theorem sweepCell_full (y : Int) (rw : RleWorker) (cell : Cell) (cover x : Int)
    (haa : rw.antiAlias = false) (h : Full rw) : Full (sweepCell y rw cell cover x) := by
  unfold sweepCell
  dsimp only []
  obtain ⟨h1, h2⟩ := if_horizLine_full (cell.x > x ∧ cover ≠ 0) rw x y (cover * (ONE_PIXEL * 2))
    (cell.x - x) haa h
  exact (if_horizLine_full _ _ cell.x y _ 1 h2 h1).1

theorem sweepCells_full (y : Int) (rw : RleWorker) (row : List Cell) (cover x : Int)
    (haa : rw.antiAlias = false) (h : Full rw) : Full (sweepCells y rw row cover x).1 := by
  induction row generalizing rw cover x with
  | nil => exact h
  | cons cell next ih =>
    unfold sweepCells
    exact ih _ _ _ ((strip_aa (sweepCell_strip y rw cell cover x)).trans haa)
      (sweepCell_full y rw cell cover x haa h)

theorem sweepRow_full (rw : RleWorker) (y : Int) (row : List Cell)
    (haa : rw.antiAlias = false) (h : Full rw) : Full (sweepRow rw y row) := by
  unfold sweepRow
  dsimp only []
  exact (if_horizLine_full _ _ _ y _ _ ((strip_aa (sweepCells_strip y rw row 0 0)).trans haa)
    (sweepCells_full y rw row 0 0 haa h)).1

theorem sweepRows_full (rw : RleWorker) (y : Int) (rows : List (List Cell))
    (haa : rw.antiAlias = false) (h : Full rw) : Full (sweepRows rw y rows) := by
  induction rows generalizing rw y with
  | nil => exact h
  | cons row rows ih =>
    unfold sweepRows
    exact ih _ _ ((strip_aa (sweepRow_strip rw y row)).trans haa) (sweepRow_full rw y row haa h)

/-- Without anti-aliasing the sweep of a band adds spans of coverage 255 only. -/
theorem sweep_full (rw : RleWorker) (haa : rw.antiAlias = false)
    (h : ∀ s ∈ rw.rle.spans, s.coverage = 255) :
    ∀ s ∈ (_sweep rw).rle.spans, s.coverage = 255 := by
  by_cases h0 : rw.cellsCnt = 0
  · have e : _sweep rw = rw := by unfold _sweep; rw [if_pos h0]
    rw [e]; exact h
  · rw [sweep_spans rw h0]
    exact sweepRows_full { rw with spans := [], ySpan := 0 } 0 rw.yCells haa
      (fun s hs => h s (by simpa using hs))

/-- Every span of an RLE that `rleRender` returns without anti-aliasing (for any band
size) has coverage 255. -/
theorem rleRenderBand_full (bandSize : Int) (rle : Option SwRleData) (o : SwOutline)
    (bbox vp : SwBBox) (r : SwRleData)
    (hrle : ∀ r0, rle = some r0 → r0.spans = [])
    (h : rleRenderBand bandSize rle o bbox vp false = some (some r)) :
    ∀ s ∈ r.spans, s.coverage = 255 := by
  obtain ⟨rwF, hr, rfl⟩ := rleRenderBand_some _ _ _ _ _ _ _ h
  refine render_invariant_plain (fun rle => ∀ s ∈ rle.spans, s.coverage = 255)
    bandSize rle o bbox vp false rwF ?_ ?_ hr
  · intro rwPrev rw0 rw band hc hs hg hq
    obtain ⟨_, hrle1, hcfg, _, _, _⟩ := swept_worker_facts _ _ _ _ hs hg
    have haa : rw.antiAlias = false := by
      have := congrArg RunConfig.antiAlias (hcfg.trans hc)
      exact this
    exact sweep_full rw haa (by rw [hrle1]; exact hq)
  · intro s hs
    cases rle with
    | none => cases hs
    | some r0 =>
      rw [Option.getD_some, hrle r0 rfl] at hs
      cases hs

/-- Two runs of `rleRender` that differ in the anti-alias flag end the same way, and on
a viewport at most 65535 pixels wide their spans cover the same pixels. -/
theorem rleRenderBand_pixels (bandSize : Int) (rle : Option SwRleData) (o : SwOutline)
    (bbox vp : SwBBox) (aaA aaN : Bool)
    (hrle : ∀ r0, rle = some r0 → r0.spans = []) (hw : vp.max.x - vp.min.x ≤ 65535) :
    LoopRel (fun a n => PixRel ⟨vp.max.x - vp.min.x, vp.max.y - vp.min.y⟩ a.rle n.rle)
      (renderWorker bandSize rle o bbox vp aaA) (renderWorker bandSize rle o bbox vp aaN) := by
  apply render_twin
  · intro aPrev a0 a nPrev band hc _ _ hs hg hR
    obtain ⟨hinv, hrle1, hcfg, _, _, _⟩ := swept_worker_facts _ _ _ _ hs hg
    have hclip : a.clip = ⟨vp.max.x - vp.min.x, vp.max.y - vp.min.y⟩ := by
      have := congrArg RunConfig.clip (hcfg.trans hc)
      exact this
    have := sweep_rel a (withOut nPrev a) rfl hinv (by rw [hclip]; exact hw)
      (by rw [hclip, hrle1]; exact hR)
    rw [hclip] at this
    exact this
  · have he : (rle.getD ⟨[], 0⟩).spans = [] := by
      cases rle with
      | none => rfl
      | some r0 => rw [Option.getD_some, hrle r0 rfl]
    refine ⟨?_, ?_, fun x y => Iff.rfl⟩ <;> intro s hs <;> rw [he] at hs <;> cases hs

end ThorVG

namespace ThorVG

/-! ## What `_recordCell` and `_setCell` do -/

theorem findInRow_old (x : Int) (row : List Cell) (h : (findInRow x row).2.2 = false) :
    (findInRow x row).1 = row := by
  induction row with
  | nil => simp [findInRow] at h
  | cons cell next ih =>
    unfold findInRow at h ⊢
    by_cases h1 : cell.x > x
    · rw [if_pos h1] at h; cases h
    · rw [if_neg h1] at h ⊢
      by_cases h2 : cell.x = x
      · rw [if_pos h2]
      · rw [if_neg h2] at h ⊢
        dsimp only [] at h ⊢
        rw [ih h]

theorem modifyAt_getElem? {α : Type} (f : α → α) (n : Nat) (l : List α) (m : Nat) :
    (modifyAt f n l)[m]? = if m = n then (l[m]?).map f else l[m]? := by
  induction l generalizing n m with
  | nil => cases n <;> simp [modifyAt]
  | cons a l ih =>
    cases n with
    | zero =>
      cases m with
      | zero => simp [modifyAt]
      | succ m => simp [modifyAt]
    | succ n =>
      cases m with
      | zero => simp [modifyAt]
      | succ m =>
        simp only [modifyAt, List.getElem?_cons_succ, ih]
        simp

theorem modifyAt_eq_set {α : Type} (f : α → α) (n : Nat) (l : List α) (a : α)
    (h : l[n]? = some a) : modifyAt f n l = l.set n (f a) := by
  apply List.ext_getElem?
  intro m
  rw [modifyAt_getElem?, List.getElem?_set]
  by_cases hm : m = n
  · subst hm
    have hl : m < l.length := by
      rcases Nat.lt_or_ge m l.length with h1 | h1
      · exact h1
      · rw [List.getElem?_eq_none h1] at h; cases h
    simp [h, hl]
  · rw [if_neg hm, if_neg (fun h => hm h.symm)]

theorem set_set {α : Type} (n : Nat) (l : List α) (a b : α) : (l.set n a).set n b = l.set n b := by
  apply List.ext_getElem?
  intro m
  simp only [List.getElem?_set, List.length_set]
  by_cases hm : n = m
  · simp [hm]
  · simp [hm]

/-- The result of `_recordCell` when the current cell has gathered something and its
scanline list is `row`. -/
theorem recordCell_eq (rw : RleWorker) (row : List Cell) (hnz : rw.area ≠ 0 ∨ rw.cover ≠ 0)
    (hy : 0 ≤ rw.cellPos.y) (hrow : rw.yCells[rw.cellPos.y.toNat]? = some row) :
    _recordCell rw =
      if (findInRow (findX rw) row).2.2 = true ∧ rw.cellsCnt ≥ rw.maxCells then
        .error (.overflow rw)
      else .ok (recorded rw row) := by
  have hlen : rw.cellPos.y.toNat < rw.yCells.length := by
    rcases Nat.lt_or_ge rw.cellPos.y.toNat rw.yCells.length with h1 | h1
    · exact h1
    · rw [List.getElem?_eq_none h1] at hrow; cases hrow
  unfold _recordCell _findCell
  rw [if_pos hnz, if_neg (by omega), hrow]
  dsimp only []
  have hx : (if rw.cellPos.x > rw.cellXCnt then rw.cellXCnt else rw.cellPos.x) = findX rw := rfl
  rw [hx]
  by_cases hnew : (findInRow (findX rw) row).2.2 = true
  · rw [if_pos hnew]
    by_cases hov : rw.cellsCnt ≥ rw.maxCells
    · rw [if_pos hov, if_pos ⟨hnew, hov⟩]
    · rw [if_neg hov, if_neg (fun h => hov h.2)]
      dsimp only []
      unfold recorded recordedRow
      rw [if_pos hnew]
      congr 2
      have hg : (rw.yCells.set rw.cellPos.y.toNat (findInRow (findX rw) row).1)[rw.cellPos.y.toNat]?
          = some (findInRow (findX rw) row).1 := by
        rw [List.getElem?_set]
        simp [hlen]
      rw [modifyAt_eq_set _ _ _ _ hg, set_set]
  · rw [if_neg hnew, if_neg (fun h => hnew h.1)]
    dsimp only []
    unfold recorded recordedRow
    rw [if_neg hnew]
    have hold := findInRow_old _ _ (by simpa using hnew)
    congr 2
    rw [modifyAt_eq_set _ _ _ _ hrow, hold]

/-- What a successful `_recordCell` did. -/
theorem recordCell_ok (rw rw1 : RleWorker) (hnz : rw.area ≠ 0 ∨ rw.cover ≠ 0)
    (h : _recordCell rw = .ok rw1) :
    0 ≤ rw.cellPos.y ∧ ∃ row, rw.yCells[rw.cellPos.y.toNat]? = some row ∧
      ((findInRow (findX rw) row).2.2 = true → rw.cellsCnt < rw.maxCells) ∧
      rw1 = recorded rw row := by
  have hy : 0 ≤ rw.cellPos.y := by
    by_contra hneg
    unfold _recordCell _findCell at h
    rw [if_pos hnz, if_pos (by omega)] at h
    cases h
  refine ⟨hy, ?_⟩
  cases hrow : rw.yCells[rw.cellPos.y.toNat]? with
  | none =>
    unfold _recordCell _findCell at h
    rw [if_pos hnz, if_neg (by omega), hrow] at h
    cases h
  | some row =>
    rw [recordCell_eq rw row hnz hy hrow] at h
    refine ⟨row, rfl, ?_⟩
    by_cases hc : (findInRow (findX rw) row).2.2 = true ∧ rw.cellsCnt ≥ rw.maxCells
    · rw [if_pos hc] at h; cases h
    · rw [if_neg hc] at h
      simp only [Except.ok.injEq] at h
      exact ⟨fun hn => by
        by_contra hlt
        exact hc ⟨hn, by omega⟩, h.symm⟩

/-! ## The relation is kept by the steps of the cell functions -/

theorem frame_fields {a b : RleWorker} (h : frameOf a = frameOf b) :
    a.cellMin = b.cellMin ∧ a.cellMax = b.cellMax ∧ a.cellXCnt = b.cellXCnt ∧
    a.cellYCnt = b.cellYCnt ∧ a.maxCells = b.maxCells ∧ a.outline = b.outline := by
  have h1 := congrArg WorkerFrame.cellMin h
  have h2 := congrArg WorkerFrame.cellMax h
  have h3 := congrArg WorkerFrame.cellXCnt h
  have h4 := congrArg WorkerFrame.cellYCnt h
  have h5 := congrArg WorkerFrame.maxCells h
  have h6 := congrArg WorkerFrame.outline h
  exact ⟨h1, h2, h3, h4, h5, h6⟩

theorem Geo.of_frames {b s b1 s1 : RleWorker} (h : Geo b s)
    (hb : frameOf b1 = frameOf b) (hbl : b1.yCells.length = b.yCells.length)
    (hs : frameOf s1 = frameOf s) (hsl : s1.yCells.length = s.yCells.length) : Geo b1 s1 := by
  obtain ⟨b1', b2, b3, b4, b5, b6⟩ := frame_fields hb
  obtain ⟨s1', s2, s3, s4, s5, s6⟩ := frame_fields hs
  unfold Geo at h ⊢
  rw [b1', b2, b3, b4, b5, b6, s1', s2, s3, s4, s5, s6, hbl, hsl]
  exact h

theorem bandOff_frames {b s b1 s1 : RleWorker} (hb : frameOf b1 = frameOf b)
    (hs : frameOf s1 = frameOf s) : bandOff b1 s1 = bandOff b s := by
  unfold bandOff
  rw [(frame_fields hb).1, (frame_fields hs).1]

theorem recorded_frame (rw : RleWorker) (row : List Cell) :
    frameOf (recorded rw row) = frameOf rw := rfl

theorem recorded_length (rw : RleWorker) (row : List Cell) :
    (recorded rw row).yCells.length = rw.yCells.length := by
  simp [recorded]

theorem findInRow_nil (x : Int) : (findInRow x []).2.2 = true := rfl

theorem recorded_cellsCnt (rw : RleWorker) (row : List Cell) :
    (recorded rw row).cellsCnt =
      if (findInRow (findX rw) row).2.2 = true then rw.cellsCnt + 1 else rw.cellsCnt := rfl

theorem getElem?_set_lt {α : Type} (l : List α) (n m : Nat) (a : α) (h : n < l.length) :
    (l.set n a)[m]? = if m = n then some a else l[m]? := by
  rw [List.getElem?_set]
  by_cases hm : n = m
  · subst hm; simp [h]
  · rw [if_neg hm, if_neg (fun e => hm e.symm)]

/-- Recording a cell keeps the cell count right. -/
theorem recorded_counted (rw : RleWorker) (row : List Cell) (h : Counted rw)
    (hrow : rw.yCells[rw.cellPos.y.toNat]? = some row) : Counted (recorded rw row) := by
  obtain ⟨h0, hz⟩ := h
  by_cases hnew : (findInRow (findX rw) row).2.2 = true
  · have hc : (recorded rw row).cellsCnt = rw.cellsCnt + 1 := by
      rw [recorded_cellsCnt, if_pos hnew]
    refine ⟨by omega, fun he => ?_⟩
    exfalso
    omega
  · have hc : (recorded rw row).cellsCnt = rw.cellsCnt := by
      rw [recorded_cellsCnt, if_neg hnew]
    refine ⟨by rw [hc]; exact h0, fun he => ?_⟩
    exfalso
    rw [hc] at he
    have := hz he row (List.getElem?_mem hrow)
    subst this
    exact hnew (findInRow_nil _)

/-- A cell that both workers record goes into the same scanline list of both. -/
theorem recordCell_sim (b s b1 : RleWorker) (h : SimR b s) (hon : CurOn b s)
    (hb : _recordCell b = .ok b1) :
    ∃ s1, _recordCell s = .ok s1 ∧ SimR b1 s1 ∧ CurOn b1 s1 ∧
      frameOf s1 = frameOf s ∧ s1.pos = s.pos ∧ b1.pos = b.pos := by
  obtain ⟨hgeo, hrows, hcnt, hctd⟩ := h
  obtain ⟨c1, c2, c3, c4, c5, c6, c7⟩ := hon
  by_cases hnz : b.area ≠ 0 ∨ b.cover ≠ 0
  · obtain ⟨hy, row, hrow, hnew, rfl⟩ := recordCell_ok b b1 hnz hb
    obtain ⟨g1, g2, g3, g4, g5, g6, g7, g8, g9, g10, g11, g12, g13, g14⟩ := hgeo
    have hlenb : b.cellPos.y.toNat < b.yCells.length := by
      rcases Nat.lt_or_ge b.cellPos.y.toNat b.yCells.length with h1 | h1
      · exact h1
      · rw [List.getElem?_eq_none h1] at hrow; cases hrow
    have hoff : bandOff b s = s.cellMin.y - b.cellMin.y := rfl
    have hys : 0 ≤ s.cellPos.y ∧ s.cellPos.y < s.cellYCnt := by
      simp only [toU32] at c7
      omega
    have hidx : s.cellPos.y.toNat + (bandOff b s).toNat = b.cellPos.y.toNat := by omega
    have hrows1 : s.yCells[s.cellPos.y.toNat]? = some row := by
      rw [hrows _ (by omega), hidx]; exact hrow
    have hfx : findX s = findX b := by
      unfold findX; rw [c3, g4]
    have hrr : recordedRow s row = recordedRow b row := by
      unfold recordedRow; rw [hfx, c5, c6]
    refine ⟨recorded s row, ?_, ⟨?_, ?_, ?_, ?_⟩, ?_, rfl, rfl, rfl⟩
    · rw [recordCell_eq s row (by rw [c5, c6]; exact hnz) hys.1 hrows1, if_neg]
      rintro ⟨hn, hov⟩
      rw [hfx] at hn
      have := hnew hn
      omega
    · exact Geo.of_frames ⟨g1, g2, g3, g4, g5, g6, g7, g8, g9, g10, g11, g12, g13, g14⟩
        (recorded_frame b row) (recorded_length b row) (recorded_frame s row) (recorded_length s row)
    · intro i hi
      rw [recorded_length] at hi
      have hbo : bandOff (recorded b row) (recorded s row) = bandOff b s := rfl
      rw [hbo]
      show (s.yCells.set s.cellPos.y.toNat (recordedRow s row))[i]? =
        (b.yCells.set b.cellPos.y.toNat (recordedRow b row))[i + (bandOff b s).toNat]?
      rw [getElem?_set_lt _ _ _ _ (by omega), getElem?_set_lt _ _ _ _ hlenb, hrr]
      by_cases hi2 : i = s.cellPos.y.toNat
      · rw [if_pos hi2, if_pos (by omega)]
      · rw [if_neg hi2, if_neg (by omega)]
        exact hrows i hi
    · rw [recorded_cellsCnt, recorded_cellsCnt, hfx]
      split_ifs <;> omega
    · exact recorded_counted b row hctd hrow
    · exact ⟨c1, c2, c3, c4, c5, c6, c7⟩
  · have hz : b.area = 0 ∧ b.cover = 0 := by
      constructor <;> by_contra hne <;> exact hnz (by simp [hne])
    rw [recordCell_zero b hz.1 hz.2] at hb
    simp only [Except.ok.injEq] at hb
    subst hb
    exact ⟨s, recordCell_zero s (by rw [c5]; exact hz.1) (by rw [c6]; exact hz.2),
      ⟨hgeo, hrows, hcnt, hctd⟩, ⟨c1, c2, c3, c4, c5, c6, c7⟩, rfl, rfl, rfl⟩

/-- A cell that only `b` records, on a scanline outside the band of `s`, leaves the
scanline lists of the band of `s` alone. -/
theorem recordCell_off (b s b1 : RleWorker) (h : SimR b s) (hout : ¬ RowIn b s b.cellPos.y)
    (hb : _recordCell b = .ok b1) :
    SimR b1 s ∧ frameOf b1 = frameOf b ∧ b1.yCells.length = b.yCells.length ∧
      b1.pos = b.pos := by
  obtain ⟨hgeo, hrows, hcnt, hctd⟩ := h
  by_cases hnz : b.area ≠ 0 ∨ b.cover ≠ 0
  · obtain ⟨hy, row, hrow, hnew, rfl⟩ := recordCell_ok b b1 hnz hb
    have hlenb : b.cellPos.y.toNat < b.yCells.length := by
      rcases Nat.lt_or_ge b.cellPos.y.toNat b.yCells.length with h1 | h1
      · exact h1
      · rw [List.getElem?_eq_none h1] at hrow; cases hrow
    refine ⟨⟨?_, ?_, ?_, ?_⟩, rfl, recorded_length b row, rfl⟩
    · exact Geo.of_frames hgeo (recorded_frame b row) (recorded_length b row) rfl rfl
    · obtain ⟨g1, g2, g3, g4, g5, g6, g7, g8, g9, g10, g11, g12, g13, g14⟩ := hgeo
      intro i hi
      have hbo : bandOff (recorded b row) s = bandOff b s := rfl
      rw [hbo]
      show s.yCells[i]? = (b.yCells.set b.cellPos.y.toNat (recordedRow b row))[i + (bandOff b s).toNat]?
      rw [getElem?_set_lt _ _ _ _ hlenb, if_neg]
      · exact hrows i hi
      · unfold RowIn at hout
        have hoff : bandOff b s = s.cellMin.y - b.cellMin.y := rfl
        omega
    · rw [recorded_cellsCnt]
      split_ifs <;> omega
    · exact recorded_counted b row hctd hrow
  · have hz : b.area = 0 ∧ b.cover = 0 := by
      constructor <;> by_contra hne <;> exact hnz (by simp [hne])
    rw [recordCell_zero b hz.1 hz.2] at hb
    simp only [Except.ok.injEq] at hb
    subst hb
    exact ⟨⟨hgeo, hrows, hcnt, hctd⟩, rfl, rfl, rfl⟩

theorem recordCell_off_frame (b b1 : RleWorker) (hb : _recordCell b = .ok b1) :
    frameOf b1 = frameOf b := by
  by_cases hnz : b.area ≠ 0 ∨ b.cover ≠ 0
  · obtain ⟨_, row, _, _, rfl⟩ := recordCell_ok b b1 hnz hb
    rfl
  · have hz : b.area = 0 ∧ b.cover = 0 := by
      constructor <;> by_contra hne <;> exact hnz (by simp [hne])
    rw [recordCell_zero b hz.1 hz.2] at hb
    simp only [Except.ok.injEq] at hb
    rw [← hb]

/-- What a successful `_setCell` did: it recorded the current cell when it counts and
the new cell is another, and then moved to the new cell. -/
theorem setCell_ok (rw rw1 : RleWorker) (e : SwPoint) (h : _setCell rw e = .ok rw1) :
    ∃ rw0, rw1 = enterCell rw0 (cellOf rw e) ∧
      ((cellOf rw e ≠ rw.cellPos ∧ rw.invalid = false ∧ _recordCell rw = .ok rw0) ∨
       (¬ (cellOf rw e ≠ rw.cellPos ∧ rw.invalid = false) ∧ rw0 = rw)) := by
  unfold _setCell at h
  dsimp only [] at h
  by_cases h1 : cellOf rw e ≠ rw.cellPos
  · rw [if_pos h1] at h
    cases hv : rw.invalid with
    | true =>
      rw [hv] at h
      simp only [Bool.not_true, Bool.false_eq_true, if_false, Except.ok.injEq] at h
      exact ⟨rw, h.symm, Or.inr ⟨fun hc => by simp [hv] at hc, rfl⟩⟩
    | false =>
      rw [hv] at h
      simp only [Bool.not_false, if_true] at h
      cases hr : _recordCell rw with
      | error e1 => rw [hr] at h; cases h
      | ok rw0 =>
        rw [hr] at h
        simp only [Except.ok.injEq] at h
        exact ⟨rw0, h.symm, Or.inl ⟨h1, rfl, rfl⟩⟩
  · rw [if_neg h1] at h
    simp only [Except.ok.injEq] at h
    exact ⟨rw, h.symm, Or.inr ⟨fun hc => h1 hc.1, rfl⟩⟩

theorem setCell_of_record (rw rw0 : RleWorker) (e : SwPoint) (h1 : cellOf rw e ≠ rw.cellPos)
    (h2 : rw.invalid = false) (h3 : _recordCell rw = .ok rw0) :
    _setCell rw e = .ok (enterCell rw0 (cellOf rw e)) := by
  unfold _setCell
  dsimp only []
  rw [if_pos h1, h2]
  simp only [Bool.not_false, if_true]
  rw [h3]

theorem setCell_of_stay (rw : RleWorker) (e : SwPoint)
    (h : ¬ (cellOf rw e ≠ rw.cellPos ∧ rw.invalid = false)) :
    _setCell rw e = .ok (enterCell rw (cellOf rw e)) := by
  unfold _setCell
  dsimp only []
  by_cases h1 : cellOf rw e ≠ rw.cellPos
  · rw [if_pos h1]
    have hv : rw.invalid = true := by
      cases hv : rw.invalid with
      | true => rfl
      | false => exact absurd ⟨h1, hv⟩ h
    rw [hv]
    rfl
  · rw [if_neg h1]

theorem cellOf_geo (b s : RleWorker) (e : SwPoint) (h : Geo b s) :
    (cellOf s e).x = (cellOf b e).x ∧ (cellOf s e).y + bandOff b s = (cellOf b e).y := by
  obtain ⟨g1, g2, g3, g4, g5, g6, g7, g8, g9, g10, g11, g12, g13, g14⟩ := h
  unfold cellOf bandOff
  dsimp only []
  rw [g2, g3]
  constructor
  · split_ifs <;> rfl
  · split_ifs <;> dsimp only [] <;> omega

/-- Moving both workers to the cell of the same pixel relates their current cells. -/
theorem enterCell_sim (b s : RleWorker) (e : SwPoint) (h : SimR b s) :
    SimC (enterCell b (cellOf b e)) (enterCell s (cellOf s e)) := by
  refine ⟨h, ?_⟩
  obtain ⟨hgeo, _, _, _⟩ := h
  obtain ⟨hx, hy⟩ := cellOf_geo b s e hgeo
  obtain ⟨g1, g2, g3, g4, g5, g6, g7, g8, g9, g10, g11, g12, g13, g14⟩ := hgeo
  have hoff : bandOff b s = s.cellMin.y - b.cellMin.y := rfl
  have hsinv : (enterCell s (cellOf s e)).invalid =
      decide (toU32 (cellOf s e).y ≥ toU32 s.cellYCnt ∨ (cellOf s e).x ≥ s.cellXCnt) := rfl
  have hbinv : (enterCell b (cellOf b e)).invalid =
      decide (toU32 (cellOf b e).y ≥ toU32 b.cellYCnt ∨ (cellOf b e).x ≥ b.cellXCnt) := rfl
  by_cases hv : toU32 (cellOf s e).y ≥ toU32 s.cellYCnt ∨ (cellOf s e).x ≥ s.cellXCnt
  · left
    refine ⟨by rw [hsinv]; exact decide_eq_true hv, ?_⟩
    by_cases hvb : toU32 (cellOf b e).y ≥ toU32 b.cellYCnt ∨ (cellOf b e).x ≥ b.cellXCnt
    · left; rw [hbinv]; exact decide_eq_true hvb
    · right
      show ¬ (bandOff b s ≤ (cellOf b e).y ∧ (cellOf b e).y < bandOff b s + s.cellYCnt)
      simp only [toU32] at hv hvb
      omega
  · right
    have hvb : ¬ (toU32 (cellOf b e).y ≥ toU32 b.cellYCnt ∨ (cellOf b e).x ≥ b.cellXCnt) := by
      simp only [toU32] at hv ⊢
      omega
    refine ⟨by rw [hsinv]; exact decide_eq_false hv, by rw [hbinv]; exact decide_eq_false hvb,
      hx, hy, rfl, rfl, ?_⟩
    show toU32 (cellOf s e).y < toU32 s.cellYCnt
    omega

/-- A move of `b` alone to a cell outside the band of `s`, while the current cell of `s`
does not count. -/
theorem enterCell_off (b s : RleWorker) (p : SwPoint) (h : SimR b s) (hs : s.invalid = true)
    (hout : ¬ RowIn b s p.y) : SimR (enterCell b p) s ∧ CurOff (enterCell b p) s :=
  ⟨h, hs, Or.inr hout⟩

theorem enterCell_frame (rw : RleWorker) (p : SwPoint) : frameOf (enterCell rw p) = frameOf rw := rfl

/-- The relation is kept when both workers run `_setCell` for the same pixel. -/
theorem setCell_sim (b s b1 : RleWorker) (e : SwPoint) (h : SimC b s)
    (hb : _setCell b e = .ok b1) :
    ∃ s1, _setCell s e = .ok s1 ∧ SimC b1 s1 ∧ s1.pos = s.pos ∧ b1.pos = b.pos ∧
      s1.cellPos = cellOf s e := by
  obtain ⟨hR, hcur⟩ := h
  obtain ⟨hx, hy⟩ := cellOf_geo b s e hR.1
  obtain ⟨b0, rfl, hcase⟩ := setCell_ok b _ e hb
  rcases hcur with ⟨hs, hbo⟩ | hon
  · -- the current cell of `s` does not count
    have hstay : ¬ (cellOf s e ≠ s.cellPos ∧ s.invalid = false) := by
      rintro ⟨_, h2⟩; rw [hs] at h2; cases h2
    refine ⟨enterCell s (cellOf s e), setCell_of_stay s e hstay, ?_, rfl, ?_, rfl⟩
    · rcases hcase with ⟨_, hv, hrec⟩ | ⟨_, rfl⟩
      · have hout : ¬ RowIn b s b.cellPos.y := by
          rcases hbo with h1 | h1
          · rw [hv] at h1; cases h1
          · exact h1
        obtain ⟨hR1, hf, hl, _⟩ := recordCell_off b s b0 hR hout hrec
        have hc : cellOf b e = cellOf b0 e := by
          unfold cellOf
          rw [(frame_fields hf).1, (frame_fields hf).2.1]
        rw [hc]
        exact enterCell_sim b0 s e hR1
      · exact enterCell_sim b0 s e hR
    · rcases hcase with ⟨_, hv, hrec⟩ | ⟨_, rfl⟩
      · have hout : ¬ RowIn b s b.cellPos.y := by
          rcases hbo with h1 | h1
          · rw [hv] at h1; cases h1
          · exact h1
        exact (recordCell_off b s b0 hR hout hrec).2.2.2
      · rfl
  · -- both current cells count and are the same cell
    obtain ⟨c1, c2, c3, c4, c5, c6, c7⟩ := hon
    have hmove : cellOf s e ≠ s.cellPos ↔ cellOf b e ≠ b.cellPos := by
      constructor
      · intro hne heq
        apply hne
        have e1 : (cellOf s e).x = s.cellPos.x := by rw [hx, heq, c3]
        have e2 : (cellOf s e).y = s.cellPos.y := by
          have := congrArg SwPoint.y heq
          omega
        cases hp : cellOf s e
        cases hq : s.cellPos
        rw [hp] at e1 e2
        rw [hq] at e1 e2
        simp only at e1 e2
        rw [e1, e2]
      · intro hne heq
        apply hne
        have e1 : (cellOf b e).x = b.cellPos.x := by rw [← hx, heq, c3]
        have e2 : (cellOf b e).y = b.cellPos.y := by
          have := congrArg SwPoint.y heq
          omega
        cases hp : cellOf b e
        cases hq : b.cellPos
        rw [hp] at e1 e2
        rw [hq] at e1 e2
        simp only at e1 e2
        rw [e1, e2]
    rcases hcase with ⟨hne, hv, hrec⟩ | ⟨hst, rfl⟩
    · obtain ⟨s0, hrs, hR1, _, hfs, hps, hpb⟩ :=
        recordCell_sim b s b0 hR ⟨c1, c2, c3, c4, c5, c6, c7⟩ hrec
      have hfb : frameOf b0 = frameOf b := (recordCell_off_frame b b0 hrec)
      have hcb : cellOf b e = cellOf b0 e := by
        unfold cellOf
        rw [(frame_fields hfb).1, (frame_fields hfb).2.1]
      have hcs : cellOf s e = cellOf s0 e := by
        unfold cellOf
        rw [(frame_fields hfs).1, (frame_fields hfs).2.1]
      refine ⟨enterCell s0 (cellOf s e), setCell_of_record s s0 e (hmove.mpr hne) c1 hrs, ?_,
        hps, hpb, rfl⟩
      rw [hcb, hcs]
      exact enterCell_sim b0 s0 e hR1
    · have hst2 : ¬ (cellOf s e ≠ s.cellPos ∧ s.invalid = false) := by
        rintro ⟨h1, _⟩
        exact hst ⟨hmove.mp h1, c2⟩
      exact ⟨enterCell s (cellOf s e), setCell_of_stay s e hst2, enterCell_sim b0 s e hR,
        rfl, rfl, rfl⟩

/-- A `_setCell` of `b` alone for a pixel on a scanline outside the band of `s`, while
the current cell of `s` does not count. -/
theorem setCell_off (b s b1 : RleWorker) (e : SwPoint) (h : SimR b s) (hcur : CurOff b s)
    (hout : ¬ RowIn b s (e.y - b.cellMin.y)) (hb : _setCell b e = .ok b1) :
    SimR b1 s ∧ CurOff b1 s ∧ b1.pos = b.pos ∧ frameOf b1 = frameOf b := by
  obtain ⟨hs, hbo⟩ := hcur
  obtain ⟨b0, rfl, hcase⟩ := setCell_ok b _ e hb
  have hy : (cellOf b e).y = e.y - b.cellMin.y := by
    unfold cellOf
    dsimp only []
    split_ifs <;> rfl
  rcases hcase with ⟨_, hv, hrec⟩ | ⟨_, rfl⟩
  · have hout1 : ¬ RowIn b s b.cellPos.y := by
      rcases hbo with h1 | h1
      · rw [hv] at h1; cases h1
      · exact h1
    obtain ⟨hR1, hf, _, hp⟩ := recordCell_off b s b0 h hout1 hrec
    exact ⟨hR1, ⟨hs, Or.inr (by
      show ¬ RowIn b0 s (cellOf b e).y
      rw [hy]
      have : bandOff b0 s = bandOff b s := bandOff_frames hf rfl
      unfold RowIn at hout ⊢
      rw [this]
      exact hout)⟩, hp, hf⟩
  · exact ⟨h, ⟨hs, Or.inr (by
      show ¬ RowIn b0 s (cellOf b0 e).y
      rw [hy]; exact hout)⟩, rfl, rfl⟩

theorem addEdge_sim (b s : RleWorker) (f1 f2 : SwPoint) (h : SimC b s) :
    SimC (addEdge b f1 f2) (addEdge s f1 f2) := by
  obtain ⟨hR, hcur⟩ := h
  refine ⟨hR, ?_⟩
  rcases hcur with hoff | ⟨c1, c2, c3, c4, c5, c6, c7⟩
  · exact Or.inl hoff
  · right
    refine ⟨c1, c2, c3, c4, ?_, ?_, c7⟩
    · show s.area + _ = b.area + _
      rw [c5]
    · show s.cover + _ = b.cover + _
      rw [c6]

theorem addVertical_sim (b s : RleWorker) (f1 : SwPoint) (f2y : Int) (h : SimC b s) :
    SimC (addVertical b f1 f2y) (addVertical s f1 f2y) := by
  obtain ⟨hR, hcur⟩ := h
  refine ⟨hR, ?_⟩
  rcases hcur with hoff | ⟨c1, c2, c3, c4, c5, c6, c7⟩
  · exact Or.inl hoff
  · right
    refine ⟨c1, c2, c3, c4, ?_, ?_, c7⟩
    · show s.area + _ = b.area + _
      rw [c5]
    · show s.cover + _ = b.cover + _
      rw [c6]

/-- The guarded `_recordCell` of `_moveTo` and `_genRle` on both workers. -/
theorem recordIf_sim (b s b1 : RleWorker) (h : SimC b s)
    (hb : (if !b.invalid then _recordCell b else .ok b) = .ok b1) :
    ∃ s1, (if !s.invalid then _recordCell s else .ok s) = .ok s1 ∧ SimR b1 s1 ∧
      frameOf s1 = frameOf s ∧ frameOf b1 = frameOf b := by
  obtain ⟨hR, hcur⟩ := h
  rcases hcur with ⟨hs, hbo⟩ | hon
  · refine ⟨s, by rw [hs]; rfl, ?_, rfl, ?_⟩
    · cases hv : b.invalid with
      | true =>
        rw [hv] at hb
        simp only [Bool.not_true, Bool.false_eq_true, if_false, Except.ok.injEq] at hb
        rw [← hb]; exact hR
      | false =>
        rw [hv] at hb
        simp only [Bool.not_false, if_true] at hb
        have hout : ¬ RowIn b s b.cellPos.y := by
          rcases hbo with h1 | h1
          · rw [hv] at h1; cases h1
          · exact h1
        exact (recordCell_off b s b1 hR hout hb).1
    · cases hv : b.invalid with
      | true =>
        rw [hv] at hb
        simp only [Bool.not_true, Bool.false_eq_true, if_false, Except.ok.injEq] at hb
        rw [← hb]
      | false =>
        rw [hv] at hb
        simp only [Bool.not_false, if_true] at hb
        exact recordCell_off_frame b b1 hb
  · have c1 := hon.1
    have c2 := hon.2.1
    rw [c2] at hb
    simp only [Bool.not_false, if_true] at hb
    obtain ⟨s1, hrs, hR1, _, hfs, _, _⟩ := recordCell_sim b s b1 hR hon hb
    refine ⟨s1, by rw [c1]; simpa using hrs, hR1, hfs, recordCell_off_frame b b1 hb⟩

end ThorVG

namespace ThorVG

/-! ## The edge scanner on a band and on a part of it -/

theorem setCell_frame (rw rw1 : RleWorker) (e : SwPoint) (h : _setCell rw e = .ok rw1) :
    frameOf rw1 = frameOf rw := by
  have := setCell_sound rw e
  rw [h] at this
  exact this.1

theorem cellOf_y (rw : RleWorker) (e : SwPoint) : (cellOf rw e).y = e.y - rw.cellMin.y := by
  unfold cellOf
  dsimp only []
  split_ifs <;> rfl

/-- The relation is kept by `_setCell` on both workers; the new current cell of `s`
lies on the scanline of the pixel. -/
theorem setCell_step (b s b1 : RleWorker) (e : SwPoint) (h : SimC b s)
    (hb : _setCell b e = .ok b1) :
    ∃ s1, _setCell s e = .ok s1 ∧ SimC b1 s1 ∧ s1.pos = s.pos ∧ b1.pos = b.pos ∧
      s1.cellPos.y = e.y - s.cellMin.y ∧ frameOf s1 = frameOf s ∧ frameOf b1 = frameOf b := by
  obtain ⟨s1, hs1, hsim, hp1, hp2, hc⟩ := setCell_sim b s b1 e h hb
  exact ⟨s1, hs1, hsim, hp1, hp2, by rw [hc, cellOf_y], setCell_frame s s1 e hs1,
    setCell_frame b b1 e hb⟩

theorem lineUp_sim (e2y : Int) (fuel : Nat) (b s : RleWorker) (e1 f1 : SwPoint) (b1 : RleWorker)
    (g : SwPoint) (h : SimC b s) (hb : lineUp e2y fuel b e1 f1 = .ok (b1, g)) :
    ∃ s1, lineUp e2y fuel s e1 f1 = .ok (s1, g) ∧ SimC b1 s1 ∧ s1.pos = s.pos ∧ b1.pos = b.pos ∧
      s1.cellPos.y = e2y - s.cellMin.y ∧ frameOf s1 = frameOf s ∧ frameOf b1 = frameOf b := by
  induction fuel generalizing b s e1 f1 with
  | zero => cases hb
  | succ n ih =>
    rw [lineUp_succ] at hb ⊢
    cases hsb : _setCell (addVertical b f1 ONE_PIXEL) ⟨e1.x, e1.y + 1⟩ with
    | error e => rw [hsb] at hb; cases hb
    | ok b0 =>
      rw [hsb] at hb
      dsimp only [] at hb
      obtain ⟨s0, hss, hsim0, hp1, hp2, hc, hfs, hfb⟩ :=
        setCell_step _ _ b0 _ (addVertical_sim b s f1 ONE_PIXEL h) hsb
      rw [hss]
      dsimp only []
      by_cases hne : e1.y + 1 ≠ e2y
      · rw [if_pos hne] at hb ⊢
        obtain ⟨s1, hs1, hsim1, q1, q2, q3, q4, q5⟩ := ih b0 s0 _ _ hsim0 hb
        refine ⟨s1, hs1, hsim1, q1.trans hp1, q2.trans hp2, ?_, q4.trans hfs, q5.trans hfb⟩
        rw [q3, (frame_fields hfs).1]
        rfl
      · rw [if_neg hne] at hb ⊢
        simp only [Except.ok.injEq, Prod.mk.injEq] at hb
        obtain ⟨rfl, rfl⟩ := hb
        refine ⟨s0, rfl, hsim0, hp1, hp2, ?_, hfs, hfb⟩
        rw [hc]
        have : e1.y + 1 = e2y := by omega
        show e1.y + 1 - _ = _
        rw [this]
        rfl

theorem lineDown_sim (e2y : Int) (fuel : Nat) (b s : RleWorker) (e1 f1 : SwPoint) (b1 : RleWorker)
    (g : SwPoint) (h : SimC b s) (hb : lineDown e2y fuel b e1 f1 = .ok (b1, g)) :
    ∃ s1, lineDown e2y fuel s e1 f1 = .ok (s1, g) ∧ SimC b1 s1 ∧ s1.pos = s.pos ∧
      b1.pos = b.pos ∧
      s1.cellPos.y = e2y - s.cellMin.y ∧ frameOf s1 = frameOf s ∧ frameOf b1 = frameOf b := by
  induction fuel generalizing b s e1 f1 with
  | zero => cases hb
  | succ n ih =>
    rw [lineDown_succ] at hb ⊢
    cases hsb : _setCell (addVertical b f1 0) ⟨e1.x, e1.y - 1⟩ with
    | error e => rw [hsb] at hb; cases hb
    | ok b0 =>
      rw [hsb] at hb
      dsimp only [] at hb
      obtain ⟨s0, hss, hsim0, hp1, hp2, hc, hfs, hfb⟩ :=
        setCell_step _ _ b0 _ (addVertical_sim b s f1 0 h) hsb
      rw [hss]
      dsimp only []
      by_cases hne : e1.y - 1 ≠ e2y
      · rw [if_pos hne] at hb ⊢
        obtain ⟨s1, hs1, hsim1, q1, q2, q3, q4, q5⟩ := ih b0 s0 _ _ hsim0 hb
        refine ⟨s1, hs1, hsim1, q1.trans hp1, q2.trans hp2, ?_, q4.trans hfs, q5.trans hfb⟩
        rw [q3, (frame_fields hfs).1]
        rfl
      · rw [if_neg hne] at hb ⊢
        simp only [Except.ok.injEq, Prod.mk.injEq] at hb
        obtain ⟨rfl, rfl⟩ := hb
        refine ⟨s0, rfl, hsim0, hp1, hp2, ?_, hfs, hfb⟩
        rw [hc]
        have : e1.y - 1 = e2y := by omega
        show e1.y - 1 - _ = _
        rw [this]
        rfl

theorem lineWalk_sim (diff e2 : SwPoint) (dx_r dy_r : Int) (fuel : Nat) (b s : RleWorker)
    (e1 f1 : SwPoint) (prod : Int) (b1 : RleWorker) (g : SwPoint) (h : SimC b s)
    (hb : lineWalk diff e2 dx_r dy_r fuel b e1 f1 prod = .ok (b1, g)) :
    ∃ s1, lineWalk diff e2 dx_r dy_r fuel s e1 f1 prod = .ok (s1, g) ∧ SimC b1 s1 ∧
      s1.pos = s.pos ∧ b1.pos = b.pos ∧
      s1.cellPos.y = e2.y - s.cellMin.y ∧ frameOf s1 = frameOf s ∧ frameOf b1 = frameOf b := by
  induction fuel generalizing b s e1 f1 prod with
  | zero => cases hb
  | succ n ih =>
    rw [lineWalk_succ] at hb ⊢
    generalize walkStep diff dx_r dy_r e1 prod = step at hb ⊢
    cases hsb : _setCell (addEdge b f1 step.1) step.2.1 with
    | error e => rw [hsb] at hb; cases hb
    | ok b0 =>
      rw [hsb] at hb
      dsimp only [] at hb
      obtain ⟨s0, hss, hsim0, hp1, hp2, hc, hfs, hfb⟩ :=
        setCell_step _ _ b0 _ (addEdge_sim b s f1 step.1 h) hsb
      rw [hss]
      dsimp only []
      by_cases hne : step.2.1 ≠ e2
      · rw [if_pos hne] at hb ⊢
        obtain ⟨s1, hs1, hsim1, q1, q2, q3, q4, q5⟩ := ih b0 s0 _ _ _ hsim0 hb
        refine ⟨s1, hs1, hsim1, q1.trans hp1, q2.trans hp2, ?_, q4.trans hfs, q5.trans hfb⟩
        rw [q3, (frame_fields hfs).1]
        rfl
      · rw [if_neg hne] at hb ⊢
        simp only [Except.ok.injEq, Prod.mk.injEq] at hb
        obtain ⟨rfl, rfl⟩ := hb
        refine ⟨s0, rfl, hsim0, hp1, hp2, ?_, hfs, hfb⟩
        rw [hc]
        have : step.2.1 = e2 := by
          by_contra hx; exact hne hx
        rw [this]
        rfl

/-! ### The walk of `b` alone, outside the band of `s` -/

/-- The scanline `r` (in pixels) lies above or below the band of `s`, on the side of
the scanline `r0`. -/
theorem rowIn_abs (b s : RleWorker) (h : Geo b s) (r : Int) :
    RowIn b s (r - b.cellMin.y) ↔ s.cellMin.y ≤ r ∧ r < s.cellMax.y := by
  obtain ⟨g1, g2, g3, g4, g5, g6, g7, g8, g9, g10, g11, g12, g13, g14⟩ := h
  unfold RowIn bandOff
  constructor <;> intro ⟨h1, h2⟩ <;> constructor <;> omega

theorem addVertical_off (b s : RleWorker) (f1 : SwPoint) (f2y : Int) (h : SimR b s)
    (hcur : CurOff b s) : SimR (addVertical b f1 f2y) s ∧ CurOff (addVertical b f1 f2y) s :=
  ⟨h, hcur⟩

theorem addEdge_off (b s : RleWorker) (f1 f2 : SwPoint) (h : SimR b s)
    (hcur : CurOff b s) : SimR (addEdge b f1 f2) s ∧ CurOff (addEdge b f1 f2) s :=
  ⟨h, hcur⟩

theorem lineUp_off (e2y : Int) (fuel : Nat) (b s : RleWorker) (e1 f1 : SwPoint) (b1 : RleWorker)
    (g : SwPoint) (h : SimR b s) (hcur : CurOff b s)
    (hside : (e1.y ≥ s.cellMax.y ∧ e2y ≥ s.cellMax.y) ∨ (e1.y < s.cellMin.y ∧ e2y < s.cellMin.y))
    (hfuel : (fuel : Int) ≤ e2y - e1.y)
    (hb : lineUp e2y fuel b e1 f1 = .ok (b1, g)) :
    SimR b1 s ∧ CurOff b1 s ∧ b1.pos = b.pos ∧ frameOf b1 = frameOf b := by
  induction fuel generalizing b e1 f1 with
  | zero => cases hb
  | succ n ih =>
    rw [lineUp_succ] at hb
    cases hsb : _setCell (addVertical b f1 ONE_PIXEL) ⟨e1.x, e1.y + 1⟩ with
    | error e => rw [hsb] at hb; cases hb
    | ok b0 =>
      rw [hsb] at hb
      dsimp only [] at hb
      obtain ⟨h0, hc0⟩ := addVertical_off b s f1 ONE_PIXEL h hcur
      have hout : ¬ RowIn (addVertical b f1 ONE_PIXEL) s
          ((⟨e1.x, e1.y + 1⟩ : SwPoint).y - (addVertical b f1 ONE_PIXEL).cellMin.y) := by
        rw [rowIn_abs _ _ h0.1]
        dsimp only []
        push_cast at hfuel
        omega
      obtain ⟨h1, hc1, hp1, hf1⟩ := setCell_off _ s b0 _ h0 hc0 hout hsb
      by_cases hne : e1.y + 1 ≠ e2y
      · rw [if_pos hne] at hb
        obtain ⟨q1, q2, q3, q4⟩ := ih b0 _ _ h1 hc1
          (by dsimp only []; push_cast at hfuel; omega) (by dsimp only []; push_cast at hfuel; omega) hb
        exact ⟨q1, q2, q3.trans hp1, q4.trans hf1⟩
      · rw [if_neg hne] at hb
        simp only [Except.ok.injEq, Prod.mk.injEq] at hb
        obtain ⟨rfl, rfl⟩ := hb
        exact ⟨h1, hc1, hp1, hf1⟩

theorem lineDown_off (e2y : Int) (fuel : Nat) (b s : RleWorker) (e1 f1 : SwPoint)
    (b1 : RleWorker) (g : SwPoint) (h : SimR b s) (hcur : CurOff b s)
    (hside : (e1.y ≥ s.cellMax.y ∧ e2y ≥ s.cellMax.y) ∨ (e1.y < s.cellMin.y ∧ e2y < s.cellMin.y))
    (hfuel : (fuel : Int) ≤ e1.y - e2y)
    (hb : lineDown e2y fuel b e1 f1 = .ok (b1, g)) :
    SimR b1 s ∧ CurOff b1 s ∧ b1.pos = b.pos ∧ frameOf b1 = frameOf b := by
  induction fuel generalizing b e1 f1 with
  | zero => cases hb
  | succ n ih =>
    rw [lineDown_succ] at hb
    cases hsb : _setCell (addVertical b f1 0) ⟨e1.x, e1.y - 1⟩ with
    | error e => rw [hsb] at hb; cases hb
    | ok b0 =>
      rw [hsb] at hb
      dsimp only [] at hb
      obtain ⟨h0, hc0⟩ := addVertical_off b s f1 0 h hcur
      have hout : ¬ RowIn (addVertical b f1 0) s
          ((⟨e1.x, e1.y - 1⟩ : SwPoint).y - (addVertical b f1 0).cellMin.y) := by
        rw [rowIn_abs _ _ h0.1]
        dsimp only []
        push_cast at hfuel
        omega
      obtain ⟨h1, hc1, hp1, hf1⟩ := setCell_off _ s b0 _ h0 hc0 hout hsb
      by_cases hne : e1.y - 1 ≠ e2y
      · rw [if_pos hne] at hb
        obtain ⟨q1, q2, q3, q4⟩ := ih b0 _ _ h1 hc1
          (by dsimp only []; push_cast at hfuel; omega) (by dsimp only []; push_cast at hfuel; omega) hb
        exact ⟨q1, q2, q3.trans hp1, q4.trans hf1⟩
      · rw [if_neg hne] at hb
        simp only [Except.ok.injEq, Prod.mk.injEq] at hb
        obtain ⟨rfl, rfl⟩ := hb
        exact ⟨h1, hc1, hp1, hf1⟩

/-- One turn of the general loop of `_lineTo` moves to one of the four cells next to `e1`. -/
theorem walkStep_unit (diff : SwPoint) (dx_r dy_r : Int) (e1 : SwPoint) (prod : Int) :
    ((walkStep diff dx_r dy_r e1 prod).2.1.x = e1.x - 1 ∧
      (walkStep diff dx_r dy_r e1 prod).2.1.y = e1.y) ∨
    ((walkStep diff dx_r dy_r e1 prod).2.1.x = e1.x ∧
      (walkStep diff dx_r dy_r e1 prod).2.1.y = e1.y + 1) ∨
    ((walkStep diff dx_r dy_r e1 prod).2.1.x = e1.x + 1 ∧
      (walkStep diff dx_r dy_r e1 prod).2.1.y = e1.y) ∨
    ((walkStep diff dx_r dy_r e1 prod).2.1.x = e1.x ∧
      (walkStep diff dx_r dy_r e1 prod).2.1.y = e1.y - 1) := by
  unfold walkStep
  dsimp only []
  split_ifs
  · left; exact ⟨rfl, rfl⟩
  · right; left; exact ⟨rfl, rfl⟩
  · right; right; left; exact ⟨rfl, rfl⟩
  · right; right; right; exact ⟨rfl, rfl⟩

/-- A walk that ends within its fuel started no farther from `e2` than its fuel. -/
theorem lineWalk_dist (diff e2 : SwPoint) (dx_r dy_r : Int) (fuel : Nat) (rw : RleWorker)
    (e1 f1 : SwPoint) (prod : Int) (r : RleWorker × SwPoint)
    (h : lineWalk diff e2 dx_r dy_r fuel rw e1 f1 prod = .ok r) :
    (e2.x - e1.x).natAbs + (e2.y - e1.y).natAbs ≤ fuel := by
  induction fuel generalizing rw e1 f1 prod with
  | zero => cases h
  | succ n ih =>
    rw [lineWalk_succ] at h
    have hu := walkStep_unit diff dx_r dy_r e1 prod
    revert h hu
    generalize walkStep diff dx_r dy_r e1 prod = step
    intro h hu
    cases hsb : _setCell (addEdge rw f1 step.1) step.2.1 with
    | error e => rw [hsb] at h; cases h
    | ok b0 =>
      rw [hsb] at h
      dsimp only [] at h
      by_cases hne : step.2.1 ≠ e2
      · rw [if_pos hne] at h
        have := ih _ _ _ _ h
        omega
      · have he : step.2.1 = e2 := by
          by_contra hx; exact hne hx
        rw [← he]
        omega

theorem lineWalk_off (diff e2 : SwPoint) (dx_r dy_r : Int) (fuel : Nat) (b s : RleWorker)
    (e1 f1 : SwPoint) (prod : Int) (b1 : RleWorker) (g : SwPoint) (h : SimR b s)
    (hcur : CurOff b s)
    (hside : (e1.y ≥ s.cellMax.y ∧ e2.y ≥ s.cellMax.y) ∨ (e1.y < s.cellMin.y ∧ e2.y < s.cellMin.y))
    (hfuel : fuel ≤ (e2.x - e1.x).natAbs + (e2.y - e1.y).natAbs)
    (hb : lineWalk diff e2 dx_r dy_r fuel b e1 f1 prod = .ok (b1, g)) :
    SimR b1 s ∧ CurOff b1 s ∧ b1.pos = b.pos ∧ frameOf b1 = frameOf b := by
  induction fuel generalizing b e1 f1 prod with
  | zero => cases hb
  | succ n ih =>
    rw [lineWalk_succ] at hb
    have hu := walkStep_unit diff dx_r dy_r e1 prod
    revert hb hu
    generalize walkStep diff dx_r dy_r e1 prod = step
    intro hb hu
    cases hsb : _setCell (addEdge b f1 step.1) step.2.1 with
    | error e => rw [hsb] at hb; cases hb
    | ok b0 =>
      rw [hsb] at hb
      dsimp only [] at hb
      obtain ⟨h0, hc0⟩ := addEdge_off b s f1 step.1 h hcur
      have hnear : (e2.x - step.2.1.x).natAbs + (e2.y - step.2.1.y).natAbs ≤ n := by
        by_cases hne : step.2.1 ≠ e2
        · rw [if_pos hne] at hb
          exact lineWalk_dist _ _ _ _ _ _ _ _ _ _ hb
        · have he : step.2.1 = e2 := by
            by_contra hx; exact hne hx
          rw [he]
          simp
      have hrow : (step.2.1.y ≥ s.cellMax.y ∧ e2.y ≥ s.cellMax.y) ∨
          (step.2.1.y < s.cellMin.y ∧ e2.y < s.cellMin.y) := by omega
      have hout : ¬ RowIn (addEdge b f1 step.1) s (step.2.1.y - (addEdge b f1 step.1).cellMin.y) := by
        rw [rowIn_abs _ _ h0.1]
        have hg6 := h.1.2.2.2.2.2.1
        omega
      obtain ⟨h1, hc1, hp1, hf1⟩ := setCell_off _ s b0 _ h0 hc0 hout hsb
      by_cases hne : step.2.1 ≠ e2
      · rw [if_pos hne] at hb
        obtain ⟨q1, q2, q3, q4⟩ := ih b0 _ _ _ h1 hc1 hrow (by omega) hb
        exact ⟨q1, q2, q3.trans hp1, q4.trans hf1⟩
      · rw [if_neg hne] at hb
        simp only [Except.ok.injEq, Prod.mk.injEq] at hb
        obtain ⟨rfl, rfl⟩ := hb
        exact ⟨h1, hc1, hp1, hf1⟩

/-- The walk of `lineScan` on both workers. -/
theorem lineScan_sim (b s : RleWorker) (dst : SwPoint) (b1 : RleWorker) (g : SwPoint)
    (h : SimC b s) (hp : s.pos = b.pos) (hb : lineScan b dst = .ok (b1, g)) :
    ∃ s1, lineScan s dst = .ok (s1, g) ∧ SimC b1 s1 ∧ s1.pos = b.pos ∧ b1.pos = b.pos ∧
      frameOf s1 = frameOf s ∧ frameOf b1 = frameOf b ∧
      ((TRUNCpt b.pos = TRUNCpt dst ∧ s1 = s) ∨ s1.cellPos.y = (TRUNCpt dst).y - s.cellMin.y) := by
  unfold lineScan at hb ⊢
  dsimp only [] at hb ⊢
  rw [hp]
  by_cases h1 : TRUNCpt b.pos = TRUNCpt dst
  · rw [if_pos h1] at hb ⊢
    simp only [Except.ok.injEq, Prod.mk.injEq] at hb
    obtain ⟨rfl, rfl⟩ := hb
    exact ⟨s, rfl, h, hp, rfl, rfl, rfl, Or.inl ⟨h1, rfl⟩⟩
  rw [if_neg h1] at hb ⊢
  by_cases h2 : (dst - b.pos).y = 0
  · rw [if_pos h2] at hb ⊢
    cases hsb : _setCell b ⟨(TRUNCpt dst).x, (TRUNCpt b.pos).y⟩ with
    | error e => rw [hsb] at hb; cases hb
    | ok b0 =>
      rw [hsb] at hb
      simp only [Except.ok.injEq, Prod.mk.injEq] at hb
      obtain ⟨rfl, rfl⟩ := hb
      obtain ⟨s0, hss, hsim0, hp1, hp2, hc, hfs, hfb⟩ := setCell_step _ _ b0 _ h hsb
      rw [hss]
      refine ⟨s0, rfl, hsim0, hp1.trans hp, hp2, hfs, hfb, Or.inr ?_⟩
      rw [hc]
      have hy : dst.y = b.pos.y := by
        have : (dst - b.pos).y = dst.y - b.pos.y := rfl
        omega
      show (TRUNCpt b.pos).y - _ = (TRUNCpt dst).y - _
      simp only [TRUNCpt, hy]
  rw [if_neg h2] at hb ⊢
  by_cases h3 : (dst - b.pos).x = 0
  · rw [if_pos h3] at hb ⊢
    by_cases h4 : (dst - b.pos).y > 0
    · rw [if_pos h4] at hb ⊢
      obtain ⟨s1, hs1, hsim1, q1, q2, q3, q4, q5⟩ := lineUp_sim _ _ b s _ _ b1 g h hb
      exact ⟨s1, hs1, hsim1, q1.trans hp, q2, q4, q5, Or.inr q3⟩
    · rw [if_neg h4] at hb ⊢
      obtain ⟨s1, hs1, hsim1, q1, q2, q3, q4, q5⟩ := lineDown_sim _ _ b s _ _ b1 g h hb
      exact ⟨s1, hs1, hsim1, q1.trans hp, q2, q4, q5, Or.inr q3⟩
  rw [if_neg h3] at hb ⊢
  obtain ⟨s1, hs1, hsim1, q1, q2, q3, q4, q5⟩ := lineWalk_sim _ _ _ _ _ b s _ _ _ b1 g h hb
  exact ⟨s1, hs1, hsim1, q1.trans hp, q2, q4, q5, Or.inr q3⟩

theorem TRUNC_mono (a c : Int) (h : a ≤ c) : shr a PIXEL_BITS ≤ shr c PIXEL_BITS := by
  simp only [shr, PIXEL_BITS]
  omega

/-- The walk of `lineScan` on `b` alone, between two scanlines on the same side of the
band of `s`. -/
theorem lineScan_off (b s : RleWorker) (dst : SwPoint) (b1 : RleWorker) (g : SwPoint)
    (h : SimR b s) (hcur : CurOff b s)
    (hside : ((TRUNCpt b.pos).y ≥ s.cellMax.y ∧ (TRUNCpt dst).y ≥ s.cellMax.y) ∨
      ((TRUNCpt b.pos).y < s.cellMin.y ∧ (TRUNCpt dst).y < s.cellMin.y))
    (hb : lineScan b dst = .ok (b1, g)) :
    SimR b1 s ∧ CurOff b1 s ∧ b1.pos = b.pos ∧ frameOf b1 = frameOf b := by
  unfold lineScan at hb
  dsimp only [] at hb
  by_cases h1 : TRUNCpt b.pos = TRUNCpt dst
  · rw [if_pos h1] at hb
    simp only [Except.ok.injEq, Prod.mk.injEq] at hb
    obtain ⟨rfl, rfl⟩ := hb
    exact ⟨h, hcur, rfl, rfl⟩
  rw [if_neg h1] at hb
  by_cases h2 : (dst - b.pos).y = 0
  · rw [if_pos h2] at hb
    cases hsb : _setCell b ⟨(TRUNCpt dst).x, (TRUNCpt b.pos).y⟩ with
    | error e => rw [hsb] at hb; cases hb
    | ok b0 =>
      rw [hsb] at hb
      simp only [Except.ok.injEq, Prod.mk.injEq] at hb
      obtain ⟨rfl, rfl⟩ := hb
      have hout : ¬ RowIn b s ((⟨(TRUNCpt dst).x, (TRUNCpt b.pos).y⟩ : SwPoint).y - b.cellMin.y) := by
        rw [rowIn_abs _ _ h.1]
        have hg6 := h.1.2.2.2.2.2.1
        dsimp only []
        omega
      exact setCell_off _ s b0 _ h hcur hout hsb
  rw [if_neg h2] at hb
  have hdy : (dst - b.pos).y = dst.y - b.pos.y := rfl
  have hdx : (dst - b.pos).x = dst.x - b.pos.x := rfl
  by_cases h3 : (dst - b.pos).x = 0
  · rw [if_pos h3] at hb
    by_cases h4 : (dst - b.pos).y > 0
    · rw [if_pos h4] at hb
      have hm := TRUNC_mono b.pos.y dst.y (by omega)
      exact lineUp_off _ _ b s _ _ b1 g h hcur hside
        (by show (((TRUNCpt dst).y - (TRUNCpt b.pos).y).toNat : Int) ≤ _
            have : (TRUNCpt dst).y = shr dst.y PIXEL_BITS := rfl
            have : (TRUNCpt b.pos).y = shr b.pos.y PIXEL_BITS := rfl
            omega) hb
    · rw [if_neg h4] at hb
      have hm := TRUNC_mono dst.y b.pos.y (by omega)
      exact lineDown_off _ _ b s _ _ b1 g h hcur hside
        (by show (((TRUNCpt b.pos).y - (TRUNCpt dst).y).toNat : Int) ≤ _
            have : (TRUNCpt dst).y = shr dst.y PIXEL_BITS := rfl
            have : (TRUNCpt b.pos).y = shr b.pos.y PIXEL_BITS := rfl
            omega) hb
  rw [if_neg h3] at hb
  exact lineWalk_off _ _ _ _ _ b s _ _ _ b1 g h hcur hside (le_refl _) hb

/-! ### `_lineTo` -/

/-- When the current point lies on a scanline outside the band of `s`, the current cell
of `s` does not count. -/
theorem sim_off_of_outside (b s : RleWorker) (h : Sim b s)
    (hout : (TRUNCpt s.pos).y ≥ s.cellMax.y ∨ (TRUNCpt s.pos).y < s.cellMin.y) :
    CurOff b s := by
  obtain ⟨⟨hR, hcur⟩, hp, htr, hpos⟩ := h
  rcases hcur with hoff | ⟨c1, c2, c3, c4, c5, c6, c7⟩
  · exact hoff
  · exfalso
    have ht := htr c1
    obtain ⟨g1, g2, g3, g4, g5, g6, g7, g8, g9, g10, g11, g12, g13, g14⟩ := hR.1
    have hy : (TRUNCpt s.pos).y = b.pos.y / 256 := by
      rw [hp]; simp [TRUNCpt, shr, PIXEL_BITS]
    unfold PosOk at hpos
    simp only [toU32] at c7
    omega

theorem lineSkipped_sub (b s : RleWorker) (dst : SwPoint) (hg : Geo b s) (hp : s.pos = b.pos)
    (h : lineSkipped b dst) : lineSkipped s dst := by
  obtain ⟨g1, g2, g3, g4, g5, g6, g7, g8, g9, g10, g11, g12, g13, g14⟩ := hg
  unfold lineSkipped at h ⊢
  rw [hp]
  omega

/-- The relation is kept by `_lineTo`, whether both workers walk the line, both skip it,
or `s` alone skips it. -/
theorem lineTo_sim (b s : RleWorker) (dst : SwPoint) (b1 : RleWorker) (h : Sim b s)
    (hd : PosOk dst) (hb : _lineTo b dst = .ok b1) :
    ∃ s1, _lineTo s dst = .ok s1 ∧ Sim b1 s1 ∧ b1.pos = dst ∧
      frameOf s1 = frameOf s ∧ frameOf b1 = frameOf b := by
  have hp := h.2.1
  have hgeo := h.1.1.1
  unfold _lineTo at hb ⊢
  by_cases hkb : lineSkipped b dst
  · -- both skip
    have hks := lineSkipped_sub b s dst hgeo hp hkb
    rw [if_pos hkb] at hb
    rw [if_pos hks]
    simp only [Except.ok.injEq] at hb
    subst hb
    have hoff := sim_off_of_outside b s h (by unfold lineSkipped at hks; omega)
    refine ⟨{ s with pos := dst }, rfl, ⟨⟨h.1.1, Or.inl hoff⟩, rfl, ?_, hd⟩, rfl, rfl, rfl⟩
    intro hv
    have : s.invalid = false := hv
    rw [hoff.1] at this
    cases this
  rw [if_neg hkb] at hb
  cases hsc : lineScan b dst with
  | error e => rw [hsc] at hb; cases hb
  | ok v =>
    obtain ⟨b0, f1⟩ := v
    rw [hsc] at hb
    simp only [Except.ok.injEq] at hb
    subst hb
    by_cases hks : lineSkipped s dst
    · -- `s` alone skips
      rw [if_pos hks]
      have hoff := sim_off_of_outside b s h (by unfold lineSkipped at hks; omega)
      have hside : ((TRUNCpt b.pos).y ≥ s.cellMax.y ∧ (TRUNCpt dst).y ≥ s.cellMax.y) ∨
          ((TRUNCpt b.pos).y < s.cellMin.y ∧ (TRUNCpt dst).y < s.cellMin.y) := by
        unfold lineSkipped at hks
        rw [hp] at hks
        exact hks
      obtain ⟨q1, q2, q3, q4⟩ := lineScan_off b s dst b0 f1 h.1.1 hoff hside hsc
      refine ⟨{ s with pos := dst }, rfl, ⟨⟨q1, Or.inl q2⟩, rfl, ?_, hd⟩, rfl, rfl, q4⟩
      intro hv
      have : s.invalid = false := hv
      rw [hoff.1] at this
      cases this
    · -- both walk
      rw [if_neg hks]
      obtain ⟨s0, hs0, hsim0, q1, q2, q4, q5, q6⟩ := lineScan_sim b s dst b0 f1 h.1 hp hsc
      rw [hs0]
      refine ⟨_, rfl, ⟨addEdge_sim b0 s0 _ _ hsim0, rfl, ?_, hd⟩, rfl, q4, q5⟩
      intro hv
      have hv0 : s0.invalid = false := hv
      show s0.cellPos.y = (TRUNCpt dst).y - s0.cellMin.y
      rw [(frame_fields q4).1]
      rcases q6 with ⟨he, rfl⟩ | hc
      · have := h.2.2.1 hv0
        rw [this, hp, he]
      · exact hc

end ThorVG

namespace ThorVG

/-! ## Curves on a band and on a part of it -/

/-- A line drawn by `b` alone between two points on the same side of the band of `s`. -/
theorem lineTo_off (b s : RleWorker) (dst : SwPoint) (b1 : RleWorker) (h : SimR b s)
    (hcur : CurOff b s)
    (hside : ((TRUNCpt b.pos).y ≥ s.cellMax.y ∧ (TRUNCpt dst).y ≥ s.cellMax.y) ∨
      ((TRUNCpt b.pos).y < s.cellMin.y ∧ (TRUNCpt dst).y < s.cellMin.y))
    (hb : _lineTo b dst = .ok b1) :
    SimR b1 s ∧ CurOff b1 s ∧ b1.pos = dst ∧ frameOf b1 = frameOf b := by
  unfold _lineTo at hb
  by_cases hkb : lineSkipped b dst
  · rw [if_pos hkb] at hb
    simp only [Except.ok.injEq] at hb
    subst hb
    exact ⟨h, hcur, rfl, rfl⟩
  rw [if_neg hkb] at hb
  cases hsc : lineScan b dst with
  | error e => rw [hsc] at hb; cases hb
  | ok v =>
    obtain ⟨b0, f1⟩ := v
    rw [hsc] at hb
    simp only [Except.ok.injEq] at hb
    subst hb
    obtain ⟨q1, q2, q3, q4⟩ := lineScan_off b s dst b0 f1 h hcur hside hsc
    exact ⟨q1, q2, rfl, q4⟩

theorem tdiv2_between (a c : Int) :
    (a ≤ Int.tdiv (a + c) 2 ∧ Int.tdiv (a + c) 2 ≤ c) ∨
    (c ≤ Int.tdiv (a + c) 2 ∧ Int.tdiv (a + c) 2 ≤ a) := by
  rcases Int.lt_or_le (a + c) 0 with h | h
  · have e : Int.tdiv (a + c) 2 = -((-(a + c)) / 2) := by
      have h1 := Int.tdiv_eq_ediv (a := -(a + c)) (b := 2) (by omega) (by omega)
      have h2 : Int.tdiv (-(a + c)) 2 = -Int.tdiv (a + c) 2 := Int.neg_tdiv _ _
      omega
    rw [e]
    omega
  · rw [Int.tdiv_eq_ediv h (by omega)]
    omega

/-- Every ordinate `splitCoord` gives lies between the least and the greatest of the four
it is given. -/
theorem splitCoord_between (b0 b1 b2 b3 lo hi : Int)
    (h0 : lo ≤ b0 ∧ b0 ≤ hi) (h1 : lo ≤ b1 ∧ b1 ≤ hi) (h2 : lo ≤ b2 ∧ b2 ≤ hi)
    (h3 : lo ≤ b3 ∧ b3 ≤ hi) : ∀ v ∈ splitCoord b0 b1 b2 b3, lo ≤ v ∧ v ≤ hi := by
  unfold splitCoord
  dsimp only []
  have m1 := tdiv2_between b0 b1
  have m5 := tdiv2_between b3 b2
  have mc := tdiv2_between b1 b2
  generalize Int.tdiv (b0 + b1) 2 = n1 at *
  generalize Int.tdiv (b3 + b2) 2 = n5 at *
  generalize Int.tdiv (b1 + b2) 2 = c at *
  have m2 := tdiv2_between n1 c
  have m4 := tdiv2_between n5 c
  generalize Int.tdiv (n1 + c) 2 = n2 at *
  generalize Int.tdiv (n5 + c) 2 = n4 at *
  have mm := tdiv2_between n2 n4
  generalize Int.tdiv (n2 + n4) 2 = mid at *
  intro v hv
  simp only [List.mem_cons, List.mem_singleton, List.not_mem_nil, or_false] at hv
  rcases hv with rfl | rfl | rfl | rfl | rfl | rfl | rfl <;> omega

theorem zipWith_mk_y (xs ys : List Int) : ∀ q ∈ List.zipWith SwPoint.mk xs ys, q.y ∈ ys := by
  induction xs generalizing ys with
  | nil => intro q hq; simp at hq
  | cons x xs ih =>
    cases ys with
    | nil => intro q hq; simp at hq
    | cons y ys =>
      intro q hq
      simp only [List.zipWith_cons_cons, List.mem_cons] at hq ⊢
      rcases hq with rfl | hq
      · left; rfl
      · right; exact ih ys q hq

/-- The points `mathSplitCubic` gives have ordinates between the least and the greatest
of the four points of the arc. -/
theorem mathSplitCubic_between (a0 a1 a2 a3 : SwPoint) (lo hi : Int)
    (h0 : lo ≤ a0.y ∧ a0.y ≤ hi) (h1 : lo ≤ a1.y ∧ a1.y ≤ hi) (h2 : lo ≤ a2.y ∧ a2.y ≤ hi)
    (h3 : lo ≤ a3.y ∧ a3.y ≤ hi) : ∀ q ∈ mathSplitCubic a0 a1 a2 a3, lo ≤ q.y ∧ q.y ≤ hi := by
  intro q hq
  unfold mathSplitCubic at hq
  rw [List.mem_reverse] at hq
  exact splitCoord_between _ _ _ _ lo hi h0 h1 h2 h3 _ (zipWith_mk_y _ _ q hq)

theorem mathSplitCubic_last (a0 a1 a2 a3 : SwPoint) :
    (mathSplitCubic a0 a1 a2 a3).getLast? = some a0 := by
  cases a0
  simp [mathSplitCubic, splitCoord]

theorem split_last (a0 a1 a2 a3 : SwPoint) (below : List SwPoint) :
    (mathSplitCubic a0 a1 a2 a3 ++ below).getLast? = (a3 :: a2 :: a1 :: a0 :: below).getLast? := by
  rw [List.getLast?_append, mathSplitCubic_last]
  cases below with
  | nil => simp
  | cons x xs =>
    have e : (a3 :: a2 :: a1 :: a0 :: x :: xs) = [a3, a2, a1, a0] ++ (x :: xs) := rfl
    rw [e, List.getLast?_append]
    cases h : (x :: xs).getLast? with
    | none => simp at h
    | some v => rfl

theorem cons_last {α : Type} (a x : α) (xs : List α) :
    (a :: x :: xs).getLast? = (x :: xs).getLast? := by
  simp [List.getLast?_cons_cons]

/-- The loop of `_cubicTo` on `b` alone, for an arc on one side of the band of `s`. -/
theorem cubicLoop_off (fuel : Nat) (b s : RleWorker) (stk : List SwPoint) (b1 : RleWorker)
    (h : SimR b s) (hcur : CurOff b s)
    (hside : (s.cellMax.y * 256 ≤ b.pos.y ∧ ∀ p ∈ stk, s.cellMax.y * 256 ≤ p.y) ∨
      (b.pos.y < s.cellMin.y * 256 ∧ ∀ p ∈ stk, p.y < s.cellMin.y * 256))
    (hb : cubicLoop fuel b stk = .ok b1) :
    SimR b1 s ∧ CurOff b1 s ∧ stk.getLast? = some b1.pos ∧ frameOf b1 = frameOf b := by
  induction fuel generalizing b stk with
  | zero => unfold cubicLoop at hb; cases hb
  | succ n ih =>
    match stk with
    | a3 :: a2 :: a1 :: a0 :: below =>
      unfold cubicLoop at hb
      by_cases h1 : cubicSplit a0 a1 a2 a3 = true
      · rw [if_pos h1] at hb
        by_cases h2 : below.length + 7 > BEZ_STACK
        · rw [if_pos h2] at hb; cases hb
        · rw [if_neg h2] at hb
          have hside2 : (s.cellMax.y * 256 ≤ b.pos.y ∧
              ∀ p ∈ mathSplitCubic a0 a1 a2 a3 ++ below, s.cellMax.y * 256 ≤ p.y) ∨
              (b.pos.y < s.cellMin.y * 256 ∧
              ∀ p ∈ mathSplitCubic a0 a1 a2 a3 ++ below, p.y < s.cellMin.y * 256) := by
            have hmin : ∀ lo hi : Int, (lo ≤ a0.y ∧ a0.y ≤ hi) → (lo ≤ a1.y ∧ a1.y ≤ hi) →
                (lo ≤ a2.y ∧ a2.y ≤ hi) → (lo ≤ a3.y ∧ a3.y ≤ hi) →
                ∀ q ∈ mathSplitCubic a0 a1 a2 a3, lo ≤ q.y ∧ q.y ≤ hi :=
              fun lo hi => mathSplitCubic_between a0 a1 a2 a3 lo hi
            rcases hside with ⟨hp, hall⟩ | ⟨hp, hall⟩
            · left
              refine ⟨hp, fun p hp2 => ?_⟩
              rcases List.mem_append.mp hp2 with hq | hq
              · have m0 := hall a0 (by simp)
                have m1 := hall a1 (by simp)
                have m2 := hall a2 (by simp)
                have m3 := hall a3 (by simp)
                have := hmin (s.cellMax.y * 256) (max (max a0.y a1.y) (max a2.y a3.y))
                  ⟨m0, by omega⟩ ⟨m1, by omega⟩ ⟨m2, by omega⟩ ⟨m3, by omega⟩ p hq
                exact this.1
              · exact hall p (by simp [hq])
            · right
              refine ⟨hp, fun p hp2 => ?_⟩
              rcases List.mem_append.mp hp2 with hq | hq
              · have m0 := hall a0 (by simp)
                have m1 := hall a1 (by simp)
                have m2 := hall a2 (by simp)
                have m3 := hall a3 (by simp)
                have := hmin (min (min a0.y a1.y) (min a2.y a3.y)) (s.cellMin.y * 256 - 1)
                  ⟨by omega, by omega⟩ ⟨by omega, by omega⟩ ⟨by omega, by omega⟩
                  ⟨by omega, by omega⟩ p hq
                omega
              · exact hall p (by simp [hq])
          obtain ⟨q1, q2, q3, q4⟩ := ih b _ h hcur hside2 hb
          refine ⟨q1, q2, ?_, q4⟩
          rw [← split_last]
          exact q3
      · rw [if_neg h1] at hb
        cases hl : _lineTo b a0 with
        | error e => rw [hl] at hb; cases hb
        | ok b0 =>
          rw [hl] at hb
          dsimp only [] at hb
          have hside1 : ((TRUNCpt b.pos).y ≥ s.cellMax.y ∧ (TRUNCpt a0).y ≥ s.cellMax.y) ∨
              ((TRUNCpt b.pos).y < s.cellMin.y ∧ (TRUNCpt a0).y < s.cellMin.y) := by
            simp only [TRUNCpt, shr, PIXEL_BITS]
            rcases hside with ⟨hp, hall⟩ | ⟨hp, hall⟩
            · have := hall a0 (by simp)
              left; constructor <;> omega
            · have := hall a0 (by simp)
              right; constructor <;> omega
          obtain ⟨q1, q2, q3, q4⟩ := lineTo_off b s a0 b0 h hcur hside1 hl
          by_cases hbl : below = []
          · rw [if_pos hbl] at hb
            simp only [Except.ok.injEq] at hb
            subst hb
            subst hbl
            exact ⟨q1, q2, by simp [q3], q4⟩
          · rw [if_neg hbl] at hb
            have hside2 : (s.cellMax.y * 256 ≤ b0.pos.y ∧ ∀ p ∈ a0 :: below, s.cellMax.y * 256 ≤ p.y) ∨
                (b0.pos.y < s.cellMin.y * 256 ∧ ∀ p ∈ a0 :: below, p.y < s.cellMin.y * 256) := by
              rw [q3]
              rcases hside with ⟨hp, hall⟩ | ⟨hp, hall⟩
              · left
                exact ⟨hall a0 (by simp), fun p hp2 => hall p (by
                  simp only [List.mem_cons] at hp2 ⊢
                  tauto)⟩
              · right
                exact ⟨hall a0 (by simp), fun p hp2 => hall p (by
                  simp only [List.mem_cons] at hp2 ⊢
                  tauto)⟩
            obtain ⟨r1, r2, r3, r4⟩ := ih b0 _ q1 q2 hside2 hb
            refine ⟨r1, r2, ?_, r4.trans q4⟩
            rw [← r3]
            cases below with
            | nil => exact absurd rfl hbl
            | cons x xs => rw [cons_last, cons_last, cons_last, cons_last]
    | [] => unfold cubicLoop at hb; cases hb
    | [_] => unfold cubicLoop at hb; cases hb
    | [_, _] => unfold cubicLoop at hb; cases hb
    | [_, _, _] => unfold cubicLoop at hb; cases hb

/-- The loop of `_cubicTo` on both workers. -/
theorem cubicLoop_sim (fuel : Nat) (b s : RleWorker) (stk : List SwPoint) (b1 : RleWorker)
    (h : Sim b s) (hok : ∀ p ∈ stk, PosOk p) (hb : cubicLoop fuel b stk = .ok b1) :
    ∃ s1, cubicLoop fuel s stk = .ok s1 ∧ Sim b1 s1 ∧ stk.getLast? = some b1.pos ∧
      frameOf s1 = frameOf s ∧ frameOf b1 = frameOf b := by
  induction fuel generalizing b s stk with
  | zero => unfold cubicLoop at hb; cases hb
  | succ n ih =>
    match stk with
    | a3 :: a2 :: a1 :: a0 :: below =>
      unfold cubicLoop at hb ⊢
      by_cases h1 : cubicSplit a0 a1 a2 a3 = true
      · rw [if_pos h1] at hb ⊢
        by_cases h2 : below.length + 7 > BEZ_STACK
        · rw [if_pos h2] at hb; cases hb
        · rw [if_neg h2] at hb ⊢
          have hok2 : ∀ p ∈ mathSplitCubic a0 a1 a2 a3 ++ below, PosOk p := by
            intro p hp
            rcases List.mem_append.mp hp with hq | hq
            · have m0 := hok a0 (by simp)
              have m1 := hok a1 (by simp)
              have m2 := hok a2 (by simp)
              have m3 := hok a3 (by simp)
              unfold PosOk at m0 m1 m2 m3 ⊢
              have := mathSplitCubic_between a0 a1 a2 a3 (-8589934592) 8589934591
                ⟨by omega, by omega⟩ ⟨by omega, by omega⟩ ⟨by omega, by omega⟩
                ⟨by omega, by omega⟩ p hq
              omega
            · exact hok p (by simp [hq])
          obtain ⟨s1, q0, q1, q2, q3, q4⟩ := ih b s _ h hok2 hb
          refine ⟨s1, q0, q1, ?_, q3, q4⟩
          rw [← split_last]
          exact q2
      · rw [if_neg h1] at hb ⊢
        cases hl : _lineTo b a0 with
        | error e => rw [hl] at hb; cases hb
        | ok b0 =>
          rw [hl] at hb
          dsimp only [] at hb
          obtain ⟨s0, hs0, hsim0, hp0, hfs, hfb⟩ := lineTo_sim b s a0 b0 h (hok a0 (by simp)) hl
          rw [hs0]
          dsimp only []
          by_cases hbl : below = []
          · rw [if_pos hbl] at hb ⊢
            simp only [Except.ok.injEq] at hb
            subst hb
            subst hbl
            exact ⟨s0, rfl, hsim0, by simp [hp0], hfs, hfb⟩
          · rw [if_neg hbl] at hb ⊢
            obtain ⟨s1, r0, r1, r2, r3, r4⟩ := ih b0 s0 _ hsim0
              (fun p hp => hok p (by
                simp only [List.mem_cons] at hp ⊢
                tauto)) hb
            refine ⟨s1, r0, r1, ?_, r3.trans hfs, r4.trans hfb⟩
            rw [← r2]
            cases below with
            | nil => exact absurd rfl hbl
            | cons x xs => rw [cons_last, cons_last, cons_last, cons_last]
    | [] => unfold cubicLoop at hb; cases hb
    | [_] => unfold cubicLoop at hb; cases hb
    | [_, _] => unfold cubicLoop at hb; cases hb
    | [_, _, _] => unfold cubicLoop at hb; cases hb

theorem arcMinY_le (a0 a1 a2 a3 : SwPoint) :
    arcMinY a0 a1 a2 a3 ≤ a0.y ∧ arcMinY a0 a1 a2 a3 ≤ a1.y ∧ arcMinY a0 a1 a2 a3 ≤ a2.y ∧
    arcMinY a0 a1 a2 a3 ≤ a3.y := by
  unfold arcMinY
  dsimp only []
  split_ifs <;> omega

theorem arcMaxY_ge (a0 a1 a2 a3 : SwPoint) :
    a0.y ≤ arcMaxY a0 a1 a2 a3 ∧ a1.y ≤ arcMaxY a0 a1 a2 a3 ∧ a2.y ≤ arcMaxY a0 a1 a2 a3 ∧
    a3.y ≤ arcMaxY a0 a1 a2 a3 := by
  unfold arcMaxY
  dsimp only []
  split_ifs <;> omega

theorem arcMinY_mem (a0 a1 a2 a3 : SwPoint) :
    arcMinY a0 a1 a2 a3 = a0.y ∨ arcMinY a0 a1 a2 a3 = a1.y ∨ arcMinY a0 a1 a2 a3 = a2.y ∨
    arcMinY a0 a1 a2 a3 = a3.y := by
  unfold arcMinY
  dsimp only []
  split_ifs <;> simp

theorem arcMaxY_mem (a0 a1 a2 a3 : SwPoint) :
    arcMaxY a0 a1 a2 a3 = a0.y ∨ arcMaxY a0 a1 a2 a3 = a1.y ∨ arcMaxY a0 a1 a2 a3 = a2.y ∨
    arcMaxY a0 a1 a2 a3 = a3.y := by
  unfold arcMaxY
  dsimp only []
  split_ifs <;> simp

/-- The relation is kept by `_cubicTo`, whether both workers flatten the arc, both take
the short cut, or `s` alone takes it. -/
theorem cubicTo_sim (b s : RleWorker) (c1 c2 dst : SwPoint) (b1 : RleWorker) (h : Sim b s)
    (h1 : PosOk c1) (h2 : PosOk c2) (hd : PosOk dst)
    (hb : _cubicTo b c1 c2 dst = .ok b1) :
    ∃ s1, _cubicTo s c1 c2 dst = .ok s1 ∧ Sim b1 s1 ∧ b1.pos = dst ∧
      frameOf s1 = frameOf s ∧ frameOf b1 = frameOf b := by
  have hp := h.2.1
  have hgeo := h.1.1.1
  obtain ⟨g1, g2, g3, g4, g5, g6, g7, g8, g9, g10, g11, g12, g13, g14⟩ := hgeo
  unfold _cubicTo at hb ⊢
  have hmin := arcMinY_le dst c2 c1 b.pos
  have hmax := arcMaxY_ge dst c2 c1 b.pos
  have hT : ∀ v : Int, TRUNC v = v / 256 := fun v => by simp [TRUNC, shr, PIXEL_BITS]
  by_cases hob : arcOutside b dst c2 c1 b.pos
  · have hos : arcOutside s dst c2 c1 s.pos := by
      unfold arcOutside at hob ⊢
      rw [hp]
      omega
    rw [if_pos hob] at hb
    rw [if_pos hos]
    exact lineTo_sim b s dst b1 h hd hb
  rw [if_neg hob] at hb
  by_cases hos : arcOutside s dst c2 c1 s.pos
  · rw [if_pos hos]
    unfold arcOutside at hos
    rw [hp, hT, hT] at hos
    have hks : lineSkipped s dst := by
      unfold lineSkipped
      rw [hp]
      simp only [TRUNCpt, shr, PIXEL_BITS]
      omega
    have hoff := sim_off_of_outside b s h (by unfold lineSkipped at hks; omega)
    have hside : (s.cellMax.y * 256 ≤ b.pos.y ∧ ∀ p ∈ [b.pos, c1, c2, dst], s.cellMax.y * 256 ≤ p.y) ∨
        (b.pos.y < s.cellMin.y * 256 ∧ ∀ p ∈ [b.pos, c1, c2, dst], p.y < s.cellMin.y * 256) := by
      rcases hos with ho | ho
      · left
        refine ⟨by omega, fun p hp2 => ?_⟩
        simp only [List.mem_cons, List.mem_singleton, List.not_mem_nil, or_false] at hp2
        rcases hp2 with rfl | rfl | rfl | rfl <;> omega
      · right
        refine ⟨by omega, fun p hp2 => ?_⟩
        simp only [List.mem_cons, List.mem_singleton, List.not_mem_nil, or_false] at hp2
        rcases hp2 with rfl | rfl | rfl | rfl <;> omega
    obtain ⟨q1, q2, q3, q4⟩ := cubicLoop_off _ b s _ b1 h.1.1 hoff hside hb
    have hlast : b1.pos = dst := by
      simp at q3
      exact q3.symm
    unfold _lineTo
    rw [if_pos hks]
    refine ⟨{ s with pos := dst }, rfl, ⟨⟨q1, Or.inl q2⟩, hlast.symm, ?_, by rw [hlast]; exact hd⟩,
      hlast, rfl, q4⟩
    intro hv
    have : s.invalid = false := hv
    rw [hoff.1] at this
    cases this
  · rw [if_neg hos]
    obtain ⟨s1, q0, q1, q2, q3, q4⟩ := cubicLoop_sim _ b s _ b1 h
      (fun p hp2 => by
        simp only [List.mem_cons, List.mem_singleton, List.not_mem_nil, or_false] at hp2
        rcases hp2 with rfl | rfl | rfl | rfl
        · exact h.2.2.2
        · exact h1
        · exact h2
        · exact hd) hb
    rw [hp]
    refine ⟨s1, q0, q1, ?_, q3, q4⟩
    simp at q2
    exact q2.symm

end ThorVG

namespace ThorVG

/-! ## The outline on a band and on a part of it -/

theorem startPos_geo (b s : RleWorker) (p : SwPoint) (h : Geo b s) : startPos s p = startPos b p := by
  obtain ⟨g1, g2, g3, g4, g5, g6, g7, g8, g9, g10, g11, g12, g13, g14⟩ := h
  unfold startPos
  rw [g2, g3]

theorem startPos_y (rw : RleWorker) (p : SwPoint) : (startPos rw p).y = p.y := by
  unfold startPos
  dsimp only []
  split_ifs <;> rfl

theorem upscale_ok (o : SwOutline) (h : OutlineOk o) (i : Nat) (p : SwPoint)
    (hp : o.pts[i]? = some p) : PosOk (UPSCALE p) := by
  have := h p (List.getElem?_mem hp)
  unfold PosOk UPSCALE
  simp only [shl, PIXEL_BITS]
  omega

/-- The relation is set up by `_moveTo`, from workers whose current points need not agree. -/
theorem moveTo_sim (b s : RleWorker) (dst : SwPoint) (b1 : RleWorker) (h : SimC b s)
    (hd : PosOk dst) (hb : _moveTo b dst = .ok b1) :
    ∃ s1, _moveTo s dst = .ok s1 ∧ Sim b1 s1 ∧ frameOf s1 = frameOf s ∧ frameOf b1 = frameOf b := by
  unfold _moveTo at hb ⊢
  cases hr : (if !b.invalid then _recordCell b else .ok b) with
  | error e => rw [hr] at hb; cases hb
  | ok b0 =>
    rw [hr] at hb
    dsimp only [] at hb
    obtain ⟨s0, hs0, hR0, hfs, hfb⟩ := recordIf_sim b s b0 h hr
    rw [hs0]
    dsimp only []
    rw [startCell_eq] at hb ⊢
    simp only [Except.ok.injEq] at hb
    subst hb
    have hsp : startPos s0 (TRUNCpt dst) = startPos b0 (TRUNCpt dst) := startPos_geo b0 s0 _ hR0.1
    have hR1 : SimR (startAt b0 (startPos b0 (TRUNCpt dst))) (startAt s0 (startPos s0 (TRUNCpt dst))) :=
      hR0
    have hsim := enterCell_sim _ _ (startPos b0 (TRUNCpt dst)) hR1
    rw [hsp]
    refine ⟨_, rfl, ⟨hsim, rfl, ?_, hd⟩, hfs, hfb⟩
    intro _
    show (cellOf _ (startPos b0 (TRUNCpt dst))).y = (TRUNCpt dst).y - s0.cellMin.y
    rw [cellOf_y, startPos_y]
    rfl

theorem contourLoop_sim (o : SwOutline) (ho : OutlineOk o) (limit : Nat) (start : SwPoint)
    (hst : PosOk start) (fuel : Nat) (b s : RleWorker) (pt : Nat) (b1 : RleWorker)
    (ex : ContourExit) (h : Sim b s)
    (hb : contourLoop o limit start fuel b pt = .ok (b1, ex)) :
    ∃ s1, contourLoop o limit start fuel s pt = .ok (s1, ex) ∧ Sim b1 s1 ∧
      frameOf s1 = frameOf s ∧ frameOf b1 = frameOf b := by
  induction fuel generalizing b s pt with
  | zero => unfold contourLoop at hb; cases hb
  | succ n ih =>
    unfold contourLoop at hb ⊢
    by_cases h0 : pt < limit
    · simp only [if_pos h0] at hb ⊢
      cases ht0 : o.types[pt + 1]? with
      | none => rw [ht0] at hb; cases hb
      | some t0 =>
        cases hp0 : o.pts[pt + 1]? with
        | none => rw [ht0, hp0] at hb; cases hb
        | some p0 =>
          rw [ht0, hp0] at hb
          dsimp only [] at hb ⊢
          have hk0 := upscale_ok o ho _ _ hp0
          by_cases ht : t0 = SW_CURVE_TYPE_POINT
          · simp only [if_pos ht] at hb ⊢
            cases hl : _lineTo b (UPSCALE p0) with
            | error e => rw [hl] at hb; cases hb
            | ok b0 =>
              rw [hl] at hb
              dsimp only [] at hb
              obtain ⟨s0, hs0, hsim0, _, hfs, hfb⟩ := lineTo_sim b s _ b0 h hk0 hl
              rw [hs0]
              dsimp only []
              obtain ⟨s1, q0, q1, q2, q3⟩ := ih b0 s0 _ hsim0 hb
              exact ⟨s1, q0, q1, q2.trans hfs, q3.trans hfb⟩
          · simp only [if_neg ht] at hb ⊢
            by_cases h1 : pt + 1 + 1 > limit
            · simp only [if_pos h1] at hb ⊢
              simp only [Except.ok.injEq, Prod.mk.injEq] at hb
              obtain ⟨rfl, rfl⟩ := hb
              exact ⟨s, rfl, h, rfl, rfl⟩
            · simp only [if_neg h1] at hb ⊢
              cases ht1 : o.types[pt + 1 + 1]? with
              | none => rw [ht1] at hb; cases hb
              | some t1 =>
                cases hp1 : o.pts[pt + 1 + 1]? with
                | none => rw [ht1, hp1] at hb; cases hb
                | some p1 =>
                  rw [ht1, hp1] at hb
                  dsimp only [] at hb ⊢
                  have hk1 := upscale_ok o ho _ _ hp1
                  by_cases h2 : t1 ≠ SW_CURVE_TYPE_CUBIC
                  · simp only [if_pos h2] at hb ⊢
                    simp only [Except.ok.injEq, Prod.mk.injEq] at hb
                    obtain ⟨rfl, rfl⟩ := hb
                    exact ⟨s, rfl, h, rfl, rfl⟩
                  · simp only [if_neg h2] at hb ⊢
                    by_cases h3 : pt + 1 + 2 ≤ limit
                    · simp only [if_pos h3] at hb ⊢
                      cases hp2 : o.pts[pt + 1 + 2]? with
                      | none => rw [hp2] at hb; cases hb
                      | some p2 =>
                        rw [hp2] at hb
                        dsimp only [] at hb ⊢
                        have hk2 := upscale_ok o ho _ _ hp2
                        cases hc : _cubicTo b (UPSCALE p0) (UPSCALE p1) (UPSCALE p2) with
                        | error e => rw [hc] at hb; cases hb
                        | ok b0 =>
                          rw [hc] at hb
                          dsimp only [] at hb
                          obtain ⟨s0, hs0, hsim0, _, hfs, hfb⟩ :=
                            cubicTo_sim b s _ _ _ b0 h hk0 hk1 hk2 hc
                          rw [hs0]
                          dsimp only []
                          obtain ⟨s1, q0, q1, q2, q3⟩ := ih b0 s0 _ hsim0 hb
                          exact ⟨s1, q0, q1, q2.trans hfs, q3.trans hfb⟩
                    · simp only [if_neg h3] at hb ⊢
                      cases hc : _cubicTo b (UPSCALE p0) (UPSCALE p1) start with
                      | error e => rw [hc] at hb; cases hb
                      | ok b0 =>
                        rw [hc] at hb
                        dsimp only [] at hb
                        simp only [Except.ok.injEq, Prod.mk.injEq] at hb
                        obtain ⟨rfl, rfl⟩ := hb
                        obtain ⟨s0, hs0, hsim0, _, hfs, hfb⟩ :=
                          cubicTo_sim b s _ _ _ b0 h hk0 hk1 hst hc
                        rw [hs0]
                        exact ⟨s0, rfl, hsim0, hfs, hfb⟩
    · simp only [if_neg h0] at hb ⊢
      simp only [Except.ok.injEq, Prod.mk.injEq] at hb
      obtain ⟨rfl, rfl⟩ := hb
      exact ⟨s, rfl, h, rfl, rfl⟩

theorem decomposeContours_sim (o : SwOutline) (ho : OutlineOk o) (cs : List Nat) (first : Nat)
    (b s b1 : RleWorker) (ret : Bool) (h : SimC b s)
    (hb : decomposeContours o cs first b = .ok (b1, ret)) :
    ∃ s1, decomposeContours o cs first s = .ok (s1, ret) ∧ SimC b1 s1 ∧
      frameOf s1 = frameOf s ∧ frameOf b1 = frameOf b := by
  induction cs generalizing first b s with
  | nil =>
    unfold decomposeContours at hb ⊢
    simp only [Except.ok.injEq, Prod.mk.injEq] at hb
    obtain ⟨rfl, rfl⟩ := hb
    exact ⟨s, rfl, h, rfl, rfl⟩
  | cons last more ih =>
    unfold decomposeContours at hb ⊢
    cases hp : o.pts[first]? with
    | none => rw [hp] at hb; cases hb
    | some p =>
      cases ht : o.types[first]? with
      | none => rw [hp, ht] at hb; cases hb
      | some t =>
        rw [hp, ht] at hb
        dsimp only [] at hb ⊢
        have hk := upscale_ok o ho _ _ hp
        by_cases htc : t = SW_CURVE_TYPE_CUBIC
        · simp only [if_pos htc] at hb ⊢
          simp only [Except.ok.injEq, Prod.mk.injEq] at hb
          obtain ⟨rfl, rfl⟩ := hb
          exact ⟨s, rfl, h, rfl, rfl⟩
        · simp only [if_neg htc] at hb ⊢
          cases hm : _moveTo b (UPSCALE p) with
          | error e => rw [hm] at hb; cases hb
          | ok b0 =>
            rw [hm] at hb
            dsimp only [] at hb
            obtain ⟨s0, hs0, hsim0, hfs0, hfb0⟩ := moveTo_sim b s _ b0 h hk hm
            rw [hs0]
            dsimp only []
            cases hc : contourLoop o last (UPSCALE p) (last - first + 1) b0 first with
            | error e => rw [hc] at hb; cases hb
            | ok v =>
              obtain ⟨b2, ex⟩ := v
              rw [hc] at hb
              obtain ⟨s2, hs2, hsim2, hfs2, hfb2⟩ :=
                contourLoop_sim o ho last _ hk _ b0 s0 first b2 ex hsim0 hc
              rw [hs2]
              cases ex with
              | invalid =>
                dsimp only [] at hb ⊢
                simp only [Except.ok.injEq, Prod.mk.injEq] at hb
                obtain ⟨rfl, rfl⟩ := hb
                exact ⟨s2, rfl, hsim2.1, hfs2.trans hfs0, hfb2.trans hfb0⟩
              | close =>
                dsimp only [] at hb ⊢
                obtain ⟨s3, q0, q1, q2, q3⟩ := ih _ b2 s2 hsim2.1 hb
                exact ⟨s3, q0, q1, q2.trans (hfs2.trans hfs0), q3.trans (hfb2.trans hfb0)⟩
              | line =>
                dsimp only [] at hb ⊢
                cases hl : _lineTo b2 (UPSCALE p) with
                | error e => rw [hl] at hb; cases hb
                | ok b3 =>
                  rw [hl] at hb
                  dsimp only [] at hb
                  obtain ⟨s3, hs3, hsim3, _, hfs3, hfb3⟩ := lineTo_sim b2 s2 _ b3 hsim2 hk hl
                  rw [hs3]
                  dsimp only []
                  obtain ⟨s4, q0, q1, q2, q3⟩ := ih _ b3 s3 hsim3.1 hb
                  exact ⟨s4, q0, q1, q2.trans (hfs3.trans (hfs2.trans hfs0)),
                    q3.trans (hfb3.trans (hfb2.trans hfb0))⟩

/-- When `_genRle` runs to its end on a band, it does so on any part of the band, and
the scanline lists of the part are those the band has for the same scanlines. -/
theorem genRle_sim (b s b1 : RleWorker) (ho : OutlineOk b.outline) (h : SimC b s)
    (hb : _genRle b = some (b1, 0)) :
    ∃ s1, _genRle s = some (s1, 0) ∧ SimR b1 s1 ∧ frameOf s1 = frameOf s ∧
      frameOf b1 = frameOf b := by
  unfold _genRle _decomposeOutline at hb ⊢
  have hout : s.outline = b.outline := h.1.1.1
  rw [hout]
  cases hd : decomposeContours b.outline b.outline.cntrs 0 b with
  | error e =>
    rw [hd] at hb
    cases e with
    | overflow rw2 =>
      simp only [Option.some.injEq, Prod.mk.injEq] at hb
      omega
    | undefined => cases hb
  | ok v =>
    obtain ⟨b2, ret⟩ := v
    rw [hd] at hb
    dsimp only [] at hb
    obtain ⟨s2, hs2, hsim2, hfs2, hfb2⟩ := decomposeContours_sim _ ho _ 0 b s b2 ret h hd
    rw [hs2]
    dsimp only []
    cases hr : (if !b2.invalid then _recordCell b2 else .ok b2) with
    | error e =>
      rw [hr] at hb
      cases e with
      | overflow rw2 =>
        simp only [Option.some.injEq, Prod.mk.injEq] at hb
        omega
      | undefined => cases hb
    | ok b3 =>
      rw [hr] at hb
      simp only [Option.some.injEq, Prod.mk.injEq] at hb
      obtain ⟨rfl, hret⟩ := hb
      obtain ⟨s3, hs3, hR3, hfs3, hfb3⟩ := recordIf_sim b2 s2 b3 hsim2 hr
      rw [hs3]
      refine ⟨s3, ?_, hR3, hfs3.trans hfs2, hfb3.trans hfb2⟩
      simp only [Option.some.injEq, Prod.mk.injEq, true_and]
      exact hret

end ThorVG

namespace ThorVG

/-! ## The coverage the sweep of a band adds -/

theorem covOf_append (l1 l2 : List SwSpan) (x y c : Int) :
    covOf (l1 ++ l2) x y c ↔ covOf l1 x y c ∨ covOf l2 x y c := by
  unfold covOf
  constructor
  · rintro ⟨s, hs, hc⟩
    rcases List.mem_append.mp hs with h | h
    · exact Or.inl ⟨s, h, hc⟩
    · exact Or.inr ⟨s, h, hc⟩
  · rintro (⟨s, hs, hc⟩ | ⟨s, hs, hc⟩)
    · exact ⟨s, List.mem_append_left _ hs, hc⟩
    · exact ⟨s, List.mem_append_right _ hs, hc⟩

theorem covOf_singleton (s : SwSpan) (x y c : Int) :
    covOf [s] x y c ↔ covers s x y ∧ s.coverage = c := by
  unfold covOf
  simp

theorem covOf_nil (x y c : Int) : ¬ covOf [] x y c := by
  unfold covOf
  simp

/-- The merge branch of `_horizLine` gives the pixels of the run the coverage of the
span it lengthens. -/
theorem mergeSpan_cov (rw rw1 : RleWorker) (xc yc c0 n : Int) (hw : rw.clip.w ≤ 65535)
    (hok : OutOk rw) (hys : YSpanOk rw) (hn : 0 ≤ n)
    (hm : mergeSpan rw xc yc c0 n = some rw1) :
    ∀ x y c, covOf (outSpans rw1) x y c ↔
      covOf (outSpans rw) x y c ∨ (runPix rw.clip.w xc yc n x y ∧ c = c0) := by
  obtain ⟨span, hl, hy, hx, hc, rfl⟩ := mergeSpan_some _ _ _ _ _ _ hm
  have hsp := getLast?_split _ _ hl
  have hspan : SpanOk rw.clip span := hok span (by rw [hsp]; simp)
  obtain ⟨s1, s2, s3, s4, s5, s6, s7, s8⟩ := hspan
  have hyspan : span.y = yc := by rw [← hys span hl]; exact hy
  have hlen : toU16 (span.len + (n + clipXOver rw.clip.w xc n)) =
      span.len + (n + clipXOver rw.clip.w xc n) := by
    simp only [toU16, clipXOver]
    split_ifs <;> omega
  intro x y c
  have e1 : outSpans { rw with spans := rw.spans.dropLast ++
      [{ span with len := toU16 (span.len + (n + clipXOver rw.clip.w xc n)) }] } =
      (rw.rle.spans ++ rw.spans.dropLast) ++
      [{ span with len := toU16 (span.len + (n + clipXOver rw.clip.w xc n)) }] := by
    simp [outSpans]
  have e2 : outSpans rw = (rw.rle.spans ++ rw.spans.dropLast) ++ [span] := by
    unfold outSpans
    rw [List.append_assoc, ← hsp]
  have key : covOf [{ span with len := toU16 (span.len + (n + clipXOver rw.clip.w xc n)) }] x y c ↔
      covOf [span] x y c ∨ (runPix rw.clip.w xc yc n x y ∧ c = c0) := by
    rw [covOf_singleton, covOf_singleton]
    unfold covers runPix
    dsimp only []
    rw [hlen]
    simp only [clipXOver]
    constructor
    · rintro ⟨⟨h1, h2, h3⟩, h4⟩
      by_cases hin : x < span.x + span.len
      · exact Or.inl ⟨⟨h1, h2, hin⟩, h4⟩
      · right
        refine ⟨⟨by omega, ?_, ?_⟩, by omega⟩ <;> split_ifs at h3 ⊢ <;> omega
    · rintro (⟨⟨h1, h2, h3⟩, h4⟩ | ⟨⟨h1, h2, h3⟩, h4⟩)
      · refine ⟨⟨h1, h2, ?_⟩, h4⟩
        split_ifs <;> omega
      · refine ⟨⟨by omega, ?_, ?_⟩, by omega⟩ <;> split_ifs at h2 h3 ⊢ <;> omega
  rw [e1, e2, covOf_append (rw.rle.spans ++ rw.spans.dropLast) [span],
    covOf_append (rw.rle.spans ++ rw.spans.dropLast), key]
  exact or_assoc.symm

/-- The branch of `_horizLine` that adds a span gives the pixels of the run its coverage. -/
theorem addSpan_cov (rw : RleWorker) (xc yc c0 n : Int) (hw : rw.clip.w ≤ 65535)
    (hx : xc ≤ 32767) (hy : 0 ≤ yc ∧ yc ≤ 32767) (hc0 : 1 ≤ c0 ∧ c0 ≤ 255) :
    ∀ x y c, covOf (outSpans (addSpan (flushIfFull rw) xc yc c0 n)) x y c ↔
      covOf (outSpans rw) x y c ∨ (runPix rw.clip.w xc yc n x y ∧ c = c0) := by
  have hclip : (flushIfFull rw).clip = rw.clip := by
    have := congrArg RleWorker.clip (flushIfFull_strip rw)
    exact this
  by_cases hpos : n + clipXOver (flushIfFull rw).clip.w xc n ≤ 0
  · rw [addSpan_nonpos _ _ _ _ _ hpos]
    intro x y c
    rw [flushIfFull_out, hclip] at *
    constructor
    · exact fun h => Or.inl h
    · rintro (h | ⟨⟨_, h2, h3⟩, _⟩)
      · exact h
      · omega
  · obtain ⟨hsp, hrle, hyv⟩ := addSpan_pos (flushIfFull rw) xc yc c0 n hpos
    rw [hclip] at hpos hsp
    have hout : outSpans (addSpan (flushIfFull rw) xc yc c0 n) = outSpans rw ++
        [⟨toI16 (if xc < 0 then 0 else xc), toI16 yc, toU16 (n + clipXOver rw.clip.w xc n), toU8 c0⟩] := by
      rw [← flushIfFull_out rw]
      simp only [outSpans]
      rw [hsp, hrle, List.append_assoc]
    have e1 : toI16 yc = yc := by simp only [toI16]; omega
    have e2 : toI16 (if xc < 0 then 0 else xc) = (if xc < 0 then 0 else xc) := by
      simp only [toI16]; split_ifs <;> omega
    have e3 : toU16 (n + clipXOver rw.clip.w xc n) = n + clipXOver rw.clip.w xc n := by
      simp only [clipXOver] at hpos ⊢
      simp only [toU16]
      split_ifs at hpos ⊢ <;> omega
    have e4 : toU8 c0 = c0 := by simp only [toU8]; omega
    intro x y c
    rw [hout, covOf_append, covOf_singleton]
    apply or_congr Iff.rfl
    unfold covers runPix
    dsimp only []
    rw [e1, e2, e3, e4]
    constructor
    · rintro ⟨⟨h1, h2, h3⟩, h4⟩; exact ⟨⟨h1.symm, h2, h3⟩, h4.symm⟩
    · rintro ⟨⟨h1, h2, h3⟩, h4⟩; exact ⟨⟨h1.symm, h2, h3⟩, h4.symm⟩

theorem emitSpan_cov (rw : RleWorker) (xc yc c0 n : Int) (hw : rw.clip.w ≤ 65535)
    (hok : OutOk rw) (hys : YSpanOk rw) (hn : 0 ≤ n) (hx : xc ≤ 32767)
    (hy : 0 ≤ yc ∧ yc ≤ 32767) (hc0 : 1 ≤ c0 ∧ c0 ≤ 255) :
    ∀ x y c, covOf (outSpans (emitSpan rw xc yc c0 n)) x y c ↔
      covOf (outSpans rw) x y c ∨ (runPix rw.clip.w xc yc n x y ∧ c = c0) := by
  unfold emitSpan
  cases hm : mergeSpan rw xc yc c0 n with
  | some rw1 => exact mergeSpan_cov rw rw1 xc yc c0 n hw hok hys hn hm
  | none => exact addSpan_cov rw xc yc c0 n hw hx hy hc0

/-- The coverage a call of `_horizLine` adds, whatever the spans emitted before. -/
theorem horizLine_cov (rw : RleWorker) (x y area k : Int) (hw : rw.clip.w ≤ 65535)
    (hok : OutOk rw) (hys : YSpanOk rw) (hk : 0 ≤ k) :
    ∀ px py c, covOf (outSpans (_horizLine rw x y area k)) px py c ↔
      covOf (outSpans rw) px py c ∨ lineCovAt (configOf rw) (y + rw.cellMin.y) x area k px py c := by
  intro px py c
  unfold _horizLine lineCovAt
  dsimp only [configOf]
  by_cases h1 : y + rw.cellMin.y < 0
  · rw [if_pos h1]
    exact ⟨fun h => Or.inl h, fun h => h.elim id (fun h => by omega)⟩
  rw [if_neg h1]
  by_cases h2 : y + rw.cellMin.y ≥ rw.clip.h
  · rw [if_pos h2]
    exact ⟨fun h => Or.inl h, fun h => h.elim id (fun h => by omega)⟩
  rw [if_neg h2]
  by_cases h3 : coverageOf rw.outline.fillRule area > 0
  · rw [if_pos h3]
    have hr := coverageOf_range rw.outline.fillRule area
    rw [emitSpan_cov rw _ _ _ k hw hok hys hk (by simp only [SHRT_MAX]; split_ifs <;> omega)
      (by simp only [SHRT_MAX]; split_ifs <;> omega) (by split_ifs <;> omega) px py c]
    apply or_congr Iff.rfl
    exact ⟨fun h => ⟨by omega, by omega, h3, h.1, h.2⟩, fun h => ⟨h.2.2.2.1, h.2.2.2.2⟩⟩
  · rw [if_neg h3]
    exact ⟨fun h => Or.inl h, fun h => h.elim id (fun h => absurd h.2.2.1 h3)⟩

theorem config_of_strip {a b : RleWorker} (h : stripSpans a = stripSpans b) :
    configOf a = configOf b := by
  rw [← configOf_strip a, h, configOf_strip]

/-- A guarded call of `_horizLine`: the state it leaves and the coverage it adds. -/
theorem if_horizLine_cov (p : Prop) [Decidable p] (rw : RleWorker) (x y area k : Int)
    (hw : rw.clip.w ≤ 65535) (hok : OutOk rw) (hys : YSpanOk rw) (hk : p → 0 ≤ k) :
    (OutOk (if p then _horizLine rw x y area k else rw) ∧
      YSpanOk (if p then _horizLine rw x y area k else rw)) ∧
    ∀ px py c, covOf (outSpans (if p then _horizLine rw x y area k else rw)) px py c ↔
      covOf (outSpans rw) px py c ∨
      (p ∧ lineCovAt (configOf rw) (y + rw.cellMin.y) x area k px py c) := by
  by_cases hp : p
  · rw [if_pos hp]
    refine ⟨(horizLine_pix rw x y area k hw hok hys (hk hp)).1, fun px py c => ?_⟩
    rw [horizLine_cov rw x y area k hw hok hys (hk hp)]
    exact or_congr Iff.rfl ⟨fun h => ⟨hp, h⟩, fun h => h.2⟩
  · rw [if_neg hp]
    exact ⟨⟨hok, hys⟩, fun px py c => ⟨fun h => Or.inl h, fun h => h.elim id (fun h => absurd h.1 hp)⟩⟩

theorem sweepCell_cov (y : Int) (rw : RleWorker) (cell : Cell) (cover x : Int)
    (hw : rw.clip.w ≤ 65535) (hok : OutOk rw) (hys : YSpanOk rw) :
    (OutOk (sweepCell y rw cell cover x) ∧ YSpanOk (sweepCell y rw cell cover x)) ∧
    ∀ px py c, covOf (outSpans (sweepCell y rw cell cover x)) px py c ↔
      covOf (outSpans rw) px py c ∨
      cellCovAt (configOf rw) (y + rw.cellMin.y) cell cover x px py c := by
  unfold sweepCell
  dsimp only []
  obtain ⟨⟨i1, i2⟩, hc1⟩ := if_horizLine_cov (cell.x > x ∧ cover ≠ 0) rw x y
    (cover * (ONE_PIXEL * 2)) (cell.x - x) hw hok hys (fun hp => by omega)
  have hst := if_horizLine_strip (cell.x > x ∧ cover ≠ 0) rw x y
    (cover * (ONE_PIXEL * 2)) (cell.x - x)
  have hs := strip_fields hst
  have hcfg := config_of_strip hst
  revert hcfg
  revert hs
  revert hc1
  revert i2
  revert i1
  generalize (if cell.x > x ∧ cover ≠ 0 then
    _horizLine rw x y (cover * (ONE_PIXEL * 2)) (cell.x - x) else rw) = rw1
  intro i1 i2 hc1 hs hcfg
  obtain ⟨hinv, hc2⟩ := if_horizLine_cov
    (toI32 (cover + cell.cover) * (ONE_PIXEL * 2) - cell.area ≠ 0 ∧ cell.x ≥ 0) rw1 cell.x y
    (toI32 (cover + cell.cover) * (ONE_PIXEL * 2) - cell.area) 1 (by rw [hs.1]; exact hw) i1 i2
    (fun _ => by omega)
  refine ⟨hinv, fun px py c => ?_⟩
  rw [hc2, hc1, hcfg, hs.2.1]
  unfold cellCovAt
  constructor
  · rintro ((h | ⟨hp, h⟩) | ⟨hp, h⟩)
    · exact Or.inl h
    · exact Or.inr (Or.inl ⟨hp.1, hp.2, h⟩)
    · exact Or.inr (Or.inr ⟨hp.1, hp.2, h⟩)
  · rintro (h | ⟨h1, h2, h⟩ | ⟨h1, h2, h⟩)
    · exact Or.inl (Or.inl h)
    · exact Or.inl (Or.inr ⟨⟨h1, h2⟩, h⟩)
    · exact Or.inr ⟨⟨h1, h2⟩, h⟩

theorem sweepCells_cursorOf (y : Int) (rw : RleWorker) (row : List Cell) (cover x : Int) :
    (sweepCells y rw row cover x).2 = cursorOf row cover x := by
  induction row generalizing rw cover x with
  | nil => rfl
  | cons cell next ih =>
    unfold sweepCells cursorOf
    exact ih _ _ _

theorem sweepCells_cov (y : Int) (rw : RleWorker) (row : List Cell) (cover x : Int)
    (hw : rw.clip.w ≤ 65535) (hok : OutOk rw) (hys : YSpanOk rw) :
    (OutOk (sweepCells y rw row cover x).1 ∧ YSpanOk (sweepCells y rw row cover x).1) ∧
    ∀ px py c, covOf (outSpans (sweepCells y rw row cover x).1) px py c ↔
      covOf (outSpans rw) px py c ∨
      cellsCovAt (configOf rw) (y + rw.cellMin.y) row cover x px py c := by
  induction row generalizing rw cover x with
  | nil =>
    refine ⟨⟨hok, hys⟩, fun px py c => ?_⟩
    exact ⟨fun h => Or.inl h, fun h => h.elim id (fun h => h.elim)⟩
  | cons cell next ih =>
    unfold sweepCells
    obtain ⟨⟨i1, i2⟩, hc1⟩ := sweepCell_cov y rw cell cover x hw hok hys
    have hst := sweepCell_strip y rw cell cover x
    obtain ⟨hinv, hc2⟩ := ih (sweepCell y rw cell cover x) (toI32 (cover + cell.cover))
      (toI32 (cell.x + 1)) (by rw [(strip_fields hst).1]; exact hw) i1 i2
    refine ⟨hinv, fun px py c => ?_⟩
    rw [hc2, hc1, config_of_strip hst, (strip_fields hst).2.1]
    show _ ↔ _ ∨ (cellCovAt _ _ cell cover x px py c ∨ cellsCovAt _ _ next _ _ px py c)
    exact or_assoc

theorem sweepRow_cov (rw : RleWorker) (y : Int) (row : List Cell) (hw : rw.clip.w ≤ 65535)
    (hrow : RowOk rw.cellXCnt row) (hok : OutOk rw) (hys : YSpanOk rw) :
    (OutOk (sweepRow rw y row) ∧ YSpanOk (sweepRow rw y row)) ∧
    ∀ px py c, covOf (outSpans (sweepRow rw y row)) px py c ↔
      covOf (outSpans rw) px py c ∨ rowCovAt (configOf rw) (y + rw.cellMin.y) row px py c := by
  unfold sweepRow
  dsimp only []
  obtain ⟨⟨i1, i2⟩, hc1⟩ := sweepCells_cov y rw row 0 0 hw hok hys
  have h2 := sweepCells_cursorOf y rw row 0 0
  have hcur := sweepCells_cursor y rw rw.cellXCnt row 0 0 hrow
  have hst := sweepCells_strip y rw row 0 0
  have hs := strip_fields hst
  have hcfg := config_of_strip hst
  revert hcfg
  revert hs
  revert hcur
  revert h2
  revert hc1
  revert i2
  revert i1
  generalize sweepCells y rw row 0 0 = r
  intro i1 i2 hc1 h2 hcur hs hcfg
  obtain ⟨hinv, hc2⟩ := if_horizLine_cov (r.2.1 ≠ 0) r.1 r.2.2 y (r.2.1 * (ONE_PIXEL * 2))
    (r.1.cellXCnt - r.2.2) (by rw [hs.1]; exact hw) i1 i2 (fun hp => by
      rw [hs.2.2.1]
      rcases hcur with ⟨_, heq⟩ | ⟨_, hle⟩
      · rw [heq] at hp
        exact absurd rfl hp
      · omega)
  refine ⟨hinv, fun px py c => ?_⟩
  rw [hc2, hc1, hcfg, hs.2.1, hs.2.2.1]
  unfold rowCovAt
  rw [← h2]
  have hx : (configOf rw).cellXCnt = rw.cellXCnt := rfl
  rw [hx]
  exact or_assoc

theorem rowsCovAt_nil (cfg : RunConfig) (yAbs px py c : Int) : ¬ rowsCovAt cfg yAbs [] px py c := by
  rintro ⟨i, row, h, _⟩
  simp at h

theorem rowsCovAt_cons (cfg : RunConfig) (yAbs : Int) (row : List Cell) (rows : List (List Cell))
    (px py c : Int) :
    rowsCovAt cfg yAbs (row :: rows) px py c ↔
      rowCovAt cfg yAbs row px py c ∨ rowsCovAt cfg (yAbs + 1) rows px py c := by
  unfold rowsCovAt
  constructor
  · rintro ⟨i, r, hr, hc⟩
    cases i with
    | zero =>
      left
      simp only [List.getElem?_cons_zero, Option.some.injEq] at hr
      subst hr
      simpa using hc
    | succ i =>
      right
      simp only [List.getElem?_cons_succ] at hr
      refine ⟨i, r, hr, ?_⟩
      have e : yAbs + 1 + (i : Int) = yAbs + ((i + 1 : Nat) : Int) := by push_cast; omega
      rw [e]; exact hc
  · rintro (h | ⟨i, r, hr, hc⟩)
    · exact ⟨0, row, by simp, by simpa using h⟩
    · refine ⟨i + 1, r, by simpa using hr, ?_⟩
      have e : yAbs + 1 + (i : Int) = yAbs + ((i + 1 : Nat) : Int) := by push_cast; omega
      rw [← e]; exact hc

theorem sweepRows_cov (rw : RleWorker) (y : Int) (rows : List (List Cell))
    (hw : rw.clip.w ≤ 65535) (hrows : ∀ row ∈ rows, RowOk rw.cellXCnt row)
    (hok : OutOk rw) (hys : YSpanOk rw) :
    ∀ px py c, covOf (outSpans (sweepRows rw y rows)) px py c ↔
      covOf (outSpans rw) px py c ∨ rowsCovAt (configOf rw) (y + rw.cellMin.y) rows px py c := by
  induction rows generalizing rw y with
  | nil =>
    intro px py c
    exact ⟨fun h => Or.inl h, fun h => h.elim id (fun h => (rowsCovAt_nil _ _ _ _ _ h).elim)⟩
  | cons row rows ih =>
    unfold sweepRows
    obtain ⟨⟨i1, i2⟩, hc1⟩ := sweepRow_cov rw y row hw (hrows row (List.mem_cons_self _ _)) hok hys
    have hst := sweepRow_strip rw y row
    have hs := strip_fields hst
    have hc2 := ih (sweepRow rw y row) (y + 1) (by rw [hs.1]; exact hw)
      (by rw [hs.2.2.1]; exact fun r hr => hrows r (List.mem_cons_of_mem _ hr)) i1 i2
    intro px py c
    rw [hc2, hc1, config_of_strip hst, hs.2.1, rowsCovAt_cons]
    have e : y + 1 + rw.cellMin.y = y + rw.cellMin.y + 1 := by omega
    rw [e]
    exact or_assoc

/-- The coverage the sweep of a band adds to the RLE: that of its scanline lists, each
on its scanline. -/
theorem sweep_cov (rw : RleWorker) (hinv : CellInv rw) (hctd : Counted rw)
    (hw : rw.clip.w ≤ 65535) (h : ∀ s ∈ rw.rle.spans, SpanOk rw.clip s) :
    ∀ px py c, covOf (_sweep rw).rle.spans px py c ↔
      covOf rw.rle.spans px py c ∨ rowsCovAt (configOf rw) rw.cellMin.y rw.yCells px py c := by
  intro px py c
  by_cases h0 : rw.cellsCnt = 0
  · have e : _sweep rw = rw := by unfold _sweep; rw [if_pos h0]
    rw [e]
    refine ⟨fun h => Or.inl h, fun h => h.elim id (fun h => ?_)⟩
    exfalso
    obtain ⟨i, row, hr, hc⟩ := h
    have hnil := hctd.2 h0 row (List.getElem?_mem hr)
    subst hnil
    unfold rowCovAt at hc
    rcases hc with hc | ⟨hc, _⟩
    · exact hc
    · exact hc rfl
  · rw [sweep_spans rw h0]
    have h1 := sweepRows_cov { rw with spans := [], ySpan := 0 } 0 rw.yCells hw hinv.1
      (fun s hs => h s (by simpa using hs)) (fun s hs => by cases hs) px py c
    rw [h1]
    have e1 : outSpans { rw with spans := [], ySpan := 0 } = rw.rle.spans := by simp [outSpans]
    rw [e1]
    have e2 : (0 : Int) + rw.cellMin.y = rw.cellMin.y := by omega
    show _ ∨ rowsCovAt (configOf rw) (0 + rw.cellMin.y) rw.yCells px py c ↔ _
    rw [e2]

end ThorVG

namespace ThorVG

/-! ## An RLE in order and coalesced is determined by the coverage it gives -/

theorem covOf_cons (a : SwSpan) (l : List SwSpan) (x y c : Int) :
    covOf (a :: l) x y c ↔ (covers a x y ∧ a.coverage = c) ∨ covOf l x y c := by
  unfold covOf
  simp

/-- A span strictly after `a` in the order of an RLE covers no pixel of `a`, nor one
before the start of `a`. -/
theorem linked_head_first (a : SwSpan) (t : List SwSpan) (hlen : ∀ s ∈ a :: t, 1 ≤ s.len)
    (hch : (a :: t).Chain' Linked) (x y c : Int) (h : covOf (a :: t) x y c) :
    a.y < y ∨ (a.y = y ∧ a.x ≤ x) := by
  have hp := ordered_pairwise (a :: t) hlen (hch.imp (fun _ _ hab => hab.1))
  have hpa := (List.pairwise_cons.mp hp).1
  rcases (covOf_cons a t x y c).mp h with ⟨⟨h1, h2, _⟩, _⟩ | ⟨s, hs, ⟨h1, h2, h3⟩, _⟩
  · right; exact ⟨h1, h2⟩
  · have := hpa s hs
    omega

theorem linked_tail_disjoint (a : SwSpan) (t : List SwSpan) (hlen : ∀ s ∈ a :: t, 1 ≤ s.len)
    (hch : (a :: t).Chain' Linked) (x y c : Int) (h : covOf t x y c) : ¬ covers a x y := by
  have hp := ordered_pairwise (a :: t) hlen (hch.imp (fun _ _ hab => hab.1))
  have hpa := (List.pairwise_cons.mp hp).1
  obtain ⟨s, hs, ⟨h1, h2, h3⟩, _⟩ := h
  rintro ⟨k1, k2, k3⟩
  have := hpa s hs
  omega

/-- The pixel just after the head span `a` of an RLE does not get the coverage of `a`. -/
theorem linked_no_continue (a : SwSpan) (t : List SwSpan) (hlen : ∀ s ∈ a :: t, 1 ≤ s.len)
    (hch : (a :: t).Chain' Linked) : ¬ covOf (a :: t) (a.x + a.len) a.y a.coverage := by
  have hp := ordered_pairwise (a :: t) hlen (hch.imp (fun _ _ hab => hab.1))
  have hpa := (List.pairwise_cons.mp hp).1
  have hpt := (List.pairwise_cons.mp hp).2
  intro h
  rcases (covOf_cons a t _ _ _).mp h with ⟨⟨_, _, h3⟩, _⟩ | ⟨s, hs, ⟨h1, h2, h3⟩, h4⟩
  · omega
  · cases t with
    | nil => cases hs
    | cons a1 t1 =>
      have hl : Linked a a1 := (List.chain'_cons.mp hch).1
      have hsa := hpa s hs
      have hs1 : s = a1 := by
        rcases List.mem_cons.mp hs with h0 | h0
        · exact h0
        · exfalso
          have := (List.pairwise_cons.mp hpt).1 s h0
          have ho := hl.1
          unfold Ordered at ho
          omega
      subst hs1
      apply hl.2
      exact ⟨by omega, by omega, h4.symm⟩

theorem span_ext (a b : SwSpan) (h1 : a.x = b.x) (h2 : a.y = b.y) (h3 : a.len = b.len)
    (h4 : a.coverage = b.coverage) : a = b := by
  cases a
  cases b
  simp only at h1 h2 h3 h4
  rw [h1, h2, h3, h4]

/-- Two RLEs whose spans are in order, coalesced and at least one pixel long, and that
give every pixel the same coverage, have the same spans. -/
theorem canonical_unique (l1 l2 : List SwSpan)
    (h1 : ∀ s ∈ l1, 1 ≤ s.len) (h2 : ∀ s ∈ l2, 1 ≤ s.len)
    (c1 : l1.Chain' Linked) (c2 : l2.Chain' Linked)
    (hcov : ∀ x y c, covOf l1 x y c ↔ covOf l2 x y c) : l1 = l2 := by
  induction l1 generalizing l2 with
  | nil =>
    cases l2 with
    | nil => rfl
    | cons b t2 =>
      exfalso
      have hb := h2 b (List.mem_cons_self _ _)
      have : covOf (b :: t2) b.x b.y b.coverage :=
        ⟨b, List.mem_cons_self _ _, ⟨rfl, le_refl _, by omega⟩, rfl⟩
      exact covOf_nil _ _ _ ((hcov _ _ _).mpr this)
  | cons a t1 ih =>
    have ha := h1 a (List.mem_cons_self _ _)
    have hca : covOf (a :: t1) a.x a.y a.coverage :=
      ⟨a, List.mem_cons_self _ _, ⟨rfl, le_refl _, by omega⟩, rfl⟩
    cases l2 with
    | nil => exact absurd ((hcov _ _ _).mp hca) (covOf_nil _ _ _)
    | cons b t2 =>
      have hb := h2 b (List.mem_cons_self _ _)
      have hcb : covOf (b :: t2) b.x b.y b.coverage :=
        ⟨b, List.mem_cons_self _ _, ⟨rfl, le_refl _, by omega⟩, rfl⟩
      -- the two head spans start at the same pixel
      have f1 := linked_head_first b t2 h2 c2 _ _ _ ((hcov _ _ _).mp hca)
      have f2 := linked_head_first a t1 h1 c1 _ _ _ ((hcov _ _ _).mpr hcb)
      have hy : a.y = b.y := by omega
      have hx : a.x = b.x := by omega
      -- and have the same coverage
      have hc : a.coverage = b.coverage := by
        rcases (covOf_cons b t2 _ _ _).mp ((hcov _ _ _).mp hca) with ⟨_, h⟩ | h
        · exact h.symm
        · exfalso
          exact linked_tail_disjoint b t2 h2 c2 _ _ _ h ⟨hy.symm, by omega, by omega⟩
      -- and the same length
      have hl : a.len = b.len := by
        rcases Int.lt_trichotomy a.len b.len with hlt | heq | hgt
        · exfalso
          apply linked_no_continue a t1 h1 c1
          rw [hcov]
          exact ⟨b, List.mem_cons_self _ _, ⟨hy.symm, by omega, by omega⟩, hc.symm⟩
        · exact heq
        · exfalso
          apply linked_no_continue b t2 h2 c2
          rw [← hcov]
          exact ⟨a, List.mem_cons_self _ _, ⟨hy, by omega, by omega⟩, hc⟩
      have hab : a = b := span_ext a b hx hy hl hc
      subst hab
      congr 1
      apply ih t2 (fun s hs => h1 s (List.mem_cons_of_mem _ hs))
        (fun s hs => h2 s (List.mem_cons_of_mem _ hs)) c1.tail c2.tail
      intro x y c
      constructor
      · intro h
        rcases (covOf_cons a t2 _ _ _).mp ((hcov _ _ _).mp ((covOf_cons a t1 _ _ _).mpr (Or.inr h)))
          with ⟨hcv, _⟩ | h'
        · exact absurd hcv (linked_tail_disjoint a t1 h1 c1 _ _ _ h)
        · exact h'
      · intro h
        rcases (covOf_cons a t1 _ _ _).mp ((hcov _ _ _).mpr ((covOf_cons a t2 _ _ _).mpr (Or.inr h)))
          with ⟨hcv, _⟩ | h'
        · exact absurd hcv (linked_tail_disjoint a t2 h2 c2 _ _ _ h)
        · exact h'

end ThorVG

namespace ThorVG

/-! ## The bands do not change the RLE -/

theorem lineCovAt_bandSize (cfg : RunConfig) (k yAbs x area n px py c : Int) :
    lineCovAt { cfg with bandSize := k } yAbs x area n px py c ↔
      lineCovAt cfg yAbs x area n px py c := Iff.rfl

theorem cellsCovAt_bandSize (cfg : RunConfig) (k yAbs : Int) (row : List Cell)
    (cover x px py c : Int) :
    cellsCovAt { cfg with bandSize := k } yAbs row cover x px py c ↔
      cellsCovAt cfg yAbs row cover x px py c := by
  induction row generalizing cover x with
  | nil => exact Iff.rfl
  | cons cell next ih =>
    unfold cellsCovAt
    exact or_congr Iff.rfl (ih _ _)

theorem rowCovAt_bandSize (cfg : RunConfig) (k yAbs : Int) (row : List Cell) (px py c : Int) :
    rowCovAt { cfg with bandSize := k } yAbs row px py c ↔ rowCovAt cfg yAbs row px py c := by
  unfold rowCovAt
  exact or_congr (cellsCovAt_bandSize _ _ _ _ _ _ _ _ _) Iff.rfl

theorem cellCap_eq : cellCap = 511 := by decide

theorem cellEndOf_eq : cellEndOf = 16384 := by decide

theorem cellStartOf_ge (yCnt : Int) (h1 : 1 ≤ yCnt) (h2 : ¬ cellStartOf yCnt < 0)
    (h3 : ¬ cellStartOf yCnt < sizeofCellPtr * yCnt) : 32 ≤ cellStartOf yCnt := by
  revert h2 h3
  unfold cellStartOf
  simp only [toI32, toU64, sizeofCell, sizeofCellPtr]
  intro h2 h3
  split_ifs at h2 h3 ⊢ <;> omega

theorem bandSetup_cells (rw rw0 : RleWorker) (band : Band)
    (h : bandSetup rw band = .ok (some rw0)) :
    ∃ mc, rw0 = bandWorker rw band mc ∧ (band.min < band.max → mc ≤ cellCap) := by
  unfold bandSetup at h
  dsimp only [] at h
  split at h
  · cases h
  · split at h
    · cases h
    · split at h
      · cases h
      · rename_i _ _ hu
        simp only [Except.ok.injEq, Option.some.injEq] at h
        refine ⟨_, h.symm, fun hlt => ?_⟩
        have hge := cellStartOf_ge (band.max - band.min) (by omega) (fun hc => hu (Or.inl hc))
          (fun hc => hu (Or.inr hc))
        rw [cellCap_eq, cellEndOf_eq]
        have e : sizeofCell = 32 := rfl
        rw [e]
        omega

theorem bandWorker_simC (rwP rwR : RleWorker) (band sub : Band) (mc ms : Int)
    (ho : rwR.outline = rwP.outline) (h1 : rwR.cellMin.x = rwP.cellMin.x)
    (h2 : rwR.cellMax.x = rwP.cellMax.x) (h3 : rwR.cellXCnt = rwP.cellXCnt)
    (hb1 : band.min ≤ sub.min) (hb2 : sub.min ≤ sub.max) (hb3 : sub.max ≤ band.max)
    (hlo : -1073741824 ≤ band.min) (hhi : band.max ≤ 1073741824) (hm : mc ≤ ms) :
    SimC (bandWorker rwP band mc) (bandWorker rwR sub ms) := by
  refine ⟨⟨⟨ho, h1, h2, h3, hb1, hb2, hb3, rfl, rfl, hlo, hhi, ?_, ?_, hm⟩, ?_, le_refl _, ?_⟩,
    Or.inl ⟨rfl, Or.inl rfl⟩⟩
  · simp [bandWorker]
  · simp [bandWorker]
  · intro i hi
    have hi1 : i < (sub.max - sub.min).toNat := by simpa [bandWorker] using hi
    show (List.replicate (sub.max - sub.min).toNat ([] : List Cell))[i]? =
      (List.replicate (band.max - band.min).toNat ([] : List Cell))[i +
        (sub.min - band.min).toNat]?
    rw [List.getElem?_replicate, List.getElem?_replicate, if_pos hi1, if_pos (by omega)]
  · refine ⟨le_refl _, fun _ row hrow => ?_⟩
    have hrow1 : row ∈ List.replicate (band.max - band.min).toNat ([] : List Cell) := hrow
    exact (List.mem_replicate.1 hrow1).2

/-- The scanline lists a band ends with are those of its scanlines, each taken as a band
of its own. -/
theorem band_rows (o : SwOutline) (bbox : SwBBox) (rwPrev rw : RleWorker) (band : Band) (mc : Int)
    (ho : OutlineOk o) (hout : rwPrev.outline = o) (hx1 : rwPrev.cellMin.x = bbox.min.x)
    (hx2 : rwPrev.cellMax.x = bbox.max.x) (hx3 : rwPrev.cellXCnt = bbox.max.x - bbox.min.x)
    (hmc : band.min < band.max → mc ≤ cellCap)
    (hlo : -1073741824 ≤ band.min) (hhi : band.max ≤ 1073741824)
    (hg : _genRle (bandWorker rwPrev band mc) = some (rw, 0))
    (i : Nat) (hi : (i : Int) < band.max - band.min) :
    RowDone o bbox (band.min + i) ∧ rw.yCells[i]? = some (refRow o bbox (band.min + i)) := by
  have hsim := bandWorker_simC rwPrev (initWorker 0 none o bbox bbox false) band
    ⟨band.min + i, band.min + i + 1⟩ mc cellCap hout.symm hx1.symm hx2.symm
    hx3.symm (by show band.min ≤ band.min + i; omega)
    (by show band.min + (i : Int) ≤ band.min + i + 1; omega)
    (by show band.min + (i : Int) + 1 ≤ band.max; omega) hlo hhi (hmc (by omega))
  obtain ⟨s1, hs1, hR, hfs, hfb⟩ := genRle_sim _ _ _ (by rw [show (bandWorker rwPrev band mc).outline = o from hout]; exact ho) hsim hg
  refine ⟨⟨s1, hs1⟩, ?_⟩
  unfold refRow refWorker
  rw [hs1]
  dsimp only []
  obtain ⟨hgeo, hrows, _, _⟩ := hR
  have hlen : s1.yCells.length = 1 := by
    have h12 := hgeo.2.2.2.2.2.2.2.2.2.2.2.1
    have hcy : s1.cellYCnt = 1 := by
      have := congrArg WorkerFrame.cellYCnt hfs
      have e : s1.cellYCnt = band.min + (i : Int) + 1 - (band.min + i) := this
      omega
    rw [h12, hcy]
    rfl
  have hoff : bandOff rw s1 = i := by
    unfold bandOff
    have e1 : s1.cellMin = (bandWorker (initWorker 0 none o bbox bbox false)
        ⟨band.min + i, band.min + i + 1⟩ cellCap).cellMin :=
      congrArg WorkerFrame.cellMin hfs
    have e2 : rw.cellMin = (bandWorker rwPrev band mc).cellMin := congrArg WorkerFrame.cellMin hfb
    rw [e1, e2]
    show band.min + (i : Int) - band.min = i
    omega
  have h0 := hrows 0 (by omega)
  rw [hoff] at h0
  simp only [Int.toNat_ofNat, zero_add] at h0
  rw [← h0]
  cases hy : s1.yCells with
  | nil => rw [hy] at hlen; cases hlen
  | cons r t => simp

theorem band_counted (rwPrev rw : RleWorker) (band : Band) (mc : Int)
    (ho : OutlineOk rwPrev.outline) (hbm : band.min ≤ band.max)
    (hlo : -1073741824 ≤ band.min) (hhi : band.max ≤ 1073741824)
    (hg : _genRle (bandWorker rwPrev band mc) = some (rw, 0)) : Counted rw := by
  have hsim := bandWorker_simC rwPrev rwPrev band band mc mc rfl rfl rfl rfl (le_refl _) hbm
    (le_refl _) hlo hhi (le_refl _)
  obtain ⟨s1, _, hR, _, _⟩ := genRle_sim (bandWorker rwPrev band mc) _ _ ho hsim hg
  exact hR.2.2.2

/-- The sweep of a band adds to the RLE the coverage of the scanlines of the band. -/
theorem band_step (bandSize : Int) (rle : Option SwRleData) (o : SwOutline) (bbox vp : SwBBox)
    (aa : Bool) (ho : OutlineOk o)
    (hw : vp.max.x - vp.min.x ≤ 32767) (hh : vp.max.y - vp.min.y ≤ 32768)
    (hbx : bbox.max.x - bbox.min.x ≤ 2147483647)
    (hlo : -1073741824 < bbox.min.y) (hhi : bbox.max.y < 1073741824)
    (rwPrev rw0 rw : RleWorker) (band : Band)
    (hc : configOf rwPrev = configOf (initWorker bandSize rle o bbox vp aa))
    (hb : BandIn bbox.min.y bbox.max.y band)
    (hs : bandSetup rwPrev band = .ok (some rw0)) (hg : _genRle rw0 = some (rw, 0))
    (hP : RefInv o bbox vp aa band.min rwPrev.rle) : RefInv o bbox vp aa band.max (_sweep rw).rle := by
  obtain ⟨hinv, hrle1, hcfg, hmin, hmax, hlen⟩ := swept_worker_facts _ _ _ _ hs hg
  obtain ⟨mc, rfl, hmc⟩ := bandSetup_cells _ _ _ hs
  have hclip : rw.clip = ⟨vp.max.x - vp.min.x, vp.max.y - vp.min.y⟩ :=
    congrArg RunConfig.clip (hcfg.trans hc)
  have hxc : rw.cellXCnt = bbox.max.x - bbox.min.x := congrArg RunConfig.cellXCnt (hcfg.trans hc)
  have hout : rwPrev.outline = o := congrArg RunConfig.outline hc
  have hx1 : rwPrev.cellMin.x = bbox.min.x := congrArg RunConfig.minX hc
  have hx2 : rwPrev.cellMax.x = bbox.max.x := congrArg RunConfig.maxX hc
  have hx3 : rwPrev.cellXCnt = bbox.max.x - bbox.min.x := congrArg RunConfig.cellXCnt hc
  obtain ⟨hb1, hb2, hb3⟩ := hb
  have hctd := band_counted rwPrev rw band mc (by rw [hout]; exact ho) hb2 (by omega) (by omega) hg
  have hrow := fun i hi =>
    (band_rows o bbox rwPrev rw band mc ho hout hx1 hx2 hx3 hmc (by omega) (by omega) hg i hi).2
  have e : band.min + (((band.max - band.min).toNat : Nat) : Int) = band.max := by omega
  refine ⟨?_, ?_⟩
  · have := sweep_rleInv rw hinv (by rw [hclip]; exact hw) (by rw [hclip]; exact hh)
      (by rw [hxc]; exact hbx) (by rw [hrle1, hclip, hmin]; exact hP.1)
    rw [hclip, hmin, hlen, e] at this
    exact this
  · intro px py c
    have hsw := sweep_cov rw hinv hctd (by rw [hclip]; show vp.max.x - vp.min.x ≤ 65535; omega)
      (by rw [hrle1, hclip]; exact hP.1.1) px py c
    rw [hsw, hrle1, hP.2 px py c, hmin]
    have hcf : ∀ yAbs row, rowCovAt (configOf rw) yAbs row px py c ↔
        rowCovAt (refConfig o bbox vp aa) yAbs row px py c := by
      intro yAbs row
      rw [hcfg, hc]
      exact (rowCovAt_bandSize (configOf (initWorker bandSize rle o bbox vp aa)) 0 yAbs row
        px py c).symm
    constructor
    · rintro (⟨yAbs, h1, h2, h3⟩ | ⟨i, row, hr, hcv⟩)
      · exact ⟨yAbs, h1, by omega, h3⟩
      · have hi : i < rw.yCells.length := by
          by_contra hcon
          rw [List.getElem?_eq_none (by omega)] at hr
          cases hr
        rw [hlen] at hi
        have hr2 := hrow i (by omega)
        rw [hr] at hr2
        simp only [Option.some.injEq] at hr2
        subst hr2
        exact ⟨band.min + i, by omega, by omega, (hcf _ _).mp hcv⟩
    · rintro ⟨yAbs, h1, h2, h3⟩
      by_cases hlt : yAbs < band.min
      · exact Or.inl ⟨yAbs, h1, hlt, h3⟩
      · right
        have hr2 := hrow (yAbs - band.min).toNat (by omega)
        have e2 : band.min + (((yAbs - band.min).toNat : Nat) : Int) = yAbs := by omega
        rw [e2] at hr2
        refine ⟨(yAbs - band.min).toNat, _, hr2, ?_⟩
        rw [e2]
        exact (hcf _ _).mpr h3

/-- The RLE `rleRender` returns, for any positive band size, gives the pixels the
coverage of the scanlines of the bbox, each swept as its own band, and is in order and
coalesced. -/
theorem rleRenderBand_refCov (bandSize : Int) (rle : Option SwRleData) (o : SwOutline)
    (bbox vp : SwBBox) (aa : Bool) (r : SwRleData)
    (hrle : ∀ r0, rle = some r0 → r0.spans = []) (hbs : 0 < bandSize) (ho : OutlineOk o)
    (hw : vp.max.x - vp.min.x ≤ 32767) (hh : vp.max.y - vp.min.y ≤ 32768)
    (hbx : bbox.max.x - bbox.min.x ≤ 2147483647) (hby : bbox.min.y ≤ bbox.max.y)
    (hlo : -1073741824 < bbox.min.y) (hhi : bbox.max.y < 1073741824)
    (h : rleRenderBand bandSize rle o bbox vp aa = some (some r)) :
    RefInv o bbox vp aa bbox.max.y r := by
  obtain ⟨rwF, hr, rfl⟩ := rleRenderBand_some _ _ _ _ _ _ _ h
  have hsp : (rle.getD ⟨[], 0⟩).spans = [] := by
    cases rle with
    | none => rfl
    | some r0 => exact hrle r0 rfl
  obtain ⟨yEnd, _, _, hq, hend⟩ := render_invariant (RefInv o bbox vp aa) bandSize rle o bbox vp aa
    rwF hbs hby
    (fun rwPrev rw0 rw band hc hb hs hg hP =>
      band_step bandSize rle o bbox vp aa ho hw hh hbx hlo hhi rwPrev rw0 rw band hc hb hs hg hP)
    (by
      refine ⟨⟨?_, ?_, ?_⟩, ?_⟩
      · intro s hs; rw [hsp] at hs; cases hs
      · rw [hsp]; exact List.chain'_nil
      · intro s hs; rw [hsp] at hs; cases hs
      · intro px py c
        rw [hsp]
        constructor
        · intro hc; exact absurd hc (covOf_nil _ _ _)
        · rintro ⟨yAbs, h1, h2, _⟩; omega) hr
  rw [hend (by omega)] at hq
  exact hq

/-- On a viewport at most 32767 by 32768 pixels, for a bbox within 2^30 scanlines of the
origin and an outline whose points fit an `int`, two runs of `rleRender` with any two
positive band sizes that both return an RLE return the same spans. -/
theorem rleRenderBand_spans_eq (bs1 bs2 : Int) (rle : Option SwRleData) (o : SwOutline)
    (bbox vp : SwBBox) (aa : Bool) (r1 r2 : SwRleData)
    (hrle : ∀ r0, rle = some r0 → r0.spans = []) (h1 : 0 < bs1) (h2 : 0 < bs2) (ho : OutlineOk o)
    (hw : vp.max.x - vp.min.x ≤ 32767) (hh : vp.max.y - vp.min.y ≤ 32768)
    (hbx : bbox.max.x - bbox.min.x ≤ 2147483647) (hby : bbox.min.y ≤ bbox.max.y)
    (hlo : -1073741824 < bbox.min.y) (hhi : bbox.max.y < 1073741824)
    (hr1 : rleRenderBand bs1 rle o bbox vp aa = some (some r1))
    (hr2 : rleRenderBand bs2 rle o bbox vp aa = some (some r2)) : r1.spans = r2.spans := by
  have q1 := rleRenderBand_refCov bs1 rle o bbox vp aa r1 hrle h1 ho hw hh hbx hby hlo hhi hr1
  have q2 := rleRenderBand_refCov bs2 rle o bbox vp aa r2 hrle h2 ho hw hh hbx hby hlo hhi hr2
  have hlen : ∀ (r : SwRleData), (∀ s ∈ r.spans,
      SpanOk ⟨vp.max.x - vp.min.x, vp.max.y - vp.min.y⟩ s) → ∀ s ∈ r.spans, 1 ≤ s.len := by
    intro r hr s hs
    exact (hr s hs).2.2.2.2.2.2.2 (by show vp.max.x - vp.min.x ≤ 65535; omega)
  refine canonical_unique r1.spans r2.spans (hlen r1 q1.1.1) (hlen r2 q2.1.1) q1.1.2.1 q2.1.2.1 ?_
  intro x y c
  rw [q1.2 x y c, q2.2 x y c]

end ThorVG

namespace ThorVG

/-! ## The cell functions on a ready worker -/

theorem Defined.mono {α : Type} {Q Q' : α → Prop} {r : Except Abort α} (h : Defined Q r)
    (hq : ∀ a, Q a → Q' a) : Defined Q' r := by
  cases r with
  | ok a => exact hq a h
  | error e =>
    cases e with
    | overflow rw => trivial
    | undefined => exact h

theorem Defined.error {α β : Type} {Q : α → Prop} {Q' : β → Prop} {err : Abort}
    (h : Defined Q (Except.error err : Except Abort α)) :
    Defined Q' (Except.error err : Except Abort β) := by
  cases err with
  | overflow rw => trivial
  | undefined => exact h

theorem banded_of_frame {B B1 : RleWorker} (h : Banded B) (hf : frameOf B1 = frameOf B)
    (hl : B1.yCells.length = B.yCells.length) : Banded B1 := by
  obtain ⟨f1, f2, _, f4, _, _⟩ := frame_fields hf
  unfold Banded at h ⊢
  rw [f1, f2, f4, hl]
  exact h

theorem kept_refl {B : RleWorker} (h : Ready B) : Kept B B := ⟨h, rfl, rfl⟩

theorem kept_trans {B B1 B2 : RleWorker} (h1 : Kept B B1) (h2 : Kept B1 B2) : Kept B B2 :=
  ⟨h2.1, h2.2.1.trans h1.2.1, h2.2.2.trans h1.2.2⟩

/-- On a ready worker whose current cell counts, `_recordCell` returns or overflows; the
worker stays ready, with the same current cell. -/
theorem recordCell_defined (B : RleWorker) (hr : Ready B) (hv : B.invalid = false) :
    Defined (fun B1 => Kept B B1 ∧ B1.invalid = false) (_recordCell B) := by
  by_cases hnz : B.area ≠ 0 ∨ B.cover ≠ 0
  · obtain ⟨⟨b1, b2, b3, b4, b5⟩, hc⟩ := hr
    obtain ⟨hc1, hc2⟩ := hc hv
    have hlt : B.cellPos.y.toNat < B.yCells.length := by omega
    have hrow : B.yCells[B.cellPos.y.toNat]? = some (B.yCells.get ⟨B.cellPos.y.toNat, hlt⟩) :=
      List.getElem?_eq_getElem hlt
    rw [recordCell_eq B _ hnz hc1 hrow]
    split
    · trivial
    · refine ⟨⟨⟨banded_of_frame ⟨b1, b2, b3, b4, b5⟩ (recorded_frame _ _) (recorded_length _ _),
        fun _ => ⟨hc1, hc2⟩⟩, rfl, recorded_frame _ _⟩, hv⟩
  · have hz : B.area = 0 ∧ B.cover = 0 := by
      constructor <;> by_contra hne <;> exact hnz (by simp [hne])
    rw [recordCell_zero B hz.1 hz.2]
    exact ⟨kept_refl hr, hv⟩

/-- The guarded `_recordCell` of `_moveTo` and `_genRle` on a ready worker. -/
theorem recordIf_defined (B : RleWorker) (hr : Ready B) :
    Defined (Kept B) (if !B.invalid then _recordCell B else .ok B) := by
  cases hv : B.invalid with
  | true => exact kept_refl hr
  | false => exact (recordCell_defined B hr hv).mono (fun _ h => h.1)

theorem enterCell_ready (B : RleWorker) (p : SwPoint) (hb : Banded B)
    (hp : -2147483648 ≤ p.y ∧ p.y < 2147483648) : Ready (enterCell B p) := by
  refine ⟨hb, ?_⟩
  intro hv
  obtain ⟨b1, b2, b3, b4, b5⟩ := hb
  simp only [enterCell, decide_eq_false_iff_not, not_or, not_le, toU32] at hv
  show 0 ≤ p.y ∧ p.y < B.cellYCnt
  omega

/-- On a ready worker `_setCell` for a pixel on a scanline within 2^25 of the origin
returns or overflows, and the worker stays ready. -/
theorem setCell_defined (B : RleWorker) (e : SwPoint) (hr : Ready B) (he : CellY e) :
    Defined (Kept B) (_setCell B e) := by
  have hy := cellOf_y B e
  have hb := hr.1
  obtain ⟨b1, b2, b3, b4, b5⟩ := hb
  unfold CellY at he
  by_cases h : cellOf B e ≠ B.cellPos ∧ B.invalid = false
  · have hd := recordCell_defined B hr h.2
    cases hrec : _recordCell B with
    | error err =>
      rw [hrec] at hd
      have e1 : _setCell B e = .error err := by
        unfold _setCell
        dsimp only []
        rw [if_pos h.1, h.2]
        simp only [Bool.not_false, if_true]
        rw [hrec]
      rw [e1]
      exact hd.error
    | ok B0 =>
      rw [hrec] at hd
      obtain ⟨⟨hr0, hp0, hf0⟩, _⟩ := hd
      rw [setCell_of_record B B0 e h.1 h.2 hrec]
      exact ⟨enterCell_ready B0 _ hr0.1 (by omega), hp0, hf0⟩
  · rw [setCell_of_stay B e h]
    exact ⟨enterCell_ready B _ hr.1 (by omega), rfl, rfl⟩

theorem addVertical_kept (B : RleWorker) (f1 : SwPoint) (f2y : Int) (hr : Ready B) :
    Kept B (addVertical B f1 f2y) := ⟨hr, rfl, rfl⟩

theorem addEdge_kept (B : RleWorker) (f1 f2 : SwPoint) (hr : Ready B) :
    Kept B (addEdge B f1 f2) := ⟨hr, rfl, rfl⟩

/-- The `vertical line up` loop on a ready worker returns or overflows. -/
theorem lineUp_defined (e2y : Int) (fuel : Nat) (B : RleWorker) (e1 f1 : SwPoint) (hr : Ready B)
    (hfuel : (fuel : Int) = e2y - e1.y) (h1 : 1 ≤ fuel) (hlo : -33554432 ≤ e1.y)
    (hhi : e2y < 33554432) :
    Defined (fun r => Kept B r.1) (lineUp e2y fuel B e1 f1) := by
  induction fuel generalizing B e1 f1 with
  | zero => omega
  | succ n ih =>
    rw [lineUp_succ]
    have hd := setCell_defined (addVertical B f1 ONE_PIXEL) ⟨e1.x, e1.y + 1⟩ hr
      ⟨by show -33554432 ≤ e1.y + 1; omega, by show e1.y + 1 < 33554432; omega⟩
    cases hs : _setCell (addVertical B f1 ONE_PIXEL) ⟨e1.x, e1.y + 1⟩ with
    | error err => rw [hs] at hd; exact hd.error
    | ok B0 =>
      rw [hs] at hd
      dsimp only []
      by_cases hne : e1.y + 1 ≠ e2y
      · rw [if_pos hne]
        exact (ih B0 ⟨e1.x, e1.y + 1⟩ ⟨f1.x, 0⟩ hd.1 (by show (n : Int) = e2y - (e1.y + 1); omega)
          (by omega) (by show -33554432 ≤ e1.y + 1; omega)).mono
          (fun r hk => kept_trans hd hk)
      · rw [if_neg hne]
        exact hd

/-- The `vertical line down` loop on a ready worker returns or overflows. -/
theorem lineDown_defined (e2y : Int) (fuel : Nat) (B : RleWorker) (e1 f1 : SwPoint) (hr : Ready B)
    (hfuel : (fuel : Int) = e1.y - e2y) (h1 : 1 ≤ fuel) (hlo : -33554432 ≤ e2y)
    (hhi : e1.y < 33554432) :
    Defined (fun r => Kept B r.1) (lineDown e2y fuel B e1 f1) := by
  induction fuel generalizing B e1 f1 with
  | zero => omega
  | succ n ih =>
    rw [lineDown_succ]
    have hd := setCell_defined (addVertical B f1 0) ⟨e1.x, e1.y - 1⟩ hr
      ⟨by show -33554432 ≤ e1.y - 1; omega, by show e1.y - 1 < 33554432; omega⟩
    cases hs : _setCell (addVertical B f1 0) ⟨e1.x, e1.y - 1⟩ with
    | error err => rw [hs] at hd; exact hd.error
    | ok B0 =>
      rw [hs] at hd
      dsimp only []
      by_cases hne : e1.y - 1 ≠ e2y
      · rw [if_pos hne]
        exact (ih B0 ⟨e1.x, e1.y - 1⟩ ⟨f1.x, ONE_PIXEL⟩ hd.1
          (by show (n : Int) = (e1.y - 1) - e2y; omega)
          (by omega) (by show e1.y - 1 < 33554432; omega)).mono
          (fun r hk => kept_trans hd hk)
      · rw [if_neg hne]
        exact hd

/-- The `any other line` loop on a ready worker returns or overflows when it returns on
some worker: the cells it walks through are the same. -/
theorem lineWalk_defined (diff e2 : SwPoint) (dx_r dy_r : Int) (fuel : Nat) (A B : RleWorker)
    (e1 f1 : SwPoint) (prod : Int) (r : RleWorker × SwPoint) (hr : Ready B)
    (hA : lineWalk diff e2 dx_r dy_r fuel A e1 f1 prod = .ok r)
    (hfuel : fuel ≤ (e2.x - e1.x).natAbs + (e2.y - e1.y).natAbs)
    (h1 : CellY e1) (h2 : CellY e2) :
    Defined (fun r => Kept B r.1) (lineWalk diff e2 dx_r dy_r fuel B e1 f1 prod) := by
  induction fuel generalizing A B e1 f1 prod with
  | zero => cases hA
  | succ n ih =>
    rw [lineWalk_succ] at hA ⊢
    have hu := walkStep_unit diff dx_r dy_r e1 prod
    revert hA hu
    generalize walkStep diff dx_r dy_r e1 prod = step
    intro hA hu
    cases hsa : _setCell (addEdge A f1 step.1) step.2.1 with
    | error err => rw [hsa] at hA; cases hA
    | ok A0 =>
      rw [hsa] at hA
      dsimp only [] at hA
      have hnear : (e2.x - step.2.1.x).natAbs + (e2.y - step.2.1.y).natAbs ≤ n := by
        by_cases hne : step.2.1 ≠ e2
        · rw [if_pos hne] at hA
          exact lineWalk_dist _ _ _ _ _ _ _ _ _ _ hA
        · have he : step.2.1 = e2 := by
            by_contra hx; exact hne hx
          rw [he]
          simp
      unfold CellY at h1 h2
      have hce : CellY step.2.1 := by
        unfold CellY
        omega
      have hd := setCell_defined (addEdge B f1 step.1) step.2.1 hr hce
      cases hsb : _setCell (addEdge B f1 step.1) step.2.1 with
      | error err => rw [hsb] at hd; exact hd.error
      | ok B0 =>
        rw [hsb] at hd
        dsimp only []
        by_cases hne : step.2.1 ≠ e2
        · rw [if_pos hne] at hA ⊢
          exact (ih A0 B0 _ _ _ hd.1 hA (by omega) hce).mono (fun r hk => kept_trans hd hk)
        · rw [if_neg hne]
          exact hd

theorem posOk_cellY (p : SwPoint) (h : PosOk p) : CellY (TRUNCpt p) := by
  unfold PosOk at h
  unfold CellY
  simp only [TRUNCpt, shr, PIXEL_BITS]
  omega

/-- The walk of `lineScan` on a ready worker returns or overflows when it returns on
some worker at the same point. -/
theorem lineScan_defined (A B : RleWorker) (dst : SwPoint) (r : RleWorker × SwPoint)
    (hr : Ready B) (hp : A.pos = B.pos) (hA : lineScan A dst = .ok r)
    (hpos : PosOk B.pos) (hdst : PosOk dst) :
    Defined (fun r => Kept B r.1) (lineScan B dst) := by
  have c1 := posOk_cellY _ hpos
  have c2 := posOk_cellY _ hdst
  unfold lineScan at hA ⊢
  dsimp only [] at hA ⊢
  rw [hp] at hA
  by_cases h1 : TRUNCpt B.pos = TRUNCpt dst
  · rw [if_pos h1]
    exact kept_refl hr
  rw [if_neg h1] at hA ⊢
  by_cases h2 : (dst - B.pos).y = 0
  · rw [if_pos h2]
    have hd := setCell_defined B ⟨(TRUNCpt dst).x, (TRUNCpt B.pos).y⟩ hr c1
    cases hs : _setCell B ⟨(TRUNCpt dst).x, (TRUNCpt B.pos).y⟩ with
    | error err => rw [hs] at hd; exact hd.error
    | ok B0 => rw [hs] at hd; exact hd
  rw [if_neg h2] at hA ⊢
  have hdy : (dst - B.pos).y = dst.y - B.pos.y := rfl
  have hdx : (dst - B.pos).x = dst.x - B.pos.x := rfl
  have ty1 : (TRUNCpt dst).y = shr dst.y PIXEL_BITS := rfl
  have ty2 : (TRUNCpt B.pos).y = shr B.pos.y PIXEL_BITS := rfl
  have tx1 : (TRUNCpt dst).x = shr dst.x PIXEL_BITS := rfl
  have tx2 : (TRUNCpt B.pos).x = shr B.pos.x PIXEL_BITS := rfl
  unfold CellY at c1 c2
  by_cases h3 : (dst - B.pos).x = 0
  · rw [if_pos h3]
    have hxe : (TRUNCpt dst).x = (TRUNCpt B.pos).x := by
      rw [tx1, tx2]
      have : dst.x = B.pos.x := by omega
      rw [this]
    have hyne : (TRUNCpt B.pos).y ≠ (TRUNCpt dst).y := by
      intro hy
      apply h1
      cases hb : TRUNCpt B.pos
      cases hd : TRUNCpt dst
      rw [hb] at hxe hy
      rw [hd] at hxe hy
      simp only at hxe hy
      rw [hxe, hy]
    by_cases h4 : (dst - B.pos).y > 0
    · rw [if_pos h4]
      have hm := TRUNC_mono B.pos.y dst.y (by omega)
      exact lineUp_defined _ _ B _ _ hr (by omega) (by omega) c1.1 c2.2
    · rw [if_neg h4]
      have hm := TRUNC_mono dst.y B.pos.y (by omega)
      exact lineDown_defined _ _ B _ _ hr (by omega) (by omega) c2.1 c1.2
  rw [if_neg h3] at hA ⊢
  exact lineWalk_defined _ _ _ _ _ A B _ _ _ r hr hA (le_refl _) (posOk_cellY _ hpos)
    (posOk_cellY _ hdst)

end ThorVG

namespace ThorVG

/-! ## The path functions on a ready worker -/

/-- What a `_lineTo` that returns leaves: the current point is `dst`. -/
theorem lineTo_pos (A : RleWorker) (dst : SwPoint) (A1 : RleWorker) (h : _lineTo A dst = .ok A1) :
    A1.pos = dst ∧ frameOf A1 = frameOf A := by
  have hs := lineTo_sound A dst
  rw [h] at hs
  refine ⟨?_, hs.1⟩
  unfold _lineTo at h
  split at h
  · simp only [Except.ok.injEq] at h
    rw [← h]
  · cases hl : lineScan A dst with
    | error e => rw [hl] at h; cases h
    | ok r =>
      rw [hl] at h
      simp only [Except.ok.injEq] at h
      rw [← h]

theorem moveTo_pos (A : RleWorker) (dst : SwPoint) (A1 : RleWorker) (h : _moveTo A dst = .ok A1) :
    A1.pos = dst ∧ frameOf A1 = frameOf A := by
  have hs := moveTo_sound A dst
  rw [h] at hs
  refine ⟨?_, hs.1⟩
  unfold _moveTo at h
  cases hr : (if !A.invalid then _recordCell A else .ok A) with
  | error e => rw [hr] at h; cases h
  | ok A0 =>
    rw [hr] at h
    dsimp only [] at h
    rw [startCell_eq] at h
    simp only [Except.ok.injEq] at h
    rw [← h]

/-- The loop of `_cubicTo`, when it returns, leaves the current point at the end of the
arc. -/
theorem cubicLoop_last (fuel : Nat) (A : RleWorker) (stk : List SwPoint) (A1 : RleWorker)
    (h : cubicLoop fuel A stk = .ok A1) : stk.getLast? = some A1.pos := by
  induction fuel generalizing A stk with
  | zero => unfold cubicLoop at h; cases h
  | succ n ih =>
    match stk with
    | a3 :: a2 :: a1 :: a0 :: below =>
      unfold cubicLoop at h
      by_cases h1 : cubicSplit a0 a1 a2 a3 = true
      · rw [if_pos h1] at h
        by_cases h2 : below.length + 7 > BEZ_STACK
        · rw [if_pos h2] at h; cases h
        · rw [if_neg h2] at h
          rw [← split_last]
          exact ih _ _ h
      · rw [if_neg h1] at h
        cases hl : _lineTo A a0 with
        | error e => rw [hl] at h; cases h
        | ok A0 =>
          rw [hl] at h
          dsimp only [] at h
          by_cases hbl : below = []
          · rw [if_pos hbl] at h
            simp only [Except.ok.injEq] at h
            subst h
            subst hbl
            simp [(lineTo_pos A a0 A0 hl).1]
          · rw [if_neg hbl] at h
            rw [← ih _ _ h]
            cases below with
            | nil => exact absurd rfl hbl
            | cons x xs => rw [cons_last, cons_last, cons_last, cons_last]
    | [] => unfold cubicLoop at h; cases h
    | [_] => unfold cubicLoop at h; cases h
    | [_, _] => unfold cubicLoop at h; cases h
    | [_, _, _] => unfold cubicLoop at h; cases h

theorem cubicTo_pos (A : RleWorker) (c1 c2 dst : SwPoint) (A1 : RleWorker)
    (h : _cubicTo A c1 c2 dst = .ok A1) : A1.pos = dst ∧ frameOf A1 = frameOf A := by
  have hs := cubicTo_sound A c1 c2 dst
  rw [h] at hs
  refine ⟨?_, hs.1⟩
  unfold _cubicTo at h
  split at h
  · exact (lineTo_pos A dst A1 h).1
  · have := cubicLoop_last _ _ _ _ h
    simp at this
    exact this.symm

theorem runOp_pos (op : PathOp) (A A1 : RleWorker) (h : runOp op A = .ok A1) :
    A1.pos = op.dst ∧ frameOf A1 = frameOf A := by
  cases op with
  | move d => exact moveTo_pos A d A1 h
  | line d => exact lineTo_pos A d A1 h
  | cubic c1 c2 d => exact cubicTo_pos A c1 c2 d A1 h

theorem single_of_frame {A A1 : RleWorker} {y : Int} (h : Single A y)
    (hf : frameOf A1 = frameOf A) : Single A1 y := by
  obtain ⟨f1, f2, _⟩ := frame_fields hf
  unfold Single at h ⊢
  rw [f1, f2]
  exact h

theorem ready_of_frame {B B1 : RleWorker} (hf : frameOf B1 = frameOf B) (y : Int) :
    (B1.cellMin.y ≤ y ∧ y < B1.cellMax.y) ↔ (B.cellMin.y ≤ y ∧ y < B.cellMax.y) := by
  obtain ⟨f1, f2, _⟩ := frame_fields hf
  rw [f1, f2]

/-- The function `_moveTo` on a ready worker returns or overflows. -/
theorem moveTo_defined (B : RleWorker) (dst : SwPoint) (hr : Ready B) (hd : PosOk dst) :
    Defined (Moved B dst) (_moveTo B dst) := by
  unfold _moveTo
  have h0 := recordIf_defined B hr
  cases hrec : (if !B.invalid then _recordCell B else .ok B) with
  | error e => rw [hrec] at h0; exact h0.error
  | ok B0 =>
    rw [hrec] at h0
    dsimp only []
    rw [startCell_eq]
    obtain ⟨hr0, _, hf0⟩ := h0
    have hc := posOk_cellY dst hd
    unfold CellY at hc
    have hb0 := hr0.1
    obtain ⟨b1, b2, b3, b4, b5⟩ := hb0
    have hy : (cellOf (startAt B0 (startPos B0 (TRUNCpt dst))) (startPos B0 (TRUNCpt dst))).y =
        (TRUNCpt dst).y - B0.cellMin.y := by
      rw [cellOf_y, startPos_y]
      rfl
    have hre := enterCell_ready (startAt B0 (startPos B0 (TRUNCpt dst)))
      (cellOf (startAt B0 (startPos B0 (TRUNCpt dst))) (startPos B0 (TRUNCpt dst)))
      hr0.1 (by rw [hy]; omega)
    exact ⟨hre, rfl, hf0⟩

/-- The function `_lineTo` on a ready worker returns or overflows, when on each scanline
of the band that the line touches it returns on some worker with that scanline for its
band. -/
theorem lineTo_defined (B : RleWorker) (dst : SwPoint) (hr : Ready B) (hpos : PosOk B.pos)
    (hdst : PosOk dst)
    (hS : ∀ y, Touch B B.pos dst y → ∃ A A1, Single A y ∧ A.pos = B.pos ∧ _lineTo A dst = .ok A1) :
    Defined (Moved B dst) (_lineTo B dst) := by
  unfold _lineTo
  by_cases hk : lineSkipped B dst
  · rw [if_pos hk]
    exact ⟨hr, rfl, rfl⟩
  · rw [if_neg hk]
    obtain ⟨b1, b2, b3, b4, b5⟩ := hr.1
    have hy : ∃ y, Touch B B.pos dst y := by
      unfold lineSkipped at hk
      unfold Touch
      by_cases c1 : B.cellMin.y ≤ (TRUNCpt B.pos).y
      · by_cases c2 : B.cellMin.y ≤ (TRUNCpt dst).y
        · by_cases c3 : (TRUNCpt B.pos).y ≤ (TRUNCpt dst).y
          · exact ⟨(TRUNCpt B.pos).y, by omega, by omega, by omega, by omega⟩
          · exact ⟨(TRUNCpt dst).y, by omega, by omega, by omega, by omega⟩
        · exact ⟨B.cellMin.y, by omega, by omega, by omega, by omega⟩
      · exact ⟨B.cellMin.y, by omega, by omega, by omega, by omega⟩
    obtain ⟨y, hty⟩ := hy
    obtain ⟨A, A1, ⟨hA1, hA2⟩, hAp, hAl⟩ := hS y hty
    have hkA : ¬ lineSkipped A dst := by
      unfold lineSkipped
      unfold Touch at hty
      rw [hAp, hA1, hA2]
      omega
    unfold _lineTo at hAl
    rw [if_neg hkA] at hAl
    cases hsA : lineScan A dst with
    | error e => rw [hsA] at hAl; cases hAl
    | ok ra =>
      have hd := lineScan_defined A B dst ra hr hAp hsA hpos hdst
      cases hsB : lineScan B dst with
      | error err => rw [hsB] at hd; exact hd.error
      | ok rb =>
        rw [hsB] at hd
        exact ⟨hd.1, rfl, hd.2.2⟩

theorem TRUNC_eq (v : Int) : TRUNC v = v / 256 := by simp [TRUNC, shr, PIXEL_BITS]

theorem TRUNCpt_y (p : SwPoint) : (TRUNCpt p).y = p.y / 256 := by simp [TRUNCpt, shr, PIXEL_BITS]

/-- The loop of `_cubicTo` on a ready worker returns or overflows, when on each scanline
of the band that the arc reaches it returns on some worker with that scanline for its
band. -/
theorem cubicLoop_defined (lo hi : Int) (hlo : -8589934592 ≤ lo) (hhi : hi < 8589934592)
    (fuel : Nat) (B : RleWorker) (stk : List SwPoint) (hr : Ready B)
    (hpin : lo ≤ B.pos.y ∧ B.pos.y ≤ hi) (hhull : ∀ p ∈ stk, lo ≤ p.y ∧ p.y ≤ hi)
    (hne : ∃ y, Within B lo hi y)
    (hS : ∀ y, Within B lo hi y →
      ∃ A A1, Single A y ∧ A.pos = B.pos ∧ cubicLoop fuel A stk = .ok A1) :
    Defined (fun B1 => Ready B1 ∧ stk.getLast? = some B1.pos ∧ frameOf B1 = frameOf B)
      (cubicLoop fuel B stk) := by
  induction fuel generalizing B stk with
  | zero =>
    obtain ⟨y, hy⟩ := hne
    obtain ⟨A, A1, _, _, hA⟩ := hS y hy
    unfold cubicLoop at hA
    cases hA
  | succ n ih =>
    obtain ⟨y0, hy0⟩ := hne
    obtain ⟨A0, A01, _, _, hA0⟩ := hS y0 hy0
    match stk with
    | a3 :: a2 :: a1 :: a0 :: below =>
      unfold cubicLoop at hA0 hS ⊢
      have m0 := hhull a0 (by simp)
      have m1 := hhull a1 (by simp)
      have m2 := hhull a2 (by simp)
      have m3 := hhull a3 (by simp)
      by_cases h1 : cubicSplit a0 a1 a2 a3 = true
      · simp only [if_pos h1] at hA0 hS ⊢
        by_cases h2 : below.length + 7 > BEZ_STACK
        · rw [if_pos h2] at hA0; cases hA0
        · simp only [if_neg h2] at hS ⊢
          have hhull2 : ∀ p ∈ mathSplitCubic a0 a1 a2 a3 ++ below, lo ≤ p.y ∧ p.y ≤ hi := by
            intro p hp
            rcases List.mem_append.mp hp with hq | hq
            · exact mathSplitCubic_between a0 a1 a2 a3 lo hi m0 m1 m2 m3 p hq
            · exact hhull p (by simp [hq])
          refine (ih B _ hr hpin hhull2 ⟨y0, hy0⟩ hS).mono ?_
          intro B1 ⟨q1, q2, q3⟩
          refine ⟨q1, ?_, q3⟩
          rw [← split_last]
          exact q2
      · simp only [if_neg h1] at hA0 hS ⊢
        have hposB : PosOk B.pos := by unfold PosOk; omega
        have hposa : PosOk a0 := by unfold PosOk; omega
        have hline := lineTo_defined B a0 hr hposB hposa (by
          intro y hty
          have hw : Within B lo hi y := by
            unfold Touch at hty
            unfold Within
            rw [TRUNCpt_y, TRUNCpt_y] at hty
            rw [TRUNC_eq, TRUNC_eq]
            omega
          obtain ⟨A, A1, hs, hp, hA⟩ := hS y hw
          cases hl : _lineTo A a0 with
          | error e => rw [hl] at hA; cases hA
          | ok Am => exact ⟨A, Am, hs, hp, hl⟩)
        cases hlB : _lineTo B a0 with
        | error err => rw [hlB] at hline; exact hline.error
        | ok B0 =>
          rw [hlB] at hline
          obtain ⟨hr0, hp0, hf0⟩ := hline
          dsimp only []
          have hfam : ∀ y, Within B lo hi y → ∃ A Am, Single A y ∧ A.pos = B.pos ∧
              _lineTo A a0 = .ok Am ∧
              ∃ A1, (if below = [] then Except.ok Am else cubicLoop n Am (a0 :: below)) =
                .ok A1 := by
            intro y hw
            obtain ⟨A, A1, hs, hp, hA⟩ := hS y hw
            cases hl : _lineTo A a0 with
            | error e => rw [hl] at hA; cases hA
            | ok Am =>
              rw [hl] at hA
              dsimp only [] at hA
              exact ⟨A, Am, hs, hp, hl, A1, hA⟩
          by_cases hbl : below = []
          · rw [if_pos hbl]
            subst hbl
            exact ⟨hr0, by simp [hp0], hf0⟩
          · rw [if_neg hbl]
            have hwB : ∀ y, Within B0 lo hi y ↔ Within B lo hi y := by
              intro y
              unfold Within
              obtain ⟨f1, f2, _⟩ := frame_fields hf0
              rw [f1, f2]
            refine (ih B0 (a0 :: below) hr0 (by rw [hp0]; exact m0)
              (fun p hp => hhull p (by
                simp only [List.mem_cons] at hp ⊢
                tauto)) ⟨y0, (hwB y0).mpr hy0⟩ ?_).mono ?_
            · intro y hw
              obtain ⟨A, Am, hs, hp, hl, A1, hA⟩ := hfam y ((hwB y).mp hw)
              rw [if_neg hbl] at hA
              obtain ⟨hpm, hfm⟩ := lineTo_pos A a0 Am hl
              exact ⟨Am, A1, single_of_frame hs hfm, by rw [hpm, hp0], hA⟩
            · intro B1 ⟨q1, q2, q3⟩
              refine ⟨q1, ?_, q3.trans hf0⟩
              rw [← q2]
              cases below with
              | nil => exact absurd rfl hbl
              | cons x xs => rw [cons_last, cons_last, cons_last, cons_last]
    | [] => unfold cubicLoop at hA0; cases hA0
    | [_] => unfold cubicLoop at hA0; cases hA0
    | [_, _] => unfold cubicLoop at hA0; cases hA0
    | [_, _, _] => unfold cubicLoop at hA0; cases hA0

/-- The function `_cubicTo` on a ready worker returns or overflows, when on each scanline
of the band it returns on some worker with that scanline for its band. -/
theorem cubicTo_defined (B : RleWorker) (c1 c2 dst : SwPoint) (hr : Ready B) (hpos : PosOk B.pos)
    (h1 : PosOk c1) (h2 : PosOk c2) (hd : PosOk dst)
    (hS : ∀ y, B.cellMin.y ≤ y → y < B.cellMax.y →
      ∃ A A1, Single A y ∧ A.pos = B.pos ∧ _cubicTo A c1 c2 dst = .ok A1) :
    Defined (Moved B dst) (_cubicTo B c1 c2 dst) := by
  unfold _cubicTo
  have hmin := arcMinY_le dst c2 c1 B.pos
  have hmax := arcMaxY_ge dst c2 c1 B.pos
  obtain ⟨b1, b2, b3, b4, b5⟩ := hr.1
  by_cases hob : arcOutside B dst c2 c1 B.pos
  · rw [if_pos hob]
    refine lineTo_defined B dst hr hpos hd ?_
    intro y hty
    exfalso
    unfold arcOutside at hob
    unfold Touch at hty
    rw [TRUNC_eq, TRUNC_eq] at hob
    rw [TRUNCpt_y, TRUNCpt_y] at hty
    omega
  · rw [if_neg hob]
    unfold arcOutside at hob
    rw [TRUNC_eq, TRUNC_eq] at hob
    have hlo : -8589934592 ≤ arcMinY dst c2 c1 B.pos := by
      unfold PosOk at hpos h1 h2 hd
      rcases arcMinY_mem dst c2 c1 B.pos with e | e | e | e <;> rw [e] <;> omega
    have hhi : arcMaxY dst c2 c1 B.pos < 8589934592 := by
      unfold PosOk at hpos h1 h2 hd
      rcases arcMaxY_mem dst c2 c1 B.pos with e | e | e | e <;> rw [e] <;> omega
    have hne : ∃ y, Within B (arcMinY dst c2 c1 B.pos) (arcMaxY dst c2 c1 B.pos) y := by
      unfold Within
      rw [TRUNC_eq, TRUNC_eq]
      by_cases c : B.cellMin.y ≤ arcMinY dst c2 c1 B.pos / 256
      · exact ⟨arcMinY dst c2 c1 B.pos / 256, by omega, by omega, by omega, by omega⟩
      · exact ⟨B.cellMin.y, by omega, by omega, by omega, by omega⟩
    refine (cubicLoop_defined _ _ hlo hhi CUBIC_FUEL B [B.pos, c1, c2, dst] hr
      ⟨hmin.2.2.2, hmax.2.2.2⟩ ?_ hne ?_).mono ?_
    · intro p hp
      simp only [List.mem_cons, List.mem_singleton, List.not_mem_nil, or_false] at hp
      rcases hp with rfl | rfl | rfl | rfl
      · exact ⟨hmin.2.2.2, hmax.2.2.2⟩
      · exact ⟨hmin.2.2.1, hmax.2.2.1⟩
      · exact ⟨hmin.2.1, hmax.2.1⟩
      · exact ⟨hmin.1, hmax.1⟩
    · intro y hw
      unfold Within at hw
      rw [TRUNC_eq, TRUNC_eq] at hw
      obtain ⟨A, A1, hs, hp, hA⟩ := hS y hw.1 hw.2.1
      have hoA : ¬ arcOutside A dst c2 c1 A.pos := by
        unfold arcOutside
        rw [TRUNC_eq, TRUNC_eq, hp, hs.1, hs.2]
        omega
      unfold _cubicTo at hA
      rw [if_neg hoA, hp] at hA
      exact ⟨A, A1, hs, hp, hA⟩
    · intro B1 ⟨q1, q2, q3⟩
      refine ⟨q1, ?_, q3⟩
      simp at q2
      exact q2.symm

/-- One step of the path on a ready worker returns or overflows, when on each scanline
of the band it returns on some worker with that scanline for its band. -/
theorem runOp_defined (op : PathOp) (B : RleWorker) (hr : Ready B) (hpos : PosOk B.pos)
    (hok : OpOk op)
    (hS : ∀ y, B.cellMin.y ≤ y → y < B.cellMax.y →
      ∃ A A1, Single A y ∧ A.pos = B.pos ∧ runOp op A = .ok A1) :
    Defined (Moved B op.dst) (runOp op B) := by
  cases op with
  | move d => exact moveTo_defined B d hr hok
  | line d =>
    exact lineTo_defined B d hr hpos hok (fun y hty => hS y hty.1 hty.2.1)
  | cubic c1 c2 d => exact cubicTo_defined B c1 c2 d hr hpos hok.1 hok.2.1 hok.2.2 hS

theorem runOps_cons (op : PathOp) (ops : List PathOp) (rw : RleWorker) :
    runOps (op :: ops) rw =
      match runOp op rw with
      | .error e => .error e
      | .ok rw => runOps ops rw := rfl

theorem opOk_dst (op : PathOp) (h : OpOk op) : PosOk op.dst := by
  cases op with
  | move d => exact h
  | line d => exact h
  | cubic c1 c2 d => exact h.2.2

/-- The steps of a path on a ready worker return or overflow, when on each scanline of
the band they return on some worker with that scanline for its band, started at the
same point. -/
theorem runOps_defined (ops : List PathOp) (B : RleWorker) (hr : Ready B) (hpos : PosOk B.pos)
    (hok : ∀ op ∈ ops, OpOk op)
    (hS : ∀ y, B.cellMin.y ≤ y → y < B.cellMax.y →
      ∃ A A1, Single A y ∧ A.pos = B.pos ∧ runOps ops A = .ok A1) :
    Defined (fun B1 => Ready B1 ∧ frameOf B1 = frameOf B) (runOps ops B) := by
  induction ops generalizing B with
  | nil => exact ⟨hr, rfl⟩
  | cons op ops ih =>
    rw [runOps_cons]
    have hfam : ∀ y, B.cellMin.y ≤ y → y < B.cellMax.y →
        ∃ A Am A1, Single A y ∧ A.pos = B.pos ∧ runOp op A = .ok Am ∧ runOps ops Am = .ok A1 := by
      intro y h1 h2
      obtain ⟨A, A1, hs, hp, hA⟩ := hS y h1 h2
      rw [runOps_cons] at hA
      cases hl : runOp op A with
      | error e => rw [hl] at hA; cases hA
      | ok Am =>
        rw [hl] at hA
        exact ⟨A, Am, A1, hs, hp, hl, hA⟩
    have hop := runOp_defined op B hr hpos (hok op (by simp)) (fun y h1 h2 => by
      obtain ⟨A, Am, A1, hs, hp, hl, _⟩ := hfam y h1 h2
      exact ⟨A, Am, hs, hp, hl⟩)
    cases hB : runOp op B with
    | error err => rw [hB] at hop; exact hop.error
    | ok B0 =>
      rw [hB] at hop
      obtain ⟨hr0, hp0, hf0⟩ := hop
      dsimp only []
      refine (ih B0 hr0 (by rw [hp0]; exact opOk_dst op (hok op (by simp)))
        (fun o ho => hok o (by simp [ho])) ?_).mono ?_
      · intro y h1 h2
        have hb := (ready_of_frame hf0 y).mp ⟨h1, h2⟩
        obtain ⟨A, Am, A1, hs, hp, hl, hA⟩ := hfam y hb.1 hb.2
        obtain ⟨hpm, hfm⟩ := runOp_pos op A Am hl
        exact ⟨Am, A1, single_of_frame hs hfm, by rw [hpm, hp0], hA⟩
      · intro B1 ⟨q1, q2⟩
        exact ⟨q1, q2.trans hf0⟩

end ThorVG

namespace ThorVG

/-! ## `_decomposeOutline` as the run of a list of steps -/

theorem finish_cons {α : Type} (op : PathOp) (ops : List PathOp) (term : Option α)
    (rw : RleWorker) :
    finish (op :: ops) term rw =
      match runOp op rw with
      | .error e => .error e
      | .ok rw1 => finish ops term rw1 := by
  unfold finish
  rw [runOps_cons]
  cases runOp op rw <;> rfl

theorem finish_append {α : Type} (ops1 ops2 : List PathOp) (term : Option α) (rw : RleWorker) :
    finish (ops1 ++ ops2) term rw =
      match runOps ops1 rw with
      | .error e => .error e
      | .ok rw1 => finish ops2 term rw1 := by
  induction ops1 generalizing rw with
  | nil => rfl
  | cons op ops ih =>
    rw [List.cons_append, finish_cons, runOps_cons]
    cases runOp op rw with
    | error e => rfl
    | ok rw1 => exact ih rw1

theorem runOp_move (d : SwPoint) (rw : RleWorker) : runOp (.move d) rw = _moveTo rw d := rfl

theorem runOp_line (d : SwPoint) (rw : RleWorker) : runOp (.line d) rw = _lineTo rw d := rfl

theorem runOp_cubic (c1 c2 d : SwPoint) (rw : RleWorker) :
    runOp (.cubic c1 c2 d) rw = _cubicTo rw c1 c2 d := rfl

/-- The `while (pt < limit)` loop of `_decomposeOutline` runs the steps of its skeleton
and is left as the skeleton says. -/
theorem contourLoop_eq (o : SwOutline) (limit : Nat) (start : SwPoint) (fuel : Nat)
    (rw : RleWorker) (pt : Nat) :
    contourLoop o limit start fuel rw pt =
      finish (contourSkel o limit start fuel pt).1 (contourSkel o limit start fuel pt).2 rw := by
  induction fuel generalizing rw pt with
  | zero => rfl
  | succ n ih =>
    unfold contourLoop contourSkel
    by_cases h0 : pt < limit
    · simp only [if_pos h0]
      cases ht0 : o.types[pt + 1]? with
      | none => rfl
      | some t0 =>
        cases hp0 : o.pts[pt + 1]? with
        | none => rfl
        | some p0 =>
          dsimp only []
          by_cases ht : t0 = SW_CURVE_TYPE_POINT
          · simp only [if_pos ht]
            rw [finish_cons, runOp_line]
            cases _lineTo rw (UPSCALE p0) with
            | error e => rfl
            | ok rw1 => exact ih rw1 (pt + 1)
          · simp only [if_neg ht]
            by_cases h1 : pt + 1 + 1 > limit
            · simp only [if_pos h1]
              rfl
            · simp only [if_neg h1]
              cases ht1 : o.types[pt + 1 + 1]? with
              | none => rfl
              | some t1 =>
                cases hp1 : o.pts[pt + 1 + 1]? with
                | none => rfl
                | some p1 =>
                  dsimp only []
                  by_cases h2 : t1 ≠ SW_CURVE_TYPE_CUBIC
                  · simp only [if_pos h2]
                    rfl
                  · simp only [if_neg h2]
                    by_cases h3 : pt + 1 + 2 ≤ limit
                    · simp only [if_pos h3]
                      cases hp2 : o.pts[pt + 1 + 2]? with
                      | none => rfl
                      | some p2 =>
                        dsimp only []
                        rw [finish_cons, runOp_cubic]
                        cases _cubicTo rw (UPSCALE p0) (UPSCALE p1) (UPSCALE p2) with
                        | error e => rfl
                        | ok rw1 => exact ih rw1 (pt + 1 + 2)
                    · simp only [if_neg h3]
                      rw [finish_cons, runOp_cubic]
                      cases _cubicTo rw (UPSCALE p0) (UPSCALE p1) start with
                      | error e => rfl
                      | ok rw1 => rfl
    · simp only [if_neg h0]
      rfl

/-- The `for` loop of `_decomposeOutline` runs the steps of its skeleton and returns
what the skeleton says. -/
theorem decomposeContours_eq (o : SwOutline) (cs : List Nat) (first : Nat) (rw : RleWorker) :
    decomposeContours o cs first rw =
      finish (outlineSkel o cs first).1 (outlineSkel o cs first).2 rw := by
  induction cs generalizing first rw with
  | nil => rfl
  | cons last more ih =>
    unfold decomposeContours outlineSkel
    cases hp : o.pts[first]? with
    | none => rfl
    | some p =>
      cases ht : o.types[first]? with
      | none => rfl
      | some t =>
        dsimp only []
        by_cases htc : t = SW_CURVE_TYPE_CUBIC
        · simp only [if_pos htc]
          rfl
        · simp only [if_neg htc]
          have hc := fun rw0 => contourLoop_eq o last (UPSCALE p) (last - first + 1) rw0 first
          revert hc
          generalize contourSkel o last (UPSCALE p) (last - first + 1) first = c
          obtain ⟨ops, term⟩ := c
          intro hc
          dsimp only [] at hc ⊢
          cases term with
          | none =>
            dsimp only []
            rw [finish_cons, runOp_move]
            cases _moveTo rw (UPSCALE p) with
            | error e => rfl
            | ok rw0 =>
              dsimp only []
              rw [hc rw0]
              unfold finish
              cases runOps ops rw0 <;> rfl
          | some k =>
            cases k with
            | invalid =>
              dsimp only []
              rw [finish_cons, runOp_move]
              cases _moveTo rw (UPSCALE p) with
              | error e => rfl
              | ok rw0 =>
                dsimp only []
                rw [hc rw0]
                unfold finish
                cases runOps ops rw0 <;> rfl
            | close =>
              dsimp only []
              rw [finish_cons, runOp_move]
              cases _moveTo rw (UPSCALE p) with
              | error e => rfl
              | ok rw0 =>
                dsimp only []
                rw [hc rw0, finish_append]
                unfold finish
                cases runOps ops rw0 with
                | error e => rfl
                | ok rw1 => exact ih (last + 1) rw1
            | line =>
              dsimp only []
              rw [finish_cons, runOp_move]
              cases _moveTo rw (UPSCALE p) with
              | error e => rfl
              | ok rw0 =>
                dsimp only []
                rw [hc rw0, finish_append]
                unfold finish
                cases runOps ops rw0 with
                | error e => rfl
                | ok rw1 =>
                  dsimp only []
                  show _ = finish (PathOp.line (UPSCALE p) :: (outlineSkel o more (last + 1)).1)
                    (outlineSkel o more (last + 1)).2 rw1
                  rw [finish_cons, runOp_line]
                  cases _lineTo rw1 (UPSCALE p) with
                  | error e => rfl
                  | ok rw2 => exact ih (last + 1) rw2

end ThorVG

namespace ThorVG

/-! ## `_genRle` on a band from its scanlines -/

theorem contourSkel_ok (o : SwOutline) (ho : OutlineOk o) (limit : Nat) (start : SwPoint)
    (hst : PosOk start) (fuel : Nat) (pt : Nat) :
    ∀ op ∈ (contourSkel o limit start fuel pt).1, OpOk op := by
  induction fuel generalizing pt with
  | zero => intro op hop; cases hop
  | succ n ih =>
    unfold contourSkel
    by_cases h0 : pt < limit
    · simp only [if_pos h0]
      cases ht0 : o.types[pt + 1]? with
      | none => intro op hop; cases hop
      | some t0 =>
        cases hp0 : o.pts[pt + 1]? with
        | none => intro op hop; cases hop
        | some p0 =>
          dsimp only []
          have hk0 := upscale_ok o ho _ _ hp0
          by_cases ht : t0 = SW_CURVE_TYPE_POINT
          · simp only [if_pos ht]
            intro op hop
            rcases List.mem_cons.mp hop with rfl | hop
            · exact hk0
            · exact ih _ op hop
          · simp only [if_neg ht]
            by_cases h1 : pt + 1 + 1 > limit
            · simp only [if_pos h1]
              intro op hop; cases hop
            · simp only [if_neg h1]
              cases ht1 : o.types[pt + 1 + 1]? with
              | none => intro op hop; cases hop
              | some t1 =>
                cases hp1 : o.pts[pt + 1 + 1]? with
                | none => intro op hop; cases hop
                | some p1 =>
                  dsimp only []
                  have hk1 := upscale_ok o ho _ _ hp1
                  by_cases h2 : t1 ≠ SW_CURVE_TYPE_CUBIC
                  · simp only [if_pos h2]
                    intro op hop; cases hop
                  · simp only [if_neg h2]
                    by_cases h3 : pt + 1 + 2 ≤ limit
                    · simp only [if_pos h3]
                      cases hp2 : o.pts[pt + 1 + 2]? with
                      | none => intro op hop; cases hop
                      | some p2 =>
                        dsimp only []
                        have hk2 := upscale_ok o ho _ _ hp2
                        intro op hop
                        rcases List.mem_cons.mp hop with rfl | hop
                        · exact ⟨hk0, hk1, hk2⟩
                        · exact ih _ op hop
                    · simp only [if_neg h3]
                      intro op hop
                      rcases List.mem_cons.mp hop with rfl | hop
                      · exact ⟨hk0, hk1, hst⟩
                      · cases hop
    · simp only [if_neg h0]
      intro op hop; cases hop

theorem outlineSkel_ok (o : SwOutline) (ho : OutlineOk o) (cs : List Nat) (first : Nat) :
    ∀ op ∈ (outlineSkel o cs first).1, OpOk op := by
  induction cs generalizing first with
  | nil => intro op hop; cases hop
  | cons last more ih =>
    unfold outlineSkel
    cases hp : o.pts[first]? with
    | none => intro op hop; cases hop
    | some p =>
      cases ht : o.types[first]? with
      | none => intro op hop; cases hop
      | some t =>
        dsimp only []
        have hk := upscale_ok o ho _ _ hp
        by_cases htc : t = SW_CURVE_TYPE_CUBIC
        · simp only [if_pos htc]
          intro op hop; cases hop
        · simp only [if_neg htc]
          have hc := contourSkel_ok o ho last (UPSCALE p) hk (last - first + 1) first
          revert hc
          generalize contourSkel o last (UPSCALE p) (last - first + 1) first = c
          obtain ⟨ops, term⟩ := c
          intro hc
          dsimp only [] at hc ⊢
          cases term with
          | none =>
            intro op hop
            rcases List.mem_cons.mp hop with rfl | hop
            · exact hk
            · exact hc op hop
          | some k =>
            cases k with
            | invalid =>
              intro op hop
              rcases List.mem_cons.mp hop with rfl | hop
              · exact hk
              · exact hc op hop
            | close =>
              intro op hop
              rcases List.mem_cons.mp hop with rfl | hop
              · exact hk
              · rcases List.mem_append.mp hop with hop | hop
                · exact hc op hop
                · exact ih _ op hop
            | line =>
              intro op hop
              rcases List.mem_cons.mp hop with rfl | hop
              · exact hk
              · rcases List.mem_append.mp hop with hop | hop
                · exact hc op hop
                · rcases List.mem_cons.mp hop with rfl | hop
                  · exact hk
                  · exact ih _ op hop

theorem outlineSkel_head (o : SwOutline) (cs : List Nat) (first : Nat) :
    (outlineSkel o cs first).1 = [] ∨
      ∃ p rest, (outlineSkel o cs first).1 = PathOp.move p :: rest := by
  cases cs with
  | nil => left; rfl
  | cons last more =>
    unfold outlineSkel
    cases hp : o.pts[first]? with
    | none => left; rfl
    | some p =>
      cases ht : o.types[first]? with
      | none => left; rfl
      | some t =>
        dsimp only []
        by_cases htc : t = SW_CURVE_TYPE_CUBIC
        · simp only [if_pos htc]
          left; trivial
        · simp only [if_neg htc]
          generalize contourSkel o last (UPSCALE p) (last - first + 1) first = c
          obtain ⟨ops, term⟩ := c
          dsimp only []
          cases term with
          | none => right; exact ⟨_, _, rfl⟩
          | some k =>
            cases k with
            | invalid => right; exact ⟨_, _, rfl⟩
            | close => right; exact ⟨_, _, rfl⟩
            | line => right; exact ⟨_, _, rfl⟩

/-- The steps of a path that starts with a `_moveTo`, on a ready worker: they return or
overflow when on each scanline of the band they return on some worker with that
scanline for its band. -/
theorem runOps_defined_start (ops : List PathOp) (B : RleWorker) (hr : Ready B)
    (hok : ∀ op ∈ ops, OpOk op)
    (hhead : ops = [] ∨ ∃ p rest, ops = PathOp.move p :: rest)
    (hS : ∀ y, B.cellMin.y ≤ y → y < B.cellMax.y →
      ∃ A A1, Single A y ∧ runOps ops A = .ok A1) :
    Defined (fun B1 => Ready B1 ∧ frameOf B1 = frameOf B) (runOps ops B) := by
  rcases hhead with rfl | ⟨p, rest, rfl⟩
  · exact ⟨hr, rfl⟩
  · rw [runOps_cons, runOp_move]
    have hpp : PosOk p := hok (PathOp.move p) (List.mem_cons_self _ _)
    have hm := moveTo_defined B p hr hpp
    cases hB : _moveTo B p with
    | error err => rw [hB] at hm; exact hm.error
    | ok B0 =>
      rw [hB] at hm
      obtain ⟨hr0, hp0, hf0⟩ := hm
      dsimp only []
      refine (runOps_defined rest B0 hr0 (by rw [hp0]; exact hpp)
        (fun o ho => hok o (by simp [ho])) ?_).mono ?_
      · intro y h1 h2
        have hb := (ready_of_frame hf0 y).mp ⟨h1, h2⟩
        obtain ⟨A, A1, hs, hA⟩ := hS y hb.1 hb.2
        rw [runOps_cons, runOp_move] at hA
        cases hl : _moveTo A p with
        | error e => rw [hl] at hA; cases hA
        | ok Am =>
          rw [hl] at hA
          obtain ⟨hpm, hfm⟩ := moveTo_pos A p Am hl
          exact ⟨Am, A1, single_of_frame hs hfm, by rw [hpm, hp0], hA⟩
      · intro B1 ⟨q1, q2⟩
        exact ⟨q1, q2.trans hf0⟩

theorem finish_ok {α : Type} (ops : List PathOp) (term : Option α) (A A1 : RleWorker) (k : α)
    (h : finish ops term A = .ok (A1, k)) : term = some k ∧ runOps ops A = .ok A1 := by
  unfold finish at h
  cases hr : runOps ops A with
  | error e => rw [hr] at h; cases h
  | ok A2 =>
    rw [hr] at h
    cases term with
    | none => cases h
    | some k2 =>
      simp only [Except.ok.injEq, Prod.mk.injEq] at h
      rw [h.1, h.2]
      exact ⟨rfl, rfl⟩

theorem genRle_zero (A A1 : RleWorker) (h : _genRle A = some (A1, 0)) :
    ∃ A2, decomposeContours A.outline A.outline.cntrs 0 A = .ok (A2, true) := by
  unfold _genRle _decomposeOutline at h
  cases hd : decomposeContours A.outline A.outline.cntrs 0 A with
  | error e =>
    rw [hd] at h
    cases e with
    | overflow rw2 =>
      simp only [Option.some.injEq, Prod.mk.injEq] at h
      omega
    | undefined => cases h
  | ok v =>
    obtain ⟨A2, ret⟩ := v
    rw [hd] at h
    dsimp only [] at h
    cases ret with
    | true => exact ⟨A2, rfl⟩
    | false =>
      exfalso
      cases hr : (if !A2.invalid then _recordCell A2 else .ok A2) with
      | error e =>
        rw [hr] at h
        cases e with
        | overflow rw2 =>
          simp only [Option.some.injEq, Prod.mk.injEq] at h
          omega
        | undefined => cases h
      | ok A3 =>
        rw [hr] at h
        simp at h

/-- On a ready worker `_genRle` runs to its end or overflows, when on each scanline of
the band it runs to its end on some worker with that scanline for its band. -/
theorem genRle_defined (B : RleWorker) (hr : Ready B) (ho : OutlineOk B.outline)
    (hS : ∀ y, B.cellMin.y ≤ y → y < B.cellMax.y →
      ∃ A A1, Single A y ∧ A.outline = B.outline ∧ _genRle A = some (A1, 0)) :
    ∃ B1 ret, _genRle B = some (B1, ret) ∧ (ret = 0 ∨ ret = -1) := by
  obtain ⟨b1, b2, b3, b4, b5⟩ := hr.1
  have hfam : ∀ y, B.cellMin.y ≤ y → y < B.cellMax.y →
      (outlineSkel B.outline B.outline.cntrs 0).2 = some true ∧
      ∃ A A1, Single A y ∧ runOps (outlineSkel B.outline B.outline.cntrs 0).1 A = .ok A1 := by
    intro y h1 h2
    obtain ⟨A, A1, hs, hout, hA⟩ := hS y h1 h2
    obtain ⟨A2, hd⟩ := genRle_zero A A1 hA
    rw [hout, decomposeContours_eq] at hd
    obtain ⟨q1, q2⟩ := finish_ok _ _ _ _ _ hd
    exact ⟨q1, A, A2, hs, q2⟩
  have hterm := (hfam B.cellMin.y (le_refl _) b4).1
  have hrun := runOps_defined_start (outlineSkel B.outline B.outline.cntrs 0).1 B hr
    (outlineSkel_ok B.outline ho _ _) (outlineSkel_head _ _ _)
    (fun y h1 h2 => (hfam y h1 h2).2)
  unfold _genRle _decomposeOutline
  rw [decomposeContours_eq]
  unfold finish
  rw [hterm]
  cases hB : runOps (outlineSkel B.outline B.outline.cntrs 0).1 B with
  | error err =>
    rw [hB] at hrun
    cases err with
    | overflow rw2 => exact ⟨rw2, -1, rfl, Or.inr rfl⟩
    | undefined => exact absurd hrun id
  | ok B2 =>
    rw [hB] at hrun
    dsimp only []
    have hrec := recordIf_defined B2 hrun.1
    cases hr2 : (if !B2.invalid then _recordCell B2 else .ok B2) with
    | error err =>
      rw [hr2] at hrec
      cases err with
      | overflow rw2 => exact ⟨rw2, -1, rfl, Or.inr rfl⟩
      | undefined => exact absurd hrec id
    | ok B3 => exact ⟨B3, 0, rfl, Or.inl rfl⟩

end ThorVG

namespace ThorVG

/-! ## The band loops run to their end -/

/-- When `rleRender` returns an RLE, each scanline of the bbox taken as a band of its
own runs to its end in `_genRle`. -/
theorem rleRenderBand_rowDone (bandSize : Int) (rle : Option SwRleData) (o : SwOutline)
    (bbox vp : SwBBox) (aa : Bool) (r : SwRleData) (hbs : 0 < bandSize) (ho : OutlineOk o)
    (hby : bbox.min.y ≤ bbox.max.y)
    (hlo : -1073741824 < bbox.min.y) (hhi : bbox.max.y < 1073741824)
    (h : rleRenderBand bandSize rle o bbox vp aa = some (some r)) :
    ∀ y, bbox.min.y ≤ y → y < bbox.max.y → RowDone o bbox y := by
  obtain ⟨rwF, hr, rfl⟩ := rleRenderBand_some _ _ _ _ _ _ _ h
  obtain ⟨yEnd, _, _, hq, hend⟩ := render_invariant
    (fun y _ => ∀ y1, bbox.min.y ≤ y1 → y1 < y → RowDone o bbox y1) bandSize rle o bbox vp aa
    rwF hbs hby
    (fun rwPrev rw0 rw band hc hb hs hg hP => by
      obtain ⟨mc, rfl, hmc⟩ := bandSetup_cells _ _ _ hs
      have hout : rwPrev.outline = o := congrArg RunConfig.outline hc
      have hx1 : rwPrev.cellMin.x = bbox.min.x := congrArg RunConfig.minX hc
      have hx2 : rwPrev.cellMax.x = bbox.max.x := congrArg RunConfig.maxX hc
      have hx3 : rwPrev.cellXCnt = bbox.max.x - bbox.min.x := congrArg RunConfig.cellXCnt hc
      obtain ⟨hb1, hb2, hb3⟩ := hb
      intro y1 h1 h2
      by_cases hlt : y1 < band.min
      · exact hP y1 h1 hlt
      · have hrow := (band_rows o bbox rwPrev rw band mc ho hout hx1 hx2 hx3 hmc (by omega)
          (by omega) hg (y1 - band.min).toNat (by omega)).1
        have e2 : band.min + (((y1 - band.min).toNat : Nat) : Int) = y1 := by omega
        rw [e2] at hrow
        exact hrow)
    (fun y1 h1 h2 => by omega) hr
  rw [hend (by omega)] at hq
  exact hq

theorem cellStartOf_small (yCnt : Int) (h1 : 1 ≤ yCnt) (h2 : yCnt ≤ 134217728) :
    0 ≤ cellStartOf yCnt ∧ sizeofCellPtr * yCnt ≤ cellStartOf yCnt := by
  unfold cellStartOf
  simp only [toI32, toU64, sizeofCell, sizeofCellPtr]
  split_ifs <;> omega

/-- For a band of at most 2^27 scanlines the pool layout of `rleRender` is defined. -/
theorem bandSetup_defined (rw : RleWorker) (band : Band) (h1 : 1 ≤ band.max - band.min)
    (h2 : band.max - band.min ≤ 134217728) :
    bandSetup rw band = .ok none ∨
      ∃ mc, bandSetup rw band = .ok (some (bandWorker rw band mc)) := by
  have hs := cellStartOf_small (band.max - band.min) h1 h2
  unfold bandSetup
  dsimp only []
  split
  · left; rfl
  · split
    · left; rfl
    · rw [if_neg (by omega)]
      exact Or.inr ⟨_, rfl⟩

/-- A band of one scanline gets `cellCap` cells. -/
theorem bandSetup_single (rw : RleWorker) (band : Band) (h1 : band.max - band.min = 1) :
    bandSetup rw band = .ok (some (bandWorker rw band cellCap)) := by
  unfold bandSetup
  dsimp only []
  rw [h1, if_neg (by decide), if_neg (by decide), if_neg (by decide)]
  rfl

theorem bandTry_of_none (rw : RleWorker) (band : Band) (h : bandSetup rw band = .ok none) :
    bandTry rw band = .ok (.reduce { rw with yCnt := band.max - band.min }) := by
  unfold bandTry
  rw [h]

theorem bandTry_of_zero (rw rw0 rw1 : RleWorker) (band : Band)
    (h : bandSetup rw band = .ok (some rw0)) (hg : _genRle rw0 = some (rw1, 0)) :
    bandTry rw band = .ok (.swept (_sweep rw1)) := by
  unfold bandTry
  rw [h]
  dsimp only []
  rw [hg]
  rfl

theorem bandTry_of_overflow (rw rw0 rw1 : RleWorker) (band : Band)
    (h : bandSetup rw band = .ok (some rw0)) (hg : _genRle rw0 = some (rw1, -1)) :
    bandTry rw band = .ok (.reduce rw1) := by
  unfold bandTry
  rw [h]
  dsimp only []
  rw [hg]
  rfl

theorem bandTry_swept_config (rw rw1 : RleWorker) (band : Band)
    (h : bandTry rw band = .ok (.swept rw1)) : configOf rw1 = configOf rw := by
  obtain ⟨rw0, rw2, hs0, hgen, rfl⟩ := bandTry_swept _ _ _ h
  rw [sweep_config]
  obtain ⟨mc, rfl, _, _⟩ := bandSetup_some _ _ _ hs0
  rw [config_of_frame (genRle_sound _ _ _ hgen).1]
  rfl

theorem bandWorker_ready (rw : RleWorker) (band : Band) (mc : Int)
    (h1 : -1073741824 ≤ band.min) (h2 : band.min < band.max) (h3 : band.max ≤ 1073741824) :
    Ready (bandWorker rw band mc) := by
  refine ⟨⟨?_, rfl, h1, h2, h3⟩, ?_⟩
  · simp [bandWorker]
  · intro hv
    simp [bandWorker] at hv

/-- One turn of the `while (band >= bands)` loop on a band of the bbox all of whose
scanlines run to their end on their own: the band is swept, or it is more than one
scanline high and is to be cut in two. -/
theorem bandTry_total (bandSize : Int) (rle : Option SwRleData) (o : SwOutline)
    (bbox vp : SwBBox) (aa : Bool) (ho : OutlineOk o)
    (hlo : -1073741824 < bbox.min.y) (hhi : bbox.max.y < 1073741824)
    (hht : bbox.max.y - bbox.min.y ≤ 134217728)
    (hrows : ∀ y, bbox.min.y ≤ y → y < bbox.max.y → RowDone o bbox y)
    (rw : RleWorker) (band : Band)
    (hc : configOf rw = configOf (initWorker bandSize rle o bbox vp aa))
    (hb1 : bbox.min.y ≤ band.min) (hb2 : band.min < band.max) (hb3 : band.max ≤ bbox.max.y) :
    (∃ rw1, bandTry rw band = .ok (.swept rw1) ∧ configOf rw1 = configOf rw) ∨
    (2 ≤ band.max - band.min ∧
      ∃ rw1, bandTry rw band = .ok (.reduce rw1) ∧ configOf rw1 = configOf rw) := by
  have hout : rw.outline = o := congrArg RunConfig.outline hc
  have hx1 : rw.cellMin.x = bbox.min.x := congrArg RunConfig.minX hc
  have hx2 : rw.cellMax.x = bbox.max.x := congrArg RunConfig.maxX hc
  have hx3 : rw.cellXCnt = bbox.max.x - bbox.min.x := congrArg RunConfig.cellXCnt hc
  by_cases h1 : band.max - band.min = 1
  · left
    have hset := bandSetup_single rw band h1
    obtain ⟨s1, hs1⟩ := hrows band.min hb1 (by omega)
    have hsim := bandWorker_simC (initWorker 0 none o bbox bbox false) rw
      ⟨band.min, band.min + 1⟩ band cellCap cellCap hout hx1
      hx2 hx3 (le_refl _) (le_of_lt hb2) (by show band.max ≤ band.min + 1; omega)
      (by show -1073741824 ≤ band.min; omega) (by show band.min + 1 ≤ 1073741824; omega)
      (le_refl _)
    obtain ⟨s2, hs2, _⟩ := genRle_sim (refWorker o bbox band.min) _ s1 ho hsim hs1
    have ht := bandTry_of_zero rw _ s2 band hset hs2
    exact ⟨_, ht, bandTry_swept_config _ _ _ ht⟩
  · rcases bandSetup_defined rw band (by omega) (by omega) with hn | ⟨mc, hsome⟩
    · right
      have ht := bandTry_of_none rw band hn
      exact ⟨by omega, _, ht, (bandTry_reduce _ _ _ ht).1⟩
    · have hready := bandWorker_ready rw band mc (by omega) hb2 (by omega)
      obtain ⟨B1, ret, hg, hret⟩ := genRle_defined (bandWorker rw band mc) hready
        (by show OutlineOk rw.outline; rw [hout]; exact ho)
        (fun y h1 h2 => by
          obtain ⟨s1, hs1⟩ := hrows y (by
            have : (bandWorker rw band mc).cellMin.y = band.min := rfl
            omega) (by
            have : (bandWorker rw band mc).cellMax.y = band.max := rfl
            omega)
          exact ⟨refWorker o bbox y, s1, ⟨rfl, rfl⟩, hout.symm, hs1⟩)
      rcases hret with rfl | rfl
      · left
        have ht := bandTry_of_zero rw _ B1 band hsome hg
        exact ⟨_, ht, bandTry_swept_config _ _ _ ht⟩
      · right
        have ht := bandTry_of_overflow rw _ B1 band hsome hg
        exact ⟨by omega, _, ht, (bandTry_reduce _ _ _ ht).1⟩

end ThorVG

namespace ThorVG

theorem bandTurns_nonneg (stk : List Band) (h : ∀ b ∈ stk, b.min < b.max) :
    0 ≤ bandTurns stk := by
  induction stk with
  | nil => exact le_refl _
  | cons b bs ih =>
    have h1 := h b (List.mem_cons_self _ _)
    have h2 := ih (fun c hc => h c (List.mem_cons_of_mem _ hc))
    unfold bandTurns
    omega

/-- The `while (band >= bands)` loop on bands of the bbox all of whose scanlines run to
their end on their own: with a turn of fuel for each band to come and no band too high
for its depth in the stack, the loop sweeps every band. -/
theorem bandLoop_total (bandSize : Int) (rle : Option SwRleData) (o : SwOutline)
    (bbox vp : SwBBox) (aa : Bool) (ho : OutlineOk o)
    (hlo : -1073741824 < bbox.min.y) (hhi : bbox.max.y < 1073741824)
    (hht : bbox.max.y - bbox.min.y ≤ 134217728)
    (hrows : ∀ y, bbox.min.y ≤ y → y < bbox.max.y → RowDone o bbox y)
    (fuel : Nat) (rw : RleWorker) (stk : List Band)
    (hc : configOf rw = configOf (initWorker bandSize rle o bbox vp aa))
    (hall : ∀ b ∈ stk, bbox.min.y ≤ b.min ∧ b.min < b.max ∧ b.max ≤ bbox.max.y)
    (hfuel : bandTurns stk ≤ fuel) (hdepth : DepthOk stk) :
    ∃ rw1, bandLoop fuel rw stk = .ok (some rw1) ∧
      configOf rw1 = configOf (initWorker bandSize rle o bbox vp aa) := by
  induction fuel generalizing rw stk with
  | zero =>
    cases stk with
    | nil => exact ⟨rw, bandLoop_nil _ _, hc⟩
    | cons b bs =>
      exfalso
      have h1 := (hall b (List.mem_cons_self _ _)).2.1
      have h2 := bandTurns_nonneg bs (fun c hc => (hall c (List.mem_cons_of_mem _ hc)).2.1)
      unfold bandTurns at hfuel
      simp only [Nat.cast_zero] at hfuel
      omega
  | succ n ih =>
    cases stk with
    | nil => exact ⟨rw, bandLoop_nil _ _, hc⟩
    | cons band below =>
      obtain ⟨hb1, hb2, hb3⟩ := hall band (List.mem_cons_self _ _)
      have hbelow := fun c hc => hall c (List.mem_cons_of_mem _ hc)
      have h2 := bandTurns_nonneg below (fun c hc => (hbelow c hc).2.1)
      have hfuel1 : 2 * (band.max - band.min) - 1 + bandTurns below ≤ (n : Int) + 1 := by
        unfold bandTurns at hfuel
        push_cast at hfuel
        exact hfuel
      obtain ⟨hd1, hd2⟩ := hdepth
      rw [bandLoop_succ]
      rcases bandTry_total bandSize rle o bbox vp aa ho hlo hhi hht hrows rw band hc hb1 hb2 hb3
        with ⟨rw1, ht, hc1⟩ | ⟨hh2, rw1, ht, hc1⟩
      · rw [ht]
        dsimp only []
        exact ih rw1 below (hc1.trans hc) hbelow (by omega) hd2
      · rw [ht]
        dsimp only []
        have hsh : shr (band.max - band.min) 1 = (band.max - band.min) / 2 := by simp [shr]
        rw [hsh, if_neg (by omega)]
        have hpos : (0 : Int) < 2 ^ below.length := pow_pos (by norm_num) _
        have hlen : below.length < 27 := by
          by_contra hcon
          have hge : (2 : Int) ^ 27 ≤ 2 ^ below.length :=
            pow_le_pow_right₀ (by norm_num) (by omega)
          have hmul : 1 * (2 : Int) ^ below.length ≤ (band.max - band.min - 1) * 2 ^ below.length :=
            mul_le_mul_of_nonneg_right (by omega) (le_of_lt hpos)
          norm_num at hge
          omega
        rw [if_neg (by simp only [BAND_SIZE]; omega)]
        refine ih (countShoot rw1 band.min band.max) _
          (((countShoot_config _ _ _).1.trans hc1).trans hc) ?_ ?_ ?_
        · intro c hc2
          simp only [List.mem_cons] at hc2
          rcases hc2 with rfl | rfl | hc2
          · exact ⟨hb1, by show band.min < band.min + (band.max - band.min) / 2; omega,
              by show band.min + (band.max - band.min) / 2 ≤ bbox.max.y; omega⟩
          · exact ⟨by show bbox.min.y ≤ band.min + (band.max - band.min) / 2; omega,
              by show band.min + (band.max - band.min) / 2 < band.max; omega, hb3⟩
          · exact hbelow c hc2
        · show 2 * (band.min + (band.max - band.min) / 2 - band.min) - 1 +
            (2 * (band.max - (band.min + (band.max - band.min) / 2)) - 1 + bandTurns below) ≤ n
          omega
        · refine ⟨?_, ?_, hd2⟩
          · show (band.min + (band.max - band.min) / 2 - band.min - 1) *
              2 ^ (below.length + 1) < 134217728
            have e : (band.min + (band.max - band.min) / 2 - band.min - 1) *
                2 ^ (below.length + 1) =
                (2 * ((band.max - band.min) / 2) - 2) * 2 ^ below.length := by
              rw [pow_succ]; ring
            rw [e]
            have hmul : (2 * ((band.max - band.min) / 2) - 2) * (2 : Int) ^ below.length ≤
                (band.max - band.min - 1) * 2 ^ below.length :=
              mul_le_mul_of_nonneg_right (by omega) (le_of_lt hpos)
            omega
          · show (band.max - (band.min + (band.max - band.min) / 2) - 1) *
              2 ^ below.length < 134217728
            have hmul : (band.max - (band.min + (band.max - band.min) / 2) - 1) *
                (2 : Int) ^ below.length ≤ (band.max - band.min - 1) * 2 ^ below.length :=
              mul_le_mul_of_nonneg_right (by omega) (le_of_lt hpos)
            omega

/-- The `for` loop over the bands of `rleRender` sweeps every band, when every scanline
of the bbox runs to its end on its own. -/
theorem renderBands_total (bandSize : Int) (rle : Option SwRleData) (o : SwOutline)
    (bbox vp : SwBBox) (aa : Bool) (ho : OutlineOk o) (hbs : 0 < bandSize)
    (hlo : -1073741824 < bbox.min.y) (hhi : bbox.max.y < 1073741824)
    (hht : bbox.max.y - bbox.min.y ≤ 134217728)
    (hrows : ∀ y, bbox.min.y ≤ y → y < bbox.max.y → RowDone o bbox y)
    (bandCnt : Int) (k : Nat) (n min : Int) (rw : RleWorker)
    (hc : configOf rw = configOf (initWorker bandSize rle o bbox vp aa))
    (hn : n + k = bandCnt) (hmin1 : bbox.min.y ≤ min) (hmin2 : 1 ≤ k → min < bbox.max.y)
    (hinv : n < bandCnt - 1 → min + (bandCnt - n) * bandSize ≤ bbox.max.y) :
    ∃ rw1, renderBands bbox.max.y bandCnt k n min rw = .ok (some rw1) := by
  induction k generalizing n min rw with
  | zero => exact ⟨rw, renderBands_zero _ _ _ _ _⟩
  | succ k ih =>
    rw [renderBands_succ]
    have hbsz : rw.bandSize = bandSize := congrArg RunConfig.bandSize hc
    rw [hbsz]
    have hm2 := hmin2 (by omega)
    generalize hmax : (if n = bandCnt - 1 ∨ min + bandSize > bbox.max.y then bbox.max.y
      else min + bandSize) = max
    have hmax1 : min < max ∧ max ≤ bbox.max.y := by
      rw [← hmax]; split_ifs with h1
      · exact ⟨hm2, le_refl _⟩
      · simp only [not_or, not_lt] at h1
        omega
    obtain ⟨rw1, hb, hc1⟩ := bandLoop_total bandSize rle o bbox vp aa ho hlo hhi hht hrows
      (2 * (max - min).toNat + 1) rw [⟨min, max⟩] hc
      (fun b hb => by
        simp only [List.mem_singleton] at hb
        subst hb
        exact ⟨hmin1, hmax1.1, hmax1.2⟩)
      (by
        show 2 * (max - min) - 1 + 0 ≤ ((2 * (max - min).toNat + 1 : Nat) : Int)
        push_cast
        omega)
      ⟨by
        show (max - min - 1) * 2 ^ 0 < 134217728
        rw [pow_zero]
        omega, trivial⟩
    rw [hb]
    dsimp only []
    have hnext : n < bandCnt - 1 → max = min + bandSize ∧ max < bbox.max.y := by
      intro hlt
      have h1 := hinv hlt
      have h2 : 2 * bandSize ≤ (bandCnt - n) * bandSize :=
        mul_le_mul_of_nonneg_right (by omega) (le_of_lt hbs)
      rw [← hmax, if_neg (by
        simp only [not_or, not_lt]
        constructor <;> omega)]
      constructor <;> omega
    refine ih (n + 1) max rw1 hc1 (by push_cast at hn ⊢; omega) (by omega) ?_ ?_
    · intro hk
      exact (hnext (by push_cast at hn; omega)).2
    · intro hlt
      obtain ⟨e, _⟩ := hnext (by omega)
      have h1 := hinv (by omega)
      have e2 : (bandCnt - n) * bandSize = bandSize + (bandCnt - (n + 1)) * bandSize := by ring
      rw [e]
      omega

/-- The band loops of `rleRender` return a worker, for any positive band size, when
every scanline of the bbox runs to its end on its own. -/
theorem renderWorker_total (bandSize : Int) (rle : Option SwRleData) (o : SwOutline)
    (bbox vp : SwBBox) (aa : Bool) (ho : OutlineOk o) (hbs : 0 < bandSize)
    (hlo : -1073741824 < bbox.min.y) (hhi : bbox.max.y < 1073741824)
    (hby : bbox.min.y < bbox.max.y) (hht : bbox.max.y - bbox.min.y ≤ 134217728)
    (hrows : ∀ y, bbox.min.y ≤ y → y < bbox.max.y → RowDone o bbox y) :
    ∃ r, rleRenderBand bandSize rle o bbox vp aa = some (some r) := by
  have hq : 0 ≤ (bbox.max.y - bbox.min.y) / bandSize ∧
      (bbox.max.y - bbox.min.y) / bandSize * bandSize ≤ bbox.max.y - bbox.min.y ∧
      (bbox.max.y - bbox.min.y) / bandSize ≤ bbox.max.y - bbox.min.y := by
    refine ⟨Int.ediv_nonneg (by omega) (by omega), Int.ediv_mul_le _ (by omega),
      Int.ediv_le_self _ (by omega)⟩
  have htd : Int.tdiv (bbox.max.y - bbox.min.y) bandSize = (bbox.max.y - bbox.min.y) / bandSize :=
    Int.tdiv_eq_ediv (by omega) (by omega)
  have hcnt : 1 ≤ bandCount (bbox.max.y - bbox.min.y) bandSize ∧
      (1 < bandCount (bbox.max.y - bbox.min.y) bandSize →
        bandCount (bbox.max.y - bbox.min.y) bandSize ≤ (bbox.max.y - bbox.min.y) / bandSize) := by
    unfold bandCount
    dsimp only []
    rw [htd, toI32_eq_self _ (by omega) (by omega)]
    simp only [BAND_SIZE]
    split_ifs <;> constructor <;> intros <;> omega
  obtain ⟨rw1, hr⟩ := renderBands_total bandSize rle o bbox vp aa ho hbs hlo hhi hht hrows
    (bandCount (bbox.max.y - bbox.min.y) bandSize)
    (bandCount (bbox.max.y - bbox.min.y) bandSize).toNat 0 bbox.min.y
    (initWorker bandSize rle o bbox vp aa) rfl (by omega) (le_refl _) (fun _ => hby)
    (by
      intro hlt
      have h1 := hcnt.2 (by omega)
      have h2 : bandCount (bbox.max.y - bbox.min.y) bandSize * bandSize ≤
          (bbox.max.y - bbox.min.y) / bandSize * bandSize :=
        mul_le_mul_of_nonneg_right h1 (le_of_lt hbs)
      rw [sub_zero]
      omega)
  refine ⟨(tuneBand rw1).rle, ?_⟩
  unfold rleRenderBand renderWorker
  dsimp only []
  have e1 : (initWorker bandSize rle o bbox vp aa).cellMax.y = bbox.max.y := rfl
  have e2 : (initWorker bandSize rle o bbox vp aa).cellMin.y = bbox.min.y := rfl
  have e3 : (initWorker bandSize rle o bbox vp aa).bandSize = bandSize := rfl
  rw [e1, e2, e3, hr]

end ThorVG

namespace ThorVG

/-! ## A bbox without scanlines -/

theorem bandSetup_other (rw rw1 : RleWorker) (band : Band) (mc : Int)
    (h : bandSetup rw band = .ok (some (bandWorker rw band mc))) :
    ∃ mc1, bandSetup rw1 band = .ok (some (bandWorker rw1 band mc1)) := by
  unfold bandSetup at h ⊢
  dsimp only [] at h ⊢
  split at h
  · cases h
  · rename_i c1
    rw [if_neg c1]
    split at h
    · cases h
    · rename_i c2
      rw [if_neg c2]
      split at h
      · cases h
      · rename_i c3
        rw [if_neg c3]
        exact ⟨_, rfl⟩

/-- For a bbox with `min.y = max.y`, `rleRender` makes one turn of the band loop, on the
band without scanlines. -/
theorem rleRenderBand_flat (bandSize : Int) (rle : Option SwRleData) (o : SwOutline)
    (bbox vp : SwBBox) (aa : Bool) (hflat : bbox.min.y = bbox.max.y) :
    rleRenderBand bandSize rle o bbox vp aa =
      match bandTry (initWorker bandSize rle o bbox vp aa) ⟨bbox.min.y, bbox.max.y⟩ with
      | .ok (.swept rw) => some (some (tuneBand rw).rle)
      | .ok (.reduce _) => some none
      | .ok .failed => some none
      | .error _ => none := by
  unfold rleRenderBand renderWorker
  dsimp only []
  have e1 : (initWorker bandSize rle o bbox vp aa).cellMax.y = bbox.max.y := rfl
  have e2 : (initWorker bandSize rle o bbox vp aa).cellMin.y = bbox.min.y := rfl
  have e3 : (initWorker bandSize rle o bbox vp aa).bandSize = bandSize := rfl
  have hcnt : bandCount (bbox.max.y - bbox.min.y) bandSize = 1 := by
    rw [hflat, sub_self]
    unfold bandCount
    simp [toI32]
  rw [e1, e2, e3, hcnt]
  have e4 : (1 : Int).toNat = 0 + 1 := rfl
  rw [e4, renderBands_succ, e3]
  rw [if_pos (Or.inl (by norm_num))]
  have e5 : 2 * (bbox.max.y - bbox.min.y).toNat + 1 = 0 + 1 := by
    rw [hflat, sub_self]
    rfl
  rw [e5, bandLoop_succ]
  cases ht : bandTry (initWorker bandSize rle o bbox vp aa) ⟨bbox.min.y, bbox.max.y⟩ with
  | error e => rfl
  | ok v =>
    cases v with
    | swept rw1 =>
      dsimp only []
      rw [bandLoop_nil]
      rfl
    | failed => rfl
    | reduce rw1 =>
      dsimp only []
      have hsh : shr (bbox.max.y - bbox.min.y) 1 = 0 := by
        rw [hflat, sub_self]
        simp [shr]
      rw [hsh, if_pos (by omega)]

/-- For a bbox with `min.y = max.y`, when `rleRender` returns an RLE it does so with any
other band size. -/
theorem rleRenderBand_flat_total (bs1 bs2 : Int) (rle : Option SwRleData) (o : SwOutline)
    (bbox vp : SwBBox) (aa : Bool) (r1 : SwRleData) (ho : OutlineOk o)
    (hflat : bbox.min.y = bbox.max.y)
    (hlo : -1073741824 < bbox.min.y) (hhi : bbox.max.y < 1073741824)
    (hr1 : rleRenderBand bs1 rle o bbox vp aa = some (some r1)) :
    ∃ r2, rleRenderBand bs2 rle o bbox vp aa = some (some r2) := by
  rw [rleRenderBand_flat bs1 rle o bbox vp aa hflat] at hr1
  rw [rleRenderBand_flat bs2 rle o bbox vp aa hflat]
  cases ht : bandTry (initWorker bs1 rle o bbox vp aa) ⟨bbox.min.y, bbox.max.y⟩ with
  | error e => rw [ht] at hr1; cases hr1
  | ok v =>
    rw [ht] at hr1
    cases v with
    | failed => cases hr1
    | reduce rw1 => cases hr1
    | swept rw1 =>
      obtain ⟨rw0, rw2, hs0, hgen, _⟩ := bandTry_swept _ _ _ ht
      obtain ⟨mc, rfl, _, hf0⟩ := bandSetup_some _ _ _ hs0
      obtain ⟨mc1, hs1⟩ := bandSetup_other _ (initWorker bs2 rle o bbox vp aa) _ _ hs0
      have hmc : mc1 = mc := by
        obtain ⟨mc2, he, _, hf2⟩ := bandSetup_some _ _ _ hs1
        have e12 : mc1 = mc2 := congrArg RleWorker.maxCells he
        rw [e12, hf2, hf0]
      have hsim := bandWorker_simC (initWorker bs1 rle o bbox vp aa)
        (initWorker bs2 rle o bbox vp aa) ⟨bbox.min.y, bbox.max.y⟩ ⟨bbox.min.y, bbox.max.y⟩
        mc mc1 rfl rfl rfl rfl (le_refl _) (le_of_eq hflat) (le_refl _)
        (by show -1073741824 ≤ bbox.min.y; omega) (by show bbox.max.y ≤ 1073741824; omega)
        (le_of_eq hmc.symm)
      obtain ⟨s1, hs, _⟩ := genRle_sim _ _ rw2 ho hsim hgen
      rw [bandTry_of_zero _ _ s1 _ hs1 hs]
      exact ⟨_, rfl⟩

end ThorVG

namespace ThorVG

/-! ## The rect clip -/

theorem rectLoop_nil (minx miny maxx maxy : Int) (cnt : Nat) :
    rectLoop minx miny maxx maxy cnt [] = [] := by
  cases cnt <;> rfl

theorem rectLoop_cons (minx miny maxx maxy : Int) (cnt : Nat) (s : SwSpan) (rest : List SwSpan) :
    rectLoop minx miny maxx maxy (cnt + 1) (s :: rest) =
      if s.y > maxy then []
      else if s.y < miny ∨ s.x > maxx ∨ s.x + s.len ≤ minx then
        rectLoop minx miny maxx maxy (cnt + 1) rest
      else if (if s.x < minx then
            toU16 (if s.len - (minx - s.x) < maxx - minx + 1 then s.len - (minx - s.x)
              else maxx - minx + 1)
          else toU16 (if s.len < maxx - s.x + 1 then s.len else maxx - s.x + 1)) ≠ 0 then
        ⟨if s.x < minx then minx else s.x, s.y,
          if s.x < minx then
            toU16 (if s.len - (minx - s.x) < maxx - minx + 1 then s.len - (minx - s.x)
              else maxx - minx + 1)
          else toU16 (if s.len < maxx - s.x + 1 then s.len else maxx - s.x + 1),
          s.coverage⟩ :: rectLoop minx miny maxx maxy cnt rest
      else rectLoop minx miny maxx maxy cnt rest := rfl

/-- The loop of `_intersectSpansRect` writes at most `spanCnt` spans, and at most one
for each span of the target. -/
theorem rectLoop_length (minx miny maxx maxy : Int) (cnt : Nat) (l : List SwSpan) :
    (rectLoop minx miny maxx maxy cnt l).length ≤ cnt ∧
    (rectLoop minx miny maxx maxy cnt l).length ≤ l.length := by
  induction l generalizing cnt with
  | nil => rw [rectLoop_nil]; exact ⟨Nat.zero_le _, Nat.zero_le _⟩
  | cons s rest ih =>
    cases cnt with
    | zero => exact ⟨Nat.zero_le _, Nat.zero_le _⟩
    | succ c =>
      rw [rectLoop_cons]
      have h1 := ih (c + 1)
      have h2 := ih c
      split_ifs <;> simp only [List.length_cons, List.length_nil] <;> omega

theorem clipRectSpec_cons (B : SwBBox) (s : SwSpan) (rest : List SwSpan) :
    clipRectSpec B (s :: rest) =
      match clipSpan B s with
      | none => clipRectSpec B rest
      | some o => o :: clipRectSpec B rest := by
  unfold clipRectSpec
  rw [List.filterMap_cons]
  cases clipSpan B s <;> rfl

theorem clipRectSpec_above (B : SwBBox) (l : List SwSpan) (h : ∀ s ∈ l, B.max.y ≤ s.y) :
    clipRectSpec B l = [] := by
  induction l with
  | nil => rfl
  | cons s rest ih =>
    rw [clipRectSpec_cons]
    have hs := h s (List.mem_cons_self _ _)
    have e : clipSpan B s = none := by
      unfold clipSpan
      rw [if_neg (by omega)]
    rw [e]
    exact ih (fun t ht => h t (List.mem_cons_of_mem _ ht))

/-- On a bbox that fits and spans in order of their scanlines, the loop of
`_intersectSpansRect` writes the parts of the spans inside the bbox. -/
theorem rectLoop_spec (B : SwBBox) (hB : BoxFits B) (l : List SwSpan) (cnt : Nat)
    (hlen : l.length ≤ cnt) (hsorted : l.Pairwise (fun a b => a.y ≤ b.y))
    (hbits : ∀ s ∈ l, SpanBits s) :
    rectLoop B.min.x B.min.y (B.max.x - 1) (B.max.y - 1) cnt l = clipRectSpec B l := by
  obtain ⟨b1, b2, b3, b4, b5, b6, b7, b8⟩ := hB
  induction l generalizing cnt with
  | nil => rw [rectLoop_nil]; rfl
  | cons s rest ih =>
    cases cnt with
    | zero => simp at hlen
    | succ c =>
      have hrest : rest.length ≤ c := by simpa using hlen
      obtain ⟨hs1, hs2⟩ := List.pairwise_cons.mp hsorted
      obtain ⟨s1, s2, s3, s4, s5, s6, s7, s8⟩ := hbits s (List.mem_cons_self _ _)
      have hb2 := fun t ht => hbits t (List.mem_cons_of_mem _ ht)
      rw [rectLoop_cons]
      by_cases c1 : s.y > B.max.y - 1
      · rw [if_pos c1]
        symm
        apply clipRectSpec_above
        intro t ht
        rcases List.mem_cons.mp ht with rfl | ht
        · omega
        · have := hs1 t ht
          omega
      rw [if_neg c1, clipRectSpec_cons]
      by_cases c2 : s.y < B.min.y ∨ s.x > B.max.x - 1 ∨ s.x + s.len ≤ B.min.x
      · rw [if_pos c2]
        have e : clipSpan B s = none := by
          unfold clipSpan
          rw [if_neg]
          intro ⟨h1, h2, h3⟩
          split_ifs at h3 <;> omega
        rw [e]
        exact ih (c + 1) (by omega) hs2 hb2
      rw [if_neg c2]
      simp only [not_or, not_lt, not_le] at c2
      obtain ⟨c21, c22, c23⟩ := c2
      by_cases c3 : s.x < B.min.x
      · simp only [if_pos c3]
        by_cases c4 : s.len - (B.min.x - s.x) < B.max.x - 1 - B.min.x + 1
        · simp only [if_pos c4]
          have ev : toU16 (s.len - (B.min.x - s.x)) = s.len - (B.min.x - s.x) := by
            unfold toU16; omega
          rw [ev, if_pos (by omega)]
          have e : clipSpan B s = some ⟨B.min.x, s.y, s.len - (B.min.x - s.x), s.coverage⟩ := by
            unfold clipSpan
            rw [if_pos ⟨by omega, by omega, by rw [if_pos c3, if_pos (by omega)]; omega⟩]
            simp only [if_pos c3]
            rw [if_pos (by omega)]
            congr 2
            omega
          rw [e]
          dsimp only []
          rw [ih c hrest hs2 hb2]
        · simp only [if_neg c4]
          have ev : toU16 (B.max.x - 1 - B.min.x + 1) = B.max.x - B.min.x := by
            unfold toU16; omega
          rw [ev]
          by_cases c5 : B.max.x - B.min.x ≠ 0
          · rw [if_pos c5]
            have e : clipSpan B s = some ⟨B.min.x, s.y, B.max.x - B.min.x, s.coverage⟩ := by
              unfold clipSpan
              rw [if_pos ⟨by omega, by omega, by rw [if_pos c3, if_neg (by omega)]; omega⟩]
              simp only [if_pos c3]
              rw [if_neg (by omega)]
            rw [e]
            dsimp only []
            rw [ih c hrest hs2 hb2]
          · rw [if_neg c5]
            have e : clipSpan B s = none := by
              unfold clipSpan
              rw [if_neg]
              intro ⟨h1, h2, h3⟩
              split_ifs at h3 <;> omega
            rw [e]
            exact ih c hrest hs2 hb2
      · simp only [if_neg c3]
        by_cases c4 : s.len < B.max.x - 1 - s.x + 1
        · simp only [if_pos c4]
          have ev : toU16 s.len = s.len := by unfold toU16; omega
          rw [ev]
          by_cases c5 : s.len ≠ 0
          · rw [if_pos c5]
            have e : clipSpan B s = some ⟨s.x, s.y, s.len, s.coverage⟩ := by
              unfold clipSpan
              rw [if_pos ⟨by omega, by omega, by rw [if_neg c3, if_pos (by omega)]; omega⟩]
              simp only [if_neg c3]
              rw [if_pos (by omega)]
              congr 2
              omega
            rw [e]
            dsimp only []
            rw [ih c hrest hs2 hb2]
          · rw [if_neg c5]
            have e : clipSpan B s = none := by
              unfold clipSpan
              rw [if_neg]
              intro ⟨h1, h2, h3⟩
              split_ifs at h3 <;> omega
            rw [e]
            exact ih c hrest hs2 hb2
        · simp only [if_neg c4]
          have ev : toU16 (B.max.x - 1 - s.x + 1) = B.max.x - s.x := by
            unfold toU16; omega
          rw [ev, if_pos (by omega)]
          have e : clipSpan B s = some ⟨s.x, s.y, B.max.x - s.x, s.coverage⟩ := by
            unfold clipSpan
            rw [if_pos ⟨by omega, by omega, by rw [if_neg c3, if_neg (by omega)]; omega⟩]
            simp only [if_neg c3]
            rw [if_neg (by omega)]
          rw [e]
          dsimp only []
          rw [ih c hrest hs2 hb2]

theorem intersectSpansRect_fits (B : SwBBox) (hB : BoxFits B) (rle : SwRleData) (cnt : Nat) :
    _intersectSpansRect B rle cnt =
      rectLoop B.min.x B.min.y (B.max.x - 1) (B.max.y - 1) cnt rle.spans := by
  obtain ⟨b1, b2, b3, b4, b5, b6, b7, b8⟩ := hB
  unfold _intersectSpansRect
  dsimp only []
  have e1 : toI16 B.min.x = B.min.x := by unfold toI16; omega
  have e2 : toI16 B.min.y = B.min.y := by unfold toI16; omega
  have e3 : toI16 (B.max.x - B.min.x) = B.max.x - B.min.x := by unfold toI16; omega
  have e4 : toI16 (B.max.y - B.min.y) = B.max.y - B.min.y := by unfold toI16; omega
  rw [e1, e2, e3, e4]
  congr 1 <;> omega

/-- Spans that lie in the bbox and are not empty are written as they are. -/
theorem rectLoop_inside (B : SwBBox) (l : List SwSpan) (cnt : Nat) (hlen : l.length ≤ cnt)
    (hin : ∀ s ∈ l, InBox B s) (hbits : ∀ s ∈ l, SpanBits s) :
    rectLoop B.min.x B.min.y (B.max.x - 1) (B.max.y - 1) cnt l = l := by
  induction l generalizing cnt with
  | nil => rw [rectLoop_nil]
  | cons s rest ih =>
    cases cnt with
    | zero => simp at hlen
    | succ c =>
      have hrest : rest.length ≤ c := by simpa using hlen
      obtain ⟨i1, i2, i3, i4, i5⟩ := hin s (List.mem_cons_self _ _)
      obtain ⟨s1, s2, s3, s4, s5, s6, s7, s8⟩ := hbits s (List.mem_cons_self _ _)
      rw [rectLoop_cons, if_neg (by omega), if_neg (by omega)]
      simp only [if_neg (by omega : ¬ s.x < B.min.x)]
      have ev : toU16 (if s.len < B.max.x - 1 - s.x + 1 then s.len else B.max.x - 1 - s.x + 1)
          = s.len := by
        unfold toU16
        split_ifs <;> omega
      rw [ev, if_pos (by omega), ih c hrest (fun t ht => hin t (List.mem_cons_of_mem _ ht))
        (fun t ht => hbits t (List.mem_cons_of_mem _ ht))]

/-- On a bbox that fits, every span the loop of `_intersectSpansRect` writes lies in the
bbox, is not empty, and has fields of the machine types. -/
theorem rectLoop_inBox (B : SwBBox) (hB : BoxFits B) (l : List SwSpan) (cnt : Nat)
    (hbits : ∀ s ∈ l, SpanBits s) :
    ∀ o ∈ rectLoop B.min.x B.min.y (B.max.x - 1) (B.max.y - 1) cnt l, InBox B o ∧ SpanBits o := by
  obtain ⟨b1, b2, b3, b4, b5, b6, b7, b8⟩ := hB
  induction l generalizing cnt with
  | nil => rw [rectLoop_nil]; intro o ho; cases ho
  | cons s rest ih =>
    cases cnt with
    | zero => intro o ho; cases ho
    | succ c =>
      obtain ⟨s1, s2, s3, s4, s5, s6, s7, s8⟩ := hbits s (List.mem_cons_self _ _)
      have hb2 := fun t ht => hbits t (List.mem_cons_of_mem _ ht)
      rw [rectLoop_cons]
      by_cases c1 : s.y > B.max.y - 1
      · rw [if_pos c1]; intro o ho; cases ho
      rw [if_neg c1]
      by_cases c2 : s.y < B.min.y ∨ s.x > B.max.x - 1 ∨ s.x + s.len ≤ B.min.x
      · rw [if_pos c2]; exact ih (c + 1) hb2
      rw [if_neg c2]
      simp only [not_or, not_lt, not_le] at c2
      obtain ⟨c21, c22, c23⟩ := c2
      by_cases c3 : s.x < B.min.x
      · simp only [if_pos c3]
        generalize hv : (if s.len - (B.min.x - s.x) < B.max.x - 1 - B.min.x + 1 then
          s.len - (B.min.x - s.x) else B.max.x - 1 - B.min.x + 1) = v
        have hvb : 0 ≤ v ∧ v ≤ B.max.x - B.min.x ∧ v ≤ 65535 := by
          rw [← hv]; split_ifs <;> omega
        have ev : toU16 v = v := by unfold toU16; omega
        rw [ev]
        by_cases hne : v ≠ 0
        · rw [if_pos hne]
          intro o ho
          rcases List.mem_cons.mp ho with rfl | ho
          · unfold InBox SpanBits
            dsimp only []
            omega
          · exact ih c hb2 o ho
        · rw [if_neg hne]
          exact ih c hb2
      · simp only [if_neg c3]
        generalize hv : (if s.len < B.max.x - 1 - s.x + 1 then s.len
          else B.max.x - 1 - s.x + 1) = v
        have hvb : 0 ≤ v ∧ v ≤ B.max.x - s.x ∧ v ≤ 65535 := by
          rw [← hv]; split_ifs <;> omega
        have ev : toU16 v = v := by unfold toU16; omega
        rw [ev]
        by_cases hne : v ≠ 0
        · rw [if_pos hne]
          intro o ho
          rcases List.mem_cons.mp ho with rfl | ho
          · unfold InBox SpanBits
            dsimp only []
            omega
          · exact ih c hb2 o ho
        · rw [if_neg hne]
          exact ih c hb2

/-- Each span of a list lies in the bounding box of the list. -/
theorem bboxOf_mem (l : List SwSpan) (s : SwSpan) (hs : s ∈ l) :
    (bboxOf l).min.x ≤ s.x ∧ s.x + s.len ≤ (bboxOf l).max.x ∧
    (bboxOf l).min.y ≤ s.y ∧ s.y + 1 ≤ (bboxOf l).max.y := by
  induction l with
  | nil => cases hs
  | cons a rest ih =>
    cases rest with
    | nil =>
      simp only [List.mem_singleton] at hs
      subst hs
      simp [bboxOf]
    | cons t rest2 =>
      unfold bboxOf
      dsimp only []
      rcases List.mem_cons.mp hs with rfl | hs2
      · split_ifs <;> omega
      · have := ih hs2
        split_ifs <;> omega

/-- The corner `min` of the bounding box is not below any bound that holds of every
span. -/
theorem bboxOf_min (l : List SwSpan) (hne : l ≠ []) (lx ly : Int)
    (h : ∀ s ∈ l, lx ≤ s.x ∧ ly ≤ s.y) :
    lx ≤ (bboxOf l).min.x ∧ ly ≤ (bboxOf l).min.y := by
  induction l with
  | nil => exact absurd rfl hne
  | cons a rest ih =>
    have ha := h a (List.mem_cons_self _ _)
    cases rest with
    | nil => exact ha
    | cons t rest2 =>
      have := ih (by simp) (fun s hs => h s (List.mem_cons_of_mem _ hs))
      unfold bboxOf
      dsimp only []
      split_ifs <;> omega

/-- On a bbox that fits, `rleClipRect` on a target that is not empty returns the spans
its loop writes, with size and alloc their number. -/
theorem rleClipRect_eq (rle : SwRleData) (B : SwBBox) (hB : BoxFits B) (hne : rle.size ≠ 0) :
    rleClipRect rle B =
      some ⟨rectLoop B.min.x B.min.y (B.max.x - 1) (B.max.y - 1) rle.size rle.spans,
        (rectLoop B.min.x B.min.y (B.max.x - 1) (B.max.y - 1) rle.size rle.spans).length⟩ := by
  unfold rleClipRect
  rw [if_neg hne]
  dsimp only []
  rw [intersectSpansRect_fits B hB,
    if_neg (not_lt.mpr (rectLoop_length _ _ _ _ rle.size rle.spans).1)]
  rfl

theorem rleClipRect_size_zero (rle : SwRleData) (B : SwBBox) (h : rle.size = 0) :
    rleClipRect rle B = some rle := by
  unfold rleClipRect
  rw [if_pos h]

/-- On a bbox that fits, a second `rleClipRect` with the same bbox changes nothing. -/
theorem rleClipRect_twice (rle : SwRleData) (B : SwBBox) (hB : BoxFits B)
    (hbits : ∀ s ∈ rle.spans, SpanBits s) :
    (rleClipRect rle B).bind (fun r => rleClipRect r B) = rleClipRect rle B := by
  by_cases hne : rle.size = 0
  · rw [rleClipRect_size_zero rle B hne, Option.some_bind, rleClipRect_size_zero rle B hne]
  · rw [rleClipRect_eq rle B hB hne, Option.some_bind]
    generalize hl : rectLoop B.min.x B.min.y (B.max.x - 1) (B.max.y - 1) rle.size rle.spans = l
    have hin := rectLoop_inBox B hB rle.spans rle.size hbits
    rw [hl] at hin
    by_cases hz : (⟨l, l.length⟩ : SwRleData).size = 0
    · exact rleClipRect_size_zero _ B hz
    · rw [rleClipRect_eq _ B hB hz]
      have e : rectLoop B.min.x B.min.y (B.max.x - 1) (B.max.y - 1)
          (⟨l, l.length⟩ : SwRleData).size (⟨l, l.length⟩ : SwRleData).spans = l :=
        rectLoop_inside B l _ (le_refl _) (fun s hs => (hin s hs).1) (fun s hs => (hin s hs).2)
      rw [e]

/-- The bounding box of spans that are not empty, when it is at most 32767 wide and
high, fits. -/
theorem bboxOf_fits (l : List SwSpan) (hne : l ≠ []) (hbits : ∀ s ∈ l, SpanBits s)
    (hw : (bboxOf l).max.x - (bboxOf l).min.x ≤ 32767)
    (hh : (bboxOf l).max.y - (bboxOf l).min.y ≤ 32767) : BoxFits (bboxOf l) := by
  obtain ⟨a, rest, rfl⟩ := List.exists_cons_of_ne_nil hne
  have hm := bboxOf_mem (a :: rest) a (List.mem_cons_self _ _)
  have hlow := bboxOf_min (a :: rest) hne (-32768) (-32768)
    (fun s hs => ⟨(hbits s hs).1, (hbits s hs).2.2.1⟩)
  obtain ⟨s1, s2, s3, s4, s5, s6, s7, s8⟩ := hbits a (List.mem_cons_self _ _)
  unfold BoxFits
  omega

/-- Clipping spans that are not empty to their own bounding box, when it is at most
32767 wide and high, returns them. -/
theorem rleClipRect_own_bbox (rle : SwRleData) (hne : rle.size ≠ 0)
    (hbits : ∀ s ∈ rle.spans, SpanBits s) (hlen : ∀ s ∈ rle.spans, 1 ≤ s.len)
    (hw : (bboxOf rle.spans).max.x - (bboxOf rle.spans).min.x ≤ 32767)
    (hh : (bboxOf rle.spans).max.y - (bboxOf rle.spans).min.y ≤ 32767) :
    rleClipRect rle (bboxOf rle.spans) = some ⟨rle.spans, rle.size⟩ := by
  have hnil : rle.spans ≠ [] := by
    intro h
    apply hne
    unfold SwRleData.size
    rw [h]
    rfl
  have hB := bboxOf_fits rle.spans hnil hbits hw hh
  rw [rleClipRect_eq rle _ hB hne]
  have e := rectLoop_inside (bboxOf rle.spans) rle.spans rle.size (le_refl _)
    (fun s hs => by
      have := bboxOf_mem rle.spans s hs
      have := hlen s hs
      unfold InBox
      omega) hbits
  rw [e]
  rfl

end ThorVG

namespace ThorVG

/-! ## The path clip: how many spans it writes -/

theorem regionRow_nil (s : SwSpan) (next : Nat → List SwSpan → List SwSpan) (cnt : Nat) :
    regionRow s next cnt [] = [] := by
  cases cnt <;> rfl

theorem regionRow_cons (s : SwSpan) (next : Nat → List SwSpan → List SwSpan) (cnt : Nat)
    (c : SwSpan) (cs : List SwSpan) :
    regionRow s next (cnt + 1) (c :: cs) =
      if c.y > s.y then next (cnt + 1) (c :: cs)
      else if s.y ≠ c.y then regionRow s next (cnt + 1) cs
      else if c.x < s.x ∧ c.x + c.len < s.x then regionRow s next (cnt + 1) cs
      else if s.x < c.x ∧ s.x + s.len < c.x then next (cnt + 1) (c :: cs)
      else if (if s.x + s.len < c.x + c.len then s.x + s.len else c.x + c.len) -
          (if s.x > c.x then s.x else c.x) ≠ 0 then
        regionSpan s c ::
          (if s.x + s.len < c.x + c.len then next cnt (c :: cs) else regionRow s next cnt cs)
      else if s.x + s.len < c.x + c.len then next (cnt + 1) (c :: cs)
      else regionRow s next (cnt + 1) cs := rfl

/-- The part of the loop of `_intersectSpansRegion` on one target span writes at most
`spanCnt` spans, when the rest of the loop does. -/
theorem regionRow_length (s : SwSpan) (next : Nat → List SwSpan → List SwSpan)
    (hnext : ∀ n cl, (next n cl).length ≤ n) (cs : List SwSpan) (cnt : Nat) :
    (regionRow s next cnt cs).length ≤ cnt := by
  induction cs generalizing cnt with
  | nil => rw [regionRow_nil]; exact Nat.zero_le _
  | cons c cs ih =>
    cases cnt with
    | zero => exact Nat.zero_le _
    | succ n =>
      rw [regionRow_cons]
      have h1 := ih (n + 1)
      have h2 := ih n
      have h3 := hnext (n + 1) (c :: cs)
      have h4 := hnext n (c :: cs)
      split_ifs <;> (try simp only [List.length_cons]) <;> omega

/-- The loop of `_intersectSpansRegion` writes at most `spanCnt` spans. -/
theorem regionLoop_length (l : List SwSpan) (cnt : Nat) (clips : List SwSpan) :
    (regionLoop l cnt clips).length ≤ cnt := by
  induction l generalizing cnt clips with
  | nil => exact Nat.zero_le _
  | cons s rest ih =>
    exact regionRow_length s (fun n cl => regionLoop rest n cl) (fun n cl => ih n cl) clips cnt

/-- The function `rleClipPath` returns an RLE of at most `max(|T|, |C|)` spans, with
alloc its size: no span is written past the output array. -/
theorem rleClipPath_some (rle clip : SwRleData) (hne : ¬ (rle.size = 0 ∨ clip.size = 0)) :
    rleClipPath rle clip =
      some ⟨_intersectSpansRegion clip rle (if rle.size > clip.size then rle.size else clip.size),
        (_intersectSpansRegion clip rle
          (if rle.size > clip.size then rle.size else clip.size)).length⟩ := by
  unfold rleClipPath
  rw [if_neg hne]
  dsimp only []
  have hlen : (_intersectSpansRegion clip rle
      (if rle.size > clip.size then rle.size else clip.size)).length ≤
      (if rle.size > clip.size then rle.size else clip.size) := regionLoop_length _ _ _
  rw [if_neg (not_lt.mpr hlen)]
  rfl

end ThorVG

namespace ThorVG

/-! ## The tags of an outline and the exit of `_decomposeOutline` -/

theorem tags_cons (l : List Nat) (i k : Nat) (h : i < l.length) :
    (l.drop i).take (k + 1) = l[i] :: (l.drop (i + 1)).take k := by
  rw [List.drop_eq_getElem_cons h, List.take_succ_cons]

/-- The loop over the points of a contour leaves by `goto invalid_outline` when the tags
that follow hold a CUBIC control point without a second CUBIC after it, and by the end
of the contour otherwise. -/
theorem contourSkel_exit (o : SwOutline) (hlen : o.types.length = o.pts.length)
    (htag : ∀ t ∈ o.types, t = SW_CURVE_TYPE_POINT ∨ t = SW_CURVE_TYPE_CUBIC)
    (limit : Nat) (hlim : limit < o.pts.length) (start : SwPoint) (fuel pt k : Nat)
    (hk : pt + k = limit) (hfuel : k + 1 ≤ fuel) :
    (strayControl .onCurve ((o.types.drop (pt + 1)).take k) = true →
      (contourSkel o limit start fuel pt).2 = some .invalid) ∧
    (strayControl .onCurve ((o.types.drop (pt + 1)).take k) = false →
      (contourSkel o limit start fuel pt).2 = some .line ∨
      (contourSkel o limit start fuel pt).2 = some .close) := by
  induction fuel generalizing pt k with
  | zero => omega
  | succ n ih =>
    unfold contourSkel
    cases k with
    | zero =>
      have h0 : ¬ pt < limit := by omega
      simp only [if_neg h0, List.take_zero]
      exact ⟨fun h => by simp [strayControl] at h, fun _ => by simp⟩
    | succ k1 =>
      have h0 : pt < limit := by omega
      simp only [if_pos h0]
      have hi0 : pt + 1 < o.types.length := by omega
      have hj0 : pt + 1 < o.pts.length := by omega
      rw [List.getElem?_eq_getElem hi0, List.getElem?_eq_getElem hj0, tags_cons _ _ _ hi0]
      dsimp only []
      by_cases ht : o.types[pt + 1] = SW_CURVE_TYPE_POINT
      · simp only [if_pos ht]
        have hs : strayControl .onCurve (o.types[pt + 1] :: (o.types.drop (pt + 1 + 1)).take k1) =
            strayControl .onCurve ((o.types.drop (pt + 1 + 1)).take k1) := by
          rw [ht]
          rfl
        rw [hs]
        exact ih (pt + 1) k1 (by omega) (by omega)
      · simp only [if_neg ht]
        have htc : o.types[pt + 1] = SW_CURVE_TYPE_CUBIC := by
          rcases htag _ (List.getElem_mem hi0) with h | h
          · exact absurd h ht
          · exact h
        have hs : strayControl .onCurve (o.types[pt + 1] :: (o.types.drop (pt + 1 + 1)).take k1) =
            strayControl .control1 ((o.types.drop (pt + 1 + 1)).take k1) := by
          rw [htc]
          rfl
        rw [hs]
        cases k1 with
        | zero =>
          have h1 : pt + 1 + 1 > limit := by omega
          simp only [if_pos h1, List.take_zero]
          exact ⟨fun _ => by simp, fun h => by simp [strayControl] at h⟩
        | succ k2 =>
          have h1 : ¬ pt + 1 + 1 > limit := by omega
          simp only [if_neg h1]
          have hi1 : pt + 1 + 1 < o.types.length := by omega
          have hj1 : pt + 1 + 1 < o.pts.length := by omega
          rw [List.getElem?_eq_getElem hi1, List.getElem?_eq_getElem hj1, tags_cons _ _ _ hi1]
          dsimp only []
          by_cases ht1 : o.types[pt + 1 + 1] ≠ SW_CURVE_TYPE_CUBIC
          · simp only [if_pos ht1]
            have hs1 : strayControl .control1
                (o.types[pt + 1 + 1] :: (o.types.drop (pt + 1 + 1 + 1)).take k2) = true := by
              unfold strayControl
              rw [if_neg ht1]
            rw [hs1]
            exact ⟨fun _ => by simp, fun h => by simp at h⟩
          · simp only [if_neg ht1]
            have ht1c : o.types[pt + 1 + 1] = SW_CURVE_TYPE_CUBIC := not_not.mp ht1
            have hs1 : strayControl .control1
                (o.types[pt + 1 + 1] :: (o.types.drop (pt + 1 + 1 + 1)).take k2) =
                strayControl .control2 ((o.types.drop (pt + 1 + 1 + 1)).take k2) := by
              rw [ht1c]
              rfl
            rw [hs1]
            cases k2 with
            | zero =>
              have h3 : ¬ pt + 1 + 2 ≤ limit := by omega
              simp only [if_neg h3, List.take_zero]
              exact ⟨fun h => by simp [strayControl] at h, fun _ => by simp⟩
            | succ k3 =>
              have h3 : pt + 1 + 2 ≤ limit := by omega
              simp only [if_pos h3]
              have hi2 : pt + 1 + 1 + 1 < o.types.length := by omega
              have hj2 : pt + 1 + 2 < o.pts.length := by omega
              rw [List.getElem?_eq_getElem hj2, tags_cons _ _ _ hi2]
              dsimp only []
              have hs2 : strayControl .control2
                  (o.types[pt + 1 + 1 + 1] :: (o.types.drop (pt + 1 + 1 + 1 + 1)).take k3) =
                  strayControl .onCurve ((o.types.drop (pt + 1 + 2 + 1)).take k3) := rfl
              rw [hs2]
              exact ih (pt + 1 + 2) k3 (by omega) (by omega)

/-- The return value of `_decomposeOutline` on a well-formed outline, were every call
it makes to return: false when one of the contours is invalid and true otherwise. -/
theorem outlineSkel_exit (o : SwOutline) (hlen : o.types.length = o.pts.length)
    (htag : ∀ t ∈ o.types, t = SW_CURVE_TYPE_POINT ∨ t = SW_CURVE_TYPE_CUBIC)
    (cs : List Nat) (first : Nat) (hfr : framedFrom o cs first = true) :
    (outlineSkel o cs first).2 = some (!invalidFrom o cs first) := by
  induction cs generalizing first with
  | nil => rfl
  | cons last more ih =>
    unfold framedFrom at hfr
    simp only [Bool.and_eq_true, decide_eq_true_eq] at hfr
    obtain ⟨⟨hfl, hlast⟩, hmore⟩ := hfr
    have hi : first < o.types.length := by omega
    have hj : first < o.pts.length := by omega
    have hsub : last + 1 - first = (last - first) + 1 := by omega
    unfold outlineSkel invalidFrom contourTags
    rw [List.getElem?_eq_getElem hi, List.getElem?_eq_getElem hj, hsub, tags_cons _ _ _ hi]
    dsimp only []
    by_cases ht : o.types[first] = SW_CURVE_TYPE_CUBIC
    · simp only [if_pos ht]
      simp [invalidContour, ht]
    · simp only [if_neg ht]
      have hx := contourSkel_exit o hlen htag last hlast (UPSCALE o.pts[first])
        (last - first + 1) first (last - first) (by omega) (le_refl _)
      have hic : invalidContour (o.types[first] :: (o.types.drop (first + 1)).take (last - first)) =
          strayControl .onCurve ((o.types.drop (first + 1)).take (last - first)) := by
        simp [invalidContour, ht]
      rw [hic]
      cases hs : strayControl .onCurve ((o.types.drop (first + 1)).take (last - first)) with
      | true =>
        rw [hx.1 hs]
        rfl
      | false =>
        rcases hx.2 hs with h | h
        · rw [h]
          dsimp only []
          rw [ih (last + 1) hmore]
          rfl
        · rw [h]
          dsimp only []
          rw [ih (last + 1) hmore]
          rfl

theorem curvesOk_not_stray (l : List Nat) (st : TagAt) (h : curvesOk st l = true) :
    strayControl st l = false := by
  induction l generalizing st with
  | nil => cases st <;> simp_all [curvesOk, strayControl]
  | cons t rest ih =>
    cases st with
    | onCurve =>
      unfold curvesOk at h
      unfold strayControl
      by_cases h0 : t = SW_CURVE_TYPE_POINT
      · rw [if_pos h0] at h
        have hne : t ≠ SW_CURVE_TYPE_CUBIC := by rw [h0]; decide
        rw [if_neg hne]
        exact ih _ h
      · rw [if_neg h0] at h
        by_cases h1 : t = SW_CURVE_TYPE_CUBIC
        · rw [if_pos h1] at h
          rw [if_pos h1]
          exact ih _ h
        · rw [if_neg h1] at h
          cases h
    | control1 =>
      unfold curvesOk at h
      unfold strayControl
      simp only [Bool.and_eq_true, decide_eq_true_eq] at h
      rw [if_pos h.1]
      exact ih _ h.2
    | control2 =>
      unfold curvesOk at h
      unfold strayControl
      simp only [Bool.and_eq_true, decide_eq_true_eq] at h
      exact ih _ h.2

end ThorVG

namespace ThorVG

/-! ## `rleRender` on an invalid outline -/

theorem validFrom_framed (o : SwOutline) (cs : List Nat) (first : Nat)
    (h : validFrom o cs first = true) :
    framedFrom o cs first = true ∧ invalidFrom o cs first = false := by
  induction cs generalizing first with
  | nil => exact ⟨rfl, rfl⟩
  | cons last more ih =>
    unfold validFrom at h
    simp only [Bool.and_eq_true, decide_eq_true_eq] at h
    obtain ⟨⟨⟨h1, h2⟩, h3⟩, h4⟩ := h
    obtain ⟨i1, i2⟩ := ih _ h4
    unfold framedFrom invalidFrom
    rw [i1, i2]
    refine ⟨by simp [h1, h2], ?_⟩
    cases htags : contourTags o first last with
    | nil => rfl
    | cons t rest =>
      rw [htags] at h3
      unfold validContour at h3
      simp only [Bool.and_eq_true, decide_eq_true_eq] at h3
      have hne : t ≠ SW_CURVE_TYPE_CUBIC := by rw [h3.1]; decide
      simp [invalidContour, curvesOk_not_stray _ _ h3.2, hne]

/-- On a well-formed outline with an invalid contour the decomposition ends at
`return false`. -/
theorem decompose_exit_false (o : SwOutline) (hfr : Framed o) (hbad : InvalidOutline o) :
    (outlineSkel o o.cntrs 0).2 = some false := by
  obtain ⟨h1, h2, h3⟩ := hfr
  rw [outlineSkel_exit o h1 h2 _ _ h3]
  unfold InvalidOutline at hbad
  rw [hbad]
  rfl

/-- On an outline that keeps the invariants the decomposition ends at `return true`. -/
theorem decompose_exit_true (o : SwOutline) (hv : OutlineInvariants o) :
    (outlineSkel o o.cntrs 0).2 = some true := by
  obtain ⟨h1, h2, h3⟩ := hv
  obtain ⟨i1, i2⟩ := validFrom_framed o _ _ h3
  rw [outlineSkel_exit o h1 h2 _ _ i1, i2]
  rfl

theorem genRle_never_zero (A A1 : RleWorker)
    (hx : (outlineSkel A.outline A.outline.cntrs 0).2 = some false) :
    _genRle A ≠ some (A1, 0) := by
  intro h
  obtain ⟨A2, hd⟩ := genRle_zero A A1 h
  rw [decomposeContours_eq] at hd
  have := (finish_ok _ _ _ _ _ hd).1
  rw [hx] at this
  cases this

theorem bandTry_never_swept (rw rw1 : RleWorker) (band : Band)
    (hx : (outlineSkel rw.outline rw.outline.cntrs 0).2 = some false) :
    bandTry rw band ≠ .ok (.swept rw1) := by
  intro h
  obtain ⟨rw0, rw2, hs, hg, _⟩ := bandTry_swept _ _ _ h
  obtain ⟨mc, rfl, _, _⟩ := bandSetup_some _ _ _ hs
  exact genRle_never_zero (bandWorker rw band mc) rw2 hx hg

/-- The `while (band >= bands)` loop on an outline whose decomposition ends at
`return false` never runs to its end with a band left to do. -/
theorem bandLoop_never (o : SwOutline) (hx : (outlineSkel o o.cntrs 0).2 = some false)
    (fuel : Nat) (rw : RleWorker) (stk : List Band) (ho : rw.outline = o) (hne : stk ≠ [])
    (rw1 : RleWorker) : bandLoop fuel rw stk ≠ .ok (some rw1) := by
  induction fuel generalizing rw stk with
  | zero =>
    cases stk with
    | nil => exact absurd rfl hne
    | cons b bs =>
      rw [bandLoop_zero]
      intro h
      cases h
  | succ n ih =>
    cases stk with
    | nil => exact absurd rfl hne
    | cons band below =>
      rw [bandLoop_succ]
      cases ht : bandTry rw band with
      | error e =>
        intro h
        cases h
      | ok v =>
        cases v with
        | swept rw2 => exact absurd ht (bandTry_never_swept _ _ _ (by rw [ho]; exact hx))
        | failed =>
          intro h
          cases h
        | reduce rw2 =>
          dsimp only []
          split
          · intro h
            cases h
          · split
            · intro h
              cases h
            · have hc := (bandTry_reduce _ _ _ ht).1
              have hc2 := (countShoot_config rw2 band.min band.max).1
              have ho2 : (countShoot rw2 band.min band.max).outline = o := by
                have := congrArg RunConfig.outline (hc2.trans hc)
                exact this.trans ho
              exact ih _ _ ho2 (by simp)

theorem renderBands_never (o : SwOutline) (hx : (outlineSkel o o.cntrs 0).2 = some false)
    (yMax bandCnt : Int) (k : Nat) (n min : Int) (rw rw1 : RleWorker) (ho : rw.outline = o) :
    renderBands yMax bandCnt (k + 1) n min rw ≠ .ok (some rw1) := by
  rw [renderBands_succ]
  generalize (if n = bandCnt - 1 ∨ min + rw.bandSize > yMax then yMax else min + rw.bandSize) = max
  cases hb : bandLoop (2 * (max - min).toNat + 1) rw [⟨min, max⟩] with
  | error e =>
    intro h
    cases h
  | ok v =>
    cases v with
    | none =>
      intro h
      cases h
    | some rw2 => exact absurd hb (bandLoop_never o hx _ _ _ ho (by simp) _)

/-- On an outline whose decomposition ends at `return false`, `rleRender` with any band
size returns no RLE when it sets up a band. -/
theorem rleRenderBand_never (bandSize : Int) (rle : Option SwRleData) (o : SwOutline)
    (bbox vp : SwBBox) (aa : Bool) (hx : (outlineSkel o o.cntrs 0).2 = some false)
    (hcnt : 1 ≤ bandCount (bbox.max.y - bbox.min.y) bandSize) (r : SwRleData) :
    rleRenderBand bandSize rle o bbox vp aa ≠ some (some r) := by
  unfold rleRenderBand renderWorker
  dsimp only []
  have e1 : (initWorker bandSize rle o bbox vp aa).cellMax.y = bbox.max.y := rfl
  have e2 : (initWorker bandSize rle o bbox vp aa).cellMin.y = bbox.min.y := rfl
  have e3 : (initWorker bandSize rle o bbox vp aa).bandSize = bandSize := rfl
  rw [e1, e2, e3]
  obtain ⟨k, hk⟩ : ∃ k, (bandCount (bbox.max.y - bbox.min.y) bandSize).toNat = k + 1 :=
    ⟨(bandCount (bbox.max.y - bbox.min.y) bandSize).toNat - 1, by omega⟩
  rw [hk]
  cases hr : renderBands bbox.max.y (bandCount (bbox.max.y - bbox.min.y) bandSize) (k + 1) 0
      bbox.min.y (initWorker bandSize rle o bbox vp aa) with
  | error e =>
    intro h
    cases h
  | ok v =>
    cases v with
    | none =>
      intro h
      cases h
    | some rw2 => exact absurd hr (renderBands_never o hx _ _ _ _ _ _ _ rfl)

end ThorVG

namespace ThorVG

/-! ## `rleRender` on an outline whose first contour starts with a CUBIC -/

theorem decompose_cubicFirst (o : SwOutline) (hcf : CubicFirst o) (rw : RleWorker) :
    decomposeContours o o.cntrs 0 rw = .ok (rw, false) := by
  obtain ⟨hc, ht, hp⟩ := hcf
  cases hcs : o.cntrs with
  | nil => exact absurd hcs hc
  | cons last more =>
    cases hpts : o.pts with
    | nil => exact absurd hpts hp
    | cons p ps =>
      have hp0 : o.pts[0]? = some p := by rw [hpts]; simp
      unfold decomposeContours
      rw [hp0, ht]
      rfl

theorem genRle_cubicFirst (rw : RleWorker) (hcf : CubicFirst rw.outline)
    (hinv : rw.invalid = true) : _genRle rw = some (rw, 1) := by
  unfold _genRle _decomposeOutline
  rw [decompose_cubicFirst _ hcf]
  simp [hinv]

theorem bandSetup_flat (rw : RleWorker) (band : Band) (h : band.max - band.min = 0) :
    ∃ mc, bandSetup rw band = .ok (some (bandWorker rw band mc)) := by
  unfold bandSetup
  dsimp only []
  rw [h]
  rw [if_neg (by decide), if_neg (by decide), if_neg (by decide)]
  exact ⟨_, rfl⟩

/-- One turn of the `while (band >= bands)` loop on an outline whose first contour
starts with a CUBIC: `goto error`, or the band is too high for the pool and is to be cut
in two. -/
theorem bandTry_cubicFirst (rw : RleWorker) (band : Band) (hcf : CubicFirst rw.outline)
    (h0 : 0 ≤ band.max - band.min) (h1 : band.max - band.min ≤ 134217728) :
    bandTry rw band = .ok .failed ∨
    (1 ≤ band.max - band.min ∧
      bandTry rw band = .ok (.reduce { rw with yCnt := band.max - band.min })) := by
  have hset : bandSetup rw band = .ok none ∧ 1 ≤ band.max - band.min ∨
      ∃ mc, bandSetup rw band = .ok (some (bandWorker rw band mc)) := by
    by_cases hz : band.max - band.min = 0
    · exact Or.inr (bandSetup_flat rw band hz)
    · rcases bandSetup_defined rw band (by omega) h1 with h | h
      · exact Or.inl ⟨h, by omega⟩
      · exact Or.inr h
  unfold bandTry
  rcases hset with ⟨hs, hpos⟩ | ⟨mc, hs⟩
  · rw [hs]
    exact Or.inr ⟨hpos, rfl⟩
  · rw [hs]
    dsimp only []
    rw [genRle_cubicFirst (bandWorker rw band mc) hcf rfl]
    exact Or.inl rfl

/-- The `while (band >= bands)` loop on an outline whose first contour starts with a
CUBIC ends at `goto error`, with a turn of fuel for each scanline of the band and one
more. -/
theorem bandLoop_cubicFirst (o : SwOutline) (hcf : CubicFirst o) (fuel : Nat) (rw : RleWorker)
    (band : Band) (below : List Band) (ho : rw.outline = o)
    (h0 : 0 ≤ band.max - band.min) (h1 : band.max - band.min ≤ 134217728)
    (hfuel : band.max - band.min + 1 ≤ fuel)
    (hdepth : (band.max - band.min - 1) * 2 ^ below.length < 134217728) :
    bandLoop fuel rw (band :: below) = .ok none := by
  induction fuel generalizing rw band below with
  | zero => simp only [Nat.cast_zero] at hfuel; omega
  | succ n ih =>
    rw [bandLoop_succ]
    rcases bandTry_cubicFirst rw band (by rw [ho]; exact hcf) h0 h1 with ht | ⟨hpos, ht⟩
    · rw [ht]
    · rw [ht]
      dsimp only []
      have hsh : shr (band.max - band.min) 1 = (band.max - band.min) / 2 := by simp [shr]
      rw [hsh]
      by_cases hm : band.min + (band.max - band.min) / 2 = band.min
      · rw [if_pos hm]
      · rw [if_neg hm]
        have hpos2 : (0 : Int) < 2 ^ below.length := pow_pos (by norm_num) _
        have hlen : below.length < 27 := by
          by_contra hcon
          have hge : (2 : Int) ^ 27 ≤ 2 ^ below.length :=
            pow_le_pow_right₀ (by norm_num) (by omega)
          have hmul : 1 * (2 : Int) ^ below.length ≤ (band.max - band.min - 1) * 2 ^ below.length :=
            mul_le_mul_of_nonneg_right (by omega) (le_of_lt hpos2)
          norm_num at hge
          omega
        rw [if_neg (by simp only [BAND_SIZE]; omega)]
        refine ih (countShoot _ band.min band.max) ⟨band.min, band.min + (band.max - band.min) / 2⟩
          (⟨band.min + (band.max - band.min) / 2, band.max⟩ :: below) ?_ ?_ ?_ ?_ ?_
        · have := congrArg RunConfig.outline
            (countShoot_config { rw with yCnt := band.max - band.min } band.min band.max).1
          exact this.trans ho
        · show 0 ≤ band.min + (band.max - band.min) / 2 - band.min
          omega
        · show band.min + (band.max - band.min) / 2 - band.min ≤ 134217728
          omega
        · show band.min + (band.max - band.min) / 2 - band.min + 1 ≤ (n : Int)
          push_cast at hfuel
          omega
        · show (band.min + (band.max - band.min) / 2 - band.min - 1) *
            2 ^ (below.length + 1) < 134217728
          have e : (band.min + (band.max - band.min) / 2 - band.min - 1) *
              2 ^ (below.length + 1) =
              (2 * ((band.max - band.min) / 2) - 2) * 2 ^ below.length := by
            rw [pow_succ]; ring
          rw [e]
          have hmul : (2 * ((band.max - band.min) / 2) - 2) * (2 : Int) ^ below.length ≤
              (band.max - band.min - 1) * 2 ^ below.length :=
            mul_le_mul_of_nonneg_right (by omega) (le_of_lt hpos2)
          omega

theorem bandCount_pos (h bandSize : Int) (h0 : 0 ≤ h) (h1 : h < 2147483648) (hbs : 0 < bandSize) :
    1 ≤ bandCount h bandSize ∧ (1 < bandCount h bandSize → bandSize ≤ h) := by
  have hq : 0 ≤ h / bandSize ∧ h / bandSize ≤ h ∧ (1 ≤ h / bandSize → bandSize ≤ h) := by
    refine ⟨Int.ediv_nonneg h0 (by omega), Int.ediv_le_self _ h0, fun hq => ?_⟩
    by_contra hcon
    have : h / bandSize = 0 := Int.ediv_eq_zero_of_lt h0 (by omega)
    omega
  have htd : Int.tdiv h bandSize = h / bandSize := Int.tdiv_eq_ediv h0 (by omega)
  unfold bandCount
  dsimp only []
  rw [htd, toI32_eq_self _ (by omega) (by omega)]
  simp only [BAND_SIZE]
  split_ifs <;> constructor <;> intros <;> omega

/-- On an outline whose first contour starts with a CUBIC, `rleRender` with any positive
band size returns null on a bbox from 0 to 2^27 scanlines high. -/
theorem rleRenderBand_cubicFirst (bandSize : Int) (rle : Option SwRleData) (o : SwOutline)
    (bbox vp : SwBBox) (aa : Bool) (hcf : CubicFirst o) (hbs : 0 < bandSize)
    (h0 : 0 ≤ bbox.max.y - bbox.min.y) (h1 : bbox.max.y - bbox.min.y ≤ 134217728) :
    rleRenderBand bandSize rle o bbox vp aa = some none := by
  obtain ⟨hc1, hc2⟩ := bandCount_pos (bbox.max.y - bbox.min.y) bandSize h0 (by omega) hbs
  unfold rleRenderBand renderWorker
  dsimp only []
  have e1 : (initWorker bandSize rle o bbox vp aa).cellMax.y = bbox.max.y := rfl
  have e2 : (initWorker bandSize rle o bbox vp aa).cellMin.y = bbox.min.y := rfl
  have e3 : (initWorker bandSize rle o bbox vp aa).bandSize = bandSize := rfl
  rw [e1, e2, e3]
  obtain ⟨k, hk⟩ : ∃ k, (bandCount (bbox.max.y - bbox.min.y) bandSize).toNat = k + 1 :=
    ⟨(bandCount (bbox.max.y - bbox.min.y) bandSize).toNat - 1, by omega⟩
  rw [hk, renderBands_succ, e3]
  generalize hmax : (if (0 : Int) = bandCount (bbox.max.y - bbox.min.y) bandSize - 1 ∨
    bbox.min.y + bandSize > bbox.max.y then bbox.max.y else bbox.min.y + bandSize) = max
  have hm : 0 ≤ max - bbox.min.y ∧ max - bbox.min.y ≤ 134217728 := by
    rw [← hmax]
    split_ifs with hc
    · omega
    · simp only [not_or, not_lt, gt_iff_lt] at hc
      omega
  rw [bandLoop_cubicFirst o hcf _ _ ⟨bbox.min.y, max⟩ [] rfl hm.1 hm.2
    (by push_cast; show max - bbox.min.y + 1 ≤ 2 * ((max - bbox.min.y).toNat : Int) + 1; omega)
    (by show (max - bbox.min.y - 1) * 2 ^ 0 < 134217728; omega)]

end ThorVG

namespace ThorVG

/-! ## The walk of `_lineTo` reaches the cell of the end point -/

theorem mul_sign (a t : Int) :
    (0 < a → 0 ≤ t → 0 ≤ a * t) ∧ (0 < a → t ≤ -1 → a * t ≤ -1) ∧
    (a < 0 → 0 ≤ t → a * t ≤ 0) ∧ (a < 0 → t ≤ -1 → 1 ≤ a * t) := by
  refine ⟨fun h1 h2 => mul_nonneg (le_of_lt h1) h2, fun h1 h2 => ?_,
    fun h1 h2 => mul_nonpos_of_nonpos_of_nonneg (le_of_lt h1) h2, fun h1 h2 => ?_⟩
  · nlinarith
  · nlinarith

theorem point_ne (e e2 : SwPoint) (h : e ≠ e2) : e.x ≠ e2.x ∨ e.y ≠ e2.y := by
  by_contra hc
  simp only [not_or, not_not] at hc
  apply h
  cases e
  cases e2
  simp only [SwPoint.mk.injEq]
  exact hc

/-- One turn of the `any other line` loop moves one cell nearer to the cell of the end
point and keeps the state of the walk. -/
theorem walkStep_inv (diff e2 g e : SwPoint) (dx_r dy_r prod : Int) (hx : diff.x ≠ 0)
    (hy : diff.y ≠ 0) (hg : 0 ≤ g.x ∧ g.x ≤ 255 ∧ 0 ≤ g.y ∧ g.y ≤ 255)
    (hI : WalkInv diff e2 g e prod) (hne : e ≠ e2) :
    WalkInv diff e2 g (walkStep diff dx_r dy_r e prod).2.1 (walkStep diff dx_r dy_r e prod).2.2.2 ∧
    (e2.x - (walkStep diff dx_r dy_r e prod).2.1.x).natAbs +
      (e2.y - (walkStep diff dx_r dy_r e prod).2.1.y).natAbs + 1 =
      (e2.x - e.x).natAbs + (e2.y - e.y).natAbs := by
  obtain ⟨hp, q1, q2, q3, q4⟩ := hI
  have hne2 := point_ne e e2 hne
  have s1 := mul_sign diff.x (256 * (e2.y - e.y) + g.y)
  have s2 := mul_sign diff.x (256 * (e2.y - e.y) + g.y - 256)
  have s3 := mul_sign diff.y (256 * (e2.x - e.x) + g.x)
  have s4 := mul_sign diff.y (256 * (e2.x - e.x) + g.x - 256)
  have r2 : diff.x * (256 * (e2.y - e.y) + g.y - 256) =
      diff.x * (256 * (e2.y - e.y) + g.y) - diff.x * 256 := by ring
  have r4 : diff.y * (256 * (e2.x - e.x) + g.x - 256) =
      diff.y * (256 * (e2.x - e.x) + g.x) - diff.y * 256 := by ring
  rw [r2] at s2
  rw [r4] at s4
  have fL : prod - diff.y * 256 =
      diff.x * (256 * (e2.y - e.y) + g.y) - diff.y * (256 * (e2.x - (e.x - 1)) + g.x) := by
    rw [hp]; ring
  have fU : prod - diff.x * 256 =
      diff.x * (256 * (e2.y - (e.y + 1)) + g.y) - diff.y * (256 * (e2.x - e.x) + g.x) := by
    rw [hp]; ring
  have fR : prod + diff.y * 256 =
      diff.x * (256 * (e2.y - e.y) + g.y) - diff.y * (256 * (e2.x - (e.x + 1)) + g.x) := by
    rw [hp]; ring
  have fD : prod + diff.x * 256 =
      diff.x * (256 * (e2.y - (e.y - 1)) + g.y) - diff.y * (256 * (e2.x - e.x) + g.x) := by
    rw [hp]; ring
  obtain ⟨g1, g2, g3, g4⟩ := hg
  obtain ⟨P1, hP1⟩ : ∃ P1, P1 = diff.x * (256 * (e2.y - e.y) + g.y) := ⟨_, rfl⟩
  obtain ⟨P2, hP2⟩ : ∃ P2, P2 = diff.y * (256 * (e2.x - e.x) + g.x) := ⟨_, rfl⟩
  rw [← hP1] at s1 s2 hp
  rw [← hP2] at s3 s4 hp
  clear hP1 hP2 r2 r4
  unfold walkStep
  simp only [ONE_PIXEL]
  unfold WalkInv
  rcases lt_or_gt_of_ne hx with hx1 | hx1 <;> rcases lt_or_gt_of_ne hy with hy1 | hy1
  · have Q := q3 hx1 hy1
    have a1 := s1.2.2.1 hx1
    have a2 := s1.2.2.2 hx1
    have a3 := s2.2.2.1 hx1
    have a4 := s2.2.2.2 hx1
    have b1 := s3.2.2.1 hy1
    have b2 := s3.2.2.2 hy1
    have b3 := s4.2.2.1 hy1
    have b4 := s4.2.2.2 hy1
    clear q1 q2 q3 q4 s1 s2 s3 s4
    split_ifs <;> dsimp only []
    · refine ⟨⟨fL, ?_, ?_, ?_, ?_⟩, ?_⟩ <;> clear fL fU fR fD
      · exact fun h1 _ => (lt_asymm hx1 h1).elim
      · exact fun _ h2 => (lt_asymm hy1 h2).elim
      · intro _ _; omega
      · exact fun h1 _ => (lt_asymm hx1 h1).elim
      · omega
    · exfalso; omega
    · exfalso; omega
    · refine ⟨⟨fD, ?_, ?_, ?_, ?_⟩, ?_⟩ <;> clear fL fU fR fD
      · exact fun h1 _ => (lt_asymm hx1 h1).elim
      · exact fun _ h2 => (lt_asymm hy1 h2).elim
      · intro _ _; omega
      · exact fun h1 _ => (lt_asymm hx1 h1).elim
      · omega
  · have Q := q2 hx1 hy1
    have a1 := s1.2.2.1 hx1
    have a2 := s1.2.2.2 hx1
    have a3 := s2.2.2.1 hx1
    have a4 := s2.2.2.2 hx1
    have b1 := s3.1 hy1
    have b2 := s3.2.1 hy1
    have b3 := s4.1 hy1
    have b4 := s4.2.1 hy1
    clear q1 q2 q3 q4 s1 s2 s3 s4
    split_ifs <;> dsimp only []
    · refine ⟨⟨fL, ?_, ?_, ?_, ?_⟩, ?_⟩ <;> clear fL fU fR fD
      · exact fun h1 _ => (lt_asymm hx1 h1).elim
      · intro _ _; omega
      · exact fun _ h2 => (lt_asymm hy1 h2).elim
      · exact fun h1 _ => (lt_asymm hx1 h1).elim
      · omega
    · refine ⟨⟨fU, ?_, ?_, ?_, ?_⟩, ?_⟩ <;> clear fL fU fR fD
      · exact fun h1 _ => (lt_asymm hx1 h1).elim
      · intro _ _; omega
      · exact fun _ h2 => (lt_asymm hy1 h2).elim
      · exact fun h1 _ => (lt_asymm hx1 h1).elim
      · omega
    · exfalso; omega
    · exfalso; omega
  · have Q := q4 hx1 hy1
    have a1 := s1.1 hx1
    have a2 := s1.2.1 hx1
    have a3 := s2.1 hx1
    have a4 := s2.2.1 hx1
    have b1 := s3.2.2.1 hy1
    have b2 := s3.2.2.2 hy1
    have b3 := s4.2.2.1 hy1
    have b4 := s4.2.2.2 hy1
    clear q1 q2 q3 q4 s1 s2 s3 s4
    split_ifs <;> dsimp only []
    · exfalso; omega
    · exfalso; omega
    · refine ⟨⟨fR, ?_, ?_, ?_, ?_⟩, ?_⟩ <;> clear fL fU fR fD
      · exact fun _ h2 => (lt_asymm hy1 h2).elim
      · exact fun h1 _ => (lt_asymm hx1 h1).elim
      · exact fun h1 _ => (lt_asymm hx1 h1).elim
      · intro _ _; omega
      · omega
    · refine ⟨⟨fD, ?_, ?_, ?_, ?_⟩, ?_⟩ <;> clear fL fU fR fD
      · exact fun _ h2 => (lt_asymm hy1 h2).elim
      · exact fun h1 _ => (lt_asymm hx1 h1).elim
      · exact fun h1 _ => (lt_asymm hx1 h1).elim
      · intro _ _; omega
      · omega
  · have Q := q1 hx1 hy1
    have a1 := s1.1 hx1
    have a2 := s1.2.1 hx1
    have a3 := s2.1 hx1
    have a4 := s2.2.1 hx1
    have b1 := s3.1 hy1
    have b2 := s3.2.1 hy1
    have b3 := s4.1 hy1
    have b4 := s4.2.1 hy1
    clear q1 q2 q3 q4 s1 s2 s3 s4
    split_ifs <;> dsimp only []
    · exfalso; omega
    · refine ⟨⟨fU, ?_, ?_, ?_, ?_⟩, ?_⟩ <;> clear fL fU fR fD
      · intro _ _; omega
      · exact fun h1 _ => (lt_asymm hx1 h1).elim
      · exact fun h1 _ => (lt_asymm hx1 h1).elim
      · exact fun _ h2 => (lt_asymm hy1 h2).elim
      · omega
    · refine ⟨⟨fR, ?_, ?_, ?_, ?_⟩, ?_⟩ <;> clear fL fU fR fD
      · intro _ _; omega
      · exact fun h1 _ => (lt_asymm hx1 h1).elim
      · exact fun h1 _ => (lt_asymm hx1 h1).elim
      · exact fun _ h2 => (lt_asymm hy1 h2).elim
      · omega
    · exfalso; omega

end ThorVG

namespace ThorVG

/-! ## `_lineTo` returns or overflows -/

/-- The state of the walk when the `any other line` loop of `_lineTo` starts. -/
theorem walk_start (pos dst : SwPoint) :
    WalkInv (dst - pos) (TRUNCpt dst) (dst - SUBPIXELSpt (TRUNCpt dst)) (TRUNCpt pos)
      ((dst - pos).x * (pos - SUBPIXELSpt (TRUNCpt pos)).y -
        (dst - pos).y * (pos - SUBPIXELSpt (TRUNCpt pos)).x) ∧
    0 ≤ (dst - SUBPIXELSpt (TRUNCpt dst)).x ∧ (dst - SUBPIXELSpt (TRUNCpt dst)).x ≤ 255 ∧
    0 ≤ (dst - SUBPIXELSpt (TRUNCpt dst)).y ∧ (dst - SUBPIXELSpt (TRUNCpt dst)).y ≤ 255 := by
  have dx : (dst - pos).x = dst.x - pos.x := rfl
  have dy : (dst - pos).y = dst.y - pos.y := rfl
  have gx : (dst - SUBPIXELSpt (TRUNCpt dst)).x = dst.x - dst.x / 256 * 256 := by
    show dst.x - shl (shr dst.x PIXEL_BITS) PIXEL_BITS = _
    simp [shl, shr, PIXEL_BITS]
  have gy : (dst - SUBPIXELSpt (TRUNCpt dst)).y = dst.y - dst.y / 256 * 256 := by
    show dst.y - shl (shr dst.y PIXEL_BITS) PIXEL_BITS = _
    simp [shl, shr, PIXEL_BITS]
  have fx : (pos - SUBPIXELSpt (TRUNCpt pos)).x = pos.x - pos.x / 256 * 256 := by
    show pos.x - shl (shr pos.x PIXEL_BITS) PIXEL_BITS = _
    simp [shl, shr, PIXEL_BITS]
  have fy : (pos - SUBPIXELSpt (TRUNCpt pos)).y = pos.y - pos.y / 256 * 256 := by
    show pos.y - shl (shr pos.y PIXEL_BITS) PIXEL_BITS = _
    simp [shl, shr, PIXEL_BITS]
  have ex1 : (TRUNCpt pos).x = pos.x / 256 := by simp [TRUNCpt, shr, PIXEL_BITS]
  have ey1 : (TRUNCpt pos).y = pos.y / 256 := by simp [TRUNCpt, shr, PIXEL_BITS]
  have ex2 : (TRUNCpt dst).x = dst.x / 256 := by simp [TRUNCpt, shr, PIXEL_BITS]
  have ey2 : (TRUNCpt dst).y = dst.y / 256 := by simp [TRUNCpt, shr, PIXEL_BITS]
  unfold WalkInv
  rw [dx, dy, gx, gy, fx, fy, ex1, ey1, ex2, ey2]
  have hV : 256 * (dst.y / 256 - pos.y / 256) + (dst.y - dst.y / 256 * 256) =
      (dst.y - pos.y) + (pos.y - pos.y / 256 * 256) := by omega
  have hU : 256 * (dst.x / 256 - pos.x / 256) + (dst.x - dst.x / 256 * 256) =
      (dst.x - pos.x) + (pos.x - pos.x / 256 * 256) := by omega
  rw [hV, hU]
  have s1 := mul_sign (dst.x - pos.x) (pos.y - pos.y / 256 * 256)
  have s2 := mul_sign (dst.x - pos.x) (pos.y - pos.y / 256 * 256 - 256)
  have s3 := mul_sign (dst.y - pos.y) (pos.x - pos.x / 256 * 256)
  have s4 := mul_sign (dst.y - pos.y) (pos.x - pos.x / 256 * 256 - 256)
  have r2 : (dst.x - pos.x) * (pos.y - pos.y / 256 * 256 - 256) =
      (dst.x - pos.x) * (pos.y - pos.y / 256 * 256) - (dst.x - pos.x) * 256 := by ring
  have r4 : (dst.y - pos.y) * (pos.x - pos.x / 256 * 256 - 256) =
      (dst.y - pos.y) * (pos.x - pos.x / 256 * 256) - (dst.y - pos.y) * 256 := by ring
  rw [r2] at s2
  rw [r4] at s4
  refine ⟨⟨by ring, ?_, ?_, ?_, ?_⟩, by omega, by omega, by omega, by omega⟩
  · intro h1 h2
    have a1 := s1.1 h1
    have a3 := s2.2.1 h1
    have b1 := s3.1 h2
    have b3 := s4.2.1 h2
    clear s1 s2 s3 s4 r2 r4 hV hU
    refine ⟨by omega, by omega, ?_, ?_⟩ <;> omega
  · intro h1 h2
    have a1 := s1.2.2.1 h1
    have a3 := s2.2.2.2 h1
    have b1 := s3.1 h2
    have b3 := s4.2.1 h2
    clear s1 s2 s3 s4 r2 r4 hV hU
    refine ⟨by omega, by omega, ?_, ?_⟩ <;> omega
  · intro h1 h2
    have a1 := s1.2.2.1 h1
    have a3 := s2.2.2.2 h1
    have b1 := s3.2.2.1 h2
    have b3 := s4.2.2.2 h2
    clear s1 s2 s3 s4 r2 r4 hV hU
    refine ⟨by omega, by omega, ?_, ?_⟩ <;> omega
  · intro h1 h2
    have a1 := s1.1 h1
    have a3 := s2.2.1 h1
    have b1 := s3.2.2.1 h2
    have b3 := s4.2.2.2 h2
    clear s1 s2 s3 s4 r2 r4 hV hU
    refine ⟨by omega, by omega, ?_, ?_⟩ <;> omega

/-- The `any other line` loop on a ready worker returns or overflows: each turn takes it
one cell nearer to the cell of the end point. -/
theorem lineWalk_total (diff e2 g : SwPoint) (dx_r dy_r : Int) (fuel : Nat) (B : RleWorker)
    (e1 f1 : SwPoint) (prod : Int) (hr : Ready B) (hx : diff.x ≠ 0) (hy : diff.y ≠ 0)
    (hg : 0 ≤ g.x ∧ g.x ≤ 255 ∧ 0 ≤ g.y ∧ g.y ≤ 255) (hI : WalkInv diff e2 g e1 prod)
    (hne : e1 ≠ e2) (hfuel : (e2.x - e1.x).natAbs + (e2.y - e1.y).natAbs = fuel)
    (h1 : CellY e1) (h2 : CellY e2) :
    Defined (fun r => Kept B r.1) (lineWalk diff e2 dx_r dy_r fuel B e1 f1 prod) := by
  induction fuel generalizing B e1 f1 prod with
  | zero =>
    exfalso
    rcases point_ne e1 e2 hne with h | h <;> omega
  | succ n ih =>
    rw [lineWalk_succ]
    have hu := walkStep_unit diff dx_r dy_r e1 prod
    obtain ⟨hI2, hd2⟩ := walkStep_inv diff e2 g e1 dx_r dy_r prod hx hy hg hI hne
    revert hu hI2 hd2
    generalize walkStep diff dx_r dy_r e1 prod = step
    intro hu hI2 hd2
    unfold CellY at h1 h2
    have hce : CellY step.2.1 := by
      unfold CellY
      omega
    have hd := setCell_defined (addEdge B f1 step.1) step.2.1 hr hce
    cases hsb : _setCell (addEdge B f1 step.1) step.2.1 with
    | error err => rw [hsb] at hd; exact hd.error
    | ok B0 =>
      rw [hsb] at hd
      dsimp only []
      by_cases hne2 : step.2.1 ≠ e2
      · rw [if_pos hne2]
        exact (ih B0 _ _ _ hd.1 hI2 hne2 (by omega) hce).mono (fun r hk => kept_trans hd hk)
      · rw [if_neg hne2]
        exact hd

/-- The walk of `lineScan` on a ready worker returns or overflows. -/
theorem lineScan_total (B : RleWorker) (dst : SwPoint) (hr : Ready B) (hpos : PosOk B.pos)
    (hdst : PosOk dst) : Defined (fun r => Kept B r.1) (lineScan B dst) := by
  have c1 := posOk_cellY _ hpos
  have c2 := posOk_cellY _ hdst
  unfold lineScan
  dsimp only []
  by_cases h1 : TRUNCpt B.pos = TRUNCpt dst
  · rw [if_pos h1]
    exact kept_refl hr
  rw [if_neg h1]
  by_cases h2 : (dst - B.pos).y = 0
  · rw [if_pos h2]
    have hd := setCell_defined B ⟨(TRUNCpt dst).x, (TRUNCpt B.pos).y⟩ hr c1
    cases hs : _setCell B ⟨(TRUNCpt dst).x, (TRUNCpt B.pos).y⟩ with
    | error err => rw [hs] at hd; exact hd.error
    | ok B0 => rw [hs] at hd; exact hd
  rw [if_neg h2]
  have hdy : (dst - B.pos).y = dst.y - B.pos.y := rfl
  have hdx : (dst - B.pos).x = dst.x - B.pos.x := rfl
  have ty1 : (TRUNCpt dst).y = shr dst.y PIXEL_BITS := rfl
  have ty2 : (TRUNCpt B.pos).y = shr B.pos.y PIXEL_BITS := rfl
  have tx1 : (TRUNCpt dst).x = shr dst.x PIXEL_BITS := rfl
  have tx2 : (TRUNCpt B.pos).x = shr B.pos.x PIXEL_BITS := rfl
  by_cases h3 : (dst - B.pos).x = 0
  · rw [if_pos h3]
    unfold CellY at c1 c2
    have hxe : (TRUNCpt dst).x = (TRUNCpt B.pos).x := by
      rw [tx1, tx2]
      have : dst.x = B.pos.x := by omega
      rw [this]
    have hyne : (TRUNCpt B.pos).y ≠ (TRUNCpt dst).y := by
      intro hy
      apply h1
      cases hb : TRUNCpt B.pos
      cases hd : TRUNCpt dst
      rw [hb] at hxe hy
      rw [hd] at hxe hy
      simp only at hxe hy
      rw [hxe, hy]
    by_cases h4 : (dst - B.pos).y > 0
    · rw [if_pos h4]
      have hm := TRUNC_mono B.pos.y dst.y (by omega)
      exact lineUp_defined _ _ B _ _ hr (by omega) (by omega) c1.1 c2.2
    · rw [if_neg h4]
      have hm := TRUNC_mono dst.y B.pos.y (by omega)
      exact lineDown_defined _ _ B _ _ hr (by omega) (by omega) c2.1 c1.2
  rw [if_neg h3]
  obtain ⟨hI, hg⟩ := walk_start B.pos dst
  exact lineWalk_total _ _ _ _ _ _ B _ _ _ hr h3 h2 hg hI h1 rfl c1 c2

/-- The function `_lineTo` on a ready worker returns or overflows. -/
theorem lineTo_total (B : RleWorker) (dst : SwPoint) (hr : Ready B) (hpos : PosOk B.pos)
    (hdst : PosOk dst) : Defined (Moved B dst) (_lineTo B dst) := by
  unfold _lineTo
  by_cases hk : lineSkipped B dst
  · rw [if_pos hk]
    exact ⟨hr, rfl, rfl⟩
  · rw [if_neg hk]
    have hd := lineScan_total B dst hr hpos hdst
    cases hsB : lineScan B dst with
    | error err => rw [hsB] at hd; exact hd.error
    | ok rb =>
      rw [hsB] at hd
      exact ⟨hd.1, rfl, hd.2.2⟩

/-- The steps of a path without curves on a ready worker return or overflow. -/
theorem runOps_total (ops : List PathOp) (B : RleWorker) (hr : Ready B) (hpos : PosOk B.pos)
    (hok : ∀ op ∈ ops, OpOk op) (hst : ∀ op ∈ ops, op.straight) :
    Defined (fun B1 => Ready B1 ∧ frameOf B1 = frameOf B) (runOps ops B) := by
  induction ops generalizing B with
  | nil => exact ⟨hr, rfl⟩
  | cons op rest ih =>
    rw [runOps_cons]
    have hop := hok op (List.mem_cons_self _ _)
    have hs := hst op (List.mem_cons_self _ _)
    have hd : Defined (Moved B op.dst) (runOp op B) := by
      cases op with
      | move d => exact moveTo_defined B d hr hop
      | line d => exact lineTo_total B d hr hpos hop
      | cubic c1 c2 d => exact absurd hs id
    cases hB : runOp op B with
    | error err => rw [hB] at hd; exact hd.error
    | ok B0 =>
      rw [hB] at hd
      obtain ⟨hr0, hp0, hf0⟩ := hd
      dsimp only []
      refine (ih B0 hr0 (by rw [hp0]; exact opOk_dst op hop)
        (fun o ho => hok o (List.mem_cons_of_mem _ ho))
        (fun o ho => hst o (List.mem_cons_of_mem _ ho))).mono ?_
      intro B1 ⟨q1, q2⟩
      exact ⟨q1, q2.trans hf0⟩

end ThorVG

namespace ThorVG

/-! ## `rleRender` on an outline without curves runs to an end -/

/-- The steps of a path without curves that starts with a `_moveTo`, on a ready worker,
return or overflow. -/
theorem runOps_total_start (ops : List PathOp) (B : RleWorker) (hr : Ready B)
    (hok : ∀ op ∈ ops, OpOk op) (hst : ∀ op ∈ ops, op.straight)
    (hhead : ops = [] ∨ ∃ p rest, ops = PathOp.move p :: rest) :
    Defined (fun B1 => Ready B1 ∧ frameOf B1 = frameOf B) (runOps ops B) := by
  rcases hhead with rfl | ⟨p, rest, rfl⟩
  · exact ⟨hr, rfl⟩
  · rw [runOps_cons, runOp_move]
    have hpp : PosOk p := hok (PathOp.move p) (List.mem_cons_self _ _)
    have hm := moveTo_defined B p hr hpp
    cases hB : _moveTo B p with
    | error err => rw [hB] at hm; exact hm.error
    | ok B0 =>
      rw [hB] at hm
      obtain ⟨hr0, hp0, hf0⟩ := hm
      dsimp only []
      refine (runOps_total rest B0 hr0 (by rw [hp0]; exact hpp)
        (fun o ho => hok o (List.mem_cons_of_mem _ ho))
        (fun o ho => hst o (List.mem_cons_of_mem _ ho))).mono ?_
      intro B1 ⟨q1, q2⟩
      exact ⟨q1, q2.trans hf0⟩

/-- On a ready worker `_genRle` returns for an outline without curves whose
decomposition ends at a `return`: `-1` for a pool overflow, or `0` or `1` as the
decomposition returns true or false. -/
theorem genRle_total (B : RleWorker) (hr : Ready B) (ho : OutlineOk B.outline)
    (hst : ∀ op ∈ (outlineSkel B.outline B.outline.cntrs 0).1, op.straight) (b : Bool)
    (hterm : (outlineSkel B.outline B.outline.cntrs 0).2 = some b) :
    ∃ B1 ret, _genRle B = some (B1, ret) ∧ (ret = -1 ∨ ret = if b then 0 else 1) := by
  have hrun := runOps_total_start (outlineSkel B.outline B.outline.cntrs 0).1 B hr
    (outlineSkel_ok B.outline ho _ _) hst (outlineSkel_head _ _ _)
  unfold _genRle _decomposeOutline
  rw [decomposeContours_eq]
  unfold finish
  rw [hterm]
  cases hB : runOps (outlineSkel B.outline B.outline.cntrs 0).1 B with
  | error err =>
    rw [hB] at hrun
    cases err with
    | overflow rw2 => exact ⟨rw2, -1, rfl, Or.inl rfl⟩
    | undefined => exact absurd hrun id
  | ok B2 =>
    rw [hB] at hrun
    dsimp only []
    have hrec := recordIf_defined B2 hrun.1
    cases hr2 : (if !B2.invalid then _recordCell B2 else .ok B2) with
    | error err =>
      rw [hr2] at hrec
      cases err with
      | overflow rw2 => exact ⟨rw2, -1, rfl, Or.inl rfl⟩
      | undefined => exact absurd hrec id
    | ok B3 => exact ⟨B3, _, rfl, Or.inr rfl⟩

theorem bandTry_of_one (rw rw0 rw1 : RleWorker) (band : Band)
    (h : bandSetup rw band = .ok (some rw0)) (hg : _genRle rw0 = some (rw1, 1)) :
    bandTry rw band = .ok .failed := by
  unfold bandTry
  rw [h]
  dsimp only []
  rw [hg]
  rfl

/-- One turn of the `while (band >= bands)` loop on an outline without curves: the band
is swept, or the loop is left by `goto error`, or the band is to be cut in two. -/
theorem bandTry_defined (o : SwOutline) (ho : OutlineOk o)
    (hst : ∀ op ∈ (outlineSkel o o.cntrs 0).1, op.straight) (b : Bool)
    (hterm : (outlineSkel o o.cntrs 0).2 = some b) (rw : RleWorker) (band : Band)
    (hout : rw.outline = o) (hb1 : -1073741824 ≤ band.min) (hb2 : band.min < band.max)
    (hb3 : band.max ≤ 1073741824) (hh : band.max - band.min ≤ 134217728) :
    (∃ rw1, bandTry rw band = .ok (.swept rw1) ∧ configOf rw1 = configOf rw) ∨
    bandTry rw band = .ok .failed ∨
    (∃ rw1, bandTry rw band = .ok (.reduce rw1) ∧ configOf rw1 = configOf rw) := by
  rcases bandSetup_defined rw band (by omega) hh with hn | ⟨mc, hsome⟩
  · right; right
    have ht := bandTry_of_none rw band hn
    exact ⟨_, ht, (bandTry_reduce _ _ _ ht).1⟩
  · have hready := bandWorker_ready rw band mc hb1 hb2 hb3
    have hbo : (bandWorker rw band mc).outline = o := hout
    obtain ⟨B1, ret, hg, hret⟩ := genRle_total (bandWorker rw band mc) hready
      (by rw [hbo]; exact ho) (by rw [hbo]; exact hst) b (by rw [hbo]; exact hterm)
    rcases hret with rfl | rfl
    · right; right
      have ht := bandTry_of_overflow rw _ B1 band hsome hg
      exact ⟨_, ht, (bandTry_reduce _ _ _ ht).1⟩
    · cases b with
      | true =>
        left
        have ht := bandTry_of_zero rw _ B1 band hsome hg
        exact ⟨_, ht, bandTry_swept_config _ _ _ ht⟩
      | false =>
        right; left
        exact bandTry_of_one rw _ B1 band hsome hg

/-- The `while (band >= bands)` loop on an outline without curves runs to an end: with a
turn of fuel for each band to come and no band too high for its depth in the stack, it
sweeps every band or is left by `goto error`. -/
theorem bandLoop_defined (o : SwOutline) (ho : OutlineOk o)
    (hst : ∀ op ∈ (outlineSkel o o.cntrs 0).1, op.straight) (b : Bool)
    (hterm : (outlineSkel o o.cntrs 0).2 = some b) (fuel : Nat) (rw : RleWorker)
    (stk : List Band) (hout : rw.outline = o)
    (hall : ∀ c ∈ stk, -1073741824 ≤ c.min ∧ c.min < c.max ∧ c.max ≤ 1073741824 ∧
      c.max - c.min ≤ 134217728)
    (hfuel : bandTurns stk ≤ fuel) (hdepth : DepthOk stk) :
    ∃ v, bandLoop fuel rw stk = .ok v ∧ ∀ rw1, v = some rw1 → configOf rw1 = configOf rw := by
  induction fuel generalizing rw stk with
  | zero =>
    cases stk with
    | nil => exact ⟨some rw, bandLoop_nil _ _, fun rw1 h => by cases h; rfl⟩
    | cons c cs =>
      exfalso
      have h1 := (hall c (List.mem_cons_self _ _)).2.1
      have h2 := bandTurns_nonneg cs (fun d hd => (hall d (List.mem_cons_of_mem _ hd)).2.1)
      unfold bandTurns at hfuel
      simp only [Nat.cast_zero] at hfuel
      omega
  | succ n ih =>
    cases stk with
    | nil => exact ⟨some rw, bandLoop_nil _ _, fun rw1 h => by cases h; rfl⟩
    | cons band below =>
      obtain ⟨hb1, hb2, hb3, hb4⟩ := hall band (List.mem_cons_self _ _)
      have hbelow := fun c hc => hall c (List.mem_cons_of_mem _ hc)
      have h2 := bandTurns_nonneg below (fun c hc => (hbelow c hc).2.1)
      have hfuel1 : 2 * (band.max - band.min) - 1 + bandTurns below ≤ (n : Int) + 1 := by
        unfold bandTurns at hfuel
        push_cast at hfuel
        exact hfuel
      obtain ⟨hd1, hd2⟩ := hdepth
      rw [bandLoop_succ]
      rcases bandTry_defined o ho hst b hterm rw band hout hb1 hb2 hb3 hb4
        with ⟨rw1, ht, hc1⟩ | ht | ⟨rw1, ht, hc1⟩
      · rw [ht]
        dsimp only []
        obtain ⟨v, hv, hcv⟩ := ih rw1 below
          ((congrArg RunConfig.outline hc1).trans hout) hbelow (by omega) hd2
        exact ⟨v, hv, fun r hr => (hcv r hr).trans hc1⟩
      · rw [ht]
        exact ⟨none, rfl, fun r hr => by cases hr⟩
      · rw [ht]
        dsimp only []
        have hsh : shr (band.max - band.min) 1 = (band.max - band.min) / 2 := by simp [shr]
        rw [hsh]
        by_cases hm : band.min + (band.max - band.min) / 2 = band.min
        · rw [if_pos hm]
          exact ⟨none, rfl, fun r hr => by cases hr⟩
        rw [if_neg hm]
        have hpos : (0 : Int) < 2 ^ below.length := pow_pos (by norm_num) _
        have hlen : below.length < 27 := by
          by_contra hcon
          have hge : (2 : Int) ^ 27 ≤ 2 ^ below.length :=
            pow_le_pow_right₀ (by norm_num) (by omega)
          have hmul : 1 * (2 : Int) ^ below.length ≤ (band.max - band.min - 1) * 2 ^ below.length :=
            mul_le_mul_of_nonneg_right (by omega) (le_of_lt hpos)
          norm_num at hge
          omega
        rw [if_neg (by simp only [BAND_SIZE]; omega)]
        have hall2 : ∀ c ∈ (⟨band.min, band.min + (band.max - band.min) / 2⟩ ::
            ⟨band.min + (band.max - band.min) / 2, band.max⟩ :: below : List Band),
            -1073741824 ≤ c.min ∧ c.min < c.max ∧ c.max ≤ 1073741824 ∧
              c.max - c.min ≤ 134217728 := by
          intro c hc2
          simp only [List.mem_cons] at hc2
          rcases hc2 with rfl | rfl | hc2
          · exact ⟨hb1, by show band.min < band.min + (band.max - band.min) / 2; omega,
              by show band.min + (band.max - band.min) / 2 ≤ 1073741824; omega,
              by show band.min + (band.max - band.min) / 2 - band.min ≤ 134217728; omega⟩
          · exact ⟨by show -1073741824 ≤ band.min + (band.max - band.min) / 2; omega,
              by show band.min + (band.max - band.min) / 2 < band.max; omega, hb3,
              by show band.max - (band.min + (band.max - band.min) / 2) ≤ 134217728; omega⟩
          · exact hbelow c hc2
        have hfuel2 : bandTurns (⟨band.min, band.min + (band.max - band.min) / 2⟩ ::
            ⟨band.min + (band.max - band.min) / 2, band.max⟩ :: below : List Band) ≤ n := by
          show 2 * (band.min + (band.max - band.min) / 2 - band.min) - 1 +
            (2 * (band.max - (band.min + (band.max - band.min) / 2)) - 1 + bandTurns below) ≤ n
          omega
        have hdepth2 : DepthOk (⟨band.min, band.min + (band.max - band.min) / 2⟩ ::
            ⟨band.min + (band.max - band.min) / 2, band.max⟩ :: below : List Band) := by
          refine ⟨?_, ?_, hd2⟩
          · show (band.min + (band.max - band.min) / 2 - band.min - 1) *
              2 ^ (below.length + 1) < 134217728
            have e : (band.min + (band.max - band.min) / 2 - band.min - 1) *
                2 ^ (below.length + 1) =
                (2 * ((band.max - band.min) / 2) - 2) * 2 ^ below.length := by
              rw [pow_succ]; ring
            rw [e]
            have hmul : (2 * ((band.max - band.min) / 2) - 2) * (2 : Int) ^ below.length ≤
                (band.max - band.min - 1) * 2 ^ below.length :=
              mul_le_mul_of_nonneg_right (by omega) (le_of_lt hpos)
            omega
          · show (band.max - (band.min + (band.max - band.min) / 2) - 1) *
              2 ^ below.length < 134217728
            have hmul : (band.max - (band.min + (band.max - band.min) / 2) - 1) *
                (2 : Int) ^ below.length ≤ (band.max - band.min - 1) * 2 ^ below.length :=
              mul_le_mul_of_nonneg_right (by omega) (le_of_lt hpos)
            omega
        obtain ⟨v, hv, hcv⟩ := ih (countShoot rw1 band.min band.max) _
          ((congrArg RunConfig.outline ((countShoot_config rw1 band.min band.max).1.trans
            hc1)).trans hout) hall2 hfuel2 hdepth2
        exact ⟨v, hv, fun r hr => ((hcv r hr).trans (countShoot_config _ _ _).1).trans hc1⟩

/-- The `for` loop over the bands of `rleRender` on an outline without curves runs to an
end. -/
theorem renderBands_defined (o : SwOutline) (ho : OutlineOk o)
    (hst : ∀ op ∈ (outlineSkel o o.cntrs 0).1, op.straight) (b : Bool)
    (hterm : (outlineSkel o o.cntrs 0).2 = some b) (bandSize : Int) (hbs : 0 < bandSize)
    (yMin yMax : Int) (hlo : -1073741824 ≤ yMin) (hhi : yMax ≤ 1073741824)
    (hht : yMax - yMin ≤ 134217728)
    (bandCnt : Int) (k : Nat) (n min : Int) (rw : RleWorker)
    (hout : rw.outline = o) (hbsz : rw.bandSize = bandSize)
    (hn : n + k = bandCnt) (hmin1 : yMin ≤ min) (hmin2 : 1 ≤ k → min < yMax)
    (hinv : n < bandCnt - 1 → min + (bandCnt - n) * bandSize ≤ yMax) :
    ∃ v, renderBands yMax bandCnt k n min rw = .ok v := by
  induction k generalizing n min rw with
  | zero => exact ⟨some rw, renderBands_zero _ _ _ _ _⟩
  | succ k ih =>
    rw [renderBands_succ, hbsz]
    have hm2 := hmin2 (by omega)
    generalize hmax : (if n = bandCnt - 1 ∨ min + bandSize > yMax then yMax
      else min + bandSize) = max
    have hmax1 : min < max ∧ max ≤ yMax := by
      rw [← hmax]; split_ifs with h1
      · exact ⟨hm2, le_refl _⟩
      · simp only [not_or, not_lt] at h1
        omega
    obtain ⟨v, hb, hc1⟩ := bandLoop_defined o ho hst b hterm
      (2 * (max - min).toNat + 1) rw [⟨min, max⟩] hout
      (fun c hc => by
        simp only [List.mem_singleton] at hc
        subst hc
        exact ⟨by show -1073741824 ≤ min; omega, hmax1.1, by show max ≤ 1073741824; omega,
          by show max - min ≤ 134217728; omega⟩)
      (by
        show 2 * (max - min) - 1 + 0 ≤ ((2 * (max - min).toNat + 1 : Nat) : Int)
        push_cast
        omega)
      ⟨by
        show (max - min - 1) * 2 ^ 0 < 134217728
        rw [pow_zero]
        omega, trivial⟩
    rw [hb]
    cases v with
    | none => exact ⟨none, rfl⟩
    | some rw1 =>
      dsimp only []
      have hc2 := hc1 rw1 rfl
      have hnext : n < bandCnt - 1 → max = min + bandSize ∧ max < yMax := by
        intro hlt
        have h1 := hinv hlt
        have h2 : 2 * bandSize ≤ (bandCnt - n) * bandSize :=
          mul_le_mul_of_nonneg_right (by omega) (le_of_lt hbs)
        rw [← hmax, if_neg (by
          simp only [not_or, not_lt]
          constructor <;> omega)]
        constructor <;> omega
      refine ih (n + 1) max rw1 ((congrArg RunConfig.outline hc2).trans hout)
        ((congrArg RunConfig.bandSize hc2).trans hbsz) (by push_cast at hn ⊢; omega)
        (by omega) ?_ ?_
      · intro hk
        exact (hnext (by push_cast at hn; omega)).2
      · intro hlt
        obtain ⟨e, _⟩ := hnext (by omega)
        have h1 := hinv (by omega)
        have e2 : (bandCnt - n) * bandSize = bandSize + (bandCnt - (n + 1)) * bandSize := by ring
        rw [e]
        omega

/-- For an outline without curves whose points fit 32 bits and whose decomposition ends
at a `return`, `rleRender` with any positive band size runs to an end, an RLE or null,
on a bbox within 2^30 scanlines of the origin and from 1 to 2^27 scanlines high. -/
theorem rleRenderBand_defined (bandSize : Int) (rle : Option SwRleData) (o : SwOutline)
    (bbox vp : SwBBox) (aa : Bool) (ho : OutlineOk o)
    (hst : ∀ op ∈ (outlineSkel o o.cntrs 0).1, op.straight) (b : Bool)
    (hterm : (outlineSkel o o.cntrs 0).2 = some b) (hbs : 0 < bandSize)
    (hlo : -1073741824 ≤ bbox.min.y) (hhi : bbox.max.y ≤ 1073741824)
    (hby : bbox.min.y < bbox.max.y) (hht : bbox.max.y - bbox.min.y ≤ 134217728) :
    ∃ v, rleRenderBand bandSize rle o bbox vp aa = some v := by
  have hq : 0 ≤ (bbox.max.y - bbox.min.y) / bandSize ∧
      (bbox.max.y - bbox.min.y) / bandSize * bandSize ≤ bbox.max.y - bbox.min.y ∧
      (bbox.max.y - bbox.min.y) / bandSize ≤ bbox.max.y - bbox.min.y := by
    refine ⟨Int.ediv_nonneg (by omega) (by omega), Int.ediv_mul_le _ (by omega),
      Int.ediv_le_self _ (by omega)⟩
  have htd : Int.tdiv (bbox.max.y - bbox.min.y) bandSize = (bbox.max.y - bbox.min.y) / bandSize :=
    Int.tdiv_eq_ediv (by omega) (by omega)
  have hcnt : 1 ≤ bandCount (bbox.max.y - bbox.min.y) bandSize ∧
      (1 < bandCount (bbox.max.y - bbox.min.y) bandSize →
        bandCount (bbox.max.y - bbox.min.y) bandSize ≤ (bbox.max.y - bbox.min.y) / bandSize) := by
    unfold bandCount
    dsimp only []
    rw [htd, toI32_eq_self _ (by omega) (by omega)]
    simp only [BAND_SIZE]
    split_ifs <;> constructor <;> intros <;> omega
  obtain ⟨v, hr⟩ := renderBands_defined o ho hst b hterm bandSize hbs bbox.min.y bbox.max.y
    hlo hhi hht (bandCount (bbox.max.y - bbox.min.y) bandSize)
    (bandCount (bbox.max.y - bbox.min.y) bandSize).toNat 0 bbox.min.y
    (initWorker bandSize rle o bbox vp aa) rfl rfl (by omega) (le_refl _) (fun _ => hby)
    (by
      intro hlt
      have h1 := hcnt.2 (by omega)
      have h2 : bandCount (bbox.max.y - bbox.min.y) bandSize * bandSize ≤
          (bbox.max.y - bbox.min.y) / bandSize * bandSize :=
        mul_le_mul_of_nonneg_right h1 (le_of_lt hbs)
      rw [sub_zero]
      omega)
  unfold rleRenderBand renderWorker
  dsimp only []
  have e1 : (initWorker bandSize rle o bbox vp aa).cellMax.y = bbox.max.y := rfl
  have e2 : (initWorker bandSize rle o bbox vp aa).cellMin.y = bbox.min.y := rfl
  have e3 : (initWorker bandSize rle o bbox vp aa).bandSize = bandSize := rfl
  rw [e1, e2, e3, hr]
  cases v with
  | none => exact ⟨none, rfl⟩
  | some rw1 => exact ⟨some (tuneBand rw1).rle, rfl⟩

end ThorVG

namespace ThorVG

/-! ## `HYPOT`: the closed form and the distance to the exact length -/

theorem HYPOT_eq (pt : SwPoint) :
    HYPOT pt = max |pt.x| |pt.y| + shr (3 * min |pt.x| |pt.y|) 3 := by
  unfold HYPOT
  dsimp only []
  have e1 : (if pt.x < 0 then -pt.x else pt.x) = |pt.x| := by
    split_ifs with h
    · exact (abs_of_neg h).symm
    · exact (abs_of_nonneg (not_lt.1 h)).symm
  have e2 : (if pt.y < 0 then -pt.y else pt.y) = |pt.y| := by
    split_ifs with h
    · exact (abs_of_neg h).symm
    · exact (abs_of_nonneg (not_lt.1 h)).symm
  rw [e1, e2]
  split_ifs with h
  · rw [max_eq_left (le_of_lt h), min_eq_right (le_of_lt h)]
  · rw [max_eq_right (not_lt.1 h), min_eq_left (not_lt.1 h)]

theorem sq_sum_max_min (x y : Int) :
    x * x + y * y = max |x| |y| * max |x| |y| + min |x| |y| * min |x| |y| := by
  rcases le_total |x| |y| with h | h
  · rw [max_eq_right h, min_eq_left h, abs_mul_abs_self, abs_mul_abs_self]
    ring
  · rw [max_eq_left h, min_eq_right h, abs_mul_abs_self, abs_mul_abs_self]

/-- Being within 7% of a square root, without the root. -/
theorem close_iff (h n : Int) (hh : 0 ≤ h) (hn : 0 ≤ n) :
    |(h : Real) - Real.sqrt (n : Real)| < 7 / 100 * Real.sqrt (n : Real) ↔
      8649 * n < 10000 * (h * h) ∧ 10000 * (h * h) < 11449 * n := by
  have hs0 : 0 ≤ Real.sqrt (n : Real) := Real.sqrt_nonneg _
  have hn0 : (0 : Real) ≤ (n : Real) := by exact_mod_cast hn
  have hh0 : (0 : Real) ≤ (h : Real) := by exact_mod_cast hh
  have hss : Real.sqrt (n : Real) * Real.sqrt (n : Real) = (n : Real) := Real.mul_self_sqrt hn0
  generalize Real.sqrt (n : Real) = s at hs0 hss ⊢
  rw [abs_sub_lt_iff]
  constructor
  · rintro ⟨h1, h2⟩
    constructor
    · have : (8649 : Real) * n < 10000 * (h * h) := by nlinarith
      exact_mod_cast this
    · have : (10000 : Real) * (h * h) < 11449 * n := by nlinarith
      exact_mod_cast this
  · rintro ⟨h1, h2⟩
    have h1r : (8649 : Real) * n < 10000 * (h * h) := by exact_mod_cast h1
    have h2r : (10000 : Real) * (h * h) < 11449 * n := by exact_mod_cast h2
    constructor
    · by_contra hc
      push_neg at hc
      nlinarith
    · by_contra hc
      push_neg at hc
      nlinarith

theorem hypot_upper (a b q : Int) (hb : 0 ≤ b) (ha : 0 < a) (hq0 : 0 ≤ q) (hq : 8 * q ≤ 3 * b) :
    10000 * ((a + q) * (a + q)) < 11449 * (a * a + b * b) := by
  have h1 : 64 * ((a + q) * (a + q)) ≤ (8 * a + 3 * b) * (8 * a + 3 * b) := by nlinarith
  have h2 : 0 < 92736 * (732736 * (a * a + b * b) - 10000 * ((8 * a + 3 * b) * (8 * a + 3 * b))) := by
    nlinarith [sq_nonneg (92736 * a - 240000 * b), mul_pos ha ha, mul_nonneg hb hb]
  nlinarith

theorem hypot_lower (a b q : Int) (hb : 0 ≤ b) (hba : b ≤ a) (ha : 15 ≤ a)
    (hq : 3 * b < 8 * q + 8) :
    8649 * (a * a + b * b) < 10000 * ((a + q) * (a + q)) := by
  have h0 : 0 ≤ 8 * a + 3 * b - 7 := by omega
  have h1 : (8 * a + 3 * b - 7) * (8 * a + 3 * b - 7) ≤ 64 * ((a + q) * (a + q)) := by
    nlinarith
  have h2 : 553536 * (a * a + b * b) < 10000 * ((8 * a + 3 * b - 7) * (8 * a + 3 * b - 7)) := by
    nlinarith [mul_nonneg hb (sub_nonneg.2 hba), mul_nonneg (sub_nonneg.2 ha) (le_trans hb hba),
      mul_nonneg (sub_nonneg.2 ha) hb]
  nlinarith

end ThorVG

namespace ThorVG

/-! ## The bands of the `for` loop -/

theorem bandLoop_config (fuel : Nat) (rw rw1 : RleWorker) (b : Band)
    (h : bandLoop fuel rw [b] = .ok (some rw1)) : configOf rw1 = configOf rw :=
  (bandLoop_invariant (fun _ => True) (fun _ _ => True) (configOf rw)
    (fun _ _ _ => ⟨trivial, trivial⟩) (fun _ _ _ _ _ _ _ _ _ => trivial) fuel rw [b] b.min b.max
    rw1 rfl ⟨rfl, trivial, rfl⟩ trivial h).1

theorem bandsSetUp_succ (yMax bandCnt bandSize : Int) (k : Nat) (n min : Int) :
    bandsSetUp yMax bandCnt bandSize (k + 1) n min =
      ⟨min, if n = bandCnt - 1 ∨ min + bandSize > yMax then yMax else min + bandSize⟩ ::
        bandsSetUp yMax bandCnt bandSize k (n + 1)
          (if n = bandCnt - 1 ∨ min + bandSize > yMax then yMax else min + bandSize) := rfl

theorem runBands_nil (rw : RleWorker) : runBands [] rw = .ok (some rw) := rfl

theorem runBands_cons (b : Band) (bs : List Band) (rw : RleWorker) :
    runBands (b :: bs) rw =
      match bandLoop (2 * (b.max - b.min).toNat + 1) rw [b] with
      | .error e => .error e
      | .ok none => .ok none
      | .ok (some rw) => runBands bs rw := rfl

/-- The `for` loop of `rleRender` runs the band loop on the bands of `bandsSetUp`, one
after the other. -/
theorem renderBands_eq_runBands (yMax bandCnt : Int) (k : Nat) (n min : Int) (rw : RleWorker) :
    renderBands yMax bandCnt k n min rw =
      runBands (bandsSetUp yMax bandCnt rw.bandSize k n min) rw := by
  induction k generalizing n min rw with
  | zero => rfl
  | succ k ih =>
    rw [renderBands_succ, bandsSetUp_succ, runBands_cons]
    generalize (if n = bandCnt - 1 ∨ min + rw.bandSize > yMax then yMax
        else min + rw.bandSize) = max
    dsimp only []
    cases hb : bandLoop (2 * (max - min).toNat + 1) rw [⟨min, max⟩] with
    | error e => rfl
    | ok v =>
      cases v with
      | none => rfl
      | some rw1 =>
        dsimp only []
        have hc : rw1.bandSize = rw.bandSize :=
          congrArg RunConfig.bandSize (bandLoop_config _ _ _ _ hb)
        rw [ih, hc]

/-- The closed form of the bands set up: band `i` starts `i * bandSize` scanlines below
the top of the bbox and is `bandSize` scanlines high, but for the last, which ends at
`yMax`. -/
theorem bandsSetUp_closed (minY yMax bandCnt bandSize : Int) (hbs : 0 < bandSize)
    (hfit : 2 ≤ bandCnt → bandCnt * bandSize ≤ yMax - minY) (k : Nat) (n : Int) (hn : 0 ≤ n)
    (hk : n + k = bandCnt) :
    bandsSetUp yMax bandCnt bandSize k n (minY + bandSize * n) =
      (List.range k).map (fun i : Nat =>
        (⟨minY + bandSize * (n + i),
          if n + i = bandCnt - 1 then yMax else minY + bandSize * (n + i + 1)⟩ : Band)) := by
  induction k generalizing n with
  | zero => rfl
  | succ k ih =>
    rw [bandsSetUp_succ, List.range_succ_eq_map, List.map_cons, List.map_map]
    have hmax : (if n = bandCnt - 1 ∨ minY + bandSize * n + bandSize > yMax then yMax
        else minY + bandSize * n + bandSize) =
        if n = bandCnt - 1 then yMax else minY + bandSize * (n + 1) := by
      by_cases h1 : n = bandCnt - 1
      · rw [if_pos (Or.inl h1), if_pos h1]
      · have h2 : 2 ≤ bandCnt := by push_cast at hk; omega
        have h3 := hfit h2
        have h4 : bandSize * (n + 1) ≤ bandSize * (bandCnt - 1) :=
          Int.mul_le_mul_of_nonneg_left (by push_cast at hk; omega) (le_of_lt hbs)
        have h5 : bandSize * (bandCnt - 1) = bandCnt * bandSize - bandSize := by ring
        have h6 : bandSize * (n + 1) = bandSize * n + bandSize := by ring
        rw [if_neg h1, if_neg (by
          rintro (hc | hc)
          · exact h1 hc
          · omega)]
        omega
    rw [hmax]
    congr 1
    · simp
    · by_cases h1 : n = bandCnt - 1
      · have hk0 : k = 0 := by push_cast at hk; omega
        subst hk0
        rfl
      · rw [if_neg h1]
        have e := ih (n + 1) (by omega) (by push_cast at hk ⊢; omega)
        rw [e]
        apply List.map_congr_left
        intro i _
        simp only [Function.comp, Nat.succ_eq_add_one, Nat.cast_add, Nat.cast_one]
        have e1 : n + 1 + (i : Int) = n + ((i : Int) + 1) := by ring
        have e2 : n + 1 + (i : Int) + 1 = n + ((i : Int) + 1) + 1 := by ring
        rw [e1]

theorem bandCount_render (h : Int) (h0 : 0 ≤ h) (h1 : h < 2147483648) :
    bandCount h renderBandSize = max 1 (min (h / 64) 39) ∧
    1 ≤ bandCount h renderBandSize ∧ bandCount h renderBandSize ≤ 39 ∧
    (2 ≤ bandCount h renderBandSize → bandCount h renderBandSize * renderBandSize ≤ h) ∧
    (h < 2560 → h < (bandCount h renderBandSize + 1) * 64) ∧
    (2560 ≤ h → bandCount h renderBandSize = 39) := by
  have e : renderBandSize = 64 := by decide
  rw [e]
  unfold bandCount
  dsimp only []
  rw [Int.tdiv_eq_ediv h0 (by omega), toI32_eq_self _ (by omega) (by omega)]
  simp only [BAND_SIZE]
  have hq : h / 64 * 64 ≤ h := Int.ediv_mul_le _ (by omega)
  have hq2 : h < (h / 64 + 1) * 64 := Int.lt_ediv_add_one_mul_self _ (by omega)
  refine ⟨?_, ?_, ?_, ?_, ?_, ?_⟩
  · split_ifs <;> omega
  · split_ifs <;> omega
  · split_ifs <;> omega
  · split_ifs <;> omega
  · split_ifs <;> omega
  · split_ifs <;> omega

/-- The bands `rleRender` sets up for a bbox whose height fits an `int`, in closed form. -/
theorem renderBandList_eq (bbox : SwBBox) (h0 : 0 ≤ bbox.max.y - bbox.min.y)
    (h1 : bbox.max.y - bbox.min.y < 2147483648) :
    renderBandList bbox = (List.range
      (bandCount (bbox.max.y - bbox.min.y) renderBandSize).toNat).map (fun i : Nat =>
        (⟨bbox.min.y + renderBandSize * (0 + i),
          if 0 + (i : Int) = bandCount (bbox.max.y - bbox.min.y) renderBandSize - 1 then bbox.max.y
          else bbox.min.y + renderBandSize * (0 + i + 1)⟩ : Band)) := by
  obtain ⟨_, hc2, _, hc4, _, _⟩ := bandCount_render _ h0 h1
  have e : renderBandSize = 64 := by decide
  have hclosed := bandsSetUp_closed bbox.min.y bbox.max.y
    (bandCount (bbox.max.y - bbox.min.y) renderBandSize) renderBandSize (by rw [e]; decide) hc4
    (bandCount (bbox.max.y - bbox.min.y) renderBandSize).toNat 0 (le_refl _)
    (by rw [Int.toNat_of_nonneg (by omega)]; omega)
  rw [← hclosed]
  unfold renderBandList
  rw [mul_zero, add_zero]

/-- Each band `rleRender` sets up for a bbox of one scanline or more lies in the bbox and
has a scanline. -/
theorem renderBandList_in (bbox : SwBBox) (h0 : 0 < bbox.max.y - bbox.min.y)
    (h1 : bbox.max.y - bbox.min.y < 2147483648) :
    ∀ b ∈ renderBandList bbox, bbox.min.y ≤ b.min ∧ b.min < b.max ∧ b.max ≤ bbox.max.y := by
  obtain ⟨_, hc2, hc3, hc4, _, _⟩ := bandCount_render _ (le_of_lt h0) h1
  have e : renderBandSize = 64 := by decide
  intro b hb
  rw [renderBandList_eq bbox (le_of_lt h0) h1, List.mem_map] at hb
  obtain ⟨i, hi, rfl⟩ := hb
  rw [List.mem_range] at hi
  have hi1 : (i : Int) < bandCount (bbox.max.y - bbox.min.y) renderBandSize := by omega
  generalize bandCount (bbox.max.y - bbox.min.y) renderBandSize = cnt at hc2 hc3 hc4 hi1
  rw [e] at hc4 ⊢
  dsimp only []
  split_ifs with hlast
  · refine ⟨by omega, ?_, le_refl _⟩
    by_cases h2 : 2 ≤ cnt
    · have := hc4 h2
      omega
    · omega
  · have h2 : 2 ≤ cnt := by omega
    have := hc4 h2
    refine ⟨by omega, by omega, by omega⟩

/-- The function `rleRender` runs the band loop on the bands of `renderBandList`, one
after the other, and returns the RLE of the last worker. -/
theorem rleRender_eq_runBands (rle : Option SwRleData) (o : SwOutline) (bbox vp : SwBBox)
    (aa : Bool) :
    rleRender rle o bbox vp aa =
      (match runBands (renderBandList bbox) (initWorker renderBandSize rle o bbox vp aa) with
        | .error _ => none
        | .ok none => some none
        | .ok (some rw) => some (some rw.rle)) := by
  unfold rleRender rleRenderBand renderWorker
  dsimp only []
  rw [renderBands_eq_runBands]
  show (match (match runBands (renderBandList bbox)
      (initWorker renderBandSize rle o bbox vp aa) with
      | .error e => Except.error e
      | .ok none => .ok none
      | .ok (some rw) => .ok (some (tuneBand rw))) with
      | .error _ => none
      | .ok none => some none
      | .ok (some rw) => some (some rw.rle)) = _
  generalize runBands (renderBandList bbox) (initWorker renderBandSize rle o bbox vp aa) = r
  cases r with
  | error e => rfl
  | ok v =>
    cases v with
    | none => rfl
    | some rw =>
      dsimp only []
      unfold tuneBand
      split <;> rfl

end ThorVG

namespace ThorVG

/-! ## A band that overflows the pool -/

theorem wedge_setup :
    bandSetup (initWorker renderBandSize none wedge (boxAt0 400 3432) (boxAt0 400 3432) true)
        ⟨2432, 3432⟩ =
      .ok (some (bandWorker
        (initWorker renderBandSize none wedge (boxAt0 400 3432) (boxAt0 400 3432) true)
        ⟨2432, 3432⟩ 262)) := by
  unfold bandSetup
  dsimp only []
  rw [if_neg (by decide), if_neg (by decide), if_neg (by decide)]
  rfl

set_option maxRecDepth 100000 in
set_option maxHeartbeats 4000000 in
theorem wedge_overflows :
    overflowed (_decomposeOutline (bandWorker
      (initWorker renderBandSize none wedge (boxAt0 400 3432) (boxAt0 400 3432) true)
      ⟨2432, 3432⟩ 262)) = true := by
  decide

/-- A run of `_decomposeOutline` that a pool overflow left makes `_genRle` return -1. -/
theorem genRle_of_overflowed (rw : RleWorker) (h : overflowed (_decomposeOutline rw) = true) :
    ∃ rw1, _genRle rw = some (rw1, -1) := by
  unfold _genRle
  cases hd : _decomposeOutline rw with
  | ok v =>
    rw [hd] at h
    cases h
  | error e =>
    cases e with
    | undefined =>
      rw [hd] at h
      cases h
    | overflow rw1 => exact ⟨rw1, rfl⟩

end ThorVG

namespace ThorVG

/-! ## The overflow counter through the band loops -/

theorem bars_setup :
    bandSetup barsWorker ⟨0, 64⟩ = .ok (some (bandWorker barsWorker ⟨0, 64⟩ 496)) := by
  unfold bandSetup
  dsimp only []
  rw [if_neg (by decide), if_neg (by decide), if_neg (by decide)]
  rfl

set_option maxRecDepth 100000 in
set_option maxHeartbeats 4000000 in
theorem bars_overflows :
    overflowed (_decomposeOutline (bandWorker barsWorker ⟨0, 64⟩ 496)) = true := by
  decide

theorem countShoot_eq (rw : RleWorker) (bottom top : Int) (hbs : 0 < rw.bandSize)
    (h : bottom ≤ top) : countShoot rw bottom top = rw := by
  unfold countShoot
  rw [if_neg (by omega)]

theorem sweep_shoot (rw : RleWorker) :
    (_sweep rw).bandShoot = rw.bandShoot ∧ (_sweep rw).bandSize = rw.bandSize := by
  have h := sweep_strip rw
  exact ⟨(congrArg RleWorker.bandShoot h : (stripSpans (_sweep rw)).bandShoot = (stripSpans rw).bandShoot),
    (congrArg RleWorker.bandSize h : (stripSpans (_sweep rw)).bandSize = (stripSpans rw).bandSize)⟩

theorem bandTry_shoot (rw rw1 : RleWorker) (band : Band)
    (h : bandTry rw band = .ok (.swept rw1) ∨ bandTry rw band = .ok (.reduce rw1)) :
    rw1.bandShoot = rw.bandShoot ∧ rw1.bandSize = rw.bandSize := by
  rcases h with h | h
  · obtain ⟨rw0, rw2, hs, hg, rfl⟩ := bandTry_swept _ _ _ h
    obtain ⟨mc, rfl, _, _⟩ := bandSetup_some _ _ _ hs
    have hf := (genRle_sound _ _ _ hg).1
    rw [(sweep_shoot rw2).1, (sweep_shoot rw2).2]
    exact ⟨congrArg WorkerFrame.bandShoot hf, congrArg WorkerFrame.bandSize hf⟩
  · unfold bandTry at h
    cases hs : bandSetup rw band with
    | error e => rw [hs] at h; cases h
    | ok v =>
      rw [hs] at h
      cases v with
      | none =>
        simp only [Except.ok.injEq, BandTry.reduce.injEq] at h
        subst h
        exact ⟨rfl, rfl⟩
      | some rw0 =>
        obtain ⟨mc, rfl, _, _⟩ := bandSetup_some _ _ _ hs
        dsimp only [] at h
        cases hg : _genRle (bandWorker rw band mc) with
        | none => rw [hg] at h; cases h
        | some v =>
          obtain ⟨rw2, ret⟩ := v
          rw [hg] at h
          dsimp only [] at h
          have hf := (genRle_sound _ _ _ hg).1
          split at h
          · cases h
          · split at h
            · cases h
            · simp only [Except.ok.injEq, BandTry.reduce.injEq] at h
              subst h
              exact ⟨congrArg WorkerFrame.bandShoot hf, congrArg WorkerFrame.bandSize hf⟩

theorem bandLoop_shoot (fuel : Nat) (rw rwF : RleWorker) (stk : List Band)
    (hbs : 0 < rw.bandSize) (hall : ∀ b ∈ stk, b.min ≤ b.max)
    (h : bandLoop fuel rw stk = .ok (some rwF)) :
    rwF.bandShoot = rw.bandShoot ∧ rwF.bandSize = rw.bandSize := by
  induction fuel generalizing rw stk with
  | zero =>
    cases stk with
    | nil =>
      rw [bandLoop_nil] at h
      simp only [Except.ok.injEq, Option.some.injEq] at h
      subst h
      exact ⟨rfl, rfl⟩
    | cons b bs => rw [bandLoop_zero] at h; cases h
  | succ n ih =>
    cases stk with
    | nil =>
      rw [bandLoop_nil] at h
      simp only [Except.ok.injEq, Option.some.injEq] at h
      subst h
      exact ⟨rfl, rfl⟩
    | cons band below =>
      rw [bandLoop_succ] at h
      have hb := hall band (List.mem_cons_self _ _)
      have hbelow : ∀ b ∈ below, b.min ≤ b.max := fun b hb1 => hall b (List.mem_cons_of_mem _ hb1)
      cases ht : bandTry rw band with
      | error e => rw [ht] at h; cases h
      | ok v =>
        rw [ht] at h
        cases v with
        | failed => cases h
        | swept rw1 =>
          dsimp only [] at h
          obtain ⟨e1, e2⟩ := bandTry_shoot _ _ _ (Or.inl ht)
          obtain ⟨f1, f2⟩ := ih rw1 below (by rw [e2]; exact hbs) hbelow h
          exact ⟨f1.trans e1, f2.trans e2⟩
        | reduce rw1 =>
          dsimp only [] at h
          obtain ⟨e1, e2⟩ := bandTry_shoot _ _ _ (Or.inr ht)
          split at h
          · cases h
          · split at h
            · cases h
            · rw [countShoot_eq rw1 _ _ (by rw [e2]; exact hbs) hb] at h
              have hsh : shr (band.max - band.min) 1 = (band.max - band.min) / 2 := by simp [shr]
              obtain ⟨f1, f2⟩ := ih rw1 _ (by rw [e2]; exact hbs) (by
                intro b hb1
                rw [hsh] at hb1
                simp only [List.mem_cons] at hb1
                rcases hb1 with rfl | rfl | hb1
                · show band.min ≤ band.min + (band.max - band.min) / 2
                  omega
                · show band.min + (band.max - band.min) / 2 ≤ band.max
                  omega
                · exact hbelow b hb1) h
              exact ⟨f1.trans e1, f2.trans e2⟩

theorem bandsSetUp_le (yMax bandCnt bandSize : Int) (hbs : 0 ≤ bandSize) (k : Nat) (n min : Int)
    (hmin : min ≤ yMax) : ∀ b ∈ bandsSetUp yMax bandCnt bandSize k n min, b.min ≤ b.max := by
  induction k generalizing n min with
  | zero => intro b hb; cases hb
  | succ k ih =>
    intro b hb
    rw [bandsSetUp_succ] at hb
    have hmax : min ≤ (if n = bandCnt - 1 ∨ min + bandSize > yMax then yMax else min + bandSize) ∧
        (if n = bandCnt - 1 ∨ min + bandSize > yMax then yMax else min + bandSize) ≤ yMax := by
      split_ifs with h1
      · exact ⟨hmin, le_refl _⟩
      · simp only [not_or, not_lt] at h1
        omega
    rcases List.mem_cons.1 hb with rfl | hb1
    · exact hmax.1
    · exact ih _ _ hmax.2 b hb1

theorem runBands_shoot (bands : List Band) (rw rwF : RleWorker) (hbs : 0 < rw.bandSize)
    (hall : ∀ b ∈ bands, b.min ≤ b.max) (h : runBands bands rw = .ok (some rwF)) :
    rwF.bandShoot = rw.bandShoot ∧ rwF.bandSize = rw.bandSize := by
  induction bands generalizing rw with
  | nil =>
    rw [runBands_nil] at h
    simp only [Except.ok.injEq, Option.some.injEq] at h
    subst h
    exact ⟨rfl, rfl⟩
  | cons b bs ih =>
    rw [runBands_cons] at h
    cases hb : bandLoop (2 * (b.max - b.min).toNat + 1) rw [b] with
    | error e => rw [hb] at h; cases h
    | ok v =>
      rw [hb] at h
      cases v with
      | none => cases h
      | some rw1 =>
        dsimp only [] at h
        obtain ⟨e1, e2⟩ := bandLoop_shoot _ _ _ _ hbs (by
          intro c hc
          rw [List.mem_singleton] at hc
          subst hc
          exact hall _ (List.mem_cons_self _ _)) hb
        obtain ⟨f1, f2⟩ := ih rw1 (by rw [e2]; exact hbs)
          (fun c hc => hall c (List.mem_cons_of_mem _ hc)) h
        exact ⟨f1.trans e1, f2.trans e2⟩

/-- The worker at the end of a run of `rleRender` that returns an RLE has counted no
overflow and has the band size it started with. -/
theorem renderWorker_shoot (bandSize : Int) (rle : Option SwRleData) (o : SwOutline)
    (bbox vp : SwBBox) (aa : Bool) (rwF : RleWorker) (hbs : 0 < bandSize)
    (hbox : bbox.min.y ≤ bbox.max.y)
    (h : renderWorker bandSize rle o bbox vp aa = .ok (some rwF)) :
    rwF.bandShoot = 0 ∧ rwF.bandSize = bandSize := by
  unfold renderWorker at h
  dsimp only [] at h
  rw [renderBands_eq_runBands] at h
  cases hr : runBands (bandsSetUp (initWorker bandSize rle o bbox vp aa).cellMax.y
      (bandCount ((initWorker bandSize rle o bbox vp aa).cellMax.y -
        (initWorker bandSize rle o bbox vp aa).cellMin.y)
        (initWorker bandSize rle o bbox vp aa).bandSize)
      (initWorker bandSize rle o bbox vp aa).bandSize
      (bandCount ((initWorker bandSize rle o bbox vp aa).cellMax.y -
        (initWorker bandSize rle o bbox vp aa).cellMin.y)
        (initWorker bandSize rle o bbox vp aa).bandSize).toNat 0
      (initWorker bandSize rle o bbox vp aa).cellMin.y)
      (initWorker bandSize rle o bbox vp aa) with
  | error e => rw [hr] at h; cases h
  | ok v =>
    rw [hr] at h
    cases v with
    | none => cases h
    | some rw1 =>
      dsimp only [] at h
      obtain ⟨e1, e2⟩ := runBands_shoot _ _ _ hbs
        (bandsSetUp_le _ _ _ (le_of_lt hbs) _ _ _ hbox) hr
      have e3 : rw1.bandShoot = 0 := e1
      have e4 : rw1.bandSize = bandSize := e2
      simp only [Except.ok.injEq, Option.some.injEq] at h
      subst h
      unfold tuneBand
      rw [if_neg (by rw [e3]; omega)]
      exact ⟨e3, e4⟩

end ThorVG
namespace ThorVG

/-! ## The cell functions do not read the clip size and the band settings either -/

theorem findCell_side (o rw : RleWorker) :
    _findCell (withSide o rw) = exceptSide (fstSide o) o (_findCell rw) := by
  unfold _findCell
  dsimp only [withSide]
  by_cases h1 : rw.cellPos.y < 0
  · simp only [if_pos h1]; rfl
  · simp only [if_neg h1]
    cases rw.yCells[rw.cellPos.y.toNat]? with
    | none => rfl
    | some row =>
      dsimp only []
      generalize findInRow (if rw.cellPos.x > rw.cellXCnt then rw.cellXCnt else rw.cellPos.x) row = r
      by_cases h2 : r.2.2 = true
      · simp only [if_pos h2]
        by_cases h3 : rw.cellsCnt ≥ rw.maxCells
        · simp only [if_pos h3]; rfl
        · simp only [if_neg h3]; rfl
      · simp only [if_neg h2]; rfl

theorem recordCell_side (o rw : RleWorker) :
    _recordCell (withSide o rw) = exceptSide (withSide o) o (_recordCell rw) := by
  unfold _recordCell
  rw [findCell_side]
  by_cases h1 : rw.area ≠ 0 ∨ rw.cover ≠ 0
  · have h1' : (withSide o rw).area ≠ 0 ∨ (withSide o rw).cover ≠ 0 := h1
    rw [if_pos h1, if_pos h1']
    cases _findCell rw with
    | error e => rfl
    | ok p => rfl
  · have h1' : ¬ ((withSide o rw).area ≠ 0 ∨ (withSide o rw).cover ≠ 0) := h1
    rw [if_neg h1, if_neg h1']
    rfl

theorem recordIf_side (o rw : RleWorker) :
    (if !(withSide o rw).invalid then _recordCell (withSide o rw) else .ok (withSide o rw)) =
      exceptSide (withSide o) o (if !rw.invalid then _recordCell rw else .ok rw) := by
  rw [recordCell_side]
  show (if !rw.invalid then _ else _) = _
  cases rw.invalid <;> rfl

theorem setCell_side (o rw : RleWorker) (pos : SwPoint) :
    _setCell (withSide o rw) pos = exceptSide (withSide o) o (_setCell rw pos) := by
  unfold _setCell
  dsimp only []
  rw [recordCell_side]
  show (match (if cellOf rw pos ≠ rw.cellPos then
      if !rw.invalid then exceptSide (withSide o) o (_recordCell rw) else .ok (withSide o rw)
    else .ok (withSide o rw)) with
    | .error e => Except.error e
    | .ok rw1 => Except.ok (enterCell rw1 (cellOf rw pos))) = _
  by_cases h1 : cellOf rw pos ≠ rw.cellPos
  · rw [if_pos h1, if_pos h1]
    cases rw.invalid
    · cases _recordCell rw with
      | error e => rfl
      | ok p => rfl
    · rfl
  · rw [if_neg h1, if_neg h1]
    rfl

theorem startCell_side (o rw : RleWorker) (pos : SwPoint) :
    _startCell (withSide o rw) pos = exceptSide (withSide o) o (_startCell rw pos) := by
  unfold _startCell
  exact setCell_side o (startAt rw (startPos rw pos)) (startPos rw pos)

theorem moveTo_side (o rw : RleWorker) (dst : SwPoint) :
    _moveTo (withSide o rw) dst = exceptSide (withSide o) o (_moveTo rw dst) := by
  unfold _moveTo
  rw [recordIf_side]
  cases (if !rw.invalid then _recordCell rw else .ok rw) with
  | error e => rfl
  | ok rw1 =>
    show (match _startCell (withSide o rw1) (TRUNCpt dst) with
      | .error e => Except.error e
      | .ok rw2 => Except.ok { rw2 with pos := dst }) =
      exceptSide (withSide o) o (match _startCell rw1 (TRUNCpt dst) with
      | .error e => Except.error e
      | .ok rw2 => Except.ok { rw2 with pos := dst })
    rw [startCell_side]
    cases _startCell rw1 (TRUNCpt dst) with
    | error e => rfl
    | ok rw2 => rfl

theorem lineUp_side (o : RleWorker) (e2y : Int) (fuel : Nat) (rw : RleWorker) (e1 f1 : SwPoint) :
    lineUp e2y fuel (withSide o rw) e1 f1 = exceptSide (fstSide o) o (lineUp e2y fuel rw e1 f1) := by
  induction fuel generalizing rw e1 f1 with
  | zero => rfl
  | succ n ih =>
    rw [lineUp_succ, lineUp_succ]
    have ha : addVertical (withSide o rw) f1 ONE_PIXEL = withSide o (addVertical rw f1 ONE_PIXEL) := rfl
    rw [ha, setCell_side]
    cases _setCell (addVertical rw f1 ONE_PIXEL) ⟨e1.x, e1.y + 1⟩ with
    | error e => rfl
    | ok rw1 =>
      dsimp only [exceptSide]
      by_cases hc : e1.y + 1 ≠ e2y
      · rw [if_pos hc, if_pos hc]; exact ih _ _ _
      · rw [if_neg hc, if_neg hc]; rfl

theorem lineDown_side (o : RleWorker) (e2y : Int) (fuel : Nat) (rw : RleWorker) (e1 f1 : SwPoint) :
    lineDown e2y fuel (withSide o rw) e1 f1 = exceptSide (fstSide o) o (lineDown e2y fuel rw e1 f1) := by
  induction fuel generalizing rw e1 f1 with
  | zero => rfl
  | succ n ih =>
    rw [lineDown_succ, lineDown_succ]
    have ha : addVertical (withSide o rw) f1 0 = withSide o (addVertical rw f1 0) := rfl
    rw [ha, setCell_side]
    cases _setCell (addVertical rw f1 0) ⟨e1.x, e1.y - 1⟩ with
    | error e => rfl
    | ok rw1 =>
      dsimp only [exceptSide]
      by_cases hc : e1.y - 1 ≠ e2y
      · rw [if_pos hc, if_pos hc]; exact ih _ _ _
      · rw [if_neg hc, if_neg hc]; rfl

theorem lineWalk_side (o : RleWorker) (diff e2 : SwPoint) (dx_r dy_r : Int) (fuel : Nat)
    (rw : RleWorker) (e1 f1 : SwPoint) (prod : Int) :
    lineWalk diff e2 dx_r dy_r fuel (withSide o rw) e1 f1 prod =
      exceptSide (fstSide o) o (lineWalk diff e2 dx_r dy_r fuel rw e1 f1 prod) := by
  induction fuel generalizing rw e1 f1 prod with
  | zero => rfl
  | succ n ih =>
    rw [lineWalk_succ, lineWalk_succ]
    generalize walkStep diff dx_r dy_r e1 prod = step
    have ha : addEdge (withSide o rw) f1 step.1 = withSide o (addEdge rw f1 step.1) := rfl
    rw [ha, setCell_side]
    cases _setCell (addEdge rw f1 step.1) step.2.1 with
    | error e => rfl
    | ok rw1 =>
      dsimp only [exceptSide]
      by_cases hc : step.2.1 ≠ e2
      · rw [if_pos hc, if_pos hc]; exact ih _ _ _ _
      · rw [if_neg hc, if_neg hc]; rfl

theorem lineScan_side (o rw : RleWorker) (dst : SwPoint) :
    lineScan (withSide o rw) dst = exceptSide (fstSide o) o (lineScan rw dst) := by
  unfold lineScan
  dsimp only []
  have hp : (withSide o rw).pos = rw.pos := rfl
  rw [hp]
  by_cases h1 : TRUNCpt rw.pos = TRUNCpt dst
  · rw [if_pos h1, if_pos h1]; rfl
  rw [if_neg h1, if_neg h1]
  by_cases h2 : (dst - rw.pos).y = 0
  · rw [if_pos h2, if_pos h2, setCell_side]
    cases _setCell rw ⟨(TRUNCpt dst).x, (TRUNCpt rw.pos).y⟩ with
    | error e => rfl
    | ok rw1 => rfl
  rw [if_neg h2, if_neg h2]
  by_cases h3 : (dst - rw.pos).x = 0
  · rw [if_pos h3, if_pos h3]
    by_cases h4 : (dst - rw.pos).y > 0
    · rw [if_pos h4, if_pos h4]; exact lineUp_side _ _ _ _ _ _
    · rw [if_neg h4, if_neg h4]; exact lineDown_side _ _ _ _ _ _
  rw [if_neg h3, if_neg h3]
  exact lineWalk_side _ _ _ _ _ _ _ _ _ _

theorem lineTo_side (o rw : RleWorker) (dst : SwPoint) :
    _lineTo (withSide o rw) dst = exceptSide (withSide o) o (_lineTo rw dst) := by
  unfold _lineTo
  have hs : lineSkipped (withSide o rw) dst ↔ lineSkipped rw dst := Iff.rfl
  by_cases h1 : lineSkipped rw dst
  · rw [if_pos h1, if_pos (hs.mpr h1)]; rfl
  rw [if_neg h1, if_neg (fun h => h1 (hs.mp h)), lineScan_side]
  cases lineScan rw dst with
  | error e => rfl
  | ok p => rfl

theorem cubicLoop_side (o : RleWorker) (fuel : Nat) (rw : RleWorker) (stk : List SwPoint) :
    cubicLoop fuel (withSide o rw) stk = exceptSide (withSide o) o (cubicLoop fuel rw stk) := by
  induction fuel generalizing rw stk with
  | zero => unfold cubicLoop; rfl
  | succ n ih =>
    match stk with
    | a3 :: a2 :: a1 :: a0 :: below =>
      unfold cubicLoop
      by_cases h1 : cubicSplit a0 a1 a2 a3 = true
      · simp only [if_pos h1]
        by_cases h2 : below.length + 7 > BEZ_STACK
        · simp only [if_pos h2]; rfl
        · simp only [if_neg h2]; exact ih _ _
      · simp only [if_neg h1]
        rw [lineTo_side]
        cases _lineTo rw a0 with
        | error e => rfl
        | ok rw1 =>
          dsimp only [exceptSide]
          by_cases h3 : below = []
          · simp only [if_pos h3]
          · simp only [if_neg h3]; exact ih _ _
    | [] => unfold cubicLoop; rfl
    | [_] => unfold cubicLoop; rfl
    | [_, _] => unfold cubicLoop; rfl
    | [_, _, _] => unfold cubicLoop; rfl

theorem cubicTo_side (o rw : RleWorker) (c1 c2 dst : SwPoint) :
    _cubicTo (withSide o rw) c1 c2 dst = exceptSide (withSide o) o (_cubicTo rw c1 c2 dst) := by
  unfold _cubicTo
  have hs : arcOutside (withSide o rw) dst c2 c1 (withSide o rw).pos ↔ arcOutside rw dst c2 c1 rw.pos :=
    Iff.rfl
  by_cases h1 : arcOutside rw dst c2 c1 rw.pos
  · rw [if_pos h1, if_pos (hs.mpr h1)]; exact lineTo_side _ _ _
  · rw [if_neg h1, if_neg (fun h => h1 (hs.mp h))]; exact cubicLoop_side _ _ _ _

theorem contourLoop_side (w : RleWorker) (o : SwOutline) (limit : Nat) (start : SwPoint) (fuel : Nat)
    (rw : RleWorker) (pt : Nat) :
    contourLoop o limit start fuel (withSide w rw) pt =
      exceptSide (fstSide w) w (contourLoop o limit start fuel rw pt) := by
  induction fuel generalizing rw pt with
  | zero => unfold contourLoop; rfl
  | succ n ih =>
    unfold contourLoop
    by_cases h0 : pt < limit
    · simp only [if_pos h0]
      cases o.types[pt + 1]? with
      | none => rfl
      | some t0 =>
        cases o.pts[pt + 1]? with
        | none => rfl
        | some p0 =>
          dsimp only []
          by_cases ht : t0 = SW_CURVE_TYPE_POINT
          · simp only [if_pos ht]
            rw [lineTo_side]
            cases _lineTo rw (UPSCALE p0) with
            | error e => rfl
            | ok rw1 => exact ih _ _
          · simp only [if_neg ht]
            by_cases h1 : pt + 1 + 1 > limit
            · simp only [if_pos h1]; rfl
            · simp only [if_neg h1]
              cases o.types[pt + 1 + 1]? with
              | none => rfl
              | some t1 =>
                cases o.pts[pt + 1 + 1]? with
                | none => rfl
                | some p1 =>
                  dsimp only []
                  by_cases h2 : t1 ≠ SW_CURVE_TYPE_CUBIC
                  · simp only [if_pos h2]; rfl
                  · simp only [if_neg h2]
                    by_cases h3 : pt + 1 + 2 ≤ limit
                    · simp only [if_pos h3]
                      cases o.pts[pt + 1 + 2]? with
                      | none => rfl
                      | some p2 =>
                        dsimp only []
                        rw [cubicTo_side]
                        cases _cubicTo rw (UPSCALE p0) (UPSCALE p1) (UPSCALE p2) with
                        | error e => rfl
                        | ok rw1 => exact ih _ _
                    · simp only [if_neg h3]
                      rw [cubicTo_side]
                      cases _cubicTo rw (UPSCALE p0) (UPSCALE p1) start with
                      | error e => rfl
                      | ok rw1 => rfl
    · simp only [if_neg h0]; rfl

theorem decomposeContours_side (w : RleWorker) (o : SwOutline) (cs : List Nat) (first : Nat)
    (rw : RleWorker) :
    decomposeContours o cs first (withSide w rw) =
      exceptSide (fstSide w) w (decomposeContours o cs first rw) := by
  induction cs generalizing first rw with
  | nil => unfold decomposeContours; rfl
  | cons last more ih =>
    unfold decomposeContours
    cases o.pts[first]? with
    | none => rfl
    | some p =>
      cases o.types[first]? with
      | none => rfl
      | some t =>
        dsimp only []
        by_cases ht : t = SW_CURVE_TYPE_CUBIC
        · simp only [if_pos ht]; rfl
        · simp only [if_neg ht]
          rw [moveTo_side]
          cases _moveTo rw (UPSCALE p) with
          | error e => rfl
          | ok rw1 =>
            dsimp only [exceptSide]
            rw [contourLoop_side]
            cases contourLoop o last (UPSCALE p) (last - first + 1) rw1 first with
            | error e => rfl
            | ok v =>
              obtain ⟨rw2, ex⟩ := v
              cases ex with
              | invalid => rfl
              | close => exact ih _ _
              | line =>
                dsimp only [exceptSide, fstSide]
                rw [lineTo_side]
                cases _lineTo rw2 (UPSCALE p) with
                | error e => rfl
                | ok rw3 => exact ih _ _

theorem decomposeOutline_side (w rw : RleWorker) :
    _decomposeOutline (withSide w rw) = exceptSide (fstSide w) w (_decomposeOutline rw) := by
  unfold _decomposeOutline
  exact decomposeContours_side w rw.outline rw.outline.cntrs 0 rw

/-- The cell side of the result of `_genRle` depends neither on the span side of the
worker nor on its clip size and band settings, which `_genRle` hands on as they are. -/
theorem genRle_side (w rw : RleWorker) :
    _genRle (withSide w rw) = (_genRle rw).map (fstSide w) := by
  unfold _genRle
  rw [decomposeOutline_side]
  cases _decomposeOutline rw with
  | error e => cases e <;> rfl
  | ok v =>
    obtain ⟨rw1, ret⟩ := v
    dsimp only [exceptSide, fstSide]
    rw [recordIf_side]
    cases (if !rw1.invalid then _recordCell rw1 else .ok rw1) with
    | error e => cases e <;> rfl
    | ok rw2 => rfl

end ThorVG

namespace ThorVG

/-! ## What `_genRle` returns depends on the cell side alone -/

/-- A `_moveTo` that finds no current cell to record starts afresh: the point, the cell
and the sums the worker came with play no part. -/
theorem moveTo_cursor (c rw : RleWorker) (d : SwPoint) (h : rw.invalid = true) :
    _moveTo (withCursor c rw) d = _moveTo rw d := by
  unfold _moveTo
  have hi : (withCursor c rw).invalid = true := h
  rw [hi, h]
  simp only [Bool.not_true, Bool.false_eq_true, if_false]
  unfold _startCell _setCell
  dsimp only []
  have e1 : startPos (withCursor c rw) (TRUNCpt d) = startPos rw (TRUNCpt d) := rfl
  rw [e1]
  have r1 : _recordCell (startAt (withCursor c rw) (startPos rw (TRUNCpt d))) =
      .ok (startAt (withCursor c rw) (startPos rw (TRUNCpt d))) := recordCell_zero _ rfl rfl
  have r2 : _recordCell (startAt rw (startPos rw (TRUNCpt d))) =
      .ok (startAt rw (startPos rw (TRUNCpt d))) := recordCell_zero _ rfl rfl
  have i1 : (startAt (withCursor c rw) (startPos rw (TRUNCpt d))).invalid = false := rfl
  have i2 : (startAt rw (startPos rw (TRUNCpt d))).invalid = false := rfl
  rw [r1, r2, i1, i2]
  simp only [Bool.not_false, if_true, ite_self]
  rfl

theorem verdict_map (f : RleWorker → RleWorker) (r : Option (RleWorker × Int)) :
    verdict (r.map (fun p => (f p.1, p.2))) = verdict r := by
  cases r <;> rfl

/-- What `_genRle` returns on a band just set up does not depend on the point, the cell
and the sums the worker came with. -/
theorem genRle_cursor (c rw : RleWorker) (h : rw.invalid = true) :
    verdict (_genRle (withCursor c rw)) = verdict (_genRle rw) := by
  unfold _genRle _decomposeOutline
  have eo : (withCursor c rw).outline = rw.outline := rfl
  rw [eo, decomposeContours_eq, decomposeContours_eq]
  rcases outlineSkel_head rw.outline rw.outline.cntrs 0 with h0 | ⟨d, rest, h0⟩
  · rw [h0]
    unfold finish
    simp only [runOps]
    cases (outlineSkel rw.outline rw.outline.cntrs 0).2 with
    | none => rfl
    | some k =>
      dsimp only []
      have hi : (withCursor c rw).invalid = true := h
      rw [hi, h]
      rfl
  · rw [h0]
    have e : finish (PathOp.move d :: rest) (outlineSkel rw.outline rw.outline.cntrs 0).2
        (withCursor c rw) =
        finish (PathOp.move d :: rest) (outlineSkel rw.outline rw.outline.cntrs 0).2 rw := by
      unfold finish
      rw [runOps_cons, runOps_cons]
      show (match (match _moveTo (withCursor c rw) d with
        | .error e => Except.error e
        | .ok rw1 => runOps rest rw1) with
        | .error e => Except.error e
        | .ok rw1 => _) = _
      rw [moveTo_cursor c rw d h]
      rfl
    rw [e]

theorem genRle_ret (rw rw1 : RleWorker) (ret : Int) (h : _genRle rw = some (rw1, ret)) :
    ret = -1 ∨ ret = 0 ∨ ret = 1 := by
  unfold _genRle at h
  cases hd : _decomposeOutline rw with
  | error e =>
    rw [hd] at h
    cases e with
    | overflow rw2 =>
      simp only [Option.some.injEq, Prod.mk.injEq] at h
      exact Or.inl h.2.symm
    | undefined => cases h
  | ok v =>
    obtain ⟨rw2, b⟩ := v
    rw [hd] at h
    dsimp only [] at h
    cases hr : (if !rw2.invalid then _recordCell rw2 else .ok rw2) with
    | error e =>
      rw [hr] at h
      cases e with
      | overflow rw3 =>
        simp only [Option.some.injEq, Prod.mk.injEq] at h
        exact Or.inl h.2.symm
      | undefined => cases h
    | ok rw3 =>
      rw [hr] at h
      simp only [Option.some.injEq, Prod.mk.injEq] at h
      cases b
      · exact Or.inr (Or.inr h.2.symm)
      · exact Or.inr (Or.inl h.2.symm)

/-- When `_genRle` returns 1 the decomposition ended at `return false`. -/
theorem genRle_one (rw rw1 : RleWorker) (h : _genRle rw = some (rw1, 1)) :
    (outlineSkel rw.outline rw.outline.cntrs 0).2 = some false := by
  unfold _genRle at h
  cases hd : _decomposeOutline rw with
  | error e =>
    rw [hd] at h
    cases e with
    | overflow rw2 =>
      simp only [Option.some.injEq, Prod.mk.injEq] at h
      omega
    | undefined => cases h
  | ok v =>
    obtain ⟨rw2, b⟩ := v
    rw [hd] at h
    dsimp only [] at h
    unfold _decomposeOutline at hd
    rw [decomposeContours_eq] at hd
    have hk := (finish_ok _ _ _ _ _ hd).1
    cases b with
    | false => exact hk
    | true =>
      exfalso
      cases hr : (if !rw2.invalid then _recordCell rw2 else .ok rw2) with
      | error e =>
        rw [hr] at h
        cases e with
        | overflow rw3 =>
          simp only [Option.some.injEq, Prod.mk.injEq] at h
          omega
        | undefined => cases h
      | ok rw3 =>
        rw [hr] at h
        simp only [Option.some.injEq, Prod.mk.injEq] at h
        have := h.2
        simp at this

/-- The band of the one scanline `y` on a worker of the run and on the worker of
reference: `_genRle` returns the same. -/
theorem genRle_row (o : SwOutline) (bbox : SwBBox) (rw : RleWorker) (y : Int)
    (hout : rw.outline = o) (hx1 : rw.cellMin.x = bbox.min.x) (hx2 : rw.cellMax.x = bbox.max.x)
    (hx3 : rw.cellXCnt = bbox.max.x - bbox.min.x) :
    verdict (_genRle (bandWorker rw ⟨y, y + 1⟩ cellCap)) =
      verdict (_genRle (refWorker o bbox y)) := by
  have hA : bandWorker rw ⟨y, y + 1⟩ cellCap =
      withSide (bandWorker rw ⟨y, y + 1⟩ cellCap)
        (withCursor (bandWorker rw ⟨y, y + 1⟩ cellCap) (refWorker o bbox y)) := by
    cases rw
    simp only at hout hx1 hx2 hx3
    subst hout
    simp only [bandWorker, refWorker, withSide, withCursor, initWorker, RleWorker.mk.injEq,
      true_and, and_true]
    refine ⟨?_, ?_, ?_⟩
    · rw [← hx1]
    · rw [← hx2]
    · exact hx3
  rw [hA, genRle_side]
  have hv : verdict (Option.map (fstSide (bandWorker rw ⟨y, y + 1⟩ cellCap))
      (_genRle (withCursor (bandWorker rw ⟨y, y + 1⟩ cellCap) (refWorker o bbox y)))) =
      verdict (_genRle (withCursor (bandWorker rw ⟨y, y + 1⟩ cellCap) (refWorker o bbox y))) :=
    verdict_map _ _
  rw [hv]
  exact genRle_cursor _ _ rfl

end ThorVG

namespace ThorVG

/-! ## Why a run of `rleRender` ends at `error` -/

theorem bandTry_failed (rw : RleWorker) (band : Band) (h : bandTry rw band = .ok .failed) :
    ∃ rw0 rw2, bandSetup rw band = .ok (some rw0) ∧ _genRle rw0 = some (rw2, 1) := by
  unfold bandTry at h
  cases hs : bandSetup rw band with
  | error e => rw [hs] at h; cases h
  | ok v =>
    rw [hs] at h
    cases v with
    | none => cases h
    | some rw0 =>
      dsimp only [] at h
      cases hg : _genRle rw0 with
      | none => rw [hg] at h; cases h
      | some v =>
        obtain ⟨rw2, ret⟩ := v
        rw [hg] at h
        dsimp only [] at h
        split at h
        · cases h
        · split at h
          · rename_i h1
            exact ⟨rw0, rw2, rfl, by rw [← h1]; exact hg⟩
          · cases h

theorem bandTry_reduce_single (rw rw1 : RleWorker) (band : Band)
    (h1 : band.max - band.min = 1) (h : bandTry rw band = .ok (.reduce rw1)) :
    _genRle (bandWorker rw band cellCap) = some (rw1, -1) := by
  unfold bandTry at h
  rw [bandSetup_single rw band h1] at h
  dsimp only [] at h
  cases hg : _genRle (bandWorker rw band cellCap) with
  | none => rw [hg] at h; cases h
  | some v =>
    obtain ⟨rw2, ret⟩ := v
    rw [hg] at h
    dsimp only [] at h
    rcases genRle_ret _ _ _ hg with hr | hr | hr
    · subst hr
      rw [if_neg (by decide), if_neg (by decide)] at h
      simp only [Except.ok.injEq, BandTry.reduce.injEq] at h
      rw [h]
    · subst hr
      rw [if_pos rfl] at h
      cases h
    · subst hr
      rw [if_neg (by decide), if_pos rfl] at h
      cases h

theorem rowOverflows_of (o : SwOutline) (bbox : SwBBox) (rw rw1 : RleWorker) (y : Int)
    (hout : rw.outline = o) (hx1 : rw.cellMin.x = bbox.min.x) (hx2 : rw.cellMax.x = bbox.max.x)
    (hx3 : rw.cellXCnt = bbox.max.x - bbox.min.x)
    (h : _genRle (bandWorker rw ⟨y, y + 1⟩ cellCap) = some (rw1, -1)) :
    RowOverflows o bbox y := by
  have hv := genRle_row o bbox rw y hout hx1 hx2 hx3
  rw [h] at hv
  unfold RowOverflows
  cases hr : _genRle (refWorker o bbox y) with
  | none =>
    rw [hr] at hv
    cases hv
  | some v =>
    obtain ⟨s1, ret⟩ := v
    rw [hr] at hv
    simp only [verdict, Option.map_some', Option.some.injEq] at hv
    exact ⟨s1, by rw [← hv]⟩

/-- A `while (band >= bands)` loop that ends at `error` met an invalid outline, or a
band of one scanline that overflows the arena. -/
theorem bandLoop_none (o : SwOutline) (bbox : SwBBox) (hfr : Framed o) (cfg : RunConfig)
    (ho : cfg.outline = o) (hx1 : cfg.minX = bbox.min.x) (hx2 : cfg.maxX = bbox.max.x)
    (hx3 : cfg.cellXCnt = bbox.max.x - bbox.min.x) (fuel : Nat) (rw : RleWorker) (stk : List Band)
    (hc : configOf rw = cfg)
    (hall : ∀ b ∈ stk, bbox.min.y ≤ b.min ∧ b.min < b.max ∧ b.max ≤ bbox.max.y)
    (h : bandLoop fuel rw stk = .ok none) :
    InvalidOutline o ∨ ∃ y, bbox.min.y ≤ y ∧ y < bbox.max.y ∧ RowOverflows o bbox y := by
  induction fuel generalizing rw stk with
  | zero =>
    cases stk with
    | nil => rw [bandLoop_nil] at h; cases h
    | cons b bs => rw [bandLoop_zero] at h; cases h
  | succ n ih =>
    cases stk with
    | nil => rw [bandLoop_nil] at h; cases h
    | cons band below =>
      rw [bandLoop_succ] at h
      obtain ⟨hb1, hb2, hb3⟩ := hall band (List.mem_cons_self _ _)
      have hbelow : ∀ b ∈ below, bbox.min.y ≤ b.min ∧ b.min < b.max ∧ b.max ≤ bbox.max.y :=
        fun b hb => hall b (List.mem_cons_of_mem _ hb)
      have hout : rw.outline = o := by rw [← ho, ← hc]; rfl
      cases ht : bandTry rw band with
      | error e => rw [ht] at h; cases h
      | ok v =>
        rw [ht] at h
        cases v with
        | swept rw1 =>
          dsimp only [] at h
          exact ih rw1 below ((bandTry_swept_config _ _ _ ht).trans hc) hbelow h
        | failed =>
          left
          obtain ⟨rw0, rw2, hs, hg⟩ := bandTry_failed _ _ ht
          obtain ⟨mc, rfl, _, _⟩ := bandSetup_some _ _ _ hs
          have hk := genRle_one _ _ hg
          have eo : (bandWorker rw band mc).outline = o := hout
          rw [eo, outlineSkel_exit o hfr.1 hfr.2.1 _ _ hfr.2.2] at hk
          unfold InvalidOutline
          simp only [Option.some.injEq, Bool.not_eq_false'] at hk
          exact hk
        | reduce rw1 =>
          dsimp only [] at h
          have hsh : shr (band.max - band.min) 1 = (band.max - band.min) / 2 := by simp [shr]
          obtain ⟨hc1, _⟩ := bandTry_reduce _ _ _ ht
          split at h
          · rename_i hmid
            right
            rw [hsh] at hmid
            have h1 : band.max - band.min = 1 := by omega
            have hg := bandTry_reduce_single _ _ _ h1 ht
            obtain ⟨bmin, bmax⟩ := band
            have hbm : bmax = bmin + 1 := by
              simp only at h1
              omega
            subst hbm
            exact ⟨bmin, hb1, by simp only at hb3; omega,
              rowOverflows_of o bbox rw rw1 bmin hout
                (by rw [← hx1, ← hc]; rfl) (by rw [← hx2, ← hc]; rfl)
                (by rw [← hx3, ← hc]; rfl) hg⟩
          · rename_i hmid
            split at h
            · cases h
            · refine ih (countShoot rw1 band.min band.max) _ ?_ ?_ h
              · rw [(countShoot_config _ _ _).1, hc1]
                exact hc
              · intro b hb
                rw [hsh] at hb hmid
                simp only [List.mem_cons] at hb
                rcases hb with rfl | rfl | hb
                · exact ⟨hb1, by show band.min < band.min + (band.max - band.min) / 2; omega,
                    by show band.min + (band.max - band.min) / 2 ≤ bbox.max.y; omega⟩
                · exact ⟨by show bbox.min.y ≤ band.min + (band.max - band.min) / 2; omega,
                    by show band.min + (band.max - band.min) / 2 < band.max; omega, hb3⟩
                · exact hbelow b hb

/-- A `for` loop over bands of the bbox that ends at `error` met an invalid outline, or
a band of one scanline that overflows the arena. -/
theorem runBands_none (o : SwOutline) (bbox : SwBBox) (hfr : Framed o) (cfg : RunConfig)
    (ho : cfg.outline = o) (hx1 : cfg.minX = bbox.min.x) (hx2 : cfg.maxX = bbox.max.x)
    (hx3 : cfg.cellXCnt = bbox.max.x - bbox.min.x) (bands : List Band) (rw : RleWorker)
    (hc : configOf rw = cfg)
    (hall : ∀ b ∈ bands, bbox.min.y ≤ b.min ∧ b.min < b.max ∧ b.max ≤ bbox.max.y)
    (h : runBands bands rw = .ok none) :
    InvalidOutline o ∨ ∃ y, bbox.min.y ≤ y ∧ y < bbox.max.y ∧ RowOverflows o bbox y := by
  induction bands generalizing rw with
  | nil => rw [runBands_nil] at h; cases h
  | cons b bs ih =>
    rw [runBands_cons] at h
    cases hb : bandLoop (2 * (b.max - b.min).toNat + 1) rw [b] with
    | error e => rw [hb] at h; cases h
    | ok v =>
      rw [hb] at h
      cases v with
      | none =>
        exact bandLoop_none o bbox hfr cfg ho hx1 hx2 hx3 _ rw [b] hc (by
          intro c hcm
          rw [List.mem_singleton] at hcm
          subst hcm
          exact hall _ (List.mem_cons_self _ _)) hb
      | some rw1 =>
        dsimp only [] at h
        exact ih rw1 ((bandLoop_config _ _ _ _ hb).trans hc)
          (fun c hcm => hall c (List.mem_cons_of_mem _ hcm)) h

set_option maxRecDepth 100000 in
set_option maxHeartbeats 4000000 in
/-- The one scanline of the zigzag has more cells than the arena holds. -/
theorem zigzag_overflows : RowOverflows zigzag (boxAt0 768 1) 0 := by
  decide

end ThorVG

namespace ThorVG

/-! ## The walk of `_findCell` on a scanline list in increasing order -/

/-- The cell at the index `findInRow` returns has the abscissa asked for, and is the
zero cell when it is new. -/
theorem findInRow_at (x : Int) (row : List Cell) :
    ∃ c, (findInRow x row).1[(findInRow x row).2.1]? = some c ∧ c.x = x ∧
      ((findInRow x row).2.2 = true → c = ⟨x, 0, 0⟩) := by
  induction row with
  | nil => exact ⟨⟨x, 0, 0⟩, rfl, rfl, fun _ => rfl⟩
  | cons cell next ih =>
    unfold findInRow
    by_cases h1 : cell.x > x
    · rw [if_pos h1]; exact ⟨⟨x, 0, 0⟩, rfl, rfl, fun _ => rfl⟩
    · rw [if_neg h1]
      by_cases h2 : cell.x = x
      · rw [if_pos h2]; exact ⟨cell, by simp, h2, fun h => by cases h⟩
      · rw [if_neg h2]
        obtain ⟨c, hc, hx, hn⟩ := ih
        exact ⟨c, by simpa using hc, hx, hn⟩

/-- A new cell is linked in between the cells before the index and the cells from it
on. -/
theorem findInRow_new (x : Int) (row : List Cell) (h : (findInRow x row).2.2 = true) :
    (findInRow x row).1 =
      row.take (findInRow x row).2.1 ++ ⟨x, 0, 0⟩ :: row.drop (findInRow x row).2.1 := by
  induction row with
  | nil => rfl
  | cons cell next ih =>
    unfold findInRow at h ⊢
    by_cases h1 : cell.x > x
    · rw [if_pos h1]; rfl
    · rw [if_neg h1] at h ⊢
      by_cases h2 : cell.x = x
      · rw [if_pos h2] at h; cases h
      · rw [if_neg h2] at h ⊢
        dsimp only [] at h ⊢
        rw [List.take_succ_cons, List.drop_succ_cons, List.cons_append, ← ih h]

/-- On a list in strictly increasing order a cell is new only when no cell of the list
has the abscissa, and an old cell is a cell of the list. -/
theorem findInRow_fresh (x : Int) (row : List Cell)
    (hs : row.Pairwise (fun a b : Cell => a.x < b.x)) :
    ((findInRow x row).2.2 = true → ∀ c ∈ row, c.x ≠ x) ∧
    ((findInRow x row).2.2 = false →
      ∃ c ∈ row, (findInRow x row).1[(findInRow x row).2.1]? = some c) := by
  induction row with
  | nil => exact ⟨fun _ c hc => (by cases hc), fun h => (by cases h)⟩
  | cons cell next ih =>
    rw [List.pairwise_cons] at hs
    unfold findInRow
    by_cases h1 : cell.x > x
    · rw [if_pos h1]
      refine ⟨fun _ c hc => ?_, fun h => by cases h⟩
      rcases List.mem_cons.1 hc with rfl | hc
      · omega
      · have := hs.1 c hc; omega
    · rw [if_neg h1]
      by_cases h2 : cell.x = x
      · rw [if_pos h2]
        exact ⟨fun h => (by cases h), fun _ => ⟨cell, List.mem_cons_self _ _, by simp⟩⟩
      · rw [if_neg h2]
        obtain ⟨ih1, ih2⟩ := ih hs.2
        refine ⟨fun h c hc => ?_, fun h => ?_⟩
        · rcases List.mem_cons.1 hc with rfl | hc
          · exact h2
          · exact ih1 h c hc
        · obtain ⟨c, hc, hg⟩ := ih2 h
          exact ⟨c, List.mem_cons_of_mem _ hc, by simpa using hg⟩

/-- The walk keeps a list in strictly increasing order. -/
theorem findInRow_increasing (x : Int) (row : List Cell)
    (hs : row.Pairwise (fun a b : Cell => a.x < b.x)) :
    (findInRow x row).1.Pairwise (fun a b : Cell => a.x < b.x) := by
  induction row with
  | nil => simp [findInRow]
  | cons cell next ih =>
    have hs0 := hs
    rw [List.pairwise_cons] at hs
    unfold findInRow
    by_cases h1 : cell.x > x
    · rw [if_pos h1]
      rw [List.pairwise_cons]
      refine ⟨fun c hc => ?_, hs0⟩
      rcases List.mem_cons.1 hc with rfl | hc
      · exact h1
      · have := hs.1 c hc
        show x < c.x
        omega
    · rw [if_neg h1]
      by_cases h2 : cell.x = x
      · rw [if_pos h2]; exact hs0
      · rw [if_neg h2]
        rw [List.pairwise_cons]
        refine ⟨fun c hc => ?_, ih hs.2⟩
        rcases findInRow_mem x next c hc with hc | hc
        · exact hs.1 c hc
        · rw [hc]; omega

end ThorVG

namespace ThorVG

/-! ## The statements of `_lineTo` and the edge scanner -/

theorem upActs_succ (e2y : Int) (n : Nat) (e1 f1 : SwPoint) :
    upActs e2y (n + 1) e1 f1 =
      if e1.y + 1 ≠ e2y then
        match upActs e2y n ⟨e1.x, e1.y + 1⟩ ⟨f1.x, 0⟩ with
        | none => none
        | some (acts, f) => some (.addV f1 ONE_PIXEL :: .go ⟨e1.x, e1.y + 1⟩ :: acts, f)
      else some ([.addV f1 ONE_PIXEL, .go ⟨e1.x, e1.y + 1⟩], ⟨f1.x, 0⟩) := rfl

theorem downActs_succ (e2y : Int) (n : Nat) (e1 f1 : SwPoint) :
    downActs e2y (n + 1) e1 f1 =
      if e1.y - 1 ≠ e2y then
        match downActs e2y n ⟨e1.x, e1.y - 1⟩ ⟨f1.x, ONE_PIXEL⟩ with
        | none => none
        | some (acts, f) => some (.addV f1 0 :: .go ⟨e1.x, e1.y - 1⟩ :: acts, f)
      else some ([.addV f1 0, .go ⟨e1.x, e1.y - 1⟩], ⟨f1.x, ONE_PIXEL⟩) := rfl

theorem walkActs_succ (diff e2 : SwPoint) (dx_r dy_r : Int) (n : Nat) (e1 f1 : SwPoint)
    (prod : Int) :
    walkActs diff e2 dx_r dy_r (n + 1) e1 f1 prod =
      if (walkStep diff dx_r dy_r e1 prod).2.1 ≠ e2 then
        match walkActs diff e2 dx_r dy_r n (walkStep diff dx_r dy_r e1 prod).2.1
            (walkStep diff dx_r dy_r e1 prod).2.2.1 (walkStep diff dx_r dy_r e1 prod).2.2.2 with
        | none => none
        | some (acts, f) =>
          some (.add f1 (walkStep diff dx_r dy_r e1 prod).1 ::
            .go (walkStep diff dx_r dy_r e1 prod).2.1 :: acts, f)
      else some ([.add f1 (walkStep diff dx_r dy_r e1 prod).1,
          .go (walkStep diff dx_r dy_r e1 prod).2.1], (walkStep diff dx_r dy_r e1 prod).2.2.1) :=
  rfl

theorem runActs_addV (rw : RleWorker) (f1 : SwPoint) (f2y : Int) (cell : SwPoint)
    (rest : List EdgeAct) :
    runActs rw (.addV f1 f2y :: .go cell :: rest) =
      match _setCell (addVertical rw f1 f2y) cell with
      | .error e => .error e
      | .ok rw1 => runActs rw1 rest := rfl

theorem runActs_add (rw : RleWorker) (f1 f2 : SwPoint) (cell : SwPoint) (rest : List EdgeAct) :
    runActs rw (.add f1 f2 :: .go cell :: rest) =
      match _setCell (addEdge rw f1 f2) cell with
      | .error e => .error e
      | .ok rw1 => runActs rw1 rest := rfl

theorem runActs_append (rw : RleWorker) (l1 l2 : List EdgeAct) :
    runActs rw (l1 ++ l2) =
      match runActs rw l1 with
      | .error e => .error e
      | .ok rw1 => runActs rw1 l2 := by
  induction l1 generalizing rw with
  | nil => rfl
  | cons a l ih =>
    show (match a.run rw with
      | Except.error e => Except.error e
      | Except.ok rw => runActs rw (l ++ l2)) = match (match a.run rw with
        | Except.error e => Except.error e
        | Except.ok rw => runActs rw l) with
      | Except.error e => Except.error e
      | Except.ok rw1 => runActs rw1 l2
    cases a.run rw with
    | error e => rfl
    | ok rw1 => exact ih rw1

/-- The `vertical line up` loop does the statements listed for it. -/
theorem lineUp_acts (e2y : Int) (n : Nat) (rw : RleWorker) (e1 f1 : SwPoint)
    (acts : List EdgeAct) (f : SwPoint) (h : upActs e2y n e1 f1 = some (acts, f)) :
    lineUp e2y n rw e1 f1 =
      match runActs rw acts with
      | .error e => .error e
      | .ok rw1 => .ok (rw1, f) := by
  induction n generalizing rw e1 f1 acts f with
  | zero => cases h
  | succ n ih =>
    rw [upActs_succ] at h
    rw [lineUp_succ]
    by_cases hne : e1.y + 1 ≠ e2y
    · rw [if_pos hne] at h
      cases hr : upActs e2y n ⟨e1.x, e1.y + 1⟩ ⟨f1.x, 0⟩ with
      | none => rw [hr] at h; cases h
      | some r =>
        obtain ⟨acts1, f0⟩ := r
        rw [hr] at h
        injection h with h
        injection h with h1 h2
        subst h1
        subst h2
        rw [runActs_addV]
        cases _setCell (addVertical rw f1 ONE_PIXEL) ⟨e1.x, e1.y + 1⟩ with
        | error e => rfl
        | ok rw1 =>
          dsimp only []
          rw [if_pos hne]
          exact ih rw1 _ _ _ _ hr
    · rw [if_neg hne] at h
      injection h with h
      injection h with h1 h2
      subst h1
      subst h2
      rw [runActs_addV]
      cases _setCell (addVertical rw f1 ONE_PIXEL) ⟨e1.x, e1.y + 1⟩ with
      | error e => rfl
      | ok rw1 =>
        dsimp only []
        rw [if_neg hne]
        rfl

/-- The `vertical line down` loop does the statements listed for it. -/
theorem lineDown_acts (e2y : Int) (n : Nat) (rw : RleWorker) (e1 f1 : SwPoint)
    (acts : List EdgeAct) (f : SwPoint) (h : downActs e2y n e1 f1 = some (acts, f)) :
    lineDown e2y n rw e1 f1 =
      match runActs rw acts with
      | .error e => .error e
      | .ok rw1 => .ok (rw1, f) := by
  induction n generalizing rw e1 f1 acts f with
  | zero => cases h
  | succ n ih =>
    rw [downActs_succ] at h
    rw [lineDown_succ]
    by_cases hne : e1.y - 1 ≠ e2y
    · rw [if_pos hne] at h
      cases hr : downActs e2y n ⟨e1.x, e1.y - 1⟩ ⟨f1.x, ONE_PIXEL⟩ with
      | none => rw [hr] at h; cases h
      | some r =>
        obtain ⟨acts1, f0⟩ := r
        rw [hr] at h
        injection h with h
        injection h with h1 h2
        subst h1
        subst h2
        rw [runActs_addV]
        cases _setCell (addVertical rw f1 0) ⟨e1.x, e1.y - 1⟩ with
        | error e => rfl
        | ok rw1 =>
          dsimp only []
          rw [if_pos hne]
          exact ih rw1 _ _ _ _ hr
    · rw [if_neg hne] at h
      injection h with h
      injection h with h1 h2
      subst h1
      subst h2
      rw [runActs_addV]
      cases _setCell (addVertical rw f1 0) ⟨e1.x, e1.y - 1⟩ with
      | error e => rfl
      | ok rw1 =>
        dsimp only []
        rw [if_neg hne]
        rfl

/-- The `any other line` loop does the statements listed for it. -/
theorem lineWalk_acts (diff e2 : SwPoint) (dx_r dy_r : Int) (n : Nat) (rw : RleWorker)
    (e1 f1 : SwPoint) (prod : Int) (acts : List EdgeAct) (f : SwPoint)
    (h : walkActs diff e2 dx_r dy_r n e1 f1 prod = some (acts, f)) :
    lineWalk diff e2 dx_r dy_r n rw e1 f1 prod =
      match runActs rw acts with
      | .error e => .error e
      | .ok rw1 => .ok (rw1, f) := by
  induction n generalizing rw e1 f1 prod acts f with
  | zero => cases h
  | succ n ih =>
    rw [walkActs_succ] at h
    rw [lineWalk_succ]
    revert h
    generalize walkStep diff dx_r dy_r e1 prod = step
    intro h
    by_cases hne : step.2.1 ≠ e2
    · rw [if_pos hne] at h
      cases hr : walkActs diff e2 dx_r dy_r n step.2.1 step.2.2.1 step.2.2.2 with
      | none => rw [hr] at h; cases h
      | some r =>
        obtain ⟨acts1, f0⟩ := r
        rw [hr] at h
        injection h with h
        injection h with h1 h2
        subst h1
        subst h2
        rw [runActs_add]
        cases _setCell (addEdge rw f1 step.1) step.2.1 with
        | error e => rfl
        | ok rw1 =>
          dsimp only []
          rw [if_pos hne]
          exact ih rw1 _ _ _ _ _ hr
    · rw [if_neg hne] at h
      injection h with h
      injection h with h1 h2
      subst h1
      subst h2
      rw [runActs_add]
      cases _setCell (addEdge rw f1 step.1) step.2.1 with
      | error e => rfl
      | ok rw1 =>
        dsimp only []
        rw [if_neg hne]
        rfl

/-- The walk of `lineScan` does the statements listed for it. -/
theorem lineScan_acts (rw : RleWorker) (dst : SwPoint) (acts : List EdgeAct) (f : SwPoint)
    (h : scanActs rw.pos dst = some (acts, f)) :
    lineScan rw dst =
      match runActs rw acts with
      | .error e => .error e
      | .ok rw1 => .ok (rw1, f) := by
  unfold scanActs at h
  unfold lineScan
  dsimp only [] at h ⊢
  by_cases h1 : TRUNCpt rw.pos = TRUNCpt dst
  · rw [if_pos h1] at h ⊢
    injection h with h
    injection h with h1 h2
    subst h1
    subst h2
    rfl
  rw [if_neg h1] at h ⊢
  by_cases h2 : (dst - rw.pos).y = 0
  · rw [if_pos h2] at h ⊢
    injection h with h
    injection h with h1 h2
    subst h1
    subst h2
    show _ = match (match _setCell rw ⟨(TRUNCpt dst).x, (TRUNCpt rw.pos).y⟩ with
        | Except.error e => Except.error e
        | Except.ok rw => runActs rw []) with
      | Except.error e => Except.error e
      | Except.ok rw1 => Except.ok (rw1, rw.pos - SUBPIXELSpt (TRUNCpt rw.pos))
    cases _setCell rw ⟨(TRUNCpt dst).x, (TRUNCpt rw.pos).y⟩ with
    | error e => rfl
    | ok rw1 => rfl
  rw [if_neg h2] at h ⊢
  by_cases h3 : (dst - rw.pos).x = 0
  · rw [if_pos h3] at h ⊢
    by_cases h4 : (dst - rw.pos).y > 0
    · rw [if_pos h4] at h ⊢
      exact lineUp_acts _ _ rw _ _ _ _ h
    · rw [if_neg h4] at h ⊢
      exact lineDown_acts _ _ rw _ _ _ _ h
  rw [if_neg h3] at h ⊢
  exact lineWalk_acts _ _ _ _ _ rw _ _ _ _ _ h

/-- A line that `_lineTo` does not skip: the function does the statements listed for it
and sets `rw.pos`. -/
theorem lineTo_acts (rw : RleWorker) (dst : SwPoint) (acts : List EdgeAct)
    (hk : ¬ lineSkipped rw dst) (h : lineActs rw.pos dst = some acts) :
    _lineTo rw dst =
      match runActs rw acts with
      | .error e => .error e
      | .ok rw1 => .ok { rw1 with pos := dst } := by
  unfold lineActs at h
  unfold _lineTo
  rw [if_neg hk]
  cases hs : scanActs rw.pos dst with
  | none => rw [hs] at h; cases h
  | some r =>
    obtain ⟨acts0, f1⟩ := r
    rw [hs] at h
    injection h with h
    subst h
    rw [lineScan_acts rw dst acts0 f1 hs, runActs_append]
    cases runActs rw acts0 with
    | error e => rfl
    | ok rw1 => rfl

end ThorVG

namespace ThorVG

/-! ## The cover a line adds, cell by cell -/

theorem SW_UDIV_range (a b : Int) : 0 ≤ SW_UDIV a b ∧ SW_UDIV a b ≤ 255 := by
  unfold SW_UDIV toU64 shr PIXEL_BITS
  generalize a % 18446744073709551616 * (b % 18446744073709551616) = v
  have h1 : (0 : Int) ≤ v % 18446744073709551616 := Int.emod_nonneg _ (by decide)
  have h2 : v % 18446744073709551616 < 18446744073709551616 := Int.emod_lt_of_pos _ (by decide)
  have e : ((2 : Int) ^ (64 - 8)) = 72057594037927936 := by norm_num
  rw [e]
  omega

theorem inCell_bounded (f1 f2 : SwPoint) (h1 : InCell f1) (h2 : InCell f2) :
    (EdgeAct.add f1 f2).Bounded := by
  refine ⟨h1, h2, ?_⟩
  unfold InCell ONE_PIXEL at *
  rw [abs_le]
  omega

theorem inCell_boundedV (f1 : SwPoint) (f2y : Int) (h1 : InCell f1) (h2 : 0 ≤ f2y ∧ f2y ≤ 256) :
    (EdgeAct.addV f1 f2y).Bounded := by
  refine ⟨h1, h2.1, h2.2, ?_⟩
  unfold InCell ONE_PIXEL at *
  rw [abs_le]
  omega

/-- One turn of the `any other line` loop: the exit point lies in the cell, the entry
point into the next cell lies in that cell, and it is the same point of the plane as far
as its ordinate goes. -/
theorem walkStep_cell (diff : SwPoint) (dx_r dy_r : Int) (e1 : SwPoint) (prod : Int) :
    InCell (walkStep diff dx_r dy_r e1 prod).1 ∧ InCell (walkStep diff dx_r dy_r e1 prod).2.2.1 ∧
    256 * (walkStep diff dx_r dy_r e1 prod).2.1.y + (walkStep diff dx_r dy_r e1 prod).2.2.1.y =
      256 * e1.y + (walkStep diff dx_r dy_r e1 prod).1.y := by
  have u1 := SW_UDIV_range (-prod) (-dx_r)
  have u2 := SW_UDIV_range (-(prod - diff.x * ONE_PIXEL)) dy_r
  have u3 := SW_UDIV_range (prod + diff.y * ONE_PIXEL) dx_r
  have u4 := SW_UDIV_range prod (-dy_r)
  unfold walkStep
  dsimp only []
  unfold InCell
  split_ifs
  · dsimp only [ONE_PIXEL] at *
    refine ⟨⟨?_, ?_, ?_, ?_⟩, ⟨?_, ?_, ?_, ?_⟩, ?_⟩ <;> omega
  · dsimp only [ONE_PIXEL] at *
    refine ⟨⟨?_, ?_, ?_, ?_⟩, ⟨?_, ?_, ?_, ?_⟩, ?_⟩ <;> omega
  · dsimp only [ONE_PIXEL] at *
    refine ⟨⟨?_, ?_, ?_, ?_⟩, ⟨?_, ?_, ?_, ?_⟩, ?_⟩ <;> omega
  · dsimp only [ONE_PIXEL] at *
    refine ⟨⟨?_, ?_, ?_, ?_⟩, ⟨?_, ?_, ?_, ?_⟩, ?_⟩ <;> omega

/-- The `any other line` loop ends at the cell of the end point; what it adds to `cover`
is the way of the ordinate from the entry into the first cell to the entry into the
last. -/
theorem walkActs_spec (diff e2 g : SwPoint) (dx_r dy_r : Int) (fuel : Nat) (e1 f1 : SwPoint)
    (prod : Int) (hx : diff.x ≠ 0) (hy : diff.y ≠ 0)
    (hg : 0 ≤ g.x ∧ g.x ≤ 255 ∧ 0 ≤ g.y ∧ g.y ≤ 255) (hI : WalkInv diff e2 g e1 prod)
    (hne : e1 ≠ e2) (hfuel : (e2.x - e1.x).natAbs + (e2.y - e1.y).natAbs = fuel)
    (hf : InCell f1) :
    ∃ acts f, walkActs diff e2 dx_r dy_r fuel e1 f1 prod = some (acts, f) ∧
      (acts.map EdgeAct.cover).sum = 256 * e2.y + f.y - (256 * e1.y + f1.y) ∧
      (∀ a ∈ acts, a.Bounded) ∧ InCell f := by
  induction fuel generalizing e1 f1 prod with
  | zero =>
    exfalso
    rcases point_ne e1 e2 hne with h | h <;> omega
  | succ n ih =>
    rw [walkActs_succ]
    obtain ⟨hI2, hd2⟩ := walkStep_inv diff e2 g e1 dx_r dy_r prod hx hy hg hI hne
    obtain ⟨c1, c2, c3⟩ := walkStep_cell diff dx_r dy_r e1 prod
    revert hI2 hd2 c1 c2 c3
    generalize walkStep diff dx_r dy_r e1 prod = step
    intro hI2 hd2 c1 c2 c3
    have hb := inCell_bounded f1 step.1 hf c1
    by_cases hne2 : step.2.1 ≠ e2
    · rw [if_pos hne2]
      obtain ⟨acts, f, h1, h2, h3, h4⟩ := ih step.2.1 step.2.2.1 step.2.2.2 hI2 hne2 (by omega) c2
      rw [h1]
      refine ⟨_, f, rfl, ?_, ?_, h4⟩
      · simp only [List.map_cons, List.sum_cons, EdgeAct.cover]
        rw [h2]
        omega
      · intro a ha
        rcases List.mem_cons.1 ha with rfl | ha
        · exact hb
        rcases List.mem_cons.1 ha with rfl | ha
        · trivial
        · exact h3 a ha
    · rw [if_neg hne2]
      have he : step.2.1 = e2 := not_not.1 hne2
      refine ⟨_, _, rfl, ?_, ?_, c2⟩
      · simp only [List.map_cons, List.sum_cons, EdgeAct.cover, List.map_nil, List.sum_nil]
        rw [← he]
        omega
      · intro a ha
        rcases List.mem_cons.1 ha with rfl | ha
        · exact hb
        rcases List.mem_cons.1 ha with rfl | ha
        · trivial
        · cases ha

/-- The `vertical line up` loop for a cell below the last one. -/
theorem upActs_spec (e2y : Int) (n : Nat) (e1 f1 : SwPoint) (hn : e1.y + n = e2y) (h0 : 0 < n)
    (hf : InCell f1) :
    ∃ acts f, upActs e2y n e1 f1 = some (acts, f) ∧
      (acts.map EdgeAct.cover).sum = 256 * e2y + f.y - (256 * e1.y + f1.y) ∧
      (∀ a ∈ acts, a.Bounded) ∧ InCell f := by
  induction n generalizing e1 f1 with
  | zero => omega
  | succ n ih =>
    rw [upActs_succ]
    have hb : (EdgeAct.addV f1 ONE_PIXEL).Bounded :=
      inCell_boundedV f1 ONE_PIXEL hf (by decide)
    have hf2 : InCell ⟨f1.x, 0⟩ := by
      unfold InCell ONE_PIXEL at *
      dsimp only []
      omega
    by_cases hne : e1.y + 1 ≠ e2y
    · rw [if_pos hne]
      obtain ⟨acts, f, h1, h2, h3, h4⟩ := ih ⟨e1.x, e1.y + 1⟩ ⟨f1.x, 0⟩
        (by dsimp only []; omega) (by omega) hf2
      rw [h1]
      refine ⟨_, f, rfl, ?_, ?_, h4⟩
      · simp only [List.map_cons, List.sum_cons, EdgeAct.cover, ONE_PIXEL]
        rw [h2]
        dsimp only []
        omega
      · intro a ha
        rcases List.mem_cons.1 ha with rfl | ha
        · exact hb
        rcases List.mem_cons.1 ha with rfl | ha
        · trivial
        · exact h3 a ha
    · rw [if_neg hne]
      have he : e1.y + 1 = e2y := not_not.1 hne
      refine ⟨_, _, rfl, ?_, ?_, hf2⟩
      · simp only [List.map_cons, List.sum_cons, EdgeAct.cover, List.map_nil, List.sum_nil,
          ONE_PIXEL]
        omega
      · intro a ha
        rcases List.mem_cons.1 ha with rfl | ha
        · exact hb
        rcases List.mem_cons.1 ha with rfl | ha
        · trivial
        · cases ha

/-- The `vertical line down` loop for a cell above the last one. -/
theorem downActs_spec (e2y : Int) (n : Nat) (e1 f1 : SwPoint) (hn : e1.y - n = e2y) (h0 : 0 < n)
    (hf : InCell f1) :
    ∃ acts f, downActs e2y n e1 f1 = some (acts, f) ∧
      (acts.map EdgeAct.cover).sum = 256 * e2y + f.y - (256 * e1.y + f1.y) ∧
      (∀ a ∈ acts, a.Bounded) ∧ InCell f := by
  induction n generalizing e1 f1 with
  | zero => omega
  | succ n ih =>
    rw [downActs_succ]
    have hb : (EdgeAct.addV f1 0).Bounded := inCell_boundedV f1 0 hf (by decide)
    have hf2 : InCell ⟨f1.x, ONE_PIXEL⟩ := by
      unfold InCell ONE_PIXEL at *
      dsimp only []
      omega
    by_cases hne : e1.y - 1 ≠ e2y
    · rw [if_pos hne]
      obtain ⟨acts, f, h1, h2, h3, h4⟩ := ih ⟨e1.x, e1.y - 1⟩ ⟨f1.x, ONE_PIXEL⟩
        (by dsimp only []; omega) (by omega) hf2
      rw [h1]
      refine ⟨_, f, rfl, ?_, ?_, h4⟩
      · simp only [List.map_cons, List.sum_cons, EdgeAct.cover, ONE_PIXEL]
        rw [h2]
        dsimp only [ONE_PIXEL]
        omega
      · intro a ha
        rcases List.mem_cons.1 ha with rfl | ha
        · exact hb
        rcases List.mem_cons.1 ha with rfl | ha
        · trivial
        · exact h3 a ha
    · rw [if_neg hne]
      have he : e1.y - 1 = e2y := not_not.1 hne
      refine ⟨_, _, rfl, ?_, ?_, hf2⟩
      · simp only [List.map_cons, List.sum_cons, EdgeAct.cover, List.map_nil, List.sum_nil,
          ONE_PIXEL]
        omega
      · intro a ha
        rcases List.mem_cons.1 ha with rfl | ha
        · exact hb
        rcases List.mem_cons.1 ha with rfl | ha
        · trivial
        · cases ha

theorem TRUNC_frac (v : Int) :
    0 ≤ v - shl (shr v PIXEL_BITS) PIXEL_BITS ∧ v - shl (shr v PIXEL_BITS) PIXEL_BITS ≤ 255 := by
  unfold shl shr PIXEL_BITS
  have e : ((2 : Int) ^ 8) = 256 := by norm_num
  rw [e]
  omega

/-- The walk of `_lineTo` from the cell of `pos` to the cell of `dst`, for every line:
the statements are listed (the loops end), and what they add to `cover` is the way of
the ordinate from `pos` to the entry into the cell of `dst`. -/
theorem scanActs_spec (pos dst : SwPoint) :
    ∃ acts f, scanActs pos dst = some (acts, f) ∧
      (acts.map EdgeAct.cover).sum = 256 * (TRUNCpt dst).y + f.y - pos.y ∧
      (∀ a ∈ acts, a.Bounded) ∧ InCell f := by
  have hdy : (dst - pos).y = dst.y - pos.y := rfl
  have hdx : (dst - pos).x = dst.x - pos.x := rfl
  have ty1 : (TRUNCpt dst).y = shr dst.y PIXEL_BITS := rfl
  have ty2 : (TRUNCpt pos).y = shr pos.y PIXEL_BITS := rfl
  have tx1 : (TRUNCpt dst).x = shr dst.x PIXEL_BITS := rfl
  have tx2 : (TRUNCpt pos).x = shr pos.x PIXEL_BITS := rfl
  have fy : (pos - SUBPIXELSpt (TRUNCpt pos)).y = pos.y - shl (shr pos.y PIXEL_BITS) PIXEL_BITS := rfl
  have fx : (pos - SUBPIXELSpt (TRUNCpt pos)).x = pos.x - shl (shr pos.x PIXEL_BITS) PIXEL_BITS := rfl
  have qx := TRUNC_frac pos.x
  have qy := TRUNC_frac pos.y
  have hf : InCell (pos - SUBPIXELSpt (TRUNCpt pos)) := by
    unfold InCell ONE_PIXEL
    rw [fx, fy]
    omega
  have hphi : 256 * (TRUNCpt pos).y + (pos - SUBPIXELSpt (TRUNCpt pos)).y = pos.y := by
    rw [fy, ty2]
    unfold shl shr PIXEL_BITS
    have e : ((2 : Int) ^ 8) = 256 := by norm_num
    rw [e]
    omega
  unfold scanActs
  dsimp only []
  by_cases h1 : TRUNCpt pos = TRUNCpt dst
  · rw [if_pos h1]
    refine ⟨_, _, rfl, ?_, fun a ha => (by cases ha), hf⟩
    simp only [List.map_nil, List.sum_nil]
    rw [← h1]
    omega
  rw [if_neg h1]
  by_cases h2 : (dst - pos).y = 0
  · rw [if_pos h2]
    refine ⟨_, _, rfl, ?_, ?_, hf⟩
    · simp only [List.map_cons, List.sum_cons, EdgeAct.cover, List.map_nil, List.sum_nil]
      have : dst.y = pos.y := by omega
      rw [ty1, this, ← ty2]
      omega
    · intro a ha
      rcases List.mem_cons.1 ha with rfl | ha
      · trivial
      · cases ha
  rw [if_neg h2]
  by_cases h3 : (dst - pos).x = 0
  · rw [if_pos h3]
    have hxe : (TRUNCpt dst).x = (TRUNCpt pos).x := by
      rw [tx1, tx2]
      have : dst.x = pos.x := by omega
      rw [this]
    have hyne : (TRUNCpt pos).y ≠ (TRUNCpt dst).y := by
      intro hy
      apply h1
      cases hb : TRUNCpt pos
      cases hd : TRUNCpt dst
      rw [hb] at hxe hy
      rw [hd] at hxe hy
      simp only at hxe hy
      rw [hxe, hy]
    by_cases h4 : (dst - pos).y > 0
    · rw [if_pos h4]
      have hm := TRUNC_mono pos.y dst.y (by omega)
      obtain ⟨acts, f, q1, q2, q3, q4⟩ := upActs_spec (TRUNCpt dst).y
        ((TRUNCpt dst).y - (TRUNCpt pos).y).toNat (TRUNCpt pos) (pos - SUBPIXELSpt (TRUNCpt pos))
        (by omega) (by omega) hf
      exact ⟨acts, f, q1, by rw [q2]; omega, q3, q4⟩
    · rw [if_neg h4]
      have hm := TRUNC_mono dst.y pos.y (by omega)
      obtain ⟨acts, f, q1, q2, q3, q4⟩ := downActs_spec (TRUNCpt dst).y
        ((TRUNCpt pos).y - (TRUNCpt dst).y).toNat (TRUNCpt pos) (pos - SUBPIXELSpt (TRUNCpt pos))
        (by omega) (by omega) hf
      exact ⟨acts, f, q1, by rw [q2]; omega, q3, q4⟩
  rw [if_neg h3]
  obtain ⟨hI, hg⟩ := walk_start pos dst
  obtain ⟨acts, f, q1, q2, q3, q4⟩ := walkActs_spec (dst - pos) (TRUNCpt dst)
    (dst - SUBPIXELSpt (TRUNCpt dst)) (Int.tdiv ULONG_MAX_SHIFTED (dst - pos).x)
    (Int.tdiv ULONG_MAX_SHIFTED (dst - pos).y) _ (TRUNCpt pos) (pos - SUBPIXELSpt (TRUNCpt pos))
    _ h3 h2 hg hI h1 rfl hf
  exact ⟨acts, f, q1, by rw [q2]; omega, q3, q4⟩

/-- The statements of `_lineTo` for a line from `pos` to `dst`: they are listed for every
line, what they add to `cover` sums to `dst.y - pos.y`, and each of them is bounded. -/
theorem lineActs_spec (pos dst : SwPoint) :
    ∃ acts, lineActs pos dst = some acts ∧
      (acts.map EdgeAct.cover).sum = dst.y - pos.y ∧ (∀ a ∈ acts, a.Bounded) := by
  obtain ⟨acts, f, q1, q2, q3, q4⟩ := scanActs_spec pos dst
  unfold lineActs
  rw [q1]
  have gx := TRUNC_frac dst.x
  have gy := TRUNC_frac dst.y
  have hf2 : InCell ⟨dst.x - SUBPIXELS (TRUNCpt dst).x, dst.y - SUBPIXELS (TRUNCpt dst).y⟩ := by
    unfold InCell ONE_PIXEL
    show 0 ≤ dst.x - shl (shr dst.x PIXEL_BITS) PIXEL_BITS ∧
      dst.x - shl (shr dst.x PIXEL_BITS) PIXEL_BITS ≤ 256 ∧
      0 ≤ dst.y - shl (shr dst.y PIXEL_BITS) PIXEL_BITS ∧
      dst.y - shl (shr dst.y PIXEL_BITS) PIXEL_BITS ≤ 256
    omega
  refine ⟨_, rfl, ?_, ?_⟩
  · simp only [List.map_append, List.sum_append, List.map_cons, List.sum_cons, EdgeAct.cover,
      List.map_nil, List.sum_nil]
    rw [q2]
    show 256 * (TRUNCpt dst).y + f.y - pos.y +
      (dst.y - shl (shr dst.y PIXEL_BITS) PIXEL_BITS - f.y + 0) = dst.y - pos.y
    have ty1 : (TRUNCpt dst).y = shr dst.y PIXEL_BITS := rfl
    rw [ty1]
    unfold shl shr PIXEL_BITS
    have e : ((2 : Int) ^ 8) = 256 := by norm_num
    rw [e]
    omega
  · intro a ha
    rcases List.mem_append.1 ha with ha | ha
    · exact q3 a ha
    · rcases List.mem_cons.1 ha with rfl | ha
      · exact inCell_bounded _ _ q4 hf2
      · cases ha

end ThorVG

namespace ThorVG

/-! ## The log of the band loops -/

theorem bandLoopLog_nil (fuel : Nat) (rw : RleWorker) :
    bandLoopLog fuel rw [] = (.ok (some rw), ⟨[], 0⟩) := by
  cases fuel <;> rfl

theorem bandLoopLog_zero (rw : RleWorker) (b : Band) (bs : List Band) :
    bandLoopLog 0 rw (b :: bs) = (.error .undefined, ⟨[], bs.length + 1⟩) := rfl

theorem bandLoopLog_succ (n : Nat) (rw : RleWorker) (band : Band) (below : List Band) :
    bandLoopLog (n + 1) rw (band :: below) =
      match bandTry rw band with
      | .error e => (.error e, ⟨[], below.length + 1⟩)
      | .ok (.swept rw) =>
        ((bandLoopLog n rw below).1,
          ⟨band :: (bandLoopLog n rw below).2.swept,
            max (below.length + 1) (bandLoopLog n rw below).2.peak⟩)
      | .ok .failed => (.ok none, ⟨[], below.length + 1⟩)
      | .ok (.reduce rw) =>
        if band.min + shr (band.max - band.min) 1 = band.min then
          (.ok none, ⟨[], below.length + 1⟩)
        else if below.length + 2 > BAND_SIZE then (.error .undefined, ⟨[], below.length + 2⟩)
        else
          ((bandLoopLog n (countShoot rw band.min band.max)
              (⟨band.min, band.min + shr (band.max - band.min) 1⟩ ::
                ⟨band.min + shr (band.max - band.min) 1, band.max⟩ :: below)).1,
            ⟨(bandLoopLog n (countShoot rw band.min band.max)
              (⟨band.min, band.min + shr (band.max - band.min) 1⟩ ::
                ⟨band.min + shr (band.max - band.min) 1, band.max⟩ :: below)).2.swept,
             max (below.length + 1) (bandLoopLog n (countShoot rw band.min band.max)
              (⟨band.min, band.min + shr (band.max - band.min) 1⟩ ::
                ⟨band.min + shr (band.max - band.min) 1, band.max⟩ :: below)).2.peak⟩) := rfl

theorem runBandsLog_cons (b : Band) (bs : List Band) (rw : RleWorker) :
    runBandsLog (b :: bs) rw =
      match (bandLoopLog (2 * (b.max - b.min).toNat + 1) rw [b]).1 with
      | .error e => (.error e, (bandLoopLog (2 * (b.max - b.min).toNat + 1) rw [b]).2)
      | .ok none => (.ok none, (bandLoopLog (2 * (b.max - b.min).toNat + 1) rw [b]).2)
      | .ok (some rw1) =>
        ((runBandsLog bs rw1).1,
          ⟨(bandLoopLog (2 * (b.max - b.min).toNat + 1) rw [b]).2.swept ++
              (runBandsLog bs rw1).2.swept,
            max (bandLoopLog (2 * (b.max - b.min).toNat + 1) rw [b]).2.peak
              (runBandsLog bs rw1).2.peak⟩) := rfl

/-- The loop with the log does what the loop does. -/
theorem bandLoopLog_fst (fuel : Nat) (rw : RleWorker) (stk : List Band) :
    (bandLoopLog fuel rw stk).1 = bandLoop fuel rw stk := by
  induction fuel generalizing rw stk with
  | zero =>
    cases stk with
    | nil => rfl
    | cons b bs => rfl
  | succ n ih =>
    cases stk with
    | nil => rfl
    | cons band below =>
      rw [bandLoopLog_succ, bandLoop_succ]
      cases bandTry rw band with
      | error e => rfl
      | ok v =>
        cases v with
        | failed => rfl
        | swept rw1 => exact ih rw1 below
        | reduce rw1 =>
          dsimp only []
          split_ifs
          · rfl
          · rfl
          · exact ih _ _

theorem runBandsLog_fst (bs : List Band) (rw : RleWorker) :
    (runBandsLog bs rw).1 = runBands bs rw := by
  induction bs generalizing rw with
  | nil => rfl
  | cons b bs ih =>
    rw [runBandsLog_cons, runBands_cons, ← bandLoopLog_fst]
    cases (bandLoopLog (2 * (b.max - b.min).toNat + 1) rw [b]).1 with
    | error e => rfl
    | ok v =>
      cases v with
      | none => rfl
      | some rw1 => exact ih rw1

/-- A run of the loop that ends with every band of the stack done has swept a run of
adjoining bands that starts where the stack starts and ends where it ends. -/
theorem bandLoopLog_chain (fuel : Nat) (rw : RleWorker) (stk : List Band) (lo hi : Int)
    (rwF : RleWorker) (hs : StackOk Band.Nonempty lo hi stk)
    (h : (bandLoopLog fuel rw stk).1 = .ok (some rwF)) :
    StackOk Band.Nonempty lo hi (bandLoopLog fuel rw stk).2.swept := by
  induction fuel generalizing rw stk lo with
  | zero =>
    cases stk with
    | nil => exact hs
    | cons b bs => rw [bandLoopLog_zero] at h; cases h
  | succ n ih =>
    cases stk with
    | nil => exact hs
    | cons band below =>
      obtain ⟨hmin, hg, hrest⟩ := hs
      rw [bandLoopLog_succ] at h ⊢
      revert h
      cases bandTry rw band with
      | error e => intro h; cases h
      | ok v =>
        cases v with
        | failed => intro h; cases h
        | swept rw1 =>
          intro h
          dsimp only [] at h ⊢
          exact ⟨hmin, hg, ih rw1 below band.max hrest h⟩
        | reduce rw1 =>
          intro h
          dsimp only [] at h ⊢
          have hsh : shr (band.max - band.min) 1 = (band.max - band.min) / 2 := by simp [shr]
          unfold Band.Nonempty at hg
          by_cases h1 : band.min + shr (band.max - band.min) 1 = band.min
          · rw [if_pos h1] at h; cases h
          rw [if_neg h1] at h ⊢
          by_cases h2 : below.length + 2 > BAND_SIZE
          · rw [if_pos h2] at h; cases h
          rw [if_neg h2] at h ⊢
          dsimp only [] at h ⊢
          refine ih _ _ lo ⟨hmin, ?_, rfl, ?_, hrest⟩ h
          · show band.min < band.min + shr (band.max - band.min) 1
            rw [hsh] at h1 ⊢
            omega
          · show band.min + shr (band.max - band.min) 1 < band.max
            rw [hsh]
            omega

theorem stackOk_append (G : Band → Prop) (lo mid hi : Int) (l1 l2 : List Band)
    (h1 : StackOk G lo mid l1) (h2 : StackOk G mid hi l2) : StackOk G lo hi (l1 ++ l2) := by
  induction l1 generalizing lo with
  | nil =>
    have : lo = mid := h1
    subst this
    exact h2
  | cons b bs ih => exact ⟨h1.1, h1.2.1, ih _ h1.2.2⟩

/-- A run of the `for` loop that ends without `error` has swept a run of adjoining bands
from the start of the first band set up to the end of the last. -/
theorem runBandsLog_chain (bs : List Band) (rw : RleWorker) (lo hi : Int) (rwF : RleWorker)
    (hs : StackOk Band.Nonempty lo hi bs) (h : (runBandsLog bs rw).1 = .ok (some rwF)) :
    StackOk Band.Nonempty lo hi (runBandsLog bs rw).2.swept := by
  induction bs generalizing rw lo with
  | nil => exact hs
  | cons b bs ih =>
    obtain ⟨hmin, hg, hrest⟩ := hs
    rw [runBandsLog_cons] at h ⊢
    have hc := bandLoopLog_chain (2 * (b.max - b.min).toNat + 1) rw [b] lo b.max
    revert h hc
    generalize bandLoopLog (2 * (b.max - b.min).toNat + 1) rw [b] = r
    intro h hc
    obtain ⟨r1, r2⟩ := r
    cases r1 with
    | error e => cases h
    | ok v =>
      cases v with
      | none => cases h
      | some rw1 =>
        dsimp only [] at h ⊢
        exact stackOk_append _ _ _ _ _ _ (hc rw1 ⟨hmin, hg, rfl⟩ rfl) (ih rw1 b.max hrest h)

/-! ## What a run of adjoining bands says of each scanline -/

theorem stackOk_le (lo hi : Int) (l : List Band) (h : StackOk Band.Nonempty lo hi l) :
    lo ≤ hi := by
  induction l generalizing lo with
  | nil => exact le_of_eq h
  | cons b bs ih =>
    have h1 := ih _ h.2.2
    have h2 : b.min < b.max := h.2.1
    have h3 : b.min = lo := h.1
    omega

/-- The bands of a run of adjoining bands lie in its range, in increasing order, and every
scanline of the range belongs to exactly one of them. -/
theorem stackOk_partition (lo hi : Int) (l : List Band) (h : StackOk Band.Nonempty lo hi l) :
    (∀ b ∈ l, lo ≤ b.min ∧ b.min < b.max ∧ b.max ≤ hi) ∧
    l.Pairwise (fun a b => a.max ≤ b.min) ∧
    (∀ y, lo ≤ y → y < hi → (l.filter (fun b => decide (b.has y))).length = 1) ∧
    (∀ y, y < lo ∨ hi ≤ y → (l.filter (fun b => decide (b.has y))).length = 0) := by
  induction l generalizing lo with
  | nil =>
    have : lo = hi := h
    subst this
    refine ⟨fun b hb => (by cases hb), List.Pairwise.nil, fun y h1 h2 => (by omega),
      fun y _ => rfl⟩
  | cons b bs ih =>
    obtain ⟨hmin, hg, hrest⟩ := h
    have hg1 : b.min < b.max := hg
    obtain ⟨i1, i2, i3, i4⟩ := ih b.max hrest
    have hle := stackOk_le _ _ _ hrest
    refine ⟨?_, ?_, ?_, ?_⟩
    · intro c hc
      rcases List.mem_cons.1 hc with rfl | hc
      · exact ⟨by omega, hg1, hle⟩
      · have := i1 c hc
        omega
    · rw [List.pairwise_cons]
      exact ⟨fun c hc => (i1 c hc).1, i2⟩
    · intro y h1 h2
      by_cases hy : y < b.max
      · have hb : decide (b.has y) = true := by
          rw [decide_eq_true_eq]
          exact ⟨by omega, hy⟩
        simp only [List.filter_cons, hb, if_true, List.length_cons]
        rw [i4 y (Or.inl hy)]
      · have hb : decide (b.has y) = false := by
          rw [decide_eq_false_iff_not]
          unfold Band.has
          omega
        simp only [List.filter_cons, hb, Bool.false_eq_true, if_false]
        exact i3 y (by omega) h2
    · intro y hy
      have hb : decide (b.has y) = false := by
        rw [decide_eq_false_iff_not]
        unfold Band.has
        omega
      simp only [List.filter_cons, hb, Bool.false_eq_true, if_false]
      exact i4 y (by omega)

/-! ## The use of the band stack -/

/-- A run of the loop on a stack of bands low enough for their depths never has more
than 38 entries of `bands` in use, unless it started with more. -/
theorem bandLoopLog_peak (fuel : Nat) (rw : RleWorker) (stk : List Band) (hd : DepthIn stk)
    (hne : ∀ b ∈ stk, b.min < b.max) :
    (bandLoopLog fuel rw stk).2.peak ≤ max stk.length 38 := by
  induction fuel generalizing rw stk with
  | zero =>
    cases stk with
    | nil => rw [bandLoopLog_nil]; exact Nat.zero_le _
    | cons b bs =>
      rw [bandLoopLog_zero]
      exact le_max_left _ _
  | succ n ih =>
    cases stk with
    | nil => rw [bandLoopLog_nil]; exact Nat.zero_le _
    | cons band below =>
      obtain ⟨hd1, hd2⟩ := hd
      have hb0 := hne band (List.mem_cons_self _ _)
      have hbelow := fun c hc => hne c (List.mem_cons_of_mem _ hc)
      rw [bandLoopLog_succ]
      have hlen : (band :: below).length = below.length + 1 := rfl
      rw [hlen]
      cases bandTry rw band with
      | error e => exact le_max_left _ _
      | ok v =>
        cases v with
        | failed => exact le_max_left _ _
        | swept rw1 =>
          dsimp only []
          have := ih rw1 below hd2 hbelow
          omega
        | reduce rw1 =>
          dsimp only []
          have hsh : shr (band.max - band.min) 1 = (band.max - band.min) / 2 := by simp [shr]
          by_cases h1 : band.min + shr (band.max - band.min) 1 = band.min
          · rw [if_pos h1]; exact le_max_left _ _
          rw [if_neg h1]
          rw [hsh] at h1
          have hpos : (0 : Int) < 2 ^ below.length := pow_pos (by norm_num) _
          have hlen2 : below.length < 37 := by
            by_contra hcon
            have hge : (2 : Int) ^ 37 ≤ 2 ^ below.length :=
              pow_le_pow_right₀ (by norm_num) (by omega)
            have hmul : 1 * (2 : Int) ^ below.length ≤
                (band.max - band.min - 1) * 2 ^ below.length :=
              mul_le_mul_of_nonneg_right (by omega) (le_of_lt hpos)
            norm_num at hge
            omega
          rw [if_neg (by simp only [BAND_SIZE]; omega)]
          dsimp only []
          rw [hsh]
          have hd3 : DepthIn (⟨band.min, band.min + (band.max - band.min) / 2⟩ ::
              ⟨band.min + (band.max - band.min) / 2, band.max⟩ :: below) := by
            refine ⟨?_, ?_, hd2⟩
            · show (band.min + (band.max - band.min) / 2 - band.min - 1) *
                2 ^ (below.length + 1) < 137438953472
              have e : (band.min + (band.max - band.min) / 2 - band.min - 1) *
                  2 ^ (below.length + 1) =
                  (2 * ((band.max - band.min) / 2) - 2) * 2 ^ below.length := by
                rw [pow_succ]; ring
              rw [e]
              have hmul : (2 * ((band.max - band.min) / 2) - 2) * (2 : Int) ^ below.length ≤
                  (band.max - band.min - 1) * 2 ^ below.length :=
                mul_le_mul_of_nonneg_right (by omega) (le_of_lt hpos)
              omega
            · show (band.max - (band.min + (band.max - band.min) / 2) - 1) *
                2 ^ below.length < 137438953472
              have hmul : (band.max - (band.min + (band.max - band.min) / 2) - 1) *
                  (2 : Int) ^ below.length ≤ (band.max - band.min - 1) * 2 ^ below.length :=
                mul_le_mul_of_nonneg_right (by omega) (le_of_lt hpos)
              omega
          have hne3 : ∀ c ∈ (⟨band.min, band.min + (band.max - band.min) / 2⟩ ::
              ⟨band.min + (band.max - band.min) / 2, band.max⟩ :: below : List Band),
              c.min < c.max := by
            intro c hc
            simp only [List.mem_cons] at hc
            rcases hc with rfl | rfl | hc
            · show band.min < band.min + (band.max - band.min) / 2
              omega
            · show band.min + (band.max - band.min) / 2 < band.max
              omega
            · exact hbelow c hc
          have := ih (countShoot rw1 band.min band.max) _ hd3 hne3
          simp only [List.length_cons] at this
          omega

/-- The `for` loop over bands less than `2 ^ 37` scanlines high never has more than 38
entries of `bands` in use. -/
theorem runBandsLog_peak (bs : List Band) (rw : RleWorker)
    (hb : ∀ b ∈ bs, b.min < b.max ∧ b.max - b.min ≤ 137438953472) :
    (runBandsLog bs rw).2.peak ≤ 38 := by
  induction bs generalizing rw with
  | nil => exact Nat.zero_le _
  | cons b bs ih =>
    rw [runBandsLog_cons]
    have hp := bandLoopLog_peak (2 * (b.max - b.min).toNat + 1) rw [b]
      ⟨by have := hb b (List.mem_cons_self _ _); simp only [List.length_nil, pow_zero]; omega,
        trivial⟩
      (fun c hc => by
        rcases List.mem_cons.1 hc with rfl | hc
        · exact (hb c (List.mem_cons_self _ _)).1
        · cases hc)
    revert hp
    generalize bandLoopLog (2 * (b.max - b.min).toNat + 1) rw [b] = r
    intro hp
    simp only [List.length_cons, List.length_nil] at hp
    obtain ⟨r1, r2⟩ := r
    cases r1 with
    | error e => dsimp only [] at hp ⊢; omega
    | ok v =>
      cases v with
      | none => dsimp only [] at hp ⊢; omega
      | some rw1 =>
        dsimp only [] at hp ⊢
        have := ih rw1 (fun c hc => hb c (List.mem_cons_of_mem _ hc))
        omega

/-! ## The bands set up for a bbox -/

theorem bandCount_tall (h : Int) (h0 : 0 ≤ h) (h1 : h < 137438953472) :
    1 ≤ bandCount h renderBandSize ∧ bandCount h renderBandSize ≤ 39 ∧
    (2 ≤ bandCount h renderBandSize → bandCount h renderBandSize * 64 ≤ h) := by
  have e : renderBandSize = 64 := by decide
  rw [e]
  unfold bandCount
  dsimp only []
  rw [Int.tdiv_eq_ediv h0 (by omega), toI32_eq_self _ (by omega) (by omega)]
  simp only [BAND_SIZE]
  have hq : h / 64 * 64 ≤ h := Int.ediv_mul_le _ (by omega)
  refine ⟨?_, ?_, ?_⟩
  · split_ifs <;> omega
  · split_ifs <;> omega
  · split_ifs <;> omega

/-- The bands the `for` loop sets up, with `k + 1` turns left, adjoin each other from
`min` up to `yMax`. -/
theorem bandsSetUp_chain (yMax bandCnt : Int) (k : Nat) (n min : Int)
    (hk : n + (k + 1) = bandCnt) (hmin : min < yMax)
    (hinv : n < bandCnt - 1 → min + (bandCnt - n) * 64 ≤ yMax) :
    StackOk Band.Nonempty min yMax (bandsSetUp yMax bandCnt 64 (k + 1) n min) ∧
    ∀ b ∈ bandsSetUp yMax bandCnt 64 (k + 1) n min, b.min < b.max ∧ b.max - b.min ≤ yMax - min := by
  induction k generalizing n min with
  | zero =>
    rw [bandsSetUp_succ]
    have hn : n = bandCnt - 1 := by omega
    rw [if_pos (Or.inl hn)]
    refine ⟨⟨rfl, hmin, rfl⟩, fun b hb => ?_⟩
    have : b = ⟨min, yMax⟩ := by simpa [bandsSetUp] using hb
    subst this
    exact ⟨hmin, le_refl _⟩
  | succ k ih =>
    rw [bandsSetUp_succ]
    have hn : n < bandCnt - 1 := by omega
    have hi := hinv hn
    have hmax : (if n = bandCnt - 1 ∨ min + 64 > yMax then yMax else min + 64) = min + 64 := by
      rw [if_neg]
      intro hc
      rcases hc with hc | hc
      · omega
      · have : 2 * 64 ≤ (bandCnt - n) * 64 := by
          have : (2 : Int) ≤ bandCnt - n := by omega
          exact Int.mul_le_mul_of_nonneg_right this (by norm_num)
        omega
    rw [hmax]
    have h2 : 2 * 64 ≤ (bandCnt - n) * 64 := by
      have : (2 : Int) ≤ bandCnt - n := by omega
      exact Int.mul_le_mul_of_nonneg_right this (by norm_num)
    have e2 : (bandCnt - (n + 1)) * 64 = (bandCnt - n) * 64 - 64 := by ring
    obtain ⟨c1, c2⟩ := ih (n + 1) (min + 64) (by omega) (by omega) (fun _ => by rw [e2]; omega)
    refine ⟨⟨rfl, ?_, c1⟩, fun b hb => ?_⟩
    · show min < min + 64
      omega
    · rcases List.mem_cons.1 hb with rfl | hb
      · exact ⟨by show min < min + 64; omega, by show min + 64 - min ≤ yMax - min; omega⟩
      · have := c2 b hb
        omega

/-- The bands `rleRender` sets up for a bbox of 1 to `2 ^ 37 - 1` scanlines adjoin each
other from `bbox.min.y` up to `bbox.max.y`. -/
theorem renderBandList_chain (bbox : SwBBox) (h0 : 0 < bbox.max.y - bbox.min.y)
    (h1 : bbox.max.y - bbox.min.y < 137438953472) :
    StackOk Band.Nonempty bbox.min.y bbox.max.y (renderBandList bbox) ∧
    ∀ b ∈ renderBandList bbox, b.min < b.max ∧ b.max - b.min ≤ bbox.max.y - bbox.min.y := by
  obtain ⟨c1, c2, c3⟩ := bandCount_tall _ (le_of_lt h0) h1
  have e : renderBandSize = 64 := by decide
  unfold renderBandList
  generalize bandCount (bbox.max.y - bbox.min.y) renderBandSize = cnt at c1 c2 c3
  rw [e]
  obtain ⟨k, hk⟩ : ∃ k : Nat, cnt.toNat = k + 1 := ⟨cnt.toNat - 1, by omega⟩
  rw [hk]
  exact bandsSetUp_chain bbox.max.y cnt k 0 bbox.min.y (by omega) (by omega)
    (fun h => by
      have := c3 (by omega)
      simp only [sub_zero]
      omega)

end ThorVG

namespace ThorVG

/-! ## The stripping of white space -/

theorem byteAt_append (pre : List Char) (a : Char) (t : List Char) :
    byteAt (pre ++ a :: t) pre.length = a := by
  unfold byteAt
  rw [List.getD_eq_getElem?_getD, List.getElem?_append_right (le_refl _)]
  simp

theorem skipWhiteSpaceFrom_eq (pre s : List Char) :
    skipWhiteSpaceFrom (pre ++ s) s.length pre.length =
      pre.length + (s.takeWhile isspace).length := by
  induction s generalizing pre with
  | nil => rfl
  | cons a t ih =>
    show (if !isspace (byteAt (pre ++ a :: t) pre.length) then pre.length
      else skipWhiteSpaceFrom (pre ++ a :: t) t.length (pre.length + 1)) = _
    rw [byteAt_append]
    cases ha : isspace a with
    | false => simp [List.takeWhile_cons, ha]
    | true =>
      have e : pre ++ a :: t = (pre ++ [a]) ++ t := by simp
      have := ih (pre ++ [a])
      rw [List.length_append, List.length_singleton] at this
      rw [e, this]
      simp [List.takeWhile_cons, ha]
      omega

theorem drop_takeWhile_length (p : Char → Bool) (s : List Char) :
    s.drop (s.takeWhile p).length = s.dropWhile p := by
  induction s with
  | nil => rfl
  | cons a t ih =>
    cases ha : p a with
    | false => simp [List.takeWhile_cons, List.dropWhile_cons, ha]
    | true => simp [List.takeWhile_cons, List.dropWhile_cons, ha, ih]

/-- The pointer `_simpleXmlSkipWhiteSpace` returns for a C string points to the string
without its leading white space. -/
theorem skipWhiteSpace_drop (s : List Char) :
    s.drop (_simpleXmlSkipWhiteSpace s 0 s.length) = s.dropWhile isspace := by
  have := skipWhiteSpaceFrom_eq [] s
  simp only [List.nil_append, List.length_nil, Nat.zero_add] at this
  unfold _simpleXmlSkipWhiteSpace
  rw [Nat.sub_zero, this, drop_takeWhile_length]

theorem unskipWhiteSpaceFrom_le (mem : List Char) (r : Nat) :
    unskipWhiteSpaceFrom mem 0 r ≤ r := by
  induction r with
  | zero => exact le_refl _
  | succ r ih =>
    show (if r > 0 then
        if !isspace (byteAt mem r) then r + 1 else unskipWhiteSpaceFrom mem 0 r
      else r + 1) ≤ r + 1
    split_ifs <;> omega

theorem byteAt_append_left (t u : List Char) (i : Nat) (h : i < t.length) :
    byteAt (t ++ u) i = byteAt t i := by
  unfold byteAt
  rw [List.getD_eq_getElem?_getD, List.getD_eq_getElem?_getD, List.getElem?_append_left h]

theorem unskipWhiteSpaceFrom_append (t u : List Char) (r : Nat) (h : r ≤ t.length) :
    unskipWhiteSpaceFrom (t ++ u) 0 r = unskipWhiteSpaceFrom t 0 r := by
  induction r with
  | zero => rfl
  | succ r ih =>
    show (if r > 0 then
        if !isspace (byteAt (t ++ u) r) then r + 1 else unskipWhiteSpaceFrom (t ++ u) 0 r
      else r + 1) =
      (if r > 0 then
        if !isspace (byteAt t r) then r + 1 else unskipWhiteSpaceFrom t 0 r
      else r + 1)
    rw [byteAt_append_left t u r (by omega), ih (by omega)]

/-- The NUL `_simpleXmlUnskipWhiteSpace` has written after a C string that does not
start with white space cuts off its trailing white space. -/
theorem unskipWhiteSpace_take (s : List Char) (h : ∀ a ∈ s.head?, isspace a = false) :
    s.take (_simpleXmlUnskipWhiteSpace s s.length 0) = s.rdropWhile isspace := by
  unfold _simpleXmlUnskipWhiteSpace
  induction s using List.reverseRecOn with
  | nil => rfl
  | append_singleton t c ih =>
    rw [List.length_append, List.length_singleton]
    show List.take (if t.length > 0 then
        if !isspace (byteAt (t ++ [c]) t.length) then t.length + 1
        else unskipWhiteSpaceFrom (t ++ [c]) 0 t.length
      else t.length + 1) (t ++ [c]) = _
    rw [byteAt_append]
    cases hc : isspace c with
    | false =>
      have e : (if t.length > 0 then
          if (!false) = true then t.length + 1 else unskipWhiteSpaceFrom (t ++ [c]) 0 t.length
        else t.length + 1) = (t ++ [c]).length := by
        rw [List.length_append, List.length_singleton]
        split_ifs <;> first | rfl | (exfalso; simp_all)
      rw [e, List.take_length, List.rdropWhile_concat_neg]
      simp [hc]
    | true =>
      cases t with
      | nil =>
        exfalso
        have := h c (by simp)
        rw [hc] at this
        cases this
      | cons a t1 =>
        have hlen : (a :: t1).length > 0 := by simp
        rw [if_pos hlen]
        simp only [Bool.not_true, Bool.false_eq_true, if_false]
        rw [unskipWhiteSpaceFrom_append _ _ _ (le_refl _),
          List.take_append_of_le_length (unskipWhiteSpaceFrom_le _ _),
          ih (by intro x hx; exact h x (by simpa using hx)),
          List.rdropWhile_concat_pos _ _ _ hc]

theorem dropWhile_head (p : Char → Bool) (s : List Char) :
    ∀ a ∈ (s.dropWhile p).head?, p a = false := by
  induction s with
  | nil => intro a ha; cases ha
  | cons b t ih =>
    cases hb : p b with
    | false =>
      intro a ha
      rw [List.dropWhile_cons_of_neg (by simp [hb])] at ha
      simp only [List.head?_cons, Option.mem_def, Option.some.injEq] at ha
      rw [← ha]; exact hb
    | true =>
      rw [List.dropWhile_cons_of_pos hb]
      exact ih

/-- The stripping of `simpleXmlParseW3CAttribute` leaves the string without its leading
and trailing white space. -/
theorem stripped_eq (s : List Char) : stripped s = trimmed s := by
  unfold stripped trimmed
  dsimp only []
  rw [skipWhiteSpace_drop, unskipWhiteSpace_take _ (dropWhile_head _ _)]

/-! ## `strchr` -/

theorem strchr_none (c : Char) (s : List Char) (h : c ∉ s) : strchr c s = none := by
  induction s with
  | nil => rfl
  | cons a t ih =>
    have h1 : a ≠ c := fun e => h (by rw [e]; exact List.mem_cons_self _ _)
    have h2 : c ∉ t := fun e => h (List.mem_cons_of_mem _ e)
    show (if a = c then some 0 else (strchr c t).map (· + 1)) = none
    rw [if_neg h1, ih h2]
    rfl

theorem strchr_first (c : Char) (s t : List Char) (h : c ∉ s) :
    strchr c (s ++ c :: t) = some s.length := by
  induction s with
  | nil =>
    show (if c = c then some 0 else _) = _
    rw [if_pos rfl]
    rfl
  | cons a s1 ih =>
    have h1 : a ≠ c := fun e => h (by rw [e]; exact List.mem_cons_self _ _)
    have h2 : c ∉ s1 := fun e => h (List.mem_cons_of_mem _ e)
    show (if a = c then some 0 else (strchr c (s1 ++ c :: t)).map (· + 1)) = _
    rw [if_neg h1, ih h2]
    rfl

end ThorVG

namespace ThorVG

/-! ## The turns of `simpleXmlParseW3CAttribute` on a style string -/

theorem w3cLoop_succ (fuel : Nat) (buf : List Char) :
    w3cLoop (fuel + 1) buf =
      match strchr ';' buf with
      | none =>
        some (if (match (none : Option Nat), strchr ':' buf with
            | none, some sep => (buf.take sep, buf.drop (sep + 1))
            | some next, some sep =>
              if sep < next then (buf.take sep, (buf.drop (sep + 1)).take (next - sep - 1))
              else (buf.take next, [])
            | some next, none => (buf.take next, [])
            | none, none => ([], [])).1 ≠ [] then
          [(stripped (match (none : Option Nat), strchr ':' buf with
            | none, some sep => (buf.take sep, buf.drop (sep + 1))
            | some next, some sep =>
              if sep < next then (buf.take sep, (buf.drop (sep + 1)).take (next - sep - 1))
              else (buf.take next, [])
            | some next, none => (buf.take next, [])
            | none, none => ([], [])).1,
            stripped (match (none : Option Nat), strchr ':' buf with
            | none, some sep => (buf.take sep, buf.drop (sep + 1))
            | some next, some sep =>
              if sep < next then (buf.take sep, (buf.drop (sep + 1)).take (next - sep - 1))
              else (buf.take next, [])
            | some next, none => (buf.take next, [])
            | none, none => ([], [])).2)]
          else [])
      | some next =>
        match w3cLoop fuel (buf.drop (next + 1)) with
        | none => none
        | some rest =>
          some ((if (match some next, strchr ':' buf with
            | none, some sep => (buf.take sep, buf.drop (sep + 1))
            | some next, some sep =>
              if sep < next then (buf.take sep, (buf.drop (sep + 1)).take (next - sep - 1))
              else (buf.take next, [])
            | some next, none => (buf.take next, [])
            | none, none => ([], [])).1 ≠ [] then
          [(stripped (match some next, strchr ':' buf with
            | none, some sep => (buf.take sep, buf.drop (sep + 1))
            | some next, some sep =>
              if sep < next then (buf.take sep, (buf.drop (sep + 1)).take (next - sep - 1))
              else (buf.take next, [])
            | some next, none => (buf.take next, [])
            | none, none => ([], [])).1,
            stripped (match some next, strchr ':' buf with
            | none, some sep => (buf.take sep, buf.drop (sep + 1))
            | some next, some sep =>
              if sep < next then (buf.take sep, (buf.drop (sep + 1)).take (next - sep - 1))
              else (buf.take next, [])
            | some next, none => (buf.take next, [])
            | none, none => ([], [])).2)]
          else []) ++ rest) := by
  show (match strchr ';' buf with
      | none => _
      | some next => _) = _
  cases strchr ';' buf <;> rfl

/-- The last turn: the rest of the style string is `k:v`. -/
theorem w3cLoop_last (fuel : Nat) (k v : List Char) (hk1 : ':' ∉ k) (hk2 : ';' ∉ k)
    (hv : ';' ∉ v) (hne : k ≠ []) :
    w3cLoop (fuel + 1) (k ++ ':' :: v) = some [(stripped k, stripped v)] := by
  have hsep : strchr ':' (k ++ ':' :: v) = some k.length := strchr_first _ _ _ hk1
  have hnext : strchr ';' (k ++ ':' :: v) = none := by
    apply strchr_none
    intro h
    rcases List.mem_append.1 h with h | h
    · exact hk2 h
    · rcases List.mem_cons.1 h with h | h
      · cases h
      · exact hv h
  rw [w3cLoop_succ, hnext, hsep]
  dsimp only []
  have e1 : (k ++ ':' :: v).take k.length = k := List.take_left' rfl
  have e2 : (k ++ ':' :: v).drop (k.length + 1) = v := by
    have : k ++ ':' :: v = (k ++ [':']) ++ v := by simp
    rw [this]
    exact List.drop_left' (by simp)
  rw [e1, e2, if_pos hne]

/-- A turn before the last: the rest of the style string is `k:v;rest`. -/
theorem w3cLoop_pair (fuel : Nat) (k v rest : List Char) (hk1 : ':' ∉ k) (hk2 : ';' ∉ k)
    (hv : ';' ∉ v) (hne : k ≠ []) :
    w3cLoop (fuel + 1) (k ++ ':' :: v ++ ';' :: rest) =
      match w3cLoop fuel rest with
      | none => none
      | some calls => some ((stripped k, stripped v) :: calls) := by
  have hbuf : k ++ ':' :: v ++ ';' :: rest = k ++ ':' :: (v ++ ';' :: rest) := by simp
  have hbuf2 : k ++ ':' :: v ++ ';' :: rest = (k ++ ':' :: v) ++ ';' :: rest := by simp
  have hsep : strchr ':' (k ++ ':' :: v ++ ';' :: rest) = some k.length := by
    rw [hbuf]; exact strchr_first _ _ _ hk1
  have hnext : strchr ';' (k ++ ':' :: v ++ ';' :: rest) = some (k.length + 1 + v.length) := by
    rw [hbuf2]
    have := strchr_first ';' (k ++ ':' :: v) rest (by
      intro h
      rcases List.mem_append.1 h with h | h
      · exact hk2 h
      · rcases List.mem_cons.1 h with h | h
        · cases h
        · exact hv h)
    rw [this]
    simp
    omega
  rw [w3cLoop_succ, hnext, hsep]
  dsimp only []
  have e1 : (k ++ ':' :: v ++ ';' :: rest).take k.length = k := by
    rw [hbuf]; exact List.take_left' rfl
  have e2 : ((k ++ ':' :: v ++ ';' :: rest).drop (k.length + 1)).take
      (k.length + 1 + v.length - k.length - 1) = v := by
    have e : k ++ ':' :: v ++ ';' :: rest = (k ++ [':']) ++ (v ++ ';' :: rest) := by simp
    rw [e, List.drop_left' (by simp)]
    have : k.length + 1 + v.length - k.length - 1 = v.length := by omega
    rw [this]
    exact List.take_left' rfl
  have e3 : (k ++ ':' :: v ++ ';' :: rest).drop (k.length + 1 + v.length + 1) = rest := by
    have e : k ++ ':' :: v ++ ';' :: rest = (k ++ ':' :: v ++ [';']) ++ rest := by simp
    rw [e]
    exact List.drop_left' (by simp; omega)
  rw [e1, e2, e3, if_pos (show k.length < k.length + 1 + v.length by omega)]
  dsimp only []
  rw [if_pos hne]
  cases w3cLoop fuel rest <;> rfl

theorem styleOf_cons (kv kv2 : List Char × List Char) (rest : List (List Char × List Char)) :
    styleOf (kv :: kv2 :: rest) = kv.1 ++ ':' :: kv.2 ++ ';' :: styleOf (kv2 :: rest) := rfl

theorem trimmed_ne_nil (s : List Char) (h : trimmed s ≠ []) : s ≠ [] := by
  intro e
  apply h
  rw [e]
  rfl

/-- The loop on the style string of a list of pairs calls `func` once for each pair, in
order, with the stripped key and the stripped value. -/
theorem w3cLoop_style (ps : List (List Char × List Char)) (hps : ps ≠ [])
    (h : ∀ kv ∈ ps, ':' ∉ kv.1 ∧ ';' ∉ kv.1 ∧ ';' ∉ kv.2 ∧ trimmed kv.1 ≠ []) (fuel : Nat)
    (hf : ps.length ≤ fuel) :
    w3cLoop fuel (styleOf ps) = some (ps.map (fun kv => (trimmed kv.1, trimmed kv.2))) := by
  induction ps generalizing fuel with
  | nil => exact absurd rfl hps
  | cons kv rest ih =>
    obtain ⟨h1, h2, h3, h4⟩ := h kv (List.mem_cons_self _ _)
    cases fuel with
    | zero => simp at hf
    | succ n =>
      cases rest with
      | nil =>
        show w3cLoop (n + 1) (kv.1 ++ ':' :: kv.2) = _
        rw [w3cLoop_last n _ _ h1 h2 h3 (trimmed_ne_nil _ h4), stripped_eq, stripped_eq]
        rfl
      | cons kv2 rest2 =>
        rw [styleOf_cons, w3cLoop_pair n _ _ _ h1 h2 h3 (trimmed_ne_nil _ h4),
          ih (by simp) (fun x hx => h x (List.mem_cons_of_mem _ hx)) n
            (by simp only [List.length_cons] at hf ⊢; omega),
          stripped_eq, stripped_eq]
        rfl

theorem styleOf_length (ps : List (List Char × List Char)) : ps.length ≤ (styleOf ps).length + 1 := by
  induction ps with
  | nil => exact Nat.zero_le _
  | cons kv rest ih =>
    cases rest with
    | nil => simp
    | cons kv2 rest2 =>
      rw [styleOf_cons]
      simp only [List.length_cons, List.length_append] at ih ⊢
      omega

theorem styleOf_ne_nil (ps : List (List Char × List Char)) (hps : ps ≠ []) : styleOf ps ≠ [] := by
  cases ps with
  | nil => exact absurd rfl hps
  | cons kv rest =>
    cases rest with
    | nil =>
      show kv.1 ++ ':' :: kv.2 ≠ []
      simp
    | cons kv2 rest2 =>
      rw [styleOf_cons]
      simp

end ThorVG

namespace ThorVG

/-! ## One coordinate of a split arc -/

/-- The division by two of C++ is the floor for a value that is not negative, and the
negated floor of the negated value otherwise. -/
theorem tdiv2_val (x : Int) :
    (0 ≤ x → Int.tdiv x 2 = x / 2) ∧ (x < 0 → Int.tdiv x 2 = -((-x) / 2)) := by
  constructor
  · intro h
    exact Int.tdiv_eq_ediv h (by omega)
  · intro h
    have h1 := Int.tdiv_eq_ediv (a := -x) (b := 2) (by omega) (by omega)
    have h2 : Int.tdiv (-x) 2 = -Int.tdiv x 2 := Int.neg_tdiv _ _
    omega

/-- Twice the half of a value is within one of the value. -/
theorem tdiv2_bounds (x : Int) : x - 1 ≤ 2 * Int.tdiv x 2 ∧ 2 * Int.tdiv x 2 ≤ x + 1 := by
  have := tdiv2_val x
  omega

/-- The midpoint of two values at most `D` apart is within `(D + 1) / 2` of both. -/
theorem avg_near (x y D : Int) (h : |y - x| ≤ D) :
    |Int.tdiv (x + y) 2 - x| ≤ (D + 1) / 2 ∧ |y - Int.tdiv (x + y) 2| ≤ (D + 1) / 2 := by
  have := tdiv2_bounds (x + y)
  rw [abs_le] at h
  rw [abs_le, abs_le]
  omega

/-- Halving brings two values at most `D` apart to within `(D + 1) / 2`. -/
theorem tdiv_lip (x y D : Int) (h : |x - y| ≤ D) :
    |Int.tdiv x 2 - Int.tdiv y 2| ≤ (D + 1) / 2 := by
  have h1 := tdiv2_val x
  have h2 := tdiv2_val y
  rw [abs_le] at h ⊢
  omega

/-- The second differences of both halves of a split coordinate are at most a quarter
of those of the whole, and two for the rounding. -/
theorem second_half (b0 b1 b2 b3 B n1 n5 c n2 n4 m : Int)
    (h1 : |(b2 - b1) - (b1 - b0)| ≤ B) (h2 : |(b3 - b2) - (b2 - b1)| ≤ B)
    (e1 : n1 = Int.tdiv (b0 + b1) 2) (e5 : n5 = Int.tdiv (b3 + b2) 2)
    (ec : c = Int.tdiv (b1 + b2) 2) (e2 : n2 = Int.tdiv (n1 + c) 2)
    (e4 : n4 = Int.tdiv (n5 + c) 2) (em : m = Int.tdiv (n2 + n4) 2) :
    |(n2 - n1) - (n1 - b0)| ≤ B / 4 + 2 ∧ |(m - n2) - (n2 - n1)| ≤ B / 4 + 2 ∧
    |(n5 - n4) - (n4 - m)| ≤ B / 4 + 2 ∧ |(b3 - n5) - (n5 - n4)| ≤ B / 4 + 2 := by
  have t1 := tdiv2_bounds (b0 + b1)
  have t5 := tdiv2_bounds (b3 + b2)
  have tc := tdiv2_bounds (b1 + b2)
  have t2 := tdiv2_bounds (n1 + c)
  have t4 := tdiv2_bounds (n5 + c)
  have tm := tdiv2_bounds (n2 + n4)
  rw [← e1] at t1
  rw [← e5] at t5
  rw [← ec] at tc
  rw [← e2] at t2
  rw [← e4] at t4
  rw [← em] at tm
  rw [abs_le] at h1 h2
  simp only [abs_le]
  clear e1 e5 ec e2 e4 em
  refine ⟨⟨?_, ?_⟩, ⟨?_, ?_⟩, ⟨?_, ?_⟩, ⟨?_, ?_⟩⟩ <;> omega

/-- The first differences of both halves of a split coordinate are at most half of
those of the whole, rounded up. -/
theorem first_half (b0 b1 b2 b3 A n1 n5 c n2 n4 m : Int)
    (h1 : |b1 - b0| ≤ A) (h2 : |b2 - b1| ≤ A) (h3 : |b3 - b2| ≤ A)
    (e1 : n1 = Int.tdiv (b0 + b1) 2) (e5 : n5 = Int.tdiv (b3 + b2) 2)
    (ec : c = Int.tdiv (b1 + b2) 2) (e2 : n2 = Int.tdiv (n1 + c) 2)
    (e4 : n4 = Int.tdiv (n5 + c) 2) (em : m = Int.tdiv (n2 + n4) 2) :
    |n1 - b0| ≤ (A + 1) / 2 ∧ |n2 - n1| ≤ (A + 1) / 2 ∧ |m - n2| ≤ (A + 1) / 2 ∧
    |n4 - m| ≤ (A + 1) / 2 ∧ |n5 - n4| ≤ (A + 1) / 2 ∧ |b3 - n5| ≤ (A + 1) / 2 := by
  have hA : 0 ≤ A := le_trans (abs_nonneg _) h1
  -- n1 near b0
  have a1 := avg_near b0 b1 A h1
  rw [← e1] at a1
  -- n5 near b3
  have a5 := avg_near b3 b2 A (by rw [abs_sub_comm]; exact h3)
  rw [← e5] at a5
  -- c - n1
  have hcn1 : |c - n1| ≤ A := by
    have := tdiv_lip (b1 + b2) (b0 + b1) (2 * A) (by
      rw [abs_le] at h1 h2 ⊢; omega)
    rw [← ec, ← e1] at this
    have e : (2 * A + 1) / 2 = A := by omega
    rw [e] at this
    exact this
  have a2 := avg_near n1 c A hcn1
  rw [← e2] at a2
  have hcn5 : |c - n5| ≤ A := by
    have := tdiv_lip (b1 + b2) (b3 + b2) (2 * A) (by
      rw [abs_le] at h2 h3 ⊢; omega)
    rw [← ec, ← e5] at this
    have e : (2 * A + 1) / 2 = A := by omega
    rw [e] at this
    exact this
  have a4 := avg_near n5 c A hcn5
  rw [← e4] at a4
  have hn51 : |n5 - n1| ≤ 2 * A := by
    have := tdiv_lip (b3 + b2) (b0 + b1) (4 * A) (by
      rw [abs_le] at h1 h2 h3 ⊢; omega)
    rw [← e5, ← e1] at this
    have e : (4 * A + 1) / 2 = 2 * A := by omega
    rw [e] at this
    exact this
  have hn42 : |n4 - n2| ≤ A := by
    have := tdiv_lip (n5 + c) (n1 + c) (2 * A) (by
      rw [abs_le] at hn51 ⊢; omega)
    rw [← e4, ← e2] at this
    have e : (2 * A + 1) / 2 = A := by omega
    rw [e] at this
    exact this
  have am := avg_near n2 n4 A hn42
  rw [← em] at am
  refine ⟨a1.1, a2.1, am.1, am.2, ?_, ?_⟩
  · rw [abs_sub_comm]; exact a4.1
  · rw [abs_sub_comm]; exact a5.1

/-- A coordinate with steps of at most one that is nowhere negative: in both halves the
inner points lie between the outer ones. -/
theorem tiny_between_pos (b0 b1 b2 b3 n1 n5 c n2 n4 m : Int)
    (p0 : 0 ≤ b0) (p1 : 0 ≤ b1) (p2 : 0 ≤ b2) (p3 : 0 ≤ b3)
    (h1 : |b1 - b0| ≤ 1) (h2 : |b2 - b1| ≤ 1) (h3 : |b3 - b2| ≤ 1)
    (e1 : n1 = Int.tdiv (b0 + b1) 2) (e5 : n5 = Int.tdiv (b3 + b2) 2)
    (ec : c = Int.tdiv (b1 + b2) 2) (e2 : n2 = Int.tdiv (n1 + c) 2)
    (e4 : n4 = Int.tdiv (n5 + c) 2) (em : m = Int.tdiv (n2 + n4) 2) :
    ((0 ≤ n1 - b0 ∧ 0 ≤ m - n1) ∨ (n1 - b0 ≤ 0 ∧ m - n1 ≤ 0)) ∧
      ((0 ≤ n2 - b0 ∧ 0 ≤ m - n2) ∨ (n2 - b0 ≤ 0 ∧ m - n2 ≤ 0)) ∧
      ((0 ≤ n4 - m ∧ 0 ≤ b3 - n4) ∨ (n4 - m ≤ 0 ∧ b3 - n4 ≤ 0)) ∧
      ((0 ≤ n5 - m ∧ 0 ≤ b3 - n5) ∨ (n5 - m ≤ 0 ∧ b3 - n5 ≤ 0)) := by
  rw [abs_le] at h1 h2 h3
  rw [Int.tdiv_eq_ediv (by omega) (by omega)] at e1 e5 ec
  have q1 : 0 ≤ n1 := by omega
  have q5 : 0 ≤ n5 := by omega
  have qc : 0 ≤ c := by omega
  rw [Int.tdiv_eq_ediv (by omega) (by omega)] at e2 e4
  have q2 : 0 ≤ n2 := by omega
  have q4 : 0 ≤ n4 := by omega
  rw [Int.tdiv_eq_ediv (by omega) (by omega)] at em
  refine ⟨?_, ?_, ?_, ?_⟩ <;> omega

/-- A coordinate with steps of at most one that starts within two of zero: in both
halves the inner points lie between the outer ones. -/
theorem tiny_between_mid (b0 b1 b2 b3 n1 n5 c n2 n4 m : Int)
    (p0 : -3 < b0) (p1 : b0 < 3)
    (h1 : |b1 - b0| ≤ 1) (h2 : |b2 - b1| ≤ 1) (h3 : |b3 - b2| ≤ 1)
    (e1 : n1 = Int.tdiv (b0 + b1) 2) (e5 : n5 = Int.tdiv (b3 + b2) 2)
    (ec : c = Int.tdiv (b1 + b2) 2) (e2 : n2 = Int.tdiv (n1 + c) 2)
    (e4 : n4 = Int.tdiv (n5 + c) 2) (em : m = Int.tdiv (n2 + n4) 2) :
    ((0 ≤ n1 - b0 ∧ 0 ≤ m - n1) ∨ (n1 - b0 ≤ 0 ∧ m - n1 ≤ 0)) ∧
      ((0 ≤ n2 - b0 ∧ 0 ≤ m - n2) ∨ (n2 - b0 ≤ 0 ∧ m - n2 ≤ 0)) ∧
      ((0 ≤ n4 - m ∧ 0 ≤ b3 - n4) ∨ (n4 - m ≤ 0 ∧ b3 - n4 ≤ 0)) ∧
      ((0 ≤ n5 - m ∧ 0 ≤ b3 - n5) ∨ (n5 - m ≤ 0 ∧ b3 - n5 ≤ 0)) := by
  rw [abs_le] at h1 h2 h3
  obtain ⟨u, hu⟩ : ∃ u, b1 = b0 + u := ⟨b1 - b0, by ring⟩
  obtain ⟨v, hv⟩ : ∃ v, b2 = b1 + v := ⟨b2 - b1, by ring⟩
  obtain ⟨w, hw⟩ : ∃ w, b3 = b2 + w := ⟨b3 - b2, by ring⟩
  have hu1 : -1 ≤ u := by omega
  have hu2 : u ≤ 1 := by omega
  have hv1 : -1 ≤ v := by omega
  have hv2 : v ≤ 1 := by omega
  have hw1 : -1 ≤ w := by omega
  have hw2 : w ≤ 1 := by omega
  clear h1 h2 h3
  subst hw
  subst hv
  subst hu
  subst em
  subst e4
  subst e2
  subst ec
  subst e5
  subst e1
  interval_cases b0 <;> interval_cases u <;> interval_cases v <;> interval_cases w <;> decide

/-- A coordinate with steps of at most one that is nowhere positive: in both halves the
inner points lie between the outer ones. -/
theorem tiny_between_neg (b0 b1 b2 b3 n1 n5 c n2 n4 m : Int)
    (p0 : b0 ≤ 0) (p1 : b1 ≤ 0) (p2 : b2 ≤ 0) (p3 : b3 ≤ 0)
    (h1 : |b1 - b0| ≤ 1) (h2 : |b2 - b1| ≤ 1) (h3 : |b3 - b2| ≤ 1)
    (e1 : n1 = Int.tdiv (b0 + b1) 2) (e5 : n5 = Int.tdiv (b3 + b2) 2)
    (ec : c = Int.tdiv (b1 + b2) 2) (e2 : n2 = Int.tdiv (n1 + c) 2)
    (e4 : n4 = Int.tdiv (n5 + c) 2) (em : m = Int.tdiv (n2 + n4) 2) :
    ((0 ≤ n1 - b0 ∧ 0 ≤ m - n1) ∨ (n1 - b0 ≤ 0 ∧ m - n1 ≤ 0)) ∧
      ((0 ≤ n2 - b0 ∧ 0 ≤ m - n2) ∨ (n2 - b0 ≤ 0 ∧ m - n2 ≤ 0)) ∧
      ((0 ≤ n4 - m ∧ 0 ≤ b3 - n4) ∨ (n4 - m ≤ 0 ∧ b3 - n4 ≤ 0)) ∧
      ((0 ≤ n5 - m ∧ 0 ≤ b3 - n5) ∨ (n5 - m ≤ 0 ∧ b3 - n5 ≤ 0)) := by
  have neg2 : ∀ x y z : Int, z = Int.tdiv (x + y) 2 → -z = Int.tdiv (-x + -y) 2 := by
    intro x y z h
    rw [← neg_add, Int.neg_tdiv, h]
  rw [abs_le] at h1 h2 h3
  have k := tiny_between_pos (-b0) (-b1) (-b2) (-b3) (-n1) (-n5) (-c) (-n2) (-n4) (-m)
    (by omega) (by omega) (by omega) (by omega)
    (by rw [abs_le]; omega) (by rw [abs_le]; omega) (by rw [abs_le]; omega)
    (neg2 _ _ _ e1) (neg2 _ _ _ e5) (neg2 _ _ _ ec) (neg2 _ _ _ e2) (neg2 _ _ _ e4)
    (neg2 _ _ _ em)
  obtain ⟨k1, k2, k3, k4⟩ := k
  refine ⟨?_, ?_, ?_, ?_⟩ <;> omega

/-- A coordinate with steps of at most one: in both halves the inner points lie between
the outer ones. -/
theorem tiny_between (b0 b1 b2 b3 n1 n5 c n2 n4 m : Int)
    (h1 : |b1 - b0| ≤ 1) (h2 : |b2 - b1| ≤ 1) (h3 : |b3 - b2| ≤ 1)
    (e1 : n1 = Int.tdiv (b0 + b1) 2) (e5 : n5 = Int.tdiv (b3 + b2) 2)
    (ec : c = Int.tdiv (b1 + b2) 2) (e2 : n2 = Int.tdiv (n1 + c) 2)
    (e4 : n4 = Int.tdiv (n5 + c) 2) (em : m = Int.tdiv (n2 + n4) 2) :
    ((0 ≤ n1 - b0 ∧ 0 ≤ m - n1) ∨ (n1 - b0 ≤ 0 ∧ m - n1 ≤ 0)) ∧
      ((0 ≤ n2 - b0 ∧ 0 ≤ m - n2) ∨ (n2 - b0 ≤ 0 ∧ m - n2 ≤ 0)) ∧
      ((0 ≤ n4 - m ∧ 0 ≤ b3 - n4) ∨ (n4 - m ≤ 0 ∧ b3 - n4 ≤ 0)) ∧
      ((0 ≤ n5 - m ∧ 0 ≤ b3 - n5) ∨ (n5 - m ≤ 0 ∧ b3 - n5 ≤ 0)) := by
  have g1 := abs_le.mp h1
  have g2 := abs_le.mp h2
  have g3 := abs_le.mp h3
  rcases le_or_lt 3 b0 with p | p
  · exact tiny_between_pos b0 b1 b2 b3 n1 n5 c n2 n4 m (by omega) (by omega) (by omega)
      (by omega) h1 h2 h3 e1 e5 ec e2 e4 em
  · rcases le_or_lt b0 (-3) with q | q
    · exact tiny_between_neg b0 b1 b2 b3 n1 n5 c n2 n4 m (by omega) (by omega) (by omega)
        (by omega) h1 h2 h3 e1 e5 ec e2 e4 em
    · exact tiny_between_mid b0 b1 b2 b3 n1 n5 c n2 n4 m q p h1 h2 h3 e1 e5 ec e2 e4 em

/-- Two values of the same sign have a product that is not negative. -/
theorem mul_nonneg_of_same_sign (a b : Int) (h : (0 ≤ a ∧ 0 ≤ b) ∨ (a ≤ 0 ∧ b ≤ 0)) :
    0 ≤ a * b := by
  rcases h with ⟨ha, hb⟩ | ⟨ha, hb⟩
  · exact mul_nonneg ha hb
  · exact mul_nonneg_of_nonpos_of_nonpos ha hb

/-- Splitting one coordinate halves the bound of the first differences and quarters that
of the second differences, in both halves. -/
theorem coordIn_halves (A B b0 b1 b2 b3 : Int) (h : CoordIn A B b0 b1 b2 b3) :
    CoordIn ((A + 1) / 2) (B / 4 + 2) b0 (Int.tdiv (b0 + b1) 2)
      (Int.tdiv (Int.tdiv (b0 + b1) 2 + Int.tdiv (b1 + b2) 2) 2)
      (Int.tdiv (Int.tdiv (Int.tdiv (b0 + b1) 2 + Int.tdiv (b1 + b2) 2) 2 +
        Int.tdiv (Int.tdiv (b3 + b2) 2 + Int.tdiv (b1 + b2) 2) 2) 2) ∧
    CoordIn ((A + 1) / 2) (B / 4 + 2)
      (Int.tdiv (Int.tdiv (Int.tdiv (b0 + b1) 2 + Int.tdiv (b1 + b2) 2) 2 +
        Int.tdiv (Int.tdiv (b3 + b2) 2 + Int.tdiv (b1 + b2) 2) 2) 2)
      (Int.tdiv (Int.tdiv (b3 + b2) 2 + Int.tdiv (b1 + b2) 2) 2)
      (Int.tdiv (b3 + b2) 2) b3 := by
  obtain ⟨h1, h2, h3, h4, h5⟩ := h
  have f := first_half b0 b1 b2 b3 A _ _ _ _ _ _ h1 h2 h3 rfl rfl rfl rfl rfl rfl
  have s := second_half b0 b1 b2 b3 B _ _ _ _ _ _ h4 h5 rfl rfl rfl rfl rfl rfl
  obtain ⟨f1, f2, f3, f4, f5, f6⟩ := f
  obtain ⟨s1, s2, s3, s4⟩ := s
  exact ⟨⟨f1, f2, f3, s1, s2⟩, ⟨f4, f5, f6, s3, s4⟩⟩

/-- Splitting one coordinate with steps of at most one leaves the inner points of both
halves between the outer ones. -/
theorem coordBetween_halves (B b0 b1 b2 b3 : Int) (h : CoordIn 1 B b0 b1 b2 b3) :
    CoordBetween b0 (Int.tdiv (b0 + b1) 2)
      (Int.tdiv (Int.tdiv (b0 + b1) 2 + Int.tdiv (b1 + b2) 2) 2)
      (Int.tdiv (Int.tdiv (Int.tdiv (b0 + b1) 2 + Int.tdiv (b1 + b2) 2) 2 +
        Int.tdiv (Int.tdiv (b3 + b2) 2 + Int.tdiv (b1 + b2) 2) 2) 2) ∧
    CoordBetween
      (Int.tdiv (Int.tdiv (Int.tdiv (b0 + b1) 2 + Int.tdiv (b1 + b2) 2) 2 +
        Int.tdiv (Int.tdiv (b3 + b2) 2 + Int.tdiv (b1 + b2) 2) 2) 2)
      (Int.tdiv (Int.tdiv (b3 + b2) 2 + Int.tdiv (b1 + b2) 2) 2)
      (Int.tdiv (b3 + b2) 2) b3 := by
  obtain ⟨h1, h2, h3, _, _⟩ := h
  obtain ⟨k1, k2, k3, k4⟩ :=
    tiny_between b0 b1 b2 b3 _ _ _ _ _ _ h1 h2 h3 rfl rfl rfl rfl rfl rfl
  exact ⟨⟨mul_nonneg_of_same_sign _ _ k1, mul_nonneg_of_same_sign _ _ k2⟩,
    ⟨mul_nonneg_of_same_sign _ _ k3, mul_nonneg_of_same_sign _ _ k4⟩⟩

/-- The bounds of `CoordIn` may be widened. -/
theorem coordIn_mono (A B A1 B1 b0 b1 b2 b3 : Int) (hA : A ≤ A1) (hB : B ≤ B1)
    (h : CoordIn A B b0 b1 b2 b3) : CoordIn A1 B1 b0 b1 b2 b3 := by
  obtain ⟨h1, h2, h3, h4, h5⟩ := h
  exact ⟨le_trans h1 hA, le_trans h2 hA, le_trans h3 hA, le_trans h4 hB, le_trans h5 hB⟩

end ThorVG

namespace ThorVG

/-! ## The split decision on short and on nearly straight arcs -/

/-- The absolute value as `_cubicTo` takes it. -/
theorem ite_neg_abs (s : Int) : (if s < 0 then -s else s) = |s| := by
  split_ifs with h
  · rw [abs_of_neg h]
  · rw [abs_of_nonneg (by omega)]

/-- Both coordinates are at most `HYPOT` in absolute value. -/
theorem HYPOT_ge (pt : SwPoint) : |pt.x| ≤ HYPOT pt ∧ |pt.y| ≤ HYPOT pt := by
  unfold HYPOT shr
  dsimp only []
  rw [ite_neg_abs, ite_neg_abs]
  have hx := abs_nonneg pt.x
  have hy := abs_nonneg pt.y
  generalize |pt.x| = X at *
  generalize |pt.y| = Y at *
  have e : (2 : Int) ^ 3 = 8 := by norm_num
  rw [e]
  split_ifs <;> constructor <;> omega

/-- `HYPOT` is at most the sum of the absolute values of the coordinates. -/
theorem HYPOT_le (pt : SwPoint) : HYPOT pt ≤ |pt.x| + |pt.y| := by
  unfold HYPOT shr
  dsimp only []
  rw [ite_neg_abs, ite_neg_abs]
  have hx := abs_nonneg pt.x
  have hy := abs_nonneg pt.y
  generalize |pt.x| = X at *
  generalize |pt.y| = Y at *
  have e : (2 : Int) ^ 3 = 8 := by norm_num
  rw [e]
  split_ifs <;> omega

/-- The split decision is `draw` when the five tests of `_cubicTo` pass. -/
theorem cubicSplit_draw (a0 a1 a2 a3 : SwPoint)
    (hL : HYPOT (a3 - a0) ≤ SHRT_MAX)
    (h1 : |(a3.y - a0.y) * (a1.x - a0.x) - (a3.x - a0.x) * (a1.y - a0.y)| ≤ HYPOT (a3 - a0) * 42)
    (h2 : |(a3.y - a0.y) * (a2.x - a0.x) - (a3.x - a0.x) * (a2.y - a0.y)| ≤ HYPOT (a3 - a0) * 42)
    (h3 : (a1.x - a0.x) * ((a1.x - a0.x) - (a3.x - a0.x))
        + (a1.y - a0.y) * ((a1.y - a0.y) - (a3.y - a0.y)) ≤ 0)
    (h4 : (a2.x - a0.x) * ((a2.x - a0.x) - (a3.x - a0.x))
        + (a2.y - a0.y) * ((a2.y - a0.y) - (a3.y - a0.y)) ≤ 0) :
    cubicSplit a0 a1 a2 a3 = false := by
  have e5 : Int.tdiv ONE_PIXEL 6 = 42 := by decide
  have x1 : (a1 - a0).x = a1.x - a0.x := rfl
  have y1 : (a1 - a0).y = a1.y - a0.y := rfl
  have x2 : (a2 - a0).x = a2.x - a0.x := rfl
  have y2 : (a2 - a0).y = a2.y - a0.y := rfl
  have x3 : (a3 - a0).x = a3.x - a0.x := rfl
  have y3 : (a3 - a0).y = a3.y - a0.y := rfl
  unfold cubicSplit
  dsimp only []
  rw [e5, ite_neg_abs, ite_neg_abs, x1, y1, x2, y2, x3, y3]
  rw [if_neg (by omega), if_neg (by omega), if_neg (by omega)]
  rw [decide_eq_false_iff_not]
  omega

/-- The product of two bounded values is bounded by the product of the bounds. -/
theorem abs_mul_le_of (a b A B : Int) (ha : |a| ≤ A) (hb : |b| ≤ B) : |a * b| ≤ A * B := by
  rw [abs_mul]
  exact mul_le_mul ha hb (abs_nonneg b) (le_trans (abs_nonneg a) ha)

/-- The cross product of a vector within `L` and one of at most `K` in sum. -/
theorem cross_le (dx dy ux uy L K : Int) (hx : |dx| ≤ L) (hy : |dy| ≤ L)
    (hu : |ux| + |uy| ≤ K) : |dy * ux - dx * uy| ≤ L * K := by
  have hL : 0 ≤ L := le_trans (abs_nonneg _) hx
  have h1 : |dy * ux| ≤ L * |ux| := abs_mul_le_of dy ux L |ux| hy le_rfl
  have h2 : |dx * uy| ≤ L * |uy| := abs_mul_le_of dx uy L |uy| hx le_rfl
  have h3 : |dy * ux - dx * uy| ≤ |dy * ux| + |dx * uy| := abs_sub _ _
  have h4 : L * (|ux| + |uy|) ≤ L * K := mul_le_mul_of_nonneg_left hu hL
  have h5 : L * (|ux| + |uy|) = L * |ux| + L * |uy| := by ring
  omega

/-- An arc with steps of at most one whose control points lie between its end points in
both coordinates is drawn. -/
theorem cubicSplit_tiny (B : Int) (a0 a1 a2 a3 : SwPoint) (h : ArcIn 1 B a0 a1 a2 a3)
    (bx : CoordBetween a0.x a1.x a2.x a3.x) (bY : CoordBetween a0.y a1.y a2.y a3.y) :
    cubicSplit a0 a1 a2 a3 = false := by
  obtain ⟨⟨x1, x2, x3, _, _⟩, ⟨y1, y2, y3, _, _⟩⟩ := h
  obtain ⟨bx1, bx2⟩ := bx
  obtain ⟨by1, by2⟩ := bY
  have g := HYPOT_ge (a3 - a0)
  have l := HYPOT_le (a3 - a0)
  have ex : (a3 - a0).x = a3.x - a0.x := rfl
  have ey : (a3 - a0).y = a3.y - a0.y := rfl
  rw [ex, ey] at g l
  have X1 := abs_le.mp x1
  have X2 := abs_le.mp x2
  have X3 := abs_le.mp x3
  have Y1 := abs_le.mp y1
  have Y2 := abs_le.mp y2
  have Y3 := abs_le.mp y3
  have dxb : |a3.x - a0.x| ≤ 3 := by rw [abs_le]; omega
  have dyb : |a3.y - a0.y| ≤ 3 := by rw [abs_le]; omega
  have u2x : |a2.x - a0.x| ≤ 2 := by rw [abs_le]; omega
  have u2y : |a2.y - a0.y| ≤ 2 := by rw [abs_le]; omega
  refine cubicSplit_draw a0 a1 a2 a3 ?_ ?_ ?_ ?_ ?_
  · unfold SHRT_MAX
    omega
  · have := cross_le (a3.x - a0.x) (a3.y - a0.y) (a1.x - a0.x) (a1.y - a0.y)
      (HYPOT (a3 - a0)) 42 g.1 g.2 (by omega)
    exact this
  · have := cross_le (a3.x - a0.x) (a3.y - a0.y) (a2.x - a0.x) (a2.y - a0.y)
      (HYPOT (a3 - a0)) 42 g.1 g.2 (by omega)
    exact this
  · have e : (a1.x - a0.x) * ((a1.x - a0.x) - (a3.x - a0.x))
        + (a1.y - a0.y) * ((a1.y - a0.y) - (a3.y - a0.y))
        = -((a1.x - a0.x) * (a3.x - a1.x)) - (a1.y - a0.y) * (a3.y - a1.y) := by ring
    rw [e]
    omega
  · have e : (a2.x - a0.x) * ((a2.x - a0.x) - (a3.x - a0.x))
        + (a2.y - a0.y) * ((a2.y - a0.y) - (a3.y - a0.y))
        = -((a2.x - a0.x) * (a3.x - a2.x)) - (a2.y - a0.y) * (a3.y - a2.y) := by ring
    rw [e]
    omega

/-- The part of the first dot product that one coordinate gives is never far below
zero. -/
theorem dot1_small (t s : Int) (hs : |s| ≤ 9) : -68 ≤ t * (2 * t + s) := by
  rw [abs_le] at hs
  rcases le_or_lt 5 t with h | h
  · have : 0 ≤ t * (2 * t + s) := mul_nonneg (by omega) (by omega)
    omega
  · rcases le_or_lt t (-5) with k | k
    · have : 0 ≤ t * (2 * t + s) := mul_nonneg_of_nonpos_of_nonpos (by omega) (by omega)
      omega
    · interval_cases t <;> omega

/-- The part of the first dot product that a coordinate with a long step gives. -/
theorem dot1_big (t s : Int) (hs : |s| ≤ 9) (ht : 16 ≤ |t|) : 68 ≤ t * (2 * t + s) := by
  rw [abs_le] at hs
  rcases le_or_lt 0 t with h | h
  · rw [abs_of_nonneg h] at ht
    have : 16 * 23 ≤ t * (2 * t + s) := mul_le_mul ht (by omega) (by norm_num) (by omega)
    omega
  · rw [abs_of_neg h] at ht
    have : 16 * 23 ≤ (-t) * (-(2 * t + s)) := mul_le_mul ht (by omega) (by norm_num) (by omega)
    have e : (-t) * (-(2 * t + s)) = t * (2 * t + s) := by ring
    omega

/-- The part of the second dot product that one coordinate gives is never far below
zero. -/
theorem dot2_small (t p r : Int) (hp : |p| ≤ 3) (hr : |r| ≤ 6) :
    -180 ≤ (2 * t + p) * (t + r) := by
  rw [abs_le] at hp hr
  rcases le_or_lt 7 t with h | h
  · have : 0 ≤ (2 * t + p) * (t + r) := mul_nonneg (by omega) (by omega)
    omega
  · rcases le_or_lt t (-7) with k | k
    · have : 0 ≤ (2 * t + p) * (t + r) :=
        mul_nonneg_of_nonpos_of_nonpos (by omega) (by omega)
      omega
    · have := abs_mul_le_of (2 * t + p) (t + r) 15 12 (by rw [abs_le]; omega)
        (by rw [abs_le]; omega)
      rw [abs_le] at this
      omega

/-- The part of the second dot product that a coordinate with a long step gives. -/
theorem dot2_big (t p r : Int) (hp : |p| ≤ 3) (hr : |r| ≤ 6) (ht : 16 ≤ |t|) :
    180 ≤ (2 * t + p) * (t + r) := by
  rw [abs_le] at hp hr
  rcases le_or_lt 0 t with h | h
  · rw [abs_of_nonneg h] at ht
    have : 29 * 10 ≤ (2 * t + p) * (t + r) :=
      mul_le_mul (by omega) (by omega) (by norm_num) (by omega)
    omega
  · rw [abs_of_neg h] at ht
    have : 29 * 10 ≤ (-(2 * t + p)) * (-(t + r)) :=
      mul_le_mul (by omega) (by omega) (by norm_num) (by omega)
    have e : (-(2 * t + p)) * (-(t + r)) = (2 * t + p) * (t + r) := by ring
    omega

/-- The four tests of the split decision after the length test, for steps `u`, `u + p`,
`u + p + q` with `p`, `q` within three and `u` at least sixteen in one coordinate. -/
theorem base_tests (ux uy px py qx qy L : Int)
    (hpx : |px| ≤ 3) (hpy : |py| ≤ 3) (hqx : |qx| ≤ 3) (hqy : |qy| ≤ 3)
    (hbig : 16 ≤ |ux| ∨ 16 ≤ |uy|)
    (hLx : |3 * ux + 2 * px + qx| ≤ L) (hLy : |3 * uy + 2 * py + qy| ≤ L) :
    |(3 * uy + 2 * py + qy) * ux - (3 * ux + 2 * px + qx) * uy| ≤ L * 42 ∧
    |(3 * uy + 2 * py + qy) * (2 * ux + px) - (3 * ux + 2 * px + qx) * (2 * uy + py)| ≤ L * 42 ∧
    ux * (ux - (3 * ux + 2 * px + qx)) + uy * (uy - (3 * uy + 2 * py + qy)) ≤ 0 ∧
    (2 * ux + px) * ((2 * ux + px) - (3 * ux + 2 * px + qx))
      + (2 * uy + py) * ((2 * uy + py) - (3 * uy + 2 * py + qy)) ≤ 0 := by
  have Px := abs_le.mp hpx
  have Py := abs_le.mp hpy
  have Qx := abs_le.mp hqx
  have Qy := abs_le.mp hqy
  have LX := abs_le.mp hLx
  have LY := abs_le.mp hLy
  have hX := abs_nonneg ux
  have hY := abs_nonneg uy
  have lx : 3 * |ux| - 9 ≤ L := by
    rcases abs_cases ux with ⟨e, _⟩ | ⟨e, _⟩ <;> rw [e] <;> omega
  have ly : 3 * |uy| - 9 ≤ L := by
    rcases abs_cases uy with ⟨e, _⟩ | ⟨e, _⟩ <;> rw [e] <;> omega
  refine ⟨?_, ?_, ?_, ?_⟩
  · have e : (3 * uy + 2 * py + qy) * ux - (3 * ux + 2 * px + qx) * uy
        = (2 * py + qy) * ux - (2 * px + qx) * uy := by ring
    rw [e]
    have h1 := abs_mul_le_of (2 * py + qy) ux 9 |ux| (by rw [abs_le]; omega) le_rfl
    have h2 := abs_mul_le_of (2 * px + qx) uy 9 |uy| (by rw [abs_le]; omega) le_rfl
    have h3 := abs_sub ((2 * py + qy) * ux) ((2 * px + qx) * uy)
    omega
  · have e : (3 * uy + 2 * py + qy) * (2 * ux + px) - (3 * ux + 2 * px + qx) * (2 * uy + py)
        = ((py + 2 * qy) * ux - (px + 2 * qx) * uy) + (px * qy - py * qx) := by ring
    rw [e]
    have h1 := abs_mul_le_of (py + 2 * qy) ux 9 |ux| (by rw [abs_le]; omega) le_rfl
    have h2 := abs_mul_le_of (px + 2 * qx) uy 9 |uy| (by rw [abs_le]; omega) le_rfl
    have h3 := abs_sub ((py + 2 * qy) * ux) ((px + 2 * qx) * uy)
    have h4 := abs_mul_le_of px qy 3 3 hpx hqy
    have h5 := abs_mul_le_of py qx 3 3 hpy hqx
    have h6 := abs_sub (px * qy) (py * qx)
    have h7 := abs_add ((py + 2 * qy) * ux - (px + 2 * qx) * uy) (px * qy - py * qx)
    omega
  · have e : ux * (ux - (3 * ux + 2 * px + qx)) + uy * (uy - (3 * uy + 2 * py + qy))
        = -(ux * (2 * ux + (2 * px + qx))) - uy * (2 * uy + (2 * py + qy)) := by ring
    rw [e]
    have sx := dot1_small ux (2 * px + qx) (by rw [abs_le]; omega)
    have sy := dot1_small uy (2 * py + qy) (by rw [abs_le]; omega)
    rcases hbig with b | b
    · have := dot1_big ux (2 * px + qx) (by rw [abs_le]; omega) b
      omega
    · have := dot1_big uy (2 * py + qy) (by rw [abs_le]; omega) b
      omega
  · have e : (2 * ux + px) * ((2 * ux + px) - (3 * ux + 2 * px + qx))
        + (2 * uy + py) * ((2 * uy + py) - (3 * uy + 2 * py + qy))
        = -((2 * ux + px) * (ux + (px + qx))) - (2 * uy + py) * (uy + (py + qy)) := by ring
    rw [e]
    have sx := dot2_small ux px (px + qx) hpx (by rw [abs_le]; omega)
    have sy := dot2_small uy py (py + qy) hpy (by rw [abs_le]; omega)
    rcases hbig with b | b
    · have := dot2_big ux px (px + qx) hpx (by rw [abs_le]; omega) b
      omega
    · have := dot2_big uy py (py + qy) hpy (by rw [abs_le]; omega) b
      omega

/-- An arc with steps of at most 4096 and second differences of at most three whose
step at `arc[0]` is at least sixteen in one coordinate is drawn. -/
theorem cubicSplit_base (a0 a1 a2 a3 : SwPoint) (h : ArcIn 4096 3 a0 a1 a2 a3)
    (hbig : 16 ≤ |a1.x - a0.x| ∨ 16 ≤ |a1.y - a0.y|) : cubicSplit a0 a1 a2 a3 = false := by
  obtain ⟨⟨x1, x2, x3, x4, x5⟩, ⟨y1, y2, y3, y4, y5⟩⟩ := h
  have g := HYPOT_ge (a3 - a0)
  have l := HYPOT_le (a3 - a0)
  have ex : (a3 - a0).x = a3.x - a0.x := rfl
  have ey : (a3 - a0).y = a3.y - a0.y := rfl
  rw [ex, ey] at g l
  have e3x : a3.x - a0.x = 3 * (a1.x - a0.x) + 2 * ((a2.x - a1.x) - (a1.x - a0.x))
      + ((a3.x - a2.x) - (a2.x - a1.x)) := by ring
  have e3y : a3.y - a0.y = 3 * (a1.y - a0.y) + 2 * ((a2.y - a1.y) - (a1.y - a0.y))
      + ((a3.y - a2.y) - (a2.y - a1.y)) := by ring
  have e2x : a2.x - a0.x = 2 * (a1.x - a0.x) + ((a2.x - a1.x) - (a1.x - a0.x)) := by ring
  have e2y : a2.y - a0.y = 2 * (a1.y - a0.y) + ((a2.y - a1.y) - (a1.y - a0.y)) := by ring
  have t := base_tests (a1.x - a0.x) (a1.y - a0.y) ((a2.x - a1.x) - (a1.x - a0.x))
    ((a2.y - a1.y) - (a1.y - a0.y)) ((a3.x - a2.x) - (a2.x - a1.x))
    ((a3.y - a2.y) - (a2.y - a1.y)) (HYPOT (a3 - a0)) x4 y4 x5 y5 hbig
    (by rw [← e3x]; exact g.1) (by rw [← e3y]; exact g.2)
  rw [← e3x, ← e3y, ← e2x, ← e2y] at t
  obtain ⟨t1, t2, t3, t4⟩ := t
  refine cubicSplit_draw a0 a1 a2 a3 ?_ t1 t2 t3 t4
  have X1 := abs_le.mp x1
  have X2 := abs_le.mp x2
  have X3 := abs_le.mp x3
  have Y1 := abs_le.mp y1
  have Y2 := abs_le.mp y2
  have Y3 := abs_le.mp y3
  have dxb : |a3.x - a0.x| ≤ 12288 := by rw [abs_le]; omega
  have dyb : |a3.y - a0.y| ≤ 12288 := by rw [abs_le]; omega
  unfold SHRT_MAX
  omega

/-- An arc with second differences of at most three whose step at `arc[0]` is less than
sixteen in both coordinates has steps of at most 21. -/
theorem arcIn_short (A : Int) (a0 a1 a2 a3 : SwPoint) (h : ArcIn A 3 a0 a1 a2 a3)
    (hx : |a1.x - a0.x| < 16) (hy : |a1.y - a0.y| < 16) : ArcIn 21 3 a0 a1 a2 a3 := by
  obtain ⟨⟨x1, x2, x3, x4, x5⟩, ⟨y1, y2, y3, y4, y5⟩⟩ := h
  rw [abs_lt] at hx hy
  have X4 := abs_le.mp x4
  have X5 := abs_le.mp x5
  have Y4 := abs_le.mp y4
  have Y5 := abs_le.mp y5
  refine ⟨⟨?_, ?_, ?_, x4, x5⟩, ⟨?_, ?_, ?_, y4, y5⟩⟩ <;> rw [abs_le] <;> omega

end ThorVG

namespace ThorVG

/-! ## The subdivision loop on arcs that are drawn after a bounded number of splits -/

/-- The seven points that `mathSplitCubic` leaves, top of the stack first. -/
theorem mathSplitCubic_eq (a0 a1 a2 a3 : SwPoint) :
    mathSplitCubic a0 a1 a2 a3 =
      [a3, midOf a3 a2, midOf (midOf a3 a2) (midOf a1 a2), splitMid a0 a1 a2 a3,
        midOf (midOf a0 a1) (midOf a1 a2), midOf a0 a1, a0] := by
  cases a0
  cases a3
  rfl

/-- Both halves of a split arc have half the steps and a quarter of the second
differences, up to rounding. -/
theorem arcIn_halves (A B : Int) (a0 a1 a2 a3 : SwPoint) (h : ArcIn A B a0 a1 a2 a3) :
    ArcIn ((A + 1) / 2) (B / 4 + 2) (splitMid a0 a1 a2 a3)
      (midOf (midOf a3 a2) (midOf a1 a2)) (midOf a3 a2) a3 ∧
    ArcIn ((A + 1) / 2) (B / 4 + 2) a0 (midOf a0 a1) (midOf (midOf a0 a1) (midOf a1 a2))
      (splitMid a0 a1 a2 a3) :=
  ⟨⟨(coordIn_halves A B a0.x a1.x a2.x a3.x h.1).2, (coordIn_halves A B a0.y a1.y a2.y a3.y h.2).2⟩,
   ⟨(coordIn_halves A B a0.x a1.x a2.x a3.x h.1).1, (coordIn_halves A B a0.y a1.y a2.y a3.y h.2).1⟩⟩

/-- The bounds of `ArcIn` may be widened. -/
theorem arcIn_mono (A B A1 B1 : Int) (a0 a1 a2 a3 : SwPoint) (hA : A ≤ A1) (hB : B ≤ B1)
    (h : ArcIn A B a0 a1 a2 a3) : ArcIn A1 B1 a0 a1 a2 a3 :=
  ⟨coordIn_mono A B A1 B1 _ _ _ _ hA hB h.1, coordIn_mono A B A1 B1 _ _ _ _ hA hB h.2⟩

/-- An arc that is drawn as it stands is drawn after at most `n` nested splits. -/
theorem splitsWithin_of_draw (n : Nat) (a0 a1 a2 a3 : SwPoint)
    (h : cubicSplit a0 a1 a2 a3 = false) : SplitsWithin n a0 a1 a2 a3 := by
  cases n with
  | zero => exact h
  | succ n => exact Or.inl h

/-- One level of the descent: when every arc within `A1`, `B1` is drawn after `n` nested
splits, every arc within twice `A1` and four times `B1` is after `n + 1`. -/
theorem splitsWithin_step (n : Nat) (A B A1 B1 : Int) (hA : (A + 1) / 2 ≤ A1)
    (hB : B / 4 + 2 ≤ B1)
    (ih : ∀ a0 a1 a2 a3 : SwPoint, ArcIn A1 B1 a0 a1 a2 a3 → SplitsWithin n a0 a1 a2 a3)
    (a0 a1 a2 a3 : SwPoint) (h : ArcIn A B a0 a1 a2 a3) : SplitsWithin (n + 1) a0 a1 a2 a3 := by
  obtain ⟨hp, ht⟩ := arcIn_halves A B a0 a1 a2 a3 h
  exact Or.inr ⟨ih _ _ _ _ (arcIn_mono _ _ _ _ _ _ _ _ hA hB hp),
    ih _ _ _ _ (arcIn_mono _ _ _ _ _ _ _ _ hA hB ht)⟩

/-- An arc with steps of at most one is drawn after at most one split. -/
theorem splitsWithin_one (B : Int) (a0 a1 a2 a3 : SwPoint) (h : ArcIn 1 B a0 a1 a2 a3) :
    SplitsWithin 1 a0 a1 a2 a3 := by
  obtain ⟨hp, ht⟩ := arcIn_halves 1 B a0 a1 a2 a3 h
  have bx := coordBetween_halves B a0.x a1.x a2.x a3.x h.1
  have bY := coordBetween_halves B a0.y a1.y a2.y a3.y h.2
  exact Or.inr ⟨cubicSplit_tiny _ _ _ _ _ hp bx.2 bY.2, cubicSplit_tiny _ _ _ _ _ ht bx.1 bY.1⟩

/-- An arc with steps of at most 21 is drawn after at most six nested splits. -/
theorem splitsWithin_short (B : Int) (a0 a1 a2 a3 : SwPoint) (h : ArcIn 21 B a0 a1 a2 a3) :
    SplitsWithin 6 a0 a1 a2 a3 := by
  have s1 : ∀ (B : Int) (a0 a1 a2 a3 : SwPoint), ArcIn 1 B a0 a1 a2 a3 →
      SplitsWithin 1 a0 a1 a2 a3 := splitsWithin_one
  have s2 : ∀ (B : Int) (a0 a1 a2 a3 : SwPoint), ArcIn 2 B a0 a1 a2 a3 →
      SplitsWithin 2 a0 a1 a2 a3 := fun B =>
    splitsWithin_step 1 2 B 1 (B / 4 + 2) (by decide) le_rfl (s1 _)
  have s3 : ∀ (B : Int) (a0 a1 a2 a3 : SwPoint), ArcIn 3 B a0 a1 a2 a3 →
      SplitsWithin 3 a0 a1 a2 a3 := fun B =>
    splitsWithin_step 2 3 B 2 (B / 4 + 2) (by decide) le_rfl (s2 _)
  have s4 : ∀ (B : Int) (a0 a1 a2 a3 : SwPoint), ArcIn 6 B a0 a1 a2 a3 →
      SplitsWithin 4 a0 a1 a2 a3 := fun B =>
    splitsWithin_step 3 6 B 3 (B / 4 + 2) (by decide) le_rfl (s3 _)
  have s5 : ∀ (B : Int) (a0 a1 a2 a3 : SwPoint), ArcIn 11 B a0 a1 a2 a3 →
      SplitsWithin 5 a0 a1 a2 a3 := fun B =>
    splitsWithin_step 4 11 B 6 (B / 4 + 2) (by decide) le_rfl (s4 _)
  exact splitsWithin_step 5 21 B 11 (B / 4 + 2) (by decide) le_rfl (s5 _) a0 a1 a2 a3 h

/-- An arc with steps of at most 4096 and second differences of at most three is drawn
after at most six nested splits. -/
theorem splitsWithin_base (a0 a1 a2 a3 : SwPoint) (h : ArcIn 4096 3 a0 a1 a2 a3) :
    SplitsWithin 6 a0 a1 a2 a3 := by
  by_cases hbig : 16 ≤ |a1.x - a0.x| ∨ 16 ≤ |a1.y - a0.y|
  · exact splitsWithin_of_draw 6 _ _ _ _ (cubicSplit_base a0 a1 a2 a3 h hbig)
  · rw [not_or] at hbig
    exact splitsWithin_short 3 _ _ _ _
      (arcIn_short 4096 a0 a1 a2 a3 h (by omega) (by omega))

/-- An arc with steps of at most `4096 * 2^k` and second differences of at most
`4^k + 2` is drawn after at most `6 + k` nested splits. -/
theorem splitsWithin_level (k : Nat) : ∀ a0 a1 a2 a3 : SwPoint,
    ArcIn (4096 * 2 ^ k) (4 ^ k + 2) a0 a1 a2 a3 → SplitsWithin (6 + k) a0 a1 a2 a3 := by
  induction k with
  | zero =>
    intro a0 a1 a2 a3 h
    exact splitsWithin_base a0 a1 a2 a3 h
  | succ k ih =>
    intro a0 a1 a2 a3 h
    have e1 : (4096 * 2 ^ (k + 1) + 1 : Int) / 2 ≤ 4096 * 2 ^ k := by
      rw [pow_succ]
      omega
    have e2 : ((4 : Int) ^ (k + 1) + 2) / 4 + 2 ≤ 4 ^ k + 2 := by
      rw [pow_succ]
      omega
    exact splitsWithin_step (6 + k) _ _ _ _ e1 e2 ih a0 a1 a2 a3 h

/-- Four points in the coordinate range make an arc within the bounds of level 22. -/
theorem arcIn_of_range (a0 a1 a2 a3 : SwPoint) (h0 : InRange a0) (h1 : InRange a1)
    (h2 : InRange a2) (h3 : InRange a3) :
    ArcIn (4096 * 2 ^ 22) (4 ^ 22 + 2) a0 a1 a2 a3 := by
  unfold InRange COORD_RANGE at h0 h1 h2 h3
  have eA : (4096 * 2 ^ 22 : Int) = 17179869184 := by norm_num
  have eB : ((4 : Int) ^ 22 + 2) = 17592186044418 := by norm_num
  rw [eA, eB]
  unfold ArcIn CoordIn
  refine ⟨⟨?_, ?_, ?_, ?_, ?_⟩, ⟨?_, ?_, ?_, ?_, ?_⟩⟩ <;> rw [abs_le] <;> omega

/-- Every arc with its four points in the coordinate range is drawn after at most 28
nested splits. -/
theorem splitsWithin_of_range (a0 a1 a2 a3 : SwPoint) (h0 : InRange a0) (h1 : InRange a1)
    (h2 : InRange a2) (h3 : InRange a3) : SplitsWithin 28 a0 a1 a2 a3 :=
  splitsWithin_level 22 a0 a1 a2 a3 (arcIn_of_range a0 a1 a2 a3 h0 h1 h2 h3)

end ThorVG

namespace ThorVG

/-! ## The subdivision loop follows the nested splits -/

theorem cubicRun_zero (stk : List SwPoint) : cubicRun 0 stk = none := rfl

theorem cubicRun_succ (fuel : Nat) (a3 a2 a1 a0 : SwPoint) (below : List SwPoint) :
    cubicRun (fuel + 1) (a3 :: a2 :: a1 :: a0 :: below) =
      if cubicSplit a0 a1 a2 a3 then
        match cubicRun fuel (mathSplitCubic a0 a1 a2 a3 ++ below) with
        | none => none
        | some r => some (r.1, max (below.length + 4) r.2)
      else if below = [] then some ([a0], 4)
      else
        match cubicRun fuel (a0 :: below) with
        | none => none
        | some r => some (a0 :: r.1, max (below.length + 4) r.2) := rfl

theorem cubicLoop_succ (fuel : Nat) (rw : RleWorker) (a3 a2 a1 a0 : SwPoint)
    (below : List SwPoint) :
    cubicLoop (fuel + 1) rw (a3 :: a2 :: a1 :: a0 :: below) =
      if cubicSplit a0 a1 a2 a3 then
        if below.length + 7 > BEZ_STACK then .error .undefined
        else cubicLoop fuel rw (mathSplitCubic a0 a1 a2 a3 ++ below)
      else
        match _lineTo rw a0 with
        | .error e => .error e
        | .ok rw => if below = [] then .ok rw else cubicLoop fuel rw (a0 :: below) := rfl

/-- The stack never holds fewer than four points while an arc is worked on. -/
theorem cubicPeak_ge (n : Nat) : ∀ a0 a1 a2 a3 : SwPoint, 4 ≤ cubicPeak n a0 a1 a2 a3 := by
  induction n with
  | zero => intro a0 a1 a2 a3; exact le_rfl
  | succ n ih =>
    intro a0 a1 a2 a3
    show 4 ≤ (if cubicSplit a0 a1 a2 a3 then _ else 4)
    split_ifs
    · have h1 := ih (splitMid a0 a1 a2 a3) (midOf (midOf a3 a2) (midOf a1 a2)) (midOf a3 a2) a3
      exact le_trans (by omega) (Nat.le_max_left _ _)
    · exact le_rfl

/-- Each nested split adds at most three points to the stack. -/
theorem cubicPeak_le (n : Nat) : ∀ a0 a1 a2 a3 : SwPoint, cubicPeak n a0 a1 a2 a3 ≤ 4 + 3 * n := by
  induction n with
  | zero => intro a0 a1 a2 a3; exact le_rfl
  | succ n ih =>
    intro a0 a1 a2 a3
    show (if cubicSplit a0 a1 a2 a3 then _ else 4) ≤ _
    split_ifs
    · have h1 := ih (splitMid a0 a1 a2 a3) (midOf (midOf a3 a2) (midOf a1 a2)) (midOf a3 a2) a3
      have h2 := ih a0 (midOf a0 a1) (midOf (midOf a0 a1) (midOf a1 a2)) (splitMid a0 a1 a2 a3)
      rw [Nat.max_le]
      constructor <;> omega
    · omega

/-- The loop takes fewer than `2^(n+1)` turns for an arc followed through at most `n`
nested splits. -/
theorem cubicTurns_lt (n : Nat) : ∀ a0 a1 a2 a3 : SwPoint,
    cubicTurns n a0 a1 a2 a3 < 2 ^ (n + 1) := by
  induction n with
  | zero => intro a0 a1 a2 a3; show 1 < 2; omega
  | succ n ih =>
    intro a0 a1 a2 a3
    show (if cubicSplit a0 a1 a2 a3 then _ else 1) < _
    have e : 2 ^ (n + 1 + 1) = 2 * 2 ^ (n + 1) := by rw [pow_succ]; omega
    have p : 0 < 2 ^ (n + 1) := Nat.two_pow_pos (n + 1)
    split_ifs
    · have h1 := ih (splitMid a0 a1 a2 a3) (midOf (midOf a3 a2) (midOf a1 a2)) (midOf a3 a2) a3
      have h2 := ih a0 (midOf a0 a1) (midOf (midOf a0 a1) (midOf a1 a2)) (splitMid a0 a1 a2 a3)
      omega
    · omega

/-- The run of the loop on an arc that is drawn after at most `n` nested splits, with
any points below it on the stack: after `cubicTurns` turns the targets `cubicTargets`
are noted, the stack held at most `cubicPeak` points from the arc upward, and the loop
is at the arc below, if there is one. -/
theorem cubicRun_arc (n : Nat) : ∀ (a0 a1 a2 a3 : SwPoint), SplitsWithin n a0 a1 a2 a3 →
    ∀ (fuel : Nat) (below : List SwPoint),
    cubicRun (cubicTurns n a0 a1 a2 a3 + fuel) (a3 :: a2 :: a1 :: a0 :: below) =
      if below = [] then some (cubicTargets n a0 a1 a2 a3, cubicPeak n a0 a1 a2 a3)
      else
        match cubicRun fuel (a0 :: below) with
        | none => none
        | some r => some (cubicTargets n a0 a1 a2 a3 ++ r.1,
            max (below.length + cubicPeak n a0 a1 a2 a3) r.2) := by
  induction n with
  | zero =>
    intro a0 a1 a2 a3 h fuel below
    have h0 : cubicSplit a0 a1 a2 a3 = false := h
    show cubicRun (1 + fuel) _ = _
    rw [Nat.add_comm 1 fuel, cubicRun_succ, h0]
    rfl
  | succ n ih =>
    intro a0 a1 a2 a3 h fuel below
    cases hs : cubicSplit a0 a1 a2 a3 with
    | false =>
      have t1 : cubicTurns (n + 1) a0 a1 a2 a3 = 1 := by
        show (if cubicSplit a0 a1 a2 a3 then _ else 1) = 1
        rw [hs]; rfl
      have t2 : cubicTargets (n + 1) a0 a1 a2 a3 = [a0] := by
        show (if cubicSplit a0 a1 a2 a3 then _ else [a0]) = [a0]
        rw [hs]; rfl
      have t3 : cubicPeak (n + 1) a0 a1 a2 a3 = 4 := by
        show (if cubicSplit a0 a1 a2 a3 then _ else 4) = 4
        rw [hs]; rfl
      rw [t1, t2, t3, Nat.add_comm 1 fuel, cubicRun_succ, hs]
      rfl
    | true =>
      have hh : SplitsWithin n (splitMid a0 a1 a2 a3) (midOf (midOf a3 a2) (midOf a1 a2))
          (midOf a3 a2) a3 ∧
          SplitsWithin n a0 (midOf a0 a1) (midOf (midOf a0 a1) (midOf a1 a2))
            (splitMid a0 a1 a2 a3) := by
        rcases h with h | h
        · rw [hs] at h; cases h
        · exact h
      have t1 : cubicTurns (n + 1) a0 a1 a2 a3 =
          1 + (cubicTurns n (splitMid a0 a1 a2 a3) (midOf (midOf a3 a2) (midOf a1 a2)) (midOf a3 a2) a3 +
            cubicTurns n a0 (midOf a0 a1) (midOf (midOf a0 a1) (midOf a1 a2)) (splitMid a0 a1 a2 a3)) := by
        show (if cubicSplit a0 a1 a2 a3 then _ else 1) = _
        rw [hs]; rfl
      have t2 : cubicTargets (n + 1) a0 a1 a2 a3 =
          cubicTargets n (splitMid a0 a1 a2 a3) (midOf (midOf a3 a2) (midOf a1 a2)) (midOf a3 a2) a3 ++
            cubicTargets n a0 (midOf a0 a1) (midOf (midOf a0 a1) (midOf a1 a2)) (splitMid a0 a1 a2 a3) := by
        show (if cubicSplit a0 a1 a2 a3 then _ else [a0]) = _
        rw [hs]; rfl
      have t3 : cubicPeak (n + 1) a0 a1 a2 a3 =
          max (3 + cubicPeak n (splitMid a0 a1 a2 a3) (midOf (midOf a3 a2) (midOf a1 a2)) (midOf a3 a2) a3)
            (cubicPeak n a0 (midOf a0 a1) (midOf (midOf a0 a1) (midOf a1 a2)) (splitMid a0 a1 a2 a3)) := by
        show (if cubicSplit a0 a1 a2 a3 then _ else 4) = _
        rw [hs]; rfl
      have g1 := cubicPeak_ge n (splitMid a0 a1 a2 a3) (midOf (midOf a3 a2) (midOf a1 a2)) (midOf a3 a2) a3
      have r1 := ih _ _ _ _ hh.1
        (cubicTurns n a0 (midOf a0 a1) (midOf (midOf a0 a1) (midOf a1 a2)) (splitMid a0 a1 a2 a3) + fuel)
        (midOf (midOf a0 a1) (midOf a1 a2) :: midOf a0 a1 :: a0 :: below)
      have r2 := ih _ _ _ _ hh.2 fuel below
      rw [if_neg (by simp), r2] at r1
      rw [t1, t2, t3]
      generalize cubicTurns n (splitMid a0 a1 a2 a3) (midOf (midOf a3 a2) (midOf a1 a2)) (midOf a3 a2) a3 = tP at *
      generalize cubicTurns n a0 (midOf a0 a1) (midOf (midOf a0 a1) (midOf a1 a2)) (splitMid a0 a1 a2 a3) = tT at *
      have ef : 1 + (tP + tT) + fuel = (tP + (tT + fuel)) + 1 := by omega
      rw [ef, cubicRun_succ, hs, if_pos rfl, mathSplitCubic_eq]
      show (match cubicRun (tP + (tT + fuel))
          (a3 :: midOf a3 a2 :: midOf (midOf a3 a2) (midOf a1 a2) :: splitMid a0 a1 a2 a3 ::
            (midOf (midOf a0 a1) (midOf a1 a2) :: midOf a0 a1 :: a0 :: below)) with
        | none => none
        | some r => some (r.1, max (below.length + 4) r.2)) = _
      rw [r1]
      clear r1 r2
      generalize cubicPeak n (splitMid a0 a1 a2 a3) (midOf (midOf a3 a2) (midOf a1 a2)) (midOf a3 a2) a3 = pP at *
      generalize cubicPeak n a0 (midOf a0 a1) (midOf (midOf a0 a1) (midOf a1 a2)) (splitMid a0 a1 a2 a3) = pT at *
      by_cases hb : below = []
      · subst hb
        rw [if_pos rfl, if_pos rfl]
        show some (_, max (0 + 4) (max (3 + pP) pT)) = some (_, max (3 + pP) pT)
        have : max (0 + 4) (max (3 + pP) pT) = max (3 + pP) pT := by omega
        rw [this]
      · rw [if_neg hb, if_neg hb]
        cases cubicRun fuel (a0 :: below) with
        | none => rfl
        | some r =>
          show some (_ ++ (_ ++ r.1), max (below.length + 4)
            (max (below.length + 3 + pP) (max (below.length + pT) r.2))) = some ((_ ++ _) ++ r.1, _)
          rw [List.append_assoc]
          have : max (below.length + 4) (max (below.length + 3 + pP) (max (below.length + pT) r.2))
              = max (below.length + max (3 + pP) pT) r.2 := by omega
          rw [this]

/-- The stack at the head of the first turn is counted in the peak. -/
theorem cubicRun_length (fuel : Nat) (stk : List SwPoint) (r : List SwPoint × Nat)
    (h : cubicRun fuel stk = some r) : stk.length ≤ r.2 := by
  cases fuel with
  | zero => rw [cubicRun_zero] at h; cases h
  | succ fuel =>
    match stk, h with
    | a3 :: a2 :: a1 :: a0 :: below, h =>
      rw [cubicRun_succ] at h
      by_cases hs : cubicSplit a0 a1 a2 a3 = true
      · rw [if_pos hs] at h
        revert h
        cases cubicRun fuel (mathSplitCubic a0 a1 a2 a3 ++ below) with
        | none => intro h; cases h
        | some r1 =>
          intro h
          injection h with h
          subst h
          show below.length + 4 ≤ max (below.length + 4) r1.2
          exact Nat.le_max_left _ _
      · rw [if_neg hs] at h
        by_cases hb : below = []
        · rw [if_pos hb] at h
          injection h with h
          subst h
          subst hb
          exact le_rfl
        · rw [if_neg hb] at h
          revert h
          cases cubicRun fuel (a0 :: below) with
          | none => intro h; cases h
          | some r1 =>
            intro h
            injection h with h
            subst h
            show below.length + 4 ≤ max (below.length + 4) r1.2
            exact Nat.le_max_left _ _
    | [], h => cases h
    | [_], h => cases h
    | [_, _], h => cases h
    | [_, _, _], h => cases h

/-- The loop of `_cubicTo` draws what the run without the worker notes, when the stack
of that run stays within `bezStack`. -/
theorem cubicLoop_of_run (fuel : Nat) : ∀ (rw : RleWorker) (stk : List SwPoint)
    (r : List SwPoint × Nat), cubicRun fuel stk = some r → r.2 ≤ BEZ_STACK →
    cubicLoop fuel rw stk = drawAll rw r.1 := by
  induction fuel with
  | zero => intro rw stk r h; rw [cubicRun_zero] at h; cases h
  | succ fuel ih =>
    intro rw stk r h hp
    match stk, h with
    | a3 :: a2 :: a1 :: a0 :: below, h =>
      rw [cubicRun_succ] at h
      rw [cubicLoop_succ]
      by_cases hs : cubicSplit a0 a1 a2 a3 = true
      · rw [if_pos hs] at h
        rw [if_pos hs]
        revert h
        cases h1 : cubicRun fuel (mathSplitCubic a0 a1 a2 a3 ++ below) with
        | none => intro h; cases h
        | some r1 =>
          intro h
          injection h with h
          subst h
          have hl := cubicRun_length _ _ _ h1
          rw [mathSplitCubic_eq] at hl
          have hl2 : below.length + 7 ≤ r1.2 := hl
          have hp2 : max (below.length + 4) r1.2 ≤ BEZ_STACK := hp
          have hp3 : r1.2 ≤ BEZ_STACK := le_trans (Nat.le_max_right _ _) hp2
          rw [if_neg (by omega)]
          exact ih rw _ r1 h1 hp3
      · rw [if_neg hs] at h
        rw [if_neg hs]
        by_cases hb : below = []
        · rw [if_pos hb] at h
          injection h with h
          subst h
          show _ = (match _lineTo rw a0 with
            | .error e => .error e
            | .ok rw1 => drawAll rw1 [])
          cases _lineTo rw a0 with
          | error e => rfl
          | ok rw1 =>
            show (if below = [] then _ else _) = _
            rw [if_pos hb]
            rfl
        · rw [if_neg hb] at h
          revert h
          cases h1 : cubicRun fuel (a0 :: below) with
          | none => intro h; cases h
          | some r1 =>
            intro h
            injection h with h
            subst h
            have hp2 : max (below.length + 4) r1.2 ≤ BEZ_STACK := hp
            have hp3 : r1.2 ≤ BEZ_STACK := le_trans (Nat.le_max_right _ _) hp2
            show _ = (match _lineTo rw a0 with
              | .error e => .error e
              | .ok rw1 => drawAll rw1 r1.1)
            cases _lineTo rw a0 with
            | error e => rfl
            | ok rw1 =>
              show (if below = [] then _ else _) = _
              rw [if_neg hb]
              exact ih rw1 _ r1 h1 hp3
    | [], h => cases h
    | [_], h => cases h
    | [_, _], h => cases h
    | [_, _, _], h => cases h

end ThorVG

namespace ThorVG

/-! ## Claims C1, C2: coverage, length and viewport containment of the spans -/

/-- C1 (amended): every span of an RLE returned by `rleRender` (started on an empty RLE)
has a coverage in `[1, 255]`, and a length of at least 1 whenever the viewport is at most
65535 pixels wide, the largest length the 16-bit `len` field holds. -/
theorem rleRender_coverage_and_len (rle : Option SwRleData) (outline : SwOutline)
    (bbox viewport : SwBBox) (antiAlias : Bool) (r : SwRleData)
    (hrle : ∀ r0, rle = some r0 → r0.spans = [])
    (h : rleRender rle outline bbox viewport antiAlias = some (some r)) :
    ∀ s ∈ r.spans, 1 ≤ s.coverage ∧ s.coverage ≤ 255 ∧
      (viewport.max.x - viewport.min.x ≤ 65535 → 1 ≤ s.len) := by
  intro s hs
  obtain ⟨_, _, _, _, _, h6, h7, h8⟩ :=
    rleRenderBand_spanOk renderBandSize rle outline bbox viewport antiAlias r hrle h s hs
  exact ⟨h6, h7, h8⟩

set_option maxRecDepth 100000 in
/-- C1, witness: scenario S1 meets the hypotheses, and its first span has coverage 255
and length 8. -/
theorem rleRender_coverage_and_len_witness :
    rleRender none (rectOutline 0 0 512 512 FillRule.Winding) (boxAt0 8 8) (boxAt0 8 8) false
      = some (some ⟨s1Spans, 16⟩) ∧
    (1 ≤ (255 : Int) ∧ (255 : Int) ≤ 255 ∧ ((boxAt0 8 8).max.x - (boxAt0 8 8).min.x ≤ 65535 →
      1 ≤ (8 : Int))) :=
  ⟨by decide,
   rleRender_coverage_and_len none (rectOutline 0 0 512 512 FillRule.Winding) (boxAt0 8 8)
     (boxAt0 8 8) false ⟨s1Spans, 16⟩ (fun _ h => by cases h) (by decide) ⟨0, 0, 8, 255⟩
     (by decide)⟩

/-- C1 as stated fails: on a viewport 65537 pixels wide, the rectangle from x = 0.5 to
x = 65537 over one scanline gives, with anti-aliasing, a second span whose run of 65536
pixels is stored in the 16-bit `len` as 0. -/
theorem rleRender_len_zero_on_wide_viewport :
    rleRender none (rectOutline 32 0 4194368 64 FillRule.Winding) (boxAt0 65537 1)
      (boxAt0 65537 1) true = some (some ⟨[⟨0, 0, 1, 128⟩, ⟨1, 0, 0, 255⟩], 4⟩) ∧
    ¬ (1 ≤ (⟨1, 0, 0, 255⟩ : SwSpan).len) := by
  decide

/-- C2: every span of an RLE returned by `rleRender` (started on an empty RLE) lies in the
viewport: `0 ≤ x`, `x + len ≤ w`, `0 ≤ y < h` for the clip size `(w, h)`; this covers the
spans lengthened by the merge branch of `_horizLine`. -/
theorem rleRender_spans_in_viewport (rle : Option SwRleData) (outline : SwOutline)
    (bbox viewport : SwBBox) (antiAlias : Bool) (r : SwRleData)
    (hrle : ∀ r0, rle = some r0 → r0.spans = [])
    (h : rleRender rle outline bbox viewport antiAlias = some (some r)) :
    ∀ s ∈ r.spans, 0 ≤ s.x ∧ s.x + s.len ≤ viewport.max.x - viewport.min.x ∧
      0 ≤ s.y ∧ s.y < viewport.max.y - viewport.min.y := by
  intro s hs
  obtain ⟨h1, _, h3, h4, h5, _, _, _⟩ :=
    rleRenderBand_spanOk renderBandSize rle outline bbox viewport antiAlias r hrle h s hs
  exact ⟨h1, h3, h4, h5⟩

set_option maxRecDepth 100000 in
/-- C2, witness: scenario S1 meets the hypotheses; its last span `(0, 7, 8)` lies in the
8 by 8 viewport. -/
theorem rleRender_spans_in_viewport_witness :
    rleRender none (rectOutline 0 0 512 512 FillRule.Winding) (boxAt0 8 8) (boxAt0 8 8) false
      = some (some ⟨s1Spans, 16⟩) ∧
    (0 ≤ (0 : Int) ∧ (0 : Int) + 8 ≤ (boxAt0 8 8).max.x - (boxAt0 8 8).min.x ∧
      0 ≤ (7 : Int) ∧ (7 : Int) < (boxAt0 8 8).max.y - (boxAt0 8 8).min.y) :=
  ⟨by decide,
   rleRender_spans_in_viewport none (rectOutline 0 0 512 512 FillRule.Winding) (boxAt0 8 8)
     (boxAt0 8 8) false ⟨s1Spans, 16⟩ (fun _ h => by cases h) (by decide) ⟨0, 7, 8, 255⟩
     (by decide)⟩

end ThorVG

namespace ThorVG

/-! ## Claims C5, C6: coverage shaping -/

/-- C5 (amended): under the non-zero rule, for a raw area `c` with
`-2^40 + 512 ≤ c < 2^40`, so that `c >> 9` fits an `int` and is not `INT_MIN` (the
negation of line 171 does not overflow), `_horizLine` computes `min(|c >> 9|, 255)`: the
arithmetic shift comes first, the absolute value second.  This is `min(|c| >> 9, 255)`
when `c ≥ 0` or `512` divides `c`; for every other `c` the value `|c >> 9|` is one more
than `|c| >> 9`. -/
theorem coverageOf_winding (c : Int) (h1 : -1099511627264 ≤ c) (h2 : c < 1099511627776) :
    (toI32 (shr c 9) = shr c 9 ∧ -2147483647 ≤ shr c 9 ∧ shr c 9 ≤ 2147483647) ∧
    coverageOf FillRule.Winding c = min |shr c 9| 255 ∧
    ((0 ≤ c ∨ c % 512 = 0) → coverageOf FillRule.Winding c = min (shr |c| 9) 255) ∧
    (c < 0 → c % 512 ≠ 0 → |shr c 9| = shr |c| 9 + 1) := by
  have hs : ∀ v : Int, shr v 9 = v / 512 := fun v => by simp [shr]
  rw [hs, hs]
  have ht : toI32 (c / 512) = c / 512 := toI32_eq_self _ (by omega) (by omega)
  have hcov : coverageOf FillRule.Winding c = min |c / 512| 255 := by
    have hne : ¬ (FillRule.Winding = FillRule.EvenOdd) := by decide
    simp only [coverageOf, PIXEL_BITS, if_neg hne]
    norm_num
    rw [hs, ht]
    rcases abs_cases (c / 512) with ⟨e, _⟩ | ⟨e, _⟩ <;> rw [e] <;> split_ifs <;> omega
  refine ⟨⟨ht, by omega, by omega⟩, hcov, fun h => ?_, fun hn hd => ?_⟩
  · rw [hcov]
    congr 1
    rcases abs_cases c with ⟨e, _⟩ | ⟨e, _⟩ <;> rcases abs_cases (c / 512) with ⟨e', _⟩ | ⟨e', _⟩ <;>
      rw [e, e'] <;> omega
  · rw [abs_of_neg hn, abs_of_neg (by omega)]
    omega

/-- C5, witness: the raw area `-1024` is in range and a multiple of 512. -/
theorem coverageOf_winding_witness :
    (toI32 (shr (-1024) 9) = shr (-1024) 9 ∧ -2147483647 ≤ shr (-1024) 9 ∧
      shr (-1024) 9 ≤ 2147483647) ∧
    coverageOf FillRule.Winding (-1024) = min |shr (-1024) 9| 255 ∧
    ((0 ≤ (-1024 : Int) ∨ (-1024 : Int) % 512 = 0) →
      coverageOf FillRule.Winding (-1024) = min (shr |(-1024 : Int)| 9) 255) ∧
    ((-1024 : Int) < 0 → (-1024 : Int) % 512 ≠ 0 →
      |shr (-1024) 9| = shr |(-1024 : Int)| 9 + 1) :=
  coverageOf_winding (-1024) (by decide) (by decide)

/-- C5 as stated fails: for the raw area `-1` the coverage computed is 1, while
`min(|c| >> 9, 255)` is 0. -/
theorem coverageOf_winding_shift_before_abs :
    coverageOf FillRule.Winding (-1) = 1 ∧ min (shr |(-1 : Int)| 9) 255 = 0 := by
  decide

/-- C6: under the even-odd rule the coverage `_horizLine` computes is the value the
specification gives for the shifted absolute value (`c & 511`, folded at 256), and it
lies in `[0, 255]`. -/
theorem coverageOf_evenOdd (area : Int) :
    coverageOf FillRule.EvenOdd area = evenOddShape |toI32 (shr area 9)| ∧
    0 ≤ coverageOf FillRule.EvenOdd area ∧ coverageOf FillRule.EvenOdd area ≤ 255 := by
  have habs : (if toI32 (shr area 9) < 0 then -toI32 (shr area 9) else toI32 (shr area 9))
      = |toI32 (shr area 9)| := by
    split
    · rw [abs_of_neg (by assumption)]
    · rw [abs_of_nonneg (by omega)]
  have h0 : 0 ≤ |toI32 (shr area 9)| := abs_nonneg _
  refine ⟨?_, coverageOf_range _ _⟩
  simp only [coverageOf, PIXEL_BITS, evenOddShape, if_true]
  norm_num
  rw [habs, land_511 _ h0]

/-! ## Claim C10: scenario S1 -/

set_option maxRecDepth 100000 in
/-- C10: scenario S1.  The closed rectangle (0,0)-(8,8), bbox and viewport 8 by 8, no
anti-aliasing, non-zero rule: `rleRender` returns exactly eight spans, one per row
`y = 0..7`, each with `x = 0`, `len = 8`, `coverage = 255`. -/
theorem rleRender_scenario_S1 :
    rleRender none (rectOutline 0 0 512 512 FillRule.Winding) (boxAt0 8 8) (boxAt0 8 8) false
      = some (some ⟨[⟨0, 0, 8, 255⟩, ⟨0, 1, 8, 255⟩, ⟨0, 2, 8, 255⟩, ⟨0, 3, 8, 255⟩,
          ⟨0, 4, 8, 255⟩, ⟨0, 5, 8, 255⟩, ⟨0, 6, 8, 255⟩, ⟨0, 7, 8, 255⟩], 16⟩) := by
  decide

end ThorVG

namespace ThorVG

/-! ## Claims C3, C4: order, disjointness and coalescing of the spans -/

/-- C3 (amended): on a viewport at most 32767 pixels wide and 32768 high, the spans of an
RLE returned by `rleRender` (started on an empty RLE, for a bbox with `min.y ≤ max.y` and
less than 2^31 wide) are strictly sorted by `(y, x)`, and two spans of one scanline have
disjoint ranges `[x, x + len)`; the property holds of any two spans, whichever bands
produced them. -/
theorem rleRender_spans_sorted (rle : Option SwRleData) (outline : SwOutline)
    (bbox viewport : SwBBox) (antiAlias : Bool) (r : SwRleData)
    (hrle : ∀ r0, rle = some r0 → r0.spans = [])
    (hw : viewport.max.x - viewport.min.x ≤ 32767) (hh : viewport.max.y - viewport.min.y ≤ 32768)
    (hbx : bbox.max.x - bbox.min.x ≤ 2147483647) (hby : bbox.min.y ≤ bbox.max.y)
    (h : rleRender rle outline bbox viewport antiAlias = some (some r)) :
    r.spans.Pairwise (fun a b => a.y < b.y ∨ (a.y = b.y ∧ a.x < b.x ∧ a.x + a.len ≤ b.x)) := by
  obtain ⟨hok, hch⟩ := rleRenderBand_linked renderBandSize rle outline bbox viewport antiAlias r
    hrle (by decide) hw hh hbx hby h
  exact ordered_pairwise r.spans (fun s hs => (hok s hs).2.2.2.2.2.2.2 (by show viewport.max.x - viewport.min.x ≤ 65535; omega))
    (hch.imp (fun _ _ hab => hab.1))

set_option maxRecDepth 100000 in
/-- C3, witness: the rectangle from `(0.5, 0)` to `(7.5, 2)` on an 8 by 2 viewport meets
the hypotheses; its six spans are sorted and disjoint. -/
theorem rleRender_spans_sorted_witness :
    rleRender none (rectOutline 32 0 480 128 FillRule.Winding) (boxAt0 8 2) (boxAt0 8 2) true
      = some (some ⟨halfRectSpans, 12⟩) ∧
    halfRectSpans.Pairwise
      (fun a b => a.y < b.y ∨ (a.y = b.y ∧ a.x < b.x ∧ a.x + a.len ≤ b.x)) :=
  ⟨by decide,
   rleRender_spans_sorted none (rectOutline 32 0 480 128 FillRule.Winding) (boxAt0 8 2)
     (boxAt0 8 2) true ⟨halfRectSpans, 12⟩ (fun _ h => by cases h) (by decide) (by decide)
     (by decide) (by decide) (by decide)⟩

set_option maxRecDepth 100000 in
/-- C3 as stated fails: on a viewport 40000 pixels wide, the rectangle from x = 33000.5
to x = 33002.5 over one scanline gives three spans whose `x` is clamped to 32767; the
first two lie on the same scanline and cover the same pixel. -/
theorem rleRender_spans_overlap_on_wide_viewport :
    rleRender none (rectOutline 2112032 0 2112160 64 FillRule.Winding) (boxAt0 40000 1)
      (boxAt0 40000 1) true
      = some (some ⟨[⟨32767, 0, 1, 128⟩, ⟨32767, 0, 1, 255⟩, ⟨32767, 0, 1, 128⟩], 6⟩) ∧
    ¬ ((⟨32767, 0, 1, 128⟩ : SwSpan).x + (⟨32767, 0, 1, 128⟩ : SwSpan).len
        ≤ (⟨32767, 0, 1, 255⟩ : SwSpan).x) := by
  decide

/-- C4 (amended): on a viewport at most 32767 pixels wide and 32768 high, in an RLE
returned by `rleRender` (started on an empty RLE, for a bbox with `min.y ≤ max.y` and less
than 2^31 wide) no span continues the span before it: two consecutive spans are never on
the same scanline, adjacent and of equal coverage, also where the local buffer was
flushed between them. -/
theorem rleRender_spans_coalesced (rle : Option SwRleData) (outline : SwOutline)
    (bbox viewport : SwBBox) (antiAlias : Bool) (r : SwRleData)
    (hrle : ∀ r0, rle = some r0 → r0.spans = [])
    (hw : viewport.max.x - viewport.min.x ≤ 32767) (hh : viewport.max.y - viewport.min.y ≤ 32768)
    (hbx : bbox.max.x - bbox.min.x ≤ 2147483647) (hby : bbox.min.y ≤ bbox.max.y)
    (h : rleRender rle outline bbox viewport antiAlias = some (some r)) :
    r.spans.Chain' (fun a b => ¬ (a.y = b.y ∧ a.x + a.len = b.x ∧ a.coverage = b.coverage)) := by
  obtain ⟨_, hch⟩ := rleRenderBand_linked renderBandSize rle outline bbox viewport antiAlias r
    hrle (by decide) hw hh hbx hby h
  exact hch.imp (fun _ _ hab => hab.2)

set_option maxRecDepth 100000 in
/-- C4, witness: the rectangle from `(0.5, 0)` to `(7.5, 2)` on an 8 by 2 viewport meets
the hypotheses; its adjacent spans differ in coverage. -/
theorem rleRender_spans_coalesced_witness :
    rleRender none (rectOutline 32 0 480 128 FillRule.Winding) (boxAt0 8 2) (boxAt0 8 2) true
      = some (some ⟨halfRectSpans, 12⟩) ∧
    halfRectSpans.Chain'
      (fun a b => ¬ (a.y = b.y ∧ a.x + a.len = b.x ∧ a.coverage = b.coverage)) :=
  ⟨by decide,
   rleRender_spans_coalesced none (rectOutline 32 0 480 128 FillRule.Winding) (boxAt0 8 2)
     (boxAt0 8 2) true ⟨halfRectSpans, 12⟩ (fun _ h => by cases h) (by decide) (by decide)
     (by decide) (by decide) (by decide)⟩

set_option maxRecDepth 100000 in
/-- C4 as stated fails: on a viewport 40000 scanlines high, scanlines 32767 and 32768 are
both stored as `y = 32767`; when a band ends between them (bbox from `y = 32704`, bands
of 64), the run of the second is not merged into the adjacent run of the first, though
both have coverage 255. -/
theorem rleRender_spans_unmerged_across_bands :
    rleRender none twoRowOutline ⟨⟨0, 32704⟩, ⟨10, 32832⟩⟩ (boxAt0 10 40000) false
      = some (some ⟨[⟨0, 32767, 5, 255⟩, ⟨5, 32767, 5, 255⟩], 2⟩) ∧
    ((⟨0, 32767, 5, 255⟩ : SwSpan).y = (⟨5, 32767, 5, 255⟩ : SwSpan).y ∧
     (⟨0, 32767, 5, 255⟩ : SwSpan).x + (⟨0, 32767, 5, 255⟩ : SwSpan).len
       = (⟨5, 32767, 5, 255⟩ : SwSpan).x ∧
     (⟨0, 32767, 5, 255⟩ : SwSpan).coverage = (⟨5, 32767, 5, 255⟩ : SwSpan).coverage) := by
  decide

end ThorVG

namespace ThorVG

/-! ## Claim C7: rendering without anti-aliasing -/

/-- C7 (amended): when `rleRender` (started on an empty RLE) returns an RLE with
`antiAlias = false`, every span of it has coverage 255; and if the viewport is at most
65535 pixels wide, the same input with `antiAlias = true` returns an RLE too, and a pixel
lies in a span of the first exactly when it lies in a span of positive coverage of the
second. -/
theorem rleRender_without_antialias (rle : Option SwRleData) (outline : SwOutline)
    (bbox viewport : SwBBox) (rN : SwRleData)
    (hrle : ∀ r0, rle = some r0 → r0.spans = [])
    (hN : rleRender rle outline bbox viewport false = some (some rN)) :
    (∀ s ∈ rN.spans, s.coverage = 255) ∧
    (viewport.max.x - viewport.min.x ≤ 65535 →
      ∃ rA, rleRender rle outline bbox viewport true = some (some rA) ∧
        ∀ x y, pixOf rN.spans x y ↔ ∃ s ∈ rA.spans, 0 < s.coverage ∧ covers s x y) := by
  refine ⟨rleRenderBand_full renderBandSize rle outline bbox viewport rN hrle hN, fun hw => ?_⟩
  have hrel := rleRenderBand_pixels renderBandSize rle outline bbox viewport true false hrle hw
  obtain ⟨rwN, hrN, rfl⟩ := rleRenderBand_some _ _ _ _ _ _ _ hN
  rw [hrN] at hrel
  cases hrA : renderWorker renderBandSize rle outline bbox viewport true with
  | error e => rw [hrA] at hrel; exact hrel.elim
  | ok v =>
    rw [hrA] at hrel
    cases v with
    | none => exact hrel.elim
    | some rwA =>
      obtain ⟨hA, _, hP⟩ : PixRel _ rwA.rle rwN.rle := hrel
      refine ⟨rwA.rle, ?_, fun x y => ?_⟩
      · show rleRenderBand renderBandSize rle outline bbox viewport true = _
        unfold rleRenderBand
        rw [hrA]
      · rw [← hP x y]
        constructor
        · rintro ⟨s, hs, hc⟩
          exact ⟨s, hs, by have := (hA s hs).2.2.2.2.2.1; omega, hc⟩
        · rintro ⟨s, hs, _, hc⟩
          exact ⟨s, hs, hc⟩

set_option maxRecDepth 100000 in
/-- C7, witness: the rectangle from `(0.5, 0)` to `(7.5, 2)` on an 8 by 2 viewport
rendered without anti-aliasing. -/
theorem rleRender_without_antialias_witness :
    rleRender none (rectOutline 32 0 480 128 FillRule.Winding) (boxAt0 8 2) (boxAt0 8 2) false
      = some (some ⟨[⟨0, 0, 8, 255⟩, ⟨0, 1, 8, 255⟩], 4⟩) ∧
    ((∀ s ∈ [(⟨0, 0, 8, 255⟩ : SwSpan), ⟨0, 1, 8, 255⟩], s.coverage = 255) ∧
     ((boxAt0 8 2).max.x - (boxAt0 8 2).min.x ≤ 65535 →
      ∃ rA, rleRender none (rectOutline 32 0 480 128 FillRule.Winding) (boxAt0 8 2) (boxAt0 8 2)
          true = some (some rA) ∧
        ∀ x y, pixOf [(⟨0, 0, 8, 255⟩ : SwSpan), ⟨0, 1, 8, 255⟩] x y ↔
          ∃ s ∈ rA.spans, 0 < s.coverage ∧ covers s x y)) :=
  ⟨by decide,
   rleRender_without_antialias none (rectOutline 32 0 480 128 FillRule.Winding) (boxAt0 8 2)
     (boxAt0 8 2) ⟨[⟨0, 0, 8, 255⟩, ⟨0, 1, 8, 255⟩], 4⟩ (fun _ h => by cases h) (by decide)⟩

set_option maxRecDepth 100000 in
/-- C7 as stated fails in its second part: on a viewport 65536 pixels wide, the rectangle
from x = 0.5 to x = 65536 over one scanline gives with anti-aliasing the spans
`(0, 0, 1, 128)` and `(1, 0, 65535, 255)`, and without it the single merged span
`(0, 0, 0, 255)`, whose length 65536 is stored as 0: pixel `(0, 0)` has coverage 128 in the
first and lies in no span of the second. -/
theorem rleRender_without_antialias_loses_pixels :
    rleRender none (rectOutline 32 0 4194304 64 FillRule.Winding) (boxAt0 65536 1)
      (boxAt0 65536 1) true = some (some ⟨[⟨0, 0, 1, 128⟩, ⟨1, 0, 65535, 255⟩], 4⟩) ∧
    rleRender none (rectOutline 32 0 4194304 64 FillRule.Winding) (boxAt0 65536 1)
      (boxAt0 65536 1) false = some (some ⟨[⟨0, 0, 0, 255⟩], 2⟩) ∧
    covers ⟨0, 0, 1, 128⟩ 0 0 ∧ ¬ pixOf [⟨0, 0, 0, 255⟩] 0 0 := by
  decide

end ThorVG

namespace ThorVG

/-! ## Claim C8: reversal of the point order -/

end ThorVG

namespace ThorVG

/-! ## Claim C9: the band size does not change the spans -/

/-- C9 (amended): on a viewport at most 32767 pixels wide and 32768 high, for a bbox less
than 2^31 wide with `min.y ≤ max.y` that lies within 2^26 scanlines of the origin, an
outline whose ordinates fit an `int`, an empty RLE to start with and either anti-alias
flag: when `rleRender` returns an RLE with one positive band size it returns an RLE with
any other positive band size (so with any two in `[8, 128]`), and the two have the same
spans, the same `x`, `y`, `len` and coverage in the same order, however the bbox was cut
into bands and re-cut by overflow bisection. -/
theorem rleRenderBand_band_invariant (bs1 bs2 : Int) (rle : Option SwRleData) (o : SwOutline)
    (bbox vp : SwBBox) (aa : Bool) (r1 : SwRleData)
    (hrle : ∀ r0, rle = some r0 → r0.spans = []) (h1 : 0 < bs1) (h2 : 0 < bs2) (ho : OutlineOk o)
    (hw : vp.max.x - vp.min.x ≤ 32767) (hh : vp.max.y - vp.min.y ≤ 32768)
    (hbx : bbox.max.x - bbox.min.x ≤ 2147483647) (hby : bbox.min.y ≤ bbox.max.y)
    (hlo : -67108864 ≤ bbox.min.y) (hhi : bbox.max.y ≤ 67108864)
    (hr1 : rleRenderBand bs1 rle o bbox vp aa = some (some r1)) :
    ∃ r2, rleRenderBand bs2 rle o bbox vp aa = some (some r2) ∧ r2.spans = r1.spans := by
  have hex : ∃ r2, rleRenderBand bs2 rle o bbox vp aa = some (some r2) := by
    by_cases hflat : bbox.min.y = bbox.max.y
    · exact rleRenderBand_flat_total bs1 bs2 rle o bbox vp aa r1 ho hflat (by omega) (by omega) hr1
    · exact renderWorker_total bs2 rle o bbox vp aa ho h2 (by omega) (by omega) (by omega)
        (by omega)
        (rleRenderBand_rowDone bs1 rle o bbox vp aa r1 h1 ho hby (by omega) (by omega) hr1)
  obtain ⟨r2, hr2⟩ := hex
  exact ⟨r2, hr2, rleRenderBand_spans_eq bs2 bs1 rle o bbox vp aa r2 r1 hrle h2 h1 ho hw hh hbx
    hby (by omega) (by omega) hr2 hr1⟩

set_option maxRecDepth 100000 in
/-- C9, witness: the rectangle of 8 by 16 pixels without anti-aliasing meets the
hypotheses with band size 8 (two bands); with band size 128 (one band) an RLE with the
same 16 spans is returned. -/
theorem rleRenderBand_band_invariant_witness :
    rleRenderBand 8 none (rectOutline 0 0 512 1024 FillRule.Winding) (boxAt0 8 16) (boxAt0 8 16)
      false = some (some ⟨tallRectSpans, 16⟩) ∧
    ∃ r2, rleRenderBand 128 none (rectOutline 0 0 512 1024 FillRule.Winding) (boxAt0 8 16)
      (boxAt0 8 16) false = some (some r2) ∧
      r2.spans = (⟨tallRectSpans, 16⟩ : SwRleData).spans :=
  ⟨by decide,
   rleRenderBand_band_invariant 8 128 none (rectOutline 0 0 512 1024 FillRule.Winding)
     (boxAt0 8 16) (boxAt0 8 16) false ⟨tallRectSpans, 16⟩
     (fun _ h => by cases h) (by decide) (by decide) (by unfold OutlineOk; decide) (by decide)
     (by decide) (by decide) (by decide) (by decide) (by decide) (by decide)⟩

set_option maxRecDepth 100000 in
/-- C9 as stated fails: on a viewport 40000 scanlines high, scanlines 32767 and 32768 are
both stored as `y = 32767`.  With bands of 128 the two rows of `twoRowOutline` (bbox from
`y = 32704`) are swept in one band and their runs merge into one span of length 10; with
bands of 64, and of 8, a band ends between them and two spans of length 5 come out. -/
theorem rleRenderBand_band_size_changes_spans :
    rleRenderBand 128 none twoRowOutline ⟨⟨0, 32704⟩, ⟨10, 32832⟩⟩ (boxAt0 10 40000) false
      = some (some ⟨[⟨0, 32767, 10, 255⟩], 2⟩) ∧
    rleRenderBand 64 none twoRowOutline ⟨⟨0, 32704⟩, ⟨10, 32832⟩⟩ (boxAt0 10 40000) false
      = some (some ⟨[⟨0, 32767, 5, 255⟩, ⟨5, 32767, 5, 255⟩], 2⟩) ∧
    rleRenderBand 8 none twoRowOutline ⟨⟨0, 32704⟩, ⟨10, 32832⟩⟩ (boxAt0 10 40000) false
      = some (some ⟨[⟨0, 32767, 5, 255⟩, ⟨5, 32767, 5, 255⟩], 2⟩) := by
  decide

end ThorVG

namespace ThorVG

/-! ## Scenario S2 -/

set_option maxRecDepth 100000 in
/-- C11 (as amended): in scenario S2, `rleRender` on the rectangle outline from
`(0.5, 0.5)` to `(7.5, 7.5)` pixels with bbox and viewport 8 by 8 and anti-aliasing
returns the spans `s2Spans`, whose coverage is 64 at the four corner pixels, 128 at
every other border pixel and 255 at every interior pixel. -/
theorem rleRender_s2_coverage :
    rleRender none (rectOutline 32 32 480 480 FillRule.Winding) (boxAt0 8 8) (boxAt0 8 8) true =
      some (some ⟨s2Spans, 48⟩) ∧
    (List.range 8).map (fun y => (List.range 8).map (fun x => coverageAt s2Spans x y)) =
      [[64, 128, 128, 128, 128, 128, 128, 64],
       [128, 255, 255, 255, 255, 255, 255, 128],
       [128, 255, 255, 255, 255, 255, 255, 128],
       [128, 255, 255, 255, 255, 255, 255, 128],
       [128, 255, 255, 255, 255, 255, 255, 128],
       [128, 255, 255, 255, 255, 255, 255, 128],
       [128, 255, 255, 255, 255, 255, 255, 128],
       [64, 128, 128, 128, 128, 128, 128, 64]] := by
  decide

set_option maxRecDepth 100000 in
/-- In scenario S2 the corner pixels `(0, 0)` and `(7, 7)` of the rendered RLE have
coverage 64, not 128: the rectangle covers a quarter of each. -/
theorem rleRender_s2_corner :
    rleRender none (rectOutline 32 32 480 480 FillRule.Winding) (boxAt0 8 8) (boxAt0 8 8) true =
      some (some ⟨s2Spans, 48⟩) ∧
    coverageAt s2Spans 0 0 = 64 ∧ coverageAt s2Spans 7 7 = 64 := by
  decide

end ThorVG

namespace ThorVG

/-! ## The rect clip: what it returns -/

/-- C12 (as amended): for every RLE that is not empty, whose spans hold values of their
machine types and come in order of their scanlines, and every bbox whose corner `min`
fits `int16_t` and whose width and height lie in `[0, 32767]`, `rleClipRect` replaces
the spans by, in order, the intersections that are not empty of each span with the
x-extent `[min.x, max.x)` for the spans whose `y` lies in `[min.y, max.y)`, each with
its `y` and coverage; size and alloc become their number. -/
theorem rleClipRect_spec (rle : SwRleData) (B : SwBBox) (hne : rle.size ≠ 0) (hB : BoxFits B)
    (hbits : ∀ s ∈ rle.spans, SpanBits s)
    (hsorted : rle.spans.Pairwise (fun a b => a.y ≤ b.y)) :
    rleClipRect rle B =
      some ⟨clipRectSpec B rle.spans, (clipRectSpec B rle.spans).length⟩ := by
  rw [rleClipRect_eq rle B hB hne,
    rectLoop_spec B hB rle.spans rle.size (le_refl _) hsorted hbits]

set_option maxRecDepth 100000 in
/-- An instance of `rleClipRect_spec`: five spans on four scanlines against the bbox
from `(5, 1)` to `(10, 3)`. -/
theorem rleClipRect_spec_witness :
    rleClipRect ⟨[⟨0, 0, 8, 9⟩, ⟨0, 1, 8, 9⟩, ⟨12, 1, 3, 9⟩, ⟨5, 2, 3, 9⟩, ⟨0, 3, 8, 9⟩], 5⟩
        ⟨⟨5, 1⟩, ⟨10, 3⟩⟩ = some ⟨[⟨5, 1, 3, 9⟩, ⟨5, 2, 3, 9⟩], 2⟩ ∧
    clipRectSpec ⟨⟨5, 1⟩, ⟨10, 3⟩⟩
        [⟨0, 0, 8, 9⟩, ⟨0, 1, 8, 9⟩, ⟨12, 1, 3, 9⟩, ⟨5, 2, 3, 9⟩, ⟨0, 3, 8, 9⟩] =
      [⟨5, 1, 3, 9⟩, ⟨5, 2, 3, 9⟩] :=
  ⟨(rleClipRect_spec
      ⟨[⟨0, 0, 8, 9⟩, ⟨0, 1, 8, 9⟩, ⟨12, 1, 3, 9⟩, ⟨5, 2, 3, 9⟩, ⟨0, 3, 8, 9⟩], 5⟩
      ⟨⟨5, 1⟩, ⟨10, 3⟩⟩ (by decide) (by decide) (by decide) (by decide)).trans (by decide),
    by decide⟩

set_option maxRecDepth 100000 in
/-- Two bboxes on which `rleClipRect` does not return the intersections. On the bbox
from `(0, 0)` to `(40000, 10)` the width wraps in the cast to `int16_t` and the span
`[0, 10)` of scanline 0, which lies in the bbox, is dropped. On the bbox with
`min.x = 10` and `max.x = 5`, whose x-extent is empty, the span `[0, 20)` gives a span
of length 65531. -/
theorem rleClipRect_wide_bbox :
    (rleClipRect ⟨[⟨0, 0, 10, 255⟩], 1⟩ ⟨⟨0, 0⟩, ⟨40000, 10⟩⟩ = some ⟨[], 0⟩ ∧
      clipRectSpec ⟨⟨0, 0⟩, ⟨40000, 10⟩⟩ [⟨0, 0, 10, 255⟩] = [⟨0, 0, 10, 255⟩]) ∧
    (rleClipRect ⟨[⟨0, 0, 20, 255⟩], 1⟩ ⟨⟨10, 0⟩, ⟨5, 1⟩⟩ = some ⟨[⟨10, 0, 65531, 255⟩], 1⟩ ∧
      clipRectSpec ⟨⟨10, 0⟩, ⟨5, 1⟩⟩ [⟨0, 0, 20, 255⟩] = []) := by
  decide

/-! ## The rect clip: own bounding box, and twice -/

/-- C13 (as amended): for every RLE whose spans hold values of their machine types:
when it is not empty, none of its spans is empty and its bounding box is at most 32767
wide and high, `rleClipRect` to its own bounding box returns the same spans; and for
every bbox whose corner `min` fits `int16_t` and whose width and height lie in
`[0, 32767]`, `rleClipRect` twice with this bbox returns what `rleClipRect` once
returns. -/
theorem rleClipRect_idempotent (rle : SwRleData) (B : SwBBox)
    (hbits : ∀ s ∈ rle.spans, SpanBits s) (hB : BoxFits B) :
    (rle.size ≠ 0 → (∀ s ∈ rle.spans, 1 ≤ s.len) →
      (bboxOf rle.spans).max.x - (bboxOf rle.spans).min.x ≤ 32767 →
      (bboxOf rle.spans).max.y - (bboxOf rle.spans).min.y ≤ 32767 →
      rleClipRect rle (bboxOf rle.spans) = some ⟨rle.spans, rle.size⟩) ∧
    (rleClipRect rle B).bind (fun r => rleClipRect r B) = rleClipRect rle B :=
  ⟨fun hne hlen hw hh => rleClipRect_own_bbox rle hne hbits hlen hw hh,
    rleClipRect_twice rle B hB hbits⟩

set_option maxRecDepth 100000 in
/-- An instance of `rleClipRect_idempotent`: five spans on four scanlines, their
bounding box from `(0, 0)` to `(15, 4)`, and the bbox from `(5, 1)` to `(10, 3)`. -/
theorem rleClipRect_idempotent_witness :
    bboxOf [⟨0, 0, 8, 9⟩, ⟨0, 1, 8, 9⟩, ⟨12, 1, 3, 9⟩, ⟨5, 2, 3, 9⟩, ⟨0, 3, 8, 9⟩] =
      ⟨⟨0, 0⟩, ⟨15, 4⟩⟩ ∧
    rleClipRect ⟨[⟨0, 0, 8, 9⟩, ⟨0, 1, 8, 9⟩, ⟨12, 1, 3, 9⟩, ⟨5, 2, 3, 9⟩, ⟨0, 3, 8, 9⟩], 8⟩
        (bboxOf [⟨0, 0, 8, 9⟩, ⟨0, 1, 8, 9⟩, ⟨12, 1, 3, 9⟩, ⟨5, 2, 3, 9⟩, ⟨0, 3, 8, 9⟩]) =
      some ⟨[⟨0, 0, 8, 9⟩, ⟨0, 1, 8, 9⟩, ⟨12, 1, 3, 9⟩, ⟨5, 2, 3, 9⟩, ⟨0, 3, 8, 9⟩], 5⟩ ∧
    (rleClipRect ⟨[⟨0, 0, 8, 9⟩, ⟨0, 1, 8, 9⟩, ⟨12, 1, 3, 9⟩, ⟨5, 2, 3, 9⟩, ⟨0, 3, 8, 9⟩], 8⟩
        ⟨⟨5, 1⟩, ⟨10, 3⟩⟩).bind (fun r => rleClipRect r ⟨⟨5, 1⟩, ⟨10, 3⟩⟩) =
      rleClipRect ⟨[⟨0, 0, 8, 9⟩, ⟨0, 1, 8, 9⟩, ⟨12, 1, 3, 9⟩, ⟨5, 2, 3, 9⟩, ⟨0, 3, 8, 9⟩], 8⟩
        ⟨⟨5, 1⟩, ⟨10, 3⟩⟩ :=
  ⟨by decide,
    (rleClipRect_idempotent
      ⟨[⟨0, 0, 8, 9⟩, ⟨0, 1, 8, 9⟩, ⟨12, 1, 3, 9⟩, ⟨5, 2, 3, 9⟩, ⟨0, 3, 8, 9⟩], 8⟩
      ⟨⟨5, 1⟩, ⟨10, 3⟩⟩ (by decide) (by decide)).1 (by decide) (by decide) (by decide)
      (by decide),
    (rleClipRect_idempotent
      ⟨[⟨0, 0, 8, 9⟩, ⟨0, 1, 8, 9⟩, ⟨12, 1, 3, 9⟩, ⟨5, 2, 3, 9⟩, ⟨0, 3, 8, 9⟩], 8⟩
      ⟨⟨5, 1⟩, ⟨10, 3⟩⟩ (by decide) (by decide)).2⟩

set_option maxRecDepth 100000 in
/-- Three inputs on which `rleClipRect` is not as C13 says. The span `[0, 40000)`, whose
bounding box is 40000 wide, is dropped by the clip to its own bounding box. An empty
span is dropped by the clip to the bounding box of its RLE. On the bbox with
`min.x = 10` and `max.x = 5` the span `[0, 20)` gives a span of length 65531, which a
second clip with the same bbox drops. -/
theorem rleClipRect_not_idempotent :
    (bboxOf [⟨0, 0, 40000, 255⟩] = ⟨⟨0, 0⟩, ⟨40000, 1⟩⟩ ∧
      rleClipRect ⟨[⟨0, 0, 40000, 255⟩], 1⟩ (bboxOf [⟨0, 0, 40000, 255⟩]) = some ⟨[], 0⟩) ∧
    (bboxOf [⟨0, 0, 5, 255⟩, ⟨7, 0, 0, 255⟩] = ⟨⟨0, 0⟩, ⟨7, 1⟩⟩ ∧
      rleClipRect ⟨[⟨0, 0, 5, 255⟩, ⟨7, 0, 0, 255⟩], 2⟩
        (bboxOf [⟨0, 0, 5, 255⟩, ⟨7, 0, 0, 255⟩]) = some ⟨[⟨0, 0, 5, 255⟩], 1⟩) ∧
    (rleClipRect ⟨[⟨0, 0, 20, 255⟩], 1⟩ ⟨⟨10, 0⟩, ⟨5, 1⟩⟩ = some ⟨[⟨10, 0, 65531, 255⟩], 1⟩ ∧
      (rleClipRect ⟨[⟨0, 0, 20, 255⟩], 1⟩ ⟨⟨10, 0⟩, ⟨5, 1⟩⟩).bind
        (fun r => rleClipRect r ⟨⟨10, 0⟩, ⟨5, 1⟩⟩) = some ⟨[], 0⟩) := by
  decide

end ThorVG

namespace ThorVG

/-! ## The path clip -/

set_option maxRecDepth 100000 in
/-- C14 at a failing input: the target `[0, 10)`, `[20, 30)` and the clip `[5, 22)`,
`[25, 40)` on scanline 0 overlap in three places, `[5, 10)`, `[20, 22)` and `[25, 30)`,
and the specification asks for the three spans; `rleClipPath` stops after
`max(|T|, |C|) = 2` spans and the overlap `[25, 30)` is lost. -/
theorem rleClipPath_loses_overlap :
    clipPathSpec twoRunTarget.spans twoRunClip.spans =
      [⟨5, 0, 5, 254⟩, ⟨20, 0, 2, 254⟩, ⟨25, 0, 5, 254⟩] ∧
    rleClipPath twoRunTarget twoRunClip = some ⟨[⟨5, 0, 5, 254⟩, ⟨20, 0, 2, 254⟩], 2⟩ := by
  decide

set_option maxRecDepth 100000 in
/-- C15 at a failing input: for the target `[0, 10)`, `[20, 30)`, the clip A of
`[0, 10)`, `[20, 24)`, `[25, 30)` and the clip B of `[5, 22)`, `[25, 40)`, all on
scanline 0, `rleClipPath` with B then with A returns two spans and with A then with B
three: pixel `(25, 0)` has coverage 0 in the one and 253 in the other. -/
theorem rleClipPath_order_matters :
    (rleClipPath twoRunTarget twoRunClip).bind (fun r => rleClipPath r threeRunClip) =
      some ⟨[⟨5, 0, 5, 253⟩, ⟨20, 0, 2, 253⟩], 2⟩ ∧
    (rleClipPath twoRunTarget threeRunClip).bind (fun r => rleClipPath r twoRunClip) =
      some ⟨[⟨5, 0, 5, 253⟩, ⟨20, 0, 2, 253⟩, ⟨25, 0, 5, 253⟩], 3⟩ ∧
    coverageAt [⟨5, 0, 5, 253⟩, ⟨20, 0, 2, 253⟩] 25 0 = 0 ∧
    coverageAt [⟨5, 0, 5, 253⟩, ⟨20, 0, 2, 253⟩, ⟨25, 0, 5, 253⟩] 25 0 = 253 := by
  decide

end ThorVG

namespace ThorVG

/-! ## The alpha mask -/

set_option maxRecDepth 100000 in
/-- C16 at a failing input: for the target span `[0, 10)` and the mask span `[2, 6)`,
both on scanline 0, the specification asks for the side strips `[0, 2)` and `[6, 10)`;
the loops of `_intersectMaskRegion` over the mask run `while (clipSpans->y)`, so they
stop at once on a mask span of scanline 0, and `rleAlphaMask` returns the empty RLE:
pixel `(0, 0)` of the target, which the mask does not cover, is lost. -/
theorem rleAlphaMask_drops_row_zero :
    sideStrips ⟨0, 0, 10, 255⟩ ⟨2, 0, 4, 255⟩ = [⟨0, 0, 2, 255⟩, ⟨6, 0, 4, 255⟩] ∧
    rleAlphaMask ⟨[⟨0, 0, 10, 255⟩], 1⟩ ⟨[⟨2, 0, 4, 255⟩], 1⟩ = some ⟨[], 0⟩ ∧
    covers ⟨0, 0, 10, 255⟩ 0 0 ∧ ¬ covers ⟨2, 0, 4, 255⟩ 0 0 := by
  decide

set_option maxRecDepth 100000 in
/-- C17 at a failing input: the target span on scanline 1 lies below the one mask span,
on scanline 5, and is to pass unchanged; the loop `while (clipSpans1->y)` of
`_intersectMaskRegion` finds no span of scanline 0 in the mask and reads past its end,
so no result is defined. -/
theorem rleAlphaMask_reads_past_mask :
    _intersectMaskRegion ⟨[⟨0, 5, 3, 255⟩], 1⟩ ⟨[⟨0, 1, 3, 255⟩], 1⟩ 2 = none ∧
    rleAlphaMask ⟨[⟨0, 1, 3, 255⟩], 1⟩ ⟨[⟨0, 5, 3, 255⟩], 1⟩ = none := by
  decide

set_option maxRecDepth 100000 in
/-- C19: `_intersectSpansRect` and `_intersectSpansRegion` never write more spans than
are allocated, `|T|` and `max(|T|, |C|)`, and `_replaceClipSpan` sets size and alloc to
the number of spans written; `_intersectMaskRegion` does write more: for the target
span `[0, 40)` on scanline `-1` and the mask `combMask` it writes eight spans into the
`|T| + |M| = 6` allocated, so `rleAlphaMask` has no defined result. -/
theorem clip_writes_within_alloc :
    (∀ (rle : SwRleData) (B : SwBBox), (_intersectSpansRect B rle rle.size).length ≤ rle.size) ∧
    (∀ (rle : SwRleData) (spans : List SwSpan),
      (_replaceClipSpan rle spans).size = spans.length ∧
      (_replaceClipSpan rle spans).alloc = spans.length) ∧
    (∀ rle clip : SwRleData,
      (_intersectSpansRegion clip rle (if rle.size > clip.size then rle.size else clip.size)).length
        ≤ (if rle.size > clip.size then rle.size else clip.size)) ∧
    _intersectMaskRegion combMask ⟨[⟨0, -1, 40, 255⟩], 1⟩ 6 =
      some [⟨0, -1, 1, 255⟩, ⟨4, -1, 36, 255⟩, ⟨0, -1, 11, 255⟩, ⟨14, -1, 26, 255⟩,
        ⟨0, -1, 21, 255⟩, ⟨24, -1, 16, 255⟩, ⟨0, -1, 31, 255⟩, ⟨34, -1, 6, 255⟩] ∧
    rleAlphaMask ⟨[⟨0, -1, 40, 255⟩], 1⟩ combMask = none :=
  ⟨fun rle B => (rectLoop_length _ _ _ _ rle.size rle.spans).1,
    fun rle spans => ⟨rfl, rfl⟩,
    fun rle clip => regionLoop_length _ _ _, by decide, by decide⟩

end ThorVG

namespace ThorVG

/-! ## The clippers on an empty target or clip -/

/-- C18: `rleClipPath` and `rleAlphaMask` return the target as it is (spans, size and
alloc) when the target or the clip has size 0, and `rleClipRect` when the target has
size 0. -/
theorem clip_empty_unchanged (rle clip : SwRleData) (B : SwBBox) :
    (rle.size = 0 ∨ clip.size = 0 →
      rleClipPath rle clip = some rle ∧ rleAlphaMask rle clip = some rle) ∧
    (rle.size = 0 → rleClipRect rle B = some rle) := by
  refine ⟨fun h => ⟨?_, ?_⟩, fun h => ?_⟩
  · unfold rleClipPath
    rw [if_pos h]
  · unfold rleAlphaMask
    rw [if_pos h]
  · unfold rleClipRect
    rw [if_pos h]

/-- An instance of `clip_empty_unchanged`: the empty target with alloc 4 against a clip
of two spans, and a target of two spans against the empty clip. -/
theorem clip_empty_unchanged_witness :
    (rleClipPath ⟨[], 4⟩ twoRunClip = some ⟨[], 4⟩ ∧
      rleAlphaMask ⟨[], 4⟩ twoRunClip = some ⟨[], 4⟩) ∧
    rleClipRect ⟨[], 4⟩ ⟨⟨0, 0⟩, ⟨8, 8⟩⟩ = some ⟨[], 4⟩ ∧
    (rleClipPath twoRunTarget ⟨[], 0⟩ = some twoRunTarget ∧
      rleAlphaMask twoRunTarget ⟨[], 0⟩ = some twoRunTarget) :=
  ⟨(clip_empty_unchanged ⟨[], 4⟩ twoRunClip ⟨⟨0, 0⟩, ⟨8, 8⟩⟩).1 (Or.inl rfl),
    (clip_empty_unchanged ⟨[], 4⟩ twoRunClip ⟨⟨0, 0⟩, ⟨8, 8⟩⟩).2 rfl,
    (clip_empty_unchanged twoRunTarget ⟨[], 0⟩ ⟨⟨0, 0⟩, ⟨8, 8⟩⟩).1 (Or.inr rfl)⟩

end ThorVG

namespace ThorVG

/-! ## Invalid outlines -/

/-- C20 (as amended): let `o` be a well-formed outline in which some contour starts
with a CUBIC, or holds a CUBIC control point that no second CUBIC follows inside the
contour, and let the bbox be one for which `rleRender` sets up at least one band
(`bandCnt ≥ 1`).  Then `rleRender`, with any band size, returns no RLE, and on every
worker `_decomposeOutline` makes the calls of the path up to the invalid point and
returns false once they have returned.  `rleRender` with a positive band size does
return null when no `_cubicTo` is among these calls, the points of the outline fit 32
bits and the bbox lies within 2^30 scanlines of the origin and is from 1 to 2^27
scanlines high; and when the first contour starts with a CUBIC and the bbox is from 0 to
2^27 scanlines high.  Conversely, on an outline `o2` that keeps the outline invariants
`_decomposeOutline` never returns false: it makes the calls of the whole path and
returns true once they have returned. -/
theorem rleRender_invalid_outline (o o2 : SwOutline) (bandSize : Int) (rle : Option SwRleData)
    (bbox vp : SwBBox) (aa : Bool) (hfr : Framed o) (hbad : InvalidOutline o)
    (hcnt : 1 ≤ bandCount (bbox.max.y - bbox.min.y) bandSize) (hv : OutlineInvariants o2) :
    (∀ r, rleRenderBand bandSize rle o bbox vp aa ≠ some (some r)) ∧
    (∀ rw : RleWorker, rw.outline = o →
      _decomposeOutline rw = finish (outlineSkel o o.cntrs 0).1 (some false) rw) ∧
    ((∀ op ∈ (outlineSkel o o.cntrs 0).1, op.straight) → OutlineOk o → 0 < bandSize →
      -1073741824 ≤ bbox.min.y → bbox.max.y ≤ 1073741824 → bbox.min.y < bbox.max.y →
      bbox.max.y - bbox.min.y ≤ 134217728 →
      rleRenderBand bandSize rle o bbox vp aa = some none) ∧
    (CubicFirst o → 0 < bandSize → 0 ≤ bbox.max.y - bbox.min.y →
      bbox.max.y - bbox.min.y ≤ 134217728 →
      rleRenderBand bandSize rle o bbox vp aa = some none) ∧
    (∀ rw : RleWorker, rw.outline = o2 →
      _decomposeOutline rw = finish (outlineSkel o2 o2.cntrs 0).1 (some true) rw ∧
      ∀ rw1, _decomposeOutline rw ≠ .ok (rw1, false)) := by
  have hx := decompose_exit_false o hfr hbad
  have hy := decompose_exit_true o2 hv
  refine ⟨fun r => rleRenderBand_never bandSize rle o bbox vp aa hx hcnt r, ?_, ?_,
    fun hcf hbs h0 h1 => rleRenderBand_cubicFirst bandSize rle o bbox vp aa hcf hbs h0 h1, ?_⟩
  · intro rw ho
    unfold _decomposeOutline
    rw [decomposeContours_eq, ho, hx]
  · intro hst hok hbs hlo hhi hby hht
    obtain ⟨v, hv2⟩ := rleRenderBand_defined bandSize rle o bbox vp aa hok hst false hx hbs hlo
      hhi hby hht
    cases v with
    | none => exact hv2
    | some r => exact absurd hv2 (rleRenderBand_never bandSize rle o bbox vp aa hx hcnt r)
  · intro rw ho
    have e : _decomposeOutline rw = finish (outlineSkel o2 o2.cntrs 0).1 (some true) rw := by
      unfold _decomposeOutline
      rw [decomposeContours_eq, ho, hy]
    refine ⟨e, fun rw1 h => ?_⟩
    rw [e] at h
    have := (finish_ok _ _ _ _ _ h).1
    cases this

set_option maxRecDepth 100000 in
/-- An instance of `rleRender_invalid_outline`: on the 8 by 8 bbox with band size 64, the
contour with a CUBIC control point that a POINT follows, and the triangle whose first
point is tagged CUBIC, give null; on the worker that `rleRender` starts with,
`_decomposeOutline` ends the rectangle of scenario S2 at `return true`. -/
theorem rleRender_invalid_outline_witness :
    (Framed strayCubicOutline ∧ InvalidOutline strayCubicOutline ∧
      1 ≤ bandCount ((boxAt0 8 8).max.y - (boxAt0 8 8).min.y) 64 ∧
      OutlineInvariants (rectOutline 32 32 480 480 FillRule.Winding)) ∧
    rleRenderBand 64 none strayCubicOutline (boxAt0 8 8) (boxAt0 8 8) true = some none ∧
    rleRenderBand 64 none cubicFirstOutline (boxAt0 8 8) (boxAt0 8 8) true = some none ∧
    _decomposeOutline (initWorker 64 none (rectOutline 32 32 480 480 FillRule.Winding)
        (boxAt0 8 8) (boxAt0 8 8) true) =
      finish (outlineSkel (rectOutline 32 32 480 480 FillRule.Winding)
        (rectOutline 32 32 480 480 FillRule.Winding).cntrs 0).1 (some true)
        (initWorker 64 none (rectOutline 32 32 480 480 FillRule.Winding)
          (boxAt0 8 8) (boxAt0 8 8) true) :=
  ⟨⟨by decide, by decide, by decide, by decide⟩,
    (rleRender_invalid_outline strayCubicOutline (rectOutline 32 32 480 480 FillRule.Winding) 64
      none (boxAt0 8 8) (boxAt0 8 8) true (by decide) (by decide) (by decide)
      (by decide)).2.2.1 (by decide) (by unfold OutlineOk; decide) (by decide) (by decide)
      (by decide) (by decide) (by decide),
    (rleRender_invalid_outline cubicFirstOutline (rectOutline 32 32 480 480 FillRule.Winding) 64
      none (boxAt0 8 8) (boxAt0 8 8) true (by decide) (by decide) (by decide)
      (by decide)).2.2.2.1 (by decide) (by decide) (by decide) (by decide),
    ((rleRender_invalid_outline strayCubicOutline (rectOutline 32 32 480 480 FillRule.Winding) 64
      none (boxAt0 8 8) (boxAt0 8 8) true (by decide) (by decide) (by decide)
      (by decide)).2.2.2.2 _ rfl).1⟩

set_option maxRecDepth 100000 in
set_option maxHeartbeats 4000000 in
/-- Two runs that are not as C20 says.  On the bbox from scanline 64 to scanline 0, for
which `bandCnt` is `-1`, `rleRender` sets up no band and returns the empty RLE for the
triangle whose first point is tagged CUBIC.  On the band from scanline 2432 to 3432, the
last of the 39 bands of a bbox 3432 scanlines high, whose pool holds 262 cells,
`_decomposeOutline` on a triangle that keeps the outline invariants does not return: it
is left by the jump of the pool overflow. -/
theorem rleRender_inverted_bbox :
    (Framed cubicFirstOutline ∧ InvalidOutline cubicFirstOutline ∧
      bandCount ((⟨⟨0, 64⟩, ⟨8, 0⟩⟩ : SwBBox).max.y - (⟨⟨0, 64⟩, ⟨8, 0⟩⟩ : SwBBox).min.y)
        renderBandSize = -1 ∧
      rleRender none cubicFirstOutline ⟨⟨0, 64⟩, ⟨8, 0⟩⟩ (boxAt0 8 8) true =
        some (some ⟨[], 0⟩)) ∧
    (OutlineInvariants wedge ∧
      bandSetup (initWorker renderBandSize none wedge (boxAt0 400 3432) (boxAt0 400 3432) true)
          ⟨2432, 3432⟩ =
        .ok (some (bandWorker
          (initWorker renderBandSize none wedge (boxAt0 400 3432) (boxAt0 400 3432) true)
          ⟨2432, 3432⟩ 262)) ∧
      overflowed (_decomposeOutline (bandWorker
        (initWorker renderBandSize none wedge (boxAt0 400 3432) (boxAt0 400 3432) true)
        ⟨2432, 3432⟩ 262)) = true) := by
  exact ⟨⟨by decide, by decide, by decide, by decide⟩, by decide, wedge_setup, wedge_overflows⟩

end ThorVG

namespace ThorVG

/-! ## C21: when `rleRender` fails -/

/-- C21 (amended): on a well-formed outline and a bbox of one scanline or more within
2^30 scanlines of the origin, a run of `rleRender` that ends returns null if and only if
the outline is invalid or some scanline of the bbox, taken as a band of its own,
overflows the cell arena; the run does end when the outline has no curves and the bbox
is at most 2^27 scanlines high; and when every scanline of such a bbox, taken as a band
of its own, runs to its end, `rleRender` returns an RLE, whatever overflows on the bands
of two or more scanlines. -/
theorem rleRender_fails_iff (rle : Option SwRleData) (o : SwOutline) (bbox vp : SwBBox)
    (aa : Bool) (hfr : Framed o) (ho : OutlineOk o) (hlo : -1073741824 < bbox.min.y)
    (hhi : bbox.max.y < 1073741824) (hby : bbox.min.y < bbox.max.y) :
    (∀ v, rleRender rle o bbox vp aa = some v →
      (v = none ↔ InvalidOutline o ∨
        ∃ y, bbox.min.y ≤ y ∧ y < bbox.max.y ∧ RowOverflows o bbox y)) ∧
    ((∀ op ∈ (outlineSkel o o.cntrs 0).1, op.straight) →
      bbox.max.y - bbox.min.y ≤ 134217728 → ∃ v, rleRender rle o bbox vp aa = some v) ∧
    ((∀ y, bbox.min.y ≤ y → y < bbox.max.y → RowDone o bbox y) →
      bbox.max.y - bbox.min.y ≤ 134217728 →
      ∃ r, rleRender rle o bbox vp aa = some (some r)) := by
  have hbs : (0 : Int) < renderBandSize := by decide
  refine ⟨fun v hv => ⟨fun hn => ?_, fun hF => ?_⟩, fun hst hht => ?_, fun hrows hht => ?_⟩
  · subst hn
    rw [rleRender_eq_runBands] at hv
    cases hr : runBands (renderBandList bbox) (initWorker renderBandSize rle o bbox vp aa) with
    | error e => rw [hr] at hv; cases hv
    | ok w =>
      rw [hr] at hv
      cases w with
      | some rw => cases hv
      | none =>
        exact runBands_none o bbox hfr
          (configOf (initWorker renderBandSize rle o bbox vp aa)) rfl rfl rfl rfl _ _ rfl
          (renderBandList_in bbox (by omega) (by omega)) hr
  · cases v with
    | none => rfl
    | some r =>
      exfalso
      rcases hF with hbad | ⟨y, hy1, hy2, s1, hs1⟩
      · exact rleRenderBand_never renderBandSize rle o bbox vp aa
          (decompose_exit_false o hfr hbad)
          (bandCount_render _ (by omega) (by omega)).2.1 r hv
      · obtain ⟨s2, hs2⟩ := rleRenderBand_rowDone renderBandSize rle o bbox vp aa r hbs ho
          (le_of_lt hby) hlo hhi hv y hy1 hy2
        rw [hs2] at hs1
        cases hs1
  · exact rleRenderBand_defined renderBandSize rle o bbox vp aa ho hst
      (!invalidFrom o o.cntrs 0) (outlineSkel_exit o hfr.1 hfr.2.1 _ _ hfr.2.2) hbs
      (le_of_lt hlo) (le_of_lt hhi) hby hht
  · exact renderWorker_total renderBandSize rle o bbox vp aa ho hbs hlo hhi hby hht hrows

set_option maxRecDepth 100000 in
set_option maxHeartbeats 4000000 in
theorem rleRender_fails_iff_witness :
    ((none : Option SwRleData) = none ↔ InvalidOutline strayCubicOutline ∨
      ∃ y, (boxAt0 8 8).min.y ≤ y ∧ y < (boxAt0 8 8).max.y ∧
        RowOverflows strayCubicOutline (boxAt0 8 8) y) ∧
    (¬ InvalidOutline zigzag ∧ RowOverflows zigzag (boxAt0 768 1) 0 ∧
      rleRender none zigzag (boxAt0 768 1) (boxAt0 768 1) true = some none) :=
  ⟨(rleRender_fails_iff none strayCubicOutline (boxAt0 8 8) (boxAt0 8 8) true (by decide)
      (by unfold OutlineOk; decide) (by decide) (by decide) (by decide)).1 none (by decide),
    by decide, zigzag_overflows,
    by
      obtain ⟨v, hv⟩ := (rleRender_fails_iff none zigzag (boxAt0 768 1) (boxAt0 768 1) true
        (by decide) (by unfold OutlineOk; decide) (by decide) (by decide) (by decide)).2.1
        (by decide) (by decide)
      have hn := ((rleRender_fails_iff none zigzag (boxAt0 768 1) (boxAt0 768 1) true
        (by decide) (by unfold OutlineOk; decide) (by decide) (by decide) (by decide)).1 v hv).2
        (Or.inr ⟨0, by decide, by decide, zigzag_overflows⟩)
      rw [hv, hn]⟩

set_option maxRecDepth 100000 in
/-- C21, as stated, fails on an inverted bbox: on the bbox from scanline 64 to scanline
0, for which `bandCnt` is `-1`, `rleRender` sets up no band and returns the empty RLE
for the contour with a CUBIC control point that a POINT follows. -/
theorem rleRender_invalid_returned :
    Framed strayCubicOutline ∧ InvalidOutline strayCubicOutline ∧
    rleRender none strayCubicOutline ⟨⟨0, 64⟩, ⟨8, 0⟩⟩ (boxAt0 8 8) true = some (some ⟨[], 0⟩) := by
  decide

end ThorVG

namespace ThorVG

/-! ## C22: the bands `rleRender` sets up -/

/-- C22 (amended): `rleRender` starts with the band size `bufferSize / (sizeof (Cell) * 8)
= 64` scanlines (40 is `BAND_SIZE`, the length of the band stack), and for a bbox
`h >= 0` scanlines high it runs the band loop on `bandCnt = max (1, min (h / 64, 39))`
bands in turn: each band before the last spans exactly 64 rows, and the last spans the
`h - 64 * (bandCnt - 1)` rows that are left, which is at least 64 rows when `h >= 64`,
less than 128 rows when `h < 2560`, and `h - 2432` rows when `h >= 2560`. -/
theorem rleRender_band_rows (rle : Option SwRleData) (o : SwOutline) (bbox vp : SwBBox)
    (aa : Bool) (h0 : 0 ≤ bbox.max.y - bbox.min.y) (h1 : bbox.max.y - bbox.min.y < 2147483648) :
    renderBandSize = 64 ∧ (BAND_SIZE : Int) = 40 ∧
    rleRender rle o bbox vp aa =
      (match runBands (renderBandList bbox) (initWorker renderBandSize rle o bbox vp aa) with
        | .error _ => none
        | .ok none => some none
        | .ok (some rw) => some (some rw.rle)) ∧
    bandCount (bbox.max.y - bbox.min.y) renderBandSize =
      max 1 (min ((bbox.max.y - bbox.min.y) / 64) 39) ∧
    ((renderBandList bbox).length : Int) = bandCount (bbox.max.y - bbox.min.y) renderBandSize ∧
    (∀ i : Nat, (i : Int) < bandCount (bbox.max.y - bbox.min.y) renderBandSize →
      ∃ b, (renderBandList bbox)[i]? = some b ∧ b.min = bbox.min.y + 64 * i ∧
        ((i : Int) < bandCount (bbox.max.y - bbox.min.y) renderBandSize - 1 → b.rows = 64) ∧
        ((i : Int) = bandCount (bbox.max.y - bbox.min.y) renderBandSize - 1 →
          b.max = bbox.max.y ∧
          b.rows = bbox.max.y - bbox.min.y -
            64 * (bandCount (bbox.max.y - bbox.min.y) renderBandSize - 1) ∧
          (64 ≤ bbox.max.y - bbox.min.y → 64 ≤ b.rows) ∧
          (bbox.max.y - bbox.min.y < 2560 → b.rows < 128) ∧
          (2560 ≤ bbox.max.y - bbox.min.y → b.rows = bbox.max.y - bbox.min.y - 2432))) := by
  obtain ⟨hc1, hc2, hc3, hc4, hc5, hc6⟩ := bandCount_render _ h0 h1
  have e : renderBandSize = 64 := by decide
  have hlist := renderBandList_eq bbox h0 h1
  refine ⟨e, rfl, ?_, hc1, ?_, ?_⟩
  · exact rleRender_eq_runBands rle o bbox vp aa
  · rw [hlist, List.length_map, List.length_range, Int.toNat_of_nonneg (by omega)]
  · intro i hi
    have hi1 : i < (bandCount (bbox.max.y - bbox.min.y) renderBandSize).toNat := by omega
    refine ⟨(⟨bbox.min.y + renderBandSize * (0 + i),
          if 0 + (i : Int) = bandCount (bbox.max.y - bbox.min.y) renderBandSize - 1 then bbox.max.y
          else bbox.min.y + renderBandSize * (0 + i + 1)⟩ : Band), ?_, ?_, ?_, ?_⟩
    · rw [hlist, List.getElem?_map, List.getElem?_range hi1]
      rfl
    · dsimp only []
      rw [e]
      omega
    · intro hlt
      unfold Band.rows
      dsimp only []
      rw [if_neg (by omega), e]
      omega
    · intro heq
      unfold Band.rows
      dsimp only []
      rw [if_pos (by omega)]
      generalize bandCount (bbox.max.y - bbox.min.y) renderBandSize = cnt at hc2 hc3 hc4 hc5 hc6 heq
      rw [e] at hc4 ⊢
      refine ⟨rfl, by omega, ?_, ?_, ?_⟩
      · intro h64
        omega
      · intro hlt
        have := hc5 hlt
        omega
      · intro hge
        have := hc6 hge
        omega

theorem rleRender_band_rows_witness :
    ∃ b, (renderBandList (boxAt0 8 4000))[38]? = some b ∧ b.min = (boxAt0 8 4000).min.y + 64 * (38 : Nat) ∧
      (((38 : Nat) : Int) < bandCount ((boxAt0 8 4000).max.y - (boxAt0 8 4000).min.y) renderBandSize - 1 →
        b.rows = 64) ∧
      (((38 : Nat) : Int) = bandCount ((boxAt0 8 4000).max.y - (boxAt0 8 4000).min.y) renderBandSize - 1 →
        b.max = (boxAt0 8 4000).max.y ∧
        b.rows = (boxAt0 8 4000).max.y - (boxAt0 8 4000).min.y -
          64 * (bandCount ((boxAt0 8 4000).max.y - (boxAt0 8 4000).min.y) renderBandSize - 1) ∧
        (64 ≤ (boxAt0 8 4000).max.y - (boxAt0 8 4000).min.y → 64 ≤ b.rows) ∧
        ((boxAt0 8 4000).max.y - (boxAt0 8 4000).min.y < 2560 → b.rows < 128) ∧
        (2560 ≤ (boxAt0 8 4000).max.y - (boxAt0 8 4000).min.y →
          b.rows = (boxAt0 8 4000).max.y - (boxAt0 8 4000).min.y - 2432)) :=
  (rleRender_band_rows none wedge (boxAt0 8 4000) (boxAt0 8 4000) true (by decide)
    (by decide)).2.2.2.2.2 38 (by decide)

set_option maxRecDepth 100000 in
/-- C22, as stated, fails: the band size `rleRender` starts with is 64, not 40; for a
bbox 100 scanlines high the one band set up spans 100 rows, and for a bbox 4000
scanlines high the last of the 39 bands spans 1568 rows. -/
theorem rleRender_tall_band :
    renderBandSize = 64 ∧
    renderBandList (boxAt0 8 100) = [⟨0, 100⟩] ∧
    (renderBandList (boxAt0 8 4000)).length = 39 ∧
    (renderBandList (boxAt0 8 4000))[38]? = some ⟨2432, 4000⟩ ∧
    (⟨2432, 4000⟩ : Band).rows = 1568 := by
  decide

end ThorVG

namespace ThorVG

/-! ## C23: the overflow counter -/

/-- C23, the code at the four bars on their bbox of 56 by 64 pixels: the one band set up
has 64 rows, as many as the band size; it overflows the pool of 496 cells, and at
`reduce_bands` the test `bottom - top >= rw.bandSize` compares `-64` with `64`, so that
the counter `bandShoot` stays 0 and the loop goes on with the two halves; a counter of 8
at the end of the call would leave the band size at 64, one of 9 would halve it. -/
theorem rleRender_bandShoot_stuck :
    renderBandList (boxAt0 56 64) = [⟨0, 64⟩] ∧
    renderBandSize ≤ (⟨0, 64⟩ : Band).rows ∧
    (∃ rw0 rw1, bandSetup barsWorker ⟨0, 64⟩ = .ok (some rw0) ∧ _genRle rw0 = some (rw1, -1) ∧
      bandTry barsWorker ⟨0, 64⟩ = .ok (.reduce rw1) ∧
      rw1.bandSize = 64 ∧ rw1.bandShoot = 0 ∧ (countShoot rw1 0 64).bandShoot = 0 ∧
      ∀ n, bandLoop (n + 1) barsWorker [⟨0, 64⟩] =
        bandLoop n (countShoot rw1 0 64) [⟨0, 32⟩, ⟨32, 64⟩]) ∧
    (tuneBand { barsWorker with bandShoot := 8 }).bandSize = 64 ∧
    (tuneBand { barsWorker with bandShoot := 9 }).bandSize = 32 := by
  refine ⟨by decide, by decide, ?_, by decide, by decide⟩
  obtain ⟨rw1, hg⟩ := genRle_of_overflowed _ bars_overflows
  have ht := bandTry_of_overflow _ _ _ _ bars_setup hg
  obtain ⟨e1, e2⟩ := bandTry_shoot _ _ _ (Or.inr ht)
  have e3 : rw1.bandSize = 64 := e2
  have e4 : rw1.bandShoot = 0 := e1
  refine ⟨_, rw1, bars_setup, hg, ht, e3, e4, ?_, fun n => ?_⟩
  · rw [countShoot_eq rw1 0 64 (by rw [e3]; decide) (by decide)]
    exact e4
  · rw [bandLoop_succ, ht]
    rfl

end ThorVG

namespace ThorVG

/-! ## C24: `HYPOT` -/

theorem hypot_core (a b : Int) (hb : 0 ≤ b) (hba : b ≤ a) :
    (8649 * (a * a + b * b) < 10000 * ((a + shr (3 * b) 3) * (a + shr (3 * b) 3)) ∧
      10000 * ((a + shr (3 * b) 3) * (a + shr (3 * b) 3)) < 11449 * (a * a + b * b)) ↔
      (a, b) ∉ hypotCoarse := by
  have e : shr (3 * b) 3 = 3 * b / 8 := rfl
  rw [e]
  by_cases ha : 15 ≤ a
  · have hq1 : 8 * (3 * b / 8) ≤ 3 * b := by omega
    have hq2 : 3 * b < 8 * (3 * b / 8) + 8 := by omega
    have hq0 : 0 ≤ 3 * b / 8 := by omega
    constructor
    · intro _
      simp only [hypotCoarse, List.mem_cons, Prod.mk.injEq, List.mem_singleton, List.not_mem_nil, or_false]
      omega
    · intro _
      exact ⟨hypot_lower a b _ hb hba ha hq2, hypot_upper a b _ hb (by omega) hq0 hq1⟩
  · have ha0 : 0 ≤ a := le_trans hb hba
    have ha1 : a < 15 := not_le.1 ha
    interval_cases a <;> interval_cases b <;> decide

/-- Where `HYPOT` keeps the promise of its comment: for every integer vector `(x, y)`
with coordinates within `HYPOT_RANGE`, so that no operation of `HYPOT` overflows the
64-bit `SwCoord`, `HYPOT` returns `max(|x|,|y|) + ((3 * min(|x|,|y|)) >> 3)`, a value
that fits a `SwCoord`; it differs from the exact Euclidean length `sqrt(x*x + y*y)` by
less than 7% of the exact value exactly when `(max(|x|,|y|), min(|x|,|y|))` is none of
the fourteen pairs of `hypotCoarse`, so for every vector with `max(|x|,|y|) >= 14`. -/
theorem HYPOT_within_seven_percent (pt : SwPoint)
    (hx : |pt.x| ≤ HYPOT_RANGE) (hy : |pt.y| ≤ HYPOT_RANGE) :
    (3 * min |pt.x| |pt.y| < 9223372036854775808 ∧ HYPOT pt < 9223372036854775808) ∧
    HYPOT pt = max |pt.x| |pt.y| + shr (3 * min |pt.x| |pt.y|) 3 ∧
    (hypotClose pt ↔ (max |pt.x| |pt.y|, min |pt.x| |pt.y|) ∉ hypotCoarse) ∧
    (14 ≤ max |pt.x| |pt.y| → hypotClose pt) := by
  have hb : 0 ≤ min |pt.x| |pt.y| := le_min (abs_nonneg _) (abs_nonneg _)
  have hba : min |pt.x| |pt.y| ≤ max |pt.x| |pt.y| := le_trans (min_le_left _ _) (le_max_left _ _)
  have hiff : hypotClose pt ↔ (max |pt.x| |pt.y|, min |pt.x| |pt.y|) ∉ hypotCoarse := by
    unfold hypotClose
    rw [close_iff _ _ (by
      rw [HYPOT_eq]
      have : 0 ≤ shr (3 * min |pt.x| |pt.y|) 3 := by
        show 0 ≤ 3 * min |pt.x| |pt.y| / 8
        omega
      omega) (by nlinarith [mul_self_nonneg pt.x, mul_self_nonneg pt.y]),
      HYPOT_eq, sq_sum_max_min]
    exact hypot_core _ _ hb hba
  have hfit : 3 * min |pt.x| |pt.y| < 9223372036854775808 ∧ HYPOT pt < 9223372036854775808 := by
    rw [HYPOT_eq]
    have hm : min |pt.x| |pt.y| ≤ HYPOT_RANGE := le_trans (min_le_left _ _) hx
    have hM : max |pt.x| |pt.y| ≤ HYPOT_RANGE := max_le hx hy
    have e : shr (3 * min |pt.x| |pt.y|) 3 = 3 * min |pt.x| |pt.y| / 8 := rfl
    rw [e]
    unfold HYPOT_RANGE at hm hM
    constructor <;> omega
  refine ⟨hfit, HYPOT_eq pt, hiff, fun h14 => hiff.2 ?_⟩
  simp only [hypotCoarse, List.mem_cons, Prod.mk.injEq, List.mem_singleton, List.not_mem_nil, or_false]
  omega

/-- The vector `(14, 0)` is in range and long enough. -/
theorem HYPOT_within_seven_percent_witness :
    (|(14 : Int)| ≤ HYPOT_RANGE ∧ |(0 : Int)| ≤ HYPOT_RANGE) ∧ hypotClose ⟨14, 0⟩ :=
  ⟨by decide, (HYPOT_within_seven_percent ⟨14, 0⟩ (by decide) (by decide)).2.2.2 (by decide)⟩

/-- C24: the comment of the source above `HYPOT` promises, as the claim does, a result
within 7% of the exact length.  At the vector `(1, 1)` the code returns
`1 + ((3 * 1) >> 3) = 1`, and 1 is more than 7% away from `sqrt 2`; at `(2, 1)` it
returns 2 against `sqrt 5`, at `(13, 13)` it returns 17 against `sqrt 338`.  None of
these is near an overflow. -/
theorem HYPOT_one_one :
    HYPOT ⟨1, 1⟩ = 1 ∧ ¬ hypotClose ⟨1, 1⟩ ∧
    HYPOT ⟨2, 1⟩ = 2 ∧ ¬ hypotClose ⟨2, 1⟩ ∧
    HYPOT ⟨13, 13⟩ = 17 ∧ ¬ hypotClose ⟨13, 13⟩ := by
  refine ⟨by decide, ?_, by decide, ?_, by decide, ?_⟩
  · unfold hypotClose
    rw [close_iff _ _ (by decide) (by decide)]
    decide
  · unfold hypotClose
    rw [close_iff _ _ (by decide) (by decide)]
    decide
  · unfold hypotClose
    rw [close_iff _ _ (by decide) (by decide)]
    decide

end ThorVG

namespace ThorVG

/-! ## C25: the memory pool -/

theorem resize_length (v : List MemPool.SwOutline) (n : Nat) : (MemPool.resize v n).length = n := by
  unfold MemPool.resize
  rw [List.length_append, List.length_take, List.length_replicate]
  omega

theorem reset_counts (o : MemPool.SwOutline) :
    (MemPool.reset o).cntrsCnt = 0 ∧ (MemPool.reset o).ptsCnt = 0 := ⟨rfl, rfl⟩

theorem getElem_map_reset (v : List MemPool.SwOutline) (idx : Nat) (h : idx < v.length) :
    ∃ o, (v.map MemPool.reset)[idx]? = some o ∧ o.cntrsCnt = 0 ∧ o.ptsCnt = 0 := by
  refine ⟨MemPool.reset (v.get ⟨idx, h⟩), ?_, rfl, rfl⟩
  rw [List.getElem?_map, List.getElem?_eq_getElem h]
  rfl

theorem set_release (v : List MemPool.SwOutline) (idx : Nat) (o : MemPool.SwOutline)
    (h : v[idx]? = some o) :
    (v.set idx (MemPool.release o))[idx]? = some (MemPool.release o) ∧
    (v.set idx (MemPool.release o)).length = v.length ∧
    (∀ j : Nat, j ≠ idx → (v.set idx (MemPool.release o))[j]? = v[j]?) ∧
    (∀ (j : Nat) (a b : MemPool.SwOutline), v[j]? = some a → (v.set idx (MemPool.release o))[j]? = some b →
      b.reservedCntrsCnt = a.reservedCntrsCnt ∧ b.reservedPtsCnt = a.reservedPtsCnt ∧
      b.cntrs = a.cntrs ∧ b.pts = a.pts ∧ b.types = a.types) := by
  have hlt : idx < v.length := by
    rcases Nat.lt_or_ge idx v.length with h1 | h1
    · exact h1
    · rw [List.getElem?_eq_none h1] at h
      cases h
  refine ⟨?_, List.length_set _ _ _, ?_, ?_⟩
  · rw [List.getElem?_set_self hlt]
  · intro j hj
    rw [List.getElem?_set_ne (Ne.symm hj)]
  · intro j a b ha hb
    by_cases hj : j = idx
    · subst hj
      rw [List.getElem?_set_self hlt] at hb
      rw [h] at ha
      cases ha
      cases hb
      exact ⟨rfl, rfl, rfl, rfl, rfl⟩
    · rw [List.getElem?_set_ne (Ne.symm hj), ha] at hb
      cases hb
      exact ⟨rfl, rfl, rfl, rfl, rfl⟩

/-- C25 (amended): for every pool index `idx` below the pool size, `mpoolReqOutline (idx)`
and `mpoolReqStrokeOutline (idx)` return the entry as it stands and write nothing, so the
counts of the outline returned are those the entry had; `mpoolRetOutline (idx)` and
`mpoolRetStrokeOutline (idx)` set `cntrsCnt` and `ptsCnt` of the entry to 0, so that the
next acquire returns zero counts, and change no reserved count, no buffer, no other
entry and not the other vector; after `mpoolInit (threads)` every acquire below
`max threads 1` returns zero counts. -/
theorem mpool_acquire_release (p : MemPool) (idx : Nat) :
    (∀ o, p.outline[idx]? = some o → mpoolReqOutline p idx = some (o, p)) ∧
    (∀ o, p.strokeOutline[idx]? = some o → mpoolReqStrokeOutline p idx = some (o, p)) ∧
    (idx < p.outline.length → ∃ p1 o, mpoolRetOutline p idx = some p1 ∧
      mpoolReqOutline p1 idx = some (o, p1) ∧ o.cntrsCnt = 0 ∧ o.ptsCnt = 0 ∧
      p1.strokeOutline = p.strokeOutline ∧ p1.outline.length = p.outline.length ∧
      (∀ j : Nat, j ≠ idx → p1.outline[j]? = p.outline[j]?) ∧
      (∀ (j : Nat) (a b : MemPool.SwOutline), p.outline[j]? = some a → p1.outline[j]? = some b →
        b.reservedCntrsCnt = a.reservedCntrsCnt ∧ b.reservedPtsCnt = a.reservedPtsCnt ∧
        b.cntrs = a.cntrs ∧ b.pts = a.pts ∧ b.types = a.types)) ∧
    (idx < p.strokeOutline.length → ∃ p1 o, mpoolRetStrokeOutline p idx = some p1 ∧
      mpoolReqStrokeOutline p1 idx = some (o, p1) ∧ o.cntrsCnt = 0 ∧ o.ptsCnt = 0 ∧
      p1.outline = p.outline ∧ p1.strokeOutline.length = p.strokeOutline.length ∧
      (∀ j : Nat, j ≠ idx → p1.strokeOutline[j]? = p.strokeOutline[j]?) ∧
      (∀ (j : Nat) (a b : MemPool.SwOutline), p.strokeOutline[j]? = some a → p1.strokeOutline[j]? = some b →
        b.reservedCntrsCnt = a.reservedCntrsCnt ∧ b.reservedPtsCnt = a.reservedPtsCnt ∧
        b.cntrs = a.cntrs ∧ b.pts = a.pts ∧ b.types = a.types)) ∧
    (∀ threads, idx < max threads 1 →
      (∃ o, mpoolReqOutline (mpoolInit p threads).2 idx = some (o, (mpoolInit p threads).2) ∧
        o.cntrsCnt = 0 ∧ o.ptsCnt = 0) ∧
      (∃ o, mpoolReqStrokeOutline (mpoolInit p threads).2 idx =
          some (o, (mpoolInit p threads).2) ∧ o.cntrsCnt = 0 ∧ o.ptsCnt = 0)) := by
  refine ⟨?_, ?_, ?_, ?_, ?_⟩
  · intro o h
    unfold mpoolReqOutline
    rw [h]
  · intro o h
    unfold mpoolReqStrokeOutline
    rw [h]
  · intro h
    have he : p.outline[idx]? = some (p.outline.get ⟨idx, h⟩) := List.getElem?_eq_getElem h
    obtain ⟨s1, s2, s3, s4⟩ := set_release p.outline idx _ he
    refine ⟨{ p with outline := p.outline.set idx (MemPool.release (p.outline.get ⟨idx, h⟩)) },
      MemPool.release (p.outline.get ⟨idx, h⟩), ?_, ?_, rfl, rfl, rfl, s2, s3, s4⟩
    · unfold mpoolRetOutline
      rw [he]
    · unfold mpoolReqOutline
      dsimp only []
      rw [s1]
  · intro h
    have he : p.strokeOutline[idx]? = some (p.strokeOutline.get ⟨idx, h⟩) :=
      List.getElem?_eq_getElem h
    obtain ⟨s1, s2, s3, s4⟩ := set_release p.strokeOutline idx _ he
    refine ⟨{ p with strokeOutline :=
        p.strokeOutline.set idx (MemPool.release (p.strokeOutline.get ⟨idx, h⟩)) },
      MemPool.release (p.strokeOutline.get ⟨idx, h⟩), ?_, ?_, rfl, rfl, rfl, s2, s3, s4⟩
    · unfold mpoolRetStrokeOutline
      rw [he]
    · unfold mpoolReqStrokeOutline
      dsimp only []
      rw [s1]
  · intro threads h
    have hn : idx < (if threads = 0 then 1 else threads) := by
      split_ifs with h0
      · subst h0
        simpa using h
      · rcases le_total threads 1 with h1 | h1
        · rw [max_eq_right h1] at h
          omega
        · rw [max_eq_left h1] at h
          exact h
    constructor
    · obtain ⟨o, ho, h1, h2⟩ := getElem_map_reset
        (MemPool.resize p.outline (if threads = 0 then 1 else threads)) idx
        (by rw [resize_length]; exact hn)
      refine ⟨o, ?_, h1, h2⟩
      unfold mpoolReqOutline mpoolInit
      dsimp only []
      rw [ho]
    · obtain ⟨o, ho, h1, h2⟩ := getElem_map_reset
        (MemPool.resize p.strokeOutline (if threads = 0 then 1 else threads)) idx
        (by rw [resize_length]; exact hn)
      refine ⟨o, ?_, h1, h2⟩
      unfold mpoolReqStrokeOutline mpoolInit
      dsimp only []
      rw [ho]

theorem mpool_acquire_release_witness :
    ∃ p1 o, mpoolRetOutline ⟨[triangleEntry], [triangleEntry]⟩ 0 = some p1 ∧
      mpoolReqOutline p1 0 = some (o, p1) ∧ o.cntrsCnt = 0 ∧ o.ptsCnt = 0 ∧
      p1.strokeOutline = [triangleEntry] ∧ p1.outline.length = 1 ∧
      (∀ j : Nat, j ≠ 0 → p1.outline[j]? = [triangleEntry][j]?) ∧
      (∀ (j : Nat) (a b : MemPool.SwOutline), [triangleEntry][j]? = some a → p1.outline[j]? = some b →
        b.reservedCntrsCnt = a.reservedCntrsCnt ∧ b.reservedPtsCnt = a.reservedPtsCnt ∧
        b.cntrs = a.cntrs ∧ b.pts = a.pts ∧ b.types = a.types) :=
  (mpool_acquire_release ⟨[triangleEntry], [triangleEntry]⟩ 0).2.2.1 (by decide)

/-- C25, as stated, fails on an entry that is in use: after `mpoolInit (1)` and a shape
that stored a contour of three points through the pointer it acquired,
`mpoolReqOutline (0)` returns the entry with `cntrsCnt = 1` and `ptsCnt = 3`. -/
theorem mpool_req_keeps_counts :
    ((storeOutline (mpoolInit MemPool.empty 1).2 0 triangleEntry).bind
        (fun p => mpoolReqOutline p 0)).map (fun r => (r.1.cntrsCnt, r.1.ptsCnt)) =
      some (1, 3) := by
  decide

end ThorVG

namespace ThorVG

/-! ## C26: the radius guard of the radial gradient -/

/-- C26 (amended): `RadialGradient::radial (cx, cy, radius)` returns `InvalidArguments`
and leaves the stored `cx`, `cy`, `radius` unchanged whenever `radius < FLT_EPSILON`;
otherwise, so also for `radius = FLT_EPSILON`, it returns `Success` and a following
getter `radial (&cx, &cy, &radius)` returns exactly the values that were set. -/
theorem radial_guard (pImpl : RadialGradient.Impl) (cx cy radius : Rat) (a b c : Rat) :
    (radius < FLT_EPSILON →
      RadialGradient.radial pImpl cx cy radius = (Result.InvalidArguments, pImpl)) ∧
    (FLT_EPSILON ≤ radius →
      (RadialGradient.radial pImpl cx cy radius).1 = Result.Success ∧
      RadialGradient.radialGet (RadialGradient.radial pImpl cx cy radius).2
        (some a) (some b) (some c) = (Result.Success, some cx, some cy, some radius)) := by
  constructor
  · intro h
    unfold RadialGradient.radial
    rw [if_pos h]
  · intro h
    unfold RadialGradient.radial
    rw [if_neg (not_lt.2 h)]
    exact ⟨rfl, rfl⟩

theorem radial_guard_witness :
    (RadialGradient.radial ⟨3, 4, 5⟩ 10 20 30).1 = Result.Success ∧
      RadialGradient.radialGet (RadialGradient.radial ⟨3, 4, 5⟩ 10 20 30).2
        (some 0) (some 0) (some 0) = (Result.Success, some 10, some 20, some 30) :=
  (radial_guard ⟨3, 4, 5⟩ 10 20 30 0 0 0).2 (by norm_num [FLT_EPSILON])

/-- C26, as stated, fails at `radius = FLT_EPSILON`: the setter returns `Success` and
stores the three values. -/
theorem radial_at_epsilon :
    FLT_EPSILON ≤ FLT_EPSILON ∧
    RadialGradient.radial ⟨3, 4, 5⟩ 10 20 FLT_EPSILON =
      (Result.Success, ⟨10, 20, FLT_EPSILON⟩) := by
  simp [RadialGradient.radial]

end ThorVG

namespace ThorVG

/-! ## C27: the result codes of the picture -/

theorem impl_load_code (mgr : LoaderMgr) (p : Picture.Impl) (path : String) :
    (Picture.Impl.load mgr p path).1 =
      match mgr.loader path with
      | none => Result.NonSupport
      | some l => if (mgr.read l).1 then Result.Success else Result.Unknown := by
  unfold Picture.Impl.load
  cases mgr.loader path with
  | none => rfl
  | some l =>
    dsimp only []
    cases (mgr.read l).1 <;> rfl

theorem impl_loadData_code (mgr : LoaderMgr) (p : Picture.Impl) (d : List Nat) (size : Nat) :
    (Picture.Impl.loadData mgr p d size).1 =
      match mgr.loaderData d size with
      | none => Result.NonSupport
      | some l => if (mgr.read l).1 then Result.Success else Result.Unknown := by
  unfold Picture.Impl.loadData
  cases mgr.loaderData d size with
  | none => rfl
  | some l =>
    dsimp only []
    cases (mgr.read l).1 <;> rfl

theorem load_code_ne (r : Option Loader) (f : Loader → Bool) :
    (match r with
      | none => Result.NonSupport
      | some l => if f l then Result.Success else Result.Unknown) ≠ Result.InvalidArguments := by
  cases r with
  | none => exact fun h => by cases h
  | some l =>
    dsimp only []
    split_ifs <;> exact fun h => by cases h

/-- C27: `Picture::load (path)` returns `InvalidArguments` iff `path` is empty, and
`Picture::load (data, size)` iff `data` is null or `size` is 0; otherwise `load` returns
`NonSupport` when the loader manager has no loader for the input, `Unknown` when the
loader's `read` fails, and `Success` otherwise; `Picture::viewbox` returns
`InsufficientCondition` iff no loader is set, and otherwise `Success` with the loader's
`vx`, `vy`, `vw`, `vh`. -/
theorem picture_result_codes (mgr : LoaderMgr) (p : Picture.Impl) (path : String)
    (data : Option (List Nat)) (size : Nat) (x y w h : Rat) :
    ((Picture.load mgr p path).1 = Result.InvalidArguments ↔ path = "") ∧
    (path ≠ "" → (Picture.load mgr p path).1 =
      match mgr.loader path with
      | none => Result.NonSupport
      | some l => if (mgr.read l).1 then Result.Success else Result.Unknown) ∧
    ((Picture.loadData mgr p data size).1 = Result.InvalidArguments ↔ data = none ∨ size = 0) ∧
    (∀ d, data = some d → size ≠ 0 → (Picture.loadData mgr p data size).1 =
      match mgr.loaderData d size with
      | none => Result.NonSupport
      | some l => if (mgr.read l).1 then Result.Success else Result.Unknown) ∧
    ((Picture.viewbox p (some x) (some y) (some w) (some h)).1 = Result.InsufficientCondition ↔
      p.loader = none) ∧
    (∀ l, p.loader = some l → Picture.viewbox p (some x) (some y) (some w) (some h) =
      (Result.Success, some l.vx, some l.vy, some l.vw, some l.vh)) := by
  refine ⟨?_, ?_, ?_, ?_, ?_, ?_⟩
  · unfold Picture.load
    by_cases hp : path = ""
    · rw [if_pos ((String.isEmpty_iff path).2 hp)]
      exact ⟨fun _ => hp, fun _ => rfl⟩
    · rw [if_neg (fun hc => hp ((String.isEmpty_iff path).1 hc)), impl_load_code]
      exact ⟨fun hc => (load_code_ne _ _ hc).elim, fun hc => (hp hc).elim⟩
  · intro hp
    unfold Picture.load
    rw [if_neg (fun hc => hp ((String.isEmpty_iff path).1 hc)), impl_load_code]
  · unfold Picture.loadData
    cases data with
    | none => exact ⟨fun _ => Or.inl rfl, fun _ => rfl⟩
    | some d =>
      dsimp only []
      by_cases hs : size ≤ 0
      · rw [if_pos hs]
        exact ⟨fun _ => Or.inr (by omega), fun _ => rfl⟩
      · rw [if_neg hs, impl_loadData_code]
        constructor
        · exact fun hc => (load_code_ne _ _ hc).elim
        · rintro (hc | hc)
          · cases hc
          · omega
  · intro d hd hs
    subst hd
    unfold Picture.loadData
    dsimp only []
    rw [if_neg (by omega), impl_loadData_code]
  · unfold Picture.viewbox Picture.Impl.viewbox
    cases p.loader with
    | none => exact ⟨fun _ => rfl, fun _ => rfl⟩
    | some l =>
      constructor
      · intro hc
        cases hc
      · intro hc
        cases hc
  · intro l hl
    unfold Picture.viewbox Picture.Impl.viewbox
    rw [hl]
    rfl

theorem picture_result_codes_witness :
    (Picture.load svgOnly {} "logo.svg").1 =
      (match svgOnly.loader "logo.svg" with
      | none => Result.NonSupport
      | some l => if (svgOnly.read l).1 then Result.Success else Result.Unknown) :=
  (picture_result_codes svgOnly {} "logo.svg" none 0 0 0 0 0).2.1 (by decide)

end ThorVG

namespace ThorVG

/-! ## C28: the stroke setters -/

theorem newStroke_stroke (s : Shape.Impl) :
    (Shape.Impl.newStroke s).stroke = some s.strokeOf ∧
    Shape.Impl.newStroke s = { s with stroke := some s.strokeOf } := by
  unfold Shape.Impl.newStroke Shape.Impl.strokeOf
  cases hs : s.stroke with
  | none => exact ⟨rfl, rfl⟩
  | some st =>
    refine ⟨?_, ?_⟩
    · rw [if_neg (by simp)]
      exact hs
    · rw [if_neg (by simp)]
      cases s
      cases hs
      rfl

theorem flag_or_stroke (f : Nat) :
    (f ||| RenderUpdateFlag.Stroke).testBit 3 = true ∧
    ∀ i, i ≠ 3 → (f ||| RenderUpdateFlag.Stroke).testBit i = f.testBit i := by
  have e : RenderUpdateFlag.Stroke = 2 ^ 3 := rfl
  rw [e]
  constructor
  · rw [Nat.testBit_or, Nat.testBit_two_pow_self, Bool.or_true]
  · intro i hi
    rw [Nat.testBit_or, Nat.testBit_two_pow_of_ne (Ne.symm hi), Bool.or_false]

/-- C28: a stroke created by a stroke setter has the cap `Square` (and the join `Bevel`,
the width 0, no dash), so the first of `strokeWidth`, `strokeJoin`, `strokeColor`,
`strokeDash` called on a shape leaves it with a stroke of cap `Square`; each stroke setter
returns `true`, changes only its own field of the stroke (the dash pattern with its
count for `strokeDash`), sets the `Stroke` bit of the update flags and leaves the other
stroke fields, the path, the fill, the fill color, the engine data and the other bits of
the flags as they were. -/
theorem stroke_setters (s : Shape.Impl) (width : Rat) (cap : StrokeCap) (join : StrokeJoin)
    (r g b a : Nat) (pattern : List Rat) (cnt : Nat) :
    (s.stroke = none → s.strokeOf = {} ∧ s.strokeOf.cap = StrokeCap.Square) ∧
    (∀ st, s.stroke = some st → s.strokeOf = st) ∧
    Shape.Impl.strokeWidth s width =
      (true, { s with stroke := some { s.strokeOf with width := width },
                      flag := s.flag ||| RenderUpdateFlag.Stroke }) ∧
    Shape.Impl.strokeCap s cap =
      (true, { s with stroke := some { s.strokeOf with cap := cap },
                      flag := s.flag ||| RenderUpdateFlag.Stroke }) ∧
    Shape.Impl.strokeJoin s join =
      (true, { s with stroke := some { s.strokeOf with join := join },
                      flag := s.flag ||| RenderUpdateFlag.Stroke }) ∧
    Shape.Impl.strokeColor s r g b a =
      (true, { s with stroke := some { s.strokeOf with color := (r, g, b, a) },
                      flag := s.flag ||| RenderUpdateFlag.Stroke }) ∧
    (cnt ≤ pattern.length → ∃ buf, buf.take cnt = pattern.take cnt ∧
      Shape.Impl.strokeDash s pattern cnt =
        some (true, { s with stroke := some { s.strokeOf with dashPattern := some buf,
                                                              dashCnt := cnt },
                             flag := s.flag ||| RenderUpdateFlag.Stroke })) ∧
    ((s.flag ||| RenderUpdateFlag.Stroke).testBit 3 = true ∧
      ∀ i, i ≠ 3 → (s.flag ||| RenderUpdateFlag.Stroke).testBit i = s.flag.testBit i) := by
  obtain ⟨h1, h2⟩ := newStroke_stroke s
  refine ⟨?_, ?_, ?_, ?_, ?_, ?_, ?_, flag_or_stroke s.flag⟩
  · intro h
    unfold Shape.Impl.strokeOf
    rw [h]
    exact ⟨rfl, rfl⟩
  · intro st h
    unfold Shape.Impl.strokeOf
    rw [h]
    rfl
  · unfold Shape.Impl.strokeWidth
    dsimp only []
    rw [h2]
  · unfold Shape.Impl.strokeCap
    dsimp only []
    rw [h2]
  · unfold Shape.Impl.strokeJoin
    dsimp only []
    rw [h2]
  · unfold Shape.Impl.strokeColor
    dsimp only []
    rw [h2]
  · intro hlen
    unfold Shape.Impl.strokeDash
    dsimp only []
    rw [h2]
    dsimp only []
    rw [if_neg (by omega)]
    by_cases hc : s.strokeOf.dashCnt ≠ cnt
    · rw [if_pos hc]
      refine ⟨_, ?_, rfl⟩
      rw [List.take_append_of_le_length (by rw [List.length_take]; omega)]
      rw [List.take_take, min_self]
    · rw [if_neg hc]
      refine ⟨_, ?_, rfl⟩
      rw [List.take_append_of_le_length (by rw [List.length_take]; omega)]
      rw [List.take_take, min_self]

theorem stroke_setters_witness :
    ∃ buf, buf.take 2 = [(5 : Rat), 3].take 2 ∧
      Shape.Impl.strokeDash {} [5, 3] 2 =
        some (true, { ({} : Shape.Impl) with
          stroke := some { ({} : Shape.Impl).strokeOf with dashPattern := some buf, dashCnt := 2 },
          flag := ({} : Shape.Impl).flag ||| RenderUpdateFlag.Stroke }) :=
  (stroke_setters {} 0 StrokeCap.Round StrokeJoin.Round 0 0 0 0 [5, 3] 2).2.2.2.2.2.2.1
    (by decide)

end ThorVG

namespace ThorVG

/-! ## C29: the pending update flags of a shape -/

/-- C29 (amended): the pending update flags of a shape are cleared by
`Shape::Impl::update`, not by `render`: after `update` returns, with `true` or with
`false`, the shape's flag is `None`, and `render` returns what the renderer's `render`
returns and leaves the shape, its flag included, as it was; the flags handed to the
renderer's `prepare` by `update` are exactly the bitwise OR of the parent's flags and
the shape's pending flags. -/
theorem shape_update_clears_flags {σ : Type} (renderer : RenderMethod σ) (st : σ)
    (s : Shape.Impl) (transform : Option RenderTransform) (pFlag : Nat) :
    (Shape.Impl.update renderer st s transform pFlag).2.1.flag = RenderUpdateFlag.None ∧
    (Shape.Impl.update renderer st s transform pFlag).2.1.edata =
      (renderer.prepare st s s.edata transform (pFlag ||| s.flag)).2 ∧
    (Shape.Impl.update renderer st s transform pFlag).2.2 =
      (renderer.prepare st s s.edata transform (pFlag ||| s.flag)).1 ∧
    (Shape.Impl.update renderer st s transform pFlag).1 =
      (renderer.prepare st s s.edata transform (pFlag ||| s.flag)).2.isSome ∧
    (Shape.Impl.update flagRecorder [] s transform pFlag).2.2 = [pFlag ||| s.flag] ∧
    (Shape.Impl.render renderer st s).2.1 = s ∧
    (Shape.Impl.render renderer st s).1 = (renderer.render st s s.edata).2 ∧
    (Shape.Impl.render renderer st (Shape.Impl.update renderer st s transform pFlag).2.1).2.1.flag =
      RenderUpdateFlag.None := by
  unfold Shape.Impl.update Shape.Impl.render
  dsimp only []
  refine ⟨?_, ?_, ?_, ?_, ?_, rfl, rfl, ?_⟩
  · split_ifs <;> rfl
  · split_ifs <;> rfl
  · split_ifs <;> rfl
  · split_ifs with h
    · exact h.symm
    · exact (Bool.eq_false_iff.2 h).symm
  · rfl
  · split_ifs <;> rfl

/-- C29, as stated, fails on a shape whose stroke cap was set after its last update:
`render` returns `true` and the shape's flag is still `Stroke`. -/
theorem shape_render_keeps_flags :
    (Shape.Impl.render flagRecorder [] (Shape.Impl.strokeCap {} StrokeCap.Round).2).1 = true ∧
    (Shape.Impl.render flagRecorder [] (Shape.Impl.strokeCap {} StrokeCap.Round).2).2.1.flag =
      RenderUpdateFlag.Stroke ∧
    RenderUpdateFlag.Stroke ≠ RenderUpdateFlag.None := by
  decide

end ThorVG

namespace ThorVG

/-! ## C30: the bisection of a band that overflows -/

end ThorVG

namespace ThorVG

/-- C31: a line whose two end cells are both at or below the bottom of the band
(`y >= cellMax.y`) or both above its top (`y < cellMin.y`) is skipped: `_lineTo`
returns, and the worker it leaves is the worker before with `pos` set to the target;
`area`, `cover`, `cellPos`, `invalid`, the recorded cells and their count are what they
were. -/
theorem lineTo_clipped (rw : RleWorker) (dst : SwPoint)
    (h : ((TRUNCpt rw.pos).y ≥ rw.cellMax.y ∧ (TRUNCpt dst).y ≥ rw.cellMax.y) ∨
      ((TRUNCpt rw.pos).y < rw.cellMin.y ∧ (TRUNCpt dst).y < rw.cellMin.y)) :
    ∃ rw1, _lineTo rw dst = .ok rw1 ∧ rw1 = { rw with pos := dst } ∧ rw1.pos = dst ∧
      rw1.area = rw.area ∧ rw1.cover = rw.cover ∧ rw1.cellPos = rw.cellPos ∧
      rw1.invalid = rw.invalid ∧ rw1.yCells = rw.yCells ∧ rw1.cellsCnt = rw.cellsCnt := by
  have hk : lineSkipped rw dst := h
  refine ⟨{ rw with pos := dst }, ?_, rfl, rfl, rfl, rfl, rfl, rfl, rfl, rfl⟩
  unfold _lineTo
  rw [if_pos hk]

set_option maxRecDepth 100000 in
theorem lineTo_clipped_witness :
    (((TRUNCpt ({ barsWorker with pos := ⟨0, 70000⟩ } : RleWorker).pos).y
          ≥ ({ barsWorker with pos := ⟨0, 70000⟩ } : RleWorker).cellMax.y ∧
        (TRUNCpt ⟨500, 80000⟩).y ≥ ({ barsWorker with pos := ⟨0, 70000⟩ } : RleWorker).cellMax.y) ∨
      ((TRUNCpt ({ barsWorker with pos := ⟨0, 70000⟩ } : RleWorker).pos).y
          < ({ barsWorker with pos := ⟨0, 70000⟩ } : RleWorker).cellMin.y ∧
        (TRUNCpt ⟨500, 80000⟩).y < ({ barsWorker with pos := ⟨0, 70000⟩ } : RleWorker).cellMin.y)) ∧
    ∃ rw1, _lineTo { barsWorker with pos := ⟨0, 70000⟩ } ⟨500, 80000⟩ = .ok rw1 ∧
      rw1 = { ({ barsWorker with pos := ⟨0, 70000⟩ } : RleWorker) with pos := ⟨500, 80000⟩ } ∧
      rw1.pos = ⟨500, 80000⟩ ∧
      rw1.area = ({ barsWorker with pos := ⟨0, 70000⟩ } : RleWorker).area ∧
      rw1.cover = ({ barsWorker with pos := ⟨0, 70000⟩ } : RleWorker).cover ∧
      rw1.cellPos = ({ barsWorker with pos := ⟨0, 70000⟩ } : RleWorker).cellPos ∧
      rw1.invalid = ({ barsWorker with pos := ⟨0, 70000⟩ } : RleWorker).invalid ∧
      rw1.yCells = ({ barsWorker with pos := ⟨0, 70000⟩ } : RleWorker).yCells ∧
      rw1.cellsCnt = ({ barsWorker with pos := ⟨0, 70000⟩ } : RleWorker).cellsCnt :=
  ⟨by decide, lineTo_clipped _ _ (by decide)⟩

end ThorVG

namespace ThorVG

/-! ## C32: the split rule of `_cubicTo` -/

theorem HYPOT_neg (a b : SwPoint) : HYPOT (a - b) = HYPOT (b - a) := by
  show HYPOT ⟨a.x - b.x, a.y - b.y⟩ = HYPOT ⟨b.x - a.x, b.y - a.y⟩
  unfold HYPOT
  dsimp only []
  have e1 : (if a.x - b.x < 0 then -(a.x - b.x) else a.x - b.x)
      = (if b.x - a.x < 0 then -(b.x - a.x) else b.x - a.x) := by
    split_ifs <;> omega
  have e2 : (if a.y - b.y < 0 then -(a.y - b.y) else a.y - b.y)
      = (if b.y - a.y < 0 then -(b.y - a.y) else b.y - a.y) := by
    split_ifs <;> omega
  rw [e1, e2]

end ThorVG

namespace ThorVG

/-! ## C33: what `_findCell` leaves when it returns -/

/-- C33: a call of `_findCell` that returns, made on a worker whose scanline lists are
strictly increasing in x and whose `cellsCnt` is at most `maxCells`, leaves every
scanline list strictly increasing in x and `cellsCnt <= maxCells`; the cell it returns
is in the list of row `cellPos.y` and has `x = min(cellPos.x, cellXCnt)`; the other rows
are what they were, and in the row of the cell either nothing has changed (the cell was
there) or the row had no cell of that x and the new cell, of area and cover 0, is linked
in between the cells before it and the cells after it, which are what they were, with
`cellsCnt` one more. -/
theorem findCell_returns (rw rw1 : RleWorker) (i : Nat)
    (hs : ∀ row ∈ rw.yCells, row.Pairwise (fun a b : Cell => a.x < b.x))
    (hc : rw.cellsCnt ≤ rw.maxCells)
    (h : _findCell rw = .ok (rw1, i)) :
    (∀ row ∈ rw1.yCells, row.Pairwise (fun a b : Cell => a.x < b.x)) ∧
    rw1.cellsCnt ≤ rw1.maxCells ∧
    ∃ row0 row1 cell, 0 ≤ rw.cellPos.y ∧ rw1.cellPos = rw.cellPos ∧
      rw.yCells[rw.cellPos.y.toNat]? = some row0 ∧
      rw1.yCells[rw.cellPos.y.toNat]? = some row1 ∧ row1[i]? = some cell ∧
      cell.x = min rw.cellPos.x rw.cellXCnt ∧
      (∀ y, y ≠ rw.cellPos.y.toNat → rw1.yCells[y]? = rw.yCells[y]?) ∧
      ((rw1 = rw ∧ row1 = row0 ∧ cell ∈ row0) ∨
       ((∀ c ∈ row0, c.x ≠ cell.x) ∧ cell.area = 0 ∧ cell.cover = 0 ∧
         row1 = row0.take i ++ cell :: row0.drop i ∧
         rw1 = { rw with cellsCnt := rw.cellsCnt + 1,
                         yCells := rw.yCells.set rw.cellPos.y.toNat row1 })) := by
  unfold _findCell at h
  dsimp only [] at h
  have hmin : (if rw.cellPos.x > rw.cellXCnt then rw.cellXCnt else rw.cellPos.x)
      = min rw.cellPos.x rw.cellXCnt := by
    rw [min_def]; split_ifs <;> omega
  rw [hmin] at h
  generalize min rw.cellPos.x rw.cellXCnt = x at h ⊢
  by_cases hy : rw.cellPos.y < 0
  · rw [if_pos hy] at h; cases h
  rw [if_neg hy] at h
  cases hrow : rw.yCells[rw.cellPos.y.toNat]? with
  | none => rw [hrow] at h; cases h
  | some row0 =>
    rw [hrow] at h
    dsimp only [] at h
    have hlt : rw.cellPos.y.toNat < rw.yCells.length := by
      rcases Nat.lt_or_ge rw.cellPos.y.toNat rw.yCells.length with h1 | h1
      · exact h1
      · rw [List.getElem?_eq_none h1] at hrow; cases hrow
    have hmem : row0 ∈ rw.yCells := List.getElem?_mem hrow
    have hs0 := hs row0 hmem
    obtain ⟨c, hat, hcx, hzero⟩ := findInRow_at x row0
    obtain ⟨hfresh, hold⟩ := findInRow_fresh x row0 hs0
    by_cases hn : (findInRow x row0).2.2 = true
    · rw [if_pos hn] at h
      by_cases ho : rw.cellsCnt ≥ rw.maxCells
      · rw [if_pos ho] at h; cases h
      rw [if_neg ho] at h
      injection h with h
      injection h with h1 h2
      subst h1
      subst h2
      have hcz := hzero hn
      refine ⟨?_, ?_, row0, (findInRow x row0).1, c, by omega, rfl, rfl, ?_, hat, hcx, ?_, ?_⟩
      · intro row hr
        rcases List.mem_or_eq_of_mem_set hr with hr | hr
        · exact hs row hr
        · rw [hr]; exact findInRow_increasing x row0 hs0
      · show rw.cellsCnt + 1 ≤ rw.maxCells
        omega
      · show (rw.yCells.set rw.cellPos.y.toNat (findInRow x row0).1)[rw.cellPos.y.toNat]? = _
        rw [List.getElem?_set_self hlt]
      · intro y hy1
        show (rw.yCells.set rw.cellPos.y.toNat (findInRow x row0).1)[y]? = _
        rw [List.getElem?_set_ne (Ne.symm hy1)]
      · right
        refine ⟨fun c1 hc1 => ?_, by rw [hcz], by rw [hcz], ?_, rfl⟩
        · rw [hcx]; exact hfresh hn c1 hc1
        · rw [hcz]; exact findInRow_new x row0 hn
    · rw [if_neg hn] at h
      injection h with h
      injection h with h1 h2
      subst h1
      subst h2
      have hn1 : (findInRow x row0).2.2 = false := by
        cases hb : (findInRow x row0).2.2
        · rfl
        · exact absurd hb hn
      have heq := findInRow_old x row0 hn1
      rw [heq] at hat
      obtain ⟨c1, hc1, hg⟩ := hold hn1
      rw [heq, hat] at hg
      injection hg with hg
      subst hg
      exact ⟨hs, hc, row0, row0, c, by omega, rfl, rfl, hrow, hat, hcx, fun _ _ => rfl,
        Or.inl ⟨rfl, rfl, hc1⟩⟩

theorem findCell_returns_witness :
    (∀ row ∈ twoCells.yCells, row.Pairwise (fun a b : Cell => a.x < b.x)) ∧
    twoCells.cellsCnt ≤ twoCells.maxCells ∧
    _findCell twoCells = .ok (threeCells, 1) ∧
    (∀ row ∈ threeCells.yCells, row.Pairwise (fun a b : Cell => a.x < b.x)) ∧
    threeCells.cellsCnt ≤ threeCells.maxCells :=
  have hs : ∀ row ∈ twoCells.yCells, row.Pairwise (fun a b : Cell => a.x < b.x) := by
    intro row hr
    have : row = [⟨1, 5, 5⟩, ⟨4, 0, 1⟩] := by simpa [twoCells] using hr
    subst this
    simp
  ⟨hs, by decide, rfl, (findCell_returns twoCells threeCells 1 hs (by decide) rfl).1,
    (findCell_returns twoCells threeCells 1 hs (by decide) rfl).2.1⟩

end ThorVG

namespace ThorVG

/-! ## C34: the subdivision loop of `_cubicTo` ends and stays within `bezStack` -/

end ThorVG

namespace ThorVG

/-! ## C35: the two scans of `_intersectMaskRegion` over the mask -/

set_option maxRecDepth 100000 in
/-- C35 at a failing input: the mask `twoRowMask` has a span on scanline 0 and one on
scanline 3, so its y-extent is 0 to 3.  The y-extent scan `while (clipSpans1->y)` stops
at the first span: it leaves `maskClipMin = maskClipMax = 0` and never reads the span of
scanline 3; the inner scan `while (clipSpans->y)` for a target span reads no mask span
at all; the target span `[0, 10)` on scanline 3, which the mask overlaps, comes back
unchanged.  On a mask without a span of scanline 0 both scans read on past the last
mask span (no result is defined). -/
theorem maskRegion_scans_stop_at_row_zero :
    spansMinY ⟨2, 0, 4, 255⟩ [⟨2, 3, 4, 255⟩] = 0 ∧
    spansMaxY ⟨2, 0, 4, 255⟩ [⟨2, 3, 4, 255⟩] = 3 ∧
    maskExtent twoRowMask.spans 0 0 = some (0, 0) ∧
    maskInner ⟨0, 0, 10, 255⟩ twoRowMask.spans = some ([], twoRowMask.spans) ∧
    rleAlphaMask ⟨[⟨0, 3, 10, 255⟩], 1⟩ twoRowMask = some ⟨[⟨0, 3, 10, 255⟩], 1⟩ ∧
    maskExtent [⟨0, 5, 3, 255⟩] 5 5 = none ∧
    maskInner ⟨0, 5, 3, 255⟩ [⟨0, 5, 3, 255⟩] = none := by
  decide

end ThorVG

namespace ThorVG

/-! ## C36: cover conservation along a line -/

end ThorVG

namespace ThorVG

/-! ## C37: the swept bands tile the bbox -/

/-- C37: for every bbox of 1 to `2 ^ 37 - 1` scanlines, in every run of the band loops
of `rleRender` (whatever the outline makes of each band: swept, pool overflow, error)
the band stack `bands` never has more than `BAND_SIZE` entries in use, and when the run
does not end at `error` the bands `_sweep` ran on, in the order of the sweeps, adjoin
each other from `cellMin.y` to `cellMax.y`: each lies in the bbox and has a scanline,
each starts where the one before ends, and every scanline of `[cellMin.y, cellMax.y)`
belongs to exactly one of them. -/
theorem rleRender_bands_partition (rle : Option SwRleData) (o : SwOutline) (bbox vp : SwBBox)
    (aa : Bool) (h0 : bbox.min.y < bbox.max.y)
    (h1 : bbox.max.y - bbox.min.y < 137438953472) :
    (rleRender rle o bbox vp aa =
      match (runBandsLog (renderBandList bbox) (initWorker renderBandSize rle o bbox vp aa)).1 with
      | .error _ => none
      | .ok none => some none
      | .ok (some rw) => some (some rw.rle)) ∧
    (runBandsLog (renderBandList bbox) (initWorker renderBandSize rle o bbox vp aa)).2.peak
      ≤ BAND_SIZE ∧
    ∀ rwF, (runBandsLog (renderBandList bbox) (initWorker renderBandSize rle o bbox vp aa)).1
        = .ok (some rwF) →
      StackOk Band.Nonempty bbox.min.y bbox.max.y
        (runBandsLog (renderBandList bbox)
          (initWorker renderBandSize rle o bbox vp aa)).2.swept ∧
      (∀ b ∈ (runBandsLog (renderBandList bbox)
          (initWorker renderBandSize rle o bbox vp aa)).2.swept,
        bbox.min.y ≤ b.min ∧ b.min < b.max ∧ b.max ≤ bbox.max.y) ∧
      (runBandsLog (renderBandList bbox)
        (initWorker renderBandSize rle o bbox vp aa)).2.swept.Pairwise
          (fun a b => a.max ≤ b.min) ∧
      ∀ y, bbox.min.y ≤ y → y < bbox.max.y →
        ((runBandsLog (renderBandList bbox)
          (initWorker renderBandSize rle o bbox vp aa)).2.swept.filter
            (fun b => decide (b.has y))).length = 1 := by
  obtain ⟨c1, c2⟩ := renderBandList_chain bbox (by omega) h1
  refine ⟨?_, ?_, fun rwF h => ?_⟩
  · rw [rleRender_eq_runBands, runBandsLog_fst]
    try rfl
  · have := runBandsLog_peak (renderBandList bbox) (initWorker renderBandSize rle o bbox vp aa)
      (fun b hb => ⟨(c2 b hb).1, by have := (c2 b hb).2; omega⟩)
    simp only [BAND_SIZE]
    omega
  · have hc := runBandsLog_chain _ _ _ _ rwF c1 h
    obtain ⟨p1, p2, p3, _⟩ := stackOk_partition _ _ _ hc
    exact ⟨hc, p1, p2, p3⟩

theorem rleRender_bands_partition_witness :
    (boxAt0 56 64).min.y < (boxAt0 56 64).max.y ∧
    (boxAt0 56 64).max.y - (boxAt0 56 64).min.y < 137438953472 ∧
    (runBandsLog (renderBandList (boxAt0 56 64))
      (initWorker renderBandSize none bars (boxAt0 56 64) (boxAt0 56 64) true)).2.peak
        ≤ BAND_SIZE :=
  ⟨by decide, by decide,
    (rleRender_bands_partition none bars (boxAt0 56 64) (boxAt0 56 64) true (by decide)
      (by decide)).2.1⟩

set_option maxRecDepth 100000 in
/-- A bbox `2 ^ 37` scanlines high: the band count `(int)(2 ^ 37 / 64)` is negative, no
band is set up or swept, and `rleRender` returns the RLE, empty. -/
theorem rleRender_tallBox_sweeps_nothing :
    tallBox.min.y < tallBox.max.y ∧
    rleRender none wedge tallBox tallBox true = some (some ⟨[], 0⟩) ∧
    renderBandList tallBox = [] ∧
    (runBandsLog (renderBandList tallBox)
      (initWorker renderBandSize none wedge tallBox tallBox true)).2.swept = [] ∧
    ((runBandsLog (renderBandList tallBox)
      (initWorker renderBandSize none wedge tallBox tallBox true)).2.swept.filter
        (fun b => decide (b.has 0))).length = 0 := by
  decide

end ThorVG

namespace ThorVG

/-! ## C38: an attribute with an empty key -/

theorem attrTurn_empty_key (xmlEntity : List (List Char)) :
    attrTurn xmlEntity ['=', 'a'] 2 0 = .again := rfl

theorem attrLoop_empty_key (xmlEntity : List (List Char)) (fuel : Nat) :
    attrLoop xmlEntity ['=', 'a'] 2 fuel 0 [] = none := by
  induction fuel with
  | zero => rfl
  | succ n ih =>
    show (if 0 < 2 then
        match attrTurn xmlEntity ['=', 'a'] 2 0 with
        | .ret value => some (value, [])
        | .again => attrLoop xmlEntity ['=', 'a'] 2 n 0 []
        | .attribute key value itr =>
          attrLoop xmlEntity ['=', 'a'] 2 n itr ([] ++ [(key, value)])
      else some (true, [])) = none
    rw [if_pos (by decide), attrTurn_empty_key]
    exact ih

/-- C38 at a failing input: on the buffer `=a` of two bytes the first turn of the loop
of `simpleXmlParseAttributes` finds the empty key (`keyEnd == key`) and ends by
`continue` with the read position `itr` where it was, at 0; every later turn is the
same turn, and the function has not returned after any number of turns, whatever the
table of entities. -/
theorem simpleXmlParseAttributes_empty_key_loops :
    ∀ (xmlEntity : List (List Char)) (fuel : Nat),
      attrTurn xmlEntity ['=', 'a'] 2 0 = .again ∧
      simpleXmlParseAttributes xmlEntity fuel (some ['=', 'a']) 2 true = none :=
  fun xmlEntity fuel => ⟨attrTurn_empty_key xmlEntity, attrLoop_empty_key xmlEntity fuel⟩

end ThorVG

namespace ThorVG

/-- C39, the enumerators as declared: the seven flags `Path`, `Color`, `Gradient`,
`Stroke`, `Transform`, `Image` and `Opacity` are the single bits 1, 2, 4, 8, 16, 32 and
64 and their bitwise OR is 127, but `All` is declared 64, the value of `Opacity`: it is
not that OR, and `All & f` is 0, not `f`, for each of the six flags `f` below `Opacity`. -/
theorem renderUpdateFlag_all_is_opacity :
    [RenderUpdateFlag.Path, RenderUpdateFlag.Color, RenderUpdateFlag.Gradient,
      RenderUpdateFlag.Stroke, RenderUpdateFlag.Transform, RenderUpdateFlag.Image,
      RenderUpdateFlag.Opacity] = [2 ^ 0, 2 ^ 1, 2 ^ 2, 2 ^ 3, 2 ^ 4, 2 ^ 5, 2 ^ 6] ∧
    (RenderUpdateFlag.Path ||| RenderUpdateFlag.Color ||| RenderUpdateFlag.Gradient |||
      RenderUpdateFlag.Stroke ||| RenderUpdateFlag.Transform ||| RenderUpdateFlag.Image |||
      RenderUpdateFlag.Opacity) = 127 ∧
    RenderUpdateFlag.All = 64 ∧ RenderUpdateFlag.All = RenderUpdateFlag.Opacity ∧
    (RenderUpdateFlag.All &&& RenderUpdateFlag.Path) = 0 ∧
    (RenderUpdateFlag.All &&& RenderUpdateFlag.Color) = 0 ∧
    (RenderUpdateFlag.All &&& RenderUpdateFlag.Gradient) = 0 ∧
    (RenderUpdateFlag.All &&& RenderUpdateFlag.Stroke) = 0 ∧
    (RenderUpdateFlag.All &&& RenderUpdateFlag.Transform) = 0 ∧
    (RenderUpdateFlag.All &&& RenderUpdateFlag.Image) = 0 ∧
    (RenderUpdateFlag.All &&& RenderUpdateFlag.Opacity) = RenderUpdateFlag.Opacity := by
  decide

end ThorVG

namespace ThorVG

/-! ## C40: the pairs of a style string -/

/-- C40: on the style string `k1:v1;k2:v2;...;kn:vn` of `n` pairs whose keys hold no `:`,
whose keys and values hold no `;`, and whose keys are not empty once stripped,
`simpleXmlParseW3CAttribute` returns true after exactly `n` calls of the callback, the
i-th with `ki` and `vi` without their leading and trailing white space; on the empty
string it returns true without a call, and on a null buffer false. -/
theorem simpleXmlParseW3CAttribute_style (ps : List (List Char × List Char))
    (h : ∀ kv ∈ ps, ':' ∉ kv.1 ∧ ';' ∉ kv.1 ∧ ';' ∉ kv.2 ∧ trimmed kv.1 ≠ []) :
    simpleXmlParseW3CAttribute (some (styleOf ps)) =
      some (true, ps.map (fun kv => (trimmed kv.1, trimmed kv.2))) ∧
    simpleXmlParseW3CAttribute (some []) = some (true, []) ∧
    simpleXmlParseW3CAttribute none = some (false, []) := by
  refine ⟨?_, rfl, rfl⟩
  by_cases hps : ps = []
  · subst hps
    rfl
  · unfold simpleXmlParseW3CAttribute
    dsimp only []
    rw [if_neg (styleOf_ne_nil ps hps), w3cLoop_style ps hps h _ (styleOf_length ps)]
    rfl

set_option maxRecDepth 100000 in
/-- The style string ` fill: red ;x :1`. -/
theorem simpleXmlParseW3CAttribute_style_witness :
    (∀ kv ∈ [([' ', 'f', 'i', 'l', 'l'], [' ', 'r', 'e', 'd', ' ']), (['x', ' '], ['1'])],
      ':' ∉ kv.1 ∧ ';' ∉ kv.1 ∧ ';' ∉ kv.2 ∧ trimmed kv.1 ≠ []) ∧
    styleOf [([' ', 'f', 'i', 'l', 'l'], [' ', 'r', 'e', 'd', ' ']), (['x', ' '], ['1'])] =
      [' ', 'f', 'i', 'l', 'l', ':', ' ', 'r', 'e', 'd', ' ', ';', 'x', ' ', ':', '1'] ∧
    simpleXmlParseW3CAttribute
      (some (styleOf [([' ', 'f', 'i', 'l', 'l'], [' ', 'r', 'e', 'd', ' ']), (['x', ' '], ['1'])])) =
      some (true, [(['f', 'i', 'l', 'l'], ['r', 'e', 'd']), (['x'], ['1'])]) :=
  ⟨by decide, by decide,
    (simpleXmlParseW3CAttribute_style
      [([' ', 'f', 'i', 'l', 'l'], [' ', 'r', 'e', 'd', ' ']), (['x', ' '], ['1'])]
      (by decide)).1.trans (by decide)⟩

end ThorVG
